import Mathlib

/-!
Verification of the all-to-all merge pipeline of `abstract_comm.hpp`.

Shallow embedding of `AsyncAlltoallManager` (Graph500-SSSP, `src/sssp/abstract_comm.hpp`):
the pointer/buffer expansion (`collect_targets_ptr`, `collect_targets_buffer`), the in-place
compaction (`remove_sentinels_ptr`, `remove_sentinels_buffer`) and their callers.

Conventions of the embedding.
* A `uint32_t* stream` is a total map `Nat → Nat` from word index to word; the index is relative
  to the pointer handed to the routine.  `int32_t* vertices_pos` is a total map `Nat → Int`.
* `int` positions are natural numbers (streams are far shorter than `2^31` words).
* A `float` is represented by its IEEE-754 binary32 bit pattern, so `castFloatToUInt32` and
  `castUInt32ToFloat` are the identity on that representation.
-/

namespace AbstractComm

/-! ## binary32 arithmetic on bit patterns -/

/-- Exponent field of a binary32 bit pattern. -/
def f32exp (w : Nat) : Nat := (w / 2 ^ 23) % 256

/-- Fraction field of a binary32 bit pattern. -/
def f32frac (w : Nat) : Nat := w % 2 ^ 23

/-- Sign bit of a binary32 bit pattern. -/
def f32neg (w : Nat) : Bool := (w / 2 ^ 31) % 2 = 1

/-- NaN test: exponent all ones and non-zero fraction. -/
def f32isNaN (w : Nat) : Bool := f32exp w = 255 && f32frac w ≠ 0

/-- Magnitude in units of `2^-149`; an infinity gets `2^277`, above every finite magnitude. -/
def f32mag (w : Nat) : Nat :=
  if f32exp w = 0 then f32frac w else (2 ^ 23 + f32frac w) * 2 ^ (f32exp w - 1)

/-- Signed value in units of `2^-149` (meaningful for every pattern that is not a NaN). -/
def f32val (w : Nat) : Int :=
  if f32neg w then - (f32mag w : Int) else (f32mag w : Int)

/-- The C comparison `a < b` on floats. -/
def f32lt (a b : Nat) : Bool := !f32isNaN a && !f32isNaN b && decide (f32val a < f32val b)

/-- The C comparison `a >= b` on floats. -/
def f32ge (a b : Nat) : Bool := !f32isNaN a && !f32isNaN b && decide (f32val b ≤ f32val a)

/-- The C comparison `a <= b` on floats. -/
def f32le (a b : Nat) : Bool := !f32isNaN a && !f32isNaN b && decide (f32val a ≤ f32val b)

/-- Number of low bits that do not fit a 24-bit significand: the least `s ≥ from` with
`n / 2^s < 2^24`, searched upwards (`fuel` bounds the search; 256 covers every sum of two
binary32 magnitudes). -/
def f32shift (n : Nat) : Nat → Nat → Nat
  | 0, s => s
  | fuel + 1, s => if n / 2 ^ s < 2 ^ 24 then s else f32shift n fuel (s + 1)

/-- Round a magnitude (units of `2^-149`) to binary32, ties to even; the result is the bit
pattern without sign, `0x7F800000` on overflow. -/
def f32round (n : Nat) : Nat :=
  if n < 2 ^ 24 then n
  else
    let shift := f32shift n 256 1
    let q := n / 2 ^ shift
    let r := n % 2 ^ shift
    let half := 2 ^ (shift - 1)
    let q1 := if half < r ∨ (r = half ∧ q % 2 = 1) then q + 1 else q
    let bits := shift * 2 ^ 23 + q1
    if 255 * 2 ^ 23 ≤ bits then 0x7F800000 else bits

/-- Sign bit as a word. -/
def f32signBit (neg : Bool) : Nat := if neg then 2 ^ 31 else 0

/-- The C addition `a + b` on floats (round to nearest, ties to even). -/
def f32add (a b : Nat) : Nat :=
  if f32isNaN a then a % 2 ^ 32 ||| 0x00400000
  else if f32isNaN b then b % 2 ^ 32 ||| 0x00400000
  else if f32exp a = 255 then
    (if f32exp b = 255 ∧ f32neg a ≠ f32neg b then 0xFFC00000 else a % 2 ^ 32)
  else if f32exp b = 255 then b % 2 ^ 32
  else if f32neg a = f32neg b then f32signBit (f32neg a) + f32round (f32mag a + f32mag b)
  else if f32mag a = f32mag b then 0
  else if f32mag b < f32mag a then f32signBit (f32neg a) + f32round (f32mag a - f32mag b)
  else f32signBit (f32neg b) + f32round (f32mag b - f32mag a)

/-! ## Data model -/

/-- A word stream (`uint32_t*`): word index to word. -/
abbrev Stream := Nat → Nat

/-- The position scratch (`int32_t* vertices_pos`): local vertex to stream position or `-1`. -/
abbrev VPos := Nat → Int

/-- Array store `a[i] = v`. -/
def upd {β : Type} (a : Nat → β) (i : Nat) (v : β) : Nat → β :=
  fun x => if x = i then v else a x

/-- The first `len` words of a stream starting at `off`, as a list. -/
def words (s : Stream) (off len : Nat) : List Nat :=
  (List.range len).map (fun k => s (off + k))

/-- Sentinel weight `castFloatToUInt32(-1.0f)`. -/
def get_sentinel : Nat := 0xBF800000

/-- `struct Buffer`: the memory behind `ptr` and the number of filled words. -/
structure Buffer where
  ptr : Nat → Nat
  length : Nat

/-- `struct PointerData`; `header` is the 64-bit pattern of the `int64_t`, `dist` a binary32
pattern. -/
structure PointerData where
  ptr : Nat
  header : Nat
  dist : Nat
  length : Nat
deriving DecidableEq, Repr

/-- `struct CommTarget`; `cur_buf = none` stands for `cur_buf.ptr == NULL`. -/
structure CommTarget where
  reserved_size_ : Nat
  filled_size_ : Nat
  cur_buf : Option Buffer
  send_data : List Buffer
  send_ptr : List PointerData

/-- The view of `SsspState` the manager reads.  `target_is_settled e` stands for
`SsspState::target_is_settled(vertices_is_settled_, e, r_bits, lgl, L)` on the edge word `e`
(`sssp_state.hpp` is not part of the sources, so the bitmap test is a parameter). -/
structure SsspState where
  target_is_settled : Nat → Bool
  with_settled_ : Bool
  is_bellman_ford_ : Bool
  is_light_phase_ : Bool
  is_presolving_mode_ : Bool
  bucket_upper : Nat

/-- The view of `Graph2DCSR` the manager reads; edge words are 64-bit patterns, weights
binary32 patterns. -/
structure Graph2DCSR where
  edge_array_ : Nat → Nat
  edge_weight_array_ : Nat → Nat
  local_bits_ : Nat
  r_bits_ : Nat
  num_local_verts_ : Nat

/-- The mask `(LocalVertex(1) << graph.local_bits_) - 1`. -/
def lmask (graph : Graph2DCSR) : Nat := (1 <<< graph.local_bits_) - 1

/-- Modelled from the spec: `comp::isLT` of `utils.hpp` (not part of the sources); section 4.2
describes the heavy-phase filter as keeping `source_dist + edge_weight ≥ bucket_upper`, so
`isLT a b` is the float comparison `a < b`. -/
def isLT (a b : Nat) : Bool := f32lt a b

/-- The stream, the scratch and the write position threaded through the expansion loops. -/
structure MergeState where
  stream : Stream
  vertices_pos : VPos
  pos : Nat

/-! ## `collect_targets_ptr` -/

/-- The dedup tail shared by the three edge loops of `collect_targets_ptr`: first candidate for
`tgt_local` is appended and registered; a strictly smaller one replaces its twin, whose weight
becomes the sentinel; any other candidate is skipped. -/
def ptr_dedup_put (st : MergeState) (tgt_local dist_new : Nat) : MergeState :=
  if st.vertices_pos tgt_local < 0 then
    { vertices_pos := upd st.vertices_pos tgt_local st.pos
      stream := upd (upd st.stream st.pos tgt_local) (st.pos + 1) dist_new
      pos := st.pos + 2 }
  else
    let twin_pos := (st.vertices_pos tgt_local).toNat
    if f32lt dist_new (st.stream (twin_pos + 1)) then
      { vertices_pos := upd st.vertices_pos tgt_local st.pos
        stream := upd (upd (upd st.stream (twin_pos + 1) get_sentinel) st.pos tgt_local)
          (st.pos + 1) dist_new
        pos := st.pos + 2 }
    else st

/-- Loop body of the Bellman-Ford branch for edge `i` of `buffer`. -/
def ptr_edge_bellman_ford (state : SsspState) (graph : Graph2DCSR) (buffer : PointerData)
    (st : MergeState) (i : Nat) : MergeState :=
  let pos := buffer.ptr + i
  if state.target_is_settled (graph.edge_array_ pos) then st
  else
    let dist_new := f32add buffer.dist (graph.edge_weight_array_ pos)
    let tgt_local := graph.edge_array_ pos &&& lmask graph
    ptr_dedup_put st tgt_local dist_new

/-- Loop body of the light-phase branch for edge `i` of `buffer`. -/
def ptr_edge_light (state : SsspState) (graph : Graph2DCSR) (buffer : PointerData)
    (st : MergeState) (i : Nat) : MergeState :=
  let pos := buffer.ptr + i
  if state.with_settled_ && state.target_is_settled (graph.edge_array_ pos) then st
  else
    let dist_new := f32add (graph.edge_weight_array_ pos) buffer.dist
    if f32ge dist_new state.bucket_upper then st
    else
      let tgt_local := graph.edge_array_ pos &&& lmask graph
      ptr_dedup_put st tgt_local dist_new

/-- Loop body of the heavy-phase branch for edge `i` of `buffer`. -/
def ptr_edge_heavy (state : SsspState) (graph : Graph2DCSR) (buffer : PointerData)
    (st : MergeState) (i : Nat) : MergeState :=
  let buffer_is_heavy := buffer.header.testBit 63
  let pos := buffer.ptr + i
  if state.with_settled_ && state.target_is_settled (graph.edge_array_ pos) then st
  else
    let dist_new := f32add (graph.edge_weight_array_ pos) buffer.dist
    if !buffer_is_heavy && isLT dist_new state.bucket_upper then st
    else
      let tgt_local := graph.edge_array_ pos &&& lmask graph
      ptr_dedup_put st tgt_local dist_new

/-- The edge loop body selected by the phase flags. -/
def ptr_edge (state : SsspState) (graph : Graph2DCSR) (buffer : PointerData)
    (st : MergeState) (i : Nat) : MergeState :=
  if state.is_bellman_ford_ then ptr_edge_bellman_ford state graph buffer st i
  else if state.is_light_phase_ then ptr_edge_light state graph buffer st i
  else ptr_edge_heavy state graph buffer st i

/-- One iteration of the loop over `node.send_ptr`: header words, placeholder, the edge loop
`for i in 0 .. buffer_length`, then the back-patched length. -/
def collect_ptr_block (state : SsspState) (graph : Graph2DCSR) (st : MergeState)
    (buffer : PointerData) : MergeState :=
  if buffer.length = 0 then st
  else
    let s1 := upd st.stream st.pos ((buffer.header / 2 ^ 32) % 2 ^ 32)
    let s2 := upd s1 (st.pos + 1) (buffer.header % 2 ^ 32)
    let node_send_pos_org := st.pos + 3
    let st1 : MergeState := { st with stream := s2, pos := node_send_pos_org }
    let st2 := (List.range buffer.length).foldl (ptr_edge state graph buffer) st1
    let buffer_length_filtered := st2.pos - node_send_pos_org
    { st2 with stream := upd st2.stream (node_send_pos_org - 1) buffer_length_filtered }

/-- `collect_targets_ptr(node, sssp_state, graph, stream, vertices_pos)`; `pos` of the result is
the returned `node_send_pos`. -/
def collect_targets_ptr (node : CommTarget) (state : SsspState) (graph : Graph2DCSR)
    (stream : Stream) (vertices_pos : VPos) : MergeState :=
  node.send_ptr.foldl (collect_ptr_block state graph) ⟨stream, vertices_pos, 0⟩

/-! ## `remove_sentinels_ptr` -/

/-- The inner loop `for c = row_start; c < row_end; c += 2` with `k` iterations left; `pos` is
`length_new`. -/
def rs_ptr_row (graph : Graph2DCSR) : Nat → Nat → MergeState → MergeState
  | 0, _, st => st
  | k + 1, c, st =>
    if st.stream (c + 1) = get_sentinel then rs_ptr_row graph k (c + 2) st
    else
      let tgt_local := st.stream c &&& lmask graph
      let vp := upd st.vertices_pos tgt_local (-1)
      let s1 := upd st.stream st.pos (st.stream c)
      let s2 := upd s1 (st.pos + 1) (s1 (c + 1))
      rs_ptr_row graph k (c + 2) ⟨s2, vp, st.pos + 2⟩

/-- The outer loop of `remove_sentinels_ptr` from read position `i`; every iteration advances
`i` by at least 3, so `fuel = length` iterations always reach `i ≥ length`. -/
def rs_ptr_loop (graph : Graph2DCSR) (length : Nat) : Nat → Nat → MergeState → MergeState
  | 0, _, st => st
  | fuel + 1, i, st =>
    if i < length then
      let length_i := st.stream (i + 2)
      let row_start := i + 3
      let s1 := upd st.stream st.pos (st.stream i)
      let s2 := upd s1 (st.pos + 1) (s1 (i + 1))
      let length_new_prev := st.pos + 3
      let st1 := rs_ptr_row graph ((length_i + 1) / 2) row_start ⟨s2, st.vertices_pos, length_new_prev⟩
      let n_new := st1.pos - length_new_prev
      let st2 : MergeState :=
        if n_new = 0 then { st1 with pos := st1.pos - 3 }
        else { st1 with stream := upd st1.stream (length_new_prev - 1) n_new }
      rs_ptr_loop graph length fuel (i + 1 + (2 + length_i)) st2
    else st

/-- `remove_sentinels_ptr(graph, length, stream, vertices_pos)`; `pos` of the result is the
returned `length_new`. -/
def remove_sentinels_ptr (graph : Graph2DCSR) (length : Nat) (stream : Stream)
    (vertices_pos : VPos) : MergeState :=
  rs_ptr_loop graph length length 0 ⟨stream, vertices_pos, 0⟩

/-! ## `collect_targets_buffer` -/

/-- `memcpy(dst + off, src, len * sizeof(uint32_t))`. -/
def memcpy (dst : Stream) (off : Nat) (src : Nat → Nat) (len : Nat) : Stream :=
  fun x => if off ≤ x ∧ x < off + len then src (x - off) else dst x

/-- Loop body of the copy loop over `node.send_data`; the state is `(stream, offset)`. -/
def ctb_copy_step (acc : Stream × Nat) (buffer : Buffer) : Stream × Nat :=
  if buffer.length = 0 then acc
  else (memcpy acc.1 acc.2 buffer.ptr buffer.length, acc.2 + buffer.length)

/-- Body of the dedup pass of `collect_targets_buffer` for the payload pair at `j` (after the
header skip): mask the vertex word, then register the pair, or mark the twin or the pair itself
with the sentinel; `skip` is `SKIP_FILTERING && is_presolving`. -/
def ctb_body (graph : Graph2DCSR) (skip : Bool) (j : Nat) (st : Stream × VPos) :
    Stream × VPos :=
  let s1 := upd st.1 j (st.1 j &&& lmask graph)
  let tgt_local := s1 j
  if skip then (s1, st.2)
  else if st.2 tgt_local < 0 then (s1, upd st.2 tgt_local (j : Int))
  else
    let twin_pos := (st.2 tgt_local).toNat
    let weight := s1 (j + 1)
    let twin_weight := s1 (twin_pos + 1)
    if f32lt weight twin_weight then
      (upd s1 (twin_pos + 1) get_sentinel, upd st.2 tgt_local (j : Int))
    else (upd s1 (j + 1) get_sentinel, st.2)

/-- The dedup pass `for j = stream_offset; j < stream_end; j += 2` of `collect_targets_buffer`
from position `j0`.  Every iteration advances `j` by at least 2, so `fuel = length` iterations
reach `j ≥ stream_end`. -/
def ctb_loop (graph : Graph2DCSR) (skip : Bool) (stream_end : Nat) :
    Nat → Nat → Stream × VPos → Stream × VPos
  | 0, _, st => st
  | fuel + 1, j0, st =>
    if j0 < stream_end then
      let j := if st.1 j0 &&& 0x80000000 ≠ 0 then j0 + 2 else j0
      ctb_loop graph skip stream_end fuel (j + 2) (ctb_body graph skip j st)
    else st

/-- `collect_targets_buffer(node, graph, sssp_state, stream_offset, stream, vertices_pos)` for
the scratch-array build (`USE_PROPER_HASHMAP` off); `SKIP_FILTERING` is the compile-time
option.  `pos` of the result is the returned `length`. -/
def collect_targets_buffer (SKIP_FILTERING : Bool) (node : CommTarget) (graph : Graph2DCSR)
    (state : SsspState) (stream_offset : Nat) (stream : Stream) (vertices_pos : VPos) :
    MergeState :=
  let copied := node.send_data.foldl ctb_copy_step (stream, stream_offset)
  let stream_end := copied.2
  let length := stream_end - stream_offset
  let r := ctb_loop graph (SKIP_FILTERING && state.is_presolving_mode_) stream_end length
    stream_offset (copied.1, vertices_pos)
  ⟨r.1, r.2, length⟩

/-! ## `remove_sentinels_buffer` -/

/-- The `if (v & 0x80000000u)` branch of `remove_sentinels_buffer` at read position `red_pos`:
drop a directly preceding header, copy this header. -/
def rs_buffer_header (write_start red_pos : Nat) (st : MergeState) : MergeState :=
  let write_pos :=
    if st.pos ≠ write_start ∧ st.stream (st.pos - 2) &&& 0x80000000 ≠ 0 then st.pos - 2
    else st.pos
  let s1 := upd st.stream write_pos (st.stream red_pos)
  let s2 := upd s1 (write_pos + 1) (s1 (red_pos + 1))
  ⟨s2, st.vertices_pos, write_pos + 2⟩

/-- The rest of the loop body of `remove_sentinels_buffer` for the pair at `red_pos`: skip a
sentinel pair, else copy the pair and reset the scratch entry of its vertex. -/
def rs_buffer_pair (graph : Graph2DCSR) (red_pos : Nat) (st : MergeState) : MergeState :=
  let v := st.stream red_pos
  if st.stream (red_pos + 1) = get_sentinel then st
  else
    let s1 := upd st.stream st.pos (st.stream red_pos)
    let s2 := upd s1 (st.pos + 1) (s1 (red_pos + 1))
    let tgt_local := v &&& lmask graph
    ⟨s2, upd st.vertices_pos tgt_local (-1), st.pos + 2⟩

/-- The loop of `remove_sentinels_buffer` from read position `red_pos0`; `pos` is `write_pos`.
Every iteration advances `red_pos` by at least 2. -/
def rs_buffer_loop (graph : Graph2DCSR) (write_start read_end : Nat) :
    Nat → Nat → MergeState → MergeState
  | 0, _, st => st
  | fuel + 1, red_pos0, st =>
    if red_pos0 < read_end then
      let is_header := st.stream red_pos0 &&& 0x80000000 ≠ 0
      let st1 := if is_header then rs_buffer_header write_start red_pos0 st else st
      let red_pos := if is_header then red_pos0 + 2 else red_pos0
      rs_buffer_loop graph write_start read_end fuel (red_pos + 2)
        (rs_buffer_pair graph red_pos st1)
    else st

/-- `remove_sentinels_buffer(graph, read_start, write_start, length, stream, vertices_pos)`;
`pos` of the result is the returned `length_reduced = write_pos - write_start`. -/
def remove_sentinels_buffer (graph : Graph2DCSR) (read_start write_start length : Nat)
    (stream : Stream) (vertices_pos : VPos) : MergeState :=
  let st := rs_buffer_loop graph write_start (read_start + length) length read_start
    ⟨stream, vertices_pos, write_start⟩
  { st with pos := st.pos - write_start }

/-! ## The per-destination merge of `run_with_both`, and of `run_ptr` / `run_buffer` -/

/-- Result of the expansion of one destination: the slab stream (relative to
`stream + offset_targets`), the scratch slice, and the two compacted lengths. -/
structure MergeResult where
  stream : Stream
  vertices_pos : VPos
  length_ptr : Nat
  length_ptr_reduced : Nat
  length_buffer : Nat
  length_buffer_reduced : Nat

/-- The four calls of the expand pass of `run_with_both` for one destination (lines 710-743),
on the stream `stream + offset_targets` and the slice `vertices_pos + pos_offset`. -/
def run_with_both_merge (SKIP_FILTERING : Bool) (node : CommTarget) (state : SsspState)
    (graph : Graph2DCSR) (use_ptr use_buffer : Bool) (stream : Stream) (vertices_pos : VPos) :
    MergeResult :=
  let a : MergeState :=
    if use_ptr then collect_targets_ptr node state graph stream vertices_pos
    else ⟨stream, vertices_pos, 0⟩
  let length_ptr := a.pos
  let b : MergeState :=
    if use_buffer then
      collect_targets_buffer SKIP_FILTERING node graph state length_ptr a.stream a.vertices_pos
    else ⟨a.stream, a.vertices_pos, 0⟩
  let length_buffer := b.pos
  let c : MergeState :=
    if use_ptr then remove_sentinels_ptr graph length_ptr b.stream b.vertices_pos
    else ⟨b.stream, b.vertices_pos, 0⟩
  let length_ptr_reduced := c.pos
  let d : MergeState :=
    if use_buffer then
      remove_sentinels_buffer graph length_ptr length_ptr_reduced length_buffer c.stream
        c.vertices_pos
    else ⟨c.stream, c.vertices_pos, 0⟩
  ⟨d.stream, d.vertices_pos, length_ptr, length_ptr_reduced, length_buffer, d.pos⟩

/-- The expansion of one destination in `run_ptr` (lines 909-910). -/
def run_ptr_merge (node : CommTarget) (state : SsspState) (graph : Graph2DCSR)
    (stream : Stream) (vertices_pos : VPos) : MergeState :=
  let a := collect_targets_ptr node state graph stream vertices_pos
  remove_sentinels_ptr graph a.pos a.stream a.vertices_pos

/-- The expansion of one destination in `run_buffer` (lines 1012-1018). -/
def run_buffer_merge (SKIP_FILTERING : Bool) (node : CommTarget) (state : SsspState)
    (graph : Graph2DCSR) (stream : Stream) (vertices_pos : VPos) : MergeState :=
  let a := collect_targets_buffer SKIP_FILTERING node graph state 0 stream vertices_pos
  remove_sentinels_buffer graph 0 0 a.pos a.stream a.vertices_pos

/-- Scenario E1: edges `(1, 2.0) (2, 3.0) (1, 1.5) (3, 4.0)`. -/
def e1_graph : Graph2DCSR :=
  { edge_array_ := fun i => [1, 2, 1, 3].getD i 0
    edge_weight_array_ := fun i => [0x40000000, 0x40400000, 0x3FC00000, 0x40800000].getD i 0
    local_bits_ := 4, r_bits_ := 0, num_local_verts_ := 16 }

/-- Scenario E1: one pointer block `ptr = 0, length = 4, header = 0x00000001_00000002,
dist = 1.0`. -/
def e1_node : CommTarget :=
  { reserved_size_ := 0, filled_size_ := 0, cur_buf := none, send_data := []
    send_ptr := [⟨0, 0x0000000100000002, 0x3F800000, 4⟩] }

/-- Scenario E1: `is_light_phase = false`, `with_settled = false`, outside Bellman-Ford. -/
def e1_state (bucket_upper : Nat) : SsspState :=
  { target_is_settled := fun _ => false, with_settled_ := false, is_bellman_ford_ := false
    is_light_phase_ := false, is_presolving_mode_ := false, bucket_upper := bucket_upper }

/-- Scenario E2: the two puts `[(5, 1.0)]` and `[(5, 2.0)]` as two queued buffers. -/
def e2_node : CommTarget :=
  { reserved_size_ := 0, filled_size_ := 0, cur_buf := none, send_ptr := []
    send_data := [⟨fun i => [5, 0x3F800000].getD i 0, 2⟩, ⟨fun i => [5, 0x40000000].getD i 0, 2⟩] }

/-- A destination with the pointer block of scenario E1 and two queued buffers: a header, the
pairs `(5, 1.0) (1, 2.0)`, a second header, the pairs `(0x10000001, 3.0) (2, 2.0)`; then the
pair `(5, 2.0)`. -/
def both_node : CommTarget :=
  { e1_node with
    send_data :=
      [⟨fun i => [0x80000007, 9, 5, 0x3F800000, 1, 0x40000000, 0x80000008, 3, 0x10000001,
          0x40400000, 2, 0x40000000].getD i 0, 12⟩,
        ⟨fun i => [5, 0x40000000].getD i 0, 2⟩] }

/-! ## Ghost layouts and the dedup invariant -/

/-- Positions of the `k` pairs of a row starting at `c`. -/
def rowPos : Nat → Nat → List Nat
  | _, 0 => []
  | c, k + 1 => c :: rowPos (c + 2) k

/-- The `k` pairs of a row starting at `c`, read from the stream. -/
def readRow (s : Stream) : Nat → Nat → List (Nat × Nat)
  | _, 0 => []
  | c, k + 1 => (s c, s (c + 1)) :: readRow s (c + 2) k

/-- Words of a list of pairs. -/
def flattenPairs : List (Nat × Nat) → List Nat
  | [] => []
  | p :: r => p.1 :: p.2 :: flattenPairs r

/-- The dedup invariant between a stream, the scratch slice of `L` entries, the positions `P`
of the pairs written so far and the candidates `C` seen so far. -/
structure DInv (L : Nat) (s : Stream) (vp : VPos) (P : List Nat) (C : List (Nat × Nat)) :
    Prop where
  sep : P.Pairwise (fun a b => a + 2 ≤ b)
  reg : ∀ p ∈ P, s (p + 1) ≠ get_sentinel → vp (s p) = (p : Int)
  neg : ∀ v, v < L → vp v < 0 → vp v = -1
  alive : ∀ v, v < L → ¬ vp v < 0 → ∃ p ∈ P, vp v = (p : Int) ∧ s p = v ∧ s (p + 1) ≠ get_sentinel
  cand : ∀ c ∈ C, ∃ p ∈ P, vp c.1 = (p : Int) ∧ f32lt c.2 (s (p + 1)) = false
  mem : ∀ p ∈ P, s (p + 1) ≠ get_sentinel → (s p, s (p + 1)) ∈ C
  bnd : ∀ c ∈ C, c.1 < L


/-! ## Layout of a pointer-origin stream -/

/-- Positions of all pairs of a pointer-origin stream that starts at `i` and whose blocks hold
`ks` pairs each (a block is two header words, a length word and its pairs). -/
def pairPos : Nat → List Nat → List Nat
  | _, [] => []
  | i, k :: ks => rowPos (i + 3) k ++ pairPos (i + 3 + 2 * k) ks

/-- Positions of the length words of the blocks. -/
def lenPos : Nat → List Nat → List Nat
  | _, [] => []
  | i, k :: ks => (i + 2) :: lenPos (i + 3 + 2 * k) ks

/-- End position of the blocks. -/
def layEnd : Nat → List Nat → Nat
  | i, [] => i
  | i, k :: ks => layEnd (i + 3 + 2 * k) ks

/-- The stream holds blocks of `ks` pairs from `i` on: every length word is twice the number of
pairs of its block. -/
def PtrLay (s : Stream) : Nat → List Nat → Prop
  | _, [] => True
  | i, k :: ks => s (i + 2) = 2 * k ∧ PtrLay s (i + 3 + 2 * k) ks

/-- A block of a pointer-origin stream: the two header words and the pairs. -/
abbrev PtrBlock := Nat × Nat × List (Nat × Nat)

/-- The blocks read from the stream along a layout. -/
def readBlocks (s : Stream) : Nat → List Nat → List PtrBlock
  | _, [] => []
  | i, k :: ks => (s i, s (i + 1), readRow s (i + 3) k) :: readBlocks s (i + 3 + 2 * k) ks

/-- Wire format of the pointer-origin payload (section 6):
`[hdr_hi][hdr_lo][block_len][local_vertex, weight_bits]×(block_len/2)` repeated. -/
def encodePtr : List PtrBlock → List Nat
  | [] => []
  | b :: r => b.1 :: b.2.1 :: (2 * b.2.2.length) :: (flattenPairs b.2.2 ++ encodePtr r)

/-- All pairs of a list of blocks, in stream order. -/
def blockPairs (bs : List PtrBlock) : List (Nat × Nat) := bs.flatMap (fun b => b.2.2)

/-- A pair is live when its weight word is not the sentinel. -/
def live (p : Nat × Nat) : Bool := p.2 ≠ get_sentinel

/-- Compaction of blocks: sentinel pairs go, and so does a block left without pairs. -/
def compactPtr (bs : List PtrBlock) : List PtrBlock :=
  (bs.map (fun b => (b.1, b.2.1, b.2.2.filter live))).filter (fun b => b.2.2 ≠ [])

/-! ## The candidates of the pointer expansion (sections 4.2 and 4.3) -/

/-- Edge `i` of the descriptor survives the filter of the active phase. -/
def ptr_passes (state : SsspState) (graph : Graph2DCSR) (buffer : PointerData) (i : Nat) : Bool :=
  let e := graph.edge_array_ (buffer.ptr + i)
  let w := graph.edge_weight_array_ (buffer.ptr + i)
  if state.is_bellman_ford_ then !state.target_is_settled e
  else if state.is_light_phase_ then
    !(state.with_settled_ && state.target_is_settled e) &&
      !f32ge (f32add w buffer.dist) state.bucket_upper
  else
    !(state.with_settled_ && state.target_is_settled e) &&
      !(!buffer.header.testBit 63 && isLT (f32add w buffer.dist) state.bucket_upper)

/-- The candidate `(edge target & lmask, source_dist + edge_weight)` of edge `i`. -/
def ptr_candidate (state : SsspState) (graph : Graph2DCSR) (buffer : PointerData) (i : Nat) :
    Nat × Nat :=
  let e := graph.edge_array_ (buffer.ptr + i)
  let w := graph.edge_weight_array_ (buffer.ptr + i)
  (e &&& lmask graph, if state.is_bellman_ford_ then f32add buffer.dist w else f32add w buffer.dist)

/-- Candidates of one descriptor, in edge order. -/
def block_candidates (state : SsspState) (graph : Graph2DCSR) (buffer : PointerData) :
    List (Nat × Nat) :=
  ((List.range buffer.length).filter (ptr_passes state graph buffer)).map
    (ptr_candidate state graph buffer)

/-- Candidates of a destination's pointer queue, in queue order. -/
def ptr_candidates (node : CommTarget) (state : SsspState) (graph : Graph2DCSR) :
    List (Nat × Nat) :=
  node.send_ptr.flatMap (block_candidates state graph)

/-- State of the expansion inside a block: `ks` are the finished blocks, `k` the pairs of the
open block, `C` the candidates seen. -/
structure EInv (L : Nat) (st : MergeState) (ks : List Nat) (k : Nat) (C : List (Nat × Nat)) :
    Prop where
  lay : PtrLay st.stream 0 ks
  pos : st.pos = layEnd 0 ks + 3 + 2 * k
  inv : DInv L st.stream st.vertices_pos (pairPos 0 ks ++ rowPos (layEnd 0 ks + 3) k) C

/-- State of the expansion between blocks. -/
structure BInv (L : Nat) (st : MergeState) (ks : List Nat) (C : List (Nat × Nat)) : Prop where
  lay : PtrLay st.stream 0 ks
  pos : st.pos = layEnd 0 ks
  inv : DInv L st.stream st.vertices_pos (pairPos 0 ks) C

/-- The pairs at the positions `P`. -/
def readPairs (s : Stream) (P : List Nat) : List (Nat × Nat) :=
  P.map (fun p => (s p, s (p + 1)))

/-- The pairs at the positions `P` whose weight is not the sentinel. -/
def livePairs (s : Stream) (P : List Nat) : List (Nat × Nat) :=
  (readPairs s P).filter live

/-! ## Layout of a buffer-origin stream -/

/-- End position of a buffer-origin stream from `i` whose tokens are payload pairs, each with
(`true`) or without (`false`) a header pair in front. -/
def bufEnd : Nat → List Bool → Nat
  | i, [] => i
  | i, h :: hs => bufEnd (i + (if h then 4 else 2)) hs

/-- Positions of the payload pairs. -/
def bufPos : Nat → List Bool → List Nat
  | _, [] => []
  | i, h :: hs => (if h then i + 2 else i) :: bufPos (i + (if h then 4 else 2)) hs

/-- The stream holds the tokens from `i` on: a header pair has the `0x80000000` flag on its
first word and is followed by a pair without it; every other pair has no flag. -/
def BufLay (s : Stream) : Nat → List Bool → Prop
  | _, [] => True
  | i, h :: hs =>
    (if h then s i &&& 0x80000000 ≠ 0 ∧ s (i + 2) &&& 0x80000000 = 0
      else s i &&& 0x80000000 = 0) ∧
    BufLay s (i + (if h then 4 else 2)) hs

/-- The candidates of a buffer-origin stream: its payload pairs with the vertex word masked. -/
def buf_candidates (graph : Graph2DCSR) (s : Stream) (P : List Nat) : List (Nat × Nat) :=
  P.map (fun p => (s p &&& lmask graph, s (p + 1)))

/-- Tokens of a buffer-origin stream: the optional header pair and the payload pair. -/
def readToks (s : Stream) : Nat → List Bool → List (Option (Nat × Nat) × (Nat × Nat))
  | _, [] => []
  | i, h :: hs =>
    ((if h then some (s i, s (i + 1)) else none),
      (s (if h then i + 2 else i), s ((if h then i + 2 else i) + 1))) ::
    readToks s (i + (if h then 4 else 2)) hs

/-- A header pair at the end of the written pairs (latest first) is dropped. -/
def dropHdr : List (Nat × Nat) → List (Nat × Nat)
  | [] => []
  | x :: r => if x.1 &&& 0x80000000 ≠ 0 then r else x :: r

/-- Compaction of one token onto the written pairs (latest first): a header replaces a header
written just before it; a payload pair is written unless its weight is the sentinel. -/
def compactTok (racc : List (Nat × Nat)) (tok : Option (Nat × Nat) × (Nat × Nat)) :
    List (Nat × Nat) :=
  let r1 := match tok.1 with
    | some h => h :: dropHdr racc
    | none => racc
  if live tok.2 then tok.2 :: r1 else r1

/-- Compaction of a buffer-origin token list; the result lists the written pairs, latest
first. -/
def compactBuf (racc : List (Nat × Nat)) (toks : List (Option (Nat × Nat) × (Nat × Nat))) :
    List (Nat × Nat) :=
  toks.foldl compactTok racc

/-- The pairs `racc` (latest first) are what `remove_sentinels_buffer` has written from
`write_start` up to its `write_pos`. -/
structure AccInv (write_start : Nat) (st : MergeState) (racc : List (Nat × Nat)) : Prop where
  pos : st.pos = write_start + 2 * racc.length
  out : words st.stream write_start (2 * racc.length) = flattenPairs racc.reverse

/-- A word list cut into pairs. -/
def toPairs : List Nat → List (Nat × Nat)
  | v :: w :: rest => (v, w) :: toPairs rest
  | _ => []

/-- A pair counts as payload when its first word has no header flag. -/
def isPayload (p : Nat × Nat) : Bool := decide (p.1 &&& 0x80000000 = 0)

/-- The payload pairs of a word list: the pairs whose first word has no header flag. -/
def payloadPairs (l : List Nat) : List (Nat × Nat) :=
  (toPairs l).filter isPayload

/-- Well-formed buffer-origin words: even length, every flagged (header) pair is followed by a
pair without flag, and no weight word of a payload pair is the sentinel. -/
def wellFormedBuf : List Nat → Bool
  | [] => true
  | [_] => false
  | v :: w :: rest =>
    if v &&& 0x80000000 ≠ 0 then
      match rest with
      | v2 :: w2 :: rest2 =>
        decide (v2 &&& 0x80000000 = 0) && decide (w2 ≠ get_sentinel) && wellFormedBuf rest2
      | _ => false
    else decide (w ≠ get_sentinel) && wellFormedBuf rest

/-- Words of a queued buffer: the first `length` words behind `ptr`. -/
def buffer_words (b : Buffer) : List Nat := words b.ptr 0 b.length

/-- Concatenation of the queued buffers of a destination, in queue order. -/
def queued_words (node : CommTarget) : List Nat := node.send_data.flatMap buffer_words

/-- The buffer-origin candidates of a destination: the payload pairs of the queued words with
the vertex word masked by `lmask`. -/
def buffer_candidates (node : CommTarget) (graph : Graph2DCSR) : List (Nat × Nat) :=
  (payloadPairs (queued_words node)).map (fun p => (p.1 &&& lmask graph, p.2))

/-- The candidates of a destination in the merge of `run_with_both`: the pointer-origin ones
when `use_ptr`, then the buffer-origin ones when `use_buffer`. -/
def merge_candidates (node : CommTarget) (state : SsspState) (graph : Graph2DCSR)
    (use_ptr use_buffer : Bool) : List (Nat × Nat) :=
  (if use_ptr then ptr_candidates node state graph else []) ++
    (if use_buffer then buffer_candidates node graph else [])

/-- What the merge of one destination leaves: the first `lp` words encode pointer blocks, the
next `lb` words are the pairs `out`; the pairs of the blocks together with the payload pairs of
`out` carry pairwise different vertices, each is a candidate that no candidate for its vertex
undercuts, every candidate's vertex has its pair, no such pair has the sentinel weight, and the
scratch slice is clean. -/
def MergePost (L : Nat) (C : List (Nat × Nat)) (stream : Stream) (vertices_pos : VPos)
    (lp lb : Nat) : Prop :=
  ∃ (blocks : List PtrBlock) (out : List (Nat × Nat)),
    words stream 0 lp = encodePtr blocks ∧
    words stream lp lb = flattenPairs out ∧
    (∀ b ∈ blocks, b.2.2 ≠ []) ∧
    ((blockPairs blocks ++ out.filter isPayload).map Prod.fst).Nodup ∧
    (∀ x ∈ blockPairs blocks ++ out.filter isPayload,
      x ∈ C ∧ x.2 ≠ get_sentinel ∧ ∀ c ∈ C, c.1 = x.1 → f32lt c.2 x.2 = false) ∧
    (∀ c ∈ C, ∃ w, (c.1, w) ∈ blockPairs blocks ++ out.filter isPayload) ∧
    (∀ v, v < L → vertices_pos v = -1)

/-- The no-filter setting of the conservation property: `with_settled = false`,
`is_presolving_mode = true`, `bucket_upper = +∞`, in the light phase. -/
def conservation_state : SsspState :=
  { target_is_settled := fun _ => false, with_settled_ := false, is_bellman_ford_ := false
    is_light_phase_ := true, is_presolving_mode_ := true, bucket_upper := 0x7F800000 }

/-- Scenario E3: two edges with weights `1.0` and `3.0`. -/
def e3_graph : Graph2DCSR :=
  { edge_array_ := fun i => [1, 2].getD i 0
    edge_weight_array_ := fun i => [0x3F800000, 0x40400000].getD i 0
    local_bits_ := 4, r_bits_ := 0, num_local_verts_ := 16 }

/-- Scenario E3: one descriptor with `source_dist = 8.0`. -/
def e3_node : CommTarget :=
  { reserved_size_ := 0, filled_size_ := 0, cur_buf := none, send_data := []
    send_ptr := [⟨0, 0x0000000100000002, 0x41000000, 2⟩] }

/-- Scenario E3: light phase with `bucket_upper = 10.0`. -/
def e3_state : SsspState :=
  { target_is_settled := fun _ => false, with_settled_ := false, is_bellman_ford_ := false
    is_light_phase_ := true, is_presolving_mode_ := false, bucket_upper := 0x41200000 }

/-- Scenario E4: edges to the local vertices 7, 2 and 7 (edge words 7, 2, 23 with four local
bits), weights `1.0`, `3.0`, `1.5`. -/
def e4_graph : Graph2DCSR :=
  { edge_array_ := fun i => [7, 2, 23].getD i 0
    edge_weight_array_ := fun i => [0x3F800000, 0x40400000, 0x3FC00000].getD i 0
    local_bits_ := 4, r_bits_ := 0, num_local_verts_ := 16 }

/-- Scenario E4: one descriptor with `source_dist = 1.0`. -/
def e4_node : CommTarget :=
  { reserved_size_ := 0, filled_size_ := 0, cur_buf := none, send_data := []
    send_ptr := [⟨0, 0x0000000100000002, 0x3F800000, 3⟩] }

/-- Scenario E4: Bellman-Ford with `with_settled = true` and local vertex 7 settled. -/
def e4_state : SsspState :=
  { target_is_settled := fun e => e % 16 = 7, with_settled_ := true, is_bellman_ford_ := true
    is_light_phase_ := false, is_presolving_mode_ := false, bucket_upper := 0x41200000 }

/-! ## The driver `run_with_both` -/

/-- `flush(node)`: a current buffer is queued with `length = filled_size_`. -/
def flush (node : CommTarget) : CommTarget :=
  match node.cur_buf with
  | some buf =>
    { node with send_data := node.send_data ++ [⟨buf.ptr, node.filled_size_⟩], cur_buf := none }
  | none => node

/-- `get_node_send_length_buffer(node, ...)`: the sum of the queued buffer lengths. -/
def get_node_send_length_buffer (node : CommTarget) : Nat :=
  node.send_data.foldl (fun node_send_length b => node_send_length + b.length) 0

/-- One iteration of the loop over `node.send_ptr` in `get_node_send_length_ptr`;
`NODE_SEND_COUNT_TYPE` is the compile-time option. -/
def send_length_ptr_block (NODE_SEND_COUNT_TYPE : Nat) (state : SsspState) (graph : Graph2DCSR)
    (node_send_length : Nat) (buffer : PointerData) : Nat :=
  if buffer.length = 0 then node_send_length
  else
    let n := node_send_length + 3
    if state.is_bellman_ford_ then
      (List.range buffer.length).foldl (fun a i =>
        if state.target_is_settled (graph.edge_array_ (buffer.ptr + i)) then a else a + 2) n
    else if state.is_light_phase_ then
      if NODE_SEND_COUNT_TYPE = 1 then
        (List.range buffer.length).foldl (fun a i =>
          if state.with_settled_ && state.target_is_settled (graph.edge_array_ (buffer.ptr + i))
          then a
          else if f32ge (f32add (graph.edge_weight_array_ (buffer.ptr + i)) buffer.dist)
            state.bucket_upper then a
          else a + 2) n
      else n + 2 * buffer.length
    else
      (List.range buffer.length).foldl (fun a i =>
        if state.with_settled_ && state.target_is_settled (graph.edge_array_ (buffer.ptr + i))
        then a
        else if NODE_SEND_COUNT_TYPE = 1 then a
        else a + 2) n

/-- `get_node_send_length_ptr(node, sssp_state, graph)`. -/
def get_node_send_length_ptr (NODE_SEND_COUNT_TYPE : Nat) (node : CommTarget)
    (state : SsspState) (graph : Graph2DCSR) : Nat :=
  node.send_ptr.foldl (send_length_ptr_block NODE_SEND_COUNT_TYPE state graph) 0

/-- What `run_with_both` takes from its surroundings: the communicator size and rank, the
provider's `max_size()` (bytes) and `element_size()`, the static schedule of the OpenMP loops
(`thread_of c` runs iteration `c`), the compile-time options, and for every round the OR of
the other ranks' `has_data` flags (the `MPI_Allreduce`). -/
structure A2AEnv where
  comm_size_ : Nat
  comm_rank : Nat
  max_size : Nat
  es : Nat
  thread_of : Nat → Nat
  SKIP_FILTERING : Bool
  NODE_SEND_COUNT_TYPE : Nat
  others_have_data : Nat → Bool

/-- The manager state `run_with_both` works on: the comm targets, the two estimate arrays, the
staging buffer (`second_buffer()`) and the whole position scratch. -/
structure A2AState where
  node_ : List CommTarget
  node_send_lengths_ptr : List Nat
  node_send_lengths_buffer : List Nat
  stream : Stream
  vertices_pos : VPos

/-- Body of the count pass (lines 625-658) for loop index `c`; the state is `counts` and the
`thread_has_ptr` flag of every thread. -/
def count_step (env : A2AEnv) (loop : Nat) (lens_ptr lens_buffer : List Nat)
    (acc : List Nat × (Nat → Bool)) (c : Nat) : List Nat × (Nat → Bool) :=
  let i := (c + env.comm_rank) % env.comm_size_
  let max_size_per_node := env.max_size / (env.es * env.comm_size_)
  let lp := lens_ptr.getD i 0
  let lb := lens_buffer.getD i 0
  if lp = 0 ∧ lb = 0 then acc
  else
    let cnt := if lb > 0 then 1 + lb else 1
    if lp = 0 then (acc.1.set i (if lb = 0 then 0 else cnt), acc.2)
    else if lb + lp > max_size_per_node ∧ (acc.2 (env.thread_of c) = true ∨ loop = 0) then
      (acc.1.set i (if lb = 0 then 0 else cnt), acc.2)
    else (acc.1.set i (cnt + lp), upd acc.2 (env.thread_of c) true)

/-- The count pass of one round: `counts`, all zero on entry. -/
def count_pass (env : A2AEnv) (loop : Nat) (st : A2AState) : List Nat :=
  ((List.range env.comm_size_).foldl
    (count_step env loop st.node_send_lengths_ptr st.node_send_lengths_buffer)
    (List.replicate env.comm_size_ 0, fun _ => false)).1

/-- Modelled from the spec: `scatter_.sum()` of `ScatterContext` (not part of the sources),
"prefix sum → offsets + send_lengths"; this is `offsets[i]`, the sum of the counts before
`i`. -/
def scatter_offset (counts : List Nat) (i : Nat) : Nat := (counts.take i).sum

/-- The pointer `base + k` into an array. -/
def shift {β : Type} (a : Nat → β) (base : Nat) : Nat → β := fun k => a (base + k)

/-- The array after a callee wrote through the pointer `base + k`. -/
def unshift {β : Type} (a : Nat → β) (base : Nat) (v : Nat → β) : Nat → β :=
  fun x => if base ≤ x then v (x - base) else a x

/-- Body of the expand pass (lines 690-750) for loop index `c`; the state is the manager state
and `send_lengths`. -/
def expand_step (env : A2AEnv) (graph : Graph2DCSR) (state : SsspState) (counts : List Nat)
    (acc : A2AState × List Nat) (c : Nat) : A2AState × List Nat :=
  let i := (c + env.comm_rank) % env.comm_size_
  let st := acc.1
  if counts.getD i 0 = 0 then acc
  else
    let node := st.node_.getD i ⟨0, 0, none, [], []⟩
    let lb := st.node_send_lengths_buffer.getD i 0
    let use_buffer := decide (lb ≠ 0)
    let use_ptr := decide (counts.getD i 0 > lb + 1)
    let offset_org := scatter_offset counts i
    let stream0 := upd st.stream offset_org 0
    let offset_targets := offset_org + 1
    let pos_offset := env.thread_of c * graph.num_local_verts_
    let r := run_with_both_merge env.SKIP_FILTERING node state graph use_ptr use_buffer
      (shift stream0 offset_targets) (shift st.vertices_pos pos_offset)
    let stream1 := unshift stream0 offset_targets r.stream
    let stream2 := if use_ptr then upd stream1 offset_org r.length_ptr_reduced else stream1
    let send_length := 1 + (if use_ptr then r.length_ptr_reduced else 0) +
      (if use_buffer then r.length_buffer_reduced else 0)
    let node1 := if use_ptr then { node with send_ptr := [] } else node
    let node2 := if use_buffer then { node1 with send_data := [] } else node1
    ({ node_ := st.node_.set i node2
       node_send_lengths_ptr :=
        if use_ptr then st.node_send_lengths_ptr.set i 0 else st.node_send_lengths_ptr
       node_send_lengths_buffer :=
        if use_buffer then st.node_send_lengths_buffer.set i 0 else st.node_send_lengths_buffer
       stream := stream2
       vertices_pos := unshift st.vertices_pos pos_offset r.vertices_pos },
      acc.2.set i (if send_length = 1 then 0 else send_length))

/-- How the round loop of `run_with_both` ends. -/
inductive RunOutcome where
  | finished (st : A2AState) (loop : Nat)
  | aborted (loop : Nat)
  | out_of_fuel

/-- The round loop `for (loop = 0; true; ++loop)` of `run_with_both` with `fuel` rounds left.
The exchange (`alltoallv`) and the receive loop hand the slabs to the provider and do not
touch the queues; they are left out. -/
def run_with_both_loop (env : A2AEnv) (graph : Graph2DCSR) (state : SsspState) :
    Nat → Nat → A2AState → RunOutcome
  | 0, _, _ => RunOutcome.out_of_fuel
  | fuel + 1, loop, st =>
    let counts := count_pass env loop st
    let send_count := counts.sum
    if send_count > env.max_size / env.es then RunOutcome.aborted loop
    else if loop > 0 ∧ ¬ (send_count > 0 ∨ env.others_have_data loop = true) then
      RunOutcome.finished st loop
    else
      let r := (List.range env.comm_size_).foldl (expand_step env graph state counts)
        (st, counts)
      run_with_both_loop env graph state fuel (loop + 1) r.1

/-- `run_with_both(graph, sssp_state, vertices_pos)` on the comm targets `node_`: flush and
estimate every target, then the round loop. -/
def run_with_both (env : A2AEnv) (graph : Graph2DCSR) (state : SsspState)
    (node_ : List CommTarget) (stream : Stream) (vertices_pos : VPos) (fuel : Nat) :
    RunOutcome :=
  let flushed := node_.map flush
  run_with_both_loop env graph state fuel 0
    { node_ := flushed
      node_send_lengths_ptr :=
        flushed.map (fun n => get_node_send_length_ptr env.NODE_SEND_COUNT_TYPE n state graph)
      node_send_lengths_buffer := flushed.map get_node_send_length_buffer
      stream := stream
      vertices_pos := vertices_pos }

/-- The queues left when the round loop has exited: for every comm target its `send_ptr` and
the lengths of its `send_data`. -/
def final_queues : RunOutcome → Option (List (List PointerData × List Nat))
  | RunOutcome.finished st _ =>
    some (st.node_.map (fun n => (n.send_ptr, n.send_data.map (fun b => b.length))))
  | _ => none

/-- A single rank with one thread, a 4 KiB provider and no other rank. -/
def single_rank_env : A2AEnv :=
  { comm_size_ := 1, comm_rank := 0, max_size := 4096, es := 4, thread_of := fun _ => 0
    SKIP_FILTERING := false, NODE_SEND_COUNT_TYPE := 0, others_have_data := fun _ => false }

/-- A comm target whose pointer queue holds one descriptor of length 0 (what
`put_ptr(0, 0, 0, 0.0f, target)` queues). -/
def empty_descriptor_node : CommTarget :=
  { reserved_size_ := 0, filled_size_ := 0, cur_buf := none, send_data := []
    send_ptr := [⟨0, 0, 0, 0⟩] }

/-! ## The producers `put_ptr` and `put` -/

/-- `put_ptr(ptr, length, header, dist, target)`: under `send_mutex`, push
`PointerData{ptr, header, dist, length}` on `node_[target].send_ptr`. -/
def put_ptr (node_ : List CommTarget) (ptr length header dist target : Nat) :
    List CommTarget :=
  List.modify
    (fun node => { node with send_ptr := node.send_ptr ++ [⟨ptr, header, dist, length⟩] })
    target node_

/-- The arguments of one `put_ptr` call. -/
structure PtrCall where
  ptr : Nat
  length : Nat
  header : Nat
  dist : Nat
  target : Nat
deriving DecidableEq, Repr

/-- A sequence of `put_ptr` calls, in call order. -/
def put_ptr_calls (node_ : List CommTarget) (calls : List PtrCall) : List CommTarget :=
  calls.foldl (fun n c => put_ptr n c.ptr c.length c.header c.dist c.target) node_

/-- Two comm targets with, for the first, a current buffer and a queued buffer. -/
def two_targets : List CommTarget :=
  [{ reserved_size_ := 3, filled_size_ := 3, cur_buf := some ⟨fun i => [7, 8, 9].getD i 0, 0⟩
     send_data := [⟨fun i => [5, 0x3F800000].getD i 0, 2⟩], send_ptr := [⟨4, 1, 0, 2⟩] },
   { reserved_size_ := 0, filled_size_ := 0, cur_buf := none, send_data := []
     send_ptr := [] }]

/-- The comm target built by the constructor `CommTarget()`. -/
def new_target : CommTarget :=
  { reserved_size_ := 0, filled_size_ := 0, cur_buf := none, send_data := [], send_ptr := [] }

/-- `prepare()` on one comm target: `reserved_size_ = filled_size_ = buffer_size_`. -/
def prepare (buffer_size_ : Nat) (node : CommTarget) : CommTarget :=
  { node with reserved_size_ := buffer_size_, filled_size_ := buffer_size_ }

/-- Modelled from the spec: `AlltoallBufferHandler::add(buf, data, offset_words,
length_words)`, "append words to `buf` at `offset_words`" (section 5; the handler is an
abstract class in the sources). -/
def provider_add (buf data : Nat → Nat) (offset length : Nat) : Nat → Nat :=
  memcpy buf offset data length

/-- `put(ptr, length, target)` run by the only producer thread on `node = node_[target]`.
`get_buffer` is the memory of the buffer that `get_send_buffer()` hands out; buffers are
values here, so two buffers never share memory.  The result is `none` when the call does not
return: a spin loop whose condition no other thread changes, or `add` on `cur_buf.ptr == NULL`.
The `length` field of `cur_buf` is dead until `flush` overwrites it and is kept at `0`.  With
`length == 0` the call returns at once (assertions off). -/
def put (buffer_size_ : Nat) (get_buffer : Nat → Nat) (node : CommTarget) (ptr : Nat → Nat)
    (length : Nat) : Option CommTarget :=
  if length = 0 then some node
  else
    let offset := node.reserved_size_
    let node1 : CommTarget := { node with reserved_size_ := node.reserved_size_ + length }
    if offset > buffer_size_ then none
    else if offset + length > buffer_size_ then
      if offset ≠ node1.filled_size_ then none
      else
        let node2 := flush node1
        some { node2 with
          cur_buf := some ⟨provider_add get_buffer ptr 0 length, 0⟩
          filled_size_ := 0 + length
          reserved_size_ := length }
    else
      match node1.cur_buf with
      | none => none
      | some buf =>
        some { node1 with
          cur_buf := some ⟨provider_add buf.ptr ptr offset length, buf.length⟩
          filled_size_ := node1.filled_size_ + length }

/-- A sequence of `put` calls to one target by one thread; a call is the pair
`(ptr, length)`. -/
def put_calls (buffer_size_ : Nat) (get_buffer : Nat → Nat) :
    CommTarget → List Buffer → Option CommTarget
  | node, [] => some node
  | node, c :: cs =>
    match put buffer_size_ get_buffer node c.ptr c.length with
    | none => none
    | some node1 => put_calls buffer_size_ get_buffer node1 cs

/-- What the producer has stored in a comm target: `pre` are the payloads of the calls so far,
`groups` the payloads held by each queued buffer, `cur` those held by the current buffer. -/
structure PutInv (buffer_size_ : Nat) (node : CommTarget) (pre : List (List Nat))
    (groups : List (List (List Nat))) (cur : List (List Nat)) : Prop where
  sizes : node.reserved_size_ = node.filled_size_ ∧ node.filled_size_ ≤ buffer_size_
  split : groups.flatten ++ cur = pre
  queued : node.send_data.map buffer_words = groups.map List.flatten
  bound : ∀ b ∈ node.send_data, b.length ≤ buffer_size_
  current : match node.cur_buf with
    | none => cur = [] ∧ node.filled_size_ = buffer_size_
    | some buf => words buf.ptr 0 node.filled_size_ = cur.flatten ∧ cur ≠ []

/-- Three `put` calls of 2, 2 and 3 words. -/
def three_puts : List Buffer :=
  [⟨fun i => [5, 0x3F800000].getD i 0, 2⟩, ⟨fun i => [6, 0x40000000].getD i 0, 2⟩,
    ⟨fun i => [7, 0x40400000, 9].getD i 0, 3⟩]

/-- Positions of the first header word of the blocks of a pointer-origin stream. -/
def hdrPos : Nat → List Nat → List Nat
  | _, [] => []
  | i, k :: ks => i :: hdrPos (i + 3 + 2 * k) ks

/-- The two header words `collect_targets_ptr` writes for a descriptor: the high and the low
32 bits of the 64-bit header. -/
def header_words (buffer : PointerData) : Nat × Nat :=
  ((buffer.header / 2 ^ 32) % 2 ^ 32, buffer.header % 2 ^ 32)

/-- Two queued buffers: the pair `(5, 1.0)`, then a header pair followed by the pair
`(5, 2.0)`, which the first pair dominates. -/
def trailing_header_node : CommTarget :=
  { reserved_size_ := 0, filled_size_ := 0, cur_buf := none, send_ptr := []
    send_data := [⟨fun i => [5, 0x3F800000].getD i 0, 2⟩,
      ⟨fun i => [0x80000007, 9, 5, 0x40000000].getD i 0, 4⟩] }

/-! ## The driver `run_ptr` -/

/-- The manager state `run_ptr` works on: the comm targets, the estimate array
`node_send_lengths`, the staging buffer and the position scratch. -/
structure PtrRunState where
  node_ : List CommTarget
  node_send_lengths : List Nat
  stream : Stream
  vertices_pos : VPos

/-- State of the count pass of `run_ptr`: `counts`, the `size_thread` of every thread, and
whether `MPI_Abort` was called. -/
structure PtrCount where
  counts : List Nat
  size_thread : Nat → Nat
  aborted : Bool

/-- Body of the count pass of `run_ptr` (lines 833-866) for loop index `c`. -/
def run_ptr_count_step (env : A2AEnv) (n_threads : Nat) (st : PtrRunState) (acc : PtrCount)
    (c : Nat) : PtrCount :=
  let MINIMUM_POINTER_SPACE : Int := 40
  let max_size_per_node := env.max_size / (env.es * env.comm_size_)
  let max_size_per_thread := env.max_size / (env.es * n_threads)
  let i := (c + env.comm_rank) % env.comm_size_
  let node := st.node_.getD i new_target
  let size_thread := acc.size_thread (env.thread_of c)
  if node.send_ptr.length = 0 then acc
  else
    let spare_size : Int := (max_size_per_thread : Int) - (size_thread : Int)
    if spare_size < MINIMUM_POINTER_SPACE then acc
    else
      let node_send_length := st.node_send_lengths.getD i 0
      if node_send_length > max_size_per_node ∧ size_thread > 0 then
        { acc with counts := acc.counts.set i 0 }
      else
        let over := decide (size_thread + node_send_length > max_size_per_thread)
        { counts := acc.counts.set i (if over then 0 else node_send_length)
          size_thread := upd acc.size_thread (env.thread_of c) (size_thread + node_send_length)
          aborted := acc.aborted || (over && decide (size_thread = 0)) }

/-- The count pass of one round of `run_ptr`; `counts` is all zero on entry. -/
def run_ptr_count_pass (env : A2AEnv) (n_threads : Nat) (st : PtrRunState) : PtrCount :=
  (List.range env.comm_size_).foldl (run_ptr_count_step env n_threads st)
    ⟨List.replicate env.comm_size_ 0, fun _ => 0, false⟩

/-- Body of the expand pass of `run_ptr` (lines 892-914) for loop index `c`; the state is the
manager state and `send_lengths`. -/
def run_ptr_expand_step (env : A2AEnv) (graph : Graph2DCSR) (state : SsspState)
    (counts : List Nat) (acc : PtrRunState × List Nat) (c : Nat) : PtrRunState × List Nat :=
  let i := (c + env.comm_rank) % env.comm_size_
  let st := acc.1
  if counts.getD i 0 = 0 then acc
  else
    let node := st.node_.getD i new_target
    if node.send_ptr.length = 0 then acc
    else
      let offset := scatter_offset counts i
      let pos_offset := env.thread_of c * graph.num_local_verts_
      let r := run_ptr_merge node state graph (shift st.stream offset)
        (shift st.vertices_pos pos_offset)
      ({ st with
          node_ := st.node_.set i { node with send_ptr := [] }
          stream := unshift st.stream offset r.stream
          vertices_pos := unshift st.vertices_pos pos_offset r.vertices_pos },
        acc.2.set i r.pos)

/-- How the round loop of `run_ptr` ends. -/
inductive PtrRunOutcome where
  | finished (st : PtrRunState) (loop : Nat)
  | aborted (loop : Nat)
  | out_of_fuel

/-- The round loop `for (loop = 0; ; ++loop)` of `run_ptr` with `fuel` rounds left.  The
exchange and the receive loop do not touch the queues and are left out. -/
def run_ptr_loop (env : A2AEnv) (n_threads : Nat) (graph : Graph2DCSR) (state : SsspState) :
    Nat → Nat → PtrRunState → PtrRunOutcome
  | 0, _, _ => PtrRunOutcome.out_of_fuel
  | fuel + 1, loop, st =>
    let cnt := run_ptr_count_pass env n_threads st
    if cnt.aborted then PtrRunOutcome.aborted loop
    else if loop > 0 ∧ ¬ (cnt.counts.sum > 0 ∨ env.others_have_data loop = true) then
      PtrRunOutcome.finished st loop
    else
      let r := (List.range env.comm_size_).foldl
        (run_ptr_expand_step env graph state cnt.counts) (st, cnt.counts)
      run_ptr_loop env n_threads graph state fuel (loop + 1) r.1

/-- `run_ptr(graph, sssp_state, vertices_pos)` on the comm targets `node_` with `n_threads`
OpenMP threads: the estimate of every target (taken with `get_node_send_length_buffer`, line
823), then the round loop. -/
def run_ptr (env : A2AEnv) (n_threads : Nat) (graph : Graph2DCSR) (state : SsspState)
    (node_ : List CommTarget) (stream : Stream) (vertices_pos : VPos) (fuel : Nat) :
    PtrRunOutcome :=
  run_ptr_loop env n_threads graph state fuel 0
    { node_ := node_
      node_send_lengths := node_.map (fun node =>
        if node.send_ptr.length = 0 then 0 else get_node_send_length_buffer node)
      stream := stream
      vertices_pos := vertices_pos }

/-- The pointer queues and the number of queued buffers left when `run_ptr` has returned. -/
def run_ptr_final_queues : PtrRunOutcome → Option (List (List PointerData × Nat))
  | PtrRunOutcome.finished st _ => some (st.node_.map (fun n => (n.send_ptr, n.send_data.length)))
  | _ => none

/-! ## Order of the buffer-origin stream -/

/-- A buffer-origin token: the optional header pair and the payload pair. -/
abbrev Tok := Option (Nat × Nat) × (Nat × Nat)

/-- All pairs of a token, in stream order. -/
def tokAll (t : Tok) : List (Nat × Nat) :=
  (match t.1 with
    | some h => [h]
    | none => []) ++ [t.2]

/-- The header pair of a token and its payload pair when that is not sentinel-marked. -/
def tokLive (t : Tok) : List (Nat × Nat) :=
  (match t.1 with
    | some h => [h]
    | none => []) ++ (if live t.2 then [t.2] else [])

/-- A pair with the vertex word of a payload pair masked by `lmask`; a header pair is left as
it is. -/
def mask_pair (graph : Graph2DCSR) (p : Nat × Nat) : Nat × Nat :=
  if isPayload p then (p.1 &&& lmask graph, p.2) else p

/-- The pairs of a word list with the payload vertex words masked by `lmask`. -/
def masked_pairs (graph : Graph2DCSR) (l : List Nat) : List (Nat × Nat) :=
  (toPairs l).map (mask_pair graph)

/-- What the dedup pass of `collect_targets_buffer` does to a token: the header pair stays, the
vertex word of the payload pair is masked, its weight word stays or becomes the sentinel. -/
def TokRel (graph : Graph2DCSR) (t t' : Tok) : Prop :=
  t'.1 = t.1 ∧ t'.2.1 = t.2.1 &&& lmask graph ∧ (t'.2.2 = t.2.2 ∨ t'.2.2 = get_sentinel)

/-! ## The receive loop of `run_with_both` -/

/-- A call `received(recvbuf, offset, length, from, is_ptr)` with the words it hands over:
`length` words of `recvbuf` from `offset` on. -/
structure Received where
  data : List Nat
  source : Nat
  is_ptr : Bool
deriving DecidableEq, Repr

/-- Body of the receive loop of `run_with_both` (lines 771-787) for source rank `i`: the calls
`received(...)` it makes, in order. -/
def receive_step (recvbuf : Stream) (recv_offsets : Nat → Nat) (i : Nat) : List Received :=
  let offset := recv_offsets i
  if recv_offsets (i + 1) = recv_offsets i then []
  else
    let length_ptr := recvbuf offset
    let offset1 := offset + 1
    let offset2 := offset1 + length_ptr
    let length_buf := recv_offsets (i + 1) - offset2
    [⟨words recvbuf offset1 length_ptr, i, true⟩, ⟨words recvbuf offset2 length_buf, i, false⟩]

/-! ## Lockstep message passing for the all-gather handlers

The ranks of a communicator step in lockstep: in every round each rank has posted the calls of
its handlers' last `next()`, all calls of the round complete, and every handler whose calls
completed runs `next()` again.  A receive is matched with a send by the MPI rule: between one
sender and one receiver, messages with the same tag are matched in posting order. -/

/-- A posted `MPI_Irecv` or `MPI_Isend` on `count` elements of the buffer from `off` on, with
the peer rank and the tag. -/
structure MpiRequest where
  is_send : Bool
  off : Nat
  count : Nat
  peer : Nat
  tag : Nat
deriving DecidableEq, Repr

/-- The process (an index below `n`) that has MPI rank `r`; `rank_of p` is the rank of process
`p`. -/
def process_of (n : Nat) (rank_of : Nat → Nat) (r : Nat) : Option Nat :=
  (List.range n).find? (fun p => decide (rank_of p = r))

/-- The receives a process has posted, in posting order. -/
def posted_recvs (posts : List MpiRequest) : List MpiRequest :=
  posts.filter (fun q => !q.is_send)

/-- The sends a process has posted for the rank `dest` with the tag `tag`, in posting order. -/
def posted_sends (posts : List MpiRequest) (dest tag : Nat) : List MpiRequest :=
  posts.filter (fun q => q.is_send && decide (q.peer = dest) && decide (q.tag = tag))

/-- The receives a process has posted for the rank `src` with the tag `tag`. -/
def posted_recvs_from (posts : List MpiRequest) (src tag : Nat) : List MpiRequest :=
  posts.filter (fun q => !q.is_send && decide (q.peer = src) && decide (q.tag = tag))

/-- Completion of the receives `todo` of process `p`, the `i`-th receive of the round and its
successors: the receive is matched with the send of the same ordinal among the sends of the
source process for this rank and tag, and the message is copied into the buffer.  The result is
`none` when the source is not a process, no send matches, or the message is longer than the
receive allows.  `bufs` are the buffers at the start of the round. -/
def complete_recvs (n : Nat) (rank_of : Nat → Nat) (posts : Nat → List MpiRequest)
    (bufs : Nat → Stream) (p : Nat) : List MpiRequest → List MpiRequest → Stream → Option Stream
  | _, [], buf => some buf
  | done, ρ :: todo, buf =>
    match process_of n rank_of ρ.peer with
    | none => none
    | some s =>
      match (posted_sends (posts s) (rank_of p) ρ.tag)[(posted_recvs_from done ρ.peer
          ρ.tag).length]? with
      | none => none
      | some q =>
        if q.count > ρ.count then none
        else complete_recvs n rank_of posts bufs p (done ++ [ρ]) todo
          (memcpy buf ρ.off (shift (bufs s) q.off) q.count)

/-- Every send of process `p` has a receive: for each of its sends the destination is a process
that has posted as many receives for this source and tag as `p` has posted sends for it. -/
def sends_matched (n : Nat) (rank_of : Nat → Nat) (posts : Nat → List MpiRequest) (p : Nat) :
    Bool :=
  (posts p).all (fun q =>
    !q.is_send ||
      match process_of n rank_of q.peer with
      | none => false
      | some d =>
        decide ((posted_sends (posts p) q.peer q.tag).length =
          (posted_recvs_from (posts d) (rank_of p) q.tag).length))

/-- One lockstep round on the buffers: all posted calls complete.  `none` when a call cannot
complete. -/
def complete_round (n : Nat) (rank_of : Nat → Nat) (posts : Nat → List MpiRequest)
    (bufs : Nat → Stream) : Option (Nat → Stream) :=
  if (List.range n).all (fun p =>
      sends_matched n rank_of posts p &&
        (complete_recvs n rank_of posts bufs p [] (posted_recvs (posts p)) (bufs p)).isSome)
  then
    some (fun p =>
      (complete_recvs n rank_of posts bufs p [] (posted_recvs (posts p)) (bufs p)).getD (bufs p))
  else none

/-! ## The ring all-gather: `AllgatherHandler` and the fallback path of `my_allgatherv_2d` -/

/-- The fields of an `AllgatherHandler<T>` that `next()` uses (`count` and `offset` are passed
along); `finished` records the call `req_man->finished()`. -/
structure AllgatherHandler where
  rank : Nat
  size : Nat
  left : Nat
  right : Nat
  tag : Nat
  current : Nat
  l_sendidx : Int
  l_recvidx : Int
  r_sendidx : Int
  r_recvidx : Int
  finished : Bool

/-- `AllgatherHandler::next()`: the handler after the call and the calls it posts, in source
order (two `MPI_Irecv`, two `MPI_Isend`). -/
def AllgatherHandler.next (count offset : Nat → Nat) (h : AllgatherHandler) :
    AllgatherHandler × List MpiRequest :=
  if h.current ≥ h.size then ({ h with finished := true }, [])
  else
    let l_sendidx := if h.l_sendidx ≥ h.size then h.l_sendidx - h.size else h.l_sendidx
    let l_recvidx := if h.l_recvidx ≥ h.size then h.l_recvidx - h.size else h.l_recvidx
    let r_sendidx := if h.r_sendidx < 0 then h.r_sendidx + h.size else h.r_sendidx
    let r_recvidx := if h.r_recvidx < 0 then h.r_recvidx + h.size else h.r_recvidx
    let l_send_off := offset l_sendidx.toNat
    let l_send_cnt := count l_sendidx.toNat / 2
    let l_recv_off := offset l_recvidx.toNat
    let l_recv_cnt := count l_recvidx.toNat / 2
    let r_send_off := offset r_sendidx.toNat + count r_sendidx.toNat / 2
    let r_send_cnt := count r_sendidx.toNat - count r_sendidx.toNat / 2
    let r_recv_off := offset r_recvidx.toNat + count r_recvidx.toNat / 2
    let r_recv_cnt := count r_recvidx.toNat - count r_recvidx.toNat / 2
    ({ h with
        current := h.current + 1
        l_sendidx := l_sendidx + 1
        l_recvidx := l_recvidx + 1
        r_sendidx := r_sendidx - 1
        r_recvidx := r_recvidx - 1 },
      [⟨false, l_recv_off, l_recv_cnt, h.right, h.tag⟩,
        ⟨false, r_recv_off, r_recv_cnt, h.left, h.tag⟩,
        ⟨true, l_send_off, l_send_cnt, h.left, h.tag⟩,
        ⟨true, r_send_off, r_send_cnt, h.right, h.tag⟩])

/-- `AllgatherHandler::start(...)`: set the fields, then `next()`. -/
def AllgatherHandler.start (count offset : Nat → Nat) (rank size left right tag : Nat) :
    AllgatherHandler × List MpiRequest :=
  AllgatherHandler.next count offset
    { rank := rank, size := size, left := left, right := right, tag := tag
      current := 1
      l_sendidx := rank
      l_recvidx := ((rank + size + 1) % size : Nat)
      r_sendidx := rank
      r_recvidx := ((rank + size - 1) % size : Nat)
      finished := false }

/-- The ranks of the ring between two rounds: every rank's handler, the calls it has posted and
not yet seen complete, and its `recvbuf`. -/
structure RingState where
  handler : Nat → AllgatherHandler
  posts : Nat → List MpiRequest
  buf : Nat → Stream

/-- The rounds of `req_man.run(1)` on all ranks, `fuel` rounds at most: while a handler is not
finished, the posted calls complete (`complete()` is called four times on every handler) and
every handler runs `next()`. -/
def ring_rounds (size : Nat) (count offset : Nat → Nat) : Nat → RingState → Option RingState
  | 0, st =>
    if (List.range size).all (fun r => (st.handler r).finished) then some st else none
  | fuel + 1, st =>
    if (List.range size).all (fun r => (st.handler r).finished) then some st
    else
      match complete_round size (fun r => r) st.posts st.buf with
      | none => none
      | some bufs =>
        ring_rounds size count offset fuel
          { handler := fun r => (AllgatherHandler.next count offset (st.handler r)).1
            posts := fun r => (AllgatherHandler.next count offset (st.handler r)).2
            buf := bufs }

/-- `PRM::MY_EXPAND_TAG1` and `PRM::MY_EXPAND_TAG2` (parameters.h is not part of the sources;
only that the two tags differ matters). -/
def MY_EXPAND_TAG1 : Nat := 1

/-- See `MY_EXPAND_TAG1`. -/
def MY_EXPAND_TAG2 : Nat := 2

/-- The fallback path of `my_allgatherv_2d` (`mpi.isMultiDimAvailable == false`) on all `size`
ranks of the communicator: rank `r` calls it with `sendbuf r`, `send_count r` and `recvbuf r`;
`recv_count` and `recv_offset` are the same on all ranks.  The result is the `recvbuf` of every
rank when all calls have returned. -/
def my_allgatherv_ring (size : Nat) (sendbuf : Nat → Stream) (send_count : Nat → Nat)
    (recvbuf : Nat → Stream) (recv_count recv_offset : Nat → Nat) (fuel : Nat) :
    Option (Nat → Stream) :=
  (ring_rounds size recv_count recv_offset fuel
    { handler := fun rank =>
        (AllgatherHandler.start recv_count recv_offset rank size ((rank + size - 1) % size)
          ((rank + size + 1) % size) MY_EXPAND_TAG1).1
      posts := fun rank =>
        (AllgatherHandler.start recv_count recv_offset rank size ((rank + size - 1) % size)
          ((rank + size + 1) % size) MY_EXPAND_TAG1).2
      buf := fun rank =>
        memcpy (recvbuf rank) (recv_offset rank) (sendbuf rank) (send_count rank) }).map
    (fun st => st.buf)

/-- Scenario E6: the contribution of rank `r` is `count[r]` words `100 r + k`. -/
def e6_sendbuf (r : Nat) : Stream := fun k => 100 * r + k

/-- Scenario E6: the counts `[3, 5, 2, 4]`. -/
def e6_count (r : Nat) : Nat := [3, 5, 2, 4].getD r 0

/-- Scenario E6: the offsets of the segments in rank order. -/
def e6_offset (r : Nat) : Nat := [0, 3, 8, 10].getD r 0

/-- A round of posted calls seen as a list of slots: in every process the receives are the
receive `rcv p s` of every slot `s`, the sends the send `snd p s` of every slot, in slot
order; the message received by `p` in slot `s` comes from the process `src p s`, the message
sent goes to the process `dst p s`. -/
structure SlotRound {σ : Type} (n : Nat) (rank_of : Nat → Nat) (posts : Nat → List MpiRequest)
    (slots : List σ) (rcv snd : Nat → σ → MpiRequest) (src dst : Nat → σ → Nat) : Prop where
  recvs : ∀ p, p < n → posted_recvs (posts p) = slots.map (rcv p)
  sends : ∀ p, p < n → (posts p).filter (fun q => q.is_send) = slots.map (snd p)
  src_lt : ∀ p, p < n → ∀ s ∈ slots, src p s < n
  dst_lt : ∀ p, p < n → ∀ s ∈ slots, dst p s < n
  dst_src : ∀ p, p < n → ∀ s ∈ slots, dst (src p s) s = p
  src_dst : ∀ p, p < n → ∀ s ∈ slots, src (dst p s) s = p
  rcv_peer : ∀ p, p < n → ∀ s ∈ slots, (rcv p s).peer = rank_of (src p s)
  snd_peer : ∀ p, p < n → ∀ s ∈ slots, (snd p s).peer = rank_of (dst p s)
  tag_eq : ∀ p, p < n → ∀ q, q < n → ∀ s ∈ slots, (rcv p s).tag = (snd q s).tag
  fits : ∀ p, p < n → ∀ s ∈ slots, (snd (src p s) s).count ≤ (rcv p s).count

/-- The buffer of process `p` after the messages of the slots have been copied in, in slot
order. -/
def slot_copies {σ : Type} (bufs : Nat → Stream) (rcv snd : Nat → σ → MpiRequest)
    (src : Nat → σ → Nat) (p : Nat) (slots : List σ) (buf : Stream) : Stream :=
  slots.foldl (fun b s =>
    memcpy b (rcv p s).off (shift (bufs (src p s)) (snd (src p s) s).off)
      (snd (src p s) s).count) buf

/-- The reference all-gather (`MPI_Allgatherv`): the contribution of every rank `j` is stored
in `recvbuf` at `recv_offset[j]`, in rank order. -/
def reference_allgatherv (size : Nat) (sendbuf : Nat → Stream) (recv_count recv_offset : Nat → Nat)
    (recvbuf : Stream) : Stream :=
  (List.range size).foldl
    (fun b j => memcpy b (recv_offset j) (sendbuf j) (recv_count j)) recvbuf

/-- The segments of the ranks do not overlap. -/
def disjoint_segments (size : Nat) (count offset : Nat → Nat) : Prop :=
  ∀ i j, i < size → j < size → i ≠ j →
    offset i + count i ≤ offset j ∨ offset j + count j ≤ offset i

/-- The rank `k` places after `r` on the ring. -/
def ring_up (size k r : Nat) : Nat := (r + k) % size

/-- The rank `k` places before `r` on the ring (`k ≤ size`). -/
def ring_dn (size k r : Nat) : Nat := (r + size - k) % size

/-- The handler of rank `r` after its call number `j + 1` of `next()`. -/
def ring_handler (size tag j r : Nat) : AllgatherHandler :=
  { rank := r, size := size, left := (r + size - 1) % size, right := (r + size + 1) % size
    tag := tag
    current := j + 2
    l_sendidx := (ring_up size j r : Int) + 1
    l_recvidx := (ring_up size (j + 1) r : Int) + 1
    r_sendidx := (ring_dn size j r : Int) - 1
    r_recvidx := (ring_dn size (j + 1) r : Int) - 1
    finished := false }

/-- The receive of rank `p` for the lower half (`s = false`) or the upper half (`s = true`) in
its call number `j + 1` of `next()`. -/
def ring_rcv (count offset : Nat → Nat) (size tag j p : Nat) (s : Bool) : MpiRequest :=
  if s then
    ⟨false, offset (ring_dn size (j + 1) p) + count (ring_dn size (j + 1) p) / 2,
      count (ring_dn size (j + 1) p) - count (ring_dn size (j + 1) p) / 2,
      (p + size - 1) % size, tag⟩
  else
    ⟨false, offset (ring_up size (j + 1) p), count (ring_up size (j + 1) p) / 2,
      (p + size + 1) % size, tag⟩

/-- The send of rank `p` for the lower or the upper half in its call number `j + 1` of
`next()`. -/
def ring_snd (count offset : Nat → Nat) (size tag j p : Nat) (s : Bool) : MpiRequest :=
  if s then
    ⟨true, offset (ring_dn size j p) + count (ring_dn size j p) / 2,
      count (ring_dn size j p) - count (ring_dn size j p) / 2, (p + size + 1) % size, tag⟩
  else
    ⟨true, offset (ring_up size j p), count (ring_up size j p) / 2, (p + size - 1) % size, tag⟩

/-- The calls rank `p` posts in its call number `j + 1` of `next()`. -/
def ring_posts (count offset : Nat → Nat) (size tag j p : Nat) : List MpiRequest :=
  [ring_rcv count offset size tag j p false, ring_rcv count offset size tag j p true,
    ring_snd count offset size tag j p false, ring_snd count offset size tag j p true]

/-- The buffer agrees with the reference on both halves of the segments of the `j + 1` ranks
from `p` on in each direction of the ring. -/
def RingGood (ref : Stream) (count offset : Nat → Nat) (size j p : Nat) (buf : Stream) : Prop :=
  ∀ d, d ≤ j →
    (∀ x, offset (ring_up size d p) ≤ x →
      x < offset (ring_up size d p) + count (ring_up size d p) / 2 → buf x = ref x) ∧
    (∀ x, offset (ring_dn size d p) + count (ring_dn size d p) / 2 ≤ x →
      x < offset (ring_dn size d p) + count (ring_dn size d p) / 2 +
        (count (ring_dn size d p) - count (ring_dn size d p) / 2) → buf x = ref x)

/-- A word lies in the segment of one of the ranks. -/
def in_segments (size : Nat) (count offset : Nat → Nat) (x : Nat) : Prop :=
  ∃ i, i < size ∧ offset i ≤ x ∧ x < offset i + count i

/-! ## The 2-D all-gather: `AllgatherStep1Handler`, `AllgatherStep2Handler` and the 2-D path of
`my_allgatherv_2d` -/

/-- The fields of `COMM_2D` the handlers use (the structure is declared outside the sources):
the sizes of the grid, the position of the rank, and `rank_map`, the rank at every grid
position `x + y * size_x`. -/
structure COMM_2D where
  size_x : Nat
  size_y : Nat
  rank_x : Nat
  rank_y : Nat
  rank_map : Nat → Nat

/-- `split_offset[s][i]` of `my_allgatherv_2d`. -/
def split_offset (recv_count recv_offset : Nat → Nat) (s i : Nat) : Nat :=
  let max := recv_count i
  let split := (max + 3) / 4
  recv_offset i + min max (split * s)

/-- `split_count[s][i]` of `my_allgatherv_2d`: `end - start`. -/
def split_count (recv_count recv_offset : Nat → Nat) (s i : Nat) : Nat :=
  let max := recv_count i
  let split := (max + 3) / 4
  (recv_offset i + min max (split * (s + 1))) - (recv_offset i + min max (split * s))

/-- The fields of an `AllgatherStep1Handler<T>`; `finished` records the call
`req_man->finished()`. -/
structure AllgatherStep1Handler where
  count : Nat → Nat
  offset : Nat → Nat
  comm : COMM_2D
  unit_x : Int
  unit_y : Int
  steps : Nat
  tag : Nat
  send_to : Nat
  recv_from : Nat
  current : Nat
  finished : Bool

/-- `AllgatherStep1Handler::get_rank(diff)`. -/
def AllgatherStep1Handler.get_rank (comm : COMM_2D) (unit_x unit_y diff : Int) : Nat :=
  let pos_x := Int.tmod ((comm.rank_x : Int) + unit_x * diff + (comm.size_x : Int)) comm.size_x
  let pos_y := Int.tmod ((comm.rank_y : Int) + unit_y * diff + (comm.size_y : Int)) comm.size_y
  comm.rank_map (pos_x + pos_y * (comm.size_x : Int)).toNat

/-- `AllgatherStep1Handler::next()`: the handler after the call and the calls it posts, in
source order (`MPI_Irecv`, `MPI_Isend`). -/
def AllgatherStep1Handler.next (h : AllgatherStep1Handler) :
    AllgatherStep1Handler × List MpiRequest :=
  if h.current ≥ h.steps then ({ h with finished := true }, [])
  else
    let sendidx := AllgatherStep1Handler.get_rank h.comm h.unit_x h.unit_y ((h.current : Int) - 1)
    let recvidx := AllgatherStep1Handler.get_rank h.comm h.unit_x h.unit_y (h.current : Int)
    let send_off := h.offset sendidx
    let send_cnt := h.count sendidx
    let recv_off := h.offset recvidx
    let recv_cnt := h.count recvidx
    ({ h with current := h.current + 1 },
      [⟨false, recv_off, recv_cnt, h.recv_from, h.tag⟩,
        ⟨true, send_off, send_cnt, h.send_to, h.tag⟩])

/-- `AllgatherStep1Handler::start(...)`: set the fields, then `next()`. -/
def AllgatherStep1Handler.start (count offset : Nat → Nat) (comm : COMM_2D)
    (unit_x unit_y : Int) (steps tag : Nat) : AllgatherStep1Handler × List MpiRequest :=
  AllgatherStep1Handler.next
    { count := count, offset := offset, comm := comm, unit_x := unit_x, unit_y := unit_y
      steps := steps, tag := tag
      current := 1
      send_to := AllgatherStep1Handler.get_rank comm unit_x unit_y (-1)
      recv_from := AllgatherStep1Handler.get_rank comm unit_x unit_y 1
      finished := false }

/-- The fields of an `AllgatherStep2Handler<T>`; `finished` records the call
`req_man->finished()`. -/
structure AllgatherStep2Handler where
  count : Nat → Nat
  offset : Nat → Nat
  comm : COMM_2D
  unit_x : Int
  unit_y : Int
  steps : Nat
  width : Nat
  tag : Nat
  send_to : Nat
  recv_from : Nat
  current : Nat
  finished : Bool

/-- `AllgatherStep2Handler::get_rank(step_diff, idx)`; `!unit` is 1 for `unit == 0` and 0
otherwise. -/
def AllgatherStep2Handler.get_rank (comm : COMM_2D) (unit_x unit_y step_diff idx : Int) : Nat :=
  let pos_x := Int.tmod ((comm.rank_x : Int) + unit_x * step_diff +
    ((if unit_x = 0 then 1 else 0) * idx) + (comm.size_x : Int)) comm.size_x
  let pos_y := Int.tmod ((comm.rank_y : Int) + unit_y * step_diff +
    ((if unit_y = 0 then 1 else 0) * idx) + (comm.size_y : Int)) comm.size_y
  comm.rank_map (pos_x + pos_y * (comm.size_x : Int)).toNat

/-- The body of the loop of `AllgatherStep2Handler::next()` for the index `i`. -/
def AllgatherStep2Handler.next_body (h : AllgatherStep2Handler) (i : Nat) : List MpiRequest :=
  let sendidx :=
    AllgatherStep2Handler.get_rank h.comm h.unit_x h.unit_y ((h.current : Int) - 1) (i : Int)
  let recvidx :=
    AllgatherStep2Handler.get_rank h.comm h.unit_x h.unit_y (h.current : Int) (i : Int)
  let send_off := h.offset sendidx
  let send_cnt := h.count sendidx
  let recv_off := h.offset recvidx
  let recv_cnt := h.count recvidx
  [⟨false, recv_off, recv_cnt, h.recv_from, h.tag⟩, ⟨true, send_off, send_cnt, h.send_to, h.tag⟩]

/-- `AllgatherStep2Handler::next()`: the handler after the call and the calls it posts, in
source order. -/
def AllgatherStep2Handler.next (h : AllgatherStep2Handler) :
    AllgatherStep2Handler × List MpiRequest :=
  if h.current ≥ h.steps then ({ h with finished := true }, [])
  else
    ({ h with current := h.current + 1 },
      (List.range h.width).flatMap (AllgatherStep2Handler.next_body h))

/-- `AllgatherStep2Handler::start(...)`: set the fields, then `next()`. -/
def AllgatherStep2Handler.start (count offset : Nat → Nat) (comm : COMM_2D)
    (unit_x unit_y : Int) (steps width tag : Nat) : AllgatherStep2Handler × List MpiRequest :=
  AllgatherStep2Handler.next
    { count := count, offset := offset, comm := comm, unit_x := unit_x, unit_y := unit_y
      steps := steps, width := width, tag := tag
      current := 1
      send_to := AllgatherStep2Handler.get_rank comm unit_x unit_y (-1) 0
      recv_from := AllgatherStep2Handler.get_rank comm unit_x unit_y 1 0
      finished := false }

/-- The processes of the grid between two rounds of `req_man.run(4)`: the handlers of every
process, each with the calls it has posted and not yet seen complete, and every `recvbuf`. -/
structure GridState (σ : Type) where
  handlers : Nat → List (σ × List MpiRequest)
  buf : Nat → Stream

/-- The rounds of `req_man.run(4)` on all processes, `fuel` rounds at most: while a handler is
not finished, the posted calls complete and every handler that had posted calls runs `next()`
(`complete()` has been called for each of its calls). A process that has posted more calls than
the manager has requests throws (`none`). -/
def grid_rounds {σ : Type} (n : Nat) (rank_map : Nat → Nat) (max_requests : Nat)
    (finished : σ → Bool) (next : σ → σ × List MpiRequest) :
    Nat → GridState σ → Option (Nat → Stream)
  | 0, st =>
    if (List.range n).all (fun p => (st.handlers p).all (fun h => finished h.1)) then some st.buf
    else none
  | fuel + 1, st =>
    if (List.range n).all (fun p => (st.handlers p).all (fun h => finished h.1)) then some st.buf
    else if (List.range n).any
        (fun p => decide (max_requests < ((st.handlers p).flatMap (fun h => h.2)).length)) then
      none
    else
      match complete_round n rank_map (fun p => (st.handlers p).flatMap (fun h => h.2)) st.buf with
      | none => none
      | some bufs =>
        grid_rounds n rank_map max_requests finished next fuel
          { handlers := fun p =>
              (st.handlers p).map (fun h => if finished h.1 then (h.1, []) else next h.1)
            buf := bufs }

/-- The `COMM_2D` of the process at grid position `p = x + y * size_x`. -/
def comm_2d (size_x size_y : Nat) (rank_map : Nat → Nat) (p : Nat) : COMM_2D :=
  { size_x := size_x, size_y := size_y, rank_x := p % size_x, rank_y := p / size_x
    rank_map := rank_map }

/-- The 2-D path of `my_allgatherv_2d` on all processes of a `size_x × size_y` grid, the
process at grid position `p` being the rank `rank_map p`; `sendbuf`, `send_count` and `recvbuf`
are indexed by process, `fuel` bounds the rounds of each phase. -/
def my_allgatherv_2d (size_x size_y : Nat) (rank_map : Nat → Nat) (sendbuf : Nat → Stream)
    (send_count : Nat → Nat) (recvbuf : Nat → Stream) (recv_count recv_offset : Nat → Nat)
    (fuel : Nat) : Option (Nat → Stream) :=
  let comm := comm_2d size_x size_y rank_map
  let split_count := split_count recv_count recv_offset
  let split_offset := split_offset recv_count recv_offset
  match grid_rounds (size_x * size_y) rank_map ((size_x + size_y) * 4)
      (fun h => h.finished) AllgatherStep1Handler.next fuel
      { handlers := fun p =>
          [AllgatherStep1Handler.start (split_count 0) (split_offset 0) (comm p) 1 0 size_x
              MY_EXPAND_TAG1,
            AllgatherStep1Handler.start (split_count 1) (split_offset 1) (comm p) (-1) 0 size_x
              MY_EXPAND_TAG1,
            AllgatherStep1Handler.start (split_count 2) (split_offset 2) (comm p) 0 1 size_y
              MY_EXPAND_TAG2,
            AllgatherStep1Handler.start (split_count 3) (split_offset 3) (comm p) 0 (-1) size_y
              MY_EXPAND_TAG2]
        buf := fun p =>
          memcpy (recvbuf p) (recv_offset (rank_map p)) (sendbuf p) (send_count p) } with
  | none => none
  | some bufs =>
    grid_rounds (size_x * size_y) rank_map ((size_x + size_y) * 4)
      (fun h => h.finished) AllgatherStep2Handler.next fuel
      { handlers := fun p =>
          [AllgatherStep2Handler.start (split_count 0) (split_offset 0) (comm p) 0 1 size_y
              size_x MY_EXPAND_TAG1,
            AllgatherStep2Handler.start (split_count 1) (split_offset 1) (comm p) 0 (-1) size_y
              size_x MY_EXPAND_TAG1,
            AllgatherStep2Handler.start (split_count 2) (split_offset 2) (comm p) 1 0 size_x
              size_y MY_EXPAND_TAG2,
            AllgatherStep2Handler.start (split_count 3) (split_offset 3) (comm p) (-1) 0 size_x
              size_y MY_EXPAND_TAG2]
        buf := bufs }

/-- The direction of a handler of the 2-D path: up or down the x axis or the y axis. -/
inductive Dir where
  | xp
  | xm
  | yp
  | ym
deriving DecidableEq

/-- The argument `unit_x` of a handler with the direction. -/
def Dir.unit_x : Dir → Int
  | Dir.xp => 1
  | Dir.xm => -1
  | _ => 0

/-- The argument `unit_y` of a handler with the direction. -/
def Dir.unit_y : Dir → Int
  | Dir.yp => 1
  | Dir.ym => -1
  | _ => 0

/-- The opposite direction. -/
def Dir.neg : Dir → Dir
  | Dir.xp => Dir.xm
  | Dir.xm => Dir.xp
  | Dir.yp => Dir.ym
  | Dir.ym => Dir.yp

/-- The number of processes of the grid along the direction. -/
def Dir.size (size_x size_y : Nat) : Dir → Nat
  | Dir.xp => size_x
  | Dir.xm => size_x
  | _ => size_y

/-- The grid position `d` places from `p` in the direction and `i` places up the other
axis. -/
def hpos (size_x size_y : Nat) (dir : Dir) (d i p : Nat) : Nat :=
  match dir with
  | Dir.xp => ring_up size_x d (p % size_x) + ring_up size_y i (p / size_x) * size_x
  | Dir.xm => ring_dn size_x d (p % size_x) + ring_up size_y i (p / size_x) * size_x
  | Dir.yp => ring_up size_x i (p % size_x) + ring_up size_y d (p / size_x) * size_x
  | Dir.ym => ring_up size_x i (p % size_x) + ring_dn size_y d (p / size_x) * size_x

/-- The arguments of `start` of a handler of the 2-D path: direction, `steps`, `width` (1 for
an `AllgatherStep1Handler`), `tag`, and the quarter `s` of `split_count[s]`. -/
structure Line where
  dir : Dir
  steps : Nat
  width : Nat
  tag : Nat
  quarter : Nat

/-- The receive of index `i` process `p` posts in its call number `j + 1` of `next()`. -/
def line_rcv (size_x size_y : Nat) (rank_map count offset : Nat → Nat) (j p : Nat)
    (s : Line × Nat) : MpiRequest :=
  ⟨false, split_offset count offset s.1.quarter (rank_map (hpos size_x size_y s.1.dir (j + 1) s.2 p)),
    split_count count offset s.1.quarter (rank_map (hpos size_x size_y s.1.dir (j + 1) s.2 p)),
    rank_map (hpos size_x size_y s.1.dir 1 0 p), s.1.tag⟩

/-- The send of index `i` process `p` posts in its call number `j + 1` of `next()`. -/
def line_snd (size_x size_y : Nat) (rank_map count offset : Nat → Nat) (j p : Nat)
    (s : Line × Nat) : MpiRequest :=
  ⟨true, split_offset count offset s.1.quarter (rank_map (hpos size_x size_y s.1.dir j s.2 p)),
    split_count count offset s.1.quarter (rank_map (hpos size_x size_y s.1.dir j s.2 p)),
    rank_map (hpos size_x size_y s.1.dir.neg 1 0 p), s.1.tag⟩

/-- The calls process `p` posts in the call number `j + 1` of `next()` of a handler. -/
def line_posts (size_x size_y : Nat) (rank_map count offset : Nat → Nat) (j p : Nat)
    (c : Line) : List MpiRequest :=
  (List.range c.width).flatMap (fun i =>
    [line_rcv size_x size_y rank_map count offset j p (c, i),
      line_snd size_x size_y rank_map count offset j p (c, i)])

/-- The slots of the round after the call number `j + 1` of `next()`: the indices of the
handlers that have not finished. -/
def line_slots (j : Nat) (cfgs : List Line) : List (Line × Nat) :=
  cfgs.flatMap (fun c =>
    if j + 1 < c.steps then (List.range c.width).map (fun i => (c, i)) else [])

/-- The buffer agrees with the reference on the quarter of the handler in the segments of the
ranks up to `j` places away in the direction of the handler. -/
def LineGood (ref : Stream) (size_x size_y : Nat) (rank_map count offset : Nat → Nat)
    (c : Line) (j p : Nat) (buf : Stream) : Prop :=
  ∀ d, d ≤ j → d < c.steps → ∀ i, i < c.width → ∀ x,
    split_offset count offset c.quarter (rank_map (hpos size_x size_y c.dir d i p)) ≤ x →
    x < split_offset count offset c.quarter (rank_map (hpos size_x size_y c.dir d i p)) +
      split_count count offset c.quarter (rank_map (hpos size_x size_y c.dir d i p)) →
    buf x = ref x

/-- The handler of a process and its posted calls after the call number `j + 1` of `next()`:
the handler `H` with the calls of the round, or a finished handler without calls. -/
def StageRel {σ : Type} (finished : σ → Bool) (H : Line → Nat → σ)
    (posts : Nat → Line → List MpiRequest) (j : Nat) (c : Line)
    (h : σ × List MpiRequest) : Prop :=
  (j + 1 < c.steps ∧ h = (H c (j + 2), posts j c)) ∨
    (c.steps ≤ j + 1 ∧ finished h.1 = true ∧ h.2 = [])

/-- The grid positions are the ranks: `rank_map` is a bijection on the numbers below `n`. -/
def rank_bijection (n : Nat) (rank_map : Nat → Nat) : Prop :=
  (∀ p, p < n → rank_map p < n) ∧
  (∀ a b, a < n → b < n → rank_map a = rank_map b → a = b) ∧
  (∀ r, r < n → ∃ p, p < n ∧ rank_map p = r)

/-- The `AllgatherStep1Handler` of process `p` started with the arguments `c`, with `current`
equal to `k`. -/
def step1_handler (size_x size_y : Nat) (rank_map count offset : Nat → Nat) (p : Nat)
    (c : Line) (k : Nat) : AllgatherStep1Handler :=
  { count := split_count count offset c.quarter
    offset := split_offset count offset c.quarter
    comm := comm_2d size_x size_y rank_map p
    unit_x := c.dir.unit_x
    unit_y := c.dir.unit_y
    steps := c.steps
    tag := c.tag
    send_to := rank_map (hpos size_x size_y c.dir.neg 1 0 p)
    recv_from := rank_map (hpos size_x size_y c.dir 1 0 p)
    current := k
    finished := false }

/-- The `AllgatherStep2Handler` of process `p` started with the arguments `c`, with `current`
equal to `k`. -/
def step2_handler (size_x size_y : Nat) (rank_map count offset : Nat → Nat) (p : Nat)
    (c : Line) (k : Nat) : AllgatherStep2Handler :=
  { count := split_count count offset c.quarter
    offset := split_offset count offset c.quarter
    comm := comm_2d size_x size_y rank_map p
    unit_x := c.dir.unit_x
    unit_y := c.dir.unit_y
    steps := c.steps
    width := c.width
    tag := c.tag
    send_to := rank_map (hpos size_x size_y c.dir.neg 1 0 p)
    recv_from := rank_map (hpos size_x size_y c.dir 1 0 p)
    current := k
    finished := false }

/-- The arguments of the four `AllgatherStep1Handler` of `my_allgatherv_2d`, in source
order. -/
def step1_lines (size_x size_y : Nat) : List Line :=
  [⟨Dir.xp, size_x, 1, MY_EXPAND_TAG1, 0⟩, ⟨Dir.xm, size_x, 1, MY_EXPAND_TAG1, 1⟩,
    ⟨Dir.yp, size_y, 1, MY_EXPAND_TAG2, 2⟩, ⟨Dir.ym, size_y, 1, MY_EXPAND_TAG2, 3⟩]

/-- The arguments of the four `AllgatherStep2Handler` of `my_allgatherv_2d`, in source
order. -/
def step2_lines (size_x size_y : Nat) : List Line :=
  [⟨Dir.yp, size_y, size_x, MY_EXPAND_TAG1, 0⟩, ⟨Dir.ym, size_y, size_x, MY_EXPAND_TAG1, 1⟩,
    ⟨Dir.xp, size_x, size_y, MY_EXPAND_TAG2, 2⟩, ⟨Dir.xm, size_x, size_y, MY_EXPAND_TAG2, 3⟩]

/-- The buffer agrees with the reference on quarter `q` of the segment of the rank at grid
position `g`. -/
def QuarterGood (ref : Stream) (rank_map count offset : Nat → Nat) (q g : Nat) (buf : Stream) :
    Prop :=
  ∀ x, split_offset count offset q (rank_map g) ≤ x →
    x < split_offset count offset q (rank_map g) + split_count count offset q (rank_map g) →
    buf x = ref x

/-- The number of processes of the grid across the direction. -/
def Dir.width (size_x size_y : Nat) : Dir → Nat
  | Dir.xp => size_y
  | Dir.xm => size_y
  | _ => size_x

/-- A 3 × 2 grid: the rank at every grid position. -/
def grid6_rank_map (p : Nat) : Nat := [3, 1, 0, 2, 5, 4].getD p 0

/-- A 3 × 2 grid: the counts of the six ranks. -/
def grid6_count (r : Nat) : Nat := [3, 5, 2, 4, 0, 7].getD r 0

/-- A 3 × 2 grid: the offsets of the segments in rank order. -/
def grid6_offset (r : Nat) : Nat := [0, 3, 8, 10, 14, 14].getD r 0

/-- The pointer block of scenario E1 with bit 63 of the header set (a descriptor of heavy
edges). -/
def e1_heavy_node : CommTarget :=
  { e1_node with send_ptr := [⟨0, 0x8000000100000002, 0x3F800000, 4⟩] }

/-- The count pass of `run_buffer` for one destination (lines 984-990): `flush(node)`, then
`counts[i] += node.send_data[b].length` for every queued buffer. -/
def run_buffer_count (node : CommTarget) : Nat :=
  (flush node).send_data.foldl (fun counts b => counts + b.length) 0

/-- The number of edges of the queued descriptors that survive the filter `collect_targets_ptr`
applies in the active phase. -/
def surviving_edges (node : CommTarget) (state : SsspState) (graph : Graph2DCSR) : Nat :=
  (node.send_ptr.map (fun b =>
    ((List.range b.length).filter (ptr_passes state graph b)).length)).sum

/-- The send length as the specification states it: 3 words for every descriptor of non-zero
length and 2 words for every edge that survives the filter of `collect_targets_ptr`. -/
def spec_send_length_ptr (node : CommTarget) (state : SsspState) (graph : Graph2DCSR) : Nat :=
  3 * (node.send_ptr.filter (fun b => decide (b.length ≠ 0))).length +
    2 * surviving_edges node state graph

/-- Edge `i` of the descriptor is counted by `get_node_send_length_ptr`: the test that guards
`node_send_length += 2` in the branch of the active phase. -/
def edge_counted (NODE_SEND_COUNT_TYPE : Nat) (state : SsspState) (graph : Graph2DCSR)
    (buffer : PointerData) (i : Nat) : Bool :=
  if state.is_bellman_ford_ then !state.target_is_settled (graph.edge_array_ (buffer.ptr + i))
  else if state.is_light_phase_ then
    if NODE_SEND_COUNT_TYPE = 1 then
      !(state.with_settled_ && state.target_is_settled (graph.edge_array_ (buffer.ptr + i))) &&
        !f32ge (f32add (graph.edge_weight_array_ (buffer.ptr + i)) buffer.dist)
          state.bucket_upper
    else true
  else
    !(state.with_settled_ && state.target_is_settled (graph.edge_array_ (buffer.ptr + i))) &&
      decide (NODE_SEND_COUNT_TYPE ≠ 1)

/-- The number of edges of the queued descriptors that `get_node_send_length_ptr` counts. -/
def counted_edges (NODE_SEND_COUNT_TYPE : Nat) (node : CommTarget) (state : SsspState)
    (graph : Graph2DCSR) : Nat :=
  (node.send_ptr.map (fun b =>
    ((List.range b.length).filter
      (edge_counted NODE_SEND_COUNT_TYPE state graph b)).length)).sum

/-- The destination of loop index `c` in the passes of `run_with_both`:
`i = (c + comm_rank) % comm_size_`. -/
def dest_of (env : A2AEnv) (c : Nat) : Nat := (c + env.comm_rank) % env.comm_size_

/-- `counts` and the `thread_has_ptr` flags after the first `k` iterations of the count
pass. -/
def count_acc (env : A2AEnv) (loop : Nat) (lens_ptr lens_buffer : List Nat) (k : Nat) :
    List Nat × (Nat → Bool) :=
  (List.range k).foldl (count_step env loop lens_ptr lens_buffer)
    (List.replicate env.comm_size_ 0, fun _ => false)

/-- The flag `thread_has_ptr` of its thread when iteration `c` of the count pass starts. -/
def thread_has_ptr (env : A2AEnv) (loop : Nat) (lens_ptr lens_buffer : List Nat) (c : Nat) :
    Bool :=
  (count_acc env loop lens_ptr lens_buffer c).2 (env.thread_of c)

/-- Pointer data of the destination of iteration `c` is included in the round, in the words
of the specification: the pointer estimate is positive, and it is not the case that the
combined size exceeds `max_size_per_node` while the thread has already included pointer data
or `loop == 0`. -/
def ptr_included (env : A2AEnv) (loop : Nat) (lens_ptr lens_buffer : List Nat) (c : Nat) :
    Bool :=
  decide (0 < lens_ptr.getD (dest_of env c) 0) &&
    !(decide (lens_buffer.getD (dest_of env c) 0 + lens_ptr.getD (dest_of env c) 0 >
        env.max_size / (env.es * env.comm_size_)) &&
      (thread_has_ptr env loop lens_ptr lens_buffer c || decide (loop = 0)))

/-- The count of the destination of iteration `c`, in the words of the specification. -/
def spec_count (env : A2AEnv) (loop : Nat) (lens_ptr lens_buffer : List Nat) (c : Nat) : Nat :=
  if lens_ptr.getD (dest_of env c) 0 = 0 ∧ lens_buffer.getD (dest_of env c) 0 = 0 then 0
  else if ptr_included env loop lens_ptr lens_buffer c then
    1 + lens_buffer.getD (dest_of env c) 0 + lens_ptr.getD (dest_of env c) 0
  else if lens_buffer.getD (dest_of env c) 0 = 0 then 0
  else 1 + lens_buffer.getD (dest_of env c) 0

/-- Three destinations served by one thread on rank 1, with `max_size_per_node = 96 / (4 * 3) =
8` words; no other rank has data. -/
def three_dest_env : A2AEnv :=
  { comm_size_ := 3, comm_rank := 1, max_size := 96, es := 4, thread_of := fun _ => 0
    SKIP_FILTERING := false, NODE_SEND_COUNT_TYPE := 0, others_have_data := fun _ => false }

/-- Estimates for the three destinations of `three_dest_env`: pointer estimates 9, 0, 5 and
buffer estimates 0, 2, 3. -/
def three_dest_state : A2AState :=
  { node_ := [new_target, new_target, new_target]
    node_send_lengths_ptr := [9, 0, 5]
    node_send_lengths_buffer := [0, 2, 3]
    stream := fun _ => 0
    vertices_pos := fun _ => -1 }

/-- The expand pass of one round after `k` iterations: the manager state and `send_lengths`,
which start as the state of the count pass and `counts`. -/
def expand_acc (env : A2AEnv) (graph : Graph2DCSR) (state : SsspState) (counts : List Nat)
    (st : A2AState) (k : Nat) : A2AState × List Nat :=
  (List.range k).foldl (expand_step env graph state counts) (st, counts)

/-- The expand pass of one round (lines 682-751). -/
def expand_pass (env : A2AEnv) (graph : Graph2DCSR) (state : SsspState) (counts : List Nat)
    (st : A2AState) : A2AState × List Nat :=
  expand_acc env graph state counts st env.comm_size_

/-- The manager state the round loop of `run_with_both` starts from: every target flushed, and
its two estimates. -/
def run_with_both_init (env : A2AEnv) (graph : Graph2DCSR) (state : SsspState)
    (node_ : List CommTarget) (stream : Stream) (vertices_pos : VPos) : A2AState :=
  { node_ := node_.map flush
    node_send_lengths_ptr :=
      (node_.map flush).map
        (fun n => get_node_send_length_ptr env.NODE_SEND_COUNT_TYPE n state graph)
    node_send_lengths_buffer := (node_.map flush).map get_node_send_length_buffer
    stream := stream
    vertices_pos := vertices_pos }

/-- The manager state at the start of round `loop` for a round loop started in `st`, as long
as the loop has not been left: each round runs the count pass and the expand pass. -/
def round_start (env : A2AEnv) (graph : Graph2DCSR) (state : SsspState) (st : A2AState) :
    Nat → A2AState
  | 0 => st
  | loop + 1 =>
    (expand_pass env graph state (count_pass env loop (round_start env graph state st loop))
      (round_start env graph state st loop)).1

/-- The number of destinations whose pointer estimate is not zero. -/
def pending (env : A2AEnv) (st : A2AState) : Nat :=
  ((List.range env.comm_size_).filter
    (fun i => decide (st.node_send_lengths_ptr.getD i 0 ≠ 0))).length

/-- No queued buffer of the target has length 0, and a current buffer holds at least one
word. -/
def queued_nonempty (node : CommTarget) : Bool :=
  node.send_data.all (fun b => decide (b.length ≠ 0)) &&
    (node.cur_buf.isNone || decide (node.filled_size_ ≠ 0))

/-- The comm target at index `i` (`node_[i]`). -/
def node_at (st : A2AState) (i : Nat) : CommTarget :=
  st.node_.getD i ⟨0, 0, none, [], []⟩

/-- Three comm targets: pointer and buffer data, nothing, pointer data only. -/
def mixed_targets : List CommTarget := [both_node, new_target, e1_node]

/-- The round in which the round loop was left, if it was left without an abort. -/
def exit_round : RunOutcome → Option Nat
  | RunOutcome.finished _ loop => some loop
  | _ => none

/-- Three comm targets that each hold the pointer block of scenario E1. -/
def ptr_targets : List CommTarget := [e1_node, e1_node, e1_node]

/-! ## The request pool `MpiRequestManager` -/

/-- The conditions `MpiRequestManager` throws on. -/
inductive MpiError where
  | no_empty_request
  | no_active_request
  | waitany_undefined
deriving DecidableEq, Repr

/-- The members of `MpiRequestManager`.  A slot of `reqs` is `none` for `MPI_REQUEST_NULL`;
a slot of `handlers` is `none` until a handler has been stored in it (the array is not
initialised); a handler is named by a number. -/
structure MpiRequestManager where
  MAX_REQUESTS : Nat
  finish_count : Int
  reqs : Nat → Option MpiRequest
  handlers : Nat → Option Nat
  empty_list : List Nat

/-- The constructor `MpiRequestManager(MAX_REQUESTS)`: every request is `MPI_REQUEST_NULL` and
the slots `0 .. MAX_REQUESTS - 1` are pushed on `empty_list` in this order. -/
def MpiRequestManager.new (MAX_REQUESTS : Nat) : MpiRequestManager :=
  { MAX_REQUESTS := MAX_REQUESTS
    finish_count := 0
    reqs := fun _ => none
    handlers := fun _ => none
    empty_list := List.range MAX_REQUESTS }

/-- `submit_handler(handler)`: throw when `empty_list` is empty; else pop its last slot, store
the handler for it and return `&reqs[empty]`, here the slot. -/
def MpiRequestManager.submit_handler (m : MpiRequestManager) (handler : Nat) :
    Except MpiError (MpiRequestManager × Nat) :=
  if m.empty_list.length = 0 then Except.error MpiError.no_empty_request
  else
    let empty := m.empty_list.getLastD 0
    Except.ok
      ({ m with
          empty_list := m.empty_list.dropLast
          handlers := upd m.handlers empty (some handler) },
        empty)

/-- `finished()`: `--finish_count`. -/
def MpiRequestManager.finished (m : MpiRequestManager) : MpiRequestManager :=
  { m with finish_count := m.finish_count - 1 }

/-- How a call of `MpiRequestManager::run` ends: it returns, it throws, it calls through a
handler slot that was never set, or the model runs out of fuel. -/
inductive ManagerOutcome where
  | returned (m : MpiRequestManager)
  | raised (e : MpiError)
  | unset_handler
  | out_of_fuel

/-- The loop `while(finish_count > 0)` of `run` with `fuel` iterations left.  `waitany` is
`MPI_Waitany` on the requests (`none` for `MPI_UNDEFINED`), `complete h m` is
`handlers[index]->complete(&status)` for the handler named `h`, which may post requests and
call `finished()`. -/
def MpiRequestManager.run_loop (waitany : (Nat → Option MpiRequest) → Option Nat)
    (complete : Nat → MpiRequestManager → Except MpiError MpiRequestManager) :
    Nat → MpiRequestManager → ManagerOutcome
  | 0, _ => ManagerOutcome.out_of_fuel
  | fuel + 1, m =>
    if m.finish_count > 0 then
      if m.empty_list.length = m.MAX_REQUESTS then
        ManagerOutcome.raised MpiError.no_active_request
      else
        match waitany m.reqs with
        | none => ManagerOutcome.raised MpiError.waitany_undefined
        | some index =>
          match m.handlers index with
          | none => ManagerOutcome.unset_handler
          | some handler =>
            match complete handler
                { m with reqs := upd m.reqs index none, empty_list := m.empty_list ++ [index] }
                with
            | Except.error e => ManagerOutcome.raised e
            | Except.ok m1 => MpiRequestManager.run_loop waitany complete fuel m1
    else ManagerOutcome.returned m

/-- `run(finish_count__)`: `finish_count += finish_count__`, then the loop. -/
def MpiRequestManager.run (waitany : (Nat → Option MpiRequest) → Option Nat)
    (complete : Nat → MpiRequestManager → Except MpiError MpiRequestManager)
    (fuel : Nat) (finish_count__ : Int) (m : MpiRequestManager) : ManagerOutcome :=
  MpiRequestManager.run_loop waitany complete fuel
    { m with finish_count := m.finish_count + finish_count__ }

/-- The free list names every slot once at most, and only slots of the pool. -/
def free_list_ok (m : MpiRequestManager) : Prop :=
  m.empty_list.Nodup ∧ ∀ s ∈ m.empty_list, s < m.MAX_REQUESTS

/-! ## The all-gather handlers as completion handlers -/

/-- A completion handler while `MpiRequestManager::run` drives it: the handler object, its
member `complete_count`, the calls of every step it has posted so far, the number of its
requests that have not completed yet, and how often it has called `req_man->finished()`. -/
structure Driven (σ : Type) where
  handler : σ
  complete_count : Nat
  posted : List (List MpiRequest)
  active : Nat
  finish_calls : Nat

/-- The method `next()` of `AllgatherHandler`, `AllgatherStep1Handler` and
`AllgatherStep2Handler` with its effect on `complete_count` and on the manager.  `is_last` is
the test `current >= size` (`current >= steps`): when it holds, `req_man->finished()` is called
and `next()` returns; else the calls of the step are posted, each through
`req_man->submit_handler(this)`, and `complete_count = 0`. -/
def Driven.next {σ : Type} (is_last : σ → Bool) (next : σ → σ × List MpiRequest)
    (d : Driven σ) : Driven σ :=
  if is_last d.handler then
    { d with handler := (next d.handler).1, finish_calls := d.finish_calls + 1 }
  else
    { handler := (next d.handler).1
      complete_count := 0
      posted := d.posted ++ [(next d.handler).2]
      active := d.active + (next d.handler).2.length
      finish_calls := d.finish_calls }

/-- The method `complete(status)`: `if(++complete_count == fanout) next();` with the fanout 4,
2 or `width*2`. -/
def Driven.complete {σ : Type} (fanout : σ → Nat) (is_last : σ → Bool)
    (next : σ → σ × List MpiRequest) (d : Driven σ) : Driven σ :=
  if d.complete_count + 1 = fanout d.handler then
    Driven.next is_last next { d with complete_count := d.complete_count + 1 }
  else { d with complete_count := d.complete_count + 1 }

/-- The method `start(...)` once the fields are set (`h0`, with `current = 1`): `next()`.
The constructor leaves `complete_count` without a value; `complete_count` is what the member
holds. -/
def Driven.start {σ : Type} (is_last : σ → Bool) (next : σ → σ × List MpiRequest) (h0 : σ)
    (complete_count : Nat) : Driven σ :=
  Driven.next is_last next
    { handler := h0, complete_count := complete_count, posted := [], active := 0
      finish_calls := 0 }

/-- The next `m` completions of requests of the handler: `MpiRequestManager::run` calls
`complete` once for each.  The result is `none` when a completion is asked for and the handler
has no request left. -/
def Driven.completions {σ : Type} (fanout : σ → Nat) (is_last : σ → Bool)
    (next : σ → σ × List MpiRequest) : Nat → Driven σ → Option (Driven σ)
  | 0, d => some d
  | m + 1, d =>
    if d.active = 0 then none
    else
      Driven.completions fanout is_last next m
        (Driven.complete fanout is_last next { d with active := d.active - 1 })

/-- The fields of an `AllgatherHandler` as `start` sets them, before its call of `next()`. -/
def AllgatherHandler.fields (rank size left right tag : Nat) : AllgatherHandler :=
  { rank := rank, size := size, left := left, right := right, tag := tag
    current := 1
    l_sendidx := rank
    l_recvidx := ((rank + size + 1) % size : Nat)
    r_sendidx := rank
    r_recvidx := ((rank + size - 1) % size : Nat)
    finished := false }

/-- The fields of an `AllgatherStep1Handler` as `start` sets them, before its call of
`next()`. -/
def AllgatherStep1Handler.fields (count offset : Nat → Nat) (comm : COMM_2D)
    (unit_x unit_y : Int) (steps tag : Nat) : AllgatherStep1Handler :=
  { count := count, offset := offset, comm := comm, unit_x := unit_x, unit_y := unit_y
    steps := steps, tag := tag
    current := 1
    send_to := AllgatherStep1Handler.get_rank comm unit_x unit_y (-1)
    recv_from := AllgatherStep1Handler.get_rank comm unit_x unit_y 1
    finished := false }

/-- The fields of an `AllgatherStep2Handler` as `start` sets them, before its call of
`next()`. -/
def AllgatherStep2Handler.fields (count offset : Nat → Nat) (comm : COMM_2D)
    (unit_x unit_y : Int) (steps width tag : Nat) : AllgatherStep2Handler :=
  { count := count, offset := offset, comm := comm, unit_x := unit_x, unit_y := unit_y
    steps := steps, width := width, tag := tag
    current := 1
    send_to := AllgatherStep2Handler.get_rank comm unit_x unit_y (-1) 0
    recv_from := AllgatherStep2Handler.get_rank comm unit_x unit_y 1 0
    finished := false }

/-- An `AllgatherHandler` driven by the manager: `start`. -/
def AllgatherHandler.driven_start (count offset : Nat → Nat) (rank size left right tag : Nat)
    (complete_count : Nat) : Driven AllgatherHandler :=
  Driven.start (fun h => decide (h.current ≥ h.size)) (AllgatherHandler.next count offset)
    (AllgatherHandler.fields rank size left right tag) complete_count

/-- An `AllgatherHandler` driven by the manager: `m` completions. -/
def AllgatherHandler.completions (count offset : Nat → Nat) (m : Nat)
    (d : Driven AllgatherHandler) : Option (Driven AllgatherHandler) :=
  Driven.completions (fun _ => 4) (fun h => decide (h.current ≥ h.size))
    (AllgatherHandler.next count offset) m d

/-- An `AllgatherStep1Handler` driven by the manager: `start`. -/
def AllgatherStep1Handler.driven_start (count offset : Nat → Nat) (comm : COMM_2D)
    (unit_x unit_y : Int) (steps tag : Nat) (complete_count : Nat) :
    Driven AllgatherStep1Handler :=
  Driven.start (fun h => decide (h.current ≥ h.steps)) AllgatherStep1Handler.next
    (AllgatherStep1Handler.fields count offset comm unit_x unit_y steps tag) complete_count

/-- An `AllgatherStep1Handler` driven by the manager: `m` completions. -/
def AllgatherStep1Handler.completions (m : Nat) (d : Driven AllgatherStep1Handler) :
    Option (Driven AllgatherStep1Handler) :=
  Driven.completions (fun _ => 2) (fun h => decide (h.current ≥ h.steps))
    AllgatherStep1Handler.next m d

/-- An `AllgatherStep2Handler` driven by the manager: `start`. -/
def AllgatherStep2Handler.driven_start (count offset : Nat → Nat) (comm : COMM_2D)
    (unit_x unit_y : Int) (steps width tag : Nat) (complete_count : Nat) :
    Driven AllgatherStep2Handler :=
  Driven.start (fun h => decide (h.current ≥ h.steps)) AllgatherStep2Handler.next
    (AllgatherStep2Handler.fields count offset comm unit_x unit_y steps width tag)
    complete_count

/-- An `AllgatherStep2Handler` driven by the manager: `m` completions. -/
def AllgatherStep2Handler.completions (m : Nat) (d : Driven AllgatherStep2Handler) :
    Option (Driven AllgatherStep2Handler) :=
  Driven.completions (fun h => h.width * 2) (fun h => decide (h.current ≥ h.steps))
    AllgatherStep2Handler.next m d

/-- A driven handler in the middle of its run: `q + 1` steps are posted, each of `F` calls,
`r` of the calls of the last step have completed, and `finished()` has not been called.
`cur` and `lim` read `current` and `size` (`steps`) of the handler. -/
def Driven.posting {σ : Type} (fanout cur lim : σ → Nat) (F n q r : Nat) (d : Driven σ) :
    Prop :=
  cur d.handler = q + 2 ∧ lim d.handler = n ∧ fanout d.handler = F ∧ q + 2 ≤ n ∧ r < F ∧
    d.complete_count = r ∧ d.posted.length = q + 1 ∧ (∀ s ∈ d.posted, s.length = F) ∧
    d.active = F - r ∧ d.finish_calls = 0

/-- A driven handler at its end: `n - 1` steps were posted, each of `F` calls, all calls have
completed and `finished()` has been called once. -/
def Driven.done {σ : Type} (F n : Nat) (d : Driven σ) : Prop :=
  d.posted.length = n - 1 ∧ (∀ s ∈ d.posted, s.length = F) ∧ d.active = 0 ∧
    d.finish_calls = 1

/-- The round in which the round loop called `MPI_Abort`, if it did. -/
def abort_round : RunOutcome → Option Nat
  | RunOutcome.aborted loop => some loop
  | _ => none

/-- A single rank with one thread and a provider of 16 bytes: `max_size / es = 4` words and
`max_size_per_node = 4` words. -/
def tiny_env : A2AEnv :=
  { comm_size_ := 1, comm_rank := 0, max_size := 16, es := 4, thread_of := fun _ => 0
    SKIP_FILTERING := false, NODE_SEND_COUNT_TYPE := 0, others_have_data := fun _ => false }

/-- A comm target after `prepare()` with `buffer_size_ = 4` and one `put` of four words. -/
def full_buffer_node : CommTarget :=
  (put 4 (fun _ => 0) (prepare 4 new_target) (fun i => [5, 0x3F800000, 6, 0x40000000].getD i 0)
    4).getD new_target

/-- The call `buffer_provider_->add(node.cur_buf.ptr, ptr, offset, length)` of a `put`: whether
`cur_buf.ptr` is non-null at the call, the arguments `offset` and `length`, and whether the call
follows a buffer swap. -/
structure AddCall where
  non_null : Bool
  offset : Nat
  length : Nat
  swapped : Bool
deriving DecidableEq, Repr

/-- The call of `add` that `put(ptr, length, target)` makes on `node = node_[target]` when no
other thread runs; `none` when `put` does not reach the call (`length == 0`, or one of the two
wait loops).  After a swap `cur_buf.ptr` is what `get_send_buffer()` returned, a buffer. -/
def put_add_call (buffer_size_ : Nat) (node : CommTarget) (length : Nat) : Option AddCall :=
  if length = 0 then none
  else
    let offset := node.reserved_size_
    if offset > buffer_size_ then none
    else if offset + length > buffer_size_ then
      if offset ≠ node.filled_size_ then none
      else some ⟨true, 0, length, true⟩
    else some ⟨node.cur_buf.isSome, offset, length, false⟩

/-- Whether `put(ptr, length, target)` enters one of its wait loops with the condition true:
`while(node.reserved_size_ > buffer_size_)` or `while(offset != node.filled_size_)`.  With one
thread nothing changes the condition. -/
def put_waits (buffer_size_ : Nat) (node : CommTarget) (length : Nat) : Bool :=
  decide (length ≠ 0) &&
    (decide (node.reserved_size_ > buffer_size_) ||
      (decide (node.reserved_size_ + length > buffer_size_) &&
        decide (node.reserved_size_ ≠ node.filled_size_)))

/-! ## The indices the all-gather handlers use -/

/-- The four indices `l_sendidx`, `l_recvidx`, `r_sendidx`, `r_recvidx` with which
`AllgatherHandler::next()` reads `count[]` and `offset[]`: the members after the wrap-around
corrections at the top of `next()`. -/
def AllgatherHandler.read_indices (h : AllgatherHandler) : List Int :=
  [if h.l_sendidx ≥ h.size then h.l_sendidx - h.size else h.l_sendidx,
    if h.l_recvidx ≥ h.size then h.l_recvidx - h.size else h.l_recvidx,
    if h.r_sendidx < 0 then h.r_sendidx + h.size else h.r_sendidx,
    if h.r_recvidx < 0 then h.r_recvidx + h.size else h.r_recvidx]

/-- The handler after `start` has set the fields and `next()` has run `m` times. -/
def AllgatherHandler.after (count offset : Nat → Nat) (rank size left right tag : Nat)
    (m : Nat) : AllgatherHandler :=
  (fun h => (AllgatherHandler.next count offset h).1)^[m]
    (AllgatherHandler.fields rank size left right tag)

/-- The operand of `%` for `pos_x` in `AllgatherStep1Handler::get_rank(diff)`. -/
def AllgatherStep1Handler.operand_x (comm : COMM_2D) (unit_x diff : Int) : Int :=
  (comm.rank_x : Int) + unit_x * diff + (comm.size_x : Int)

/-- The operand of `%` for `pos_y` in `AllgatherStep1Handler::get_rank(diff)`. -/
def AllgatherStep1Handler.operand_y (comm : COMM_2D) (unit_y diff : Int) : Int :=
  (comm.rank_y : Int) + unit_y * diff + (comm.size_y : Int)

/-- The index `pos_x + pos_y * comm.size_x` into `rank_map` in
`AllgatherStep1Handler::get_rank(diff)`. -/
def AllgatherStep1Handler.map_index (comm : COMM_2D) (unit_x unit_y diff : Int) : Int :=
  Int.tmod (AllgatherStep1Handler.operand_x comm unit_x diff) comm.size_x +
    Int.tmod (AllgatherStep1Handler.operand_y comm unit_y diff) comm.size_y *
      (comm.size_x : Int)

/-- The operand of `%` for `pos_x` in `AllgatherStep2Handler::get_rank(step_diff, idx)`. -/
def AllgatherStep2Handler.operand_x (comm : COMM_2D) (unit_x step_diff idx : Int) : Int :=
  (comm.rank_x : Int) + unit_x * step_diff + ((if unit_x = 0 then 1 else 0) * idx) +
    (comm.size_x : Int)

/-- The operand of `%` for `pos_y` in `AllgatherStep2Handler::get_rank(step_diff, idx)`. -/
def AllgatherStep2Handler.operand_y (comm : COMM_2D) (unit_y step_diff idx : Int) : Int :=
  (comm.rank_y : Int) + unit_y * step_diff + ((if unit_y = 0 then 1 else 0) * idx) +
    (comm.size_y : Int)

/-- The index `pos_x + pos_y * comm.size_x` into `rank_map` in
`AllgatherStep2Handler::get_rank(step_diff, idx)`. -/
def AllgatherStep2Handler.map_index (comm : COMM_2D) (unit_x unit_y step_diff idx : Int) :
    Int :=
  Int.tmod (AllgatherStep2Handler.operand_x comm unit_x step_diff idx) comm.size_x +
    Int.tmod (AllgatherStep2Handler.operand_y comm unit_y step_diff idx) comm.size_y *
      (comm.size_x : Int)

/-! ## The handlers of `my_allgatherv_2d` on their request pool -/

/-- The calls of one step as `next()` posts them for the handler named `handler`: each call
takes a slot with `req_man->submit_handler(this)`, which may throw, and `MPI_Irecv` or
`MPI_Isend` stores the request in the slot. -/
def post_calls (handler : Nat) :
    List MpiRequest → MpiRequestManager → Except MpiError MpiRequestManager
  | [], m => Except.ok m
  | q :: qs, m =>
    match m.submit_handler handler with
    | Except.error e => Except.error e
    | Except.ok (m1, slot) =>
      post_calls handler qs { m1 with reqs := upd m1.reqs slot (some q) }

/-- A request manager with the handlers it serves; handler `j` is named `j`. -/
structure Pool (σ : Type) where
  man : MpiRequestManager
  hs : Nat → Driven σ

/-- The method `next()` of handler `j` on the pool: `req_man->finished()` when `is_last`, else
the calls of the step are posted. -/
def Pool.next {σ : Type} (is_last : σ → Bool) (next : σ → σ × List MpiRequest) (j : Nat)
    (p : Pool σ) : Except MpiError (Pool σ) :=
  if is_last (p.hs j).handler then
    Except.ok { man := p.man.finished, hs := upd p.hs j (Driven.next is_last next (p.hs j)) }
  else
    match post_calls j (next (p.hs j).handler).2 p.man with
    | Except.error e => Except.error e
    | Except.ok m => Except.ok { man := m, hs := upd p.hs j (Driven.next is_last next (p.hs j)) }

/-- The method `start(...)` of handler `j` once the fields are set (`h0`): `next()`. -/
def Pool.start {σ : Type} (is_last : σ → Bool) (next : σ → σ × List MpiRequest) (j : Nat)
    (h0 : σ) (complete_count : Nat) (p : Pool σ) : Except MpiError (Pool σ) :=
  Pool.next is_last next j
    { man := p.man
      hs := upd p.hs j ⟨h0, complete_count, [], 0, 0⟩ }

/-- The calls `handler[j].start(...)` for the handlers `h0s`, numbered from `j` on, in
order. -/
def Pool.start_all {σ : Type} (is_last : σ → Bool) (next : σ → σ × List MpiRequest)
    (complete_count : Nat → Nat) : List σ → Nat → Pool σ → Except MpiError (Pool σ)
  | [], _, p => Except.ok p
  | h0 :: rest, j, p =>
    match Pool.start is_last next j h0 (complete_count j) p with
    | Except.error e => Except.error e
    | Except.ok p1 => Pool.start_all is_last next complete_count rest (j + 1) p1

/-- The method `complete(status)` of handler `j` on the pool:
`if(++complete_count == fanout) next();`. -/
def Pool.complete {σ : Type} (fanout : σ → Nat) (is_last : σ → Bool)
    (next : σ → σ × List MpiRequest) (j : Nat) (p : Pool σ) : Except MpiError (Pool σ) :=
  let d1 : Driven σ := { p.hs j with complete_count := (p.hs j).complete_count + 1 }
  if (p.hs j).complete_count + 1 = fanout (p.hs j).handler then
    Pool.next is_last next j { man := p.man, hs := upd p.hs j d1 }
  else Except.ok { man := p.man, hs := upd p.hs j d1 }

/-- How `MpiRequestManager::run` on a pool goes on. -/
inductive PoolOutcome (σ : Type) where
  | returned (p : Pool σ)
  | waiting (p : Pool σ)
  | raised (e : MpiError)
  | unset_handler
  | no_such_request

/-- One iteration of the loop of `run` in which `MPI_Waitany` returns `index`.  `MPI_Waitany`
returns the index of a request that is active (`no_such_request` otherwise: the event cannot
happen). -/
def Pool.wait_step {σ : Type} (fanout : σ → Nat) (is_last : σ → Bool)
    (next : σ → σ × List MpiRequest) (index : Nat) (p : Pool σ) : PoolOutcome σ :=
  if p.man.empty_list.length = p.man.MAX_REQUESTS then
    PoolOutcome.raised MpiError.no_active_request
  else if (p.man.reqs index).isNone then PoolOutcome.no_such_request
  else
    match p.man.handlers index with
    | none => PoolOutcome.unset_handler
    | some j =>
      let man1 : MpiRequestManager :=
        { p.man with
          reqs := upd p.man.reqs index none
          empty_list := p.man.empty_list ++ [index] }
      let d1 : Driven σ := { p.hs j with active := (p.hs j).active - 1 }
      match Pool.complete fanout is_last next j { man := man1, hs := upd p.hs j d1 } with
      | Except.error e => PoolOutcome.raised e
      | Except.ok p1 => PoolOutcome.waiting p1

/-- The loop `while(finish_count > 0)` of `run` on the pool, `events` being the indices
`MPI_Waitany` returns one after the other; `waiting` when the loop has consumed all of them and
would wait for the next. -/
def Pool.run_events {σ : Type} (fanout : σ → Nat) (is_last : σ → Bool)
    (next : σ → σ × List MpiRequest) : List Nat → Pool σ → PoolOutcome σ
  | [], p => if p.man.finish_count > 0 then PoolOutcome.waiting p else PoolOutcome.returned p
  | index :: events, p =>
    if p.man.finish_count > 0 then
      match Pool.wait_step fanout is_last next index p with
      | PoolOutcome.waiting p1 => Pool.run_events fanout is_last next events p1
      | o => o
    else PoolOutcome.returned p

/-- The method `run(finish_count__)` on the pool. -/
def Pool.run {σ : Type} (fanout : σ → Nat) (is_last : σ → Bool)
    (next : σ → σ × List MpiRequest) (finish_count__ : Int) (events : List Nat)
    (p : Pool σ) : PoolOutcome σ :=
  Pool.run_events fanout is_last next events
    { man := { p.man with finish_count := p.man.finish_count + finish_count__ }
      hs := p.hs }

/-- The number of slots that hold an active request of handler `j`. -/
def held (m : MpiRequestManager) (j : Nat) : Nat :=
  ((List.range m.MAX_REQUESTS).filter
    (fun s => (m.reqs s).isSome && decide (m.handlers s = some j))).length

/-- The number of slots that are not on the free list. -/
def in_use (m : MpiRequestManager) : Nat := m.MAX_REQUESTS - m.empty_list.length

/-- The slots of a manager that serves the handlers `0 .. H - 1`: the free list is in order,
a slot on it holds no request, and a slot that holds a request is a slot of the pool whose
handler is one of the handlers. -/
def ManInv (H : Nat) (m : MpiRequestManager) : Prop :=
  free_list_ok m ∧ (∀ s ∈ m.empty_list, m.reqs s = none) ∧
    ∀ s, m.reqs s ≠ none → s < m.MAX_REQUESTS ∧ ∃ j, j < H ∧ m.handlers s = some j

/-- The requests handler `k` may still post before it holds `F k` slots, summed over the
handlers `0 .. H - 1`. -/
def unused (F : Nat → Nat) (act : Nat → Nat) (H : Nat) : Nat :=
  ((List.range H).map (fun k => F k - act k)).sum

/-- The calls of `finished()` of the handlers `0 .. H - 1`. -/
def finish_total {σ : Type} (hs : Nat → Driven σ) (H : Nat) : Nat :=
  ((List.range H).map (fun k => (hs k).finish_calls)).sum

/-- A pool between two events: the manager's slots are in order, handler `j` holds as many
slots as it has outstanding requests, it is in the middle of its run or at its end, the free
slots are the `slack` slots no handler ever needs plus what the handlers do not use of their
fanout `F j`, `finish_count` has gone down by one for every call of `finished()`, and the
pool has `slack` slots more than the fanouts add up to. -/
structure PoolInv {σ : Type} (fanout cur lim : σ → Nat) (F n : Nat → Nat) (H slack : Nat)
    (c : Int) (p : Pool σ) : Prop where
  man : ManInv H p.man
  held : ∀ j, j < H → held p.man j = (p.hs j).active
  quota : p.man.empty_list.length = slack + unused F (fun k => (p.hs k).active) H
  state : ∀ j, j < H →
    (∃ q r, Driven.posting fanout cur lim (F j) (n j) q r (p.hs j)) ∨
      Driven.done (F j) (n j) (p.hs j)
  fin : p.man.finish_count + (finish_total p.hs H : Int) = c
  total : slack + ((List.range H).map F).sum = p.man.MAX_REQUESTS

/-- The pool an outcome of `run` leaves, when the manager has not thrown. -/
def PoolOutcome.pool {σ : Type} : PoolOutcome σ → Option (Pool σ)
  | PoolOutcome.returned p => some p
  | PoolOutcome.waiting p => some p
  | _ => none

/-- The requests of the fallback path of `my_allgatherv_2d` on one rank:
`MpiRequestManager req_man(8)`, `handler.start(...)`, `req_man.run(1)`.  `complete_count` is
what the member of the handler holds when it is declared. -/
def my_allgatherv_2d.ring_pool (count offset : Nat → Nat) (rank size complete_count : Nat)
    (events : List Nat) : PoolOutcome AllgatherHandler :=
  let h0 := AllgatherHandler.fields rank size ((rank + size - 1) % size)
    ((rank + size + 1) % size) MY_EXPAND_TAG1
  match Pool.start (fun h => decide (h.current ≥ h.size)) (AllgatherHandler.next count offset)
      0 h0 complete_count
      { man := MpiRequestManager.new 8, hs := fun _ => ⟨h0, complete_count, [], 0, 0⟩ } with
  | Except.error e => PoolOutcome.raised e
  | Except.ok p =>
    Pool.run (fun _ => 4) (fun h => decide (h.current ≥ h.size))
      (AllgatherHandler.next count offset) 1 events p

/-- The four `AllgatherStep1Handler` of `my_allgatherv_2d` as `start` sets their fields, in
source order. -/
def my_allgatherv_2d.step1_handlers (recv_count recv_offset : Nat → Nat) (comm : COMM_2D) :
    List AllgatherStep1Handler :=
  [AllgatherStep1Handler.fields (split_count recv_count recv_offset 0)
      (split_offset recv_count recv_offset 0) comm 1 0 comm.size_x MY_EXPAND_TAG1,
    AllgatherStep1Handler.fields (split_count recv_count recv_offset 1)
      (split_offset recv_count recv_offset 1) comm (-1) 0 comm.size_x MY_EXPAND_TAG1,
    AllgatherStep1Handler.fields (split_count recv_count recv_offset 2)
      (split_offset recv_count recv_offset 2) comm 0 1 comm.size_y MY_EXPAND_TAG2,
    AllgatherStep1Handler.fields (split_count recv_count recv_offset 3)
      (split_offset recv_count recv_offset 3) comm 0 (-1) comm.size_y MY_EXPAND_TAG2]

/-- The four `AllgatherStep2Handler` of `my_allgatherv_2d` as `start` sets their fields, in
source order. -/
def my_allgatherv_2d.step2_handlers (recv_count recv_offset : Nat → Nat) (comm : COMM_2D) :
    List AllgatherStep2Handler :=
  [AllgatherStep2Handler.fields (split_count recv_count recv_offset 0)
      (split_offset recv_count recv_offset 0) comm 0 1 comm.size_y comm.size_x MY_EXPAND_TAG1,
    AllgatherStep2Handler.fields (split_count recv_count recv_offset 1)
      (split_offset recv_count recv_offset 1) comm 0 (-1) comm.size_y comm.size_x
      MY_EXPAND_TAG1,
    AllgatherStep2Handler.fields (split_count recv_count recv_offset 2)
      (split_offset recv_count recv_offset 2) comm 1 0 comm.size_x comm.size_y MY_EXPAND_TAG2,
    AllgatherStep2Handler.fields (split_count recv_count recv_offset 3)
      (split_offset recv_count recv_offset 3) comm (-1) 0 comm.size_x comm.size_y
      MY_EXPAND_TAG2]

/-- The requests of the first block of the 2-D path of `my_allgatherv_2d` on one process:
`MpiRequestManager req_man((comm.size_x + comm.size_y)*4)`, the four calls of `start` and
`req_man.run(4)`. -/
def my_allgatherv_2d.phase1_pool (recv_count recv_offset : Nat → Nat) (comm : COMM_2D)
    (complete_count : Nat → Nat) (events : List Nat) : PoolOutcome AllgatherStep1Handler :=
  match Pool.start_all (fun h => decide (h.current ≥ h.steps)) AllgatherStep1Handler.next
      complete_count (my_allgatherv_2d.step1_handlers recv_count recv_offset comm) 0
      { man := MpiRequestManager.new ((comm.size_x + comm.size_y) * 4)
        hs := fun j =>
          ⟨AllgatherStep1Handler.fields recv_count recv_offset comm 0 0 0 0,
            complete_count j, [], 0, 0⟩ } with
  | Except.error e => PoolOutcome.raised e
  | Except.ok p =>
    Pool.run (fun _ => 2) (fun h => decide (h.current ≥ h.steps)) AllgatherStep1Handler.next 4
      events p

/-- The requests of the second block of the 2-D path of `my_allgatherv_2d` on one process,
on the manager `man` as the first block leaves it: the four calls of `start` and
`req_man.run(4)`. -/
def my_allgatherv_2d.phase2_pool (recv_count recv_offset : Nat → Nat) (comm : COMM_2D)
    (complete_count : Nat → Nat) (man : MpiRequestManager) (events : List Nat) :
    PoolOutcome AllgatherStep2Handler :=
  match Pool.start_all (fun h => decide (h.current ≥ h.steps)) AllgatherStep2Handler.next
      complete_count (my_allgatherv_2d.step2_handlers recv_count recv_offset comm) 0
      { man := man
        hs := fun j =>
          ⟨AllgatherStep2Handler.fields recv_count recv_offset comm 0 0 0 0 0,
            complete_count j, [], 0, 0⟩ } with
  | Except.error e => PoolOutcome.raised e
  | Except.ok p =>
    Pool.run (fun h => h.width * 2) (fun h => decide (h.current ≥ h.steps))
      AllgatherStep2Handler.next 4 events p

/-- Whether `run` has returned. -/
def PoolOutcome.has_returned {σ : Type} : PoolOutcome σ → Bool
  | PoolOutcome.returned _ => true
  | _ => false

/-- The number of slots in use on the pool an outcome leaves. -/
def PoolOutcome.slots_in_use {σ : Type} (o : PoolOutcome σ) : Option Nat :=
  o.pool.map (fun p => in_use p.man)

/-- The manager an outcome leaves; a manager without slots when it leaves none. -/
def PoolOutcome.manager {σ : Type} (o : PoolOutcome σ) : MpiRequestManager :=
  match o.pool with
  | some p => p.man
  | none => MpiRequestManager.new 0

/-- A 2 × 2 grid as the process at position 0 sees it. -/
def grid4_comm : COMM_2D := comm_2d 2 2 (fun p => p) 0

/-! ## Ties in the dedup passes -/

/-- The weight `w` wins against the weight `y`: it is smaller under the float `<`, or `y` is a
NaN and `w` is not.  Two weights that are equal, as bit patterns or as floats, do not win
against each other. -/
def wins (w y : Nat) : Bool := f32lt w y || (f32isNaN y && !f32isNaN w)

/-- The pairs of a row and the candidates `B` of its descriptor, `prev` being the candidates of
the descriptors in front: a pair that is not sentinel-marked is a candidate of the descriptor
that wins against every candidate for its vertex in front of it. -/
def TieRow (s : Stream) (prev : List (Nat × Nat)) (row : List Nat) (B : List (Nat × Nat)) :
    Prop :=
  ∀ p ∈ row, s (p + 1) ≠ get_sentinel →
    ∃ B1 B2, B = B1 ++ (s p, s (p + 1)) :: B2 ∧
      ∀ y ∈ prev ++ B1, y.1 = s p → wins (s (p + 1)) y.2 = true

/-- `TieRow` for every block of a pointer-origin stream from `i` on, `Cs` being the candidates
of the descriptors of the blocks. -/
def TieBlocks (s : Stream) :
    List (Nat × Nat) → Nat → List Nat → List (List (Nat × Nat)) → Prop
  | _, _, [], [] => True
  | prev, i, k :: ks, B :: Cs =>
    TieRow s prev (rowPos (i + 3) k) B ∧ TieBlocks s (prev ++ B) (i + 3 + 2 * k) ks Cs
  | _, _, _, _ => False

/-- Two descriptors on the edges of scenario E1 whose candidates tie on vertex 2 (`1.0 + 3.0`
in both), and two queued buffers whose pairs tie on vertex 5 (weight `1.0`), the second behind
a header. -/
def tie_node : CommTarget :=
  { reserved_size_ := 0, filled_size_ := 0, cur_buf := none
    send_ptr := [⟨0, 0x0000000100000002, 0x3F800000, 2⟩, ⟨1, 0x0000000300000004, 0x3F800000, 1⟩]
    send_data := [⟨fun i => [5, 0x3F800000].getD i 0, 2⟩,
      ⟨fun i => [0x80000007, 9, 5, 0x3F800000].getD i 0, 4⟩] }

/-- Two pointer blocks over the graph of scenario E1: the edge `(1, 1.5)` with `dist = 1.0`,
then the edge `(1, 2.0)` with `dist = 1.0`, which the first candidate dominates. -/
def trailing_block_node : CommTarget :=
  { reserved_size_ := 0, filled_size_ := 0, cur_buf := none, send_data := []
    send_ptr := [⟨2, 0x0000000100000002, 0x3F800000, 1⟩, ⟨0, 0x0000000300000004, 0x3F800000, 1⟩] }

/-- Two queued buffers for the local vertex 5: the pair `(5, NaN)` (quiet NaN `0x7FC00000`),
then the pair `(5, 1.0)`. -/
def nan_first_node : CommTarget :=
  { reserved_size_ := 0, filled_size_ := 0, cur_buf := none, send_ptr := []
    send_data := [⟨fun i => [5, 0x7FC00000].getD i 0, 2⟩, ⟨fun i => [5, 0x3F800000].getD i 0, 2⟩] }

/-- One descriptor over the first edge of the scenario graphs, with `source_dist` a NaN (quiet
NaN `0x7FC00000`). -/
def nan_dist_node : CommTarget :=
  { reserved_size_ := 0, filled_size_ := 0, cur_buf := none, send_data := []
    send_ptr := [⟨0, 0x0000000100000002, 0x7FC00000, 1⟩] }

/-- The descriptor of `nan_dist_node`, whose only edge leads to the local vertex 1, and one
queued buffer with the pair `(1, 1.0)`. -/
def nan_both_node : CommTarget :=
  { nan_dist_node with send_data := [⟨fun i => [1, 0x3F800000].getD i 0, 2⟩] }

/-- The slab of a destination as the expand pass of `run_with_both` leaves it: there are pointer
blocks `blocks` (none empty, their pairs pointer-origin candidates of `node`) and pairs `out`
(their payload pairs buffer-origin candidates of `node`) such that, with `P = encodePtr blocks`
and `B = flattenPairs out`, the `1 + |P| + |B|` words of `stream` at `off` are `|P|` followed
by `P` and then `B`; `send_length` is `1 + |P| + |B|`, replaced by 0 when this is 1, and
`1 + |P| + |B|` is at most `cap`; `P` is empty without `use_ptr` and `B` is empty without
`use_buffer`. -/
def SlabLayout (graph : Graph2DCSR) (state : SsspState) (node : CommTarget)
    (use_ptr use_buffer : Bool) (stream : Stream) (off send_length cap : Nat) : Prop :=
  ∃ (blocks : List PtrBlock) (out : List (Nat × Nat)),
    (∀ b ∈ blocks, b.2.2 ≠ []) ∧
    (∀ x ∈ blockPairs blocks, x ∈ ptr_candidates node state graph) ∧
    (∀ x ∈ out.filter isPayload, x ∈ buffer_candidates node graph) ∧
    (use_ptr = false → blocks = []) ∧ (use_buffer = false → out = []) ∧
    words stream off (1 + (encodePtr blocks).length + (flattenPairs out).length) =
      (encodePtr blocks).length :: (encodePtr blocks ++ flattenPairs out) ∧
    send_length =
      (if 1 + (encodePtr blocks).length + (flattenPairs out).length = 1 then 0
        else 1 + (encodePtr blocks).length + (flattenPairs out).length) ∧
    1 + (encodePtr blocks).length + (flattenPairs out).length ≤ cap

/-- What the expand pass of `run_with_both` needs of a destination with the comm target `node`
and the count `cap`: well-formed queued buffers when buffer data is merged, every candidate
vertex inside the scratch slice of a thread, no pointer candidate with the sentinel weight,
and a count that covers the leading word, the words `collect_targets_ptr` writes and the words
`collect_targets_buffer` copies. -/
def DestReady (graph : Graph2DCSR) (state : SsspState) (node : CommTarget)
    (use_ptr use_buffer : Bool) (cap : Nat) : Prop :=
  (use_buffer = true → wellFormedBuf (queued_words node) = true) ∧
  (∀ x ∈ merge_candidates node state graph use_ptr use_buffer,
    x.1 < graph.num_local_verts_) ∧
  (use_ptr = true → ∀ x ∈ ptr_candidates node state graph, x.2 ≠ get_sentinel) ∧
  ∀ (s : Stream) (vp : VPos),
    1 + (if use_ptr then (collect_targets_ptr node state graph s vp).pos else 0) +
      (if use_buffer then (queued_words node).length else 0) ≤ cap

/-- What a round of `run_with_both` needs at its start, for the scratch of `N` entries: a clean
scratch, and for every destination the two estimates `get_node_send_length_buffer` and
`get_node_send_length_ptr` of its comm target, well-formed queued buffers, every candidate
vertex inside the scratch slice of a thread and no pointer candidate with the sentinel
weight. -/
def RoundReady (env : A2AEnv) (graph : Graph2DCSR) (state : SsspState) (N : Nat)
    (st : A2AState) : Prop :=
  (∀ x, x < N → st.vertices_pos x = -1) ∧
  ∀ i, i < env.comm_size_ →
    st.node_send_lengths_buffer.getD i 0 = get_node_send_length_buffer (node_at st i) ∧
    st.node_send_lengths_ptr.getD i 0 =
      get_node_send_length_ptr env.NODE_SEND_COUNT_TYPE (node_at st i) state graph ∧
    wellFormedBuf (queued_words (node_at st i)) = true ∧
    (∀ x ∈ ptr_candidates (node_at st i) state graph ++
        buffer_candidates (node_at st i) graph, x.1 < graph.num_local_verts_) ∧
    ∀ x ∈ ptr_candidates (node_at st i) state graph, x.2 ≠ get_sentinel

/-- Two destinations served by one thread on rank 0, with `NODE_SEND_COUNT_TYPE == 1` and
`max_size_per_node = 4096 / (4 * 2) = 512` words; no other rank has data. -/
def overrun_env : A2AEnv :=
  { comm_size_ := 2, comm_rank := 0, max_size := 4096, es := 4, thread_of := fun _ => 0
    SKIP_FILTERING := false, NODE_SEND_COUNT_TYPE := 1, others_have_data := fun _ => false }

/-- The two destinations of `overrun_env` with `NODE_SEND_COUNT_TYPE == 0`. -/
def two_dest_env : A2AEnv := { overrun_env with NODE_SEND_COUNT_TYPE := 0 }
/-! ## Basic facts -/

/-- Sanity checks of the binary32 addition: `1 + 2 = 3`, `1 + 1.5 = 2.5`, `4 + 1 = 5`,
`8 + 1 = 9`, `8 + 3 = 11`, ties to even at one ulp, exact cancellation, subnormals. -/
theorem f32add_values :
    f32add 0x3F800000 0x40000000 = 0x40400000 ∧ f32add 0x3F800000 0x3FC00000 = 0x40200000 ∧
    f32add 0x40800000 0x3F800000 = 0x40A00000 ∧ f32add 0x41000000 0x3F800000 = 0x41100000 ∧
    f32add 0x41000000 0x40400000 = 0x41300000 ∧ f32add 0x3F800000 0x33800000 = 0x3F800000 ∧
    f32add 0x3F800001 0x33800000 = 0x3F800002 ∧ f32add 0x3F800000 0xBF800000 = 0 ∧
    f32add 0xBF800000 0x40000000 = 0x3F800000 ∧ f32add 0x007FFFFF 0x00000001 = 0x00800000 := by
  decide

@[simp] theorem upd_same {β : Type} (a : Nat → β) (i : Nat) (v : β) : upd a i v i = v := by
  simp [upd]

theorem upd_ne {β : Type} (a : Nat → β) {i x : Nat} (v : β) (h : x ≠ i) : upd a i v x = a x := by
  simp [upd, h]

theorem f32lt_irrefl (a : Nat) : f32lt a a = false := by
  simp [f32lt]

theorem f32lt_trans {a b c : Nat} (h1 : f32lt a b = true) (h2 : f32lt b c = true) :
    f32lt a c = true := by
  simp only [f32lt, Bool.and_eq_true, Bool.not_eq_true', decide_eq_true_eq] at *
  exact ⟨⟨h1.1.1, h2.1.2⟩, lt_trans h1.2 h2.2⟩

theorem f32le_of_not_lt {a b : Nat} (ha : f32isNaN a = false) (hb : f32isNaN b = false)
    (h : f32lt a b = false) : f32le b a = true := by
  simp only [f32lt, f32le, ha, hb, Bool.not_false, Bool.true_and, decide_eq_false_iff_not,
    decide_eq_true_eq, not_lt] at *
  exact h

theorem f32lt_of_not_ge {a b : Nat} (ha : f32isNaN a = false) (hb : f32isNaN b = false)
    (h : f32ge a b = false) : f32lt a b = true := by
  simp only [f32lt, f32ge, ha, hb, Bool.not_false, Bool.true_and, decide_eq_false_iff_not,
    decide_eq_true_eq, not_le] at *
  exact h

theorem f32ge_of_not_lt {a b : Nat} (ha : f32isNaN a = false) (hb : f32isNaN b = false)
    (h : f32lt a b = false) : f32ge a b = true := by
  simp only [f32lt, f32ge, ha, hb, Bool.not_false, Bool.true_and, decide_eq_false_iff_not,
    decide_eq_true_eq, not_lt] at *
  exact h

theorem land_lmask_idem (graph : Graph2DCSR) (x : Nat) :
    (x &&& lmask graph) &&& lmask graph = x &&& lmask graph := by
  rw [Nat.and_assoc, Nat.and_self]

theorem rowPos_snoc (c k : Nat) : rowPos c (k + 1) = rowPos c k ++ [c + 2 * k] := by
  induction k generalizing c with
  | zero => simp [rowPos]
  | succ k ih =>
    have h := ih (c + 2)
    simp only [rowPos] at h ⊢
    rw [h]
    simp
    omega

theorem rowPos_bounds {c k p : Nat} (h : p ∈ rowPos c k) : c ≤ p ∧ p + 2 ≤ c + 2 * k := by
  induction k generalizing c with
  | zero => simp [rowPos] at h
  | succ k ih =>
    simp only [rowPos, List.mem_cons] at h
    rcases h with h | h
    · omega
    · have := ih h
      omega

theorem readRow_eq_map (s : Stream) (c k : Nat) :
    readRow s c k = (rowPos c k).map (fun p => (s p, s (p + 1))) := by
  induction k generalizing c with
  | zero => simp [rowPos, readRow]
  | succ k ih => simp [rowPos, readRow, ih]

theorem readRow_congr {s t : Stream} {c k : Nat}
    (h : ∀ x, c ≤ x → x < c + 2 * k → s x = t x) : readRow s c k = readRow t c k := by
  induction k generalizing c with
  | zero => simp [readRow]
  | succ k ih =>
    simp only [readRow]
    rw [h c (by omega) (by omega), h (c + 1) (by omega) (by omega), ih]
    intro x hx1 hx2
    exact h x (by omega) (by omega)

theorem words_zero (s : Stream) (off : Nat) : words s off 0 = [] := by
  simp [words]

theorem words_succ (s : Stream) (off n : Nat) :
    words s off (n + 1) = s off :: words s (off + 1) n := by
  simp only [words, List.range_succ_eq_map, List.map_cons, List.map_map, Nat.add_zero]
  congr 1
  apply List.map_congr_left
  intro a _
  simp only [Function.comp]
  congr 1
  omega

theorem words_append (s : Stream) (off a b : Nat) :
    words s off (a + b) = words s off a ++ words s (off + a) b := by
  induction a generalizing off with
  | zero => simp [words_zero]
  | succ a ih =>
    rw [show a + 1 + b = (a + b) + 1 by omega, words_succ, words_succ, ih]
    simp only [List.cons_append]
    congr 3
    omega

theorem words_congr {s t : Stream} {off n : Nat}
    (h : ∀ x, off ≤ x → x < off + n → s x = t x) : words s off n = words t off n := by
  simp only [words]
  apply List.map_congr_left
  intro a ha
  exact h _ (by omega) (by have := List.mem_range.1 ha; omega)

theorem words_length (s : Stream) (off n : Nat) : (words s off n).length = n := by
  simp [words]

theorem flattenPairs_length (ps : List (Nat × Nat)) :
    (flattenPairs ps).length = 2 * ps.length := by
  induction ps with
  | nil => simp [flattenPairs]
  | cons p r ih => simp [flattenPairs, ih]; omega

theorem flattenPairs_append (a b : List (Nat × Nat)) :
    flattenPairs (a ++ b) = flattenPairs a ++ flattenPairs b := by
  induction a with
  | nil => simp [flattenPairs]
  | cons p r ih => simp [flattenPairs, ih]

/-! ## Preservation of the dedup invariant -/

theorem DInv_init (L : Nat) (s : Stream) (vp : VPos) (h : ∀ v, v < L → vp v = -1) :
    DInv L s vp [] [] where
  sep := List.Pairwise.nil
  reg := by simp
  neg := fun v hv _ => h v hv
  alive := fun v hv hn => absurd (by rw [h v hv]; decide) hn
  cand := by simp
  mem := by simp
  bnd := by simp

theorem sep_snoc {P : List Nat} {q : Nat} (hs : P.Pairwise (fun a b => a + 2 ≤ b))
    (hq : ∀ p ∈ P, p + 2 ≤ q) : (P ++ [q]).Pairwise (fun a b => a + 2 ≤ b) := by
  rw [List.pairwise_append]
  refine ⟨hs, List.pairwise_singleton _ _, ?_⟩
  intro a ha b hb
  simp only [List.mem_singleton] at hb
  subst hb
  exact hq a ha

theorem sep_ne {P : List Nat} (hs : P.Pairwise (fun a b => a + 2 ≤ b)) {p p' : Nat}
    (hp : p ∈ P) (hp' : p' ∈ P) : p' ≠ p + 1 := by
  intro h
  rcases List.pairwise_iff_getElem.1 hs with hs'
  obtain ⟨i, hi, rfl⟩ := List.getElem_of_mem hp
  obtain ⟨j, hj, rfl⟩ := List.getElem_of_mem hp'
  rcases Nat.lt_trichotomy i j with hij | hij | hij
  · have := hs' i j hi hj hij
    omega
  · subst hij
    omega
  · have := hs' j i hj hi hij
    omega

theorem DInv_frame {L : Nat} {s s' : Stream} {vp : VPos} {P : List Nat} {C : List (Nat × Nat)}
    (h : DInv L s vp P C) (hs : ∀ p ∈ P, s' p = s p ∧ s' (p + 1) = s (p + 1)) :
    DInv L s' vp P C where
  sep := h.sep
  reg := fun p hp ha => by
    rw [(hs p hp).1]
    rw [(hs p hp).2] at ha
    exact h.reg p hp ha
  neg := h.neg
  alive := fun v hv hn => by
    obtain ⟨p, hp, h1, h2, h3⟩ := h.alive v hv hn
    exact ⟨p, hp, h1, by rw [(hs p hp).1]; exact h2, by rw [(hs p hp).2]; exact h3⟩
  cand := fun c hc => by
    obtain ⟨p, hp, h1, h2⟩ := h.cand c hc
    exact ⟨p, hp, h1, by rw [(hs p hp).2]; exact h2⟩
  mem := fun p hp ha => by
    rw [(hs p hp).1, (hs p hp).2]
    rw [(hs p hp).2] at ha
    exact h.mem p hp ha
  bnd := h.bnd

/-- First candidate for `v`: the pair at the new position `q` is registered. -/
theorem DInv_new {L : Nat} {s s' : Stream} {vp : VPos} {P : List Nat} {C : List (Nat × Nat)}
    {q v w : Nat} (h : DInv L s vp P C) (hq : ∀ p ∈ P, p + 2 ≤ q) (hv : v < L)
    (hw : w ≠ get_sentinel) (hneg : vp v < 0)
    (hs : ∀ p ∈ P, s' p = s p ∧ s' (p + 1) = s (p + 1)) (hsv : s' q = v) (hsw : s' (q + 1) = w) :
    DInv L s' (upd vp v (q : Int)) (P ++ [q]) (C ++ [(v, w)]) := by
  have h' := DInv_frame h hs
  refine ⟨sep_snoc h.sep hq, ?_, ?_, ?_, ?_, ?_, ?_⟩
  · intro p hp ha
    rcases List.mem_append.1 hp with hp | hp
    · have h1 := h'.reg p hp ha
      have hne : s' p ≠ v := by
        intro he
        rw [he] at h1
        omega
      rw [upd_ne _ _ hne]
      exact h1
    · simp only [List.mem_singleton] at hp
      subst hp
      rw [hsv, upd_same]
  · intro v' hv' hn
    by_cases he : v' = v
    · subst he
      rw [upd_same] at hn
      omega
    · rw [upd_ne _ _ he] at hn ⊢
      exact h.neg v' hv' hn
  · intro v' hv' hn
    by_cases he : v' = v
    · subst he
      exact ⟨q, by simp, by rw [upd_same], hsv, by rw [hsw]; exact hw⟩
    · rw [upd_ne _ _ he] at hn ⊢
      obtain ⟨p, hp, h1, h2, h3⟩ := h'.alive v' hv' hn
      exact ⟨p, List.mem_append_left _ hp, h1, h2, h3⟩
  · intro c hc
    rcases List.mem_append.1 hc with hc | hc
    · obtain ⟨p, hp, h1, h2⟩ := h'.cand c hc
      have hne : c.1 ≠ v := by
        intro he
        rw [he] at h1
        omega
      exact ⟨p, List.mem_append_left _ hp, by rw [upd_ne _ _ hne]; exact h1, h2⟩
    · simp only [List.mem_singleton] at hc
      subst hc
      exact ⟨q, by simp, by simp, by rw [hsw]; exact f32lt_irrefl w⟩
  · intro p hp ha
    rcases List.mem_append.1 hp with hp | hp
    · exact List.mem_append_left _ (h'.mem p hp ha)
    · simp only [List.mem_singleton] at hp
      subst hp
      rw [hsv, hsw]
      simp
  · intro c hc
    rcases List.mem_append.1 hc with hc | hc
    · exact h.bnd c hc
    · simp only [List.mem_singleton] at hc
      subst hc
      exact hv

/-- A candidate that is not strictly smaller than the registered twin leaves the state as it
is. -/
theorem DInv_skip {L : Nat} {s : Stream} {vp : VPos} {P : List Nat} {C : List (Nat × Nat)}
    {v w : Nat} (h : DInv L s vp P C) (hv : v < L) (hneg : ¬ vp v < 0)
    (hlt : f32lt w (s ((vp v).toNat + 1)) = false) :
    DInv L s vp P (C ++ [(v, w)]) := by
  obtain ⟨p0, hp0, h1, _, _⟩ := h.alive v hv hneg
  have ht : (vp v).toNat = p0 := by rw [h1]; simp
  rw [ht] at hlt
  refine ⟨h.sep, h.reg, h.neg, h.alive, ?_, ?_, ?_⟩
  · intro c hc
    rcases List.mem_append.1 hc with hc | hc
    · exact h.cand c hc
    · simp only [List.mem_singleton] at hc
      subst hc
      exact ⟨p0, hp0, h1, hlt⟩
  · intro p hp ha
    exact List.mem_append_left _ (h.mem p hp ha)
  · intro c hc
    rcases List.mem_append.1 hc with hc | hc
    · exact h.bnd c hc
    · simp only [List.mem_singleton] at hc
      subst hc
      exact hv

/-- A pair whose weight is the sentinel can be added to the positions. -/
theorem DInv_dead {L : Nat} {s s' : Stream} {vp : VPos} {P : List Nat} {C : List (Nat × Nat)}
    {q : Nat} (h : DInv L s vp P C) (hq : ∀ p ∈ P, p + 2 ≤ q)
    (hs : ∀ p ∈ P, s' p = s p ∧ s' (p + 1) = s (p + 1)) (hsw : s' (q + 1) = get_sentinel) :
    DInv L s' vp (P ++ [q]) C := by
  have h' := DInv_frame h hs
  refine ⟨sep_snoc h.sep hq, ?_, h.neg, ?_, ?_, ?_, h.bnd⟩
  · intro p hp ha
    rcases List.mem_append.1 hp with hp | hp
    · exact h'.reg p hp ha
    · simp only [List.mem_singleton] at hp
      subst hp
      exact absurd hsw ha
  · intro v' hv' hn
    obtain ⟨p, hp, h1, h2, h3⟩ := h'.alive v' hv' hn
    exact ⟨p, List.mem_append_left _ hp, h1, h2, h3⟩
  · intro c hc
    obtain ⟨p, hp, h1, h2⟩ := h'.cand c hc
    exact ⟨p, List.mem_append_left _ hp, h1, h2⟩
  · intro p hp ha
    rcases List.mem_append.1 hp with hp | hp
    · exact h'.mem p hp ha
    · simp only [List.mem_singleton] at hp
      subst hp
      exact absurd hsw ha

/-- A strictly smaller candidate replaces its twin: the twin's weight becomes the sentinel and
the pair at the new position `q` is registered. -/
theorem DInv_replace {L : Nat} {s s' : Stream} {vp : VPos} {P : List Nat}
    {C : List (Nat × Nat)} {q v w : Nat} (h : DInv L s vp P C) (hq : ∀ p ∈ P, p + 2 ≤ q)
    (hv : v < L) (hw : w ≠ get_sentinel) (hneg : ¬ vp v < 0)
    (hlt : f32lt w (s ((vp v).toNat + 1)) = true)
    (hst : s' ((vp v).toNat + 1) = get_sentinel)
    (hs : ∀ p ∈ P, s' p = s p ∧ (p ≠ (vp v).toNat → s' (p + 1) = s (p + 1)))
    (hsv : s' q = v) (hsw : s' (q + 1) = w) :
    DInv L s' (upd vp v (q : Int)) (P ++ [q]) (C ++ [(v, w)]) := by
  obtain ⟨p0, hp0, h1, h2, h3⟩ := h.alive v hv hneg
  have ht : (vp v).toNat = p0 := by rw [h1]; simp
  rw [ht] at hlt hst hs
  have key : ∀ p ∈ P, s' (p + 1) ≠ get_sentinel → p ≠ p0 := by
    intro p _ ha he
    subst he
    exact ha hst
  have hvp : ∀ p ∈ P, vp (s p) = (p : Int) → p ≠ p0 → s p ≠ v := by
    intro p _ hr hne he
    rw [he, h1] at hr
    exact hne (by omega)
  refine ⟨sep_snoc h.sep hq, ?_, ?_, ?_, ?_, ?_, ?_⟩
  · intro p hp ha
    rcases List.mem_append.1 hp with hp | hp
    · have hne := key p hp ha
      have ha' : s (p + 1) ≠ get_sentinel := by rw [← (hs p hp).2 hne]; exact ha
      have hr := h.reg p hp ha'
      rw [(hs p hp).1, upd_ne _ _ (hvp p hp hr hne)]
      exact hr
    · simp only [List.mem_singleton] at hp
      subst hp
      rw [hsv, upd_same]
  · intro v' hv' hn
    by_cases he : v' = v
    · subst he
      rw [upd_same] at hn
      omega
    · rw [upd_ne _ _ he] at hn ⊢
      exact h.neg v' hv' hn
  · intro v' hv' hn
    by_cases he : v' = v
    · subst he
      exact ⟨q, by simp, by rw [upd_same], hsv, by rw [hsw]; exact hw⟩
    · rw [upd_ne _ _ he] at hn ⊢
      obtain ⟨p, hp, k1, k2, k3⟩ := h.alive v' hv' hn
      have hne : p ≠ p0 := by
        intro hpp
        subst hpp
        exact he (k2.symm.trans h2)
      exact ⟨p, List.mem_append_left _ hp, k1, by rw [(hs p hp).1]; exact k2,
        by rw [(hs p hp).2 hne]; exact k3⟩
  · intro c hc
    rcases List.mem_append.1 hc with hc | hc
    · obtain ⟨p, hp, k1, k2⟩ := h.cand c hc
      by_cases he : c.1 = v
      · refine ⟨q, by simp, by rw [he, upd_same], ?_⟩
        rw [hsw]
        have hpp : p = p0 := by
          rw [he, h1] at k1
          omega
        subst hpp
        cases hcw : f32lt c.2 w with
        | false => rfl
        | true =>
          have := f32lt_trans hcw hlt
          rw [this] at k2
          exact absurd k2 (by decide)
      · have hne : p ≠ p0 := by
          intro hpp
          subst hpp
          obtain ⟨p', hp', j1, j2, j3⟩ := h.alive c.1 (h.bnd c hc) (by rw [k1]; omega)
          have : p' = p := by
            rw [k1] at j1
            omega
          subst this
          exact he (j2.symm.trans h2)
        exact ⟨p, List.mem_append_left _ hp, by rw [upd_ne _ _ he]; exact k1,
          by rw [(hs p hp).2 hne]; exact k2⟩
    · simp only [List.mem_singleton] at hc
      subst hc
      exact ⟨q, by simp, by simp, by rw [hsw]; exact f32lt_irrefl w⟩
  · intro p hp ha
    rcases List.mem_append.1 hp with hp | hp
    · have hne := key p hp ha
      rw [(hs p hp).1, (hs p hp).2 hne]
      rw [(hs p hp).2 hne] at ha
      exact List.mem_append_left _ (h.mem p hp ha)
    · simp only [List.mem_singleton] at hp
      subst hp
      rw [hsv, hsw]
      simp
  · intro c hc
    rcases List.mem_append.1 hc with hc | hc
    · exact h.bnd c hc
    · simp only [List.mem_singleton] at hc
      subst hc
      exact hv

/-! ## Layout facts -/

theorem layEnd_ge (i : Nat) (ks : List Nat) : i ≤ layEnd i ks := by
  induction ks generalizing i with
  | nil => simp [layEnd]
  | cons k ks ih =>
    have := ih (i + 3 + 2 * k)
    simp only [layEnd]
    omega

theorem pairPos_bounds {i p : Nat} {ks : List Nat} (h : p ∈ pairPos i ks) :
    i + 3 ≤ p ∧ p + 2 ≤ layEnd i ks := by
  induction ks generalizing i with
  | nil => simp [pairPos] at h
  | cons k ks ih =>
    simp only [pairPos, List.mem_append] at h
    simp only [layEnd]
    rcases h with h | h
    · have := rowPos_bounds h
      have := layEnd_ge (i + 3 + 2 * k) ks
      omega
    · have := ih h
      omega

theorem lenPos_bounds {i l : Nat} {ks : List Nat} (h : l ∈ lenPos i ks) :
    i + 2 ≤ l ∧ l + 1 ≤ layEnd i ks := by
  induction ks generalizing i with
  | nil => simp [lenPos] at h
  | cons k ks ih =>
    simp only [lenPos, List.mem_cons] at h
    simp only [layEnd]
    rcases h with h | h
    · have := layEnd_ge (i + 3 + 2 * k) ks
      omega
    · have := ih h
      omega

theorem pairPos_lenPos_disjoint {i p l : Nat} {ks : List Nat} (hp : p ∈ pairPos i ks)
    (hl : l ∈ lenPos i ks) : p + 1 ≠ l ∧ p ≠ l := by
  induction ks generalizing i with
  | nil => simp [pairPos] at hp
  | cons k ks ih =>
    simp only [pairPos, List.mem_append] at hp
    simp only [lenPos, List.mem_cons] at hl
    rcases hp with hp | hp <;> rcases hl with hl | hl
    · have := rowPos_bounds hp
      omega
    · have := rowPos_bounds hp
      have := lenPos_bounds hl
      omega
    · have := pairPos_bounds hp
      omega
    · exact ih hp hl

theorem PtrLay_congr {s t : Stream} {i : Nat} {ks : List Nat}
    (h : ∀ l ∈ lenPos i ks, t l = s l) (hl : PtrLay s i ks) : PtrLay t i ks := by
  induction ks generalizing i with
  | nil => trivial
  | cons k ks ih =>
    simp only [PtrLay] at hl ⊢
    simp only [lenPos, List.mem_cons] at h
    refine ⟨by rw [h _ (Or.inl rfl)]; exact hl.1, ih (fun l hl' => h l (Or.inr hl')) hl.2⟩

theorem layEnd_snoc (i k : Nat) (ks : List Nat) :
    layEnd i (ks ++ [k]) = layEnd i ks + 3 + 2 * k := by
  induction ks generalizing i with
  | nil => simp [layEnd]
  | cons k' ks ih => simp [layEnd, ih]

theorem pairPos_snoc (i k : Nat) (ks : List Nat) :
    pairPos i (ks ++ [k]) = pairPos i ks ++ rowPos (layEnd i ks + 3) k := by
  induction ks generalizing i with
  | nil => simp [pairPos, layEnd]
  | cons k' ks ih => simp [pairPos, layEnd, ih]

theorem PtrLay_snoc {s : Stream} {i k : Nat} {ks : List Nat} (hl : PtrLay s i ks)
    (h : s (layEnd i ks + 2) = 2 * k) : PtrLay s i (ks ++ [k]) := by
  induction ks generalizing i with
  | nil => simpa [PtrLay, layEnd] using h
  | cons k' ks ih =>
    simp only [PtrLay, List.cons_append] at hl ⊢
    exact ⟨hl.1, ih hl.2 (by simpa [layEnd] using h)⟩

theorem open_positions_bound {ks : List Nat} {k p : Nat}
    (hp : p ∈ pairPos 0 ks ++ rowPos (layEnd 0 ks + 3) k) :
    3 ≤ p ∧ p + 2 ≤ layEnd 0 ks + 3 + 2 * k := by
  rcases List.mem_append.1 hp with hp | hp
  · have := pairPos_bounds hp
    omega
  · have := rowPos_bounds hp
    omega

theorem open_positions_not_len {ks : List Nat} {k p l : Nat}
    (hp : p ∈ pairPos 0 ks ++ rowPos (layEnd 0 ks + 3) k) (hl : l ∈ lenPos 0 ks) :
    p + 1 ≠ l ∧ p ≠ l := by
  rcases List.mem_append.1 hp with hp | hp
  · exact pairPos_lenPos_disjoint hp hl
  · have := rowPos_bounds hp
    have := lenPos_bounds hl
    omega

/-! ## `collect_targets_ptr` establishes the invariant -/

theorem ptr_edge_eq (state : SsspState) (graph : Graph2DCSR) (buffer : PointerData)
    (st : MergeState) (i : Nat) :
    ptr_edge state graph buffer st i =
      if ptr_passes state graph buffer i then
        ptr_dedup_put st (ptr_candidate state graph buffer i).1
          (ptr_candidate state graph buffer i).2
      else st := by
  unfold ptr_edge ptr_passes ptr_candidate ptr_edge_bellman_ford ptr_edge_light ptr_edge_heavy
  cases h1 : state.is_bellman_ford_ <;> cases h2 : state.is_light_phase_ <;>
    cases h3 : state.with_settled_ <;>
    cases h4 : state.target_is_settled (graph.edge_array_ (buffer.ptr + i)) <;>
    cases h5 : f32ge (f32add (graph.edge_weight_array_ (buffer.ptr + i)) buffer.dist)
      state.bucket_upper <;>
    cases h6 : buffer.header.testBit 63 <;>
    cases h7 : isLT (f32add (graph.edge_weight_array_ (buffer.ptr + i)) buffer.dist)
      state.bucket_upper <;> simp [h1, h2, h3, h4, h5, h6, h7]

theorem EInv_put {L : Nat} {st : MergeState} {ks : List Nat} {k : Nat} {C : List (Nat × Nat)}
    {v w : Nat} (h : EInv L st ks k C) (hv : v < L) (hw : w ≠ get_sentinel) :
    ∃ k', EInv L (ptr_dedup_put st v w) ks k' (C ++ [(v, w)]) := by
  have hb : ∀ p ∈ pairPos 0 ks ++ rowPos (layEnd 0 ks + 3) k,
      3 ≤ p ∧ p + 2 ≤ layEnd 0 ks + 3 + 2 * k := fun p hp => open_positions_bound hp
  have hq : ∀ p ∈ pairPos 0 ks ++ rowPos (layEnd 0 ks + 3) k, p + 2 ≤ st.pos := by
    intro p hp
    rw [h.pos]
    exact (hb p hp).2
  unfold ptr_dedup_put
  by_cases hneg : st.vertices_pos v < 0
  · rw [if_pos hneg]
    refine ⟨k + 1, ?_, ?_, ?_⟩
    · apply PtrLay_congr _ h.lay
      intro l hl
      have := lenPos_bounds hl
      have := h.pos
      simp only
      rw [upd_ne _ _ (by omega), upd_ne _ _ (by omega)]
    · simp only
      rw [h.pos]
      omega
    · simp only
      rw [rowPos_snoc, ← List.append_assoc, show layEnd 0 ks + 3 + 2 * k = st.pos from h.pos.symm]
      apply DInv_new h.inv hq hv hw hneg
      · intro p hp
        have := hq p hp
        rw [upd_ne _ _ (by omega), upd_ne _ _ (by omega), upd_ne _ _ (by omega),
          upd_ne _ _ (by omega)]
        exact ⟨rfl, rfl⟩
      · rw [upd_ne _ _ (by omega), upd_same]
      · rw [upd_same]
  · rw [if_neg hneg]
    simp only
    obtain ⟨p0, hp0, h1, _, _⟩ := h.inv.alive v (by exact hv) hneg
    have ht : (st.vertices_pos v).toNat = p0 := by rw [h1]; simp
    cases hlt : f32lt w (st.stream ((st.vertices_pos v).toNat + 1)) with
    | true =>
      simp only [if_true]
      refine ⟨k + 1, ?_, ?_, ?_⟩
      · apply PtrLay_congr _ h.lay
        intro l hl
        have := lenPos_bounds hl
        have := h.pos
        have := (open_positions_not_len hp0 hl).1
        simp only
        rw [upd_ne _ _ (by omega), upd_ne _ _ (by omega), upd_ne _ _ (by omega)]
      · simp only
        rw [h.pos]
        omega
      · simp only
        rw [rowPos_snoc, ← List.append_assoc,
          show layEnd 0 ks + 3 + 2 * k = st.pos from h.pos.symm]
        apply DInv_replace h.inv hq hv hw hneg hlt
        · have := hq p0 hp0
          rw [upd_ne _ _ (by omega), upd_ne _ _ (by omega), upd_same]
        · intro p hp
          have := hq p hp
          have := sep_ne h.inv.sep hp0 hp
          refine ⟨?_, ?_⟩
          · rw [upd_ne _ _ (by omega), upd_ne _ _ (by omega), upd_ne _ _ (by omega)]
          · intro hne
            rw [upd_ne _ _ (by omega), upd_ne _ _ (by omega), upd_ne _ _ (by omega)]
        · rw [upd_ne _ _ (by omega), upd_same]
        · rw [upd_same]
    | false =>
      simp only [Bool.false_eq_true, if_false]
      exact ⟨k, h.lay, h.pos, DInv_skip h.inv hv hneg hlt⟩

theorem EInv_edges {L : Nat} (state : SsspState) (graph : Graph2DCSR) (buffer : PointerData)
    (n : Nat) {st : MergeState} {ks : List Nat} {k : Nat} {C : List (Nat × Nat)}
    (h : EInv L st ks k C)
    (hc : ∀ i, i < n → ptr_passes state graph buffer i = true →
      (ptr_candidate state graph buffer i).1 < L ∧
      (ptr_candidate state graph buffer i).2 ≠ get_sentinel) :
    ∃ k', EInv L ((List.range n).foldl (ptr_edge state graph buffer) st) ks k'
      (C ++ ((List.range n).filter (ptr_passes state graph buffer)).map
        (ptr_candidate state graph buffer)) := by
  induction n with
  | zero => exact ⟨k, by simpa using h⟩
  | succ n ih =>
    obtain ⟨k1, h1⟩ := ih (fun i hi => hc i (by omega))
    rw [List.range_succ, List.foldl_append, List.filter_append, List.map_append,
      ← List.append_assoc]
    simp only [List.foldl_cons, List.foldl_nil]
    rw [ptr_edge_eq]
    cases hp : ptr_passes state graph buffer n with
    | false =>
      refine ⟨k1, ?_⟩
      simpa [hp] using h1
    | true =>
      obtain ⟨k2, h2⟩ := EInv_put h1 (hc n (by omega) hp).1 (hc n (by omega) hp).2
      refine ⟨k2, ?_⟩
      simpa [hp] using h2

theorem BInv_block {L : Nat} (state : SsspState) (graph : Graph2DCSR) (buffer : PointerData)
    {st : MergeState} {ks : List Nat} {C : List (Nat × Nat)} (h : BInv L st ks C)
    (hc : ∀ c ∈ block_candidates state graph buffer, c.1 < L ∧ c.2 ≠ get_sentinel) :
    ∃ ks', BInv L (collect_ptr_block state graph st buffer) ks'
      (C ++ block_candidates state graph buffer) := by
  unfold collect_ptr_block
  by_cases h0 : buffer.length = 0
  · rw [if_pos h0]
    refine ⟨ks, ?_⟩
    simpa [block_candidates, h0] using h
  · rw [if_neg h0]
    have hE : EInv L ⟨upd (upd st.stream st.pos ((buffer.header / 2 ^ 32) % 2 ^ 32))
        (st.pos + 1) (buffer.header % 2 ^ 32), st.vertices_pos, st.pos + 3⟩ ks 0 C := by
      refine ⟨?_, ?_, ?_⟩
      · apply PtrLay_congr _ h.lay
        intro l hl
        have := lenPos_bounds hl
        have := h.pos
        simp only
        rw [upd_ne _ _ (by omega), upd_ne _ _ (by omega)]
      · simp only
        rw [h.pos]
      · simp only [rowPos, List.append_nil]
        apply DInv_frame h.inv
        intro p hp
        have := pairPos_bounds hp
        have := h.pos
        rw [upd_ne _ _ (by omega), upd_ne _ _ (by omega), upd_ne _ _ (by omega),
          upd_ne _ _ (by omega)]
        exact ⟨rfl, rfl⟩
    obtain ⟨k, hk⟩ := EInv_edges state graph buffer buffer.length hE (by
      intro i hi hp
      apply hc
      simp only [block_candidates, List.mem_map, List.mem_filter, List.mem_range]
      exact ⟨i, ⟨hi, hp⟩, rfl⟩)
    refine ⟨ks ++ [k], ?_, ?_, ?_⟩
    · simp only
      apply PtrLay_snoc
      · apply PtrLay_congr _ hk.lay
        intro l hl
        have := lenPos_bounds hl
        have := h.pos
        rw [upd_ne _ _ (by omega)]
      · rw [show st.pos + 3 - 1 = layEnd 0 ks + 2 by have := h.pos; omega, upd_same, hk.pos,
          h.pos]
        omega
    · simp only
      rw [layEnd_snoc, hk.pos]
    · simp only
      rw [pairPos_snoc]
      apply DInv_frame hk.inv
      intro p hp
      have hpos := h.pos
      rcases List.mem_append.1 hp with hp | hp
      · have := pairPos_bounds hp
        rw [upd_ne _ _ (by omega), upd_ne _ _ (by omega)]
        exact ⟨rfl, rfl⟩
      · have := rowPos_bounds hp
        rw [upd_ne _ _ (by omega), upd_ne _ _ (by omega)]
        exact ⟨rfl, rfl⟩

theorem BInv_blocks {L : Nat} (state : SsspState) (graph : Graph2DCSR)
    (bufs : List PointerData) {st : MergeState} {ks : List Nat} {C : List (Nat × Nat)}
    (h : BInv L st ks C)
    (hc : ∀ b ∈ bufs, ∀ c ∈ block_candidates state graph b, c.1 < L ∧ c.2 ≠ get_sentinel) :
    ∃ ks', BInv L (bufs.foldl (collect_ptr_block state graph) st) ks'
      (C ++ bufs.flatMap (block_candidates state graph)) := by
  induction bufs generalizing st ks C with
  | nil => exact ⟨ks, by simpa using h⟩
  | cons b bs ih =>
    obtain ⟨ks1, h1⟩ := BInv_block state graph b h (hc b (List.mem_cons_self _ _))
    obtain ⟨ks2, h2⟩ := ih h1 (fun b' hb' => hc b' (List.mem_cons_of_mem _ hb'))
    refine ⟨ks2, ?_⟩
    simpa [List.flatMap_cons, List.append_assoc] using h2

/-- After `collect_targets_ptr` on a clean scratch slice the stream is laid out in blocks and
the dedup invariant holds for the candidates of the queue. -/
theorem collect_targets_ptr_inv (L : Nat) (node : CommTarget) (state : SsspState)
    (graph : Graph2DCSR) (stream : Stream) (vertices_pos : VPos)
    (hclean : ∀ v, v < L → vertices_pos v = -1)
    (hc : ∀ c ∈ ptr_candidates node state graph, c.1 < L ∧ c.2 ≠ get_sentinel) :
    ∃ ks, BInv L (collect_targets_ptr node state graph stream vertices_pos) ks
      (ptr_candidates node state graph) := by
  have h0 : BInv L ⟨stream, vertices_pos, 0⟩ [] [] :=
    ⟨trivial, rfl, DInv_init L stream vertices_pos hclean⟩
  obtain ⟨ks, hk⟩ := BInv_blocks state graph node.send_ptr h0 (by
    intro b hb c hcm
    apply hc
    simp only [ptr_candidates, List.mem_flatMap]
    exact ⟨b, hb, hcm⟩)
  exact ⟨ks, by simpa [collect_targets_ptr, ptr_candidates] using hk⟩

/-! ## `remove_sentinels_ptr` compacts a laid-out stream -/

theorem rs_ptr_row_spec (graph : Graph2DCSR) (k c : Nat) (st : MergeState) (h : st.pos ≤ c) :
    (rs_ptr_row graph k c st).pos = st.pos + 2 * ((readRow st.stream c k).filter live).length ∧
    words (rs_ptr_row graph k c st).stream st.pos
        (2 * ((readRow st.stream c k).filter live).length) =
      flattenPairs ((readRow st.stream c k).filter live) ∧
    (∀ x, x < st.pos ∨ c + 2 * k ≤ x → (rs_ptr_row graph k c st).stream x = st.stream x) ∧
    (∀ v, (rs_ptr_row graph k c st).vertices_pos v =
      if v ∈ ((readRow st.stream c k).filter live).map (fun p => p.1 &&& lmask graph) then -1
      else st.vertices_pos v) := by
  induction k generalizing c st with
  | zero => simp [rs_ptr_row, readRow, words_zero, flattenPairs]
  | succ k ih =>
    by_cases hs : st.stream (c + 1) = get_sentinel
    · have hl : live (st.stream c, st.stream (c + 1)) = false := by simp [live, hs]
      obtain ⟨i1, i2, i3, i4⟩ := ih (c + 2) st (by omega)
      simp only [rs_ptr_row, if_pos hs, readRow, List.filter_cons, hl, Bool.false_eq_true,
        if_false]
      exact ⟨i1, i2, fun x hx => i3 x (by omega), i4⟩
    · have hl : live (st.stream c, st.stream (c + 1)) = true := by simp [live, hs]
      have e1 : upd st.stream st.pos (st.stream c) (c + 1) = st.stream (c + 1) :=
        upd_ne _ _ (by omega)
      simp only [rs_ptr_row, if_neg hs, readRow, List.filter_cons, hl, if_true, e1]
      generalize hst1 : (⟨upd (upd st.stream st.pos (st.stream c)) (st.pos + 1)
        (st.stream (c + 1)), upd st.vertices_pos (st.stream c &&& lmask graph) (-1),
        st.pos + 2⟩ : MergeState) = st1
      have hs1 : st1.stream = upd (upd st.stream st.pos (st.stream c)) (st.pos + 1)
        (st.stream (c + 1)) := by rw [← hst1]
      have hp1 : st1.pos = st.pos + 2 := by rw [← hst1]
      have hv1 : st1.vertices_pos = upd st.vertices_pos (st.stream c &&& lmask graph) (-1) := by
        rw [← hst1]
      have hrow : readRow st1.stream (c + 2) k = readRow st.stream (c + 2) k := by
        apply readRow_congr
        intro x hx1 _
        rw [hs1, upd_ne _ _ (by omega), upd_ne _ _ (by omega)]
      obtain ⟨i1, i2, i3, i4⟩ := ih (c + 2) st1 (by omega)
      rw [hrow, hp1] at i1 i2
      rw [hrow] at i4
      rw [hp1] at i3
      refine ⟨?_, ?_, ?_, ?_⟩
      · rw [i1]
        simp only [List.length_cons]
        omega
      · simp only [List.length_cons, flattenPairs]
        rw [show 2 * (((readRow st.stream (c + 2) k).filter live).length + 1) =
          (2 * ((readRow st.stream (c + 2) k).filter live).length + 1) + 1 by omega,
          words_succ, words_succ, i3 _ (by omega), i3 _ (by omega), i2, hs1,
          upd_ne _ _ (by omega), upd_same, upd_same]
      · intro x hx
        rw [i3 x (by omega), hs1, upd_ne _ _ (by omega), upd_ne _ _ (by omega)]
      · intro v
        rw [i4 v, hv1]
        simp only [List.map_cons, List.mem_cons]
        by_cases hv : v = st.stream c &&& lmask graph
        · subst hv
          simp
        · rw [upd_ne _ _ hv]
          simp only [hv, false_or]

theorem readBlocks_congr {s t : Stream} {i : Nat} {ks : List Nat}
    (h : ∀ x, i ≤ x → s x = t x) : readBlocks s i ks = readBlocks t i ks := by
  induction ks generalizing i with
  | nil => simp [readBlocks]
  | cons k ks ih =>
    simp only [readBlocks]
    rw [h i (by omega), h (i + 1) (by omega), ih (fun x hx => h x (by omega)),
      readRow_congr (fun x hx _ => h x (by omega))]

theorem readRow_length (s : Stream) (c k : Nat) : (readRow s c k).length = k := by
  induction k generalizing c with
  | zero => simp [readRow]
  | succ k ih => simp [readRow, ih]

theorem layEnd_length (i : Nat) (ks : List Nat) : i + 3 * ks.length ≤ layEnd i ks := by
  induction ks generalizing i with
  | nil => simp [layEnd]
  | cons k ks ih =>
    have := ih (i + 3 + 2 * k)
    simp only [layEnd, List.length_cons]
    omega

theorem compactPtr_cons (b : PtrBlock) (bs : List PtrBlock) :
    compactPtr (b :: bs) =
      if b.2.2.filter live = [] then compactPtr bs
      else (b.1, b.2.1, b.2.2.filter live) :: compactPtr bs := by
  simp only [compactPtr, List.map_cons, List.filter_cons]
  by_cases h : b.2.2.filter live = [] <;> simp [h]

theorem rs_ptr_loop_succ (graph : Graph2DCSR) (n fuel i : Nat) (st : MergeState) (hi : i < n) :
    rs_ptr_loop graph n (fuel + 1) i st =
      rs_ptr_loop graph n fuel (i + 1 + (2 + st.stream (i + 2)))
        (if (rs_ptr_row graph ((st.stream (i + 2) + 1) / 2) (i + 3)
              ⟨upd (upd st.stream st.pos (st.stream i)) (st.pos + 1)
                (upd st.stream st.pos (st.stream i) (i + 1)), st.vertices_pos, st.pos + 3⟩).pos -
            (st.pos + 3) = 0 then
          { rs_ptr_row graph ((st.stream (i + 2) + 1) / 2) (i + 3)
              ⟨upd (upd st.stream st.pos (st.stream i)) (st.pos + 1)
                (upd st.stream st.pos (st.stream i) (i + 1)), st.vertices_pos, st.pos + 3⟩ with
            pos := (rs_ptr_row graph ((st.stream (i + 2) + 1) / 2) (i + 3)
              ⟨upd (upd st.stream st.pos (st.stream i)) (st.pos + 1)
                (upd st.stream st.pos (st.stream i) (i + 1)), st.vertices_pos,
                st.pos + 3⟩).pos - 3 }
        else
          { rs_ptr_row graph ((st.stream (i + 2) + 1) / 2) (i + 3)
              ⟨upd (upd st.stream st.pos (st.stream i)) (st.pos + 1)
                (upd st.stream st.pos (st.stream i) (i + 1)), st.vertices_pos, st.pos + 3⟩ with
            stream := upd (rs_ptr_row graph ((st.stream (i + 2) + 1) / 2) (i + 3)
              ⟨upd (upd st.stream st.pos (st.stream i)) (st.pos + 1)
                (upd st.stream st.pos (st.stream i) (i + 1)), st.vertices_pos,
                st.pos + 3⟩).stream (st.pos + 3 - 1)
              ((rs_ptr_row graph ((st.stream (i + 2) + 1) / 2) (i + 3)
              ⟨upd (upd st.stream st.pos (st.stream i)) (st.pos + 1)
                (upd st.stream st.pos (st.stream i) (i + 1)), st.vertices_pos,
                st.pos + 3⟩).pos - (st.pos + 3)) }) := by
  simp only [rs_ptr_loop, if_pos hi]

theorem rs_ptr_loop_spec (graph : Graph2DCSR) (n : Nat) (ks : List Nat) :
    ∀ (fuel i : Nat) (st : MergeState), PtrLay st.stream i ks → layEnd i ks = n →
      ks.length ≤ fuel → st.pos ≤ i →
      (rs_ptr_loop graph n fuel i st).pos =
        st.pos + (encodePtr (compactPtr (readBlocks st.stream i ks))).length ∧
      words (rs_ptr_loop graph n fuel i st).stream st.pos
          (encodePtr (compactPtr (readBlocks st.stream i ks))).length =
        encodePtr (compactPtr (readBlocks st.stream i ks)) ∧
      (∀ x, x < st.pos ∨ n ≤ x → (rs_ptr_loop graph n fuel i st).stream x = st.stream x) ∧
      (∀ v, (rs_ptr_loop graph n fuel i st).vertices_pos v =
        if v ∈ (blockPairs (compactPtr (readBlocks st.stream i ks))).map
            (fun p => p.1 &&& lmask graph) then -1
        else st.vertices_pos v) := by
  induction ks with
  | nil =>
    intro fuel i st _ hend _ _
    simp only [layEnd] at hend
    have hloop : rs_ptr_loop graph n fuel i st = st := by
      cases fuel with
      | zero => simp [rs_ptr_loop]
      | succ f => simp [rs_ptr_loop, hend]
    rw [hloop]
    simp [readBlocks, compactPtr, encodePtr, words_zero, blockPairs]
  | cons k ks ih =>
    intro fuel i st hlay hend hfuel hpos
    obtain ⟨f, rfl⟩ : ∃ f, fuel = f + 1 := ⟨fuel - 1, by simp at hfuel; omega⟩
    simp only [PtrLay] at hlay
    simp only [layEnd] at hend
    have hge := layEnd_ge (i + 3 + 2 * k) ks
    have hi : i < n := by omega
    rw [rs_ptr_loop_succ graph n f i st hi]
    have e1 : upd st.stream st.pos (st.stream i) (i + 1) = st.stream (i + 1) :=
      upd_ne _ _ (by omega)
    have e2 : (st.stream (i + 2) + 1) / 2 = k := by rw [hlay.1]; omega
    have e3 : i + 1 + (2 + st.stream (i + 2)) = i + 3 + 2 * k := by rw [hlay.1]; omega
    rw [e1, e2, e3]
    generalize hst0 : (⟨upd (upd st.stream st.pos (st.stream i)) (st.pos + 1)
      (st.stream (i + 1)), st.vertices_pos, st.pos + 3⟩ : MergeState) = st0
    have hs0 : st0.stream = upd (upd st.stream st.pos (st.stream i)) (st.pos + 1)
      (st.stream (i + 1)) := by rw [← hst0]
    have hp0 : st0.pos = st.pos + 3 := by rw [← hst0]
    have hv0 : st0.vertices_pos = st.vertices_pos := by rw [← hst0]
    have hrow : readRow st0.stream (i + 3) k = readRow st.stream (i + 3) k := by
      apply readRow_congr
      intro x hx1 _
      rw [hs0, upd_ne _ _ (by omega), upd_ne _ _ (by omega)]
    obtain ⟨r1, r2, r3, r4⟩ := rs_ptr_row_spec graph k (i + 3) st0 (by omega)
    rw [hrow, hp0] at r1 r2
    rw [hrow, hv0] at r4
    rw [hp0] at r3
    generalize hrw : rs_ptr_row graph k (i + 3) st0 = row at r1 r2 r3 r4
    generalize hps : (readRow st.stream (i + 3) k).filter live = ps at r1 r2 r4
    simp only [readBlocks, compactPtr_cons, hps]
    by_cases hnil : ps = []
    · subst hnil
      simp only [List.length_nil, Nat.mul_zero, Nat.add_zero] at r1
      rw [if_pos (by rw [r1]; omega), if_pos rfl]
      generalize hst2 : (⟨row.stream, row.vertices_pos, row.pos - 3⟩ : MergeState) = st2
      have hs2 : st2.stream = row.stream := by rw [← hst2]
      have hp2 : st2.pos = st.pos := by rw [← hst2]; simp only; omega
      have hv2 : st2.vertices_pos = row.vertices_pos := by rw [← hst2]
      have hag : ∀ x, i + 3 + 2 * k ≤ x → st2.stream x = st.stream x := by
        intro x hx
        rw [hs2, r3 x (by omega), hs0, upd_ne _ _ (by omega), upd_ne _ _ (by omega)]
      have hlay2 : PtrLay st2.stream (i + 3 + 2 * k) ks := by
        apply PtrLay_congr _ hlay.2
        intro l hl
        have := lenPos_bounds hl
        exact hag l (by omega)
      obtain ⟨j1, j2, j3, j4⟩ := ih f (i + 3 + 2 * k) st2 hlay2 hend
        (by simp at hfuel; omega) (by omega)
      rw [readBlocks_congr hag, hp2] at j1 j2
      rw [readBlocks_congr hag] at j4
      rw [hp2] at j3
      refine ⟨j1, j2, ?_, ?_⟩
      · intro x hx
        rw [j3 x hx, hs2, r3 x (by omega), hs0, upd_ne _ _ (by omega), upd_ne _ _ (by omega)]
      · intro v
        rw [j4 v, hv2, r4 v]
        simp
    · have hlen : 0 < ps.length := List.length_pos.2 hnil
      rw [if_neg (by rw [r1]; omega), if_neg hnil]
      generalize hst2 : (⟨upd row.stream (st.pos + 3 - 1) (row.pos - (st.pos + 3)),
        row.vertices_pos, row.pos⟩ : MergeState) = st2
      have hs2 : st2.stream = upd row.stream (st.pos + 2) (2 * ps.length) := by
        have a1 : st.pos + 3 - 1 = st.pos + 2 := by omega
        have a2 : row.pos - (st.pos + 3) = 2 * ps.length := by omega
        rw [← hst2, a1, a2]
      have hp2 : st2.pos = st.pos + 3 + 2 * ps.length := by rw [← hst2]; exact r1
      have hv2 : st2.vertices_pos = row.vertices_pos := by rw [← hst2]
      have hag : ∀ x, i + 3 + 2 * k ≤ x → st2.stream x = st.stream x := by
        intro x hx
        rw [hs2, upd_ne _ _ (by omega), r3 x (by omega), hs0, upd_ne _ _ (by omega),
          upd_ne _ _ (by omega)]
      have hlay2 : PtrLay st2.stream (i + 3 + 2 * k) ks := by
        apply PtrLay_congr _ hlay.2
        intro l hl
        have := lenPos_bounds hl
        exact hag l (by omega)
      have hpsk : ps.length ≤ k := by
        rw [← hps]
        refine le_trans (List.length_filter_le _ _) ?_
        rw [readRow_length]
      obtain ⟨j1, j2, j3, j4⟩ := ih f (i + 3 + 2 * k) st2 hlay2 hend
        (by simp at hfuel; omega) (by omega)
      rw [readBlocks_congr hag, hp2] at j1 j2
      rw [readBlocks_congr hag] at j4
      rw [hp2] at j3
      generalize hrest : encodePtr (compactPtr (readBlocks st.stream (i + 3 + 2 * k) ks)) = rest
        at j1 j2
      refine ⟨?_, ?_, ?_, ?_⟩
      · rw [j1]
        simp only [encodePtr, List.length_cons, List.length_append, flattenPairs_length, hrest]
        omega
      · simp only [encodePtr, List.length_cons, List.length_append, flattenPairs_length, hrest]
        rw [show 2 * ps.length + rest.length + 1 + 1 + 1 =
          ((2 * ps.length + rest.length) + 1 + 1) + 1 by omega, words_succ, words_succ,
          words_succ, words_append, j2, j3 _ (by omega), j3 _ (by omega), j3 _ (by omega)]
        have w1 : words (rs_ptr_loop graph n f (i + 3 + 2 * k) st2).stream (st.pos + 1 + 1 + 1)
            (2 * ps.length) = flattenPairs ps := by
          rw [← r2]
          apply words_congr
          intro x hx1 hx2
          rw [j3 x (by omega), hs2, upd_ne _ _ (by omega)]
        rw [w1, hs2, upd_ne _ _ (by omega), upd_ne _ _ (by omega),
          show st.pos + 1 + 1 = st.pos + 2 by omega, upd_same, r3 _ (by omega),
          r3 _ (by omega), hs0, upd_ne _ _ (by omega), upd_same, upd_same]
      · intro x hx
        rw [j3 x (by omega), hs2, upd_ne _ _ (by omega), r3 x (by omega), hs0,
          upd_ne _ _ (by omega), upd_ne _ _ (by omega)]
      · intro v
        rw [j4 v, hv2, r4 v]
        simp only [blockPairs, List.flatMap_cons, List.map_append, List.mem_append]
        by_cases hv : v ∈ List.map (fun p => p.1 &&& lmask graph) ps
        · simp [hv]
        · simp only [hv, if_false, false_or]

/-! ## What the dedup invariant says about the live pairs -/

theorem blockPairs_readBlocks (s : Stream) (i : Nat) (ks : List Nat) :
    blockPairs (readBlocks s i ks) = readPairs s (pairPos i ks) := by
  induction ks generalizing i with
  | nil => simp [blockPairs, readBlocks, readPairs, pairPos]
  | cons k ks ih =>
    have h := ih (i + 3 + 2 * k)
    simp only [blockPairs, readPairs] at h
    simp only [blockPairs, readBlocks, readPairs, pairPos, List.flatMap_cons, List.map_append,
      readRow_eq_map, h]

theorem blockPairs_compactPtr (bs : List PtrBlock) :
    blockPairs (compactPtr bs) = (blockPairs bs).filter live := by
  induction bs with
  | nil => simp [blockPairs, compactPtr]
  | cons b bs ih =>
    rw [compactPtr_cons]
    by_cases h : b.2.2.filter live = []
    · rw [if_pos h]
      simp only [blockPairs, List.flatMap_cons, List.filter_append, h, List.nil_append] at ih ⊢
      exact ih
    · rw [if_neg h]
      simp only [blockPairs, List.flatMap_cons, List.filter_append] at ih ⊢
      rw [ih]

theorem compactPtr_nonempty (bs : List PtrBlock) : ∀ b ∈ compactPtr bs, b.2.2 ≠ [] := by
  intro b hb
  simp only [compactPtr, List.mem_filter, decide_eq_true_eq] at hb
  exact hb.2

theorem mem_livePairs {s : Stream} {P : List Nat} {x : Nat × Nat} :
    x ∈ livePairs s P ↔ ∃ p ∈ P, s (p + 1) ≠ get_sentinel ∧ x = (s p, s (p + 1)) := by
  simp only [livePairs, readPairs, List.mem_filter, List.mem_map, live, decide_eq_true_eq]
  constructor
  · rintro ⟨⟨p, hp, rfl⟩, hl⟩
    exact ⟨p, hp, hl, rfl⟩
  · rintro ⟨p, hp, hl, rfl⟩
    exact ⟨⟨p, hp, rfl⟩, hl⟩

theorem livePairs_append (s : Stream) (P Q : List Nat) :
    livePairs s (P ++ Q) = livePairs s P ++ livePairs s Q := by
  simp [livePairs, readPairs]

theorem livePairs_congr {s t : Stream} {P : List Nat}
    (h : ∀ p ∈ P, t p = s p ∧ t (p + 1) = s (p + 1)) : livePairs t P = livePairs s P := by
  simp only [livePairs, readPairs]
  congr 1
  apply List.map_congr_left
  intro p hp
  rw [(h p hp).1, (h p hp).2]

theorem sep_nodup {P : List Nat} (h : P.Pairwise (fun a b => a + 2 ≤ b)) : P.Nodup := by
  apply List.Pairwise.imp _ h
  intro a b hab
  omega

theorem DInv_nodup {L : Nat} {s : Stream} {vp : VPos} {P : List Nat} {C : List (Nat × Nat)}
    (h : DInv L s vp P C) : ((livePairs s P).map Prod.fst).Nodup := by
  have e : (livePairs s P).map Prod.fst =
      (P.filter (fun p => decide (s (p + 1) ≠ get_sentinel))).map (fun p => s p) := by
    simp only [livePairs, readPairs, List.filter_map, List.map_map]
    rfl
  rw [e]
  apply List.Nodup.map_on _ ((sep_nodup h.sep).filter _)
  intro x hx y hy hxy
  simp only [List.mem_filter, decide_eq_true_eq] at hx hy
  have h1 := h.reg x hx.1 hx.2
  have h2 := h.reg y hy.1 hy.2
  rw [hxy, h2] at h1
  omega

theorem DInv_min {L : Nat} {s : Stream} {vp : VPos} {P : List Nat} {C : List (Nat × Nat)}
    (h : DInv L s vp P C) :
    ∀ x ∈ livePairs s P, x ∈ C ∧ ∀ c ∈ C, c.1 = x.1 → f32lt c.2 x.2 = false := by
  intro x hx
  obtain ⟨p, hp, hl, rfl⟩ := mem_livePairs.1 hx
  refine ⟨h.mem p hp hl, ?_⟩
  intro c hc hcv
  obtain ⟨p', _, h1, h2⟩ := h.cand c hc
  have h3 := h.reg p hp hl
  simp only at hcv
  rw [hcv, h3] at h1
  have : p' = p := by omega
  subst this
  exact h2

theorem DInv_alive_mem {L : Nat} {s : Stream} {vp : VPos} {P : List Nat}
    {C : List (Nat × Nat)} (h : DInv L s vp P C) {v : Nat} (hv : v < L) (hn : ¬ vp v < 0) :
    ∃ w, (v, w) ∈ livePairs s P := by
  obtain ⟨p, hp, _, h2, h3⟩ := h.alive v hv hn
  exact ⟨s (p + 1), mem_livePairs.2 ⟨p, hp, h3, by rw [h2]⟩⟩

theorem DInv_cover {L : Nat} {s : Stream} {vp : VPos} {P : List Nat} {C : List (Nat × Nat)}
    (h : DInv L s vp P C) : ∀ c ∈ C, ∃ w, (c.1, w) ∈ livePairs s P := by
  intro c hc
  obtain ⟨p, _, h1, _⟩ := h.cand c hc
  exact DInv_alive_mem h (h.bnd c hc) (by rw [h1]; omega)

/-- Resetting the scratch at the vertices of all live pairs cleans the slice. -/
theorem DInv_reset {L : Nat} {s : Stream} {vp vp' : VPos} {P : List Nat}
    {C : List (Nat × Nat)} (h : DInv L s vp P C)
    (hr : ∀ v, v < L → (∃ w, (v, w) ∈ livePairs s P) → vp' v = -1)
    (hk : ∀ v, v < L → vp' v = -1 ∨ vp' v = vp v) :
    ∀ v, v < L → vp' v = -1 := by
  intro v hv
  by_cases hn : vp v < 0
  · rcases hk v hv with h1 | h1
    · exact h1
    · rw [h1]
      exact h.neg v hv hn
  · exact hr v hv (DInv_alive_mem h hv hn)

theorem ptr_candidates_masked (node : CommTarget) (state : SsspState) (graph : Graph2DCSR) :
    ∀ c ∈ ptr_candidates node state graph, c.1 &&& lmask graph = c.1 := by
  intro c hc
  simp only [ptr_candidates, block_candidates, List.mem_flatMap, List.mem_map] at hc
  obtain ⟨b, _, i, _, rfl⟩ := hc
  simp only [ptr_candidate]
  exact land_lmask_idem graph _

/-- `remove_sentinels_ptr` on a laid-out stream: the result is the encoding of the compacted
blocks, and the scratch is reset at the masked vertex of every live pair. -/
theorem remove_sentinels_ptr_spec (graph : Graph2DCSR) (ks : List Nat) (s : Stream) (vp : VPos)
    (hlay : PtrLay s 0 ks) :
    (remove_sentinels_ptr graph (layEnd 0 ks) s vp).pos =
      (encodePtr (compactPtr (readBlocks s 0 ks))).length ∧
    words (remove_sentinels_ptr graph (layEnd 0 ks) s vp).stream 0
        (remove_sentinels_ptr graph (layEnd 0 ks) s vp).pos =
      encodePtr (compactPtr (readBlocks s 0 ks)) ∧
    (∀ x, layEnd 0 ks ≤ x → (remove_sentinels_ptr graph (layEnd 0 ks) s vp).stream x = s x) ∧
    (∀ v, (remove_sentinels_ptr graph (layEnd 0 ks) s vp).vertices_pos v =
      if v ∈ (livePairs s (pairPos 0 ks)).map (fun p => p.1 &&& lmask graph) then -1
      else vp v) := by
  have hlen : ks.length ≤ layEnd 0 ks := by
    have := layEnd_length 0 ks
    omega
  obtain ⟨h1, h2, h3, h4⟩ := rs_ptr_loop_spec graph (layEnd 0 ks) ks (layEnd 0 ks) 0
    ⟨s, vp, 0⟩ hlay rfl hlen (Nat.le_refl _)
  simp only [Nat.zero_add] at h1 h2
  simp only [blockPairs_compactPtr, blockPairs_readBlocks] at h4
  unfold remove_sentinels_ptr
  refine ⟨h1, ?_, fun x hx => h3 x (Or.inr hx), h4⟩
  rw [h1]
  exact h2

theorem run_ptr_merge_spec (L : Nat) (node : CommTarget) (state : SsspState)
    (graph : Graph2DCSR) (stream : Stream) (vertices_pos : VPos)
    (hclean : ∀ v, v < L → vertices_pos v = -1)
    (hc : ∀ c ∈ ptr_candidates node state graph, c.1 < L ∧ c.2 ≠ get_sentinel) :
    ∃ ks, BInv L (collect_targets_ptr node state graph stream vertices_pos) ks
        (ptr_candidates node state graph) ∧
      words (run_ptr_merge node state graph stream vertices_pos).stream 0
          (run_ptr_merge node state graph stream vertices_pos).pos =
        encodePtr (compactPtr
          (readBlocks (collect_targets_ptr node state graph stream vertices_pos).stream 0 ks)) ∧
      blockPairs (compactPtr
          (readBlocks (collect_targets_ptr node state graph stream vertices_pos).stream 0 ks)) =
        livePairs (collect_targets_ptr node state graph stream vertices_pos).stream
          (pairPos 0 ks) ∧
      (∀ v, v < L → (run_ptr_merge node state graph stream vertices_pos).vertices_pos v = -1) := by
  obtain ⟨ks, hB⟩ := collect_targets_ptr_inv L node state graph stream vertices_pos hclean hc
  refine ⟨ks, hB, ?_, ?_, ?_⟩
  · have h := (remove_sentinels_ptr_spec graph ks _
      (collect_targets_ptr node state graph stream vertices_pos).vertices_pos hB.lay).2.1
    rw [← hB.pos] at h
    exact h
  · rw [blockPairs_compactPtr, blockPairs_readBlocks]
    rfl
  · have h := (remove_sentinels_ptr_spec graph ks _
      (collect_targets_ptr node state graph stream vertices_pos).vertices_pos hB.lay).2.2.2
    rw [← hB.pos] at h
    apply DInv_reset hB.inv
    · intro v _ hw
      obtain ⟨w, hw⟩ := hw
      unfold run_ptr_merge
      rw [h v, if_pos]
      have hm := ptr_candidates_masked node state graph _ ((DInv_min hB.inv _ hw).1)
      exact List.mem_map.2 ⟨(v, w), hw, hm⟩
    · intro v _
      unfold run_ptr_merge
      rw [h v]
      by_cases hv : v ∈ (livePairs (collect_targets_ptr node state graph stream
          vertices_pos).stream (pairPos 0 ks)).map (fun p => p.1 &&& lmask graph)
      · rw [if_pos hv]
        exact Or.inl rfl
      · rw [if_neg hv]
        exact Or.inr rfl

/-! ## The dedup pass of `collect_targets_buffer` -/

theorem ctb_body_spec {L : Nat} (graph : Graph2DCSR) {s : Stream} {vp : VPos} {P : List Nat}
    {C : List (Nat × Nat)} {q : Nat} (h : DInv L s vp P C) (hq : ∀ p ∈ P, p + 2 ≤ q)
    (hv : s q &&& lmask graph < L) (hw : s (q + 1) ≠ get_sentinel) :
    DInv L (ctb_body graph false q (s, vp)).1 (ctb_body graph false q (s, vp)).2 (P ++ [q])
      (C ++ [(s q &&& lmask graph, s (q + 1))]) ∧
    (∀ x, x ≠ q → x ≠ q + 1 → (∀ p ∈ P, x ≠ p + 1) →
      (ctb_body graph false q (s, vp)).1 x = s x) ∧
    (ctb_body graph false q (s, vp)).1 q = s q &&& lmask graph ∧
    ((ctb_body graph false q (s, vp)).1 (q + 1) = s (q + 1) ∨
      (ctb_body graph false q (s, vp)).1 (q + 1) = get_sentinel) := by
  unfold ctb_body
  simp only [Bool.false_eq_true, if_false, upd_same]
  have e1 : upd s q (s q &&& lmask graph) (q + 1) = s (q + 1) := upd_ne _ _ (by omega)
  by_cases hneg : vp (s q &&& lmask graph) < 0
  · rw [if_pos hneg]
    dsimp only
    refine ⟨?_, ?_, by simp, Or.inl e1⟩
    · apply DInv_new h hq hv hw hneg
      · intro p hp
        have := hq p hp
        rw [upd_ne _ _ (by omega), upd_ne _ _ (by omega)]
        exact ⟨rfl, rfl⟩
      · simp
      · exact e1
    · intro x hx _ _
      exact upd_ne _ _ hx
  · rw [if_neg hneg]
    obtain ⟨p0, hp0, h1, _, _⟩ := h.alive _ hv hneg
    have ht : (vp (s q &&& lmask graph)).toNat = p0 := by rw [h1]; simp
    have hp0q := hq p0 hp0
    have e2 : upd s q (s q &&& lmask graph) ((vp (s q &&& lmask graph)).toNat + 1) =
        s ((vp (s q &&& lmask graph)).toNat + 1) := upd_ne _ _ (by omega)
    rw [e1, e2]
    cases hlt : f32lt (s (q + 1)) (s ((vp (s q &&& lmask graph)).toNat + 1)) with
    | true =>
      simp only [if_true]
      refine ⟨?_, ?_, ?_, Or.inl ?_⟩
      · apply DInv_replace h hq hv hw hneg hlt
        · simp
        · intro p hp
          have := hq p hp
          have := sep_ne h.sep hp0 hp
          refine ⟨?_, fun hne => ?_⟩
          · rw [upd_ne _ _ (by omega), upd_ne _ _ (by omega)]
          · rw [upd_ne _ _ (by omega), upd_ne _ _ (by omega)]
        · rw [upd_ne _ _ (by omega), upd_same]
        · rw [upd_ne _ _ (by omega), e1]
      · intro x hx _ hxp
        rw [upd_ne _ _ (by rw [ht]; exact hxp p0 hp0), upd_ne _ _ hx]
      · rw [upd_ne _ _ (by omega), upd_same]
      · rw [upd_ne _ _ (by omega), e1]
    | false =>
      simp only [Bool.false_eq_true, if_false]
      refine ⟨?_, ?_, ?_, Or.inr (by simp)⟩
      · have h2 := DInv_skip h hv hneg hlt
        apply DInv_dead h2 hq
        · intro p hp
          have := hq p hp
          rw [upd_ne _ _ (by omega), upd_ne _ _ (by omega), upd_ne _ _ (by omega),
            upd_ne _ _ (by omega)]
          exact ⟨rfl, rfl⟩
        · simp
      · intro x hx hx1 _
        rw [upd_ne _ _ hx1, upd_ne _ _ hx]
      · rw [upd_ne _ _ (by omega), upd_same]

theorem bufEnd_ge (i : Nat) (hs : List Bool) : i + 2 * hs.length ≤ bufEnd i hs := by
  induction hs generalizing i with
  | nil => simp [bufEnd]
  | cons h hs ih =>
    cases h
    · have := ih (i + 2)
      simp only [bufEnd, List.length_cons, Bool.false_eq_true, if_false]
      omega
    · have := ih (i + 4)
      simp only [bufEnd, List.length_cons, if_true]
      omega

theorem bufPos_bounds {i p : Nat} {hs : List Bool} (hp : p ∈ bufPos i hs) :
    i ≤ p ∧ p + 2 ≤ bufEnd i hs := by
  induction hs generalizing i with
  | nil => simp [bufPos] at hp
  | cons h hs ih =>
    cases h
    · simp only [bufPos, List.mem_cons, Bool.false_eq_true, if_false] at hp
      simp only [bufEnd, Bool.false_eq_true, if_false]
      have hge := bufEnd_ge (i + 2) hs
      rcases hp with hp | hp
      · omega
      · have := ih hp
        omega
    · simp only [bufPos, List.mem_cons, if_true] at hp
      simp only [bufEnd, if_true]
      have hge := bufEnd_ge (i + 4) hs
      rcases hp with hp | hp
      · omega
      · have := ih hp
        omega

theorem BufLay_congr {s t : Stream} {i : Nat} {hs : List Bool}
    (h : ∀ x, i ≤ x → t x = s x) (hl : BufLay s i hs) : BufLay t i hs := by
  induction hs generalizing i with
  | nil => trivial
  | cons b hs ih =>
    simp only [BufLay] at hl ⊢
    refine ⟨?_, ih (fun x hx => h x (by split at hx <;> omega)) hl.2⟩
    rw [h i (Nat.le_refl _), h (i + 2) (by omega)]
    exact hl.1

theorem buf_candidates_congr (graph : Graph2DCSR) {s t : Stream} {P : List Nat}
    (h : ∀ p ∈ P, t p = s p ∧ t (p + 1) = s (p + 1)) :
    buf_candidates graph t P = buf_candidates graph s P := by
  simp only [buf_candidates]
  apply List.map_congr_left
  intro p hp
  rw [(h p hp).1, (h p hp).2]

theorem land_flag_of_land (v m : Nat) (h : v &&& 0x80000000 = 0) :
    (v &&& m) &&& 0x80000000 = 0 := by
  rw [Nat.and_assoc, Nat.and_comm m, ← Nat.and_assoc, h, Nat.zero_and]

theorem ctb_loop_spec {L : Nat} (graph : Graph2DCSR) (stream_end : Nat) (hs : List Bool) :
    ∀ (fuel j : Nat) (s : Stream) (vp : VPos) (P : List Nat) (C : List (Nat × Nat)),
      BufLay s j hs → bufEnd j hs = stream_end → hs.length ≤ fuel → DInv L s vp P C →
      (∀ p ∈ P, p + 2 ≤ j) →
      (∀ p ∈ bufPos j hs, s p &&& lmask graph < L ∧ s (p + 1) ≠ get_sentinel) →
      BufLay (ctb_loop graph false stream_end fuel j (s, vp)).1 j hs ∧
      DInv L (ctb_loop graph false stream_end fuel j (s, vp)).1
        (ctb_loop graph false stream_end fuel j (s, vp)).2 (P ++ bufPos j hs)
        (C ++ buf_candidates graph s (bufPos j hs)) ∧
      (∀ x, x < j → (∀ p ∈ P, x ≠ p + 1) →
        (ctb_loop graph false stream_end fuel j (s, vp)).1 x = s x) ∧
      (∀ x, stream_end ≤ x → (ctb_loop graph false stream_end fuel j (s, vp)).1 x = s x) := by
  induction hs with
  | nil =>
    intro fuel j s vp P C _ hend _ hD _ _
    simp only [bufEnd] at hend
    have hloop : ctb_loop graph false stream_end fuel j (s, vp) = (s, vp) := by
      cases fuel with
      | zero => simp [ctb_loop]
      | succ f => simp [ctb_loop, hend]
    rw [hloop]
    simpa [bufPos, buf_candidates, BufLay] using hD
  | cons h hs ih =>
    intro fuel j s vp P C hlay hend hfuel hD hP hpay
    obtain ⟨f, rfl⟩ : ∃ f, fuel = f + 1 := ⟨fuel - 1, by simp at hfuel; omega⟩
    simp only [BufLay] at hlay
    simp only [bufEnd] at hend
    have hge := bufEnd_ge (j + (if h then 4 else 2)) hs
    have hj : j < stream_end := by
      cases h
      · simp only [Bool.false_eq_true, if_false] at hge hend
        omega
      · simp only [if_true] at hge hend
        omega
    have hqe : (if s j &&& 0x80000000 ≠ 0 then j + 2 else j) = (if h then j + 2 else j) := by
      cases h
      · simp only [Bool.false_eq_true, if_false] at hlay ⊢
        rw [if_neg (by simp [hlay.1])]
      · simp only [if_true] at hlay ⊢
        rw [if_pos hlay.1.1]
    have hloop : ctb_loop graph false stream_end (f + 1) j (s, vp) =
        ctb_loop graph false stream_end f ((if h then j + 2 else j) + 2)
          (ctb_body graph false (if h then j + 2 else j) (s, vp)) := by
      simp only [ctb_loop, if_pos hj, hqe]
    rw [hloop]
    generalize hq : (if h then j + 2 else j) = q at *
    have hqj : j ≤ q ∧ q + 2 = j + (if h then 4 else 2) := by
      cases h <;> simp at hq ⊢ <;> omega
    have hPq : ∀ p ∈ P, p + 2 ≤ q := fun p hp => by
      have := hP p hp
      omega
    simp only [bufPos, hq, List.mem_cons, forall_eq_or_imp] at hpay
    obtain ⟨b1, b2, b3, b4⟩ := ctb_body_spec graph hD hPq hpay.1.1 hpay.1.2
    generalize hbody : ctb_body graph false q (s, vp) = r0 at b1 b2 b3 b4
    obtain ⟨s', vp'⟩ := r0
    simp only at b1 b2 b3 b4
    rw [← hqj.2] at hend hge hlay hpay
    have hag : ∀ x, q + 2 ≤ x → s' x = s x := by
      intro x hx
      apply b2 x (by omega) (by omega)
      intro p hp
      have := hP p hp
      omega
    have hlay' : BufLay s' (q + 2) hs := BufLay_congr hag hlay.2
    have hagP : ∀ p ∈ bufPos (q + 2) hs, s' p = s p ∧ s' (p + 1) = s (p + 1) := by
      intro p hp
      have := bufPos_bounds hp
      exact ⟨hag p (by omega), hag (p + 1) (by omega)⟩
    obtain ⟨i1, i2, i3, i4⟩ := ih f (q + 2) s' vp' (P ++ [q])
      (C ++ [(s q &&& lmask graph, s (q + 1))]) hlay' hend (by simp at hfuel; omega) b1
      (by
        intro p hp
        rcases List.mem_append.1 hp with hp | hp
        · have := hP p hp
          omega
        · simp only [List.mem_singleton] at hp
          omega)
      (by
        intro p hp
        rw [(hagP p hp).1, (hagP p hp).2]
        exact hpay.2 p hp)
    rw [buf_candidates_congr graph hagP] at i2
    generalize hr : ctb_loop graph false stream_end f (q + 2) (s', vp') = r at i1 i2 i3 i4
    have hfr : ∀ x, x < q + 2 → x ≠ q + 1 → (∀ p ∈ P, x ≠ p + 1) → r.1 x = s' x := by
      intro x hx hx1 hxp
      apply i3 x hx
      intro p hp
      rcases List.mem_append.1 hp with hp | hp
      · exact hxp p hp
      · simp only [List.mem_singleton] at hp
        subst hp
        exact hx1
    have hPj : ∀ x, j ≤ x → ∀ p ∈ P, x ≠ p + 1 := by
      intro x hx p hp
      have := hP p hp
      omega
    refine ⟨?_, ?_, ?_, ?_⟩
    · simp only [BufLay]
      rw [← hqj.2]
      refine ⟨?_, i1⟩
      cases h
      · simp only [Bool.false_eq_true, if_false] at hq hlay ⊢
        subst hq
        rw [hfr j (by omega) (by omega) (hPj j (Nat.le_refl _)), b3]
        exact land_flag_of_land _ _ hlay.1
      · simp only [if_true] at hq hlay ⊢
        subst hq
        rw [hfr j (by omega) (by omega) (hPj j (Nat.le_refl _)),
          hfr (j + 2) (by omega) (by omega) (hPj (j + 2) (by omega)), b3,
          b2 j (by omega) (by omega) (hPj j (Nat.le_refl _))]
        exact ⟨hlay.1.1, land_flag_of_land _ _ hlay.1.2⟩
    · simp only [bufPos, hq, buf_candidates, List.map_cons]
      rw [← hqj.2]
      simp only [buf_candidates, List.append_assoc, List.singleton_append] at i2
      exact i2
    · intro x hx hxp
      rw [hfr x (by omega) (by omega) hxp, b2 x (by omega) (by omega) hxp]
    · intro x hx
      rw [i4 x hx]
      exact hag x (by omega)

/-! ## `remove_sentinels_buffer` compacts a laid-out stream -/

theorem words_snoc2 (s : Stream) (off n : Nat) :
    words s off (2 * (n + 1)) = words s off (2 * n) ++ [s (off + 2 * n), s (off + 2 * n + 1)] := by
  rw [show 2 * (n + 1) = 2 * n + 2 by omega, words_append]
  simp [words, List.range_succ]

theorem flattenPairs_snoc (l : List (Nat × Nat)) (x : Nat × Nat) :
    flattenPairs (l ++ [x]) = flattenPairs l ++ [x.1, x.2] := by
  rw [flattenPairs_append]
  simp [flattenPairs]

theorem AccInv_last {ws : Nat} {st : MergeState} {x : Nat × Nat} {r : List (Nat × Nat)}
    (h : AccInv ws st (x :: r)) :
    words st.stream ws (2 * r.length) = flattenPairs r.reverse ∧
      st.stream (ws + 2 * r.length) = x.1 ∧ st.stream (ws + 2 * r.length + 1) = x.2 := by
  have ho := h.out
  simp only [List.length_cons, List.reverse_cons] at ho
  rw [words_snoc2, flattenPairs_snoc] at ho
  have hl : (words st.stream ws (2 * r.length)).length = (flattenPairs r.reverse).length := by
    rw [words_length, flattenPairs_length, List.length_reverse]
  obtain ⟨h1, h2⟩ := List.append_inj ho hl
  simp only [List.cons.injEq, and_true] at h2
  exact ⟨h1, h2.1, h2.2⟩

/-- Writing a pair at the write position extends the written pairs. -/
theorem AccInv_push {ws : Nat} {s s' : Stream} {vp' : VPos} {racc : List (Nat × Nat)}
    {a b : Nat} (hw : words s ws (2 * racc.length) = flattenPairs racc.reverse)
    (hs : ∀ x, x < ws + 2 * racc.length → s' x = s x)
    (ha : s' (ws + 2 * racc.length) = a) (hb : s' (ws + 2 * racc.length + 1) = b) :
    AccInv ws ⟨s', vp', ws + 2 * racc.length + 2⟩ ((a, b) :: racc) := by
  refine ⟨by simp only [List.length_cons]; omega, ?_⟩
  simp only [List.length_cons, List.reverse_cons]
  rw [words_snoc2, flattenPairs_snoc, ha, hb, ← hw]
  congr 1
  apply words_congr
  intro x _ hx2
  exact hs x hx2

theorem dropHdr_length (racc : List (Nat × Nat)) : (dropHdr racc).length ≤ racc.length := by
  cases racc with
  | nil => simp [dropHdr]
  | cons x r =>
    simp only [dropHdr]
    split <;> simp

theorem rs_buffer_header_spec {ws i : Nat} {st : MergeState} {racc : List (Nat × Nat)}
    (h : AccInv ws st racc) (hpos : st.pos ≤ i) :
    AccInv ws (rs_buffer_header ws i st) ((st.stream i, st.stream (i + 1)) :: dropHdr racc) ∧
    (rs_buffer_header ws i st).pos ≤ i + 2 ∧
    (∀ x, x < ws ∨ i + 2 ≤ x → (rs_buffer_header ws i st).stream x = st.stream x) ∧
    (rs_buffer_header ws i st).vertices_pos = st.vertices_pos := by
  have hwp : (if st.pos ≠ ws ∧ st.stream (st.pos - 2) &&& 0x80000000 ≠ 0 then st.pos - 2
      else st.pos) = ws + 2 * (dropHdr racc).length ∧
      words st.stream ws (2 * (dropHdr racc).length) = flattenPairs (dropHdr racc).reverse := by
    cases racc with
    | nil =>
      have hp := h.pos
      simp only [List.length_nil, Nat.mul_zero, Nat.add_zero] at hp
      simp [dropHdr, hp, words_zero, flattenPairs]
    | cons x r =>
      have hp := h.pos
      simp only [List.length_cons] at hp
      obtain ⟨l1, l2, _⟩ := AccInv_last h
      have e : st.pos - 2 = ws + 2 * r.length := by omega
      rw [e, l2]
      by_cases hx : x.1 &&& 0x80000000 ≠ 0
      · rw [if_pos ⟨by omega, hx⟩]
        simp only [dropHdr, if_pos hx]
        exact ⟨trivial, l1⟩
      · rw [if_neg (fun hc => hx hc.2)]
        simp only [dropHdr, if_neg hx]
        exact ⟨hp, h.out⟩
  have hlen := dropHdr_length racc
  have hp := h.pos
  unfold rs_buffer_header
  simp only
  rw [hwp.1]
  have e1 : upd st.stream (ws + 2 * (dropHdr racc).length) (st.stream i) (i + 1) =
      st.stream (i + 1) := upd_ne _ _ (by omega)
  rw [e1]
  refine ⟨?_, ?_, ?_, ?_⟩
  · apply AccInv_push hwp.2
    · intro x hx
      rw [upd_ne _ _ (by omega), upd_ne _ _ (by omega)]
    · rw [upd_ne _ _ (by omega), upd_same]
    · rw [upd_same]
  · show ws + 2 * (dropHdr racc).length + 2 ≤ i + 2
    omega
  · intro x hx
    show upd (upd st.stream (ws + 2 * (dropHdr racc).length) (st.stream i))
      (ws + 2 * (dropHdr racc).length + 1) (st.stream (i + 1)) x = st.stream x
    rw [upd_ne _ _ (by omega), upd_ne _ _ (by omega)]
  · trivial

theorem rs_buffer_pair_spec (graph : Graph2DCSR) {ws q : Nat} {st : MergeState}
    {racc : List (Nat × Nat)} (h : AccInv ws st racc) (hpos : st.pos ≤ q) :
    AccInv ws (rs_buffer_pair graph q st)
      (if live (st.stream q, st.stream (q + 1)) then (st.stream q, st.stream (q + 1)) :: racc
        else racc) ∧
    (rs_buffer_pair graph q st).pos ≤ q + 2 ∧
    (∀ x, x < ws ∨ q + 2 ≤ x → (rs_buffer_pair graph q st).stream x = st.stream x) ∧
    (rs_buffer_pair graph q st).vertices_pos =
      (if live (st.stream q, st.stream (q + 1)) then
        upd st.vertices_pos (st.stream q &&& lmask graph) (-1)
      else st.vertices_pos) := by
  unfold rs_buffer_pair
  have hp := h.pos
  by_cases hs : st.stream (q + 1) = get_sentinel
  · have hl : live (st.stream q, st.stream (q + 1)) = false := by simp [live, hs]
    rw [if_pos hs, hl]
    exact ⟨h, by omega, fun _ _ => rfl, rfl⟩
  · have hl : live (st.stream q, st.stream (q + 1)) = true := by simp [live, hs]
    rw [if_neg hs, hl]
    have e1 : upd st.stream st.pos (st.stream q) (q + 1) = st.stream (q + 1) :=
      upd_ne _ _ (by omega)
    dsimp only
    rw [e1, hp]
    refine ⟨?_, ?_, ?_, ?_⟩
    · apply AccInv_push h.out
      · intro x hx
        rw [upd_ne _ _ (by omega), upd_ne _ _ (by omega)]
      · rw [upd_ne _ _ (by omega), upd_same]
      · rw [upd_same]
    · omega
    · intro x hx
      rw [upd_ne _ _ (by omega), upd_ne _ _ (by omega)]
    · rfl

theorem readToks_congr {s t : Stream} {i : Nat} {hs : List Bool}
    (h : ∀ x, i ≤ x → t x = s x) : readToks t i hs = readToks s i hs := by
  induction hs generalizing i with
  | nil => simp [readToks]
  | cons b hs ih =>
    cases b
    · simp only [readToks, Bool.false_eq_true, if_false]
      rw [h i (by omega), h (i + 1) (by omega), ih (fun x hx => h x (by omega))]
    · simp only [readToks, if_true]
      rw [h i (by omega), h (i + 1) (by omega), h (i + 2) (by omega), h (i + 2 + 1) (by omega),
        ih (fun x hx => h x (by omega))]

theorem rs_buffer_loop_spec (graph : Graph2DCSR) (ws read_end : Nat) (hs : List Bool) :
    ∀ (fuel i : Nat) (st : MergeState) (racc : List (Nat × Nat)),
      BufLay st.stream i hs → bufEnd i hs = read_end → hs.length ≤ fuel → st.pos ≤ i →
      AccInv ws st racc →
      AccInv ws (rs_buffer_loop graph ws read_end fuel i st)
        (compactBuf racc (readToks st.stream i hs)) ∧
      (∀ x, x < ws ∨ read_end ≤ x →
        (rs_buffer_loop graph ws read_end fuel i st).stream x = st.stream x) ∧
      (∀ v, (rs_buffer_loop graph ws read_end fuel i st).vertices_pos v =
        if v ∈ (livePairs st.stream (bufPos i hs)).map (fun p => p.1 &&& lmask graph) then -1
        else st.vertices_pos v) := by
  induction hs with
  | nil =>
    intro fuel i st racc _ hend _ _ hA
    simp only [bufEnd] at hend
    have hloop : rs_buffer_loop graph ws read_end fuel i st = st := by
      cases fuel with
      | zero => simp [rs_buffer_loop]
      | succ f => simp [rs_buffer_loop, hend]
    rw [hloop]
    simpa [readToks, compactBuf, bufPos, livePairs, readPairs] using hA
  | cons h hs ih =>
    intro fuel i st racc hlay hend hfuel hpos hA
    obtain ⟨f, rfl⟩ : ∃ f, fuel = f + 1 := ⟨fuel - 1, by simp at hfuel; omega⟩
    simp only [BufLay] at hlay
    simp only [bufEnd] at hend
    have hge := bufEnd_ge (i + (if h then 4 else 2)) hs
    have hi : i < read_end := by
      cases h
      · simp only [Bool.false_eq_true, if_false] at hge hend
        omega
      · simp only [if_true] at hge hend
        omega
    have hflag : (st.stream i &&& 0x80000000 ≠ 0) ↔ h = true := by
      cases h
      · simp only [Bool.false_eq_true, if_false] at hlay
        simp [hlay.1]
      · simp only [if_true] at hlay
        simp [hlay.1.1]
    have hloop : rs_buffer_loop graph ws read_end (f + 1) i st =
        rs_buffer_loop graph ws read_end f ((if h then i + 2 else i) + 2)
          (rs_buffer_pair graph (if h then i + 2 else i)
            (if h then rs_buffer_header ws i st else st)) := by
      simp only [rs_buffer_loop, if_pos hi, hflag]
    rw [hloop]
    -- the header branch
    have hst1 : AccInv ws (if h then rs_buffer_header ws i st else st)
          (match (if h then some (st.stream i, st.stream (i + 1)) else none) with
            | some x => x :: dropHdr racc
            | none => racc) ∧
        (if h then rs_buffer_header ws i st else st).pos ≤ (if h then i + 2 else i) ∧
        (∀ x, x < ws ∨ (if h then i + 2 else i) ≤ x →
          (if h then rs_buffer_header ws i st else st).stream x = st.stream x) ∧
        (if h then rs_buffer_header ws i st else st).vertices_pos = st.vertices_pos := by
      cases h
      · simp only [Bool.false_eq_true, if_false]
        exact ⟨hA, hpos, fun _ _ => trivial, trivial⟩
      · simp only [if_true]
        exact rs_buffer_header_spec hA hpos
    generalize hq : (if h then i + 2 else i) = q at *
    have hqi : q + 2 = i + (if h then 4 else 2) := by
      cases h <;> simp at hq ⊢ <;> omega
    generalize (if h then rs_buffer_header ws i st else st) = st1 at *
    obtain ⟨a1, a2, a3, a4⟩ := hst1
    obtain ⟨b1, b2, b3, b4⟩ := rs_buffer_pair_spec graph a1 a2
    rw [a3 q (Or.inr (Nat.le_refl _)), a3 (q + 1) (Or.inr (by omega))] at b1 b4
    generalize rs_buffer_pair graph q st1 = st2 at *
    rw [← hqi] at hend hlay
    have hag : ∀ x, q + 2 ≤ x → st2.stream x = st.stream x := by
      intro x hx
      rw [b3 x (Or.inr hx), a3 x (Or.inr (by omega))]
    have hagP : ∀ p ∈ bufPos (q + 2) hs,
        st2.stream p = st.stream p ∧ st2.stream (p + 1) = st.stream (p + 1) := by
      intro p hp
      have := bufPos_bounds hp
      exact ⟨hag p (by omega), hag (p + 1) (by omega)⟩
    have htok : compactTok racc ((if h then some (st.stream i, st.stream (i + 1)) else none),
        (st.stream q, st.stream (q + 1))) =
        (if live (st.stream q, st.stream (q + 1)) then
          (st.stream q, st.stream (q + 1)) ::
            (match (if h then some (st.stream i, st.stream (i + 1)) else none) with
              | some x => x :: dropHdr racc
              | none => racc)
        else
          (match (if h then some (st.stream i, st.stream (i + 1)) else none) with
            | some x => x :: dropHdr racc
            | none => racc)) := by
      simp only [compactTok]
    obtain ⟨i1, i2, i3⟩ := ih f (q + 2) st2 _ (BufLay_congr hag hlay.2) hend
      (by simp at hfuel; omega) b2 b1
    rw [readToks_congr hag, ← htok] at i1
    rw [livePairs_congr hagP] at i3
    refine ⟨?_, ?_, ?_⟩
    · simp only [readToks, hq, compactBuf, List.foldl_cons]
      rw [← hqi]
      exact i1
    · intro x hx
      have hge2 := bufEnd_ge (q + 2) hs
      rw [i2 x hx, b3 x (by omega), a3 x (by omega)]
    · intro v
      rw [i3 v, b4, a4]
      simp only [bufPos, hq, livePairs, readPairs, List.map_cons, List.filter_cons]
      rw [← hqi]
      by_cases hl : live (st.stream q, st.stream (q + 1)) = true
      · simp only [hl, if_true, List.map_cons, List.mem_cons]
        by_cases hv : v = st.stream q &&& lmask graph
        · subst hv
          simp
        · rw [upd_ne _ _ hv]
          simp only [hv, false_or]
      · simp only [hl, if_false, Bool.false_eq_true]

theorem toPairs_flattenPairs (ps : List (Nat × Nat)) : toPairs (flattenPairs ps) = ps := by
  induction ps with
  | nil => simp [toPairs, flattenPairs]
  | cons p r ih => simp [toPairs, flattenPairs, ih]

theorem payloadPairs_flattenPairs (ps : List (Nat × Nat)) :
    payloadPairs (flattenPairs ps) = ps.filter isPayload := by
  simp [payloadPairs, toPairs_flattenPairs]

theorem dropHdr_payload (racc : List (Nat × Nat)) :
    (dropHdr racc).filter isPayload = racc.filter isPayload := by
  cases racc with
  | nil => simp [dropHdr]
  | cons x r =>
    simp only [dropHdr]
    by_cases hx : x.1 &&& 0x80000000 ≠ 0
    · rw [if_pos hx, List.filter_cons, if_neg (by simp [isPayload, hx])]
    · rw [if_neg hx]

/-- Flags of the tokens of a laid-out stream. -/
theorem readToks_flags {s : Stream} {i : Nat} {hs : List Bool} (h : BufLay s i hs) :
    ∀ tok ∈ readToks s i hs, isPayload tok.2 = true ∧
      ∀ x, tok.1 = some x → isPayload x = false := by
  induction hs generalizing i with
  | nil => simp [readToks]
  | cons b hs ih =>
    simp only [BufLay] at h
    intro tok htok
    simp only [readToks, List.mem_cons] at htok
    rcases htok with rfl | htok
    · cases b
      · simp only [Bool.false_eq_true, if_false] at h ⊢
        exact ⟨by simp [isPayload, h.1], by simp⟩
      · simp only [if_true] at h ⊢
        exact ⟨by simp [isPayload, h.1.2], by
          intro x hx
          simp only [Option.some.injEq] at hx
          subst hx
          simp [isPayload, h.1.1]⟩
    · exact ih h.2 tok htok

theorem readToks_payload (s : Stream) (i : Nat) (hs : List Bool) :
    (readToks s i hs).map Prod.snd = readPairs s (bufPos i hs) := by
  induction hs generalizing i with
  | nil => simp [readToks, readPairs, bufPos]
  | cons b hs ih =>
    have := ih (i + (if b then 4 else 2))
    simp only [readPairs] at this
    simp only [readToks, readPairs, bufPos, List.map_cons, this]

theorem compactBuf_payload (toks : List (Option (Nat × Nat) × (Nat × Nat)))
    (racc : List (Nat × Nat))
    (hf : ∀ tok ∈ toks, isPayload tok.2 = true ∧ ∀ x, tok.1 = some x → isPayload x = false) :
    (compactBuf racc toks).reverse.filter isPayload =
      racc.reverse.filter isPayload ++ (toks.map Prod.snd).filter live := by
  induction toks generalizing racc with
  | nil => simp [compactBuf]
  | cons tok toks ih =>
    have hrest := ih (compactTok racc tok) (fun t ht => hf t (List.mem_cons_of_mem _ ht))
    simp only [compactBuf, List.foldl_cons] at hrest ⊢
    rw [hrest]
    obtain ⟨f1, f2⟩ := hf tok (List.mem_cons_self _ _)
    have hr1 : ∀ r1 : List (Nat × Nat),
        (if live tok.2 then tok.2 :: r1 else r1).reverse.filter isPayload =
          r1.reverse.filter isPayload ++ [tok.2].filter live := by
      intro r1
      by_cases hl : live tok.2 = true
      · simp [hl, f1]
      · simp [hl]
    have hr2 : (match tok.1 with
        | some h => h :: dropHdr racc
        | none => racc).reverse.filter isPayload = racc.reverse.filter isPayload := by
      cases ht : tok.1 with
      | none => rfl
      | some x =>
        have := f2 x ht
        simp only [List.reverse_cons, List.filter_append, List.filter_cons, this,
          Bool.false_eq_true, if_false, List.filter_nil, List.append_nil]
        rw [List.filter_reverse, List.filter_reverse, dropHdr_payload]
    simp only [compactTok]
    rw [hr1, hr2, List.map_cons, List.filter_cons, List.append_assoc]
    congr 1
    by_cases hl : live tok.2 = true
    · simp [hl]
    · simp [hl]

/-! ## `collect_targets_buffer` as a whole -/

theorem words_shift {s t : Stream} {a b n : Nat} (h : ∀ k, k < n → s (a + k) = t (b + k)) :
    words s a n = words t b n := by
  simp only [words]
  apply List.map_congr_left
  intro k hk
  exact h k (List.mem_range.1 hk)

theorem ctb_copy_spec (bufs : List Buffer) :
    ∀ (s : Stream) (off : Nat),
      (bufs.foldl ctb_copy_step (s, off)).2 = off + (bufs.flatMap buffer_words).length ∧
      words (bufs.foldl ctb_copy_step (s, off)).1 off (bufs.flatMap buffer_words).length =
        bufs.flatMap buffer_words ∧
      ∀ x, x < off → (bufs.foldl ctb_copy_step (s, off)).1 x = s x := by
  induction bufs with
  | nil =>
    intro s off
    simp [words_zero]
  | cons b bufs ih =>
    intro s off
    simp only [List.foldl_cons, List.flatMap_cons, List.length_append]
    have hbl : (buffer_words b).length = b.length := by simp [buffer_words, words_length]
    by_cases h0 : b.length = 0
    · have hb : buffer_words b = [] := by simp [buffer_words, h0, words_zero]
      obtain ⟨i1, i2, i3⟩ := ih s off
      simp only [ctb_copy_step, if_pos h0, hb, List.nil_append, List.length_nil, Nat.zero_add]
      exact ⟨i1, i2, i3⟩
    · obtain ⟨i1, i2, i3⟩ := ih (memcpy s off b.ptr b.length) (off + b.length)
      simp only [ctb_copy_step, if_neg h0]
      refine ⟨?_, ?_, ?_⟩
      · rw [i1, hbl]
        omega
      · rw [words_append, hbl, i2]
        congr 1
        simp only [buffer_words]
        apply words_shift
        intro k hk
        rw [i3 _ (by omega)]
        simp only [memcpy]
        rw [if_pos (by omega)]
        congr 1
        omega
      · intro x hx
        rw [i3 x (by omega)]
        simp only [memcpy]
        rw [if_neg (by omega)]

theorem wellFormed_layout (n : Nat) :
    ∀ (l : List Nat), l.length ≤ n → wellFormedBuf l = true → ∀ (s : Stream) (i : Nat),
      words s i l.length = l →
      ∃ hs, BufLay s i hs ∧ bufEnd i hs = i + l.length ∧
        readPairs s (bufPos i hs) = payloadPairs l ∧
        ∀ p ∈ bufPos i hs, s (p + 1) ≠ get_sentinel := by
  induction n with
  | zero =>
    intro l hl _ s i _
    have : l = [] := List.length_eq_zero.1 (by omega)
    subst this
    exact ⟨[], trivial, rfl, rfl, by simp [bufPos]⟩
  | succ n ih =>
    intro l hl hwf s i hw
    match l, hl, hwf, hw with
    | [], _, _, _ => exact ⟨[], trivial, rfl, rfl, by simp [bufPos]⟩
    | [_], _, hwf, _ => simp [wellFormedBuf] at hwf
    | v :: w :: rest, hl, hwf, hw =>
      simp only [List.length_cons] at hl hw
      rw [words_succ, words_succ] at hw
      simp only [List.cons.injEq] at hw
      obtain ⟨hv, hw1, hrest⟩ := hw
      by_cases hflag : v &&& 0x80000000 ≠ 0
      · unfold wellFormedBuf at hwf
        simp only [if_pos hflag] at hwf
        match rest, hl, hwf, hrest with
        | [], _, hwf, _ => simp at hwf
        | [_], _, hwf, _ => simp at hwf
        | v2 :: w2 :: rest2, hl, hwf, hrest =>
          simp only [Bool.and_eq_true, decide_eq_true_eq] at hwf
          simp only [List.length_cons] at hl hrest
          rw [words_succ, words_succ] at hrest
          simp only [List.cons.injEq] at hrest
          obtain ⟨hv2, hw2, hrest2⟩ := hrest
          obtain ⟨hs, h1, h2, h3, h4⟩ := ih rest2 (by omega) hwf.2 s (i + 4) hrest2
          refine ⟨true :: hs, ?_, ?_, ?_, ?_⟩
          · simp only [BufLay, if_true]
            rw [hv, show i + 2 = i + 1 + 1 by omega, hv2]
            exact ⟨⟨hflag, hwf.1.1⟩, h1⟩
          · simp only [bufEnd, if_true, List.length_cons]
            rw [h2]
            omega
          · simp only [bufPos, if_true, readPairs, List.map_cons]
            simp only [readPairs] at h3
            rw [h3, show i + 2 = i + 1 + 1 by omega, hv2, hw2]
            simp [payloadPairs, toPairs, isPayload, hflag, hwf.1.1]
          · simp only [bufPos, if_true, List.mem_cons]
            intro p hp
            rcases hp with rfl | hp
            · rw [show i + 2 + 1 = i + 1 + 1 + 1 by omega, hw2]
              exact hwf.1.2
            · exact h4 p hp
      · unfold wellFormedBuf at hwf
        simp only [if_neg hflag, Bool.and_eq_true, decide_eq_true_eq] at hwf
        obtain ⟨hs, h1, h2, h3, h4⟩ := ih rest (by omega) hwf.2 s (i + 2) hrest
        have hflag0 : v &&& 0x80000000 = 0 := by
          by_contra hc
          exact hflag hc
        refine ⟨false :: hs, ?_, ?_, ?_, ?_⟩
        · simp only [BufLay, Bool.false_eq_true, if_false]
          rw [hv]
          exact ⟨hflag0, h1⟩
        · simp only [bufEnd, Bool.false_eq_true, if_false, List.length_cons]
          rw [h2]
          omega
        · simp only [bufPos, Bool.false_eq_true, if_false, readPairs, List.map_cons]
          simp only [readPairs] at h3
          rw [h3, hv, hw1]
          simp [payloadPairs, toPairs, isPayload, hflag0]
        · simp only [bufPos, Bool.false_eq_true, if_false, List.mem_cons]
          intro p hp
          rcases hp with rfl | hp
          · rw [hw1]
            exact hwf.1
          · exact h4 p hp

theorem buf_candidates_eq (graph : Graph2DCSR) (s : Stream) (P : List Nat) :
    buf_candidates graph s P = (readPairs s P).map (fun p => (p.1 &&& lmask graph, p.2)) := by
  simp [buf_candidates, readPairs]

/-- `collect_targets_buffer` with the dedup pass not skipped, started from a state that
satisfies the dedup invariant for pairs lying before `stream_offset`. -/
theorem collect_targets_buffer_spec {L : Nat} (SKIP_FILTERING : Bool) (node : CommTarget)
    (graph : Graph2DCSR) (state : SsspState) (off : Nat) (s : Stream) (vp : VPos)
    (P : List Nat) (C : List (Nat × Nat))
    (hskip : (SKIP_FILTERING && state.is_presolving_mode_) = false)
    (hwf : wellFormedBuf (queued_words node) = true) (hD : DInv L s vp P C)
    (hP : ∀ p ∈ P, p + 2 ≤ off) (hbnd : ∀ c ∈ buffer_candidates node graph, c.1 < L) :
    ∃ hs,
      (collect_targets_buffer SKIP_FILTERING node graph state off s vp).pos =
        (queued_words node).length ∧
      bufEnd off hs = off + (queued_words node).length ∧
      BufLay (collect_targets_buffer SKIP_FILTERING node graph state off s vp).stream off hs ∧
      DInv L (collect_targets_buffer SKIP_FILTERING node graph state off s vp).stream
        (collect_targets_buffer SKIP_FILTERING node graph state off s vp).vertices_pos
        (P ++ bufPos off hs) (C ++ buffer_candidates node graph) ∧
      (∀ x, x < off → (∀ p ∈ P, x ≠ p + 1) →
        (collect_targets_buffer SKIP_FILTERING node graph state off s vp).stream x = s x) := by
  obtain ⟨c1, c2, c3⟩ := ctb_copy_spec node.send_data s off
  change _ = off + (queued_words node).length at c1
  change words _ off (queued_words node).length = queued_words node at c2
  obtain ⟨hs, l1, l2, l3, l4⟩ := wellFormed_layout _ (queued_words node) (Nat.le_refl _) hwf
    (node.send_data.foldl ctb_copy_step (s, off)).1 off c2
  have hD' : DInv L (node.send_data.foldl ctb_copy_step (s, off)).1 vp P C := by
    apply DInv_frame hD
    intro p hp
    have := hP p hp
    exact ⟨c3 p (by omega), c3 (p + 1) (by omega)⟩
  have hcand : buf_candidates graph (node.send_data.foldl ctb_copy_step (s, off)).1
      (bufPos off hs) = buffer_candidates node graph := by
    rw [buf_candidates_eq, l3]
    rfl
  have hlen : hs.length ≤ (queued_words node).length := by
    have := bufEnd_ge off hs
    omega
  obtain ⟨r1, r2, r3, _⟩ := ctb_loop_spec (L := L) graph (off + (queued_words node).length) hs
    (queued_words node).length off _ vp P C l1 l2 hlen hD' hP (by
      intro p hp
      refine ⟨?_, l4 p hp⟩
      exact hbnd (_, _) (by
        rw [← hcand]
        simp only [buf_candidates, List.mem_map]
        exact ⟨p, hp, rfl⟩))
  rw [hcand] at r2
  refine ⟨hs, ?_, l2, ?_, ?_, ?_⟩
  · simp only [collect_targets_buffer, c1]
    omega
  · simp only [collect_targets_buffer, hskip, c1, Nat.add_sub_cancel_left]
    exact r1
  · simp only [collect_targets_buffer, hskip, c1, Nat.add_sub_cancel_left]
    exact r2
  · intro x hx hxp
    simp only [collect_targets_buffer, hskip, c1, Nat.add_sub_cancel_left]
    rw [r3 x hx hxp]
    exact c3 x hx

/-- `remove_sentinels_buffer` on a laid-out stream: the words written from `write_start` are
the pairs `out`, whose payload pairs are exactly the live payload pairs of the input, in
order; the scratch is reset at the masked vertex of every live payload pair. -/
theorem remove_sentinels_buffer_spec (graph : Graph2DCSR) (read_start write_start : Nat)
    (hs : List Bool) (s : Stream) (vp : VPos) (hlay : BufLay s read_start hs)
    (hle : write_start ≤ read_start) :
    ∃ out : List (Nat × Nat),
      out = (compactBuf [] (readToks s read_start hs)).reverse ∧
      (remove_sentinels_buffer graph read_start write_start
        (bufEnd read_start hs - read_start) s vp).pos = 2 * out.length ∧
      words (remove_sentinels_buffer graph read_start write_start
          (bufEnd read_start hs - read_start) s vp).stream write_start
        (remove_sentinels_buffer graph read_start write_start
          (bufEnd read_start hs - read_start) s vp).pos = flattenPairs out ∧
      out.filter isPayload = livePairs s (bufPos read_start hs) ∧
      (∀ x, x < write_start → (remove_sentinels_buffer graph read_start write_start
          (bufEnd read_start hs - read_start) s vp).stream x = s x) ∧
      (∀ v, (remove_sentinels_buffer graph read_start write_start
          (bufEnd read_start hs - read_start) s vp).vertices_pos v =
        if v ∈ (livePairs s (bufPos read_start hs)).map (fun p => p.1 &&& lmask graph) then -1
        else vp v) := by
  have hge := bufEnd_ge read_start hs
  have hend : read_start + (bufEnd read_start hs - read_start) = bufEnd read_start hs := by
    omega
  have hA : AccInv write_start ⟨s, vp, write_start⟩ [] :=
    ⟨by simp, by simp [words_zero, flattenPairs]⟩
  obtain ⟨r1, r2, r3⟩ := rs_buffer_loop_spec graph write_start (bufEnd read_start hs) hs
    (bufEnd read_start hs - read_start) read_start ⟨s, vp, write_start⟩ [] hlay rfl
    (by omega) hle hA
  have rp := r1.pos
  have ro := r1.out
  dsimp only at rp ro r2 r3
  refine ⟨_, rfl, ?_, ?_, ?_, ?_, ?_⟩
  · simp only [remove_sentinels_buffer, hend, List.length_reverse]
    rw [rp]
    omega
  · simp only [remove_sentinels_buffer, hend]
    rw [rp, Nat.add_sub_cancel_left]
    exact ro
  · have := compactBuf_payload (readToks s read_start hs) [] (readToks_flags hlay)
    simp only [List.reverse_nil, List.filter_nil, List.nil_append] at this
    rw [this, readToks_payload]
    rfl
  · intro x hx
    simp only [remove_sentinels_buffer, hend]
    exact r2 x (Or.inl hx)
  · intro v
    simp only [remove_sentinels_buffer, hend]
    exact r3 v

/-! ## The per-destination merge of `run_with_both` -/

theorem filter_live_length_le (ps : List (Nat × Nat)) : (ps.filter live).length ≤ ps.length :=
  List.length_filter_le _ _

theorem encodePtr_compact_length_le (s : Stream) (i : Nat) (ks : List Nat) :
    i + (encodePtr (compactPtr (readBlocks s i ks))).length ≤ layEnd i ks := by
  induction ks generalizing i with
  | nil => simp [readBlocks, compactPtr, encodePtr, layEnd]
  | cons k ks ih =>
    have h := ih (i + 3 + 2 * k)
    simp only [readBlocks, compactPtr_cons, layEnd]
    by_cases hnil : (readRow s (i + 3) k).filter live = []
    · rw [if_pos hnil]
      omega
    · rw [if_neg hnil]
      have hl := filter_live_length_le (readRow s (i + 3) k)
      rw [readRow_length] at hl
      simp only [encodePtr, List.length_cons, List.length_append, flattenPairs_length]
      omega

theorem remove_sentinels_ptr_zero (graph : Graph2DCSR) (s : Stream) (vp : VPos) :
    remove_sentinels_ptr graph 0 s vp = ⟨s, vp, 0⟩ := rfl

theorem remove_sentinels_buffer_zero (graph : Graph2DCSR) (n m : Nat) (s : Stream) (vp : VPos) :
    remove_sentinels_buffer graph n m 0 s vp = ⟨s, vp, 0⟩ := by
  simp [remove_sentinels_buffer, rs_buffer_loop]

theorem buffer_candidates_masked (node : CommTarget) (graph : Graph2DCSR) :
    ∀ c ∈ buffer_candidates node graph, c.1 &&& lmask graph = c.1 := by
  intro c hc
  simp only [buffer_candidates, List.mem_map] at hc
  obtain ⟨p, _, rfl⟩ := hc
  exact land_lmask_idem graph _

/-- The candidates of a destination in the merge of `run_with_both`. -/
theorem merge_candidates_masked (node : CommTarget) (state : SsspState) (graph : Graph2DCSR)
    (use_ptr use_buffer : Bool) :
    ∀ c ∈ (if use_ptr then ptr_candidates node state graph else []) ++
        (if use_buffer then buffer_candidates node graph else []),
      c.1 &&& lmask graph = c.1 := by
  intro c hc
  rcases List.mem_append.1 hc with hc | hc
  · cases use_ptr
    · simp at hc
    · exact ptr_candidates_masked node state graph c hc
  · cases use_buffer
    · simp at hc
    · exact buffer_candidates_masked node graph c hc

theorem livePairs_live {s : Stream} {P : List Nat} {x : Nat × Nat} (h : x ∈ livePairs s P) :
    x.2 ≠ get_sentinel := by
  obtain ⟨p, _, hl, rfl⟩ := mem_livePairs.1 h
  exact hl

theorem merge_stages {L : Nat} (graph : Graph2DCSR) (C : List (Nat × Nat))
    (hm : ∀ c ∈ C, c.1 &&& lmask graph = c.1) (ks : List Nat) (hs : List Bool)
    (b : MergeState) (hlay : PtrLay b.stream 0 ks) (hbuf : BufLay b.stream (layEnd 0 ks) hs)
    (hD : DInv L b.stream b.vertices_pos (pairPos 0 ks ++ bufPos (layEnd 0 ks) hs) C) :
    MergePost L C
      (remove_sentinels_buffer graph (layEnd 0 ks)
        (remove_sentinels_ptr graph (layEnd 0 ks) b.stream b.vertices_pos).pos
        (bufEnd (layEnd 0 ks) hs - layEnd 0 ks)
        (remove_sentinels_ptr graph (layEnd 0 ks) b.stream b.vertices_pos).stream
        (remove_sentinels_ptr graph (layEnd 0 ks) b.stream b.vertices_pos).vertices_pos).stream
      (remove_sentinels_buffer graph (layEnd 0 ks)
        (remove_sentinels_ptr graph (layEnd 0 ks) b.stream b.vertices_pos).pos
        (bufEnd (layEnd 0 ks) hs - layEnd 0 ks)
        (remove_sentinels_ptr graph (layEnd 0 ks) b.stream b.vertices_pos).stream
        (remove_sentinels_ptr graph (layEnd 0 ks) b.stream
          b.vertices_pos).vertices_pos).vertices_pos
      (remove_sentinels_ptr graph (layEnd 0 ks) b.stream b.vertices_pos).pos
      (remove_sentinels_buffer graph (layEnd 0 ks)
        (remove_sentinels_ptr graph (layEnd 0 ks) b.stream b.vertices_pos).pos
        (bufEnd (layEnd 0 ks) hs - layEnd 0 ks)
        (remove_sentinels_ptr graph (layEnd 0 ks) b.stream b.vertices_pos).stream
        (remove_sentinels_ptr graph (layEnd 0 ks) b.stream b.vertices_pos).vertices_pos).pos := by
  obtain ⟨p1, p2, p3, p4⟩ := remove_sentinels_ptr_spec graph ks b.stream b.vertices_pos hlay
  generalize remove_sentinels_ptr graph (layEnd 0 ks) b.stream b.vertices_pos = c at *
  have hle : c.pos ≤ layEnd 0 ks := by
    have := encodePtr_compact_length_le b.stream 0 ks
    omega
  have hbuf' : BufLay c.stream (layEnd 0 ks) hs := BufLay_congr p3 hbuf
  obtain ⟨out, _, q1, q2, q3, q4, q5⟩ := remove_sentinels_buffer_spec graph (layEnd 0 ks) c.pos
    hs c.stream c.vertices_pos hbuf' hle
  generalize remove_sentinels_buffer graph (layEnd 0 ks) c.pos
    (bufEnd (layEnd 0 ks) hs - layEnd 0 ks) c.stream c.vertices_pos = d at *
  have hlive : livePairs c.stream (bufPos (layEnd 0 ks) hs) =
      livePairs b.stream (bufPos (layEnd 0 ks) hs) := by
    apply livePairs_congr
    intro p hp
    have := bufPos_bounds hp
    exact ⟨p3 p (by omega), p3 (p + 1) (by omega)⟩
  rw [hlive] at q3 q5
  have hpairs : blockPairs (compactPtr (readBlocks b.stream 0 ks)) ++ out.filter isPayload =
      livePairs b.stream (pairPos 0 ks ++ bufPos (layEnd 0 ks) hs) := by
    rw [q3, livePairs_append, blockPairs_compactPtr, blockPairs_readBlocks]
    rfl
  refine ⟨compactPtr (readBlocks b.stream 0 ks), out, ?_, q2, compactPtr_nonempty _, ?_, ?_, ?_,
    ?_⟩
  · rw [← p2]
    apply words_congr
    intro x _ hx
    exact q4 x (by omega)
  · rw [hpairs]
    exact DInv_nodup hD
  · intro x hx
    rw [hpairs] at hx
    exact ⟨(DInv_min hD x hx).1, livePairs_live hx, (DInv_min hD x hx).2⟩
  · intro c' hc'
    rw [hpairs]
    exact DInv_cover hD c' hc'
  · apply DInv_reset hD
    · intro v _ hw
      obtain ⟨w, hw⟩ := hw
      have hmv := hm _ ((DInv_min hD _ hw).1)
      rw [q5 v, p4 v]
      rcases List.mem_append.1 (by rw [livePairs_append] at hw; exact hw) with h1 | h1
      · have : v ∈ (livePairs b.stream (pairPos 0 ks)).map (fun p => p.1 &&& lmask graph) :=
          List.mem_map.2 ⟨(v, w), h1, hmv⟩
        rw [if_pos this]
        split <;> rfl
      · have : v ∈ (livePairs b.stream (bufPos (layEnd 0 ks) hs)).map
            (fun p => p.1 &&& lmask graph) := List.mem_map.2 ⟨(v, w), h1, hmv⟩
        rw [if_pos this]
    · intro v _
      rw [q5 v, p4 v]
      split
      · exact Or.inl rfl
      · split
        · exact Or.inl rfl
        · exact Or.inr rfl

theorem PtrLay_after_buffer {ks : List Nat} {a b : Stream}
    (hfr : ∀ x, x < layEnd 0 ks → (∀ p ∈ pairPos 0 ks, x ≠ p + 1) → b x = a x)
    (hlay : PtrLay a 0 ks) : PtrLay b 0 ks := by
  apply PtrLay_congr _ hlay
  intro l hl
  have := lenPos_bounds hl
  apply hfr l (by omega)
  intro p hp heq
  exact (pairPos_lenPos_disjoint hp hl).1 heq.symm

/-- The merge of one destination in `run_with_both`, dedup pass not skipped: for every
combination of `use_ptr` and `use_buffer` the slab satisfies `MergePost`. -/
theorem run_with_both_merge_spec (L : Nat) (SKIP_FILTERING : Bool) (node : CommTarget)
    (state : SsspState) (graph : Graph2DCSR) (use_ptr use_buffer : Bool) (stream : Stream)
    (vertices_pos : VPos) (hclean : ∀ v, v < L → vertices_pos v = -1)
    (hskip : use_buffer = true → (SKIP_FILTERING && state.is_presolving_mode_) = false)
    (hwf : use_buffer = true → wellFormedBuf (queued_words node) = true)
    (hc : ∀ c ∈ merge_candidates node state graph use_ptr use_buffer, c.1 < L)
    (hsent : use_ptr = true → ∀ c ∈ ptr_candidates node state graph, c.2 ≠ get_sentinel) :
    MergePost L (merge_candidates node state graph use_ptr use_buffer)
      (run_with_both_merge SKIP_FILTERING node state graph use_ptr use_buffer stream
        vertices_pos).stream
      (run_with_both_merge SKIP_FILTERING node state graph use_ptr use_buffer stream
        vertices_pos).vertices_pos
      (run_with_both_merge SKIP_FILTERING node state graph use_ptr use_buffer stream
        vertices_pos).length_ptr_reduced
      (run_with_both_merge SKIP_FILTERING node state graph use_ptr use_buffer stream
        vertices_pos).length_buffer_reduced := by
  have hm := merge_candidates_masked node state graph use_ptr use_buffer
  cases use_ptr <;> cases use_buffer
  · -- nothing to merge
    have h0 : DInv L stream vertices_pos (pairPos 0 [] ++ bufPos (layEnd 0 []) []) [] :=
      DInv_init L stream vertices_pos hclean
    have := merge_stages graph [] (by simp) [] [] ⟨stream, vertices_pos, 0⟩ trivial trivial h0
    simpa [run_with_both_merge, merge_candidates, layEnd, bufEnd, remove_sentinels_ptr_zero,
      remove_sentinels_buffer_zero] using this
  · -- buffer data only
    have h0 : DInv L stream vertices_pos [] [] := DInv_init L stream vertices_pos hclean
    obtain ⟨hs, b1, b2, b3, b4, _⟩ := collect_targets_buffer_spec SKIP_FILTERING node graph
      state 0 stream vertices_pos [] [] (hskip rfl) (hwf rfl) h0 (by simp)
      (by simpa [merge_candidates] using hc)
    have := merge_stages (L := L) graph (buffer_candidates node graph)
      (by simpa [merge_candidates] using hm) [] hs _ trivial b3
      (by simpa [pairPos, layEnd] using b4)
    simp only [layEnd, remove_sentinels_ptr_zero, Nat.zero_add, Nat.sub_zero] at this b2
    rw [b2, ← b1] at this
    simpa [run_with_both_merge, merge_candidates] using this
  · -- pointer data only
    obtain ⟨ks, hB⟩ := collect_targets_ptr_inv L node state graph stream vertices_pos hclean
      (fun c hcm => ⟨hc c (by simp [merge_candidates, hcm]), hsent rfl c hcm⟩)
    have := merge_stages (L := L) graph (ptr_candidates node state graph)
      (by simpa [merge_candidates] using hm) ks [] _ hB.lay trivial
      (by simpa [bufPos] using hB.inv)
    simp only [bufEnd, Nat.sub_self, remove_sentinels_buffer_zero] at this
    rw [← hB.pos] at this
    simpa [run_with_both_merge, merge_candidates] using this
  · -- both
    obtain ⟨ks, hB⟩ := collect_targets_ptr_inv L node state graph stream vertices_pos hclean
      (fun c hcm => ⟨hc c (by simp [merge_candidates, hcm]), hsent rfl c hcm⟩)
    obtain ⟨hs, b1, b2, b3, b4, b5⟩ := collect_targets_buffer_spec SKIP_FILTERING node graph
      state (collect_targets_ptr node state graph stream vertices_pos).pos _ _ _ _
      (hskip rfl) (hwf rfl) hB.inv
      (by
        intro p hp
        have := pairPos_bounds hp
        rw [hB.pos]
        omega)
      (fun c hcm => hc c (by simp [merge_candidates, hcm]))
    rw [hB.pos] at b2 b3 b4 b5
    have hlay := PtrLay_after_buffer b5 hB.lay
    have := merge_stages (L := L) graph
      (ptr_candidates node state graph ++ buffer_candidates node graph)
      (by simpa [merge_candidates] using hm) ks hs _ hlay b3 b4
    rw [b2, Nat.add_sub_cancel_left, ← b1] at this
    rw [hB.pos] at this
    simp only [run_with_both_merge, merge_candidates, if_true]
    rw [hB.pos]
    exact this

/-! ## List facts used by the claims -/

theorem filter_key_of_nodup {l : List (Nat × Nat)} (hnd : (l.map Prod.fst).Nodup) {v w : Nat}
    (hm : (v, w) ∈ l) : l.filter (fun x => decide (x.1 = v)) = [(v, w)] := by
  induction l with
  | nil => simp at hm
  | cons a r ih =>
    simp only [List.map_cons, List.nodup_cons, List.mem_map, not_exists, not_and] at hnd
    rcases List.mem_cons.1 hm with h | h
    · subst h
      have hr : r.filter (fun x => decide (x.1 = v)) = [] := by
        rw [List.filter_eq_nil_iff]
        intro x hx
        simp only [decide_eq_true_eq]
        intro hxv
        exact hnd.1 x hx hxv
      simp [List.filter_cons, hr]
    · have hne : a.1 ≠ v := by
        intro hav
        exact hnd.1 (v, w) h hav.symm
      simp only [List.filter_cons, hne, decide_False, Bool.false_eq_true, if_false]
      exact ih hnd.2 h

theorem encodePtr_eq_nil {blocks : List PtrBlock} (h : encodePtr blocks = []) : blocks = [] := by
  cases blocks with
  | nil => rfl
  | cons b r => simp [encodePtr] at h

theorem run_buffer_merge_eq (SKIP_FILTERING : Bool) (node : CommTarget) (state : SsspState)
    (graph : Graph2DCSR) (stream : Stream) (vertices_pos : VPos) :
    remove_sentinels_buffer graph 0 0
        (collect_targets_buffer SKIP_FILTERING node graph state 0 stream vertices_pos).pos
        (collect_targets_buffer SKIP_FILTERING node graph state 0 stream vertices_pos).stream
        (collect_targets_buffer SKIP_FILTERING node graph state 0 stream
          vertices_pos).vertices_pos =
      ⟨(run_with_both_merge SKIP_FILTERING node state graph false true stream
          vertices_pos).stream,
        (run_with_both_merge SKIP_FILTERING node state graph false true stream
          vertices_pos).vertices_pos,
        (run_with_both_merge SKIP_FILTERING node state graph false true stream
          vertices_pos).length_buffer_reduced⟩ := by
  simp [run_with_both_merge]

/-- The stream left by `collect_targets_buffer` and `remove_sentinels_buffer` at offset 0
(dedup pass not skipped): its payload pairs carry pairwise different vertices, each is a
buffer candidate that no candidate for its vertex undercuts, and every candidate's vertex has
its pair; the scratch slice is clean. -/
theorem run_buffer_merge_spec (L : Nat) (SKIP_FILTERING : Bool) (node : CommTarget)
    (state : SsspState) (graph : Graph2DCSR) (stream : Stream) (vertices_pos : VPos)
    (hclean : ∀ v, v < L → vertices_pos v = -1)
    (hskip : (SKIP_FILTERING && state.is_presolving_mode_) = false)
    (hwf : wellFormedBuf (queued_words node) = true)
    (hbnd : ∀ c ∈ buffer_candidates node graph, c.1 < L) :
    ∃ out : List (Nat × Nat),
      words (run_buffer_merge SKIP_FILTERING node state graph stream vertices_pos).stream 0
        (run_buffer_merge SKIP_FILTERING node state graph stream vertices_pos).pos =
        flattenPairs out ∧
      ((out.filter isPayload).map Prod.fst).Nodup ∧
      (∀ x ∈ out.filter isPayload, x ∈ buffer_candidates node graph ∧ x.2 ≠ get_sentinel ∧
        ∀ c ∈ buffer_candidates node graph, c.1 = x.1 → f32lt c.2 x.2 = false) ∧
      (∀ c ∈ buffer_candidates node graph, ∃ w, (c.1, w) ∈ out.filter isPayload) ∧
      (∀ v, v < L →
        (run_buffer_merge SKIP_FILTERING node state graph stream vertices_pos).vertices_pos v
          = -1) := by
  obtain ⟨blocks, out, m1, m2, _, m4, m5, m6, m7⟩ := run_with_both_merge_spec L SKIP_FILTERING
    node state graph false true stream vertices_pos hclean (fun _ => hskip) (fun _ => hwf)
    (by simpa [merge_candidates] using hbnd) (by simp)
  have hrun := run_buffer_merge_eq SKIP_FILTERING node state graph stream vertices_pos
  have hlp : (run_with_both_merge SKIP_FILTERING node state graph false true stream
      vertices_pos).length_ptr_reduced = 0 := by simp [run_with_both_merge]
  rw [hlp, words_zero] at m1
  rw [hlp] at m2
  have hb := encodePtr_eq_nil m1.symm
  subst hb
  simp only [blockPairs, List.flatMap_nil, List.nil_append, merge_candidates,
    Bool.false_eq_true, if_false, if_true] at m4 m5 m6
  unfold run_buffer_merge
  rw [hrun]
  exact ⟨out, m2, m4, m5, m6, m7⟩

/-! ## The scratch slice when the dedup pass is skipped -/

theorem ctb_loop_skip (graph : Graph2DCSR) (stream_end : Nat) :
    ∀ (fuel j : Nat) (st : Stream × VPos),
      (ctb_loop graph true stream_end fuel j st).2 = st.2 ∧
      ∀ x, x < j → (ctb_loop graph true stream_end fuel j st).1 x = st.1 x := by
  intro fuel
  induction fuel with
  | zero =>
    intro j st
    exact ⟨rfl, fun _ _ => rfl⟩
  | succ f ih =>
    intro j st
    by_cases hj : j < stream_end
    · simp only [ctb_loop, if_pos hj]
      generalize hq : (if st.1 j &&& 0x80000000 ≠ 0 then j + 2 else j) = q
      have hqj : j ≤ q := by
        rw [← hq]
        split <;> omega
      obtain ⟨i1, i2⟩ := ih (q + 2) (ctb_body graph true q st)
      have hb : ctb_body graph true q st = (upd st.1 q (st.1 q &&& lmask graph), st.2) := by
        simp [ctb_body]
      rw [hb] at i1 i2
      refine ⟨by rw [hb]; exact i1, ?_⟩
      intro x hx
      rw [hb, i2 x (by omega)]
      exact upd_ne _ _ (by omega)
    · simp only [ctb_loop, if_neg hj]
      exact ⟨trivial, fun _ _ => trivial⟩

theorem collect_targets_buffer_skip (SKIP_FILTERING : Bool) (node : CommTarget)
    (graph : Graph2DCSR) (state : SsspState) (off : Nat) (s : Stream) (vp : VPos)
    (hskip : (SKIP_FILTERING && state.is_presolving_mode_) = true) :
    (collect_targets_buffer SKIP_FILTERING node graph state off s vp).vertices_pos = vp ∧
    ∀ x, x < off → (collect_targets_buffer SKIP_FILTERING node graph state off s vp).stream x =
      s x := by
  obtain ⟨_, _, c3⟩ := ctb_copy_spec node.send_data s off
  simp only [collect_targets_buffer, hskip]
  obtain ⟨k1, k2⟩ := ctb_loop_skip graph (node.send_data.foldl ctb_copy_step (s, off)).2
    ((node.send_data.foldl ctb_copy_step (s, off)).2 - off) off
    ((node.send_data.foldl ctb_copy_step (s, off)).1, vp)
  exact ⟨k1, fun x hx => by rw [k2 x hx]; exact c3 x hx⟩

theorem rs_buffer_loop_vp (graph : Graph2DCSR) (ws read_end : Nat) :
    ∀ (fuel i : Nat) (st : MergeState) (v : Nat),
      (rs_buffer_loop graph ws read_end fuel i st).vertices_pos v = -1 ∨
      (rs_buffer_loop graph ws read_end fuel i st).vertices_pos v = st.vertices_pos v := by
  intro fuel
  induction fuel with
  | zero =>
    intro i st v
    exact Or.inr rfl
  | succ f ih =>
    intro i st v
    by_cases hi : i < read_end
    · simp only [rs_buffer_loop, if_pos hi]
      generalize (if st.stream i &&& 0x80000000 ≠ 0 then i + 2 else i) = q
      have h1 : (if st.stream i &&& 0x80000000 ≠ 0 then rs_buffer_header ws i st
          else st).vertices_pos = st.vertices_pos := by
        split <;> rfl
      generalize (if st.stream i &&& 0x80000000 ≠ 0 then rs_buffer_header ws i st
          else st) = st1 at h1
      have h2 : (rs_buffer_pair graph q st1).vertices_pos v = -1 ∨
          (rs_buffer_pair graph q st1).vertices_pos v = st1.vertices_pos v := by
        unfold rs_buffer_pair
        dsimp only
        split
        · exact Or.inr rfl
        · dsimp only
          by_cases hv : v = st1.stream q &&& lmask graph
          · subst hv
            exact Or.inl (upd_same _ _ _)
          · exact Or.inr (upd_ne _ _ hv)
      rcases ih (q + 2) (rs_buffer_pair graph q st1) v with h3 | h3
      · exact Or.inl h3
      · rw [h3, ← h1]
        exact h2
    · simp only [rs_buffer_loop, if_neg hi]
      exact Or.inr trivial

theorem remove_sentinels_buffer_vp (graph : Graph2DCSR) (read_start write_start length : Nat)
    (s : Stream) (vp : VPos) (v : Nat) :
    (remove_sentinels_buffer graph read_start write_start length s vp).vertices_pos v = -1 ∨
    (remove_sentinels_buffer graph read_start write_start length s vp).vertices_pos v = vp v :=
  rs_buffer_loop_vp graph write_start (read_start + length) length read_start
    ⟨s, vp, write_start⟩ v

/-- The merge of one destination leaves the scratch slice clean, whether or not the dedup pass
of the buffer collection is skipped. -/
theorem run_with_both_merge_clean (L : Nat) (SKIP_FILTERING : Bool) (node : CommTarget)
    (state : SsspState) (graph : Graph2DCSR) (use_ptr use_buffer : Bool) (stream : Stream)
    (vertices_pos : VPos) (hclean : ∀ v, v < L → vertices_pos v = -1)
    (hwf : use_buffer = true → wellFormedBuf (queued_words node) = true)
    (hc : ∀ c ∈ merge_candidates node state graph use_ptr use_buffer, c.1 < L)
    (hsent : use_ptr = true → ∀ c ∈ ptr_candidates node state graph, c.2 ≠ get_sentinel) :
    ∀ v, v < L → (run_with_both_merge SKIP_FILTERING node state graph use_ptr use_buffer stream
      vertices_pos).vertices_pos v = -1 := by
  cases hskip : (SKIP_FILTERING && state.is_presolving_mode_) with
  | false =>
    obtain ⟨_, _, _, _, _, _, _, _, h⟩ := run_with_both_merge_spec L SKIP_FILTERING node state
      graph use_ptr use_buffer stream vertices_pos hclean (fun _ => hskip) hwf hc hsent
    exact h
  | true =>
    cases use_buffer with
    | false =>
      obtain ⟨_, _, _, _, _, _, _, _, h⟩ := run_with_both_merge_spec L SKIP_FILTERING node
        state graph use_ptr false stream vertices_pos hclean (by simp) hwf hc hsent
      exact h
    | true =>
      intro v hv
      cases use_ptr with
      | false =>
        simp only [run_with_both_merge, Bool.false_eq_true, if_false, if_true]
        obtain ⟨k1, _⟩ := collect_targets_buffer_skip SKIP_FILTERING node graph state 0 stream
          vertices_pos hskip
        rcases remove_sentinels_buffer_vp graph 0 0
          (collect_targets_buffer SKIP_FILTERING node graph state 0 stream vertices_pos).pos
          (collect_targets_buffer SKIP_FILTERING node graph state 0 stream vertices_pos).stream
          (collect_targets_buffer SKIP_FILTERING node graph state 0 stream
            vertices_pos).vertices_pos v with h | h
        · exact h
        · rw [h, k1]
          exact hclean v hv
      | true =>
        simp only [run_with_both_merge, if_true]
        obtain ⟨ks, hB⟩ := collect_targets_ptr_inv L node state graph stream vertices_pos hclean
          (fun c hcm => ⟨hc c (by simp [merge_candidates, hcm]), hsent rfl c hcm⟩)
        obtain ⟨k1, k2⟩ := collect_targets_buffer_skip SKIP_FILTERING node graph state
          (collect_targets_ptr node state graph stream vertices_pos).pos
          (collect_targets_ptr node state graph stream vertices_pos).stream
          (collect_targets_ptr node state graph stream vertices_pos).vertices_pos hskip
        generalize collect_targets_buffer SKIP_FILTERING node graph state
          (collect_targets_ptr node state graph stream vertices_pos).pos
          (collect_targets_ptr node state graph stream vertices_pos).stream
          (collect_targets_ptr node state graph stream vertices_pos).vertices_pos = b at *
        generalize collect_targets_ptr node state graph stream vertices_pos = a at *
        have hlay : PtrLay b.stream 0 ks := by
          apply PtrLay_congr _ hB.lay
          intro l hl
          have := lenPos_bounds hl
          exact k2 l (by rw [hB.pos]; omega)
        have hD : DInv L b.stream b.vertices_pos (pairPos 0 ks) (ptr_candidates node state
            graph) := by
          rw [k1]
          apply DInv_frame hB.inv
          intro p hp
          have := pairPos_bounds hp
          exact ⟨k2 p (by rw [hB.pos]; omega), k2 (p + 1) (by rw [hB.pos]; omega)⟩
        have h4 := (remove_sentinels_ptr_spec graph ks b.stream b.vertices_pos hlay).2.2.2
        rw [← hB.pos] at h4
        have hc' : ∀ v, v < L →
            (remove_sentinels_ptr graph a.pos b.stream b.vertices_pos).vertices_pos v = -1 := by
          apply DInv_reset hD
          · intro v _ hw
            obtain ⟨w, hw⟩ := hw
            rw [h4 v, if_pos]
            have hm := ptr_candidates_masked node state graph _ ((DInv_min hD _ hw).1)
            exact List.mem_map.2 ⟨(v, w), hw, hm⟩
          · intro v _
            rw [h4 v]
            split
            · exact Or.inl rfl
            · exact Or.inr rfl
        rcases remove_sentinels_buffer_vp graph a.pos
          (remove_sentinels_ptr graph a.pos b.stream b.vertices_pos).pos b.pos
          (remove_sentinels_ptr graph a.pos b.stream b.vertices_pos).stream
          (remove_sentinels_ptr graph a.pos b.stream b.vertices_pos).vertices_pos v with h | h
        · exact h
        · rw [h]
          exact hc' v hv

/-! ## Candidates and the phase filter -/

theorem mem_block_candidates {state : SsspState} {graph : Graph2DCSR} {b : PointerData}
    {c : Nat × Nat} :
    c ∈ block_candidates state graph b ↔
      ∃ i, i < b.length ∧ ptr_passes state graph b i = true ∧
        c = ptr_candidate state graph b i := by
  simp only [block_candidates, List.mem_map, List.mem_filter, List.mem_range]
  constructor
  · rintro ⟨i, ⟨hi, hp⟩, rfl⟩
    exact ⟨i, hi, hp, rfl⟩
  · rintro ⟨i, hi, hp, rfl⟩
    exact ⟨i, ⟨hi, hp⟩, rfl⟩

theorem mem_ptr_candidates {node : CommTarget} {state : SsspState} {graph : Graph2DCSR}
    {c : Nat × Nat} :
    c ∈ ptr_candidates node state graph ↔
      ∃ b ∈ node.send_ptr, ∃ i, i < b.length ∧ ptr_passes state graph b i = true ∧
        c = ptr_candidate state graph b i := by
  simp only [ptr_candidates, List.mem_flatMap, mem_block_candidates]

theorem foldl_congr_mem {α β : Type} (f g : α → β → α) (l : List β)
    (h : ∀ a, ∀ b ∈ l, f a b = g a b) : ∀ a, l.foldl f a = l.foldl g a := by
  induction l with
  | nil => intro a; rfl
  | cons x r ih =>
    intro a
    simp only [List.foldl_cons]
    rw [h a x (List.mem_cons_self _ _)]
    exact ih (fun a b hb => h a b (List.mem_cons_of_mem _ hb)) _

/-- The expansion reads the SSSP state only through the filter and the candidate of each
queued edge. -/
theorem collect_targets_ptr_congr (node : CommTarget) (s1 s2 : SsspState) (graph : Graph2DCSR)
    (stream : Stream) (vertices_pos : VPos)
    (h : ∀ b ∈ node.send_ptr, ∀ i, i < b.length →
      ptr_passes s1 graph b i = ptr_passes s2 graph b i ∧
      ptr_candidate s1 graph b i = ptr_candidate s2 graph b i) :
    collect_targets_ptr node s1 graph stream vertices_pos =
      collect_targets_ptr node s2 graph stream vertices_pos := by
  unfold collect_targets_ptr
  apply foldl_congr_mem
  intro st b hb
  unfold collect_ptr_block
  have hf : ∀ st', (List.range b.length).foldl (ptr_edge s1 graph b) st' =
      (List.range b.length).foldl (ptr_edge s2 graph b) st' := by
    apply foldl_congr_mem
    intro a i hi
    rw [ptr_edge_eq, ptr_edge_eq, (h b hb i (List.mem_range.1 hi)).1,
      (h b hb i (List.mem_range.1 hi)).2]
  simp only [hf]

/-! ## Scenario E1 -/

theorem encodePtr_two_pairs {blocks : List PtrBlock} {h1 h2 a b c d : Nat}
    (h : encodePtr blocks = [h1, h2, 4, a, b, c, d]) : blockPairs blocks = [(a, b), (c, d)] := by
  cases blocks with
  | nil => simp [encodePtr] at h
  | cons blk r =>
    obtain ⟨hi, lo, ps⟩ := blk
    simp only [encodePtr, List.cons.injEq] at h
    obtain ⟨_, _, hlen, hrest⟩ := h
    have hl : ps.length = 2 := by omega
    match ps, hl with
    | [p1, p2], _ =>
      simp only [flattenPairs, List.cons_append, List.nil_append, List.cons.injEq] at hrest
      obtain ⟨e1, e2, e3, e4, e5⟩ := hrest
      have hr := encodePtr_eq_nil e5
      subst hr
      obtain ⟨x1, y1⟩ := p1
      obtain ⟨x2, y2⟩ := p2
      simp only at e1 e2 e3 e4
      subst e1 e2 e3 e4
      simp [blockPairs]

theorem e1_candidate (bucket_upper i : Nat) :
    ptr_candidate (e1_state bucket_upper) e1_graph ⟨0, 0x0000000100000002, 0x3F800000, 4⟩ i =
      ptr_candidate (e1_state 0) e1_graph ⟨0, 0x0000000100000002, 0x3F800000, 4⟩ i := rfl

theorem e1_passes (bucket_upper i : Nat) :
    ptr_passes (e1_state bucket_upper) e1_graph ⟨0, 0x0000000100000002, 0x3F800000, 4⟩ i =
      !isLT (f32add (e1_graph.edge_weight_array_ i) 0x3F800000) bucket_upper := by
  have ht : Nat.testBit 0x0000000100000002 63 = false := by decide
  simp [ptr_passes, e1_state, ht]

theorem e1_candidates_subset (bucket_upper : Nat) :
    ∀ c ∈ ptr_candidates e1_node (e1_state bucket_upper) e1_graph,
      c ∈ [(1, 0x40400000), (2, 0x40800000), (1, 0x40200000), (3, 0x40A00000)] := by
  intro c hc
  obtain ⟨b, hb, i, hi, _, rfl⟩ := mem_ptr_candidates.1 hc
  simp only [e1_node, List.mem_singleton] at hb
  subst hb
  rw [e1_candidate]
  simp only at hi
  interval_cases i <;> decide

theorem e1_candidates_ok (bucket_upper : Nat) :
    ∀ c ∈ ptr_candidates e1_node (e1_state bucket_upper) e1_graph,
      c.1 < 16 ∧ c.2 ≠ get_sentinel := by
  intro c hc
  have := e1_candidates_subset bucket_upper c hc
  simp only [List.mem_cons, List.mem_singleton, List.not_mem_nil, or_false] at this
  rcases this with rfl | rfl | rfl | rfl <;> decide

/-! ## What one edge step emits -/

theorem ptr_dedup_put_emits (st : MergeState) (v w : Nat) :
    ptr_dedup_put st v w = st ∨
    ((ptr_dedup_put st v w).pos = st.pos + 2 ∧ (ptr_dedup_put st v w).stream st.pos = v ∧
      (ptr_dedup_put st v w).stream (st.pos + 1) = w) := by
  unfold ptr_dedup_put
  split
  · right
    refine ⟨rfl, ?_, ?_⟩
    · show upd (upd st.stream st.pos v) (st.pos + 1) w st.pos = v
      rw [upd_ne _ _ (by omega), upd_same]
    · show upd (upd st.stream st.pos v) (st.pos + 1) w (st.pos + 1) = w
      rw [upd_same]
  · dsimp only
    split
    · right
      refine ⟨rfl, ?_, ?_⟩
      · show upd (upd (upd st.stream _ get_sentinel) st.pos v) (st.pos + 1) w st.pos = v
        rw [upd_ne _ _ (by omega), upd_same]
      · show upd (upd (upd st.stream _ get_sentinel) st.pos v) (st.pos + 1) w (st.pos + 1) = w
        rw [upd_same]
    · left
      rfl

/-- An edge step that advances `node_send_pos` has written the candidate of an edge that
passes the filter of the active phase. -/
theorem ptr_edge_emits (state : SsspState) (graph : Graph2DCSR) (buffer : PointerData)
    (st : MergeState) (i : Nat) (h : (ptr_edge state graph buffer st i).pos ≠ st.pos) :
    ptr_passes state graph buffer i = true ∧
    (ptr_edge state graph buffer st i).pos = st.pos + 2 ∧
    (ptr_edge state graph buffer st i).stream st.pos = (ptr_candidate state graph buffer i).1 ∧
    (ptr_edge state graph buffer st i).stream (st.pos + 1) =
      (ptr_candidate state graph buffer i).2 := by
  rw [ptr_edge_eq] at h ⊢
  cases hp : ptr_passes state graph buffer i with
  | false =>
    rw [hp] at h
    exact absurd rfl h
  | true =>
    rw [hp] at h
    simp only [if_true] at h ⊢
    rcases ptr_dedup_put_emits st (ptr_candidate state graph buffer i).1
      (ptr_candidate state graph buffer i).2 with h1 | h1
    · rw [h1] at h
      exact absurd rfl h
    · exact ⟨trivial, h1⟩

theorem ptr_passes_light {state : SsspState} (graph : Graph2DCSR) (buffer : PointerData)
    (i : Nat) (hbf : state.is_bellman_ford_ = false) (hlp : state.is_light_phase_ = true) :
    ptr_passes state graph buffer i =
      (!(state.with_settled_ && state.target_is_settled (graph.edge_array_ (buffer.ptr + i))) &&
        !f32ge (ptr_candidate state graph buffer i).2 state.bucket_upper) := by
  simp [ptr_passes, ptr_candidate, hbf, hlp]

theorem ptr_passes_not_settled {state : SsspState} (graph : Graph2DCSR) (buffer : PointerData)
    (i : Nat) (h : state.is_bellman_ford_ = true ∨ state.with_settled_ = true)
    (hp : ptr_passes state graph buffer i = true) :
    state.target_is_settled (graph.edge_array_ (buffer.ptr + i)) = false := by
  unfold ptr_passes at hp
  cases hs : state.target_is_settled (graph.edge_array_ (buffer.ptr + i)) with
  | false => rfl
  | true =>
    rcases h with h | h
    · simp [h, hs] at hp
    · cases hb : state.is_bellman_ford_ <;> cases hl : state.is_light_phase_ <;>
        simp [h, hb, hl, hs] at hp

theorem ptr_passes_bellman_ford {state : SsspState} (graph : Graph2DCSR)
    (buffer : PointerData) (i : Nat) (hbf : state.is_bellman_ford_ = true) :
    ptr_passes state graph buffer i =
      !state.target_is_settled (graph.edge_array_ (buffer.ptr + i)) := by
  simp [ptr_passes, hbf]

theorem put_ptr_calls_spec (calls : List PtrCall) :
    ∀ (node_ : List CommTarget) (t : Nat),
      (put_ptr_calls node_ calls).length = node_.length ∧
      (put_ptr_calls node_ calls)[t]? =
        (node_[t]?).map (fun node => { node with
          send_ptr := node.send_ptr ++
            (calls.filter (fun c => decide (c.target = t))).map
              (fun c => (⟨c.ptr, c.header, c.dist, c.length⟩ : PointerData)) }) := by
  induction calls with
  | nil =>
    intro node_ t
    refine ⟨rfl, ?_⟩
    simp only [put_ptr_calls, List.foldl_nil, List.filter_nil, List.map_nil, List.append_nil]
    cases node_[t]? <;> rfl
  | cons c cs ih =>
    intro node_ t
    have h := ih (put_ptr node_ c.ptr c.length c.header c.dist c.target) t
    simp only [put_ptr_calls, List.foldl_cons] at h ⊢
    refine ⟨by rw [h.1]; simp [put_ptr], ?_⟩
    rw [h.2, put_ptr, List.getElem?_modify]
    cases hn : node_[t]? with
    | none => rfl
    | some node =>
      by_cases hc : c.target = t
      · simp [hc, List.filter_cons]
      · simp [hc, List.filter_cons]


theorem words_memcpy_append (buf data : Nat → Nat) (n len : Nat) :
    words (memcpy buf n data len) 0 (n + len) = words buf 0 n ++ words data 0 len := by
  apply List.ext_getElem
  · simp [words]
  · intro i h1 h2
    simp only [words, List.length_map, List.length_range] at h1
    simp only [words, List.getElem_map, List.getElem_range, Nat.zero_add, memcpy,
      List.getElem_append, List.length_map, List.length_range]
    by_cases hi : i < n
    · simp [hi, Nat.not_le.2 hi]
    · have : n ≤ i := Nat.le_of_not_lt hi
      simp [hi, this, h1]

theorem PutInv_put {bs : Nat} {get_buffer : Nat → Nat} {node : CommTarget}
    {pre : List (List Nat)} {groups : List (List (List Nat))} {cur : List (List Nat)}
    (h : PutInv bs node pre groups cur) (c : Buffer) (hc : 0 < c.length ∧ c.length ≤ bs) :
    ∃ node' groups' cur', put bs get_buffer node c.ptr c.length = some node' ∧
      PutInv bs node' (pre ++ [buffer_words c]) groups' cur' := by
  obtain ⟨hc0, hcb⟩ := hc
  have hne : c.length ≠ 0 := Nat.pos_iff_ne_zero.1 hc0
  obtain ⟨⟨hrf, hfb⟩, hsplit, hq, hbound, hcur⟩ := h
  have h1 : ¬ node.reserved_size_ > bs := by omega
  have h2 : ¬ node.reserved_size_ ≠ node.filled_size_ := by simp [hrf]
  by_cases hsw : node.reserved_size_ + c.length > bs
  · -- the buffer is swapped
    cases hcb2 : node.cur_buf with
    | none =>
      rw [hcb2] at hcur
      simp only [put, hne, if_false, flush, hcb2, if_neg h1, if_pos hsw, if_neg h2]
      refine ⟨_, groups, [buffer_words c], rfl, ?_⟩
      · refine ⟨⟨by simp, by simpa using hcb⟩, ?_, hq, hbound, ?_⟩
        · rw [← hsplit, hcur.1]; simp
        · simp only [provider_add]
          refine ⟨?_, by simp⟩
          have := words_memcpy_append get_buffer c.ptr 0 c.length
          simpa [words_zero, buffer_words] using this
    | some buf =>
      rw [hcb2] at hcur
      simp only [put, hne, if_false, flush, hcb2, if_neg h1, if_pos hsw, if_neg h2]
      refine ⟨_, groups ++ [cur], [buffer_words c], rfl, ?_⟩
      · refine ⟨⟨by simp, by simpa using hcb⟩, ?_, ?_, ?_, ?_⟩
        · rw [← hsplit]; simp
        · simp [hq, buffer_words, hcur.1]
        · intro b hb
          simp only [List.mem_append, List.mem_singleton] at hb
          rcases hb with hb | hb
          · exact hbound b hb
          · rw [hb]; exact hfb
        · simp only [provider_add]
          refine ⟨?_, by simp⟩
          have := words_memcpy_append get_buffer c.ptr 0 c.length
          simpa [words_zero, buffer_words] using this
  · -- the payload goes into the current buffer
    cases hcb2 : node.cur_buf with
    | none =>
      rw [hcb2] at hcur
      omega
    | some buf =>
      rw [hcb2] at hcur
      simp only [put, hne, if_false, hcb2, if_neg h1, if_neg hsw]
      refine ⟨_, groups, cur ++ [buffer_words c], rfl, ?_⟩
      · refine ⟨⟨by simp [hrf], by simp only; omega⟩, ?_, hq, hbound, ?_⟩
        · rw [← hsplit]; simp
        · simp only [provider_add]
          refine ⟨?_, by simp⟩
          rw [hrf, words_memcpy_append, hcur.1]
          simp [buffer_words]

theorem PutInv_calls {bs : Nat} {get_buffer : Nat → Nat} (calls : List Buffer) :
    ∀ {node : CommTarget} {pre : List (List Nat)} {groups : List (List (List Nat))}
      {cur : List (List Nat)}, PutInv bs node pre groups cur →
      (∀ c ∈ calls, 0 < c.length ∧ c.length ≤ bs) →
      ∃ node' groups' cur', put_calls bs get_buffer node calls = some node' ∧
        PutInv bs node' (pre ++ calls.map buffer_words) groups' cur' := by
  induction calls with
  | nil =>
    intro node pre groups cur h _
    exact ⟨node, groups, cur, rfl, by simpa using h⟩
  | cons c cs ih =>
    intro node pre groups cur h hc
    obtain ⟨n1, g1, c1, hp, h1⟩ := @PutInv_put _ get_buffer _ _ _ _ h c
      (hc c (List.mem_cons_self _ _))
    obtain ⟨n2, g2, c2, hp2, h2⟩ := ih h1 (fun x hx => hc x (List.mem_cons_of_mem _ hx))
    refine ⟨n2, g2, c2, ?_, by simpa using h2⟩
    simp only [put_calls, hp, hp2]

theorem PutInv_prepare (bs : Nat) : PutInv bs (prepare bs new_target) [] [] [] :=
  ⟨⟨rfl, Nat.le_refl _⟩, rfl, rfl, by simp [prepare, new_target], ⟨rfl, rfl⟩⟩



theorem ptr_edge_pos_le (state : SsspState) (graph : Graph2DCSR) (buffer : PointerData)
    (st : MergeState) (i : Nat) :
    (ptr_edge state graph buffer st i).pos ≤
      st.pos + (if ptr_passes state graph buffer i then 2 else 0) := by
  rw [ptr_edge_eq]
  by_cases hp : ptr_passes state graph buffer i = true
  · simp only [hp, if_true]
    rcases ptr_dedup_put_emits st (ptr_candidate state graph buffer i).1
      (ptr_candidate state graph buffer i).2 with h | h
    · rw [h]; omega
    · rw [h.1]
  · simp [hp]

theorem ptr_edges_pos_le (state : SsspState) (graph : Graph2DCSR) (buffer : PointerData)
    (f : Nat → Nat → Nat)
    (hf : ∀ a i, a + (if ptr_passes state graph buffer i then 2 else 0) ≤ f a i)
    (l : List Nat) :
    ∀ (st : MergeState) (a : Nat), st.pos ≤ a →
      (l.foldl (ptr_edge state graph buffer) st).pos ≤ l.foldl f a := by
  induction l with
  | nil => intro st a h; exact h
  | cons i l ih =>
    intro st a h
    simp only [List.foldl_cons]
    apply ih
    have h1 := ptr_edge_pos_le state graph buffer st i
    have h2 := hf a i
    omega

theorem foldl_add_two (l : List Nat) : ∀ a : Nat, l.foldl (fun a _ => a + 2) a = a + 2 * l.length := by
  induction l with
  | nil => intro a; rfl
  | cons i l ih =>
    intro a
    simp only [List.foldl_cons, List.length_cons, ih]
    omega

/-- Outside the heavy phase with `NODE_SEND_COUNT_TYPE == 1`, a block of the estimate covers
the words `collect_targets_ptr` writes for the block. -/
theorem send_length_ptr_block_covers (T : Nat) (state : SsspState) (graph : Graph2DCSR)
    (h : T ≠ 1 ∨ state.is_bellman_ford_ = true ∨ state.is_light_phase_ = true)
    (st : MergeState) (n : Nat) (buffer : PointerData) (hn : st.pos ≤ n) :
    (collect_ptr_block state graph st buffer).pos ≤
      send_length_ptr_block T state graph n buffer := by
  unfold collect_ptr_block send_length_ptr_block
  by_cases hl : buffer.length = 0
  · simp only [hl, if_true]; exact hn
  · simp only [hl, if_false]
    cases hbf : state.is_bellman_ford_ with
    | true =>
      simp only [if_true]
      apply ptr_edges_pos_le
      · intro a i
        simp only [ptr_passes, hbf, if_true]
        cases state.target_is_settled (graph.edge_array_ (buffer.ptr + i)) <;> simp
      · show st.pos + 3 ≤ n + 3
        omega
    | false =>
      simp only [Bool.false_eq_true, if_false]
      cases hlp : state.is_light_phase_ with
      | true =>
        simp only [if_true]
        by_cases hT : T = 1
        · simp only [hT, if_true]
          apply ptr_edges_pos_le
          · intro a i
            simp only [ptr_passes, hbf, hlp, Bool.false_eq_true, if_false, if_true]
            cases (state.with_settled_ &&
                state.target_is_settled (graph.edge_array_ (buffer.ptr + i))) <;>
              cases f32ge (f32add (graph.edge_weight_array_ (buffer.ptr + i)) buffer.dist)
                state.bucket_upper <;> simp
          · show st.pos + 3 ≤ n + 3
            omega
        · simp only [hT, if_false]
          have := ptr_edges_pos_le state graph buffer (fun a _ => a + 2)
            (by intro a i; dsimp only; split <;> omega) (List.range buffer.length)
            { st with
              stream := upd (upd st.stream st.pos (buffer.header / 2 ^ 32 % 2 ^ 32))
                (st.pos + 1) (buffer.header % 2 ^ 32)
              pos := st.pos + 3 } (n + 3) (by show st.pos + 3 ≤ n + 3; omega)
          rw [foldl_add_two, List.length_range] at this
          exact this
      | false =>
        simp only [Bool.false_eq_true, if_false]
        have hT : T ≠ 1 := by
          rcases h with h | h | h
          · exact h
          · rw [hbf] at h; cases h
          · rw [hlp] at h; cases h
        apply ptr_edges_pos_le
        · intro a i
          simp only [hT, if_false]
          cases hws : (state.with_settled_ &&
              state.target_is_settled (graph.edge_array_ (buffer.ptr + i))) with
          | true =>
            have hp : ptr_passes state graph buffer i = false := by
              simp only [ptr_passes, hbf, hlp, Bool.false_eq_true, if_false, hws]
              rfl
            simp [hp]
          | false =>
            simp only [Bool.false_eq_true, if_false]
            split <;> omega
        · show st.pos + 3 ≤ n + 3
          omega

theorem send_length_ptr_covers (T : Nat) (state : SsspState) (graph : Graph2DCSR)
    (h : T ≠ 1 ∨ state.is_bellman_ford_ = true ∨ state.is_light_phase_ = true)
    (bufs : List PointerData) :
    ∀ (st : MergeState) (n : Nat), st.pos ≤ n →
      (bufs.foldl (collect_ptr_block state graph) st).pos ≤
        bufs.foldl (send_length_ptr_block T state graph) n := by
  induction bufs with
  | nil => intro st n hn; exact hn
  | cons b bs ih =>
    intro st n hn
    simp only [List.foldl_cons]
    exact ih _ _ (send_length_ptr_block_covers T state graph h st n b hn)


/-! ## The header words of the pointer expansion -/

theorem hdrPos_snoc (i k : Nat) (ks : List Nat) :
    hdrPos i (ks ++ [k]) = hdrPos i ks ++ [layEnd i ks] := by
  induction ks generalizing i with
  | nil => rfl
  | cons a ks ih => simp [hdrPos, layEnd, ih]

theorem hdrPos_bounds {i h : Nat} {ks : List Nat} (hh : h ∈ hdrPos i ks) :
    i ≤ h ∧ h + 3 ≤ layEnd i ks := by
  induction ks generalizing i with
  | nil => simp [hdrPos] at hh
  | cons a ks ih =>
    simp only [hdrPos, List.mem_cons] at hh
    simp only [layEnd]
    rcases hh with hh | hh
    · have := layEnd_ge (i + 3 + 2 * a) ks
      omega
    · have := ih hh
      omega

theorem hdrPos_not_weight {i h p : Nat} {ks : List Nat} (hh : h ∈ hdrPos i ks)
    (hp : p ∈ pairPos i ks) : h ≠ p + 1 ∧ h + 1 ≠ p + 1 := by
  induction ks generalizing i with
  | nil => simp [hdrPos] at hh
  | cons a ks ih =>
    simp only [hdrPos, List.mem_cons] at hh
    simp only [pairPos, List.mem_append] at hp
    rcases hh with hh | hh
    · rcases hp with hp | hp
      · have := rowPos_bounds hp
        omega
      · have := pairPos_bounds hp
        omega
    · rcases hp with hp | hp
      · have := rowPos_bounds hp
        have := hdrPos_bounds hh
        omega
      · exact ih hh hp

theorem readBlocks_headers (s : Stream) (i : Nat) (ks : List Nat) :
    (readBlocks s i ks).map (fun b => (b.1, b.2.1)) =
      (hdrPos i ks).map (fun h => (s h, s (h + 1))) := by
  induction ks generalizing i with
  | nil => rfl
  | cons a ks ih => simp [readBlocks, hdrPos, ih]

theorem ptr_dedup_put_frame {L : Nat} {st : MergeState} {ks : List Nat} {k : Nat}
    {C : List (Nat × Nat)} (h : EInv L st ks k C) {v : Nat} (w : Nat) (hv : v < L) {x : Nat}
    (hx : x < st.pos)
    (hxp : ∀ p ∈ pairPos 0 ks ++ rowPos (layEnd 0 ks + 3) k, x ≠ p + 1) :
    (ptr_dedup_put st v w).stream x = st.stream x := by
  unfold ptr_dedup_put
  by_cases hneg : st.vertices_pos v < 0
  · rw [if_pos hneg]
    simp only
    rw [upd_ne _ _ (by omega), upd_ne _ _ (by omega)]
  · rw [if_neg hneg]
    simp only
    obtain ⟨p0, hp0, h1, _, _⟩ := h.inv.alive v hv hneg
    have ht : (st.vertices_pos v).toNat = p0 := by rw [h1]; simp
    cases hlt : f32lt w (st.stream ((st.vertices_pos v).toNat + 1)) with
    | true =>
      simp only [if_true]
      have := hxp p0 hp0
      rw [upd_ne _ _ (by omega), upd_ne _ _ (by omega), upd_ne _ _ (by omega)]
    | false => simp

theorem ptr_edges_frame {L : Nat} (state : SsspState) (graph : Graph2DCSR)
    (buffer : PointerData) (n : Nat) {st : MergeState} {ks : List Nat} {k : Nat}
    {C : List (Nat × Nat)} (h : EInv L st ks k C)
    (hc : ∀ i, i < n → ptr_passes state graph buffer i = true →
      (ptr_candidate state graph buffer i).1 < L ∧
      (ptr_candidate state graph buffer i).2 ≠ get_sentinel)
    {x : Nat} (hx : x < layEnd 0 ks + 3) (hxp : ∀ p ∈ pairPos 0 ks, x ≠ p + 1) :
    ((List.range n).foldl (ptr_edge state graph buffer) st).stream x = st.stream x := by
  induction n with
  | zero => rfl
  | succ n ih =>
    obtain ⟨k1, h1⟩ := EInv_edges state graph buffer n h (fun i hi => hc i (by omega))
    rw [List.range_succ, List.foldl_append]
    simp only [List.foldl_cons, List.foldl_nil]
    rw [ptr_edge_eq]
    cases hp : ptr_passes state graph buffer n with
    | false =>
      simp only [Bool.false_eq_true, if_false]
      exact ih (fun i hi => hc i (by omega))
    | true =>
      simp only [if_true]
      rw [ptr_dedup_put_frame h1 _ (hc n (by omega) hp).1 (by rw [h1.pos]; omega)]
      · exact ih (fun i hi => hc i (by omega))
      · intro p hp
        rcases List.mem_append.1 hp with hp | hp
        · exact hxp p hp
        · have := rowPos_bounds hp
          omega

/-- One descriptor of non-zero length adds one block to the layout; its first two words are
the header words of the descriptor, and no word in front of the block changes except weight
words of earlier pairs. -/
theorem BInv_block_snoc {L : Nat} (state : SsspState) (graph : Graph2DCSR)
    (buffer : PointerData) {st : MergeState} {ks : List Nat} {C : List (Nat × Nat)}
    (h : BInv L st ks C)
    (hc : ∀ c ∈ block_candidates state graph buffer, c.1 < L ∧ c.2 ≠ get_sentinel)
    (h0 : buffer.length ≠ 0) :
    ∃ k, BInv L (collect_ptr_block state graph st buffer) (ks ++ [k])
        (C ++ block_candidates state graph buffer) ∧
      (collect_ptr_block state graph st buffer).stream (layEnd 0 ks) =
        (header_words buffer).1 ∧
      (collect_ptr_block state graph st buffer).stream (layEnd 0 ks + 1) =
        (header_words buffer).2 ∧
      ∀ x, x < layEnd 0 ks → (∀ p ∈ pairPos 0 ks, x ≠ p + 1) →
        (collect_ptr_block state graph st buffer).stream x = st.stream x := by
  have hcand : ∀ i, i < buffer.length → ptr_passes state graph buffer i = true →
      (ptr_candidate state graph buffer i).1 < L ∧
      (ptr_candidate state graph buffer i).2 ≠ get_sentinel := by
    intro i hi hp
    apply hc
    simp only [block_candidates, List.mem_map, List.mem_filter, List.mem_range]
    exact ⟨i, ⟨hi, hp⟩, rfl⟩
  have hpos := h.pos
  unfold collect_ptr_block
  rw [if_neg h0]
  have hE : EInv L ⟨upd (upd st.stream st.pos ((buffer.header / 2 ^ 32) % 2 ^ 32))
      (st.pos + 1) (buffer.header % 2 ^ 32), st.vertices_pos, st.pos + 3⟩ ks 0 C := by
    refine ⟨?_, ?_, ?_⟩
    · apply PtrLay_congr _ h.lay
      intro l hl
      have := lenPos_bounds hl
      simp only
      rw [upd_ne _ _ (by omega), upd_ne _ _ (by omega)]
    · simp only
      rw [h.pos]
    · simp only [rowPos, List.append_nil]
      apply DInv_frame h.inv
      intro p hp
      have := pairPos_bounds hp
      rw [upd_ne _ _ (by omega), upd_ne _ _ (by omega), upd_ne _ _ (by omega),
        upd_ne _ _ (by omega)]
      exact ⟨rfl, rfl⟩
  obtain ⟨k, hk⟩ := EInv_edges state graph buffer buffer.length hE hcand
  have hfr : ∀ x, x < layEnd 0 ks + 3 → (∀ p ∈ pairPos 0 ks, x ≠ p + 1) →
      ((List.range buffer.length).foldl (ptr_edge state graph buffer)
        ⟨upd (upd st.stream st.pos ((buffer.header / 2 ^ 32) % 2 ^ 32))
          (st.pos + 1) (buffer.header % 2 ^ 32), st.vertices_pos, st.pos + 3⟩).stream x =
      upd (upd st.stream st.pos ((buffer.header / 2 ^ 32) % 2 ^ 32))
          (st.pos + 1) (buffer.header % 2 ^ 32) x :=
    fun x hx hxp => ptr_edges_frame state graph buffer buffer.length hE hcand hx hxp
  have hnw : ∀ y, layEnd 0 ks ≤ y → ∀ p ∈ pairPos 0 ks, y ≠ p + 1 := by
    intro y hy p hp
    have := pairPos_bounds hp
    omega
  refine ⟨k, ⟨?_, ?_, ?_⟩, ?_, ?_, ?_⟩
  · simp only
    apply PtrLay_snoc
    · apply PtrLay_congr _ hk.lay
      intro l hl
      have := lenPos_bounds hl
      rw [upd_ne _ _ (by omega)]
    · rw [show st.pos + 3 - 1 = layEnd 0 ks + 2 by omega, upd_same, hk.pos, h.pos]
      omega
  · simp only
    rw [layEnd_snoc, hk.pos]
  · simp only
    rw [pairPos_snoc]
    apply DInv_frame hk.inv
    intro p hp
    rcases List.mem_append.1 hp with hp | hp
    · have := pairPos_bounds hp
      rw [upd_ne _ _ (by omega), upd_ne _ _ (by omega)]
      exact ⟨rfl, rfl⟩
    · have := rowPos_bounds hp
      rw [upd_ne _ _ (by omega), upd_ne _ _ (by omega)]
      exact ⟨rfl, rfl⟩
  · simp only
    rw [upd_ne _ _ (by omega), hfr _ (by omega) (hnw _ (Nat.le_refl _)),
      upd_ne _ _ (by omega), ← hpos, upd_same]
    rfl
  · simp only
    rw [upd_ne _ _ (by omega), hfr _ (by omega) (hnw _ (by omega)), ← hpos, upd_same]
    rfl
  · intro x hx hxp
    simp only
    rw [upd_ne _ _ (by omega), hfr x (by omega) hxp, upd_ne _ _ (by omega),
      upd_ne _ _ (by omega)]

/-- The header words of the blocks are the header words of the descriptors of non-zero length,
in queue order. -/
theorem BInv_blocks_headers {L : Nat} (state : SsspState) (graph : Graph2DCSR)
    (bufs : List PointerData) {st : MergeState} {ks : List Nat} {C : List (Nat × Nat)}
    (h : BInv L st ks C)
    (hc : ∀ b ∈ bufs, ∀ c ∈ block_candidates state graph b, c.1 < L ∧ c.2 ≠ get_sentinel) :
    ∃ ks', BInv L (bufs.foldl (collect_ptr_block state graph) st) ks'
        (C ++ bufs.flatMap (block_candidates state graph)) ∧
      (hdrPos 0 ks').map (fun h =>
          ((bufs.foldl (collect_ptr_block state graph) st).stream h,
            (bufs.foldl (collect_ptr_block state graph) st).stream (h + 1))) =
        (hdrPos 0 ks).map (fun h => (st.stream h, st.stream (h + 1))) ++
          (bufs.filter (fun b => decide (b.length ≠ 0))).map header_words := by
  induction bufs generalizing st ks C with
  | nil => exact ⟨ks, by simpa using h, by simp⟩
  | cons b bs ih =>
    by_cases h0 : b.length = 0
    · have hst : collect_ptr_block state graph st b = st := by
        simp [collect_ptr_block, h0]
      obtain ⟨ks2, h2, e2⟩ := ih h (fun b' hb' => hc b' (List.mem_cons_of_mem _ hb'))
      refine ⟨ks2, ?_, ?_⟩
      · simp only [List.foldl_cons, hst, List.flatMap_cons]
        have : block_candidates state graph b = [] := by simp [block_candidates, h0]
        rw [this]
        simpa using h2
      · simp only [List.foldl_cons, hst, List.filter_cons, h0]
        simpa using e2
    · obtain ⟨k, h1, e1, e1', f1⟩ :=
        BInv_block_snoc state graph b h (hc b (List.mem_cons_self _ _)) h0
      obtain ⟨ks2, h2, e2⟩ := ih h1 (fun b' hb' => hc b' (List.mem_cons_of_mem _ hb'))
      refine ⟨ks2, ?_, ?_⟩
      · simpa [List.flatMap_cons, List.append_assoc] using h2
      · simp only [List.foldl_cons]
        have hf : (b :: bs).filter (fun b => decide (b.length ≠ 0)) =
            b :: bs.filter (fun b => decide (b.length ≠ 0)) := by
          rw [List.filter_cons]
          simp [h0]
        rw [e2, hdrPos_snoc, List.map_append, hf]
        simp only [List.map_cons, List.map_nil, List.append_assoc, List.singleton_append]
        congr 1
        · apply List.map_congr_left
          intro hd hhd
          have hb := hdrPos_bounds hhd
          rw [f1 hd (by omega) (fun p hp => (hdrPos_not_weight hhd hp).1),
            f1 (hd + 1) (by omega) (fun p hp => (hdrPos_not_weight hhd hp).2)]
        · rw [e1, e1']

theorem header_flag_iff (h : Nat) :
    ((h / 2 ^ 32) % 2 ^ 32) &&& 0x80000000 ≠ 0 ↔ h.testBit 63 = true := by
  have e : (0x80000000 : Nat) = 2 ^ 31 := by norm_num
  rw [e, Nat.and_two_pow, Nat.testBit_mod_two_pow, ← Nat.shiftRight_eq_div_pow,
    Nat.testBit_shiftRight]
  cases h.testBit 63 <;> simp


/-! ## Header records in the output of `remove_sentinels_buffer` -/

theorem chain_dropHdr {racc : List (Nat × Nat)}
    (h : List.Chain' (fun a b => isPayload b = false → isPayload a = true) racc) :
    List.Chain' (fun a b => isPayload b = false → isPayload a = true) (dropHdr racc) ∧
    ∀ x ∈ (dropHdr racc).head?, isPayload x = true := by
  cases racc with
  | nil => simp [dropHdr]
  | cons x r =>
    simp only [dropHdr]
    by_cases hx : x.1 &&& 0x80000000 ≠ 0
    · rw [if_pos hx]
      refine ⟨h.tail, ?_⟩
      intro y hy
      have hxp : isPayload x = false := by simp [isPayload, hx]
      cases r with
      | nil => simp at hy
      | cons z r' =>
        simp only [List.head?_cons, Option.mem_def, Option.some.injEq] at hy
        subst hy
        have := List.chain'_cons.1 h
        by_contra hc
        have := this.1 (by simpa using hc)
        rw [hxp] at this
        cases this
    · rw [if_neg hx]
      refine ⟨h, ?_⟩
      intro y hy
      simp only [List.head?_cons, Option.mem_def, Option.some.injEq] at hy
      subst hy
      simpa [isPayload] using hx

theorem chain_compactTok {racc : List (Nat × Nat)} {tok : Option (Nat × Nat) × (Nat × Nat)}
    (h : List.Chain' (fun a b => isPayload b = false → isPayload a = true) racc)
    (hp : isPayload tok.2 = true) :
    List.Chain' (fun a b => isPayload b = false → isPayload a = true) (compactTok racc tok) := by
  have h1 : List.Chain' (fun a b => isPayload b = false → isPayload a = true)
      (match tok.1 with
        | some hd => hd :: dropHdr racc
        | none => racc) := by
    cases tok.1 with
    | none => exact h
    | some hd =>
      obtain ⟨hc, hh⟩ := chain_dropHdr h
      simp only
      apply List.Chain'.cons' hc
      intro y hy hyp
      have := hh y hy
      rw [this] at hyp
      cases hyp
  unfold compactTok
  simp only
  split
  · apply List.Chain'.cons' h1
    intro y _ _
    exact hp
  · exact h1

theorem chain_compactBuf (toks : List (Option (Nat × Nat) × (Nat × Nat))) :
    ∀ {racc : List (Nat × Nat)},
      List.Chain' (fun a b => isPayload b = false → isPayload a = true) racc →
      (∀ tok ∈ toks, isPayload tok.2 = true) →
      List.Chain' (fun a b => isPayload b = false → isPayload a = true)
        (compactBuf racc toks) := by
  induction toks with
  | nil => intro racc h _; exact h
  | cons tok toks ih =>
    intro racc h hp
    simp only [compactBuf, List.foldl_cons]
    exact ih (chain_compactTok h (hp tok (List.mem_cons_self _ _)))
      (fun t ht => hp t (List.mem_cons_of_mem _ ht))


/-! ## `run_ptr` without buffer data -/

theorem getD_zero_of_all_zero {l : List Nat} (h : ∀ x ∈ l, x = 0) (i : Nat) : l.getD i 0 = 0 := by
  rw [List.getD_eq_getElem?_getD]
  cases hi : l[i]? with
  | none => rfl
  | some x =>
    have := List.getElem?_mem hi
    simp [h x this]

theorem sum_zero_of_all_zero {l : List Nat} (h : ∀ x ∈ l, x = 0) : l.sum = 0 := by
  induction l with
  | nil => rfl
  | cons a l ih =>
    rw [List.sum_cons, h a (List.mem_cons_self _ _),
      ih (fun x hx => h x (List.mem_cons_of_mem _ hx))]

theorem run_ptr_count_step_zero (env : A2AEnv) (n_threads : Nat) (st : PtrRunState)
    (hl : ∀ x ∈ st.node_send_lengths, x = 0) (acc : PtrCount) (c : Nat)
    (h : (∀ x ∈ acc.counts, x = 0) ∧ (∀ t, acc.size_thread t = 0) ∧ acc.aborted = false) :
    (∀ x ∈ (run_ptr_count_step env n_threads st acc c).counts, x = 0) ∧
    (∀ t, (run_ptr_count_step env n_threads st acc c).size_thread t = 0) ∧
    (run_ptr_count_step env n_threads st acc c).aborted = false := by
  obtain ⟨h1, h2, h3⟩ := h
  have hset : ∀ i, ∀ x ∈ acc.counts.set i 0, x = 0 := by
    intro i x hx
    rcases List.mem_or_eq_of_mem_set hx with hx | hx
    · exact h1 x hx
    · exact hx
  have hlen := getD_zero_of_all_zero hl ((c + env.comm_rank) % env.comm_size_)
  unfold run_ptr_count_step
  simp only [h2, hlen]
  split
  · exact ⟨h1, h2, h3⟩
  · split
    · exact ⟨h1, h2, h3⟩
    · split
      · exact ⟨hset _, h2, h3⟩
      · refine ⟨?_, ?_, ?_⟩
        · simpa using hset _
        · intro t
          simp only [upd]
          split <;> simp [h2]
        · simp [h3]

theorem run_ptr_count_pass_zero (env : A2AEnv) (n_threads : Nat) (st : PtrRunState)
    (hl : ∀ x ∈ st.node_send_lengths, x = 0) :
    (∀ x ∈ (run_ptr_count_pass env n_threads st).counts, x = 0) ∧
    (run_ptr_count_pass env n_threads st).aborted = false := by
  have key : ∀ (l : List Nat) (acc : PtrCount),
      ((∀ x ∈ acc.counts, x = 0) ∧ (∀ t, acc.size_thread t = 0) ∧ acc.aborted = false) →
      ((∀ x ∈ (l.foldl (run_ptr_count_step env n_threads st) acc).counts, x = 0) ∧
        (∀ t, (l.foldl (run_ptr_count_step env n_threads st) acc).size_thread t = 0) ∧
        (l.foldl (run_ptr_count_step env n_threads st) acc).aborted = false) := by
    intro l
    induction l with
    | nil => intro acc h; exact h
    | cons c l ih =>
      intro acc h
      exact ih _ (run_ptr_count_step_zero env n_threads st hl acc c h)
  have := key (List.range env.comm_size_) ⟨List.replicate env.comm_size_ 0, fun _ => 0, false⟩
    ⟨fun x hx => (List.mem_replicate.1 hx).2, fun _ => rfl, rfl⟩
  exact ⟨this.1, this.2.2⟩

theorem run_ptr_expand_zero (env : A2AEnv) (graph : Graph2DCSR) (state : SsspState)
    (counts : List Nat) (hc : ∀ x ∈ counts, x = 0) (l : List Nat) :
    ∀ acc : PtrRunState × List Nat,
      l.foldl (run_ptr_expand_step env graph state counts) acc = acc := by
  induction l with
  | nil => intro acc; rfl
  | cons c l ih =>
    intro acc
    simp only [List.foldl_cons]
    have : run_ptr_expand_step env graph state counts acc c = acc := by
      unfold run_ptr_expand_step
      simp only []
      rw [if_pos (getD_zero_of_all_zero hc _)]
    rw [this, ih]

/-- Without queued buffer data `run_ptr` expands nothing: when no other rank reports data in
round 1, it returns in round 1 and every comm target is as it was on entry. -/
theorem run_ptr_no_buffer_data (env : A2AEnv) (n_threads : Nat) (graph : Graph2DCSR)
    (state : SsspState) (node_ : List CommTarget) (stream : Stream) (vertices_pos : VPos)
    (fuel : Nat) (hd : ∀ node ∈ node_, node.send_data = [])
    (ho : env.others_have_data 1 = false) :
    ∃ lens, run_ptr env n_threads graph state node_ stream vertices_pos (fuel + 2) =
      PtrRunOutcome.finished ⟨node_, lens, stream, vertices_pos⟩ 1 := by
  have hl : ∀ x ∈ node_.map (fun node =>
      if node.send_ptr.length = 0 then 0 else get_node_send_length_buffer node), x = 0 := by
    intro x hx
    obtain ⟨node, hn, rfl⟩ := List.mem_map.1 hx
    split
    · rfl
    · simp [get_node_send_length_buffer, hd node hn]
  refine ⟨node_.map (fun node =>
      if node.send_ptr.length = 0 then 0 else get_node_send_length_buffer node), ?_⟩
  unfold run_ptr
  generalize hst : (⟨node_, node_.map (fun node =>
      if node.send_ptr.length = 0 then 0 else get_node_send_length_buffer node), stream,
      vertices_pos⟩ : PtrRunState) = st
  have hl' : ∀ x ∈ st.node_send_lengths, x = 0 := by rw [← hst]; exact hl
  obtain ⟨hc, ha⟩ := run_ptr_count_pass_zero env n_threads st hl'
  have hsum := sum_zero_of_all_zero hc
  rw [run_ptr_loop]
  simp only [ha, Bool.false_eq_true, if_false, Nat.lt_irrefl, false_and,
    run_ptr_expand_zero env graph state _ hc]
  rw [run_ptr_loop]
  simp only [ha, Bool.false_eq_true, if_false, hsum, ho]
  simp


/-! ## The buffer-origin stream keeps the queue order -/

theorem ctb_body_other (graph : Graph2DCSR) (skip : Bool) (q : Nat) (st : Stream × VPos)
    {x : Nat} (hx : x ≠ q) :
    (ctb_body graph skip q st).1 x = st.1 x ∨ (ctb_body graph skip q st).1 x = get_sentinel := by
  unfold ctb_body
  simp only
  split
  · left; simp [upd_ne _ _ hx]
  · split
    · left; simp [upd_ne _ _ hx]
    · split
      · by_cases h : x = (st.2 (upd st.1 q (st.1 q &&& lmask graph) q)).toNat + 1
        · right; simp only [h, upd_same]
        · left; simp only [upd_ne _ _ h, upd_ne _ _ hx]
      · by_cases h : x = q + 1
        · right; simp only [h, upd_same]
        · left; simp only [upd_ne _ _ h, upd_ne _ _ hx]

theorem ctb_loop_mark (graph : Graph2DCSR) (skip : Bool) (stream_end : Nat) :
    ∀ (fuel j : Nat) (st : Stream × VPos) (x : Nat), x < j →
      (ctb_loop graph skip stream_end fuel j st).1 x = st.1 x ∨
      (ctb_loop graph skip stream_end fuel j st).1 x = get_sentinel := by
  intro fuel
  induction fuel with
  | zero => intro j st x _; left; rfl
  | succ f ih =>
    intro j st x hx
    simp only [ctb_loop]
    split
    · have hq : j ≤ (if st.1 j &&& 0x80000000 ≠ 0 then j + 2 else j) := by split <;> omega
      rcases ih ((if st.1 j &&& 0x80000000 ≠ 0 then j + 2 else j) + 2)
        (ctb_body graph skip (if st.1 j &&& 0x80000000 ≠ 0 then j + 2 else j) st) x
        (by omega) with h | h
      · rw [h]
        exact ctb_body_other graph skip _ st (by omega)
      · right; exact h
    · left; rfl

theorem compactTok_sublist (racc : List (Nat × Nat)) (tok : Tok) :
    (compactTok racc tok).reverse.Sublist (racc.reverse ++ tokLive tok) := by
  have hd : (dropHdr racc).reverse.Sublist racc.reverse := by
    cases racc with
    | nil => simp [dropHdr]
    | cons x r =>
      simp only [dropHdr]
      split
      · rw [List.reverse_cons]
        exact List.sublist_append_left _ _
      · exact List.Sublist.refl _
  unfold compactTok tokLive
  cases tok.1 with
  | none =>
    simp only [List.nil_append]
    split
    · simp
    · simp
  | some h =>
    simp only
    split
    · simp only [List.reverse_cons, List.append_assoc]
      exact List.Sublist.append hd (List.Sublist.refl _)
    · simp only [List.reverse_cons, List.append_nil]
      exact List.Sublist.append hd (List.Sublist.refl _)

theorem compactBuf_sublist (toks : List Tok) :
    ∀ racc : List (Nat × Nat),
      (compactBuf racc toks).reverse.Sublist (racc.reverse ++ toks.flatMap tokLive) := by
  induction toks with
  | nil => intro racc; simp [compactBuf]
  | cons tok toks ih =>
    intro racc
    simp only [compactBuf, List.foldl_cons, List.flatMap_cons]
    have h1 := ih (compactTok racc tok)
    simp only [compactBuf] at h1
    rw [← List.append_assoc]
    exact h1.trans (List.Sublist.append (compactTok_sublist racc tok) (List.Sublist.refl _))

theorem tokLive_sublist {graph : Graph2DCSR} {t t' : Tok} (h : TokRel graph t t') :
    (tokLive t').Sublist ((match t.1 with
      | some hd => [hd]
      | none => []) ++ [(t.2.1 &&& lmask graph, t.2.2)]) := by
  obtain ⟨h1, h2, h3⟩ := h
  unfold tokLive
  rw [h1]
  apply List.Sublist.append (List.Sublist.refl _)
  split
  · rename_i hl
    have hne : t'.2.2 ≠ get_sentinel := by simpa [live] using hl
    have h4 : t'.2.2 = t.2.2 := by
      rcases h3 with h3 | h3
      · exact h3
      · exact absurd h3 hne
    have : t'.2 = (t.2.1 &&& lmask graph, t.2.2) := Prod.ext h2 h4
    rw [this]
  · exact List.nil_sublist _

theorem flatMap_tokLive_sublist {graph : Graph2DCSR} {toks toks' : List Tok}
    (h : List.Forall₂ (TokRel graph) toks toks') :
    (toks'.flatMap tokLive).Sublist (toks.flatMap (fun t => (match t.1 with
      | some hd => [hd]
      | none => []) ++ [(t.2.1 &&& lmask graph, t.2.2)])) := by
  induction h with
  | nil => simp
  | cons hh _ ih =>
    simp only [List.flatMap_cons]
    exact List.Sublist.append (tokLive_sublist hh) ih

theorem toPairs_words_readToks (s : Stream) (hs : List Bool) :
    ∀ i : Nat, toPairs (words s i (bufEnd i hs - i)) = (readToks s i hs).flatMap tokAll := by
  induction hs with
  | nil => intro i; simp [bufEnd, words_zero, toPairs, readToks]
  | cons h hs ih =>
    intro i
    have hge := bufEnd_ge (i + (if h then 4 else 2)) hs
    simp only [bufEnd, readToks, List.flatMap_cons]
    cases h with
    | false =>
      simp only [Bool.false_eq_true, if_false] at hge ⊢
      rw [show bufEnd (i + 2) hs - i = (bufEnd (i + 2) hs - (i + 2)) + 1 + 1 by omega,
        words_succ, words_succ, toPairs, show i + 1 + 1 = i + 2 by omega, ih (i + 2)]
      simp [tokAll]
    | true =>
      simp only [if_true] at hge ⊢
      rw [show bufEnd (i + 4) hs - i = (bufEnd (i + 4) hs - (i + 4)) + 1 + 1 + 1 + 1 by omega,
        words_succ, words_succ, words_succ, words_succ, toPairs, toPairs,
        show i + 1 + 1 + 1 + 1 = i + 4 by omega, ih (i + 4)]
      simp [tokAll, show i + 1 + 1 = i + 2 by omega, show i + 2 + 1 = i + 1 + 1 + 1 by omega]

theorem masked_pairs_readToks (graph : Graph2DCSR) {s : Stream} {i : Nat} {hs : List Bool}
    (hlay : BufLay s i hs) :
    masked_pairs graph (words s i (bufEnd i hs - i)) =
      (readToks s i hs).flatMap (fun t => (match t.1 with
        | some hd => [hd]
        | none => []) ++ [(t.2.1 &&& lmask graph, t.2.2)]) := by
  rw [masked_pairs, toPairs_words_readToks, List.flatMap_def, List.flatMap_def,
    List.map_flatten, List.map_map]
  congr 1
  apply List.map_congr_left
  intro t ht
  obtain ⟨hp, hh⟩ := readToks_flags hlay t ht
  simp only [Function.comp, tokAll, List.map_append, List.map_cons, List.map_nil]
  congr 1
  · cases h1 : t.1 with
    | none => rfl
    | some hd =>
      simp only [List.map_cons, List.map_nil, mask_pair, hh hd h1, Bool.false_eq_true, if_false]
  · simp [mask_pair, hp]

/-- The dedup pass of `collect_targets_buffer`, token by token: headers stay, payload vertex
words are masked, payload weights stay or become the sentinel. -/
theorem ctb_loop_toks {L : Nat} (graph : Graph2DCSR) (stream_end : Nat) (hs : List Bool) :
    ∀ (fuel j : Nat) (s : Stream) (vp : VPos) (P : List Nat) (C : List (Nat × Nat)),
      BufLay s j hs → bufEnd j hs = stream_end → hs.length ≤ fuel → DInv L s vp P C →
      (∀ p ∈ P, p + 2 ≤ j) →
      (∀ p ∈ bufPos j hs, s p &&& lmask graph < L ∧ s (p + 1) ≠ get_sentinel) →
      List.Forall₂ (TokRel graph) (readToks s j hs)
        (readToks (ctb_loop graph false stream_end fuel j (s, vp)).1 j hs) := by
  induction hs with
  | nil =>
    intro fuel j s vp P C _ _ _ _ _ _
    simp only [readToks]
    exact List.Forall₂.nil
  | cons h hs ih =>
    intro fuel j s vp P C hlay hend hfuel hD hP hpay
    obtain ⟨f, rfl⟩ : ∃ f, fuel = f + 1 := ⟨fuel - 1, by simp at hfuel; omega⟩
    simp only [BufLay] at hlay
    simp only [bufEnd] at hend
    have hge := bufEnd_ge (j + (if h then 4 else 2)) hs
    have hj : j < stream_end := by
      cases h
      · simp only [Bool.false_eq_true, if_false] at hge hend
        omega
      · simp only [if_true] at hge hend
        omega
    have hqe : (if s j &&& 0x80000000 ≠ 0 then j + 2 else j) = (if h then j + 2 else j) := by
      cases h
      · simp only [Bool.false_eq_true, if_false] at hlay ⊢
        rw [if_neg (by simp [hlay.1])]
      · simp only [if_true] at hlay ⊢
        rw [if_pos hlay.1.1]
    have hloop : ctb_loop graph false stream_end (f + 1) j (s, vp) =
        ctb_loop graph false stream_end f ((if h then j + 2 else j) + 2)
          (ctb_body graph false (if h then j + 2 else j) (s, vp)) := by
      simp only [ctb_loop, if_pos hj, hqe]
    rw [hloop]
    simp only [readToks]
    generalize hq : (if h then j + 2 else j) = q at *
    have hqj : j ≤ q ∧ q + 2 = j + (if h then 4 else 2) := by
      cases h <;> simp at hq ⊢ <;> omega
    have hPq : ∀ p ∈ P, p + 2 ≤ q := fun p hp => by
      have := hP p hp
      omega
    simp only [bufPos, hq, List.mem_cons, forall_eq_or_imp] at hpay
    obtain ⟨b1, b2, b3, b4⟩ := ctb_body_spec graph hD hPq hpay.1.1 hpay.1.2
    have hmark := ctb_loop_mark graph false stream_end f (q + 2)
      (ctb_body graph false q (s, vp)) (q + 1) (by omega)
    generalize hbody : ctb_body graph false q (s, vp) = r0 at b1 b2 b3 b4 hmark
    obtain ⟨s', vp'⟩ := r0
    simp only at b1 b2 b3 b4 hmark
    rw [← hqj.2] at hend hge hlay hpay ⊢
    have hag : ∀ x, q + 2 ≤ x → s' x = s x := by
      intro x hx
      apply b2 x (by omega) (by omega)
      intro p hp
      have := hP p hp
      omega
    have hlay' : BufLay s' (q + 2) hs := BufLay_congr hag hlay.2
    have hagP : ∀ p ∈ bufPos (q + 2) hs, s' p = s p ∧ s' (p + 1) = s (p + 1) := by
      intro p hp
      have := bufPos_bounds hp
      exact ⟨hag p (by omega), hag (p + 1) (by omega)⟩
    have hP' : ∀ p ∈ P ++ [q], p + 2 ≤ q + 2 := by
      intro p hp
      rcases List.mem_append.1 hp with hp | hp
      · have := hP p hp
        omega
      · simp only [List.mem_singleton] at hp
        omega
    have hpay' : ∀ p ∈ bufPos (q + 2) hs,
        s' p &&& lmask graph < L ∧ s' (p + 1) ≠ get_sentinel := by
      intro p hp
      rw [(hagP p hp).1, (hagP p hp).2]
      exact hpay.2 p hp
    have i0 := ih f (q + 2) s' vp' (P ++ [q]) (C ++ [(s q &&& lmask graph, s (q + 1))]) hlay'
      hend (by simp at hfuel; omega) b1 hP' hpay'
    obtain ⟨_, _, i3, _⟩ := ctb_loop_spec (L := L) graph stream_end hs f (q + 2) s' vp'
      (P ++ [q]) (C ++ [(s q &&& lmask graph, s (q + 1))]) hlay' hend
      (by simp at hfuel; omega) b1 hP' hpay'
    rw [readToks_congr hag] at i0
    generalize hr : ctb_loop graph false stream_end f (q + 2) (s', vp') = r at i0 i3 hmark
    have hfr : ∀ x, x < q + 2 → x ≠ q + 1 → (∀ p ∈ P, x ≠ p + 1) → r.1 x = s' x := by
      intro x hx hx1 hxp
      apply i3 x hx
      intro p hp
      rcases List.mem_append.1 hp with hp | hp
      · exact hxp p hp
      · simp only [List.mem_singleton] at hp
        subst hp
        exact hx1
    have hPj : ∀ x, j ≤ x → ∀ p ∈ P, x ≠ p + 1 := by
      intro x hx p hp
      have := hP p hp
      omega
    refine List.Forall₂.cons ⟨?_, ?_, ?_⟩ i0
    · cases h
      · rfl
      · simp only [if_true] at hq ⊢
        subst hq
        rw [hfr j (by omega) (by omega) (hPj j (Nat.le_refl _)),
          hfr (j + 1) (by omega) (by omega) (hPj (j + 1) (by omega)),
          b2 j (by omega) (by omega) (hPj j (Nat.le_refl _)),
          b2 (j + 1) (by omega) (by omega) (hPj (j + 1) (by omega))]
    · show r.1 q = s q &&& lmask graph
      rw [hfr q (by omega) (by omega) (hPj q hqj.1), b3]
    · show r.1 (q + 1) = s (q + 1) ∨ r.1 (q + 1) = get_sentinel
      rcases hmark with hm | hm
      · rw [hm]
        exact b4
      · right; exact hm

/-- The pass of `collect_targets_buffer` with the dedup skipped: headers and weights stay,
payload vertex words are masked. -/
theorem ctb_loop_toks_skip (graph : Graph2DCSR) (stream_end : Nat) (hs : List Bool) :
    ∀ (fuel j : Nat) (s : Stream) (vp : VPos),
      BufLay s j hs → bufEnd j hs = stream_end → hs.length ≤ fuel →
      BufLay (ctb_loop graph true stream_end fuel j (s, vp)).1 j hs ∧
      List.Forall₂ (fun t t' : Tok => t'.1 = t.1 ∧ t'.2 = (t.2.1 &&& lmask graph, t.2.2))
        (readToks s j hs) (readToks (ctb_loop graph true stream_end fuel j (s, vp)).1 j hs) ∧
      (∀ x, stream_end ≤ x → (ctb_loop graph true stream_end fuel j (s, vp)).1 x = s x) := by
  induction hs with
  | nil =>
    intro fuel j s vp _ hend _
    simp only [bufEnd] at hend
    have hloop : ctb_loop graph true stream_end fuel j (s, vp) = (s, vp) := by
      cases fuel with
      | zero => simp [ctb_loop]
      | succ f => simp [ctb_loop, hend]
    rw [hloop]
    exact ⟨trivial, List.Forall₂.nil, fun _ _ => rfl⟩
  | cons h hs ih =>
    intro fuel j s vp hlay hend hfuel
    obtain ⟨f, rfl⟩ : ∃ f, fuel = f + 1 := ⟨fuel - 1, by simp at hfuel; omega⟩
    simp only [BufLay] at hlay
    simp only [bufEnd] at hend
    have hge := bufEnd_ge (j + (if h then 4 else 2)) hs
    have hj : j < stream_end := by
      cases h
      · simp only [Bool.false_eq_true, if_false] at hge hend
        omega
      · simp only [if_true] at hge hend
        omega
    have hqe : (if s j &&& 0x80000000 ≠ 0 then j + 2 else j) = (if h then j + 2 else j) := by
      cases h
      · simp only [Bool.false_eq_true, if_false] at hlay ⊢
        rw [if_neg (by simp [hlay.1])]
      · simp only [if_true] at hlay ⊢
        rw [if_pos hlay.1.1]
    have hbody : ∀ q, ctb_body graph true q (s, vp) = (upd s q (s q &&& lmask graph), vp) := by
      intro q
      simp [ctb_body]
    have hloop : ctb_loop graph true stream_end (f + 1) j (s, vp) =
        ctb_loop graph true stream_end f ((if h then j + 2 else j) + 2)
          (upd s (if h then j + 2 else j) (s (if h then j + 2 else j) &&& lmask graph), vp) := by
      simp only [ctb_loop, if_pos hj, hqe, hbody]
    rw [hloop]
    simp only [readToks, BufLay]
    generalize hq : (if h then j + 2 else j) = q at *
    have hqj : j ≤ q ∧ q + 2 = j + (if h then 4 else 2) := by
      cases h <;> simp at hq ⊢ <;> omega
    rw [← hqj.2] at hend hge hlay ⊢
    have hag : ∀ x, q + 2 ≤ x → upd s q (s q &&& lmask graph) x = s x := by
      intro x hx
      rw [upd_ne _ _ (by omega)]
    have hlay' : BufLay (upd s q (s q &&& lmask graph)) (q + 2) hs := BufLay_congr hag hlay.2
    obtain ⟨i1, i2, i3⟩ := ih f (q + 2) (upd s q (s q &&& lmask graph)) vp hlay' hend
      (by simp at hfuel; omega)
    have i4 := (ctb_loop_skip graph stream_end f (q + 2) (upd s q (s q &&& lmask graph), vp)).2
    rw [readToks_congr hag] at i2
    generalize hr : ctb_loop graph true stream_end f (q + 2)
      (upd s q (s q &&& lmask graph), vp) = r at i1 i2 i3 i4
    simp only at i4
    have hrq : r.1 q = s q &&& lmask graph := by rw [i4 q (by omega), upd_same]
    have hrx : ∀ x, x < q + 2 → x ≠ q → r.1 x = s x := by
      intro x hx hne
      rw [i4 x hx, upd_ne _ _ hne]
    refine ⟨⟨?_, i1⟩, List.Forall₂.cons ⟨?_, ?_⟩ i2, ?_⟩
    · cases h
      · simp only [Bool.false_eq_true, if_false] at hq hlay ⊢
        subst hq
        rw [hrq]
        exact land_flag_of_land _ _ hlay.1
      · simp only [if_true] at hq hlay ⊢
        subst hq
        rw [hrx j (by omega) (by omega), hrq]
        exact ⟨hlay.1.1, land_flag_of_land _ _ hlay.1.2⟩
    · cases h
      · rfl
      · simp only [if_true] at hq ⊢
        subst hq
        rw [hrx j (by omega) (by omega), hrx (j + 1) (by omega) (by omega)]
    · show (r.1 q, r.1 (q + 1)) = (s q &&& lmask graph, s (q + 1))
      rw [hrq, hrx (q + 1) (by omega) (by omega)]
    · intro x hx
      rw [i3 x hx]
      exact hag x (by omega)

/-- `collect_targets_buffer` with the dedup pass: the tokens it leaves, without the
sentinel-marked payload pairs, are a subsequence of the queued pairs with masked payload
vertices. -/
theorem collect_targets_buffer_order {L : Nat} (SKIP_FILTERING : Bool) (node : CommTarget)
    (graph : Graph2DCSR) (state : SsspState) (off : Nat) (s : Stream) (vp : VPos)
    (P : List Nat) (C : List (Nat × Nat))
    (hskip : (SKIP_FILTERING && state.is_presolving_mode_) = false)
    (hwf : wellFormedBuf (queued_words node) = true) (hD : DInv L s vp P C)
    (hP : ∀ p ∈ P, p + 2 ≤ off) (hbnd : ∀ c ∈ buffer_candidates node graph, c.1 < L) :
    ∃ hs,
      (collect_targets_buffer SKIP_FILTERING node graph state off s vp).pos =
        (queued_words node).length ∧
      bufEnd off hs = off + (queued_words node).length ∧
      BufLay (collect_targets_buffer SKIP_FILTERING node graph state off s vp).stream off hs ∧
      ((readToks (collect_targets_buffer SKIP_FILTERING node graph state off s vp).stream off
        hs).flatMap tokLive).Sublist (masked_pairs graph (queued_words node)) := by
  obtain ⟨c1, c2, c3⟩ := ctb_copy_spec node.send_data s off
  change _ = off + (queued_words node).length at c1
  change words _ off (queued_words node).length = queued_words node at c2
  obtain ⟨hs, l1, l2, l3, l4⟩ := wellFormed_layout _ (queued_words node) (Nat.le_refl _) hwf
    (node.send_data.foldl ctb_copy_step (s, off)).1 off c2
  have hD' : DInv L (node.send_data.foldl ctb_copy_step (s, off)).1 vp P C := by
    apply DInv_frame hD
    intro p hp
    have := hP p hp
    exact ⟨c3 p (by omega), c3 (p + 1) (by omega)⟩
  have hcand : buf_candidates graph (node.send_data.foldl ctb_copy_step (s, off)).1
      (bufPos off hs) = buffer_candidates node graph := by
    rw [buf_candidates_eq, l3]
    rfl
  have hlen : hs.length ≤ (queued_words node).length := by
    have := bufEnd_ge off hs
    omega
  have hpay : ∀ p ∈ bufPos off hs,
      (node.send_data.foldl ctb_copy_step (s, off)).1 p &&& lmask graph < L ∧
      (node.send_data.foldl ctb_copy_step (s, off)).1 (p + 1) ≠ get_sentinel := by
    intro p hp
    refine ⟨?_, l4 p hp⟩
    exact hbnd (_, _) (by
      rw [← hcand]
      simp only [buf_candidates, List.mem_map]
      exact ⟨p, hp, rfl⟩)
  obtain ⟨r1, _, _, _⟩ := ctb_loop_spec (L := L) graph (off + (queued_words node).length) hs
    (queued_words node).length off _ vp P C l1 l2 hlen hD' hP hpay
  have r5 := ctb_loop_toks (L := L) graph (off + (queued_words node).length) hs
    (queued_words node).length off _ vp P C l1 l2 hlen hD' hP hpay
  have hm := masked_pairs_readToks graph l1
  rw [l2, Nat.add_sub_cancel_left, c2] at hm
  refine ⟨hs, ?_, l2, ?_, ?_⟩
  · simp only [collect_targets_buffer, c1]
    omega
  · simp only [collect_targets_buffer, hskip, c1, Nat.add_sub_cancel_left]
    exact r1
  · simp only [collect_targets_buffer, hskip, c1, Nat.add_sub_cancel_left]
    rw [hm]
    exact flatMap_tokLive_sublist r5

theorem forall₂_strong_TokRel {graph : Graph2DCSR} {toks toks' : List Tok}
    (h : List.Forall₂ (fun t t' : Tok => t'.1 = t.1 ∧ t'.2 = (t.2.1 &&& lmask graph, t.2.2))
      toks toks') :
    List.Forall₂ (TokRel graph) toks toks' ∧
    toks'.map Prod.snd = (toks.map Prod.snd).map (fun p => (p.1 &&& lmask graph, p.2)) := by
  induction h with
  | nil => exact ⟨List.Forall₂.nil, rfl⟩
  | cons hh _ ih =>
    refine ⟨List.Forall₂.cons ⟨hh.1, ?_, ?_⟩ ih.1, ?_⟩
    · rw [hh.2]
    · left; rw [hh.2]
    · simp only [List.map_cons, ih.2, hh.2]

/-- `collect_targets_buffer` with the dedup pass skipped: the stream is laid out in tokens, the
scratch and the words in front of `stream_offset` are untouched, and the payload pairs are the
queued payload pairs with masked vertices, all of them. -/
theorem collect_targets_buffer_skip_order (SKIP_FILTERING : Bool) (node : CommTarget)
    (graph : Graph2DCSR) (state : SsspState) (off : Nat) (s : Stream) (vp : VPos)
    (hskip : (SKIP_FILTERING && state.is_presolving_mode_) = true)
    (hwf : wellFormedBuf (queued_words node) = true) :
    ∃ hs,
      (collect_targets_buffer SKIP_FILTERING node graph state off s vp).pos =
        (queued_words node).length ∧
      bufEnd off hs = off + (queued_words node).length ∧
      BufLay (collect_targets_buffer SKIP_FILTERING node graph state off s vp).stream off hs ∧
      ((readToks (collect_targets_buffer SKIP_FILTERING node graph state off s vp).stream off
        hs).flatMap tokLive).Sublist (masked_pairs graph (queued_words node)) ∧
      livePairs (collect_targets_buffer SKIP_FILTERING node graph state off s vp).stream
        (bufPos off hs) = buffer_candidates node graph := by
  obtain ⟨c1, c2, c3⟩ := ctb_copy_spec node.send_data s off
  change _ = off + (queued_words node).length at c1
  change words _ off (queued_words node).length = queued_words node at c2
  obtain ⟨hs, l1, l2, l3, l4⟩ := wellFormed_layout _ (queued_words node) (Nat.le_refl _) hwf
    (node.send_data.foldl ctb_copy_step (s, off)).1 off c2
  have hlen : hs.length ≤ (queued_words node).length := by
    have := bufEnd_ge off hs
    omega
  obtain ⟨r1, r2, _⟩ := ctb_loop_toks_skip graph (off + (queued_words node).length) hs
    (queued_words node).length off _ vp l1 l2 hlen
  obtain ⟨r3, r4⟩ := forall₂_strong_TokRel r2
  have hm := masked_pairs_readToks graph l1
  rw [l2, Nat.add_sub_cancel_left, c2] at hm
  refine ⟨hs, ?_, l2, ?_, ?_, ?_⟩
  · simp only [collect_targets_buffer, c1]
    omega
  · simp only [collect_targets_buffer, hskip, c1, Nat.add_sub_cancel_left]
    exact r1
  · simp only [collect_targets_buffer, hskip, c1, Nat.add_sub_cancel_left]
    rw [hm]
    exact flatMap_tokLive_sublist r3
  · simp only [collect_targets_buffer, hskip, c1, Nat.add_sub_cancel_left]
    rw [livePairs, ← readToks_payload, r4, readToks_payload, l3]
    have hall : ∀ x ∈ (payloadPairs (queued_words node)).map
        (fun p => (p.1 &&& lmask graph, p.2)), live x = true := by
      intro x hx
      obtain ⟨p, hp, rfl⟩ := List.mem_map.1 hx
      rw [← l3] at hp
      simp only [readPairs, List.mem_map] at hp
      obtain ⟨q, hq, rfl⟩ := hp
      simpa [live] using l4 q hq
    rw [List.filter_eq_self.2 hall]
    rfl


/-! ## Layout of a destination slab of `run_with_both` -/

theorem collect_targets_buffer_mark (SKIP_FILTERING : Bool) (node : CommTarget)
    (graph : Graph2DCSR) (state : SsspState) (off : Nat) (s : Stream) (vp : VPos) {x : Nat}
    (hx : x < off) :
    (collect_targets_buffer SKIP_FILTERING node graph state off s vp).stream x = s x ∨
    (collect_targets_buffer SKIP_FILTERING node graph state off s vp).stream x =
      get_sentinel := by
  obtain ⟨_, _, c3⟩ := ctb_copy_spec node.send_data s off
  have := ctb_loop_mark graph (SKIP_FILTERING && state.is_presolving_mode_)
    (node.send_data.foldl ctb_copy_step (s, off)).2
    ((node.send_data.foldl ctb_copy_step (s, off)).2 - off) off
    ((node.send_data.foldl ctb_copy_step (s, off)).1, vp) x hx
  simp only [collect_targets_buffer]
  rw [c3 x hx] at this
  exact this

theorem livePairs_of_mark {s t : Stream} {P : List Nat}
    (h : ∀ p ∈ P, t p = s p ∧ (t (p + 1) = s (p + 1) ∨ t (p + 1) = get_sentinel)) :
    ∀ x ∈ livePairs t P, x ∈ livePairs s P := by
  intro x hx
  obtain ⟨p, hp, hl, rfl⟩ := mem_livePairs.1 hx
  obtain ⟨h1, h2⟩ := h p hp
  have h3 : t (p + 1) = s (p + 1) := by
    rcases h2 with h2 | h2
    · exact h2
    · exact absurd h2 hl
  exact mem_livePairs.2 ⟨p, hp, by rw [← h3]; exact hl, by rw [h1, h3]⟩

theorem tokLive_payload {s : Stream} {i : Nat} {hs : List Bool} (hlay : BufLay s i hs) :
    ((readToks s i hs).flatMap tokLive).filter isPayload = livePairs s (bufPos i hs) := by
  rw [livePairs, ← readToks_payload]
  have hf := readToks_flags hlay
  generalize readToks s i hs = toks at hf
  induction toks with
  | nil => rfl
  | cons t toks ih =>
    obtain ⟨hp, hh⟩ := hf t (List.mem_cons_self _ _)
    simp only [List.flatMap_cons, List.filter_append, List.map_cons, List.filter_cons]
    rw [ih (fun t' ht' => hf t' (List.mem_cons_of_mem _ ht'))]
    unfold tokLive
    rw [List.filter_append]
    have h1 : (match t.1 with
        | some h => [h]
        | none => []).filter isPayload = [] := by
      cases h1 : t.1 with
      | none => rfl
      | some hd => simp [hh hd h1]
    rw [h1, List.nil_append]
    by_cases hl : live t.2 = true
    · simp [hl, hp]
    · simp [hl]

theorem masked_pairs_payload (graph : Graph2DCSR) (l : List Nat) :
    (masked_pairs graph l).filter isPayload =
      (payloadPairs l).map (fun p => (p.1 &&& lmask graph, p.2)) := by
  unfold masked_pairs payloadPairs
  generalize toPairs l = ps
  induction ps with
  | nil => rfl
  | cons p ps ih =>
    simp only [List.map_cons, List.filter_cons]
    by_cases hp : isPayload p = true
    · have hm : mask_pair graph p = (p.1 &&& lmask graph, p.2) := by simp [mask_pair, hp]
      have hp2 : isPayload (p.1 &&& lmask graph, p.2) = true := by
        simp only [isPayload, decide_eq_true_eq] at hp ⊢
        exact land_flag_of_land _ _ hp
      simp only [hm, hp2, hp, if_true, List.map_cons, ih]
    · have hm : mask_pair graph p = p := by simp [mask_pair, hp]
      simp only [hm, hp, if_false, ih, Bool.false_eq_true]

/-- The two compaction calls on a slab that holds pointer blocks followed by buffer tokens:
the pointer part is rewritten in place as an encoding of blocks, the buffer part is moved
directly behind it. -/
theorem merge_layout_stages (graph : Graph2DCSR) (ks : List Nat) (hs : List Bool)
    (b : MergeState) (hlay : PtrLay b.stream 0 ks) (hbuf : BufLay b.stream (layEnd 0 ks) hs) :
    ∃ out : List (Nat × Nat),
      words (remove_sentinels_ptr graph (layEnd 0 ks) b.stream b.vertices_pos).stream 0
          (remove_sentinels_ptr graph (layEnd 0 ks) b.stream b.vertices_pos).pos =
        encodePtr (compactPtr (readBlocks b.stream 0 ks)) ∧
      words (remove_sentinels_buffer graph (layEnd 0 ks)
          (remove_sentinels_ptr graph (layEnd 0 ks) b.stream b.vertices_pos).pos
          (bufEnd (layEnd 0 ks) hs - layEnd 0 ks)
          (remove_sentinels_ptr graph (layEnd 0 ks) b.stream b.vertices_pos).stream
          (remove_sentinels_ptr graph (layEnd 0 ks) b.stream b.vertices_pos).vertices_pos).stream
          0 (remove_sentinels_ptr graph (layEnd 0 ks) b.stream b.vertices_pos).pos =
        encodePtr (compactPtr (readBlocks b.stream 0 ks)) ∧
      words (remove_sentinels_buffer graph (layEnd 0 ks)
          (remove_sentinels_ptr graph (layEnd 0 ks) b.stream b.vertices_pos).pos
          (bufEnd (layEnd 0 ks) hs - layEnd 0 ks)
          (remove_sentinels_ptr graph (layEnd 0 ks) b.stream b.vertices_pos).stream
          (remove_sentinels_ptr graph (layEnd 0 ks) b.stream b.vertices_pos).vertices_pos).stream
          (remove_sentinels_ptr graph (layEnd 0 ks) b.stream b.vertices_pos).pos
          (remove_sentinels_buffer graph (layEnd 0 ks)
            (remove_sentinels_ptr graph (layEnd 0 ks) b.stream b.vertices_pos).pos
            (bufEnd (layEnd 0 ks) hs - layEnd 0 ks)
            (remove_sentinels_ptr graph (layEnd 0 ks) b.stream b.vertices_pos).stream
            (remove_sentinels_ptr graph (layEnd 0 ks) b.stream b.vertices_pos).vertices_pos).pos =
        flattenPairs out ∧
      blockPairs (compactPtr (readBlocks b.stream 0 ks)) = livePairs b.stream (pairPos 0 ks) ∧
      out.filter isPayload = livePairs b.stream (bufPos (layEnd 0 ks) hs) := by
  obtain ⟨p1, p2, p3, p4⟩ := remove_sentinels_ptr_spec graph ks b.stream b.vertices_pos hlay
  generalize remove_sentinels_ptr graph (layEnd 0 ks) b.stream b.vertices_pos = c at *
  have hle : c.pos ≤ layEnd 0 ks := by
    have := encodePtr_compact_length_le b.stream 0 ks
    omega
  have hbuf' : BufLay c.stream (layEnd 0 ks) hs := BufLay_congr p3 hbuf
  obtain ⟨out, _, q1, q2, q3, q4, q5⟩ := remove_sentinels_buffer_spec graph (layEnd 0 ks) c.pos
    hs c.stream c.vertices_pos hbuf' hle
  generalize remove_sentinels_buffer graph (layEnd 0 ks) c.pos
    (bufEnd (layEnd 0 ks) hs - layEnd 0 ks) c.stream c.vertices_pos = d at *
  have hlive : livePairs c.stream (bufPos (layEnd 0 ks) hs) =
      livePairs b.stream (bufPos (layEnd 0 ks) hs) := by
    apply livePairs_congr
    intro p hp
    have := bufPos_bounds hp
    exact ⟨p3 p (by omega), p3 (p + 1) (by omega)⟩
  rw [hlive] at q3
  refine ⟨out, p2, ?_, q2, ?_, q3⟩
  · rw [← p2]
    apply words_congr
    intro x _ hx
    exact q4 x (by omega)
  · rw [blockPairs_compactPtr, blockPairs_readBlocks]
    rfl

/-- `collect_targets_buffer`, dedup pass run or skipped: the copied words are laid out in
tokens, the payload pairs that are not sentinel-marked are queued payload pairs with masked
vertex, and in front of `stream_offset` only weight words of earlier pairs change. -/
theorem collect_targets_buffer_lay {L : Nat} (SKIP_FILTERING : Bool) (node : CommTarget)
    (graph : Graph2DCSR) (state : SsspState) (off : Nat) (s : Stream) (vp : VPos)
    (P : List Nat) (C : List (Nat × Nat))
    (hwf : wellFormedBuf (queued_words node) = true) (hD : DInv L s vp P C)
    (hP : ∀ p ∈ P, p + 2 ≤ off) (hbnd : ∀ c ∈ buffer_candidates node graph, c.1 < L) :
    ∃ hs,
      (collect_targets_buffer SKIP_FILTERING node graph state off s vp).pos =
        (queued_words node).length ∧
      bufEnd off hs = off + (queued_words node).length ∧
      BufLay (collect_targets_buffer SKIP_FILTERING node graph state off s vp).stream off hs ∧
      (∀ x ∈ livePairs (collect_targets_buffer SKIP_FILTERING node graph state off s vp).stream
        (bufPos off hs), x ∈ buffer_candidates node graph) ∧
      (∀ x, x < off → (∀ p ∈ P, x ≠ p + 1) →
        (collect_targets_buffer SKIP_FILTERING node graph state off s vp).stream x = s x) := by
  cases hskip : (SKIP_FILTERING && state.is_presolving_mode_) with
  | false =>
    obtain ⟨hs, h1, h2, h3, h4⟩ := collect_targets_buffer_order SKIP_FILTERING node graph state
      off s vp P C hskip hwf hD hP hbnd
    obtain ⟨hs', _, g2, g3, _, g5⟩ := collect_targets_buffer_spec SKIP_FILTERING node graph
      state off s vp P C hskip hwf hD hP hbnd
    refine ⟨hs, h1, h2, h3, ?_, g5⟩
    intro x hx
    rw [← tokLive_payload h3] at hx
    have := (h4.filter isPayload).subset hx
    rw [masked_pairs_payload] at this
    exact this
  | true =>
    obtain ⟨hs, h1, h2, h3, _, h5⟩ := collect_targets_buffer_skip_order SKIP_FILTERING node
      graph state off s vp hskip hwf
    refine ⟨hs, h1, h2, h3, ?_, ?_⟩
    · intro x hx
      rw [h5] at hx
      exact hx
    · intro x hx _
      exact (collect_targets_buffer_skip SKIP_FILTERING node graph state off s vp hskip).2 x hx

/-- Layout of the slab left by the merge of one destination in `run_with_both`, for every
combination of `use_ptr` and `use_buffer` and with the dedup pass of the buffer data run or
skipped: the first `length_ptr_reduced` words encode pointer blocks without empty block, whose
pairs are pointer-origin candidates; the next `length_buffer_reduced` words are pairs whose
payload pairs are buffer-origin candidates. -/
theorem run_with_both_merge_layout (L : Nat) (SKIP_FILTERING : Bool) (node : CommTarget)
    (state : SsspState) (graph : Graph2DCSR) (use_ptr use_buffer : Bool) (stream : Stream)
    (vertices_pos : VPos) (hclean : ∀ v, v < L → vertices_pos v = -1)
    (hwf : use_buffer = true → wellFormedBuf (queued_words node) = true)
    (hc : ∀ c ∈ merge_candidates node state graph use_ptr use_buffer, c.1 < L)
    (hsent : use_ptr = true → ∀ c ∈ ptr_candidates node state graph, c.2 ≠ get_sentinel) :
    ∃ (blocks : List PtrBlock) (out : List (Nat × Nat)),
      words (run_with_both_merge SKIP_FILTERING node state graph use_ptr use_buffer stream
          vertices_pos).stream 0
        (run_with_both_merge SKIP_FILTERING node state graph use_ptr use_buffer stream
          vertices_pos).length_ptr_reduced = encodePtr blocks ∧
      words (run_with_both_merge SKIP_FILTERING node state graph use_ptr use_buffer stream
          vertices_pos).stream
        (run_with_both_merge SKIP_FILTERING node state graph use_ptr use_buffer stream
          vertices_pos).length_ptr_reduced
        (run_with_both_merge SKIP_FILTERING node state graph use_ptr use_buffer stream
          vertices_pos).length_buffer_reduced = flattenPairs out ∧
      (∀ b ∈ blocks, b.2.2 ≠ []) ∧
      (∀ x ∈ blockPairs blocks, x ∈ ptr_candidates node state graph) ∧
      (∀ x ∈ out.filter isPayload, x ∈ buffer_candidates node graph) ∧
      (use_ptr = false → blocks = []) ∧ (use_buffer = false → out = []) := by
  cases use_ptr <;> cases use_buffer
  · -- nothing to merge
    refine ⟨[], [], ?_, ?_, by simp, by simp [blockPairs], by simp, fun _ => rfl, fun _ => rfl⟩
    · simp [run_with_both_merge, words_zero, encodePtr]
    · simp [run_with_both_merge, words_zero, flattenPairs]
  · -- buffer data only
    have h0 : DInv L stream vertices_pos [] [] := DInv_init L stream vertices_pos hclean
    obtain ⟨hs, b1, b2, b3, b4, _⟩ := collect_targets_buffer_lay SKIP_FILTERING node graph
      state 0 stream vertices_pos [] [] (hwf rfl) h0 (by simp)
      (by simpa [merge_candidates] using hc)
    obtain ⟨out, m1, m2, m3, _, m5⟩ := merge_layout_stages graph [] hs
      (collect_targets_buffer SKIP_FILTERING node graph state 0 stream vertices_pos)
      trivial b3
    simp only [layEnd, remove_sentinels_ptr_zero, Nat.zero_add, Nat.sub_zero] at m1 m2 m3 m5 b2
    rw [b2, ← b1] at m2 m3
    refine ⟨[], out, ?_, ?_, by simp, by simp [blockPairs], ?_, fun _ => rfl, by simp⟩
    · simp [run_with_both_merge, words_zero, encodePtr]
    · simpa [run_with_both_merge] using m3
    · intro x hx
      rw [m5] at hx
      exact b4 x hx
  · -- pointer data only
    obtain ⟨ks, hB⟩ := collect_targets_ptr_inv L node state graph stream vertices_pos hclean
      (fun c hcm => ⟨hc c (by simp [merge_candidates, hcm]), hsent rfl c hcm⟩)
    obtain ⟨out, m1, m2, m3, m4, m5⟩ := merge_layout_stages graph ks []
      (collect_targets_ptr node state graph stream vertices_pos) hB.lay trivial
    simp only [bufEnd, Nat.sub_self, remove_sentinels_buffer_zero] at m2 m3
    rw [← hB.pos] at m1 m2 m3
    refine ⟨compactPtr (readBlocks
        (collect_targets_ptr node state graph stream vertices_pos).stream 0 ks), [], ?_, ?_,
      compactPtr_nonempty _, ?_, by simp, by simp, fun _ => rfl⟩
    · simpa [run_with_both_merge] using m1
    · simp [run_with_both_merge, words_zero, flattenPairs]
    · intro x hx
      rw [m4] at hx
      exact (DInv_min hB.inv x hx).1
  · -- both
    obtain ⟨ks, hB⟩ := collect_targets_ptr_inv L node state graph stream vertices_pos hclean
      (fun c hcm => ⟨hc c (by simp [merge_candidates, hcm]), hsent rfl c hcm⟩)
    obtain ⟨hs, b1, b2, b3, b4, b5⟩ := collect_targets_buffer_lay SKIP_FILTERING node graph
      state (collect_targets_ptr node state graph stream vertices_pos).pos
      (collect_targets_ptr node state graph stream vertices_pos).stream
      (collect_targets_ptr node state graph stream vertices_pos).vertices_pos _ _
      (hwf rfl) hB.inv
      (by
        intro p hp
        have := pairPos_bounds hp
        rw [hB.pos]
        omega)
      (fun c hcm => hc c (by simp [merge_candidates, hcm]))
    have hmark : ∀ p ∈ pairPos 0 ks,
        (collect_targets_buffer SKIP_FILTERING node graph state
          (collect_targets_ptr node state graph stream vertices_pos).pos
          (collect_targets_ptr node state graph stream vertices_pos).stream
          (collect_targets_ptr node state graph stream vertices_pos).vertices_pos).stream p =
          (collect_targets_ptr node state graph stream vertices_pos).stream p ∧
        ((collect_targets_buffer SKIP_FILTERING node graph state
          (collect_targets_ptr node state graph stream vertices_pos).pos
          (collect_targets_ptr node state graph stream vertices_pos).stream
          (collect_targets_ptr node state graph stream vertices_pos).vertices_pos).stream
            (p + 1) =
          (collect_targets_ptr node state graph stream vertices_pos).stream (p + 1) ∨
        (collect_targets_buffer SKIP_FILTERING node graph state
          (collect_targets_ptr node state graph stream vertices_pos).pos
          (collect_targets_ptr node state graph stream vertices_pos).stream
          (collect_targets_ptr node state graph stream vertices_pos).vertices_pos).stream
            (p + 1) = get_sentinel) := by
      intro p hp
      have hb := pairPos_bounds hp
      refine ⟨?_, ?_⟩
      · apply b5 p (by rw [hB.pos]; omega)
        intro p' hp'
        exact sep_ne hB.inv.sep hp' hp
      · exact collect_targets_buffer_mark SKIP_FILTERING node graph state _ _ _
          (by rw [hB.pos]; omega)
    rw [hB.pos] at b2 b3 b4 b5
    have hlay := PtrLay_after_buffer b5 hB.lay
    obtain ⟨out, m1, m2, m3, m4, m5⟩ := merge_layout_stages graph ks hs _ hlay b3
    rw [b2, Nat.add_sub_cancel_left, ← b1] at m2 m3
    rw [hB.pos] at m2 m3
    refine ⟨compactPtr (readBlocks (collect_targets_buffer SKIP_FILTERING node graph state
        (collect_targets_ptr node state graph stream vertices_pos).pos
        (collect_targets_ptr node state graph stream vertices_pos).stream
        (collect_targets_ptr node state graph stream vertices_pos).vertices_pos).stream 0 ks),
      out, ?_, ?_, compactPtr_nonempty _, ?_, ?_, by simp, by simp⟩
    · simp only [run_with_both_merge, if_true]
      rw [hB.pos]
      exact m2
    · simp only [run_with_both_merge, if_true]
      rw [hB.pos]
      exact m3
    · intro x hx
      rw [hB.pos] at hx hmark
      rw [m4] at hx
      exact (DInv_min hB.inv x (livePairs_of_mark hmark x hx)).1
    · intro x hx
      rw [m5] at hx
      exact b4 x hx

theorem slab_words (st rs : Stream) (offset_org lp lb : Nat) (use_ptr : Bool) :
    words (if use_ptr then
        upd (unshift (upd st offset_org 0) (offset_org + 1) rs) offset_org lp
      else unshift (upd st offset_org 0) (offset_org + 1) rs) offset_org (1 + lp + lb) =
      (if use_ptr then lp else 0) :: (words rs 0 lp ++ words rs lp lb) := by
  rw [show 1 + lp + lb = (lp + lb) + 1 by omega, words_succ]
  congr 1
  · cases use_ptr
    · simp [unshift, upd_same]
    · simp [upd_same]
  · have := words_append rs 0 lp lb
    rw [Nat.zero_add] at this
    rw [← this]
    apply words_shift
    intro k _
    cases use_ptr
    · simp only [Bool.false_eq_true, if_false, unshift]
      rw [if_pos (by omega)]
      congr 1
      omega
    · simp only [if_true]
      rw [upd_ne _ _ (by omega)]
      simp only [unshift]
      rw [if_pos (by omega)]
      congr 1
      omega

theorem receive_step_split (recvbuf : Stream) (recv_offsets : Nat → Nat) (j : Nat)
    (P B : List Nat)
    (hw : words recvbuf (recv_offsets j) (1 + P.length + B.length) = P.length :: (P ++ B))
    (hn : recv_offsets (j + 1) = recv_offsets j + (1 + P.length + B.length)) :
    receive_step recvbuf recv_offsets j = [⟨P, j, true⟩, ⟨B, j, false⟩] := by
  rw [show 1 + P.length + B.length = (P.length + B.length) + 1 by omega, words_succ,
    words_append] at hw
  simp only [List.cons.injEq] at hw
  obtain ⟨h0, h1⟩ := hw
  have h2 := List.append_inj h1 (by simp [words_length])
  unfold receive_step
  simp only
  rw [if_neg (by omega), h0, h2.1, hn,
    show recv_offsets j + (1 + P.length + B.length) - (recv_offsets j + 1 + P.length) =
      B.length by omega, h2.2]

theorem run_with_both_merge_lengths (SKIP_FILTERING : Bool) (node : CommTarget)
    (state : SsspState) (graph : Graph2DCSR) (use_ptr use_buffer : Bool) (stream : Stream)
    (vertices_pos : VPos) :
    (use_ptr = false → (run_with_both_merge SKIP_FILTERING node state graph use_ptr use_buffer
      stream vertices_pos).length_ptr_reduced = 0) ∧
    (use_buffer = false → (run_with_both_merge SKIP_FILTERING node state graph use_ptr
      use_buffer stream vertices_pos).length_buffer_reduced = 0) := by
  refine ⟨?_, ?_⟩
  · intro h
    simp [run_with_both_merge, h]
  · intro h
    simp [run_with_both_merge, h]


/-! ## Lockstep rounds whose calls come in slots -/

theorem process_of_rank {n : Nat} {rank_of : Nat → Nat}
    (hinj : ∀ a b, a < n → b < n → rank_of a = rank_of b → a = b) {p : Nat} (hp : p < n) :
    process_of n rank_of (rank_of p) = some p := by
  unfold process_of
  cases h : (List.range n).find? (fun a => decide (rank_of a = rank_of p)) with
  | none =>
    have := List.find?_eq_none.1 h p (List.mem_range.2 hp)
    simp at this
  | some a =>
    have h1 := List.find?_some h
    have h2 := List.mem_of_find?_eq_some h
    simp only [decide_eq_true_eq] at h1
    rw [hinj a p (List.mem_range.1 h2) hp h1]

theorem filter_getElem?_length {α : Type} (P : α → Bool) (l1 l2 : List α) (a : α)
    (ha : P a = true) :
    ((l1 ++ a :: l2).filter P)[(l1.filter P).length]? = some a := by
  rw [List.filter_append, List.filter_cons, if_pos ha, List.getElem?_append_right (Nat.le_refl _)]
  simp

theorem rcv_not_send {σ : Type} {n : Nat} {rank_of : Nat → Nat} {posts : Nat → List MpiRequest}
    {slots : List σ} {rcv snd : Nat → σ → MpiRequest} {src dst : Nat → σ → Nat}
    (H : SlotRound n rank_of posts slots rcv snd src dst) {p : Nat} (hp : p < n) {s : σ}
    (hs : s ∈ slots) : (rcv p s).is_send = false := by
  have hm : rcv p s ∈ posted_recvs (posts p) := by
    rw [H.recvs p hp]
    exact List.mem_map_of_mem _ hs
  simp only [posted_recvs, List.mem_filter, Bool.not_eq_true'] at hm
  exact hm.2

theorem snd_is_send {σ : Type} {n : Nat} {rank_of : Nat → Nat} {posts : Nat → List MpiRequest}
    {slots : List σ} {rcv snd : Nat → σ → MpiRequest} {src dst : Nat → σ → Nat}
    (H : SlotRound n rank_of posts slots rcv snd src dst) {p : Nat} (hp : p < n) {s : σ}
    (hs : s ∈ slots) : (snd p s).is_send = true := by
  have hm : snd p s ∈ (posts p).filter (fun q => q.is_send) := by
    rw [H.sends p hp]
    exact List.mem_map_of_mem _ hs
  simp only [List.mem_filter] at hm
  exact hm.2

/-- Between a receiver `p` and the sender of its slot `s`, the slots of the receiver's receives
from this sender are the slots of the sender's sends to `p`. -/
theorem slot_channel {σ : Type} {n : Nat} {rank_of : Nat → Nat}
    {posts : Nat → List MpiRequest} {slots : List σ} {rcv snd : Nat → σ → MpiRequest}
    {src dst : Nat → σ → Nat} (H : SlotRound n rank_of posts slots rcv snd src dst)
    (hinj : ∀ a b, a < n → b < n → rank_of a = rank_of b → a = b) {p : Nat} (hp : p < n)
    {s : σ} (hs : s ∈ slots) {s' : σ} (hs' : s' ∈ slots) :
    ((rcv p s').peer = (rcv p s).peer ∧ (rcv p s').tag = (rcv p s).tag) ↔
      ((snd (src p s) s').peer = rank_of p ∧ (snd (src p s) s').tag = (rcv p s).tag) := by
  have hq := H.src_lt p hp s hs
  rw [H.rcv_peer p hp s' hs', H.rcv_peer p hp s hs, H.snd_peer _ hq s' hs',
    H.tag_eq p hp (src p s) hq s' hs']
  constructor
  · rintro ⟨h1, h2⟩
    have := hinj _ _ (H.src_lt p hp s' hs') hq h1
    refine ⟨?_, h2⟩
    rw [← this, H.dst_src p hp s' hs']
  · rintro ⟨h1, h2⟩
    have := hinj _ _ (H.dst_lt _ hq s' hs') hp h1
    refine ⟨?_, h2⟩
    rw [← H.src_dst _ hq s' hs', this]

theorem posted_sends_slots {σ : Type} {n : Nat} {rank_of : Nat → Nat}
    {posts : Nat → List MpiRequest} {slots : List σ} {rcv snd : Nat → σ → MpiRequest}
    {src dst : Nat → σ → Nat} (H : SlotRound n rank_of posts slots rcv snd src dst) {q : Nat}
    (hq : q < n) (dest tag : Nat) :
    posted_sends (posts q) dest tag =
      (slots.filter (fun s => decide ((snd q s).peer = dest) && decide ((snd q s).tag = tag))).map
        (snd q) := by
  have h1 : posted_sends (posts q) dest tag =
      ((posts q).filter (fun x => x.is_send)).filter
        (fun x => decide (x.peer = dest) && decide (x.tag = tag)) := by
    rw [posted_sends, List.filter_filter]
    apply List.filter_congr
    intro x _
    cases x.is_send <;> simp
  rw [h1, H.sends q hq, List.filter_map]
  rfl

theorem posted_recvs_from_slots {σ : Type} (rcv : σ → MpiRequest) (l : List σ)
    (hr : ∀ s ∈ l, (rcv s).is_send = false) (src tag : Nat) :
    posted_recvs_from (l.map rcv) src tag =
      (l.filter (fun s => decide ((rcv s).peer = src) && decide ((rcv s).tag = tag))).map
        rcv := by
  rw [posted_recvs_from, List.filter_map]
  congr 1
  apply List.filter_congr
  intro s hs
  simp [Function.comp, hr s hs]

theorem complete_recvs_slots {σ : Type} {n : Nat} {rank_of : Nat → Nat}
    {posts : Nat → List MpiRequest} {slots : List σ} {rcv snd : Nat → σ → MpiRequest}
    {src dst : Nat → σ → Nat} (H : SlotRound n rank_of posts slots rcv snd src dst)
    (hinj : ∀ a b, a < n → b < n → rank_of a = rank_of b → a = b) (bufs : Nat → Stream)
    {p : Nat} (hp : p < n) :
    ∀ (l2 l1 : List σ) (buf : Stream), l1 ++ l2 = slots →
      complete_recvs n rank_of posts bufs p (l1.map (rcv p)) (l2.map (rcv p)) buf =
        some (slot_copies bufs rcv snd src p l2 buf) := by
  intro l2
  induction l2 with
  | nil => intro l1 buf _; rfl
  | cons s l2 ih =>
    intro l1 buf hl
    have hs : s ∈ slots := by rw [← hl]; simp
    have hq := H.src_lt p hp s hs
    have hsub1 : ∀ x ∈ l1, x ∈ slots := fun x hx => by rw [← hl]; simp [hx]
    simp only [List.map_cons, complete_recvs]
    rw [H.rcv_peer p hp s hs, process_of_rank hinj hq]
    simp only
    rw [posted_sends_slots H hq, ← H.rcv_peer p hp s hs,
      posted_recvs_from_slots (rcv p) l1 (fun x hx => rcv_not_send H hp (hsub1 x hx))]
    have hfilt : slots.filter (fun s' => decide ((snd (src p s) s').peer = rank_of p) &&
        decide ((snd (src p s) s').tag = (rcv p s).tag)) =
        slots.filter (fun s' => decide ((rcv p s').peer = (rcv p s).peer) &&
          decide ((rcv p s').tag = (rcv p s).tag)) := by
      apply List.filter_congr
      intro s' hs'
      have := slot_channel H hinj hp hs hs'
      simp only [← Bool.decide_and, decide_eq_decide]
      exact this.symm
    rw [hfilt, List.length_map, List.getElem?_map]
    conv =>
      lhs
      rw [← hl]
    rw [filter_getElem?_length _ l1 l2 s (by simp)]
    simp only [Option.map_some']
    rw [if_neg (Nat.not_lt.2 (H.fits p hp s hs))]
    have := ih (l1 ++ [s]) (memcpy buf (rcv p s).off
      (shift (bufs (src p s)) (snd (src p s) s).off) (snd (src p s) s).count)
      (by rw [List.append_assoc]; exact hl)
    rw [List.map_append, List.map_cons, List.map_nil] at this
    rw [this]
    rfl

theorem sends_matched_slots {σ : Type} {n : Nat} {rank_of : Nat → Nat}
    {posts : Nat → List MpiRequest} {slots : List σ} {rcv snd : Nat → σ → MpiRequest}
    {src dst : Nat → σ → Nat} (H : SlotRound n rank_of posts slots rcv snd src dst)
    (hinj : ∀ a b, a < n → b < n → rank_of a = rank_of b → a = b) {p : Nat} (hp : p < n) :
    sends_matched n rank_of posts p = true := by
  unfold sends_matched
  rw [List.all_eq_true]
  intro q hq
  cases hsend : q.is_send with
  | false => rfl
  | true =>
    simp only [Bool.not_true, Bool.false_or]
    have hm : q ∈ (posts p).filter (fun x => x.is_send) := List.mem_filter.2 ⟨hq, hsend⟩
    rw [H.sends p hp] at hm
    obtain ⟨s, hs, rfl⟩ := List.mem_map.1 hm
    have hd := H.dst_lt p hp s hs
    rw [H.snd_peer p hp s hs, process_of_rank hinj hd]
    simp only [decide_eq_true_eq]
    rw [posted_sends_slots H hp]
    have hrf : posted_recvs_from (posts (dst p s)) (rank_of p) (snd p s).tag =
        posted_recvs_from (posted_recvs (posts (dst p s))) (rank_of p) (snd p s).tag := by
      simp only [posted_recvs_from, posted_recvs, List.filter_filter]
      apply List.filter_congr
      intro x _
      cases x.is_send <;> simp
    rw [hrf, H.recvs _ hd,
      posted_recvs_from_slots (rcv (dst p s)) slots (fun x hx => rcv_not_send H hd hx),
      List.length_map, List.length_map]
    congr 1
    apply List.filter_congr
    intro s' hs'
    have h1 := slot_channel H hinj hd hs hs'
    rw [H.src_dst p hp s hs] at h1
    rw [H.rcv_peer _ hd s hs, H.src_dst p hp s hs, H.tag_eq _ hd p hp s hs] at h1
    rw [H.snd_peer p hp s' hs']
    rw [H.snd_peer p hp s' hs'] at h1
    simp only [← Bool.decide_and, decide_eq_decide]
    constructor
    · rintro ⟨a, b⟩
      exact (h1.2 ⟨by rw [a], b⟩)
    · rintro hx
      have := h1.1 hx
      exact ⟨by rw [this.1], this.2⟩

/-- A round whose calls come in slots completes; every process ends with the messages of its
slots copied into its buffer. -/
theorem complete_round_slots {σ : Type} {n : Nat} {rank_of : Nat → Nat}
    {posts : Nat → List MpiRequest} {slots : List σ} {rcv snd : Nat → σ → MpiRequest}
    {src dst : Nat → σ → Nat} (H : SlotRound n rank_of posts slots rcv snd src dst)
    (hinj : ∀ a b, a < n → b < n → rank_of a = rank_of b → a = b) (bufs : Nat → Stream) :
    ∃ bufs', complete_round n rank_of posts bufs = some bufs' ∧
      ∀ p, p < n → bufs' p = slot_copies bufs rcv snd src p slots (bufs p) := by
  have hc : ∀ p, p < n →
      complete_recvs n rank_of posts bufs p [] (posted_recvs (posts p)) (bufs p) =
        some (slot_copies bufs rcv snd src p slots (bufs p)) := by
    intro p hp
    have := complete_recvs_slots H hinj bufs hp slots [] (bufs p) rfl
    rw [List.map_nil] at this
    rw [H.recvs p hp]
    exact this
  unfold complete_round
  rw [if_pos]
  · refine ⟨_, rfl, ?_⟩
    intro p hp
    simp only [hc p hp, Option.getD_some]
  · rw [List.all_eq_true]
    intro p hp
    have hp' := List.mem_range.1 hp
    rw [sends_matched_slots H hinj hp', hc p hp']
    rfl

/-- Copies between equal offsets keep a buffer equal to a reference buffer wherever it was,
and make it equal on every range copied from a sender that is equal there. -/
theorem slot_copies_good {σ : Type} (ref : Stream) (bufs : Nat → Stream)
    (rcv snd : Nat → σ → MpiRequest) (src : Nat → σ → Nat) (p : Nat) :
    ∀ (slots : List σ) (buf : Stream),
      (∀ s ∈ slots, (rcv p s).off = (snd (src p s) s).off ∧
        ∀ x, (rcv p s).off ≤ x → x < (rcv p s).off + (snd (src p s) s).count →
          bufs (src p s) x = ref x) →
      ∀ x, (buf x = ref x ∨ ∃ s ∈ slots, (rcv p s).off ≤ x ∧
          x < (rcv p s).off + (snd (src p s) s).count) →
        slot_copies bufs rcv snd src p slots buf x = ref x := by
  intro slots
  induction slots with
  | nil =>
    intro buf _ x hx
    rcases hx with hx | ⟨s, hs, _⟩
    · exact hx
    · simp at hs
  | cons s slots ih =>
    intro buf hgood x hx
    simp only [slot_copies, List.foldl_cons]
    apply ih _ (fun s' hs' => hgood s' (List.mem_cons_of_mem _ hs'))
    obtain ⟨ho, hg⟩ := hgood s (List.mem_cons_self _ _)
    by_cases hin : (rcv p s).off ≤ x ∧ x < (rcv p s).off + (snd (src p s) s).count
    · left
      simp only [memcpy, if_pos hin, shift]
      rw [← ho, show (rcv p s).off + (x - (rcv p s).off) = x by omega]
      exact hg x hin.1 hin.2
    · rcases hx with hx | ⟨s', hs', hx'⟩
      · left
        simp only [memcpy, if_neg hin]
        exact hx
      · rcases List.mem_cons.1 hs' with h | h
        · subst h
          exact absurd hx' hin
        · right
          exact ⟨s', h, hx'⟩

/-! ## The ring all-gather -/

theorem succ_mod_eq (x n : Nat) (hn : 0 < n) :
    (x + 1) % n = if x % n + 1 = n then 0 else x % n + 1 := by
  have h1 := Nat.div_add_mod x n
  have h2 := Nat.mod_lt x hn
  split
  · rename_i h
    have : x + 1 = n * (x / n + 1) := by
      rw [Nat.mul_add, Nat.mul_one]
      omega
    rw [this, Nat.mul_mod_right]
  · rename_i h
    have : x + 1 = n * (x / n) + (x % n + 1) := by omega
    rw [this, Nat.mul_add_mod, Nat.mod_eq_of_lt (by omega)]

theorem ring_up_lt (size k r : Nat) (hs : 0 < size) : ring_up size k r < size :=
  Nat.mod_lt _ hs

theorem ring_dn_lt (size k r : Nat) (hs : 0 < size) : ring_dn size k r < size :=
  Nat.mod_lt _ hs

theorem ring_up_zero {size r : Nat} (hr : r < size) : ring_up size 0 r = r := by
  simp [ring_up, Nat.mod_eq_of_lt hr]

theorem ring_dn_zero {size r : Nat} (hr : r < size) : ring_dn size 0 r = r := by
  simp only [ring_dn, Nat.sub_zero]
  rw [Nat.add_mod_right, Nat.mod_eq_of_lt hr]

theorem ring_up_step (size k r : Nat) (hs : 0 < size) :
    (if ((ring_up size k r : Nat) : Int) + 1 ≥ (size : Int) then
        ((ring_up size k r : Nat) : Int) + 1 - (size : Int)
      else ((ring_up size k r : Nat) : Int) + 1) = ((ring_up size (k + 1) r : Nat) : Int) := by
  have h := succ_mod_eq (r + k) size hs
  have hlt := ring_up_lt size k r hs
  simp only [ring_up] at hlt ⊢
  rw [show r + (k + 1) = r + k + 1 by omega, h]
  split <;> split <;> omega

theorem ring_dn_step (size k r : Nat) (hk : k + 1 ≤ size) :
    (if ((ring_dn size k r : Nat) : Int) - 1 < 0 then
        ((ring_dn size k r : Nat) : Int) - 1 + (size : Int)
      else ((ring_dn size k r : Nat) : Int) - 1) = ((ring_dn size (k + 1) r : Nat) : Int) := by
  have hs : 0 < size := by omega
  have h := succ_mod_eq (r + size - (k + 1)) size hs
  have hlt := ring_dn_lt size (k + 1) r hs
  simp only [ring_dn] at hlt ⊢
  rw [show r + size - (k + 1) + 1 = r + size - k by omega] at h
  rw [h]
  split <;> split <;> omega

theorem ring_right_eq (size r : Nat) : (r + size + 1) % size = ring_up size 1 r := by
  rw [ring_up, show r + size + 1 = r + 1 + size by omega, Nat.add_mod_right]

theorem ring_left_eq (size r : Nat) : (r + size - 1) % size = ring_dn size 1 r := rfl

theorem ring_up_up (size k r : Nat) : ring_up size k (ring_up size 1 r) = ring_up size (k + 1) r := by
  simp only [ring_up]
  rw [Nat.add_mod, Nat.mod_mod, ← Nat.add_mod]
  congr 1
  omega

theorem ring_dn_dn (size k r : Nat) (hk : k + 1 ≤ size) :
    ring_dn size k (ring_dn size 1 r) = ring_dn size (k + 1) r := by
  simp only [ring_dn]
  rw [Nat.add_sub_assoc (by omega : k ≤ size), Nat.add_mod, Nat.mod_mod, ← Nat.add_mod,
    show r + size - 1 + (size - k) = r + size - (k + 1) + size by omega, Nat.add_mod_right]

theorem ring_dn_up {size r : Nat} (hr : r < size) : ring_dn size 1 (ring_up size 1 r) = r := by
  simp only [ring_dn, ring_up]
  rw [Nat.add_sub_assoc (by omega : 1 ≤ size), Nat.add_mod, Nat.mod_mod, ← Nat.add_mod,
    show r + 1 + (size - 1) = r + size by omega, Nat.add_mod_right, Nat.mod_eq_of_lt hr]

theorem ring_up_dn {size r : Nat} (hr : r < size) : ring_up size 1 (ring_dn size 1 r) = r := by
  simp only [ring_dn, ring_up]
  rw [Nat.add_mod, Nat.mod_mod, ← Nat.add_mod,
    show r + size - 1 + 1 = r + size by omega, Nat.add_mod_right, Nat.mod_eq_of_lt hr]

theorem ring_up_cover {size r j : Nat} (hr : r < size) (hj : j < size) :
    ∃ d, d < size ∧ ring_up size d r = j := by
  refine ⟨(j + size - r) % size, Nat.mod_lt _ (by omega), ?_⟩
  simp only [ring_up]
  rw [Nat.add_mod, Nat.mod_mod, ← Nat.add_mod, show r + (j + size - r) = j + size by omega,
    Nat.add_mod_right, Nat.mod_eq_of_lt hj]

theorem ring_dn_cover {size r j : Nat} (hr : r < size) (hj : j < size) :
    ∃ d, d < size ∧ ring_dn size d r = j := by
  by_cases h : j ≤ r
  · refine ⟨r - j, by omega, ?_⟩
    simp only [ring_dn]
    rw [show r + size - (r - j) = j + size by omega, Nat.add_mod_right, Nat.mod_eq_of_lt hj]
  · refine ⟨r + size - j, by omega, ?_⟩
    simp only [ring_dn]
    rw [show r + size - (r + size - j) = j by omega, Nat.mod_eq_of_lt hj]

theorem ring_next_eq (count offset : Nat → Nat) (size tag j r : Nat) (hj : j + 2 < size) :
    AllgatherHandler.next count offset (ring_handler size tag j r) =
      (ring_handler size tag (j + 1) r, ring_posts count offset size tag (j + 1) r) := by
  have hs : 0 < size := by omega
  unfold AllgatherHandler.next
  simp only [ring_handler]
  rw [if_neg (by omega)]
  simp only [ring_up_step size j r hs, ring_up_step size (j + 1) r hs,
    ring_dn_step size j r (by omega), ring_dn_step size (j + 1) r (by omega), Int.toNat_ofNat]
  rfl

theorem ring_next_finished (count offset : Nat → Nat) (size tag j r : Nat) (hj : size ≤ j + 2) :
    AllgatherHandler.next count offset (ring_handler size tag j r) =
      ({ ring_handler size tag j r with finished := true }, []) := by
  unfold AllgatherHandler.next
  rw [if_pos (by simp only [ring_handler]; omega)]

theorem ring_start_eq (count offset : Nat → Nat) (size tag r : Nat) (hs : 2 ≤ size)
    (hr : r < size) :
    AllgatherHandler.start count offset r size ((r + size - 1) % size) ((r + size + 1) % size)
        tag =
      (ring_handler size tag 0 r, ring_posts count offset size tag 0 r) := by
  have h0 : 0 < size := by omega
  have h1 := Nat.mod_lt (r + size + 1) h0
  unfold AllgatherHandler.start AllgatherHandler.next
  simp only
  rw [if_neg (by omega), if_neg (by omega), if_neg (by omega), if_neg (by omega),
    if_neg (by omega)]
  simp only [Int.toNat_ofNat, ring_handler, ring_posts, ring_rcv, ring_snd,
    ring_up_zero hr, ring_dn_zero hr, ring_right_eq, ring_left_eq, Bool.false_eq_true, if_false,
    if_true]

theorem ring_start_one (count offset : Nat → Nat) (tag r : Nat) :
    (AllgatherHandler.start count offset r 1 ((r + 1 - 1) % 1) ((r + 1 + 1) % 1) tag).1.finished =
      true := by
  unfold AllgatherHandler.start AllgatherHandler.next
  simp

theorem ring_slot_round (count offset : Nat → Nat) (size tag j : Nat) (hs : 2 ≤ size)
    (hj : j + 1 ≤ size) (posts : Nat → List MpiRequest)
    (hposts : ∀ p, p < size → posts p = ring_posts count offset size tag j p) :
    SlotRound size (fun r => r) posts [false, true] (ring_rcv count offset size tag j)
      (ring_snd count offset size tag j)
      (fun p s => if s then ring_dn size 1 p else ring_up size 1 p)
      (fun p s => if s then ring_up size 1 p else ring_dn size 1 p) where
  recvs := fun p hp => by
    rw [hposts p hp]
    simp [posted_recvs, ring_posts, ring_rcv, ring_snd]
  sends := fun p hp => by
    rw [hposts p hp]
    simp [ring_posts, ring_rcv, ring_snd]
  src_lt := fun p _ s _ => by
    cases s
    · exact ring_up_lt size 1 p (by omega)
    · exact ring_dn_lt size 1 p (by omega)
  dst_lt := fun p _ s _ => by
    cases s
    · exact ring_dn_lt size 1 p (by omega)
    · exact ring_up_lt size 1 p (by omega)
  dst_src := fun p hp s _ => by
    cases s
    · exact ring_dn_up hp
    · exact ring_up_dn hp
  src_dst := fun p hp s _ => by
    cases s
    · exact ring_up_dn hp
    · exact ring_dn_up hp
  rcv_peer := fun p _ s _ => by
    cases s
    · simp [ring_rcv, ring_right_eq]
    · simp [ring_rcv, ring_left_eq]
  snd_peer := fun p _ s _ => by
    cases s
    · simp [ring_snd, ring_left_eq]
    · simp [ring_snd, ring_right_eq]
  tag_eq := fun p _ q _ s _ => by
    cases s <;> simp [ring_rcv, ring_snd]
  fits := fun p _ s _ => by
    cases s
    · simp [ring_rcv, ring_snd, ring_up_up]
    · simp [ring_rcv, ring_snd, ring_dn_dn size j p hj]

/-- One round of the ring: the calls of call number `j + 1` of `next()` complete, and every
rank then holds the halves of one more segment in each direction. -/
theorem ring_round_good (ref : Stream) (count offset : Nat → Nat) (size tag j : Nat)
    (hs : 2 ≤ size) (hj : j + 1 ≤ size) (posts : Nat → List MpiRequest)
    (hposts : ∀ p, p < size → posts p = ring_posts count offset size tag j p)
    (bufs : Nat → Stream)
    (hgood : ∀ p, p < size → RingGood ref count offset size j p (bufs p)) :
    ∃ bufs', complete_round size (fun r => r) posts bufs = some bufs' ∧
      ∀ p, p < size → RingGood ref count offset size (j + 1) p (bufs' p) := by
  have H := ring_slot_round count offset size tag j hs hj posts hposts
  obtain ⟨bufs', h1, h2⟩ := complete_round_slots H (fun a b _ _ h => h) bufs
  refine ⟨bufs', h1, ?_⟩
  intro p hp
  rw [h2 p hp]
  have hcopy := slot_copies_good ref bufs (ring_rcv count offset size tag j)
    (ring_snd count offset size tag j)
    (fun p s => if s then ring_dn size 1 p else ring_up size 1 p) p [false, true] (bufs p) (by
      intro s _
      cases s
      · simp only [ring_rcv, ring_snd, Bool.false_eq_true, if_false, ring_up_up]
        refine ⟨trivial, ?_⟩
        intro x hx1 hx2
        have := (hgood (ring_up size 1 p) (ring_up_lt size 1 p (by omega)) j (Nat.le_refl _)).1 x
        rw [ring_up_up] at this
        exact this hx1 hx2
      · simp only [ring_rcv, ring_snd, if_true, ring_dn_dn size j p hj]
        refine ⟨trivial, ?_⟩
        intro x hx1 hx2
        have := (hgood (ring_dn size 1 p) (ring_dn_lt size 1 p (by omega)) j (Nat.le_refl _)).2 x
        rw [ring_dn_dn size j p hj] at this
        exact this hx1 hx2)
  intro d hd
  by_cases hdj : d ≤ j
  · refine ⟨?_, ?_⟩
    · intro x hx1 hx2
      exact hcopy x (Or.inl ((hgood p hp d hdj).1 x hx1 hx2))
    · intro x hx1 hx2
      exact hcopy x (Or.inl ((hgood p hp d hdj).2 x hx1 hx2))
  · have hd1 : d = j + 1 := by omega
    subst hd1
    refine ⟨?_, ?_⟩
    · intro x hx1 hx2
      apply hcopy x
      right
      refine ⟨false, by simp, ?_⟩
      simp only [ring_rcv, ring_snd, Bool.false_eq_true, if_false, ring_up_up]
      exact ⟨hx1, hx2⟩
    · intro x hx1 hx2
      apply hcopy x
      right
      refine ⟨true, by simp, ?_⟩
      simp only [ring_rcv, ring_snd, if_true, ring_dn_dn size j p hj]
      exact ⟨hx1, hx2⟩

/-- Copies leave every word outside the ranges received into as it was. -/
theorem slot_copies_frame {σ : Type} (bufs : Nat → Stream)
    (rcv snd : Nat → σ → MpiRequest) (src : Nat → σ → Nat) (p : Nat) (x : Nat) :
    ∀ (slots : List σ) (buf : Stream),
      (∀ s ∈ slots, ¬ ((rcv p s).off ≤ x ∧ x < (rcv p s).off + (snd (src p s) s).count)) →
        slot_copies bufs rcv snd src p slots buf x = buf x := by
  intro slots
  induction slots with
  | nil => intro buf _; rfl
  | cons s slots ih =>
    intro buf h
    simp only [slot_copies, List.foldl_cons]
    have := ih (memcpy buf (rcv p s).off (shift (bufs (src p s)) (snd (src p s) s).off)
      (snd (src p s) s).count) (fun s' hs' => h s' (List.mem_cons_of_mem _ hs'))
    simp only [slot_copies] at this
    rw [this]
    simp only [memcpy, if_neg (h s (List.mem_cons_self _ _))]

theorem ring_round_frame (count offset : Nat → Nat) (size tag j : Nat)
    (hs : 2 ≤ size) (hj : j + 1 ≤ size) (posts : Nat → List MpiRequest)
    (hposts : ∀ p, p < size → posts p = ring_posts count offset size tag j p)
    (bufs bufs' : Nat → Stream)
    (hround : complete_round size (fun r => r) posts bufs = some bufs') :
    ∀ p, p < size → ∀ x, ¬ in_segments size count offset x → bufs' p x = bufs p x := by
  have H := ring_slot_round count offset size tag j hs hj posts hposts
  obtain ⟨bufs'', h1, h2⟩ := complete_round_slots H (fun a b _ _ h => h) bufs
  rw [hround] at h1
  cases h1
  intro p hp x hx
  rw [h2 p hp]
  apply slot_copies_frame
  intro s _ hin
  apply hx
  cases s
  · simp only [ring_rcv, ring_snd, Bool.false_eq_true, if_false, ring_up_up] at hin
    exact ⟨ring_up size (j + 1) p, ring_up_lt size _ p (by omega), hin.1,
      by have := Nat.div_le_self (count (ring_up size (j + 1) p)) 2; omega⟩
  · simp only [ring_rcv, ring_snd, if_true, ring_dn_dn size j p hj] at hin
    exact ⟨ring_dn size (j + 1) p, ring_dn_lt size _ p (by omega), by omega,
      by have := Nat.div_le_self (count (ring_dn size (j + 1) p)) 2; omega⟩

theorem ring_rounds_finished (size : Nat) (count offset : Nat → Nat) (fuel : Nat)
    (st : RingState) (h : ∀ r, r < size → (st.handler r).finished = true) :
    ring_rounds size count offset fuel st = some st := by
  have hall : (List.range size).all (fun r => (st.handler r).finished) = true := by
    rw [List.all_eq_true]
    intro r hr
    exact h r (List.mem_range.1 hr)
  cases fuel <;> simp only [ring_rounds, hall, if_true]

theorem ring_rounds_good (R : Stream) (count offset : Nat → Nat) (size tag : Nat)
    (hs : 2 ≤ size) (init : Nat → Stream) :
    ∀ (fuel j : Nat) (st : RingState), j + 2 ≤ size → size ≤ j + 1 + fuel →
      (∀ r, r < size → st.handler r = ring_handler size tag j r ∧
        st.posts r = ring_posts count offset size tag j r ∧
        RingGood R count offset size j r (st.buf r) ∧
        ∀ x, ¬ in_segments size count offset x → st.buf r x = init r x) →
      ∃ st', ring_rounds size count offset fuel st = some st' ∧
        ∀ r, r < size → RingGood R count offset size (size - 1) r (st'.buf r) ∧
          ∀ x, ¬ in_segments size count offset x → st'.buf r x = init r x := by
  intro fuel
  induction fuel with
  | zero => intro j st h1 h2; omega
  | succ fuel ih =>
    intro j st hj hf hst
    have hnot : (List.range size).all (fun r => (st.handler r).finished) = false := by
      rw [List.all_eq_false]
      refine ⟨0, List.mem_range.2 (by omega), ?_⟩
      rw [(hst 0 (by omega)).1]
      simp [ring_handler]
    obtain ⟨bufs', hround, hgood⟩ := ring_round_good R count offset size tag j hs (by omega)
      st.posts (fun p hp => (hst p hp).2.1) st.buf (fun p hp => (hst p hp).2.2.1)
    have hframe := ring_round_frame count offset size tag j hs (by omega)
      st.posts (fun p hp => (hst p hp).2.1) st.buf bufs' hround
    simp only [ring_rounds, hnot, Bool.false_eq_true, if_false, hround]
    by_cases hlast : j + 2 < size
    · apply ih (j + 1) _ (by omega) (by omega)
      intro r hr
      simp only [(hst r hr).1, ring_next_eq count offset size tag j r hlast]
      exact ⟨trivial, trivial, hgood r hr, fun x hx =>
        (hframe r hr x hx).trans ((hst r hr).2.2.2 x hx)⟩
    · rw [ring_rounds_finished]
      · refine ⟨_, rfl, ?_⟩
        intro r hr
        have hj1 : size - 1 = j + 1 := by omega
        rw [hj1]
        exact ⟨hgood r hr, fun x hx => (hframe r hr x hx).trans ((hst r hr).2.2.2 x hx)⟩
      · intro r hr
        simp only [(hst r hr).1, ring_next_finished count offset size tag j r (by omega)]

theorem reference_foldl_spec (sendbuf : Nat → Stream) (count offset : Nat → Nat)
    (recvbuf : Stream) (size : Nat) (hd : disjoint_segments size count offset) :
    ∀ n, n ≤ size →
      (∀ j, j < n → ∀ x, offset j ≤ x → x < offset j + count j →
        (List.range n).foldl (fun b j => memcpy b (offset j) (sendbuf j) (count j)) recvbuf x =
          sendbuf j (x - offset j)) ∧
      (∀ x, ¬ in_segments n count offset x →
        (List.range n).foldl (fun b j => memcpy b (offset j) (sendbuf j) (count j)) recvbuf x =
          recvbuf x) := by
  intro n
  induction n with
  | zero =>
    intro _
    exact ⟨fun j hj => by omega, fun x _ => rfl⟩
  | succ n ih =>
    intro hn
    obtain ⟨ih1, ih2⟩ := ih (by omega)
    simp only [List.range_succ, List.foldl_append, List.foldl_cons, List.foldl_nil]
    refine ⟨?_, ?_⟩
    · intro j hj x hx1 hx2
      by_cases hjn : j = n
      · subst hjn
        simp only [memcpy, if_pos (And.intro hx1 hx2)]
      · have hnot : ¬ (offset n ≤ x ∧ x < offset n + count n) := by
          intro h
          rcases hd j n (by omega) (by omega) hjn with h' | h' <;> omega
        simp only [memcpy, if_neg hnot]
        exact ih1 j (by omega) x hx1 hx2
    · intro x hx
      have hnot : ¬ (offset n ≤ x ∧ x < offset n + count n) :=
        fun h => hx ⟨n, by omega, h.1, h.2⟩
      simp only [memcpy, if_neg hnot]
      exact ih2 x (fun ⟨i, hi, h⟩ => hx ⟨i, by omega, h⟩)

/-- The reference all-gather stores the contribution of every rank in its segment and leaves
the other words as they were. -/
theorem reference_allgatherv_spec (sendbuf : Nat → Stream) (count offset : Nat → Nat)
    (recvbuf : Stream) (size : Nat) (hd : disjoint_segments size count offset) :
    (∀ j, j < size → ∀ x, offset j ≤ x → x < offset j + count j →
      reference_allgatherv size sendbuf count offset recvbuf x = sendbuf j (x - offset j)) ∧
    (∀ x, ¬ in_segments size count offset x →
      reference_allgatherv size sendbuf count offset recvbuf x = recvbuf x) :=
  reference_foldl_spec sendbuf count offset recvbuf size hd size (Nat.le_refl _)

/-- A buffer that holds all halves of all segments and is `init` elsewhere is the reference
all-gather of `init`. -/
theorem ring_good_reference (sendbuf : Nat → Stream) (count offset : Nat → Nat) (size r : Nat)
    (hd : disjoint_segments size count offset) (hr : r < size) (recvbuf buf : Stream)
    (hgood : RingGood (reference_allgatherv size sendbuf count offset (fun _ => 0)) count offset
      size (size - 1) r buf)
    (hframe : ∀ x, ¬ in_segments size count offset x →
      buf x = memcpy recvbuf (offset r) (sendbuf r) (count r) x) :
    buf = reference_allgatherv size sendbuf count offset recvbuf := by
  funext x
  obtain ⟨h0a, _⟩ := reference_allgatherv_spec sendbuf count offset (fun _ => 0) size hd
  obtain ⟨h1a, h1b⟩ := reference_allgatherv_spec sendbuf count offset recvbuf size hd
  by_cases hx : in_segments size count offset x
  · obtain ⟨i, hi, hx1, hx2⟩ := hx
    rw [h1a i hi x hx1 hx2, ← h0a i hi x hx1 hx2]
    by_cases hhalf : x < offset i + count i / 2
    · obtain ⟨d, hd1, hd2⟩ := ring_up_cover hr hi
      have := (hgood d (by omega)).1 x
      rw [hd2] at this
      exact this hx1 hhalf
    · obtain ⟨d, hd1, hd2⟩ := ring_dn_cover hr hi
      have := (hgood d (by omega)).2 x
      rw [hd2] at this
      exact this (by omega) (by have := Nat.div_le_self (count i) 2; omega)
  · rw [h1b x hx, hframe x hx]
    have hnot : ¬ (offset r ≤ x ∧ x < offset r + count r) := fun h => hx ⟨r, hr, h.1, h.2⟩
    simp only [memcpy, if_neg hnot]

/-- The ring all-gather finishes on every rank with the reference all-gather of the rank's
receive buffer. -/
theorem my_allgatherv_ring_reference (size : Nat) (sendbuf : Nat → Stream)
    (count offset : Nat → Nat) (recvbuf : Nat → Stream) (hsize : 1 ≤ size)
    (hd : disjoint_segments size count offset) :
    ∃ bufs, my_allgatherv_ring size sendbuf count recvbuf count offset size = some bufs ∧
      ∀ r, r < size → bufs r = reference_allgatherv size sendbuf count offset (recvbuf r) := by
  have hinit : ∀ r, r < size →
      RingGood (reference_allgatherv size sendbuf count offset (fun _ => 0)) count offset
        size 0 r (memcpy (recvbuf r) (offset r) (sendbuf r) (count r)) := by
    intro r hr d hd0
    obtain ⟨h0a, _⟩ := reference_allgatherv_spec sendbuf count offset (fun _ => 0) size hd
    have hd0 : d = 0 := by omega
    subst hd0
    rw [ring_up_zero hr, ring_dn_zero hr]
    refine ⟨?_, ?_⟩
    · intro x hx1 hx2
      have hx3 : x < offset r + count r := by have := Nat.div_le_self (count r) 2; omega
      rw [h0a r hr x hx1 hx3]
      simp only [memcpy, if_pos (And.intro hx1 hx3)]
    · intro x hx1 hx2
      have hx3 : x < offset r + count r := by have := Nat.div_le_self (count r) 2; omega
      have hx4 : offset r ≤ x := by omega
      rw [h0a r hr x hx4 hx3]
      simp only [memcpy, if_pos (And.intro hx4 hx3)]
  unfold my_allgatherv_ring
  by_cases hs : 2 ≤ size
  · obtain ⟨st', hrun, hfin⟩ := ring_rounds_good
      (reference_allgatherv size sendbuf count offset (fun _ => 0)) count offset size
      MY_EXPAND_TAG1 hs (fun r => memcpy (recvbuf r) (offset r) (sendbuf r) (count r))
      size 0
      { handler := fun rank =>
          (AllgatherHandler.start count offset rank size ((rank + size - 1) % size)
            ((rank + size + 1) % size) MY_EXPAND_TAG1).1
        posts := fun rank =>
          (AllgatherHandler.start count offset rank size ((rank + size - 1) % size)
            ((rank + size + 1) % size) MY_EXPAND_TAG1).2
        buf := fun rank => memcpy (recvbuf rank) (offset rank) (sendbuf rank) (count rank) }
      (by omega) (by omega) (by
        intro r hr
        simp only [ring_start_eq count offset size MY_EXPAND_TAG1 r hs hr]
        exact ⟨trivial, trivial, hinit r hr, fun _ _ => trivial⟩)
    rw [hrun]
    refine ⟨st'.buf, rfl, ?_⟩
    intro r hr
    exact ring_good_reference sendbuf count offset size r hd hr (recvbuf r) (st'.buf r)
      (hfin r hr).1 (hfin r hr).2
  · have h1 : size = 1 := by omega
    subst h1
    rw [ring_rounds_finished]
    · refine ⟨_, rfl, ?_⟩
      intro r hr
      have hr0 : r = 0 := by omega
      subst hr0
      simp [reference_allgatherv, List.range_succ]
    · intro r _
      exact ring_start_one count offset MY_EXPAND_TAG1 r


/-! ### The 2-D all-gather -/

theorem grid_mod {a sx : Nat} (b : Nat) (ha : a < sx) : (a + b * sx) % sx = a := by
  rw [Nat.add_mul_mod_self_right, Nat.mod_eq_of_lt ha]

theorem grid_div {a sx : Nat} (b : Nat) (ha : a < sx) : (a + b * sx) / sx = b := by
  rw [Nat.add_mul_div_right _ _ (by omega), Nat.div_eq_of_lt ha, Nat.zero_add]

theorem grid_lt {a b sx sy : Nat} (ha : a < sx) (hb : b < sy) : a + b * sx < sx * sy := by
  have h1 : (b + 1) * sx ≤ sy * sx := Nat.mul_le_mul_right sx hb
  rw [Nat.mul_comm sx sy]
  rw [Nat.add_mul] at h1
  omega

theorem grid_pos {p sx sy : Nat} (hp : p < sx * sy) : 0 < sx ∧ 0 < sy := by
  refine ⟨?_, ?_⟩
  · rcases Nat.eq_zero_or_pos sx with h | h
    · rw [h, Nat.zero_mul] at hp; omega
    · exact h
  · rcases Nat.eq_zero_or_pos sy with h | h
    · rw [h, Nat.mul_zero] at hp; omega
    · exact h

theorem grid_x_lt {p sx sy : Nat} (hp : p < sx * sy) : p % sx < sx :=
  Nat.mod_lt _ (grid_pos hp).1

theorem grid_y_lt {p sx sy : Nat} (hp : p < sx * sy) : p / sx < sy :=
  Nat.div_lt_of_lt_mul hp

theorem hpos_lt (sx sy : Nat) (dir : Dir) (d i p : Nat) (hp : p < sx * sy) :
    hpos sx sy dir d i p < sx * sy := by
  obtain ⟨hx, hy⟩ := grid_pos hp
  cases dir <;> simp only [hpos] <;>
    first
    | exact grid_lt (ring_up_lt _ _ _ hx) (ring_up_lt _ _ _ hy)
    | exact grid_lt (ring_dn_lt _ _ _ hx) (ring_up_lt _ _ _ hy)
    | exact grid_lt (ring_up_lt _ _ _ hx) (ring_dn_lt _ _ _ hy)

theorem hpos_zero (sx sy : Nat) (dir : Dir) (p : Nat) (hp : p < sx * sy) :
    hpos sx sy dir 0 0 p = p := by
  have hx := grid_x_lt hp
  have hy := grid_y_lt hp
  cases dir <;> simp only [hpos, ring_up_zero hx, ring_up_zero hy, ring_dn_zero hx,
    ring_dn_zero hy, Nat.mod_add_div']

theorem ring_up_add (size k i r : Nat) :
    ring_up size k (ring_up size i r) = ring_up size (i + k) r := by
  simp only [ring_up]
  rw [Nat.mod_add_mod, Nat.add_assoc]

/-- The position `j` places from the neighbour in the direction is `j + 1` places away. -/
theorem hpos_src (sx sy : Nat) (dir : Dir) (j i p : Nat) (hp : p < sx * sy)
    (hj : j + 1 ≤ dir.size sx sy) :
    hpos sx sy dir j i (hpos sx sy dir 1 0 p) = hpos sx sy dir (j + 1) i p := by
  obtain ⟨hx, hy⟩ := grid_pos hp
  have hxl := grid_x_lt hp
  have hyl := grid_y_lt hp
  cases dir
  · simp only [hpos]
    rw [grid_mod _ (ring_up_lt _ _ _ hx), grid_div _ (ring_up_lt _ _ _ hx), ring_up_up,
      ring_up_zero hyl]
  · simp only [hpos]
    rw [grid_mod _ (ring_dn_lt _ _ _ hx), grid_div _ (ring_dn_lt _ _ _ hx),
      ring_dn_dn sx j _ hj, ring_up_zero hyl]
  · simp only [hpos]
    rw [grid_mod _ (ring_up_lt _ _ _ hx), grid_div _ (ring_up_lt _ _ _ hx), ring_up_up,
      ring_up_zero hxl]
  · simp only [hpos]
    rw [grid_mod _ (ring_up_lt _ _ _ hx), grid_div _ (ring_up_lt _ _ _ hx),
      ring_dn_dn sy j _ hj, ring_up_zero hxl]

theorem hpos_neg_src (sx sy : Nat) (dir : Dir) (p : Nat) (hp : p < sx * sy) :
    hpos sx sy dir.neg 1 0 (hpos sx sy dir 1 0 p) = p := by
  obtain ⟨hx, hy⟩ := grid_pos hp
  have hxl := grid_x_lt hp
  have hyl := grid_y_lt hp
  cases dir
  · simp only [hpos, Dir.neg]
    rw [grid_mod _ (ring_up_lt _ _ _ hx), grid_div _ (ring_up_lt _ _ _ hx), ring_dn_up hxl,
      ring_up_zero hyl, ring_up_zero hyl, Nat.mod_add_div']
  · simp only [hpos, Dir.neg]
    rw [grid_mod _ (ring_dn_lt _ _ _ hx), grid_div _ (ring_dn_lt _ _ _ hx), ring_up_dn hxl,
      ring_up_zero hyl, ring_up_zero hyl, Nat.mod_add_div']
  · simp only [hpos, Dir.neg]
    rw [grid_mod _ (ring_up_lt _ _ _ hx), grid_div _ (ring_up_lt _ _ _ hx), ring_dn_up hyl,
      ring_up_zero hxl, ring_up_zero hxl, Nat.mod_add_div']
  · simp only [hpos, Dir.neg]
    rw [grid_mod _ (ring_up_lt _ _ _ hx), grid_div _ (ring_up_lt _ _ _ hx), ring_up_dn hyl,
      ring_up_zero hxl, ring_up_zero hxl, Nat.mod_add_div']

theorem dir_neg_neg (dir : Dir) : dir.neg.neg = dir := by
  cases dir <;> rfl

theorem hpos_src_neg (sx sy : Nat) (dir : Dir) (p : Nat) (hp : p < sx * sy) :
    hpos sx sy dir 1 0 (hpos sx sy dir.neg 1 0 p) = p := by
  have := hpos_neg_src sx sy dir.neg p hp
  rw [dir_neg_neg] at this
  exact this

theorem pos_up (r d i size : Nat) :
    Int.tmod ((r : Int) + 1 * (d : Int) + (if (1 : Int) = 0 then 1 else 0) * (i : Int) +
      (size : Int)) size = ((ring_up size d r : Nat) : Int) := by
  have h : (r : Int) + 1 * (d : Int) + (if (1 : Int) = 0 then 1 else 0) * (i : Int) +
      (size : Int) = ((r + d + size : Nat) : Int) := by
    simp
  rw [h, ← Int.ofNat_tmod, ring_up, Nat.add_mod_right]

theorem pos_dn (r d i size : Nat) (hd : d ≤ size) :
    Int.tmod ((r : Int) + (-1) * (d : Int) + (if (-1 : Int) = 0 then 1 else 0) * (i : Int) +
      (size : Int)) size = ((ring_dn size d r : Nat) : Int) := by
  have h : (r : Int) + (-1) * (d : Int) + (if (-1 : Int) = 0 then 1 else 0) * (i : Int) +
      (size : Int) = ((r + size - d : Nat) : Int) := by
    simp
    omega
  rw [h, ← Int.ofNat_tmod, ring_dn]

theorem pos_idx (r d i size : Nat) :
    Int.tmod ((r : Int) + 0 * (d : Int) + (if True then 1 else 0) * (i : Int) +
      (size : Int)) size = ((ring_up size i r : Nat) : Int) := by
  have h : (r : Int) + 0 * (d : Int) + (if True then 1 else 0) * (i : Int) +
      (size : Int) = ((r + i + size : Nat) : Int) := by
    simp
  rw [h, ← Int.ofNat_tmod, ring_up, Nat.add_mod_right]

theorem grid_toNat (a b sx : Nat) : ((a : Int) + (b : Int) * (sx : Int)).toNat = a + b * sx := by
  rw [← Int.natCast_mul, ← Int.natCast_add, Int.toNat_ofNat]

/-- `AllgatherStep2Handler::get_rank(d, i)` of the handler of process `p` with a direction. -/
theorem step2_get_rank (sx sy : Nat) (rm : Nat → Nat) (dir : Dir) (d i p : Nat)
    (hd : d ≤ dir.size sx sy) :
    AllgatherStep2Handler.get_rank (comm_2d sx sy rm p) dir.unit_x dir.unit_y (d : Int) (i : Int) =
      rm (hpos sx sy dir d i p) := by
  cases dir
  · simp only [AllgatherStep2Handler.get_rank, comm_2d, Dir.unit_x, Dir.unit_y, hpos]
    rw [pos_up, pos_idx, grid_toNat]
  · simp only [AllgatherStep2Handler.get_rank, comm_2d, Dir.unit_x, Dir.unit_y, hpos]
    rw [pos_dn (p % sx) d i sx hd, pos_idx, grid_toNat]
  · simp only [AllgatherStep2Handler.get_rank, comm_2d, Dir.unit_x, Dir.unit_y, hpos]
    rw [pos_up, pos_idx, grid_toNat]
  · simp only [AllgatherStep2Handler.get_rank, comm_2d, Dir.unit_x, Dir.unit_y, hpos]
    rw [pos_dn (p / sx) d i sy hd, pos_idx, grid_toNat]

theorem step2_get_rank_neg (comm : COMM_2D) (dir : Dir) :
    AllgatherStep2Handler.get_rank comm dir.unit_x dir.unit_y (-1) 0 =
      AllgatherStep2Handler.get_rank comm dir.neg.unit_x dir.neg.unit_y ((1 : Nat) : Int)
        ((0 : Nat) : Int) := by
  cases dir <;> simp [AllgatherStep2Handler.get_rank, Dir.unit_x, Dir.unit_y, Dir.neg]

theorem step1_get_rank_eq (comm : COMM_2D) (unit_x unit_y diff : Int) :
    AllgatherStep1Handler.get_rank comm unit_x unit_y diff =
      AllgatherStep2Handler.get_rank comm unit_x unit_y diff ((0 : Nat) : Int) := by
  simp [AllgatherStep1Handler.get_rank, AllgatherStep2Handler.get_rank]

theorem dir_size_neg (sx sy : Nat) (dir : Dir) : dir.neg.size sx sy = dir.size sx sy := by
  cases dir <;> rfl

theorem cast_succ_sub_one (j : Nat) : (((j + 1 : Nat) : Int) - 1) = (j : Int) := by
  push_cast
  omega

theorem step2_recv_from (sx sy : Nat) (rm : Nat → Nat) (dir : Dir) (p : Nat)
    (hs : 1 ≤ dir.size sx sy) :
    AllgatherStep2Handler.get_rank (comm_2d sx sy rm p) dir.unit_x dir.unit_y 1 0 =
      rm (hpos sx sy dir 1 0 p) := by
  simpa using step2_get_rank sx sy rm dir 1 0 p hs

theorem step2_send_to (sx sy : Nat) (rm : Nat → Nat) (dir : Dir) (p : Nat)
    (hs : 1 ≤ dir.size sx sy) :
    AllgatherStep2Handler.get_rank (comm_2d sx sy rm p) dir.unit_x dir.unit_y (-1) 0 =
      rm (hpos sx sy dir.neg 1 0 p) := by
  rw [step2_get_rank_neg]
  exact step2_get_rank sx sy rm dir.neg 1 0 p (by rw [dir_size_neg]; exact hs)

theorem step1_get_rank (sx sy : Nat) (rm : Nat → Nat) (dir : Dir) (d p : Nat)
    (hd : d ≤ dir.size sx sy) :
    AllgatherStep1Handler.get_rank (comm_2d sx sy rm p) dir.unit_x dir.unit_y (d : Int) =
      rm (hpos sx sy dir d 0 p) := by
  rw [step1_get_rank_eq]
  exact step2_get_rank sx sy rm dir d 0 p hd

theorem step1_recv_from (sx sy : Nat) (rm : Nat → Nat) (dir : Dir) (p : Nat)
    (hs : 1 ≤ dir.size sx sy) :
    AllgatherStep1Handler.get_rank (comm_2d sx sy rm p) dir.unit_x dir.unit_y 1 =
      rm (hpos sx sy dir 1 0 p) := by
  simpa using step1_get_rank sx sy rm dir 1 p hs

theorem step1_send_to (sx sy : Nat) (rm : Nat → Nat) (dir : Dir) (p : Nat)
    (hs : 1 ≤ dir.size sx sy) :
    AllgatherStep1Handler.get_rank (comm_2d sx sy rm p) dir.unit_x dir.unit_y (-1) =
      rm (hpos sx sy dir.neg 1 0 p) := by
  rw [step1_get_rank_eq]
  have := step2_send_to sx sy rm dir p hs
  simpa using this

theorem step1_next (sx sy : Nat) (rm cnt off : Nat → Nat) (p : Nat) (c : Line) (j : Nat)
    (hw : c.width = 1) (hs : c.steps ≤ c.dir.size sx sy) (hj : j + 1 < c.steps) :
    AllgatherStep1Handler.next (step1_handler sx sy rm cnt off p c (j + 1)) =
      (step1_handler sx sy rm cnt off p c (j + 2), line_posts sx sy rm cnt off j p c) := by
  unfold AllgatherStep1Handler.next
  rw [if_neg (by simp only [step1_handler]; omega)]
  simp only [step1_handler, cast_succ_sub_one,
    step1_get_rank sx sy rm c.dir j p (by omega),
    step1_get_rank sx sy rm c.dir (j + 1) p (by omega)]
  simp only [line_posts, hw, line_rcv, line_snd]
  rfl

theorem step1_next_fin (sx sy : Nat) (rm cnt off : Nat → Nat) (p : Nat) (c : Line) (k : Nat)
    (hk : c.steps ≤ k) :
    (AllgatherStep1Handler.next (step1_handler sx sy rm cnt off p c k)).1.finished = true ∧
      (AllgatherStep1Handler.next (step1_handler sx sy rm cnt off p c k)).2 = [] := by
  unfold AllgatherStep1Handler.next
  rw [if_pos (by simp only [step1_handler]; omega)]
  exact ⟨rfl, rfl⟩

theorem step1_start (sx sy : Nat) (rm cnt off : Nat → Nat) (p : Nat) (c : Line)
    (hs : 1 ≤ c.dir.size sx sy) :
    AllgatherStep1Handler.start (split_count cnt off c.quarter) (split_offset cnt off c.quarter)
        (comm_2d sx sy rm p) c.dir.unit_x c.dir.unit_y c.steps c.tag =
      AllgatherStep1Handler.next (step1_handler sx sy rm cnt off p c 1) := by
  unfold AllgatherStep1Handler.start
  rw [step1_recv_from sx sy rm c.dir p hs, step1_send_to sx sy rm c.dir p hs]
  rfl

theorem step2_next (sx sy : Nat) (rm cnt off : Nat → Nat) (p : Nat) (c : Line) (j : Nat)
    (hs : c.steps ≤ c.dir.size sx sy) (hj : j + 1 < c.steps) :
    AllgatherStep2Handler.next (step2_handler sx sy rm cnt off p c (j + 1)) =
      (step2_handler sx sy rm cnt off p c (j + 2), line_posts sx sy rm cnt off j p c) := by
  unfold AllgatherStep2Handler.next
  rw [if_neg (by simp only [step2_handler]; omega)]
  refine Prod.ext rfl ?_
  simp only [line_posts]
  congr 1
  funext i
  simp only [step2_handler, AllgatherStep2Handler.next_body, cast_succ_sub_one,
    step2_get_rank sx sy rm c.dir j i p (by omega),
    step2_get_rank sx sy rm c.dir (j + 1) i p (by omega)]
  rfl

theorem step2_next_fin (sx sy : Nat) (rm cnt off : Nat → Nat) (p : Nat) (c : Line) (k : Nat)
    (hk : c.steps ≤ k) :
    (AllgatherStep2Handler.next (step2_handler sx sy rm cnt off p c k)).1.finished = true ∧
      (AllgatherStep2Handler.next (step2_handler sx sy rm cnt off p c k)).2 = [] := by
  unfold AllgatherStep2Handler.next
  rw [if_pos (by simp only [step2_handler]; omega)]
  exact ⟨rfl, rfl⟩

theorem step2_start (sx sy : Nat) (rm cnt off : Nat → Nat) (p : Nat) (c : Line)
    (hs : 1 ≤ c.dir.size sx sy) :
    AllgatherStep2Handler.start (split_count cnt off c.quarter) (split_offset cnt off c.quarter)
        (comm_2d sx sy rm p) c.dir.unit_x c.dir.unit_y c.steps c.width c.tag =
      AllgatherStep2Handler.next (step2_handler sx sy rm cnt off p c 1) := by
  unfold AllgatherStep2Handler.start
  rw [step2_recv_from sx sy rm c.dir p hs, step2_send_to sx sy rm c.dir p hs]
  rfl

theorem mem_line_slots (j : Nat) (cfgs : List Line) (s : Line × Nat) :
    s ∈ line_slots j cfgs ↔ s.1 ∈ cfgs ∧ j + 1 < s.1.steps ∧ s.2 < s.1.width := by
  simp only [line_slots, List.mem_flatMap]
  constructor
  · rintro ⟨c, hc, hs⟩
    by_cases h : j + 1 < c.steps
    · rw [if_pos h] at hs
      obtain ⟨i, hi, rfl⟩ := List.mem_map.1 hs
      exact ⟨hc, h, List.mem_range.1 hi⟩
    · rw [if_neg h] at hs
      simp at hs
  · rintro ⟨hc, h, hi⟩
    refine ⟨s.1, hc, ?_⟩
    rw [if_pos h]
    exact List.mem_map.2 ⟨s.2, List.mem_range.2 hi, rfl⟩

theorem pairs_filter_recv {α : Type} (r s : α → MpiRequest) (hr : ∀ a, (r a).is_send = false)
    (hs : ∀ a, (s a).is_send = true) (l : List α) :
    posted_recvs (l.flatMap (fun a => [r a, s a])) = l.map r ∧
      (l.flatMap (fun a => [r a, s a])).filter (fun q => q.is_send) = l.map s := by
  induction l with
  | nil => exact ⟨rfl, rfl⟩
  | cons a l ih =>
    obtain ⟨ih1, ih2⟩ := ih
    simp only [posted_recvs] at ih1
    simp only [posted_recvs, List.flatMap_cons, List.filter_append, List.map_cons, ih1, ih2]
    simp [hr a, hs a]

theorem line_posts_filter (sx sy : Nat) (rm cnt off : Nat → Nat) (j p : Nat) (c : Line) :
    posted_recvs (line_posts sx sy rm cnt off j p c) =
        ((List.range c.width).map (fun i => (c, i))).map (line_rcv sx sy rm cnt off j p) ∧
      (line_posts sx sy rm cnt off j p c).filter (fun q => q.is_send) =
        ((List.range c.width).map (fun i => (c, i))).map (line_snd sx sy rm cnt off j p) := by
  have := pairs_filter_recv (fun i => line_rcv sx sy rm cnt off j p (c, i))
    (fun i => line_snd sx sy rm cnt off j p (c, i)) (fun _ => rfl) (fun _ => rfl)
    (List.range c.width)
  simp only [List.map_map]
  exact this

theorem stage_posts_filter (sx sy : Nat) (rm cnt off : Nat → Nat) (j p : Nat)
    (cfgs : List Line) :
    posted_recvs (cfgs.flatMap (fun c =>
        if j + 1 < c.steps then line_posts sx sy rm cnt off j p c else [])) =
        (line_slots j cfgs).map (line_rcv sx sy rm cnt off j p) ∧
      (cfgs.flatMap (fun c =>
        if j + 1 < c.steps then line_posts sx sy rm cnt off j p c else [])).filter
          (fun q => q.is_send) =
        (line_slots j cfgs).map (line_snd sx sy rm cnt off j p) := by
  induction cfgs with
  | nil => exact ⟨rfl, rfl⟩
  | cons c cfgs ih =>
    obtain ⟨ih1, ih2⟩ := ih
    simp only [posted_recvs] at ih1
    simp only [posted_recvs, line_slots, List.flatMap_cons, List.filter_append, List.map_append]
    simp only [line_slots] at ih1 ih2
    rw [ih1, ih2]
    by_cases h : j + 1 < c.steps
    · simp only [if_pos h]
      have := line_posts_filter sx sy rm cnt off j p c
      simp only [posted_recvs] at this
      rw [this.1, this.2]
      exact ⟨rfl, rfl⟩
    · simp only [if_neg h]
      exact ⟨rfl, rfl⟩

theorem stage_posts_eq {σ : Type} (finished : σ → Bool) (H : Line → Nat → σ)
    (posts : Nat → Line → List MpiRequest) (j : Nat) :
    ∀ (cfgs : List Line) (hs : List (σ × List MpiRequest)),
      List.Forall₂ (StageRel finished H posts j) cfgs hs →
      hs.flatMap (fun h => h.2) =
        cfgs.flatMap (fun c => if j + 1 < c.steps then posts j c else []) := by
  intro cfgs hs h
  induction h with
  | nil => rfl
  | cons hd _ ih =>
    simp only [List.flatMap_cons, ih]
    rcases hd with ⟨h1, h2⟩ | ⟨h1, _, h3⟩
    · rw [if_pos h1, h2]
    · rw [if_neg (by omega), h3]

theorem line_slot_round (sx sy : Nat) (rm cnt off : Nat → Nat) (cfgs : List Line) (j : Nat)
    (hsteps : ∀ c ∈ cfgs, c.steps ≤ c.dir.size sx sy) (posts : Nat → List MpiRequest)
    (hposts : ∀ p, p < sx * sy → posts p = cfgs.flatMap (fun c =>
      if j + 1 < c.steps then line_posts sx sy rm cnt off j p c else [])) :
    SlotRound (sx * sy) rm posts (line_slots j cfgs) (line_rcv sx sy rm cnt off j)
      (line_snd sx sy rm cnt off j) (fun p s => hpos sx sy s.1.dir 1 0 p)
      (fun p s => hpos sx sy s.1.dir.neg 1 0 p) where
  recvs := fun p hp => by
    rw [hposts p hp]
    exact (stage_posts_filter sx sy rm cnt off j p cfgs).1
  sends := fun p hp => by
    rw [hposts p hp]
    exact (stage_posts_filter sx sy rm cnt off j p cfgs).2
  src_lt := fun p hp s _ => hpos_lt sx sy _ _ _ p hp
  dst_lt := fun p hp s _ => hpos_lt sx sy _ _ _ p hp
  dst_src := fun p hp s _ => hpos_neg_src sx sy _ p hp
  src_dst := fun p hp s _ => hpos_src_neg sx sy _ p hp
  rcv_peer := fun p _ s _ => rfl
  snd_peer := fun p _ s _ => rfl
  tag_eq := fun p _ q _ s _ => rfl
  fits := fun p hp s hs => by
    obtain ⟨h1, h2, _⟩ := (mem_line_slots j cfgs s).1 hs
    have := hsteps s.1 h1
    simp only [line_rcv, line_snd]
    rw [hpos_src sx sy s.1.dir j s.2 p hp (by omega)]

theorem quarter_in_segment (cnt off : Nat → Nat) (q t x : Nat)
    (h1 : split_offset cnt off q t ≤ x)
    (h2 : x < split_offset cnt off q t + split_count cnt off q t) :
    off t ≤ x ∧ x < off t + cnt t := by
  simp only [split_offset, split_count] at h1 h2
  omega

theorem segment_in_quarter (cnt off : Nat → Nat) (t x : Nat)
    (h1 : off t ≤ x) (h2 : x < off t + cnt t) :
    ∃ q, q < 4 ∧ split_offset cnt off q t ≤ x ∧
      x < split_offset cnt off q t + split_count cnt off q t := by
  simp only [split_offset, split_count]
  by_cases c1 : x - off t < (cnt t + 3) / 4
  · exact ⟨0, by omega, by omega, by omega⟩
  · by_cases c2 : x - off t < (cnt t + 3) / 4 * 2
    · exact ⟨1, by omega, by omega, by omega⟩
    · by_cases c3 : x - off t < (cnt t + 3) / 4 * 3
      · exact ⟨2, by omega, by omega, by omega⟩
      · exact ⟨3, by omega, by omega, by omega⟩

/-- One round of a phase of the 2-D path: the posted calls complete, every process then holds
the quarters one place further in the direction of every handler, and the words outside the
segments are as before. -/
theorem line_round_good (R : Stream) (sx sy : Nat) (rm cnt off : Nat → Nat) (cfgs : List Line)
    (j : Nat) (hsteps : ∀ c ∈ cfgs, c.steps ≤ c.dir.size sx sy)
    (hbij : rank_bijection (sx * sy) rm) (posts : Nat → List MpiRequest)
    (hposts : ∀ p, p < sx * sy → posts p = cfgs.flatMap (fun c =>
      if j + 1 < c.steps then line_posts sx sy rm cnt off j p c else []))
    (bufs : Nat → Stream)
    (hgood : ∀ p, p < sx * sy → ∀ c ∈ cfgs, LineGood R sx sy rm cnt off c j p (bufs p)) :
    ∃ bufs', complete_round (sx * sy) rm posts bufs = some bufs' ∧
      (∀ p, p < sx * sy → ∀ c ∈ cfgs, LineGood R sx sy rm cnt off c (j + 1) p (bufs' p)) ∧
      (∀ p, p < sx * sy → ∀ x, ¬ in_segments (sx * sy) cnt off x → bufs' p x = bufs p x) := by
  have H := line_slot_round sx sy rm cnt off cfgs j hsteps posts hposts
  obtain ⟨bufs', h1, h2⟩ := complete_round_slots H hbij.2.1 bufs
  refine ⟨bufs', h1, ?_, ?_⟩
  · intro p hp c hc
    rw [h2 p hp]
    have hcopy := slot_copies_good R bufs (line_rcv sx sy rm cnt off j)
      (line_snd sx sy rm cnt off j) (fun p s => hpos sx sy s.1.dir 1 0 p) p
      (line_slots j cfgs) (bufs p) (by
        intro s hs
        obtain ⟨m1, m2, m3⟩ := (mem_line_slots j cfgs s).1 hs
        have hsz := hsteps s.1 m1
        simp only [line_rcv, line_snd, hpos_src sx sy s.1.dir j s.2 p hp (by omega)]
        refine ⟨trivial, ?_⟩
        intro x hx1 hx2
        have := hgood (hpos sx sy s.1.dir 1 0 p) (hpos_lt sx sy _ _ _ p hp) s.1 m1 j
          (Nat.le_refl _) (by omega) s.2 m3 x
        rw [hpos_src sx sy s.1.dir j s.2 p hp (by omega)] at this
        exact this hx1 hx2)
    intro d hd hds i hi x hx1 hx2
    by_cases hdj : d ≤ j
    · exact hcopy x (Or.inl (hgood p hp c hc d hdj hds i hi x hx1 hx2))
    · have hd1 : d = j + 1 := by omega
      subst hd1
      apply hcopy x
      right
      refine ⟨(c, i), (mem_line_slots j cfgs (c, i)).2 ⟨hc, hds, hi⟩, ?_⟩
      have hsz := hsteps c hc
      simp only [line_rcv, line_snd, hpos_src sx sy c.dir j i p hp (by omega)]
      exact ⟨hx1, hx2⟩
  · intro p hp x hx
    rw [h2 p hp]
    apply slot_copies_frame
    intro s hs hin
    apply hx
    obtain ⟨m1, m2, m3⟩ := (mem_line_slots j cfgs s).1 hs
    have hsz := hsteps s.1 m1
    simp only [line_rcv, line_snd, hpos_src sx sy s.1.dir j s.2 p hp (by omega)] at hin
    have := quarter_in_segment cnt off _ _ x hin.1 hin.2
    exact ⟨rm (hpos sx sy s.1.dir (j + 1) s.2 p), hbij.1 _ (hpos_lt sx sy _ _ _ p hp),
      this.1, this.2⟩

theorem pairs_length {α : Type} (r s : α → MpiRequest) (l : List α) :
    (l.flatMap (fun a => [r a, s a])).length = 2 * l.length := by
  induction l with
  | nil => rfl
  | cons a l ih =>
    simp only [List.flatMap_cons, List.length_append, List.length_cons, List.length_nil, ih]
    omega

theorem stage_posts_length (sx sy : Nat) (rm cnt off : Nat → Nat) (j p : Nat)
    (cfgs : List Line) :
    (cfgs.flatMap (fun c =>
      if j + 1 < c.steps then line_posts sx sy rm cnt off j p c else [])).length ≤
      2 * (cfgs.map (fun c => c.width)).sum := by
  induction cfgs with
  | nil => simp
  | cons c cfgs ih =>
    simp only [List.flatMap_cons, List.length_append, List.map_cons, List.sum_cons]
    have h1 : (if j + 1 < c.steps then line_posts sx sy rm cnt off j p c else []).length ≤
        2 * c.width := by
      split
      · simp only [line_posts]
        rw [pairs_length, List.length_range]
      · simp
    omega

theorem grid_rounds_finished {σ : Type} (n : Nat) (rm : Nat → Nat) (max_requests : Nat)
    (finished : σ → Bool) (next : σ → σ × List MpiRequest) (fuel : Nat) (st : GridState σ)
    (h : (List.range n).all (fun p => (st.handlers p).all (fun h => finished h.1)) = true) :
    grid_rounds n rm max_requests finished next fuel st = some st.buf := by
  cases fuel <;> simp only [grid_rounds, h, if_true]

theorem stage_all_finished {σ : Type} (finished : σ → Bool) (H : Line → Nat → σ)
    (posts : Nat → Line → List MpiRequest) (j : Nat)
    (hH : ∀ c k, finished (H c k) = false) :
    ∀ (cfgs : List Line) (hs : List (σ × List MpiRequest)),
      List.Forall₂ (StageRel finished H posts j) cfgs hs →
      (hs.all (fun h => finished h.1) = true ↔ ∀ c ∈ cfgs, c.steps ≤ j + 1) := by
  intro cfgs hs h
  induction h with
  | nil => simp
  | cons hd _ ih =>
    simp only [List.all_cons, Bool.and_eq_true, ih, List.mem_cons, forall_eq_or_imp]
    rcases hd with ⟨h1, h2⟩ | ⟨h1, h2, _⟩
    · rw [h2]
      simp only [hH, Bool.false_eq_true, false_and, false_iff, not_and]
      intro h
      omega
    · simp only [h2, true_and, h1]

theorem stage_next {σ : Type} (finished : σ → Bool) (next : σ → σ × List MpiRequest)
    (H : Line → Nat → σ) (posts : Nat → Line → List MpiRequest) (j : Nat)
    (hH : ∀ c k, finished (H c k) = false) :
    ∀ (cfgs : List Line) (hs : List (σ × List MpiRequest)),
      (∀ c ∈ cfgs, j + 2 < c.steps → next (H c (j + 2)) = (H c (j + 3), posts (j + 1) c)) →
      (∀ c ∈ cfgs, c.steps ≤ j + 2 →
        finished (next (H c (j + 2))).1 = true ∧ (next (H c (j + 2))).2 = []) →
      List.Forall₂ (StageRel finished H posts j) cfgs hs →
      List.Forall₂ (StageRel finished H posts (j + 1)) cfgs
        (hs.map (fun h => if finished h.1 then (h.1, []) else next h.1)) := by
  intro cfgs hs hn hf h
  induction h with
  | nil => exact List.Forall₂.nil
  | @cons c hq cs hqs hd _ ih =>
    rw [List.map_cons]
    refine List.Forall₂.cons ?_
      (ih (fun c hc => hn c (List.mem_cons_of_mem _ hc))
        (fun c hc => hf c (List.mem_cons_of_mem _ hc)))
    rcases hd with ⟨h1, h2⟩ | ⟨h1, h2, _⟩
    · rw [h2]
      simp only [hH, Bool.false_eq_true, if_false]
      by_cases h3 : j + 2 < c.steps
      · left
        exact ⟨h3, hn c (List.mem_cons_self _ _) h3⟩
      · right
        have := hf c (List.mem_cons_self _ _) (by omega)
        exact ⟨by omega, this.1, this.2⟩
    · right
      rw [if_pos h2]
      exact ⟨by omega, h2, rfl⟩

theorem LineGood_mono (R : Stream) (sx sy : Nat) (rm cnt off : Nat → Nat) (c : Line)
    (j k p : Nat) (buf : Stream) (h : c.steps ≤ j + 1)
    (hg : LineGood R sx sy rm cnt off c j p buf) : LineGood R sx sy rm cnt off c k p buf :=
  fun d _ hds i hi x hx1 hx2 => hg d (by omega) hds i hi x hx1 hx2

/-- A phase of the 2-D path: the rounds of `req_man.run(4)` end, every process then holds the
quarter of every handler for all ranks along the handler's line, and the words outside the
segments are untouched. -/
theorem grid_rounds_good {σ : Type} (finished : σ → Bool) (next : σ → σ × List MpiRequest)
    (H : Nat → Line → Nat → σ) (R : Stream) (sx sy : Nat) (rm cnt off : Nat → Nat)
    (cfgs : List Line) (max_requests : Nat) (init : Nat → Stream)
    (hn : 0 < sx * sy)
    (hsteps : ∀ c ∈ cfgs, c.steps ≤ c.dir.size sx sy)
    (hbij : rank_bijection (sx * sy) rm)
    (hH : ∀ p c k, finished (H p c k) = false)
    (hnext : ∀ p, p < sx * sy → ∀ c ∈ cfgs, ∀ j, j + 2 < c.steps →
      next (H p c (j + 2)) = (H p c (j + 3), line_posts sx sy rm cnt off (j + 1) p c))
    (hnext_fin : ∀ p c k, c.steps ≤ k →
      finished (next (H p c k)).1 = true ∧ (next (H p c k)).2 = [])
    (hmax : 2 * (cfgs.map (fun c => c.width)).sum ≤ max_requests) :
    ∀ (fuel j : Nat) (st : GridState σ),
      (∀ c ∈ cfgs, c.steps ≤ j + 1 + fuel) →
      (∀ p, p < sx * sy → List.Forall₂
        (StageRel finished (H p) (fun j c => line_posts sx sy rm cnt off j p c) j)
        cfgs (st.handlers p)) →
      (∀ p, p < sx * sy → (∀ c ∈ cfgs, LineGood R sx sy rm cnt off c j p (st.buf p)) ∧
        ∀ x, ¬ in_segments (sx * sy) cnt off x → st.buf p x = init p x) →
      ∃ bufs', grid_rounds (sx * sy) rm max_requests finished next fuel st = some bufs' ∧
        ∀ p, p < sx * sy →
          (∀ c ∈ cfgs, ∀ k, LineGood R sx sy rm cnt off c k p (bufs' p)) ∧
          ∀ x, ¬ in_segments (sx * sy) cnt off x → bufs' p x = init p x := by
  intro fuel
  induction fuel with
  | zero =>
    intro j st hfuel hst hgood
    have hall : (List.range (sx * sy)).all
        (fun p => (st.handlers p).all (fun h => finished h.1)) = true := by
      rw [List.all_eq_true]
      intro p hp
      exact (stage_all_finished finished (H p) _ j (hH p) cfgs _
        (hst p (List.mem_range.1 hp))).2 (fun c hc => by have := hfuel c hc; omega)
    rw [grid_rounds_finished _ _ _ _ _ _ _ hall]
    refine ⟨_, rfl, ?_⟩
    intro p hp
    exact ⟨fun c hc k => LineGood_mono R sx sy rm cnt off c j k p _
      (by have := hfuel c hc; omega) ((hgood p hp).1 c hc), (hgood p hp).2⟩
  | succ fuel ih =>
    intro j st hfuel hst hgood
    by_cases hact : ∀ c ∈ cfgs, c.steps ≤ j + 1
    · have hall : (List.range (sx * sy)).all
          (fun p => (st.handlers p).all (fun h => finished h.1)) = true := by
        rw [List.all_eq_true]
        intro p hp
        exact (stage_all_finished finished (H p) _ j (hH p) cfgs _
          (hst p (List.mem_range.1 hp))).2 hact
      rw [grid_rounds_finished _ _ _ _ _ _ _ hall]
      refine ⟨_, rfl, ?_⟩
      intro p hp
      exact ⟨fun c hc k => LineGood_mono R sx sy rm cnt off c j k p _
        (hact c hc) ((hgood p hp).1 c hc), (hgood p hp).2⟩
    · have hall : (List.range (sx * sy)).all
          (fun p => (st.handlers p).all (fun h => finished h.1)) = false := by
        rw [List.all_eq_false]
        refine ⟨0, List.mem_range.2 hn, ?_⟩
        intro h
        exact hact ((stage_all_finished finished (H 0) _ j (hH 0) cfgs _ (hst 0 hn)).1 h)
      have hposts : ∀ p, p < sx * sy → (st.handlers p).flatMap (fun h => h.2) =
          cfgs.flatMap (fun c =>
            if j + 1 < c.steps then line_posts sx sy rm cnt off j p c else []) :=
        fun p hp => stage_posts_eq finished (H p) _ j cfgs _ (hst p hp)
      have hany : (List.range (sx * sy)).any (fun p =>
          decide (max_requests < ((st.handlers p).flatMap (fun h => h.2)).length)) = false := by
        rw [List.any_eq_false]
        intro p hp
        rw [hposts p (List.mem_range.1 hp)]
        have := stage_posts_length sx sy rm cnt off j p cfgs
        simp only [decide_eq_true_eq]
        omega
      obtain ⟨bufs', hround, hg', hf'⟩ := line_round_good R sx sy rm cnt off cfgs j hsteps hbij
        (fun p => (st.handlers p).flatMap (fun h => h.2)) hposts st.buf
        (fun p hp => (hgood p hp).1)
      simp only [grid_rounds, hall, hany, Bool.false_eq_true, if_false, hround]
      apply ih (j + 1)
      · intro c hc
        have := hfuel c hc
        omega
      · intro p hp
        exact stage_next finished next (H p) _ j (hH p) cfgs _
          (fun c hc h => hnext p hp c hc j h)
          (fun c _ h => hnext_fin p c (j + 2) h) (hst p hp)
      · intro p hp
        exact ⟨hg' p hp, fun x hx => (hf' p hp x hx).trans ((hgood p hp).2 x hx)⟩

theorem stage_init {σ : Type} (finished : σ → Bool) (next : σ → σ × List MpiRequest)
    (H : Line → Nat → σ) (posts : Nat → Line → List MpiRequest) :
    ∀ (cfgs : List Line),
      (∀ c ∈ cfgs, 1 < c.steps → next (H c 1) = (H c 2, posts 0 c)) →
      (∀ c ∈ cfgs, c.steps ≤ 1 → finished (next (H c 1)).1 = true ∧ (next (H c 1)).2 = []) →
      List.Forall₂ (StageRel finished H posts 0) cfgs (cfgs.map (fun c => next (H c 1))) := by
  intro cfgs
  induction cfgs with
  | nil => intro _ _; exact List.Forall₂.nil
  | cons c cfgs ih =>
    intro hn hf
    rw [List.map_cons]
    refine List.Forall₂.cons ?_
      (ih (fun c hc => hn c (List.mem_cons_of_mem _ hc))
        (fun c hc => hf c (List.mem_cons_of_mem _ hc)))
    by_cases h : 1 < c.steps
    · left
      exact ⟨h, hn c (List.mem_cons_self _ _) h⟩
    · right
      have := hf c (List.mem_cons_self _ _) (by omega)
      exact ⟨by omega, this.1, this.2⟩

/-- A buffer that agrees with the reference on all segments and is `recvbuf` elsewhere is the
reference all-gather of `recvbuf`. -/
theorem segments_good_reference (sb : Nat → Stream) (cnt off : Nat → Nat) (n : Nat)
    (hd : disjoint_segments n cnt off) (recvbuf buf : Stream)
    (hseg : ∀ x, in_segments n cnt off x →
      buf x = reference_allgatherv n sb cnt off (fun _ => 0) x)
    (hframe : ∀ x, ¬ in_segments n cnt off x → buf x = recvbuf x) :
    buf = reference_allgatherv n sb cnt off recvbuf := by
  funext x
  obtain ⟨h0a, _⟩ := reference_allgatherv_spec sb cnt off (fun _ => 0) n hd
  obtain ⟨h1a, h1b⟩ := reference_allgatherv_spec sb cnt off recvbuf n hd
  by_cases hx : in_segments n cnt off x
  · rw [hseg x hx]
    obtain ⟨i, hi, hx1, hx2⟩ := hx
    rw [h1a i hi x hx1 hx2, h0a i hi x hx1 hx2]
  · rw [h1b x hx, hframe x hx]

theorem step1_lines_steps (sx sy : Nat) : ∀ c ∈ step1_lines sx sy, c.steps ≤ c.dir.size sx sy := by
  intro c hc
  simp only [step1_lines, List.mem_cons, List.mem_singleton, List.not_mem_nil, or_false] at hc
  rcases hc with rfl | rfl | rfl | rfl <;> exact Nat.le_refl _

theorem step2_lines_steps (sx sy : Nat) : ∀ c ∈ step2_lines sx sy, c.steps ≤ c.dir.size sx sy := by
  intro c hc
  simp only [step2_lines, List.mem_cons, List.mem_singleton, List.not_mem_nil, or_false] at hc
  rcases hc with rfl | rfl | rfl | rfl <;> exact Nat.le_refl _

theorem step1_lines_width (sx sy : Nat) : ∀ c ∈ step1_lines sx sy, c.width = 1 := by
  intro c hc
  simp only [step1_lines, List.mem_cons, List.mem_singleton, List.not_mem_nil, or_false] at hc
  rcases hc with rfl | rfl | rfl | rfl <;> rfl

theorem dir_size_pos {p sx sy : Nat} (hp : p < sx * sy) (dir : Dir) : 1 ≤ dir.size sx sy := by
  obtain ⟨hx, hy⟩ := grid_pos hp
  cases dir <;> simp only [Dir.size] <;> omega

/-- The handlers of phase 1 after `start`, as the closed forms. -/
theorem step1_starts (sx sy : Nat) (rm cnt off : Nat → Nat) (p : Nat) (hp : p < sx * sy) :
    [AllgatherStep1Handler.start (split_count cnt off 0) (split_offset cnt off 0)
        (comm_2d sx sy rm p) 1 0 sx MY_EXPAND_TAG1,
      AllgatherStep1Handler.start (split_count cnt off 1) (split_offset cnt off 1)
        (comm_2d sx sy rm p) (-1) 0 sx MY_EXPAND_TAG1,
      AllgatherStep1Handler.start (split_count cnt off 2) (split_offset cnt off 2)
        (comm_2d sx sy rm p) 0 1 sy MY_EXPAND_TAG2,
      AllgatherStep1Handler.start (split_count cnt off 3) (split_offset cnt off 3)
        (comm_2d sx sy rm p) 0 (-1) sy MY_EXPAND_TAG2] =
      (step1_lines sx sy).map (fun c =>
        AllgatherStep1Handler.next (step1_handler sx sy rm cnt off p c 1)) := by
  simp only [step1_lines, List.map_cons, List.map_nil]
  rw [← step1_start sx sy rm cnt off p _ (dir_size_pos hp _),
    ← step1_start sx sy rm cnt off p _ (dir_size_pos hp _),
    ← step1_start sx sy rm cnt off p _ (dir_size_pos hp _),
    ← step1_start sx sy rm cnt off p _ (dir_size_pos hp _)]
  rfl

/-- The handlers of phase 2 after `start`, as the closed forms. -/
theorem step2_starts (sx sy : Nat) (rm cnt off : Nat → Nat) (p : Nat) (hp : p < sx * sy) :
    [AllgatherStep2Handler.start (split_count cnt off 0) (split_offset cnt off 0)
        (comm_2d sx sy rm p) 0 1 sy sx MY_EXPAND_TAG1,
      AllgatherStep2Handler.start (split_count cnt off 1) (split_offset cnt off 1)
        (comm_2d sx sy rm p) 0 (-1) sy sx MY_EXPAND_TAG1,
      AllgatherStep2Handler.start (split_count cnt off 2) (split_offset cnt off 2)
        (comm_2d sx sy rm p) 1 0 sx sy MY_EXPAND_TAG2,
      AllgatherStep2Handler.start (split_count cnt off 3) (split_offset cnt off 3)
        (comm_2d sx sy rm p) (-1) 0 sx sy MY_EXPAND_TAG2] =
      (step2_lines sx sy).map (fun c =>
        AllgatherStep2Handler.next (step2_handler sx sy rm cnt off p c 1)) := by
  simp only [step2_lines, List.map_cons, List.map_nil]
  rw [← step2_start sx sy rm cnt off p _ (dir_size_pos hp _),
    ← step2_start sx sy rm cnt off p _ (dir_size_pos hp _),
    ← step2_start sx sy rm cnt off p _ (dir_size_pos hp _),
    ← step2_start sx sy rm cnt off p _ (dir_size_pos hp _)]
  rfl

/-- Phase 1 of the 2-D path: the four `AllgatherStep1Handler` finish, and every process then
holds quarters 0 and 1 of the ranks of its row and quarters 2 and 3 of the ranks of its
column. -/
theorem phase1_good (R : Stream) (sx sy : Nat) (rm cnt off : Nat → Nat)
    (init bufs0 : Nat → Stream) (fuel : Nat) (hn : 0 < sx * sy)
    (hbij : rank_bijection (sx * sy) rm) (hfx : sx ≤ fuel + 1) (hfy : sy ≤ fuel + 1)
    (h0 : ∀ p, p < sx * sy → (∀ q, QuarterGood R rm cnt off q p (bufs0 p)) ∧
      ∀ x, ¬ in_segments (sx * sy) cnt off x → bufs0 p x = init p x) :
    ∃ bufs1, grid_rounds (sx * sy) rm ((sx + sy) * 4) (fun h => h.finished)
        AllgatherStep1Handler.next fuel
        { handlers := fun p =>
            [AllgatherStep1Handler.start (split_count cnt off 0) (split_offset cnt off 0)
                (comm_2d sx sy rm p) 1 0 sx MY_EXPAND_TAG1,
              AllgatherStep1Handler.start (split_count cnt off 1) (split_offset cnt off 1)
                (comm_2d sx sy rm p) (-1) 0 sx MY_EXPAND_TAG1,
              AllgatherStep1Handler.start (split_count cnt off 2) (split_offset cnt off 2)
                (comm_2d sx sy rm p) 0 1 sy MY_EXPAND_TAG2,
              AllgatherStep1Handler.start (split_count cnt off 3) (split_offset cnt off 3)
                (comm_2d sx sy rm p) 0 (-1) sy MY_EXPAND_TAG2]
          buf := bufs0 } = some bufs1 ∧
      ∀ p, p < sx * sy →
        (∀ c ∈ step1_lines sx sy, ∀ k, LineGood R sx sy rm cnt off c k p (bufs1 p)) ∧
        ∀ x, ¬ in_segments (sx * sy) cnt off x → bufs1 p x = init p x := by
  have hs := step1_lines_steps sx sy
  have hw := step1_lines_width sx sy
  apply grid_rounds_good (fun h => h.finished) AllgatherStep1Handler.next
    (step1_handler sx sy rm cnt off) R sx sy rm cnt off (step1_lines sx sy) ((sx + sy) * 4)
    init hn hs hbij (fun _ _ _ => rfl)
    (fun p _ c hc j hj => step1_next sx sy rm cnt off p c (j + 1) (hw c hc) (hs c hc) hj)
    (fun p c k hk => step1_next_fin sx sy rm cnt off p c k hk)
    (by
      have := grid_pos hn
      simp [step1_lines]
      omega) fuel 0
  · intro c hc
    simp only [step1_lines, List.mem_cons, List.mem_singleton, List.not_mem_nil, or_false] at hc
    rcases hc with rfl | rfl | rfl | rfl <;> simp only <;> omega
  · intro p hp
    simp only [step1_starts sx sy rm cnt off p hp]
    exact stage_init (fun h => h.finished) AllgatherStep1Handler.next
      (step1_handler sx sy rm cnt off p) (fun j c => line_posts sx sy rm cnt off j p c)
      (step1_lines sx sy)
      (fun c hc hj => step1_next sx sy rm cnt off p c 0 (hw c hc) (hs c hc) hj)
      (fun c _ hk => step1_next_fin sx sy rm cnt off p c 1 hk)
  · intro p hp
    refine ⟨?_, (h0 p hp).2⟩
    intro c hc d hd hds i hi x hx1 hx2
    have hd0 : d = 0 := by omega
    have hi0 : i = 0 := by have := hw c hc; omega
    subst hd0 hi0
    rw [hpos_zero sx sy c.dir p hp] at hx1 hx2
    exact (h0 p hp).1 c.quarter x hx1 hx2

theorem cross_cover_x (sx sy i p : Nat) (hp : p < sx * sy) :
    ∃ d, d < sx ∧ hpos sx sy Dir.xm d 0 p = hpos sx sy Dir.ym 0 i p := by
  obtain ⟨hx, hy⟩ := grid_pos hp
  obtain ⟨d, hd1, hd2⟩ := ring_dn_cover (grid_x_lt hp) (ring_up_lt sx i (p % sx) hx)
  refine ⟨d, hd1, ?_⟩
  simp only [hpos]
  rw [hd2, ring_dn_zero (grid_y_lt hp), ring_up_zero (grid_y_lt hp)]

theorem cross_cover_y (sx sy i p : Nat) (hp : p < sx * sy) :
    ∃ d, d < sy ∧ hpos sx sy Dir.ym d 0 p = hpos sx sy Dir.xm 0 i p := by
  obtain ⟨hx, hy⟩ := grid_pos hp
  obtain ⟨d, hd1, hd2⟩ := ring_dn_cover (grid_y_lt hp) (ring_up_lt sy i (p / sx) hy)
  refine ⟨d, hd1, ?_⟩
  simp only [hpos]
  rw [hd2, ring_dn_zero (grid_x_lt hp), ring_up_zero (grid_x_lt hp)]

/-- Every grid position is reached from `p` by some number of places along a direction and some
number of places across it. -/
theorem hpos_cover (sx sy : Nat) (dir : Dir) (p g : Nat) (hp : p < sx * sy)
    (hg : g < sx * sy) :
    ∃ d, d < dir.size sx sy ∧ ∃ i, i < dir.width sx sy ∧ hpos sx sy dir d i p = g := by
  have hxl := grid_x_lt hp
  have hyl := grid_y_lt hp
  obtain ⟨ux, hux1, hux2⟩ := ring_up_cover hxl (grid_x_lt hg)
  obtain ⟨uy, huy1, huy2⟩ := ring_up_cover hyl (grid_y_lt hg)
  obtain ⟨dx, hdx1, hdx2⟩ := ring_dn_cover hxl (grid_x_lt hg)
  obtain ⟨dy, hdy1, hdy2⟩ := ring_dn_cover hyl (grid_y_lt hg)
  cases dir
  · exact ⟨ux, hux1, uy, huy1, by simp only [hpos]; rw [hux2, huy2, Nat.mod_add_div']⟩
  · exact ⟨dx, hdx1, uy, huy1, by simp only [hpos]; rw [hdx2, huy2, Nat.mod_add_div']⟩
  · exact ⟨uy, huy1, ux, hux1, by simp only [hpos]; rw [hux2, huy2, Nat.mod_add_div']⟩
  · exact ⟨dy, hdy1, ux, hux1, by simp only [hpos]; rw [hux2, hdy2, Nat.mod_add_div']⟩

/-- Phase 2 of the 2-D path: the four `AllgatherStep2Handler` finish, and every process then
holds all four quarters of the segments of all ranks. -/
theorem phase2_good (R : Stream) (sx sy : Nat) (rm cnt off : Nat → Nat)
    (init bufs1 : Nat → Stream) (fuel : Nat) (hn : 0 < sx * sy)
    (hbij : rank_bijection (sx * sy) rm) (hfx : sx ≤ fuel + 1) (hfy : sy ≤ fuel + 1)
    (h1 : ∀ p, p < sx * sy →
      (∀ c ∈ step1_lines sx sy, ∀ k, LineGood R sx sy rm cnt off c k p (bufs1 p)) ∧
      ∀ x, ¬ in_segments (sx * sy) cnt off x → bufs1 p x = init p x) :
    ∃ bufs2, grid_rounds (sx * sy) rm ((sx + sy) * 4) (fun h => h.finished)
        AllgatherStep2Handler.next fuel
        { handlers := fun p =>
            [AllgatherStep2Handler.start (split_count cnt off 0) (split_offset cnt off 0)
                (comm_2d sx sy rm p) 0 1 sy sx MY_EXPAND_TAG1,
              AllgatherStep2Handler.start (split_count cnt off 1) (split_offset cnt off 1)
                (comm_2d sx sy rm p) 0 (-1) sy sx MY_EXPAND_TAG1,
              AllgatherStep2Handler.start (split_count cnt off 2) (split_offset cnt off 2)
                (comm_2d sx sy rm p) 1 0 sx sy MY_EXPAND_TAG2,
              AllgatherStep2Handler.start (split_count cnt off 3) (split_offset cnt off 3)
                (comm_2d sx sy rm p) (-1) 0 sx sy MY_EXPAND_TAG2]
          buf := bufs1 } = some bufs2 ∧
      ∀ p, p < sx * sy →
        (∀ q, q < 4 → ∀ g, g < sx * sy → QuarterGood R rm cnt off q g (bufs2 p)) ∧
        ∀ x, ¬ in_segments (sx * sy) cnt off x → bufs2 p x = init p x := by
  have hs := step2_lines_steps sx sy
  obtain ⟨bufs2, hrun, hfin⟩ := grid_rounds_good (fun h => h.finished)
    AllgatherStep2Handler.next
    (step2_handler sx sy rm cnt off) R sx sy rm cnt off (step2_lines sx sy) ((sx + sy) * 4)
    init hn hs hbij (fun _ _ _ => rfl)
    (fun p _ c hc j hj => step2_next sx sy rm cnt off p c (j + 1) (hs c hc) hj)
    (fun p c k hk => step2_next_fin sx sy rm cnt off p c k hk)
    (by
      simp [step2_lines]
      omega) fuel 0
    { handlers := fun p =>
        [AllgatherStep2Handler.start (split_count cnt off 0) (split_offset cnt off 0)
            (comm_2d sx sy rm p) 0 1 sy sx MY_EXPAND_TAG1,
          AllgatherStep2Handler.start (split_count cnt off 1) (split_offset cnt off 1)
            (comm_2d sx sy rm p) 0 (-1) sy sx MY_EXPAND_TAG1,
          AllgatherStep2Handler.start (split_count cnt off 2) (split_offset cnt off 2)
            (comm_2d sx sy rm p) 1 0 sx sy MY_EXPAND_TAG2,
          AllgatherStep2Handler.start (split_count cnt off 3) (split_offset cnt off 3)
            (comm_2d sx sy rm p) (-1) 0 sx sy MY_EXPAND_TAG2]
      buf := bufs1 }
    (by
      intro c hc
      simp only [step2_lines, List.mem_cons, List.mem_singleton, List.not_mem_nil,
        or_false] at hc
      rcases hc with rfl | rfl | rfl | rfl <;> simp only <;> omega)
    (by
      intro p hp
      simp only [step2_starts sx sy rm cnt off p hp]
      exact stage_init (fun h => h.finished) AllgatherStep2Handler.next
        (step2_handler sx sy rm cnt off p) (fun j c => line_posts sx sy rm cnt off j p c)
        (step2_lines sx sy)
        (fun c hc hj => step2_next sx sy rm cnt off p c 0 (hs c hc) hj)
        (fun c _ hk => step2_next_fin sx sy rm cnt off p c 1 hk))
    (by
      intro p hp
      refine ⟨?_, (h1 p hp).2⟩
      intro c hc d hd hds i hi x hx1 hx2
      have hd0 : d = 0 := by omega
      subst hd0
      simp only [step2_lines, List.mem_cons, List.mem_singleton, List.not_mem_nil,
        or_false] at hc
      rcases hc with rfl | rfl | rfl | rfl
      · exact (h1 p hp).1 ⟨Dir.xp, sx, 1, MY_EXPAND_TAG1, 0⟩ (by simp [step1_lines]) i i
          (Nat.le_refl _) hi 0 Nat.zero_lt_one x hx1 hx2
      · obtain ⟨d, hd1, hd2⟩ := cross_cover_x sx sy i p hp
        have := (h1 p hp).1 ⟨Dir.xm, sx, 1, MY_EXPAND_TAG1, 1⟩ (by simp [step1_lines]) d d
          (Nat.le_refl _) hd1 0 Nat.zero_lt_one x
        simp only [hd2] at this
        exact this hx1 hx2
      · exact (h1 p hp).1 ⟨Dir.yp, sy, 1, MY_EXPAND_TAG2, 2⟩ (by simp [step1_lines]) i i
          (Nat.le_refl _) hi 0 Nat.zero_lt_one x hx1 hx2
      · obtain ⟨d, hd1, hd2⟩ := cross_cover_y sx sy i p hp
        have := (h1 p hp).1 ⟨Dir.ym, sy, 1, MY_EXPAND_TAG2, 3⟩ (by simp [step1_lines]) d d
          (Nat.le_refl _) hd1 0 Nat.zero_lt_one x
        simp only [hd2] at this
        exact this hx1 hx2)
  refine ⟨bufs2, hrun, ?_⟩
  intro p hp
  refine ⟨?_, (hfin p hp).2⟩
  intro q hq g hg x hx1 hx2
  have hmem : ∀ c ∈ step2_lines sx sy, c.quarter = q →
      c.width = c.dir.width sx sy → c.steps = c.dir.size sx sy → bufs2 p x = R x := by
    intro c hc hcq hcw hcs
    obtain ⟨d, hd1, i, hi1, hdi⟩ := hpos_cover sx sy c.dir p g hp hg
    have := (hfin p hp).1 c hc d d (Nat.le_refl _) (by omega) i (by omega) x
    rw [hdi, hcq] at this
    exact this hx1 hx2
  have hq4 : q = 0 ∨ q = 1 ∨ q = 2 ∨ q = 3 := by omega
  rcases hq4 with rfl | rfl | rfl | rfl
  · exact hmem ⟨Dir.yp, sy, sx, MY_EXPAND_TAG1, 0⟩ (by simp [step2_lines]) rfl rfl rfl
  · exact hmem ⟨Dir.ym, sy, sx, MY_EXPAND_TAG1, 1⟩ (by simp [step2_lines]) rfl rfl rfl
  · exact hmem ⟨Dir.xp, sx, sy, MY_EXPAND_TAG2, 2⟩ (by simp [step2_lines]) rfl rfl rfl
  · exact hmem ⟨Dir.xm, sx, sy, MY_EXPAND_TAG2, 3⟩ (by simp [step2_lines]) rfl rfl rfl

/-- The 2-D path of `my_allgatherv_2d` finishes on every process with the reference all-gather
of the process's receive buffer. -/
theorem my_allgatherv_2d_reference (sx sy : Nat) (rm : Nat → Nat) (sb : Nat → Stream)
    (cnt off : Nat → Nat) (recvbuf : Nat → Stream) (hsx : 1 ≤ sx) (hsy : 1 ≤ sy)
    (hbij : rank_bijection (sx * sy) rm) (hd : disjoint_segments (sx * sy) cnt off) :
    ∃ bufs, my_allgatherv_2d sx sy rm (fun p => sb (rm p)) (fun p => cnt (rm p)) recvbuf
        cnt off (sx + sy) = some bufs ∧
      ∀ p, p < sx * sy → bufs p = reference_allgatherv (sx * sy) sb cnt off (recvbuf p) := by
  have hn : 0 < sx * sy := Nat.mul_pos hsx hsy
  obtain ⟨h0a, _⟩ := reference_allgatherv_spec sb cnt off (fun _ => 0) (sx * sy) hd
  have h0 : ∀ p, p < sx * sy →
      (∀ q, QuarterGood (reference_allgatherv (sx * sy) sb cnt off (fun _ => 0)) rm cnt off q p
        (memcpy (recvbuf p) (off (rm p)) (sb (rm p)) (cnt (rm p)))) ∧
      ∀ x, ¬ in_segments (sx * sy) cnt off x →
        memcpy (recvbuf p) (off (rm p)) (sb (rm p)) (cnt (rm p)) x =
          memcpy (recvbuf p) (off (rm p)) (sb (rm p)) (cnt (rm p)) x := by
    intro p hp
    refine ⟨?_, fun _ _ => rfl⟩
    intro q x hx1 hx2
    have hseg := quarter_in_segment cnt off q (rm p) x hx1 hx2
    rw [h0a (rm p) (hbij.1 p hp) x hseg.1 hseg.2]
    simp only [memcpy, if_pos hseg]
  obtain ⟨bufs1, hrun1, h1⟩ := phase1_good
    (reference_allgatherv (sx * sy) sb cnt off (fun _ => 0)) sx sy rm cnt off
    (fun p => memcpy (recvbuf p) (off (rm p)) (sb (rm p)) (cnt (rm p)))
    (fun p => memcpy (recvbuf p) (off (rm p)) (sb (rm p)) (cnt (rm p)))
    (sx + sy) hn hbij (by omega) (by omega) h0
  obtain ⟨bufs2, hrun2, h2⟩ := phase2_good
    (reference_allgatherv (sx * sy) sb cnt off (fun _ => 0)) sx sy rm cnt off
    (fun p => memcpy (recvbuf p) (off (rm p)) (sb (rm p)) (cnt (rm p)))
    bufs1 (sx + sy) hn hbij (by omega) (by omega) h1
  refine ⟨bufs2, ?_, ?_⟩
  · simp only [my_allgatherv_2d, hrun1, hrun2]
  · intro p hp
    apply segments_good_reference sb cnt off (sx * sy) hd
    · rintro x ⟨t, ht, hx1, hx2⟩
      obtain ⟨g, hg, rfl⟩ := hbij.2.2 t ht
      obtain ⟨q, hq, hq1, hq2⟩ := segment_in_quarter cnt off (rm g) x hx1 hx2
      exact (h2 p hp).1 q hq g hg x hq1 hq2
    · intro x hx
      rw [(h2 p hp).2 x hx]
      have hnot : ¬ (off (rm p) ≤ x ∧ x < off (rm p) + cnt (rm p)) :=
        fun h => hx ⟨rm p, hbij.1 p hp, h.1, h.2⟩
      simp only [memcpy, if_neg hnot]

theorem ptr_passes_heavy {state : SsspState} (graph : Graph2DCSR) (buffer : PointerData)
    (i : Nat) (hbf : state.is_bellman_ford_ = false) (hlp : state.is_light_phase_ = false) :
    ptr_passes state graph buffer i =
      (!(state.with_settled_ && state.target_is_settled (graph.edge_array_ (buffer.ptr + i))) &&
        (buffer.header.testBit 63 ||
          !isLT (ptr_candidate state graph buffer i).2 state.bucket_upper)) := by
  simp [ptr_passes, ptr_candidate, hbf, hlp]

theorem words_readRow (s : Stream) (c k : Nat) :
    words s c (2 * k) = flattenPairs (readRow s c k) := by
  induction k generalizing c with
  | zero => simp [words_zero, readRow, flattenPairs]
  | succ k ih =>
    rw [show 2 * (k + 1) = (2 * k + 1) + 1 by omega, words_succ, words_succ, ih (c + 2)]
    simp [readRow, flattenPairs]

/-- A stream laid out in blocks is the wire format of the blocks read from it. -/
theorem words_encodePtr (s : Stream) (ks : List Nat) :
    ∀ i, PtrLay s i ks → words s i (layEnd i ks - i) = encodePtr (readBlocks s i ks) := by
  induction ks with
  | nil =>
    intro i _
    simp [layEnd, words_zero, readBlocks, encodePtr]
  | cons k ks ih =>
    intro i h
    obtain ⟨h1, h2⟩ := h
    have hge := layEnd_ge (i + 3 + 2 * k) ks
    simp only [layEnd, readBlocks, encodePtr]
    rw [show layEnd (i + 3 + 2 * k) ks - i =
      ((layEnd (i + 3 + 2 * k) ks - (i + 3 + 2 * k)) + 2 * k + 1 + 1) + 1 by omega,
      words_succ, words_succ, words_succ,
      show layEnd (i + 3 + 2 * k) ks - (i + 3 + 2 * k) + 2 * k =
        2 * k + (layEnd (i + 3 + 2 * k) ks - (i + 3 + 2 * k)) by omega,
      words_append, show i + 1 + 1 = i + 2 by omega, show i + 2 + 1 = i + 3 by omega, h1,
      words_readRow, readRow_length, ih (i + 3 + 2 * k) h2]

theorem layEnd_sum (ks : List Nat) : ∀ i, layEnd i ks = i + (ks.map (fun k => 3 + 2 * k)).sum := by
  induction ks with
  | nil => intro i; simp [layEnd]
  | cons k ks ih =>
    intro i
    simp only [layEnd, ih, List.map_cons, List.sum_cons]
    omega

theorem readBlocks_lengths (s : Stream) (ks : List Nat) :
    ∀ i, (readBlocks s i ks).map (fun b => b.2.2.length) = ks := by
  induction ks with
  | nil => intro i; rfl
  | cons k ks ih =>
    intro i
    simp [readBlocks, readRow_length, ih]

theorem compactPtr_live (bs : List PtrBlock) :
    ∀ b ∈ compactPtr bs, ∀ x ∈ b.2.2, x.2 ≠ get_sentinel := by
  intro b hb x hx
  simp only [compactPtr, List.mem_filter, List.mem_map] at hb
  obtain ⟨⟨b0, _, rfl⟩, _⟩ := hb
  simp only [List.mem_filter, live, decide_eq_true_eq] at hx
  exact hx.2

theorem foldl_add_length (bufs : List Buffer) :
    ∀ a, bufs.foldl (fun c b => c + b.length) a = a + (bufs.map (fun b => b.length)).sum := by
  induction bufs with
  | nil => intro a; simp
  | cons b bufs ih =>
    intro a
    simp only [List.foldl_cons, ih, List.map_cons, List.sum_cons]
    omega

theorem queued_words_length (node : CommTarget) :
    (queued_words node).length = (node.send_data.map (fun b => b.length)).sum := by
  simp only [queued_words]
  induction node.send_data with
  | nil => rfl
  | cons b bufs ih =>
    simp only [List.flatMap_cons, List.length_append, ih, List.map_cons, List.sum_cons,
      buffer_words, words_length]

theorem collect_targets_buffer_pos (SKIP_FILTERING : Bool) (node : CommTarget)
    (graph : Graph2DCSR) (state : SsspState) (off : Nat) (s : Stream) (vp : VPos) :
    (collect_targets_buffer SKIP_FILTERING node graph state off s vp).pos =
      (node.send_data.map (fun b => b.length)).sum := by
  have h := (ctb_copy_spec node.send_data s off).1
  simp only [collect_targets_buffer, h]
  rw [Nat.add_sub_cancel_left]
  exact queued_words_length node

theorem tokAll_length_readToks (s : Stream) (hs : List Bool) :
    ∀ i, 2 * ((readToks s i hs).flatMap tokAll).length = bufEnd i hs - i := by
  induction hs with
  | nil => intro i; simp [readToks, bufEnd]
  | cons h hs ih =>
    intro i
    have hge := bufEnd_ge (i + (if h then 4 else 2)) hs
    have := ih (i + (if h then 4 else 2))
    cases h <;>
      simp only [readToks, bufEnd, List.flatMap_cons, List.length_append, tokAll,
        Bool.false_eq_true, if_false, if_true, List.length_cons, List.length_nil] at hge this ⊢ <;>
      omega

theorem tokLive_length_le (t : Tok) : (tokLive t).length ≤ (tokAll t).length := by
  simp only [tokLive, tokAll, List.length_append]
  have : (if live t.2 = true then [t.2] else []).length ≤ 1 := by
    split <;> simp
  simp only [List.length_cons, List.length_nil]
  omega

theorem flatMap_tokLive_length_le (toks : List Tok) :
    (toks.flatMap tokLive).length ≤ (toks.flatMap tokAll).length := by
  induction toks with
  | nil => simp
  | cons t toks ih =>
    simp only [List.flatMap_cons, List.length_append]
    have := tokLive_length_le t
    omega

/-- `remove_sentinels_buffer` does not lengthen a well-formed stream. -/
theorem remove_sentinels_buffer_le (graph : Graph2DCSR) (read_start write_start : Nat)
    (hs : List Bool) (s : Stream) (vp : VPos) (hlay : BufLay s read_start hs)
    (hle : write_start ≤ read_start) :
    (remove_sentinels_buffer graph read_start write_start
      (bufEnd read_start hs - read_start) s vp).pos ≤ bufEnd read_start hs - read_start := by
  obtain ⟨out, ho, hp, _⟩ := remove_sentinels_buffer_spec graph read_start write_start hs s vp
    hlay hle
  rw [hp, ho, ← tokAll_length_readToks s hs read_start]
  have h1 := (compactBuf_sublist (readToks s read_start hs) []).length_le
  have h2 := flatMap_tokLive_length_le (readToks s read_start hs)
  simp only [List.reverse_nil, List.nil_append] at h1
  omega

theorem foldl_cond_add_two (P : Nat → Bool) (l : List Nat) :
    ∀ a : Nat, l.foldl (fun a i => if P i = true then a + 2 else a) a =
      a + 2 * (l.filter P).length := by
  induction l with
  | nil => intro a; rfl
  | cons i l ih =>
    intro a
    simp only [List.foldl_cons, List.filter_cons, ih]
    cases P i
    · simp
    · simp only [if_true, List.length_cons]
      omega

theorem send_length_ptr_block_eq (T : Nat) (state : SsspState) (graph : Graph2DCSR) (n : Nat)
    (buffer : PointerData) :
    send_length_ptr_block T state graph n buffer =
      n + (if buffer.length = 0 then 0 else 3) +
        2 * ((List.range buffer.length).filter (edge_counted T state graph buffer)).length := by
  unfold send_length_ptr_block
  by_cases hl : buffer.length = 0
  · simp [hl]
  · simp only [hl, if_false]
    rw [← foldl_cond_add_two]
    cases hbf : state.is_bellman_ford_ <;> cases hlp : state.is_light_phase_ <;>
      by_cases hT : T = 1 <;>
      simp only [edge_counted, hbf, hlp, hT, if_true, if_false, Bool.false_eq_true,
        decide_True, decide_False, Bool.and_true, Bool.and_false, ne_eq, not_true_eq_false,
        not_false_eq_true]
    all_goals first
      | (apply foldl_congr_mem
         intro a i _
         cases state.with_settled_ <;>
           cases state.target_is_settled (graph.edge_array_ (buffer.ptr + i)) <;>
           cases f32ge (f32add (graph.edge_weight_array_ (buffer.ptr + i)) buffer.dist)
             state.bucket_upper <;> simp)
      | rw [foldl_add_two, List.length_range]

theorem get_node_send_length_ptr_eq (T : Nat) (state : SsspState) (graph : Graph2DCSR)
    (bufs : List PointerData) :
    ∀ n, bufs.foldl (send_length_ptr_block T state graph) n =
      n + 3 * (bufs.filter (fun b => decide (b.length ≠ 0))).length +
        2 * (bufs.map (fun b =>
          ((List.range b.length).filter (edge_counted T state graph b)).length)).sum := by
  induction bufs with
  | nil => intro n; simp
  | cons b bufs ih =>
    intro n
    simp only [List.foldl_cons, ih, send_length_ptr_block_eq, List.filter_cons, List.map_cons,
      List.sum_cons]
    by_cases hl : b.length = 0
    · simp [hl]
    · simp only [hl, if_false, decide_True, not_false_eq_true, ne_eq, if_true,
        List.length_cons]
      omega

/-! ## The count pass and the expand pass of `run_with_both` -/

theorem getD_set {β : Type} (l : List β) (i j : Nat) (v d : β) :
    (l.set i v).getD j d = if i = j ∧ i < l.length then v else l.getD j d := by
  simp only [List.getD_eq_getElem?_getD, List.getElem?_set]
  by_cases h : i = j
  · subst h
    by_cases h2 : i < l.length
    · simp [h2]
    · simp [h2, List.getElem?_eq_none (Nat.le_of_not_lt h2)]
  · simp [h]

theorem mod_of_lt_two_mul {x n : Nat} (h : x < 2 * n) :
    x % n = if x < n then x else x - n := by
  split
  · rename_i h1
    exact Nat.mod_eq_of_lt h1
  · rename_i h1
    rw [Nat.mod_eq_sub_mod (by omega), Nat.mod_eq_of_lt (by omega)]

theorem dest_of_lt (env : A2AEnv) (c : Nat) (hs : 0 < env.comm_size_) :
    dest_of env c < env.comm_size_ :=
  Nat.mod_lt _ hs

theorem dest_of_inj (env : A2AEnv) {c c' : Nat} (hc : c < env.comm_size_)
    (hc' : c' < env.comm_size_) (h : dest_of env c = dest_of env c') : c = c' := by
  simp only [dest_of] at h
  have hr : env.comm_rank % env.comm_size_ < env.comm_size_ := Nat.mod_lt _ (by omega)
  rw [← Nat.add_mod_mod c env.comm_rank env.comm_size_,
    ← Nat.add_mod_mod c' env.comm_rank env.comm_size_] at h
  generalize env.comm_rank % env.comm_size_ = a at h hr
  rw [mod_of_lt_two_mul (show c + a < 2 * env.comm_size_ by omega),
    mod_of_lt_two_mul (show c' + a < 2 * env.comm_size_ by omega)] at h
  split at h <;> split at h <;> omega

theorem dest_of_surj (env : A2AEnv) {i : Nat} (hi : i < env.comm_size_) :
    ∃ c, c < env.comm_size_ ∧ dest_of env c = i := by
  have hr : env.comm_rank % env.comm_size_ < env.comm_size_ := Nat.mod_lt _ (by omega)
  refine ⟨(i + env.comm_size_ - env.comm_rank % env.comm_size_) % env.comm_size_,
    Nat.mod_lt _ (by omega), ?_⟩
  simp only [dest_of]
  rw [← Nat.add_mod_mod _ env.comm_rank env.comm_size_]
  generalize env.comm_rank % env.comm_size_ = a at hr
  rw [mod_of_lt_two_mul (show i + env.comm_size_ - a < 2 * env.comm_size_ by omega)]
  split
  · rw [mod_of_lt_two_mul (by omega)]
    split <;> omega
  · rw [mod_of_lt_two_mul (by omega)]
    split <;> omega

theorem count_acc_succ (env : A2AEnv) (loop : Nat) (lp lb : List Nat) (k : Nat) :
    count_acc env loop lp lb (k + 1) =
      count_step env loop lp lb (count_acc env loop lp lb k) k := by
  simp [count_acc, List.range_succ, List.foldl_append]

/-- The count pass after `k` iterations: the count of every destination already visited is the
count of the specification, the others are 0, and the flag of a thread is set exactly when one
of its earlier iterations included pointer data. -/
theorem count_acc_spec (env : A2AEnv) (loop : Nat) (lp lb : List Nat) (k : Nat)
    (hk : k ≤ env.comm_size_) :
    (count_acc env loop lp lb k).1.length = env.comm_size_ ∧
    (∀ c, c < env.comm_size_ →
      (count_acc env loop lp lb k).1.getD (dest_of env c) 0 =
        if c < k then spec_count env loop lp lb c else 0) ∧
    (∀ t, (count_acc env loop lp lb k).2 t = true ↔
      ∃ c, c < k ∧ env.thread_of c = t ∧ ptr_included env loop lp lb c = true) := by
  induction k with
  | zero =>
    refine ⟨by simp [count_acc], ?_, ?_⟩
    · intro c hc
      have := dest_of_lt env c (by omega)
      simp [count_acc, List.getD_eq_getElem?_getD, List.getElem?_replicate, this]
    · intro t
      simp [count_acc]
  | succ k ih =>
    obtain ⟨i1, i2, i3⟩ := ih (by omega)
    have hs : 0 < env.comm_size_ := by omega
    have hkl : k < env.comm_size_ := by omega
    have hdl : dest_of env k < (count_acc env loop lp lb k).1.length := by
      rw [i1]; exact dest_of_lt env k hs
    have hold : (count_acc env loop lp lb k).1.getD (dest_of env k) 0 = 0 := by
      rw [i2 k hkl, if_neg (by omega)]
    rw [count_acc_succ]
    have hstep : count_step env loop lp lb (count_acc env loop lp lb k) k =
        ((count_acc env loop lp lb k).1.set (dest_of env k) (spec_count env loop lp lb k),
          if ptr_included env loop lp lb k then
            upd (count_acc env loop lp lb k).2 (env.thread_of k) true
          else (count_acc env loop lp lb k).2) := by
      have hd : (k + env.comm_rank) % env.comm_size_ = dest_of env k := rfl
      have hself : (count_acc env loop lp lb k).1.set (dest_of env k) 0 =
          (count_acc env loop lp lb k).1 := by
        apply List.ext_getElem
        · simp
        · intro n h1 h2
          simp only [List.getElem_set]
          split
          · rename_i heq
            subst heq
            have := hold
            rw [List.getD_eq_getElem _ _ hdl] at this
            exact this.symm
          · rfl
      simp only [count_step, spec_count, ptr_included, thread_has_ptr, hd]
      simp only [List.getD_eq_getElem?_getD]
      by_cases hP : lp[dest_of env k]?.getD 0 = 0
      · by_cases hB : lb[dest_of env k]?.getD 0 = 0
        · simp [hP, hB, hself]
        · have hB' : 0 < lb[dest_of env k]?.getD 0 := Nat.pos_of_ne_zero hB
          simp [hP, hB, hB']
      · have hP' : 0 < lp[dest_of env k]?.getD 0 := Nat.pos_of_ne_zero hP
        by_cases hbig : lb[dest_of env k]?.getD 0 + lp[dest_of env k]?.getD 0 >
            env.max_size / (env.es * env.comm_size_) ∧
            ((count_acc env loop lp lb k).2 (env.thread_of k) = true ∨ loop = 0)
        · have hinc : (decide (0 < lp[dest_of env k]?.getD 0) &&
              !(decide (lb[dest_of env k]?.getD 0 + lp[dest_of env k]?.getD 0 >
                  env.max_size / (env.es * env.comm_size_)) &&
                ((count_acc env loop lp lb k).2 (env.thread_of k) || decide (loop = 0)))) =
              false := by
            simp only [Bool.and_eq_false_iff, decide_eq_false_iff_not, Bool.not_eq_false',
              Bool.and_eq_true, decide_eq_true_eq, Bool.or_eq_true]
            right
            exact hbig
          simp only [hinc, hP, false_and, if_false, if_pos hbig, Bool.false_eq_true]
          by_cases hB : lb[dest_of env k]?.getD 0 = 0
          · simp [hB]
          · have hB' : 0 < lb[dest_of env k]?.getD 0 := Nat.pos_of_ne_zero hB
            simp [hB, hB']
        · have hinc : (decide (0 < lp[dest_of env k]?.getD 0) &&
              !(decide (lb[dest_of env k]?.getD 0 + lp[dest_of env k]?.getD 0 >
                  env.max_size / (env.es * env.comm_size_)) &&
                ((count_acc env loop lp lb k).2 (env.thread_of k) || decide (loop = 0)))) =
              true := by
            simp only [Bool.and_eq_true, decide_eq_true_eq, Bool.not_eq_true',
              Bool.and_eq_false_iff, decide_eq_false_iff_not, Bool.or_eq_false_iff]
            refine ⟨hP', ?_⟩
            by_cases hgt : lb[dest_of env k]?.getD 0 + lp[dest_of env k]?.getD 0 >
                env.max_size / (env.es * env.comm_size_)
            · right
              constructor
              · cases hf : (count_acc env loop lp lb k).2 (env.thread_of k) with
                | false => rfl
                | true => exact absurd ⟨hgt, Or.inl hf⟩ hbig
              · intro hl
                exact hbig ⟨hgt, Or.inr hl⟩
            · left
              exact hgt
          simp only [hinc, hP, false_and, if_false, if_neg hbig, if_true]
          by_cases hB : lb[dest_of env k]?.getD 0 = 0
          · simp [hB]
          · have hB' : 0 < lb[dest_of env k]?.getD 0 := Nat.pos_of_ne_zero hB
            simp [hB']
    rw [hstep]
    refine ⟨by simp [i1], ?_, ?_⟩
    · intro c hc
      simp only [getD_set]
      by_cases hck : c = k
      · subst hck
        rw [if_pos ⟨rfl, hdl⟩, if_pos (by omega)]
      · have hne : ¬ (dest_of env k = dest_of env c ∧
            dest_of env k < (count_acc env loop lp lb k).1.length) :=
          fun h => hck (dest_of_inj env hc hkl h.1.symm)
        rw [if_neg hne, i2 c hc]
        by_cases hlt : c < k
        · rw [if_pos hlt, if_pos (by omega)]
        · rw [if_neg hlt, if_neg (by omega)]
    · intro t
      dsimp only
      constructor
      · intro h
        by_cases hinc : ptr_included env loop lp lb k = true
        · rw [if_pos hinc] at h
          by_cases ht : env.thread_of k = t
          · exact ⟨k, by omega, ht, hinc⟩
          · rw [upd_ne _ _ (fun h => ht h.symm)] at h
            obtain ⟨c, hc, h1, h2⟩ := (i3 t).1 h
            exact ⟨c, by omega, h1, h2⟩
        · rw [if_neg hinc] at h
          obtain ⟨c, hc, h1, h2⟩ := (i3 t).1 h
          exact ⟨c, by omega, h1, h2⟩
      · rintro ⟨c, hc, h1, h2⟩
        by_cases hck : c = k
        · subst hck
          rw [if_pos h2, ← h1, upd_same]
        · have := (i3 t).2 ⟨c, by omega, h1, h2⟩
          split
          · by_cases ht : env.thread_of k = t
            · rw [← ht, upd_same]
            · rw [upd_ne _ _ (fun h => ht h.symm)]
              exact this
          · exact this

theorem count_pass_eq (env : A2AEnv) (loop : Nat) (st : A2AState) :
    count_pass env loop st =
      (count_acc env loop st.node_send_lengths_ptr st.node_send_lengths_buffer
        env.comm_size_).1 := rfl

theorem count_pass_length (env : A2AEnv) (loop : Nat) (st : A2AState) :
    (count_pass env loop st).length = env.comm_size_ :=
  (count_acc_spec env loop _ _ env.comm_size_ (Nat.le_refl _)).1

theorem count_pass_getD (env : A2AEnv) (loop : Nat) (st : A2AState) {c : Nat}
    (hc : c < env.comm_size_) :
    (count_pass env loop st).getD (dest_of env c) 0 =
      spec_count env loop st.node_send_lengths_ptr st.node_send_lengths_buffer c := by
  rw [count_pass_eq, (count_acc_spec env loop _ _ env.comm_size_ (Nat.le_refl _)).2.1 c hc,
    if_pos hc]

theorem thread_has_ptr_iff (env : A2AEnv) (loop : Nat) (lp lb : List Nat) {c : Nat}
    (hc : c < env.comm_size_) :
    thread_has_ptr env loop lp lb c = true ↔
      ∃ c2, c2 < c ∧ env.thread_of c2 = env.thread_of c ∧
        ptr_included env loop lp lb c2 = true :=
  (count_acc_spec env loop lp lb c (Nat.le_of_lt hc)).2.2 (env.thread_of c)

theorem ptr_included_iff (env : A2AEnv) (loop : Nat) (lp lb : List Nat) (c : Nat) :
    ptr_included env loop lp lb c = true ↔
      0 < lp.getD (dest_of env c) 0 ∧
        ¬ (lb.getD (dest_of env c) 0 + lp.getD (dest_of env c) 0 >
            env.max_size / (env.es * env.comm_size_) ∧
          (thread_has_ptr env loop lp lb c = true ∨ loop = 0)) := by
  simp only [ptr_included, Bool.and_eq_true, decide_eq_true_eq, Bool.not_eq_true',
    Bool.and_eq_false_iff, decide_eq_false_iff_not, Bool.or_eq_false_iff, Bool.or_eq_true]
  constructor
  · rintro ⟨h1, h2⟩
    refine ⟨h1, ?_⟩
    rintro ⟨h3, h4⟩
    rcases h2 with h2 | ⟨h5, h6⟩
    · exact h2 h3
    · rcases h4 with h4 | h4
      · rw [h5] at h4
        exact Bool.false_ne_true h4
      · exact h6 h4
  · rintro ⟨h1, h2⟩
    refine ⟨h1, ?_⟩
    by_cases h3 : lb.getD (dest_of env c) 0 + lp.getD (dest_of env c) 0 >
        env.max_size / (env.es * env.comm_size_)
    · right
      constructor
      · cases hf : thread_has_ptr env loop lp lb c with
        | false => rfl
        | true => exact absurd ⟨h3, Or.inl hf⟩ h2
      · intro hl
        exact h2 ⟨h3, Or.inr hl⟩
    · left
      exact h3

theorem spec_count_ne_one (env : A2AEnv) (loop : Nat) (lp lb : List Nat) (c : Nat) :
    spec_count env loop lp lb c ≠ 1 := by
  have hi := ptr_included_iff env loop lp lb c
  unfold spec_count
  split
  · omega
  · split
    · have := (hi.1 (by assumption)).1
      omega
    · split <;> omega

theorem spec_count_gt_iff (env : A2AEnv) (loop : Nat) (lp lb : List Nat) (c : Nat) :
    spec_count env loop lp lb c > lb.getD (dest_of env c) 0 + 1 ↔
      ptr_included env loop lp lb c = true := by
  have hi := ptr_included_iff env loop lp lb c
  unfold spec_count
  split
  · rename_i h0
    constructor
    · intro h
      omega
    · intro h
      have := (hi.1 h).1
      omega
  · split
    · rename_i h1
      have := (hi.1 h1).1
      constructor
      · intro _
        exact h1
      · intro _
        omega
    · rename_i h1
      constructor
      · intro h
        split at h <;> omega
      · intro h
        exact absurd h h1

/-! ## The expand pass and the round loop of run_with_both -/

theorem set_getD_self {α : Type} (l : List α) (i : Nat) (d : α) (v : α)
    (h : l.getD i d = v) : l.set i v = l := by
  subst h
  apply List.ext_getElem
  · simp
  · intro j h1 h2
    rw [List.getElem_set]
    split
    · rename_i hij
      subst hij
      rw [List.getD_eq_getElem _ _ h2]
    · rfl

theorem expand_acc_succ (env : A2AEnv) (graph : Graph2DCSR) (state : SsspState)
    (counts : List Nat) (st : A2AState) (k : Nat) :
    expand_acc env graph state counts st (k + 1) =
      expand_step env graph state counts (expand_acc env graph state counts st k) k := by
  simp [expand_acc, List.range_succ]

theorem expand_step_lens_buffer (env : A2AEnv) (graph : Graph2DCSR) (state : SsspState)
    (counts : List Nat) (acc : A2AState × List Nat) (c : Nat) :
    (expand_step env graph state counts acc c).1.node_send_lengths_buffer =
      if counts.getD (dest_of env c) 0 = 0 then acc.1.node_send_lengths_buffer
      else acc.1.node_send_lengths_buffer.set (dest_of env c) 0 := by
  have hd : (c + env.comm_rank) % env.comm_size_ = dest_of env c := rfl
  by_cases h0 : counts.getD (dest_of env c) 0 = 0
  · simp only [expand_step, hd, h0, if_true]
  · simp only [expand_step, hd, h0, if_false]
    by_cases hb : acc.1.node_send_lengths_buffer.getD (dest_of env c) 0 = 0
    · simp only [hb, ne_eq, not_true_eq_false, decide_False, Bool.false_eq_true, if_false]
      exact (set_getD_self _ _ 0 0 hb).symm
    · simp only [hb, ne_eq, not_false_eq_true, decide_True, if_true]

theorem expand_step_lens_ptr (env : A2AEnv) (graph : Graph2DCSR) (state : SsspState)
    (counts : List Nat) (acc : A2AState × List Nat) (c : Nat) :
    (expand_step env graph state counts acc c).1.node_send_lengths_ptr =
      if counts.getD (dest_of env c) 0 ≠ 0 ∧ counts.getD (dest_of env c) 0 >
          acc.1.node_send_lengths_buffer.getD (dest_of env c) 0 + 1 then
        acc.1.node_send_lengths_ptr.set (dest_of env c) 0
      else acc.1.node_send_lengths_ptr := by
  have hd : (c + env.comm_rank) % env.comm_size_ = dest_of env c := rfl
  by_cases h0 : counts.getD (dest_of env c) 0 = 0
  · simp only [expand_step, hd, h0, if_true, ne_eq, not_true_eq_false, false_and, if_false]
  · simp only [expand_step, hd, h0, if_false, ne_eq, not_false_eq_true, true_and,
      decide_eq_true_eq]

theorem expand_step_send_data (env : A2AEnv) (graph : Graph2DCSR) (state : SsspState)
    (counts : List Nat) (acc : A2AState × List Nat) (c j : Nat) :
    (node_at (expand_step env graph state counts acc c).1 j).send_data =
      if j = dest_of env c ∧ counts.getD (dest_of env c) 0 ≠ 0 ∧
          acc.1.node_send_lengths_buffer.getD (dest_of env c) 0 ≠ 0 then []
      else (node_at acc.1 j).send_data := by
  have hd : (c + env.comm_rank) % env.comm_size_ = dest_of env c := rfl
  by_cases h0 : counts.getD (dest_of env c) 0 = 0
  · simp only [expand_step, hd, h0, if_true, ne_eq, not_true_eq_false, false_and, and_false,
      if_false]
  · simp only [expand_step, hd, h0, if_false, ne_eq, not_false_eq_true, true_and, node_at,
      getD_set]
    simp only [List.getD_eq_getElem?_getD]
    by_cases hj : j = dest_of env c
    · subst hj
      by_cases hl : dest_of env c < acc.1.node_.length
      · by_cases hb : acc.1.node_send_lengths_buffer[dest_of env c]?.getD 0 = 0
        · by_cases hp : 0 + 1 < counts[dest_of env c]?.getD 0 <;> simp [hl, hb, hp]
        · simp [hl, hb]
      · have hdef : acc.1.node_[dest_of env c]? = none := by
          rw [List.getElem?_eq_none_iff]
          omega
        simp [hl, hdef]
    · have hj2 : ¬ dest_of env c = j := fun h => hj h.symm
      simp [hj, hj2]

theorem expand_step_send_lengths (env : A2AEnv) (graph : Graph2DCSR) (state : SsspState)
    (counts : List Nat) (acc : A2AState × List Nat) (c : Nat) :
    (expand_step env graph state counts acc c).2.length = acc.2.length ∧
    ∀ j, j ≠ dest_of env c →
      (expand_step env graph state counts acc c).2.getD j 0 = acc.2.getD j 0 := by
  have hd : (c + env.comm_rank) % env.comm_size_ = dest_of env c := rfl
  by_cases h0 : counts.getD (dest_of env c) 0 = 0
  · simp only [expand_step, hd, h0, if_true, implies_true, and_self]
  · simp only [expand_step, hd, h0, if_false, List.length_set, getD_set, true_and]
    intro j hj
    rw [if_neg (fun h => hj h.1.symm)]

theorem expand_acc_spec (env : A2AEnv) (graph : Graph2DCSR) (state : SsspState)
    (counts : List Nat) (st : A2AState) (k : Nat) (hk : k ≤ env.comm_size_) :
    (expand_acc env graph state counts st k).2.length = counts.length ∧
    ∀ c, c < env.comm_size_ →
      ((expand_acc env graph state counts st k).1.node_send_lengths_buffer.getD
          (dest_of env c) 0 =
        if c < k ∧ counts.getD (dest_of env c) 0 ≠ 0 then 0
        else st.node_send_lengths_buffer.getD (dest_of env c) 0) ∧
      ((expand_acc env graph state counts st k).1.node_send_lengths_ptr.getD
          (dest_of env c) 0 =
        if c < k ∧ counts.getD (dest_of env c) 0 ≠ 0 ∧ counts.getD (dest_of env c) 0 >
            st.node_send_lengths_buffer.getD (dest_of env c) 0 + 1 then 0
        else st.node_send_lengths_ptr.getD (dest_of env c) 0) ∧
      ((node_at (expand_acc env graph state counts st k).1 (dest_of env c)).send_data =
        if c < k ∧ counts.getD (dest_of env c) 0 ≠ 0 ∧
            st.node_send_lengths_buffer.getD (dest_of env c) 0 ≠ 0 then []
        else (node_at st (dest_of env c)).send_data) ∧
      (k ≤ c → (expand_acc env graph state counts st k).2.getD (dest_of env c) 0 =
        counts.getD (dest_of env c) 0) := by
  induction k with
  | zero =>
    refine ⟨rfl, ?_⟩
    intro c _
    simp [expand_acc]
  | succ k ih =>
    obtain ⟨i1, i2⟩ := ih (by omega)
    have hkl : k < env.comm_size_ := by omega
    rw [expand_acc_succ]
    have hbk := (i2 k hkl).1
    rw [if_neg (by omega)] at hbk
    refine ⟨by rw [(expand_step_send_lengths _ _ _ _ _ _).1, i1], ?_⟩
    intro c hc
    obtain ⟨j1, j2, j3, j4⟩ := i2 c hc
    by_cases hck : c = k
    · subst hck
      refine ⟨?_, ?_, ?_, ?_⟩
      · rw [expand_step_lens_buffer]
        by_cases h0 : counts.getD (dest_of env c) 0 = 0
        · rw [if_pos h0, j1, if_neg (by omega), if_neg (fun h => h.2 h0)]
        · rw [if_neg h0, getD_set, if_pos (show c < c + 1 ∧ _ from ⟨by omega, h0⟩)]
          split
          · rfl
          · rename_i hn
            have : ¬ dest_of env c <
                (expand_acc env graph state counts st c).1.node_send_lengths_buffer.length :=
              fun h => hn ⟨rfl, h⟩
            exact List.getD_eq_default _ _ (by omega)
      · rw [expand_step_lens_ptr, hbk]
        by_cases h0 : counts.getD (dest_of env c) 0 ≠ 0 ∧ counts.getD (dest_of env c) 0 >
            st.node_send_lengths_buffer.getD (dest_of env c) 0 + 1
        · rw [if_pos h0, if_pos (show c < c + 1 ∧ _ from ⟨by omega, h0⟩), getD_set]
          split
          · rfl
          · rename_i hn
            have : ¬ dest_of env c <
                (expand_acc env graph state counts st c).1.node_send_lengths_ptr.length :=
              fun h => hn ⟨rfl, h⟩
            exact List.getD_eq_default _ _ (by omega)
        · rw [if_neg h0, if_neg (fun h => h0 h.2), j2, if_neg (by omega)]
      · rw [expand_step_send_data, hbk]
        by_cases h0 : counts.getD (dest_of env c) 0 ≠ 0 ∧
            st.node_send_lengths_buffer.getD (dest_of env c) 0 ≠ 0
        · rw [if_pos (show dest_of env c = dest_of env c ∧ _ from ⟨rfl, h0⟩),
            if_pos (show c < c + 1 ∧ _ from ⟨by omega, h0⟩)]
        · rw [if_neg (fun h => h0 h.2), if_neg (fun h => h0 h.2), j3, if_neg (by omega)]
      · intro h
        omega
    · have hne : dest_of env c ≠ dest_of env k := fun h => hck (dest_of_inj env hc hkl h)
      refine ⟨?_, ?_, ?_, ?_⟩
      · rw [expand_step_lens_buffer]
        have : ((if counts.getD (dest_of env k) 0 = 0 then
              (expand_acc env graph state counts st k).1.node_send_lengths_buffer
            else (expand_acc env graph state counts st k).1.node_send_lengths_buffer.set
              (dest_of env k) 0).getD (dest_of env c) 0) =
            (expand_acc env graph state counts st k).1.node_send_lengths_buffer.getD
              (dest_of env c) 0 := by
          split
          · rfl
          · rw [getD_set, if_neg (fun h => hne h.1.symm)]
        rw [this, j1]
        by_cases hlt : c < k
        · simp only [hlt, true_and, show c < k + 1 by omega]
        · rw [if_neg (fun h => hlt h.1), if_neg (fun h => hlt (by omega))]
      · rw [expand_step_lens_ptr]
        have : ((if counts.getD (dest_of env k) 0 ≠ 0 ∧ counts.getD (dest_of env k) 0 >
              (expand_acc env graph state counts st k).1.node_send_lengths_buffer.getD
                (dest_of env k) 0 + 1 then
              (expand_acc env graph state counts st k).1.node_send_lengths_ptr.set
                (dest_of env k) 0
            else (expand_acc env graph state counts st k).1.node_send_lengths_ptr).getD
              (dest_of env c) 0) =
            (expand_acc env graph state counts st k).1.node_send_lengths_ptr.getD
              (dest_of env c) 0 := by
          split
          · rw [getD_set, if_neg (fun h => hne h.1.symm)]
          · rfl
        rw [this, j2]
        by_cases hlt : c < k
        · simp only [hlt, true_and, show c < k + 1 by omega]
        · rw [if_neg (fun h => hlt h.1), if_neg (fun h => hlt (by omega))]
      · rw [expand_step_send_data, if_neg (fun h => hne h.1), j3]
        by_cases hlt : c < k
        · simp only [hlt, true_and, show c < k + 1 by omega]
        · rw [if_neg (fun h => hlt h.1), if_neg (fun h => hlt (by omega))]
      · intro h
        rw [(expand_step_send_lengths _ _ _ _ _ _).2 _ hne, j4 (by omega)]

theorem spec_count_eq_zero (env : A2AEnv) (loop : Nat) (lp lb : List Nat) (c : Nat)
    (h : spec_count env loop lp lb c = 0) : lb.getD (dest_of env c) 0 = 0 := by
  unfold spec_count at h
  split at h
  · rename_i h0
    exact h0.2
  · split at h
    · omega
    · split at h
      · assumption
      · omega

/-- Once the expand pass has run on the counts of the count pass, every buffer estimate is
zero. -/
theorem expand_pass_lens_buffer (env : A2AEnv) (graph : Graph2DCSR) (state : SsspState)
    (loop : Nat) (st : A2AState) {i : Nat} (hi : i < env.comm_size_) :
    (expand_pass env graph state (count_pass env loop st) st).1.node_send_lengths_buffer.getD
      i 0 = 0 := by
  obtain ⟨c, hc, hci⟩ := dest_of_surj env hi
  subst hci
  have h := ((expand_acc_spec env graph state (count_pass env loop st) st env.comm_size_
    (Nat.le_refl _)).2 c hc).1
  rw [expand_pass, h]
  split
  · rfl
  · rename_i hn
    have h0 : (count_pass env loop st).getD (dest_of env c) 0 = 0 := by
      by_cases h0 : (count_pass env loop st).getD (dest_of env c) 0 = 0
      · exact h0
      · exact absurd ⟨hc, h0⟩ hn
    rw [count_pass_getD env loop st hc] at h0
    exact spec_count_eq_zero env loop _ _ c h0

theorem expand_pass_lens_ptr (env : A2AEnv) (graph : Graph2DCSR) (state : SsspState)
    (loop : Nat) (st : A2AState) {c : Nat} (hc : c < env.comm_size_) :
    (expand_pass env graph state (count_pass env loop st) st).1.node_send_lengths_ptr.getD
      (dest_of env c) 0 =
      if ptr_included env loop st.node_send_lengths_ptr st.node_send_lengths_buffer c = true
      then 0 else st.node_send_lengths_ptr.getD (dest_of env c) 0 := by
  have h := ((expand_acc_spec env graph state (count_pass env loop st) st env.comm_size_
    (Nat.le_refl _)).2 c hc).2.1
  rw [expand_pass, h, count_pass_getD env loop st hc]
  have hg := spec_count_gt_iff env loop st.node_send_lengths_ptr st.node_send_lengths_buffer c
  by_cases hinc : ptr_included env loop st.node_send_lengths_ptr st.node_send_lengths_buffer c
      = true
  · have := hg.2 hinc
    rw [if_pos hinc, if_pos ⟨hc, by omega, this⟩]
  · rw [if_neg hinc, if_neg (fun h => hinc (hg.1 h.2.2))]

theorem expand_pass_send_data (env : A2AEnv) (graph : Graph2DCSR) (state : SsspState)
    (loop : Nat) (st : A2AState) {i : Nat} (hi : i < env.comm_size_) :
    (node_at (expand_pass env graph state (count_pass env loop st) st).1 i).send_data =
      if st.node_send_lengths_buffer.getD i 0 ≠ 0 then [] else (node_at st i).send_data := by
  obtain ⟨c, hc, hci⟩ := dest_of_surj env hi
  subst hci
  have h := ((expand_acc_spec env graph state (count_pass env loop st) st env.comm_size_
    (Nat.le_refl _)).2 c hc).2.2.1
  rw [expand_pass, h]
  by_cases hb : st.node_send_lengths_buffer.getD (dest_of env c) 0 = 0
  · rw [if_neg (fun h => h.2.2 hb), if_neg (fun h => h hb)]
  · have h0 : (count_pass env loop st).getD (dest_of env c) 0 ≠ 0 := by
      rw [count_pass_getD env loop st hc]
      exact fun h0 => hb (spec_count_eq_zero env loop _ _ c h0)
    rw [if_pos ⟨hc, h0, hb⟩, if_pos hb]

theorem round_start_lens_buffer (env : A2AEnv) (graph : Graph2DCSR) (state : SsspState)
    (st : A2AState) (loop : Nat) (hl : 1 ≤ loop) {i : Nat} (hi : i < env.comm_size_) :
    (round_start env graph state st loop).node_send_lengths_buffer.getD i 0 = 0 := by
  cases loop with
  | zero => omega
  | succ loop => exact expand_pass_lens_buffer env graph state loop _ hi

theorem round_start_send_data (env : A2AEnv) (graph : Graph2DCSR) (state : SsspState)
    (st : A2AState) {i : Nat} (hi : i < env.comm_size_)
    (h0 : st.node_send_lengths_buffer.getD i 0 = 0 → (node_at st i).send_data = [])
    (loop : Nat) (hl : 1 ≤ loop) :
    (node_at (round_start env graph state st loop) i).send_data = [] := by
  induction loop with
  | zero => omega
  | succ loop ih =>
    show (node_at (expand_pass env graph state _ (round_start env graph state st loop)).1
      i).send_data = []
    rw [expand_pass_send_data env graph state loop _ hi]
    split
    · rfl
    · rename_i hb
      cases loop with
      | zero => exact h0 (by simpa using hb)
      | succ l => exact ih (by omega)

theorem queued_nonempty_flush (n : CommTarget) (h : queued_nonempty n = true) :
    ∀ b ∈ (flush n).send_data, b.length ≠ 0 := by
  simp only [queued_nonempty, Bool.and_eq_true, List.all_eq_true, decide_eq_true_eq,
    Bool.or_eq_true] at h
  obtain ⟨h1, h2⟩ := h
  unfold flush
  cases hcb : n.cur_buf with
  | none => exact h1
  | some buf =>
    simp only [hcb, Option.isNone_some, Bool.false_eq_true, false_or] at h2
    intro b hb
    simp only [List.mem_append, List.mem_singleton] at hb
    rcases hb with hb | hb
    · exact h1 b hb
    · subst hb
      exact h2

theorem send_length_buffer_eq_zero (n : CommTarget) (h : ∀ b ∈ n.send_data, b.length ≠ 0)
    (h0 : get_node_send_length_buffer n = 0) : n.send_data = [] := by
  unfold get_node_send_length_buffer at h0
  rw [foldl_add_length] at h0
  cases hs : n.send_data with
  | nil => rfl
  | cons b bs =>
    rw [hs] at h0 h
    have := h b (List.mem_cons_self _ _)
    simp only [List.map_cons, List.sum_cons] at h0
    omega

theorem run_with_both_init_send_data (env : A2AEnv) (graph : Graph2DCSR) (state : SsspState)
    (node_ : List CommTarget) (stream : Stream) (vertices_pos : VPos)
    (hq : ∀ n ∈ node_, queued_nonempty n = true) (i : Nat)
    (h0 : (run_with_both_init env graph state node_ stream
      vertices_pos).node_send_lengths_buffer.getD i 0 = 0) :
    (node_at (run_with_both_init env graph state node_ stream vertices_pos) i).send_data =
      [] := by
  simp only [run_with_both_init, node_at] at h0 ⊢
  by_cases hi : i < node_.length
  · rw [List.getD_eq_getElem _ _ (by simpa using hi)] at h0 ⊢
    simp only [List.getElem_map] at h0 ⊢
    exact send_length_buffer_eq_zero _
      (queued_nonempty_flush _ (hq _ (List.getElem_mem _))) h0
  · rw [List.getD_eq_default _ _ (by simpa using hi)]

theorem run_with_both_loop_succ (env : A2AEnv) (graph : Graph2DCSR) (state : SsspState)
    (fuel loop : Nat) (st : A2AState) :
    run_with_both_loop env graph state (fuel + 1) loop st =
      if (count_pass env loop st).sum > env.max_size / env.es then RunOutcome.aborted loop
      else if loop > 0 ∧
          ¬ ((count_pass env loop st).sum > 0 ∨ env.others_have_data loop = true) then
        RunOutcome.finished st loop
      else run_with_both_loop env graph state fuel (loop + 1)
        (expand_pass env graph state (count_pass env loop st) st).1 := rfl

theorem run_with_both_eq (env : A2AEnv) (graph : Graph2DCSR) (state : SsspState)
    (node_ : List CommTarget) (stream : Stream) (vertices_pos : VPos) (fuel : Nat) :
    run_with_both env graph state node_ stream vertices_pos fuel =
      run_with_both_loop env graph state fuel 0
        (run_with_both_init env graph state node_ stream vertices_pos) := rfl

/-- A round loop that is left without an abort is left at the start of a round `l ≥ 1`, in the
state `round_start l`, and that round is the first one from round 1 on in which neither this
rank nor another rank schedules data. -/
theorem run_with_both_loop_finished (env : A2AEnv) (graph : Graph2DCSR) (state : SsspState)
    (st0 : A2AState) (fuel : Nat) :
    ∀ (k : Nat) (st : A2AState) (l : Nat),
      run_with_both_loop env graph state fuel k (round_start env graph state st0 k) =
        RunOutcome.finished st l →
      k ≤ l ∧ 1 ≤ l ∧ st = round_start env graph state st0 l ∧
        (count_pass env l st).sum = 0 ∧ env.others_have_data l = false ∧
        ∀ j, k ≤ j → j < l → 1 ≤ j →
          (count_pass env j (round_start env graph state st0 j)).sum > 0 ∨
            env.others_have_data j = true := by
  induction fuel with
  | zero =>
    intro k st l h
    simp [run_with_both_loop] at h
  | succ fuel ih =>
    intro k st l h
    rw [run_with_both_loop_succ] at h
    split at h
    · cases h
    · split at h
      · rename_i hex
        injection h with h1 h2
        subst h1
        subst h2
        refine ⟨Nat.le_refl _, hex.1, rfl, ?_, ?_, ?_⟩
        · have := hex.2
          omega
        · cases ho : env.others_have_data k with
          | false => rfl
          | true => exact absurd (Or.inr ho) hex.2
        · intro j h1 h2
          omega
      · rename_i hex
        obtain ⟨h1, h2, h3, h4, h5, h6⟩ := ih (k + 1) st l h
        refine ⟨by omega, h2, h3, h4, h5, ?_⟩
        intro j hj1 hj2 hj3
        by_cases hjk : j = k
        · subst hjk
          by_cases hs : (count_pass env j (round_start env graph state st0 j)).sum > 0 ∨
              env.others_have_data j = true
          · exact hs
          · exact absurd ⟨by omega, hs⟩ hex
        · exact h6 j (by omega) hj2 hj3

/-- An iteration of the expand pass for a destination whose buffer estimate is zero: the slab
is empty (`send_lengths[i] = 0`) or it is the length word followed by that many words of
pointer origin and nothing else. -/
theorem expand_step_no_buffer (env : A2AEnv) (graph : Graph2DCSR) (state : SsspState)
    (counts : List Nat) (acc : A2AState × List Nat) (c : Nat)
    (hb : acc.1.node_send_lengths_buffer.getD (dest_of env c) 0 = 0)
    (hl : dest_of env c < acc.2.length)
    (hs : acc.2.getD (dest_of env c) 0 = counts.getD (dest_of env c) 0) :
    (expand_step env graph state counts acc c).2.getD (dest_of env c) 0 = 0 ∨
    (expand_step env graph state counts acc c).2.getD (dest_of env c) 0 =
      1 + (expand_step env graph state counts acc c).1.stream
        (scatter_offset counts (dest_of env c)) := by
  have hd : (c + env.comm_rank) % env.comm_size_ = dest_of env c := rfl
  by_cases h0 : counts.getD (dest_of env c) 0 = 0
  · left
    simp only [expand_step, hd, h0, if_true]
    rw [hs, h0]
  · simp only [expand_step, hd, h0, if_false, hb, ne_eq, not_true_eq_false, decide_False,
      Bool.false_eq_true, getD_set, hl, and_self, if_true, Nat.add_zero]
    by_cases hp : counts.getD (dest_of env c) 0 > 0 + 1
    · simp only [hp, decide_True, if_true, upd_same]
      by_cases hz : (run_with_both_merge env.SKIP_FILTERING
          (acc.1.node_.getD (dest_of env c) ⟨0, 0, none, [], []⟩) state graph true false
          (shift (upd acc.1.stream (scatter_offset counts (dest_of env c)) 0)
            (scatter_offset counts (dest_of env c) + 1))
          (shift acc.1.vertices_pos
            (env.thread_of c * graph.num_local_verts_))).length_ptr_reduced = 0
      · left
        simp only [List.getD_eq_getElem?_getD] at hz
        simp [hz]
      · right
        simp only [List.getD_eq_getElem?_getD] at hz
        simp [hz]
    · left
      simp only [List.getD_eq_getElem?_getD] at hp
      simp only [List.getD_eq_getElem?_getD]
      simp
      intro h
      omega

theorem spec_count_ge (env : A2AEnv) (loop : Nat) (lp lb : List Nat) (c : Nat)
    (h : lb.getD (dest_of env c) 0 ≠ 0) :
    1 + lb.getD (dest_of env c) 0 ≤ spec_count env loop lp lb c := by
  unfold spec_count
  split
  · rename_i h0
    exact absurd h0.2 h
  · split
    · omega
    · exact Nat.le_refl _

theorem expand_acc_send_lengths_stable (env : A2AEnv) (graph : Graph2DCSR) (state : SsspState)
    (counts : List Nat) (st : A2AState) {c : Nat} (hc : c < env.comm_size_) (k : Nat)
    (hk : c + 1 + k ≤ env.comm_size_) :
    (expand_acc env graph state counts st (c + 1 + k)).2.getD (dest_of env c) 0 =
      (expand_acc env graph state counts st (c + 1)).2.getD (dest_of env c) 0 := by
  induction k with
  | zero => rfl
  | succ k ih =>
    rw [show c + 1 + (k + 1) = (c + 1 + k) + 1 by omega, expand_acc_succ,
      (expand_step_send_lengths _ _ _ _ _ _).2 _
        (fun h => absurd (dest_of_inj env hc (by omega) h) (by omega)),
      ih (by omega)]

theorem expand_pass_send_lengths (env : A2AEnv) (graph : Graph2DCSR) (state : SsspState)
    (counts : List Nat) (st : A2AState) {c : Nat} (hc : c < env.comm_size_) :
    (expand_pass env graph state counts st).2.getD (dest_of env c) 0 =
      (expand_step env graph state counts (expand_acc env graph state counts st c) c).2.getD
        (dest_of env c) 0 := by
  have h := expand_acc_send_lengths_stable env graph state counts st hc
    (env.comm_size_ - (c + 1)) (by omega)
  rw [show c + 1 + (env.comm_size_ - (c + 1)) = env.comm_size_ by omega] at h
  rw [expand_pass, h, expand_acc_succ]

/-! ### Pending pointer data and termination of the round loop -/

theorem dest_perm (env : A2AEnv) :
    ((List.range env.comm_size_).map (dest_of env)).Perm (List.range env.comm_size_) := by
  rw [List.perm_ext_iff_of_nodup]
  · intro a
    simp only [List.mem_map, List.mem_range]
    constructor
    · rintro ⟨c, hc, rfl⟩
      exact dest_of_lt env c (by omega)
    · intro ha
      exact dest_of_surj env ha
  · apply List.Nodup.map_on
    · intro x hx y hy h
      exact dest_of_inj env (List.mem_range.1 hx) (List.mem_range.1 hy) h
    · exact List.nodup_range _
  · exact List.nodup_range _

theorem pending_eq (env : A2AEnv) (st : A2AState) :
    pending env st = ((List.range env.comm_size_).filter
      (fun c => decide (st.node_send_lengths_ptr.getD (dest_of env c) 0 ≠ 0))).length := by
  unfold pending
  rw [← ((dest_perm env).filter _).length_eq, List.filter_map, List.length_map]
  rfl

/-- From round 1 on, the first destination with a non-zero pointer estimate that a thread
meets is included, whatever its size. -/
theorem first_included (env : A2AEnv) (loop : Nat) (lp lb : List Nat) {c : Nat}
    (hc : c < env.comm_size_) (hl : loop ≠ 0) (hp : lp.getD (dest_of env c) 0 ≠ 0)
    (hfirst : ∀ c2, c2 < c → env.thread_of c2 = env.thread_of c →
      lp.getD (dest_of env c2) 0 = 0) :
    ptr_included env loop lp lb c = true := by
  rw [ptr_included_iff]
  refine ⟨Nat.pos_of_ne_zero hp, ?_⟩
  rintro ⟨_, h | h⟩
  · obtain ⟨c2, h1, h2, h3⟩ := (thread_has_ptr_iff env loop lp lb hc).1 h
    have := ((ptr_included_iff env loop lp lb c2).1 h3).1
    have := hfirst c2 h1 h2
    omega
  · exact hl h

theorem thread_includes (env : A2AEnv) (loop : Nat) (lp lb : List Nat) (hl : loop ≠ 0) :
    ∀ c, c < env.comm_size_ → lp.getD (dest_of env c) 0 ≠ 0 →
      ∃ c1, c1 ≤ c ∧ env.thread_of c1 = env.thread_of c ∧ lp.getD (dest_of env c1) 0 ≠ 0 ∧
        (∀ c2, c2 < c1 → env.thread_of c2 = env.thread_of c →
          lp.getD (dest_of env c2) 0 = 0) ∧
        ptr_included env loop lp lb c1 = true := by
  intro c
  induction c using Nat.strong_induction_on with
  | _ c ih =>
    intro hc hp
    by_cases hfirst : ∀ c2, c2 < c → env.thread_of c2 = env.thread_of c →
        lp.getD (dest_of env c2) 0 = 0
    · exact ⟨c, Nat.le_refl _, rfl, hp, hfirst, first_included env loop lp lb hc hl hp hfirst⟩
    · simp only [not_forall] at hfirst
      obtain ⟨c2, h1, h2, h3⟩ := hfirst
      obtain ⟨c1, g1, g2, g3, g4, g5⟩ := ih c2 h1 (by omega) h3
      refine ⟨c1, by omega, g2.trans h2, g3, ?_, g5⟩
      intro c3 h4 h5
      exact g4 c3 h4 (h5.trans h2.symm)

theorem filter_length_le_of_imp {α : Type} (l : List α) (p q : α → Bool)
    (h : ∀ x ∈ l, p x = true → q x = true) : (l.filter p).length ≤ (l.filter q).length := by
  rw [← List.countP_eq_length_filter, ← List.countP_eq_length_filter]
  exact List.countP_mono_left h

theorem filter_length_lt_of_imp {α : Type} (l : List α) (p q : α → Bool)
    (h : ∀ x ∈ l, p x = true → q x = true) (x : α) (hx : x ∈ l) (hq : q x = true)
    (hp : p x = false) : (l.filter p).length < (l.filter q).length := by
  induction l with
  | nil => simp at hx
  | cons a l ih =>
    have hl : ∀ y ∈ l, p y = true → q y = true := fun y hy => h y (List.mem_cons_of_mem _ hy)
    rcases List.mem_cons.1 hx with hxa | hxl
    · subst hxa
      have := filter_length_le_of_imp l p q hl
      rw [List.filter_cons_of_neg (by simp [hp]), List.filter_cons_of_pos hq,
        List.length_cons]
      omega
    · have := ih hl hxl
      have ha := h a (List.mem_cons_self _ _)
      cases hpa : p a with
      | true =>
        rw [List.filter_cons_of_pos hpa, List.filter_cons_of_pos (ha hpa), List.length_cons,
          List.length_cons]
        omega
      | false =>
        rw [List.filter_cons_of_neg (by simp [hpa])]
        cases hqa : q a with
        | true =>
          rw [List.filter_cons_of_pos hqa, List.length_cons]
          omega
        | false =>
          rw [List.filter_cons_of_neg (by simp [hqa])]
          exact this

theorem pending_le (env : A2AEnv) (st : A2AState) : pending env st ≤ env.comm_size_ := by
  unfold pending
  have := List.length_filter_le
    (fun i => decide (st.node_send_lengths_ptr.getD i 0 ≠ 0)) (List.range env.comm_size_)
  rw [List.length_range] at this
  exact this

theorem pending_expand_le (env : A2AEnv) (graph : Graph2DCSR) (state : SsspState)
    (loop : Nat) (st : A2AState) :
    pending env (expand_pass env graph state (count_pass env loop st) st).1 ≤
      pending env st := by
  rw [pending_eq, pending_eq]
  apply filter_length_le_of_imp
  intro c hc h
  have hc2 := List.mem_range.1 hc
  rw [expand_pass_lens_ptr env graph state loop st hc2] at h
  split at h
  · simp at h
  · exact h

theorem pending_expand_lt (env : A2AEnv) (graph : Graph2DCSR) (state : SsspState)
    (loop : Nat) (st : A2AState) (hl : loop ≠ 0) (hp : 0 < pending env st) :
    pending env (expand_pass env graph state (count_pass env loop st) st).1 <
      pending env st := by
  rw [pending_eq] at hp
  obtain ⟨c, hcm⟩ := List.exists_mem_of_length_pos hp
  rw [List.mem_filter] at hcm
  obtain ⟨hc, hne⟩ := hcm
  have hc2 := List.mem_range.1 hc
  obtain ⟨c1, g1, _, g3, _, g5⟩ := thread_includes env loop st.node_send_lengths_ptr
    st.node_send_lengths_buffer hl c hc2 (by simpa using hne)
  have hc1 : c1 < env.comm_size_ := by omega
  rw [pending_eq, pending_eq]
  apply filter_length_lt_of_imp _ _ _ _ c1 (List.mem_range.2 hc1)
  · simpa using g3
  · rw [expand_pass_lens_ptr env graph state loop st hc1, if_pos g5]
    simp
  · intro c hc h
    have hc2 := List.mem_range.1 hc
    rw [expand_pass_lens_ptr env graph state loop st hc2] at h
    split at h
    · simp at h
    · exact h

theorem count_pass_sum_zero (env : A2AEnv) (loop : Nat) (st : A2AState)
    (hb : ∀ i, i < env.comm_size_ → st.node_send_lengths_buffer.getD i 0 = 0)
    (hp : pending env st = 0) : (count_pass env loop st).sum = 0 := by
  apply List.sum_eq_zero
  intro x hx
  obtain ⟨j, hj, rfl⟩ := List.getElem_of_mem hx
  have hjn : j < env.comm_size_ := by
    rw [count_pass_length] at hj
    exact hj
  obtain ⟨c, hc, hcj⟩ := dest_of_surj env hjn
  subst hcj
  have h := count_pass_getD env loop st hc
  rw [List.getD_eq_getElem _ _ hj] at h
  rw [h]
  have hlp : st.node_send_lengths_ptr.getD (dest_of env c) 0 = 0 := by
    unfold pending at hp
    rw [List.length_eq_zero, List.filter_eq_nil_iff] at hp
    have := hp (dest_of env c) (List.mem_range.2 hjn)
    simpa using this
  rw [spec_count, if_pos ⟨hlp, hb _ hjn⟩]

theorem count_pass_sum_pos (env : A2AEnv) (loop : Nat) (st : A2AState) (hl : loop ≠ 0)
    (hp : 0 < pending env st) : 0 < (count_pass env loop st).sum := by
  rw [pending_eq] at hp
  obtain ⟨c, hcm⟩ := List.exists_mem_of_length_pos hp
  rw [List.mem_filter] at hcm
  obtain ⟨hc, hne⟩ := hcm
  have hc2 := List.mem_range.1 hc
  obtain ⟨c1, g1, _, g3, _, g5⟩ := thread_includes env loop st.node_send_lengths_ptr
    st.node_send_lengths_buffer hl c hc2 (by simpa using hne)
  have hc1 : c1 < env.comm_size_ := by omega
  have h := count_pass_getD env loop st hc1
  have hlen : dest_of env c1 < (count_pass env loop st).length := by
    rw [count_pass_length]
    exact dest_of_lt env c1 (by omega)
  rw [List.getD_eq_getElem _ _ hlen] at h
  have hmem : (count_pass env loop st)[dest_of env c1] ∈ count_pass env loop st :=
    List.getElem_mem _
  have hle := List.single_le_sum (fun x _ => Nat.zero_le x) _ hmem
  have hg := (spec_count_gt_iff env loop st.node_send_lengths_ptr
    st.node_send_lengths_buffer c1).2 g5
  omega

/-- From round 1 on, with no other rank holding data from round `K` on, the round loop aborts
or is left no later than round `max K (comm_size_ + 1)`. -/
theorem run_with_both_loop_terminates (env : A2AEnv) (graph : Graph2DCSR) (state : SsspState)
    (K : Nat) (hK : ∀ l, K ≤ l → env.others_have_data l = false) (fuel : Nat) :
    ∀ (loop : Nat) (st : A2AState), 1 ≤ loop → loop ≤ max K (env.comm_size_ + 1) →
      max K (env.comm_size_ + 1) + 1 ≤ loop + fuel →
      (∀ i, i < env.comm_size_ → st.node_send_lengths_buffer.getD i 0 = 0) →
      pending env st ≤ env.comm_size_ + 1 - loop →
      (∃ l, run_with_both_loop env graph state fuel loop st = RunOutcome.aborted l) ∨
      (∃ st2 l, run_with_both_loop env graph state fuel loop st = RunOutcome.finished st2 l ∧
        l ≤ max K (env.comm_size_ + 1)) := by
  induction fuel with
  | zero =>
    intro loop st h1 h2 h3 _ _
    omega
  | succ fuel ih =>
    intro loop st h1 h2 h3 hb hp
    rw [run_with_both_loop_succ]
    split
    · exact Or.inl ⟨loop, rfl⟩
    · split
      · exact Or.inr ⟨st, loop, rfl, h2⟩
      · rename_i hex
        have hlt : loop < max K (env.comm_size_ + 1) := by
          by_contra hge
          have hK2 : K ≤ loop := by
            have := Nat.le_max_left K (env.comm_size_ + 1)
            omega
          have hn : env.comm_size_ + 1 ≤ loop := by
            have := Nat.le_max_right K (env.comm_size_ + 1)
            omega
          have hp0 : pending env st = 0 := by omega
          have hs := count_pass_sum_zero env loop st hb hp0
          apply hex
          refine ⟨h1, ?_⟩
          rintro (h | h)
          · omega
          · rw [hK loop hK2] at h
            exact Bool.false_ne_true h
        apply ih (loop + 1) _ (by omega) (by omega) (by omega)
        · intro i hi
          exact expand_pass_lens_buffer env graph state loop st hi
        · by_cases hp0 : pending env st = 0
          · have := pending_expand_le env graph state loop st
            omega
          · have := pending_expand_lt env graph state loop st (by omega) (by omega)
            omega

theorem run_with_both_terminates (env : A2AEnv) (graph : Graph2DCSR) (state : SsspState)
    (K : Nat) (hK : ∀ l, K ≤ l → env.others_have_data l = false) (fuel : Nat)
    (hf : max K (env.comm_size_ + 1) + 1 ≤ fuel) (st : A2AState) :
    (∃ l, run_with_both_loop env graph state fuel 0 st = RunOutcome.aborted l) ∨
    (∃ st2 l, run_with_both_loop env graph state fuel 0 st = RunOutcome.finished st2 l ∧
      l ≤ max K (env.comm_size_ + 1)) := by
  cases fuel with
  | zero => omega
  | succ fuel =>
    rw [run_with_both_loop_succ]
    split
    · exact Or.inl ⟨0, rfl⟩
    · rw [if_neg (fun h => absurd h.1 (Nat.lt_irrefl 0))]
      apply run_with_both_loop_terminates env graph state K hK fuel 1 _ (Nat.le_refl _)
      · have := Nat.le_max_right K (env.comm_size_ + 1)
        omega
      · omega
      · intro i hi
        exact expand_pass_lens_buffer env graph state 0 st hi
      · have := pending_le env (expand_pass env graph state (count_pass env 0 st) st).1
        omega

/-! ## The request pool -/

theorem all_free_iff (m : MpiRequestManager) (h : free_list_ok m) :
    (∀ s, s < m.MAX_REQUESTS → s ∈ m.empty_list) ↔ m.empty_list.length = m.MAX_REQUESTS := by
  obtain ⟨hnd, hlt⟩ := h
  have hsub : m.empty_list ⊆ List.range m.MAX_REQUESTS :=
    fun s hs => List.mem_range.2 (hlt s hs)
  constructor
  · intro hall
    have hsub2 : List.range m.MAX_REQUESTS ⊆ m.empty_list :=
      fun s hs => hall s (List.mem_range.1 hs)
    have h1 := (List.subperm_of_subset hnd hsub).length_le
    have h2 := (List.subperm_of_subset (List.nodup_range _) hsub2).length_le
    rw [List.length_range] at h1 h2
    omega
  · intro hlen s hs
    have hp := (List.subperm_of_subset hnd hsub).perm_of_length_le
      (by rw [List.length_range, hlen])
    exact hp.symm.subset (List.mem_range.2 hs)

theorem free_list_ok_new (n : Nat) : free_list_ok (MpiRequestManager.new n) :=
  ⟨List.nodup_range n, fun _ hs => List.mem_range.1 hs⟩

theorem getLastD_mem (l : List Nat) (h : l ≠ []) : l.getLastD 0 ∈ l := by
  rw [List.getLastD_eq_getLast?, List.getLast?_eq_getLast _ h]
  exact List.getLast_mem h

theorem dropLast_append_getLastD (l : List Nat) (h : l ≠ []) :
    l.dropLast ++ [l.getLastD 0] = l := by
  rw [List.getLastD_eq_getLast?, List.getLast?_eq_getLast _ h]
  exact List.dropLast_append_getLast h

/-! ## The state machine of the all-gather handlers -/

section driven

variable {σ : Type} (fanout : σ → Nat) (is_last : σ → Bool) (next : σ → σ × List MpiRequest)
  (cur lim : σ → Nat)

theorem Driven.completions_succ (m : Nat) :
    ∀ d : Driven σ, Driven.completions fanout is_last next (m + 1) d =
      match Driven.completions fanout is_last next m d with
      | none => none
      | some d1 =>
        if d1.active = 0 then none
        else some (Driven.complete fanout is_last next { d1 with active := d1.active - 1 }) := by
  induction m with
  | zero =>
    intro d
    simp only [Driven.completions]
  | succ m ih =>
    intro d
    rw [Driven.completions]
    by_cases h0 : d.active = 0
    · simp only [h0, if_true, Driven.completions]
    · rw [if_neg h0, ih]
      conv_rhs => rw [Driven.completions, if_neg h0]

theorem Driven.start_posting (hlast : ∀ h, is_last h = decide (cur h ≥ lim h))
    (hnext : ∀ h, is_last h = false → cur (next h).1 = cur h + 1 ∧ lim (next h).1 = lim h ∧
      fanout (next h).1 = fanout h ∧ (next h).2.length = fanout h)
    (h0 : σ) (cc : Nat) (hc : cur h0 = 1) (hn : 2 ≤ lim h0) (hF : 0 < fanout h0) :
    Driven.posting fanout cur lim (fanout h0) (lim h0) 0 0
      (Driven.start is_last next h0 cc) := by
  have hl : is_last h0 = false := by
    rw [hlast]
    exact decide_eq_false (by omega)
  obtain ⟨h1, h2, h3, h4⟩ := hnext h0 hl
  simp only [Driven.start, Driven.next, hl, Bool.false_eq_true, if_false]
  refine ⟨?_, h2, h3, hn, hF, rfl, rfl, ?_, ?_, rfl⟩
  · show cur (next h0).1 = 0 + 2
    omega
  · intro s hs
    rw [List.mem_singleton.1 hs, h4]
  · show 0 + (next h0).2.length = fanout h0 - 0
    omega

theorem Driven.start_done (hlast : ∀ h, is_last h = decide (cur h ≥ lim h))
    (h0 : σ) (cc : Nat) (hc : cur h0 = 1) (hn : lim h0 ≤ 1) (F : Nat) :
    Driven.done F (lim h0) (Driven.start is_last next h0 cc) := by
  have hl : is_last h0 = true := by
    rw [hlast]
    exact decide_eq_true (by omega)
  simp only [Driven.start, Driven.next, hl, if_true]
  refine ⟨?_, ?_, rfl, rfl⟩
  · show 0 = lim h0 - 1
    omega
  · intro s hs
    exact absurd hs (List.not_mem_nil s)

theorem Driven.complete_posting
    (hlast : ∀ h, is_last h = decide (cur h ≥ lim h))
    (hnext : ∀ h, is_last h = false → cur (next h).1 = cur h + 1 ∧ lim (next h).1 = lim h ∧
      fanout (next h).1 = fanout h ∧ (next h).2.length = fanout h)
    {F n q r : Nat} {d : Driven σ} (hd : Driven.posting fanout cur lim F n q r d) :
    d.active ≠ 0 ∧
    (r + 1 < F → Driven.posting fanout cur lim F n q (r + 1)
      (Driven.complete fanout is_last next { d with active := d.active - 1 })) ∧
    (r + 1 = F → q + 2 < n → Driven.posting fanout cur lim F n (q + 1) 0
      (Driven.complete fanout is_last next { d with active := d.active - 1 })) ∧
    (r + 1 = F → q + 2 = n → Driven.done F n
      (Driven.complete fanout is_last next { d with active := d.active - 1 })) := by
  obtain ⟨h1, h2, h3, h4, h5, h6, h7, h8, h9, h10⟩ := hd
  refine ⟨by omega, ?_, ?_, ?_⟩
  · intro hr
    have hne : ¬ d.complete_count + 1 = fanout d.handler := by omega
    simp only [Driven.complete, hne, if_false]
    refine ⟨h1, h2, h3, h4, hr, ?_, h7, h8, ?_, h10⟩
    · show d.complete_count + 1 = r + 1
      omega
    · show d.active - 1 = F - (r + 1)
      omega
  · intro hr hq
    have he : d.complete_count + 1 = fanout d.handler := by omega
    have hl : is_last d.handler = false := by
      rw [hlast]
      exact decide_eq_false (by omega)
    obtain ⟨g1, g2, g3, g4⟩ := hnext d.handler hl
    simp only [Driven.complete, he, if_true, Driven.next, hl, Bool.false_eq_true, if_false]
    refine ⟨?_, ?_, ?_, by omega, by omega, rfl, ?_, ?_, ?_, h10⟩
    · show cur (next d.handler).1 = q + 1 + 2
      omega
    · show lim (next d.handler).1 = n
      omega
    · show fanout (next d.handler).1 = F
      omega
    · show (d.posted ++ [(next d.handler).2]).length = q + 1 + 1
      rw [List.length_append, h7]
      rfl
    · intro s hs
      rcases List.mem_append.1 hs with hs | hs
      · exact h8 s hs
      · rw [List.mem_singleton.1 hs, g4, h3]
    · show d.active - 1 + (next d.handler).2.length = F - 0
      omega
  · intro hr hq
    have he : d.complete_count + 1 = fanout d.handler := by omega
    have hl : is_last d.handler = true := by
      rw [hlast]
      exact decide_eq_true (by omega)
    simp only [Driven.complete, he, if_true, Driven.next, hl]
    refine ⟨?_, h8, ?_, ?_⟩
    · show d.posted.length = n - 1
      omega
    · show d.active - 1 = 0
      omega
    · show d.finish_calls + 1 = 1
      omega

theorem Driven.completions_posting
    (hlast : ∀ h, is_last h = decide (cur h ≥ lim h))
    (hnext : ∀ h, is_last h = false → cur (next h).1 = cur h + 1 ∧ lim (next h).1 = lim h ∧
      fanout (next h).1 = fanout h ∧ (next h).2.length = fanout h)
    (h0 : σ) (cc : Nat) (hc : cur h0 = 1) (m : Nat) :
    ∀ q r, m = q * fanout h0 + r → r < fanout h0 → q + 2 ≤ lim h0 →
      ∃ d, Driven.completions fanout is_last next m (Driven.start is_last next h0 cc) =
          some d ∧
        Driven.posting fanout cur lim (fanout h0) (lim h0) q r d := by
  induction m with
  | zero =>
    intro q r hm hr hq
    have hq0 : q = 0 := by
      rcases Nat.eq_zero_or_pos q with h | h
      · exact h
      · have := Nat.mul_le_mul_right (fanout h0) h
        omega
    subst hq0
    have hr0 : r = 0 := by omega
    subst hr0
    exact ⟨_, rfl, Driven.start_posting fanout is_last next cur lim hlast hnext h0 cc hc
      (by omega) hr⟩
  | succ m ih =>
    intro q r hm hr hq
    rw [Driven.completions_succ]
    cases r with
    | succ r =>
      obtain ⟨d, hd1, hd2⟩ := ih q r (by omega) (by omega) hq
      obtain ⟨g0, g1, _, _⟩ :=
        Driven.complete_posting fanout is_last next cur lim hlast hnext hd2
      rw [hd1]
      simp only [g0, if_false]
      exact ⟨_, rfl, g1 hr⟩
    | zero =>
      cases q with
      | zero => omega
      | succ q =>
        rw [Nat.succ_mul] at hm
        obtain ⟨d, hd1, hd2⟩ := ih q (fanout h0 - 1) (by omega) (by omega) (by omega)
        obtain ⟨g0, _, g2, _⟩ :=
          Driven.complete_posting fanout is_last next cur lim hlast hnext hd2
        rw [hd1]
        simp only [g0, if_false]
        exact ⟨_, rfl, g2 (by omega) (by omega)⟩

theorem Driven.completions_done
    (hlast : ∀ h, is_last h = decide (cur h ≥ lim h))
    (hnext : ∀ h, is_last h = false → cur (next h).1 = cur h + 1 ∧ lim (next h).1 = lim h ∧
      fanout (next h).1 = fanout h ∧ (next h).2.length = fanout h)
    (h0 : σ) (cc : Nat) (hc : cur h0 = 1) (hn : 1 ≤ lim h0) (hF : 0 < fanout h0) :
    ∃ d, Driven.completions fanout is_last next ((lim h0 - 1) * fanout h0)
        (Driven.start is_last next h0 cc) = some d ∧
      Driven.done (fanout h0) (lim h0) d ∧
      ∀ k, Driven.completions fanout is_last next (k + 1) d = none := by
  have hstuck : ∀ d : Driven σ, Driven.done (fanout h0) (lim h0) d →
      ∀ k, Driven.completions fanout is_last next (k + 1) d = none := by
    intro d hd k
    simp only [Driven.completions, hd.2.2.1, if_true]
  by_cases h1 : lim h0 = 1
  · have hd := Driven.start_done is_last next cur lim hlast h0 cc hc (by omega) (fanout h0)
    refine ⟨_, ?_, hd, hstuck _ hd⟩
    rw [h1, Nat.sub_self, Nat.zero_mul]
    rfl
  · obtain ⟨n, hn2⟩ : ∃ n, lim h0 = n + 2 := ⟨lim h0 - 2, by omega⟩
    have hm : (lim h0 - 1) * fanout h0 = (n * fanout h0 + (fanout h0 - 1)) + 1 := by
      rw [hn2, show n + 2 - 1 = n + 1 by omega, Nat.succ_mul]
      omega
    obtain ⟨d, hd1, hd2⟩ := Driven.completions_posting fanout is_last next cur lim hlast
      hnext h0 cc hc (n * fanout h0 + (fanout h0 - 1)) n (fanout h0 - 1) rfl (by omega)
      (by omega)
    obtain ⟨g0, _, _, g3⟩ :=
      Driven.complete_posting fanout is_last next cur lim hlast hnext hd2
    have hdone := g3 (by omega) (by omega)
    refine ⟨_, ?_, hdone, hstuck _ hdone⟩
    rw [hm, Driven.completions_succ, hd1]
    simp only [g0, if_false]

end driven

theorem ring_next_step (count offset : Nat → Nat) (h : AllgatherHandler)
    (hl : decide (h.current ≥ h.size) = false) :
    (AllgatherHandler.next count offset h).1.current = h.current + 1 ∧
    (AllgatherHandler.next count offset h).1.size = h.size ∧
    (4 : Nat) = 4 ∧
    (AllgatherHandler.next count offset h).2.length = 4 := by
  have hn : ¬ h.current ≥ h.size := of_decide_eq_false hl
  rw [AllgatherHandler.next, if_neg hn]
  exact ⟨rfl, rfl, rfl, rfl⟩

theorem step1_next_step (h : AllgatherStep1Handler)
    (hl : decide (h.current ≥ h.steps) = false) :
    (AllgatherStep1Handler.next h).1.current = h.current + 1 ∧
    (AllgatherStep1Handler.next h).1.steps = h.steps ∧
    (2 : Nat) = 2 ∧
    (AllgatherStep1Handler.next h).2.length = 2 := by
  have hn : ¬ h.current ≥ h.steps := of_decide_eq_false hl
  rw [AllgatherStep1Handler.next, if_neg hn]
  exact ⟨rfl, rfl, rfl, rfl⟩

theorem step2_next_step (h : AllgatherStep2Handler)
    (hl : decide (h.current ≥ h.steps) = false) :
    (AllgatherStep2Handler.next h).1.current = h.current + 1 ∧
    (AllgatherStep2Handler.next h).1.steps = h.steps ∧
    (AllgatherStep2Handler.next h).1.width * 2 = h.width * 2 ∧
    (AllgatherStep2Handler.next h).2.length = h.width * 2 := by
  have hn : ¬ h.current ≥ h.steps := of_decide_eq_false hl
  rw [AllgatherStep2Handler.next, if_neg hn]
  refine ⟨rfl, rfl, rfl, ?_⟩
  have : ∀ l : List Nat,
      (l.flatMap (AllgatherStep2Handler.next_body h)).length = l.length * 2 := by
    intro l
    induction l with
    | nil => rfl
    | cons a l ih =>
      simp only [List.flatMap_cons, List.length_append, ih, List.length_cons]
      simp only [AllgatherStep2Handler.next_body, List.length_cons, List.length_nil]
      omega
  rw [this, List.length_range]

/-- The producer keeps every queued buffer non-empty: `prepare` and `put`. -/
theorem put_queued_nonempty (buffer_size_ : Nat) (get_buffer : Nat → Nat) (node : CommTarget)
    (ptr : Nat → Nat) (length : Nat) (node2 : CommTarget)
    (h : queued_nonempty node = true)
    (hp : put buffer_size_ get_buffer node ptr length = some node2) :
    queued_nonempty node2 = true := by
  simp only [queued_nonempty, Bool.and_eq_true, List.all_eq_true, decide_eq_true_eq,
    Bool.or_eq_true] at h ⊢
  obtain ⟨h1, h2⟩ := h
  unfold put at hp
  by_cases hl : length = 0
  · simp only [hl, if_true, Option.some.injEq] at hp
    subst hp
    exact ⟨h1, h2⟩
  · simp only [hl, if_false] at hp
    split at hp
    · cases hp
    · split at hp
      · split at hp
        · cases hp
        · simp only [Option.some.injEq] at hp
          subst hp
          refine ⟨?_, Or.inr (by simpa using hl)⟩
          intro b hb
          cases hcb : node.cur_buf with
          | none =>
            simp only [flush, hcb] at hb
            exact h1 b hb
          | some buf =>
            simp only [flush, hcb, List.mem_append, List.mem_singleton] at hb
            rcases hb with hb | hb
            · exact h1 b hb
            · subst hb
              rcases h2 with h2 | h2
              · simp [hcb] at h2
              · exact h2
      · split at hp
        · cases hp
        · simp only [Option.some.injEq] at hp
          subst hp
          refine ⟨h1, Or.inr ?_⟩
          show node.filled_size_ + length ≠ 0
          omega

theorem prepare_queued_nonempty (buffer_size_ : Nat) :
    queued_nonempty (prepare buffer_size_ new_target) = true := rfl

/-! ## The send count of round 0 -/

theorem sum_le_nonzero_mul (l : List Nat) (B : Nat) (h : ∀ x ∈ l, x ≤ B) :
    l.sum ≤ (l.filter (fun x => decide (x ≠ 0))).length * B := by
  induction l with
  | nil => simp
  | cons a l ih =>
    have ha := h a (List.mem_cons_self _ _)
    have hl := ih (fun x hx => h x (List.mem_cons_of_mem _ hx))
    by_cases h0 : a = 0
    · subst h0
      simpa using hl
    · rw [List.filter_cons_of_pos (by simpa using h0), List.length_cons, List.sum_cons,
        Nat.succ_mul]
      omega

theorem per_node_mul_le (max_size es n : Nat) : n * (max_size / (es * n)) ≤ max_size / es := by
  rw [← Nat.div_div_eq_div_mul]
  exact Nat.mul_div_le _ _

theorem count_pass_round0_le (env : A2AEnv) (st : A2AState)
    (hb : ∀ i, i < env.comm_size_ → st.node_send_lengths_buffer.getD i 0 ≤
      env.max_size / (env.es * env.comm_size_)) :
    ∀ x ∈ count_pass env 0 st, x ≤ 1 + env.max_size / (env.es * env.comm_size_) := by
  intro x hx
  obtain ⟨j, hj, rfl⟩ := List.getElem_of_mem hx
  have hjn : j < env.comm_size_ := by
    rw [count_pass_length] at hj
    exact hj
  obtain ⟨c, hc, hcj⟩ := dest_of_surj env hjn
  subst hcj
  have h := count_pass_getD env 0 st hc
  rw [List.getD_eq_getElem _ _ hj] at h
  rw [h]
  have hbi := hb _ hjn
  have hi := ptr_included_iff env 0 st.node_send_lengths_ptr st.node_send_lengths_buffer c
  unfold spec_count
  split
  · omega
  · split
    · rename_i hinc
      have h2 := (hi.1 hinc).2
      have : ¬ (st.node_send_lengths_buffer.getD (dest_of env c) 0 +
          st.node_send_lengths_ptr.getD (dest_of env c) 0 >
          env.max_size / (env.es * env.comm_size_)) := fun h3 => h2 ⟨h3, Or.inr rfl⟩
      omega
    · split <;> omega

theorem run_with_both_loop_aborted (env : A2AEnv) (graph : Graph2DCSR) (state : SsspState)
    (fuel : Nat) :
    ∀ (k : Nat) (st : A2AState) (l : Nat),
      run_with_both_loop env graph state fuel k st = RunOutcome.aborted l →
      k ≤ l ∧ (l = k → (count_pass env k st).sum > env.max_size / env.es) := by
  induction fuel with
  | zero =>
    intro k st l h
    simp [run_with_both_loop] at h
  | succ fuel ih =>
    intro k st l h
    rw [run_with_both_loop_succ] at h
    split at h
    · rename_i hab
      injection h with h1
      subst h1
      exact ⟨Nat.le_refl _, fun _ => hab⟩
    · split at h
      · cases h
      · have := (ih (k + 1) _ l h).1
        exact ⟨by omega, fun h2 => by omega⟩

/-! ## The producer `put`, call by call -/

theorem put_call_spec {bs : Nat} (get_buffer : Nat → Nat) {node : CommTarget}
    {pre : List (List Nat)} {groups : List (List (List Nat))} {cur : List (List Nat)}
    (h : PutInv bs node pre groups cur) (c : Buffer) (hc : 0 < c.length ∧ c.length ≤ bs) :
    put_waits bs node c.length = false ∧
    ∃ a, put_add_call bs node c.length = some a ∧ a.non_null = true ∧ a.length = c.length ∧
      a.offset + a.length ≤ bs ∧
      (a.swapped = true ↔ node.reserved_size_ + c.length > bs) ∧
      (a.swapped = true → a.offset = 0 ∧
        ∃ node2, put bs get_buffer node c.ptr c.length = some node2 ∧
          node2.cur_buf = some ⟨provider_add get_buffer c.ptr 0 c.length, 0⟩) := by
  obtain ⟨hc0, hcb⟩ := hc
  have hne : c.length ≠ 0 := Nat.pos_iff_ne_zero.1 hc0
  obtain ⟨⟨hrf, hfb⟩, _, _, _, hcur⟩ := h
  have h1 : ¬ node.reserved_size_ > bs := by omega
  have h2 : ¬ node.reserved_size_ ≠ node.filled_size_ := by simp [hrf]
  constructor
  · simp only [put_waits, hrf, Bool.and_eq_false_iff, decide_eq_false_iff_not,
      Bool.or_eq_false_iff, not_not]
    right
    exact ⟨by omega, Or.inr trivial⟩
  · by_cases hsw : node.reserved_size_ + c.length > bs
    · refine ⟨⟨true, 0, c.length, true⟩, ?_, rfl, rfl, ?_, ?_, ?_⟩
      · simp only [put_add_call, hne, if_false, if_neg h1, if_pos hsw, if_neg h2]
      · show 0 + c.length ≤ bs
        omega
      · exact ⟨fun _ => hsw, fun _ => rfl⟩
      · intro _
        refine ⟨rfl, ?_⟩
        cases hcb2 : node.cur_buf with
        | none =>
          simp only [put, hne, if_false, flush, hcb2, if_neg h1, if_pos hsw, if_neg h2]
          exact ⟨_, rfl, rfl⟩
        | some buf =>
          simp only [put, hne, if_false, flush, hcb2, if_neg h1, if_pos hsw, if_neg h2]
          exact ⟨_, rfl, rfl⟩
    · cases hcb2 : node.cur_buf with
      | none =>
        rw [hcb2] at hcur
        omega
      | some buf =>
        refine ⟨⟨true, node.reserved_size_, c.length, false⟩, ?_, rfl, rfl, ?_, ?_, ?_⟩
        · simp only [put_add_call, hne, if_false, if_neg h1, if_neg hsw, hcb2,
            Option.isSome_some]
        · show node.reserved_size_ + c.length ≤ bs
          omega
        · constructor
          · intro h
            exact absurd h Bool.false_ne_true
          · intro h
            exact absurd h hsw
        · intro h
          exact absurd h Bool.false_ne_true

theorem take_succ_getElem? {α : Type} (l : List α) (k : Nat) (c : α) (h : l[k]? = some c) :
    l.take (k + 1) = l.take k ++ [c] := by
  rw [List.take_succ, h]
  rfl

theorem put_calls_append (bs : Nat) (get_buffer : Nat → Nat) (l1 l2 : List Buffer) :
    ∀ node, put_calls bs get_buffer node (l1 ++ l2) =
      match put_calls bs get_buffer node l1 with
      | none => none
      | some node1 => put_calls bs get_buffer node1 l2 := by
  induction l1 with
  | nil =>
    intro node
    rfl
  | cons c l1 ih =>
    intro node
    simp only [List.cons_append, put_calls]
    cases put bs get_buffer node c.ptr c.length with
    | none => rfl
    | some node1 => exact ih node1

/-! ## Index ranges of the all-gather handlers -/

theorem step1_get_rank_index (comm : COMM_2D) (unit_x unit_y diff : Int) :
    AllgatherStep1Handler.get_rank comm unit_x unit_y diff =
      comm.rank_map (AllgatherStep1Handler.map_index comm unit_x unit_y diff).toNat := rfl

theorem step2_get_rank_index (comm : COMM_2D) (unit_x unit_y step_diff idx : Int) :
    AllgatherStep2Handler.get_rank comm unit_x unit_y step_diff idx =
      comm.rank_map (AllgatherStep2Handler.map_index comm unit_x unit_y step_diff idx).toNat :=
  rfl

theorem grid_index_range (a b : Int) (sx sy : Nat) (ha : 0 ≤ a) (ha2 : a < sx) (hb : 0 ≤ b)
    (hb2 : b < sy) : 0 ≤ a + b * (sx : Int) ∧ a + b * (sx : Int) < ((sx * sy : Nat) : Int) := by
  have hsx : (0 : Int) ≤ sx := Int.ofNat_nonneg sx
  constructor
  · have := Int.mul_nonneg hb hsx
    omega
  · have h1 : b + 1 ≤ (sy : Int) := by omega
    have h2 : (b + 1) * (sx : Int) ≤ (sy : Int) * (sx : Int) :=
      Int.mul_le_mul_of_nonneg_right h1 hsx
    rw [Int.add_mul, Int.one_mul] at h2
    push_cast
    rw [Int.mul_comm (sx : Int) (sy : Int)]
    omega

theorem tmod_range (a : Int) (n : Nat) (ha : 0 ≤ a) (hn : 0 < n) :
    0 ≤ Int.tmod a n ∧ Int.tmod a n < n := by
  constructor
  · exact Int.tmod_nonneg _ ha
  · exact Int.tmod_lt_of_pos _ (by exact_mod_cast hn)

theorem ring_after_succ (count offset : Nat → Nat) (size tag r : Nat) (hr : r < size) :
    ∀ m, m + 2 ≤ size →
      AllgatherHandler.after count offset r size ((r + size - 1) % size)
        ((r + size + 1) % size) tag (m + 1) = ring_handler size tag m r := by
  intro m
  induction m with
  | zero =>
    intro hm
    have h := ring_start_eq count offset size tag r hm hr
    have e : AllgatherHandler.after count offset r size ((r + size - 1) % size)
        ((r + size + 1) % size) tag (0 + 1) =
        (AllgatherHandler.start count offset r size ((r + size - 1) % size)
          ((r + size + 1) % size) tag).1 := rfl
    rw [e, h]
  | succ m ih =>
    intro hm
    have e : AllgatherHandler.after count offset r size ((r + size - 1) % size)
        ((r + size + 1) % size) tag (m + 1 + 1) =
        (AllgatherHandler.next count offset
          (AllgatherHandler.after count offset r size ((r + size - 1) % size)
            ((r + size + 1) % size) tag (m + 1))).1 := by
      simp only [AllgatherHandler.after]
      rw [Function.iterate_succ_apply']
    rw [e, ih (by omega), ring_next_eq count offset size tag m r (by omega)]

theorem ring_after_current (count offset : Nat → Nat) (size tag r : Nat) (hr : r < size) :
    ∀ m, (m + 1 < size →
        (AllgatherHandler.after count offset r size ((r + size - 1) % size)
          ((r + size + 1) % size) tag m).current = m + 1) ∧
      (AllgatherHandler.after count offset r size ((r + size - 1) % size)
        ((r + size + 1) % size) tag m).size = size ∧
      (size ≤ m + 1 →
        (AllgatherHandler.after count offset r size ((r + size - 1) % size)
          ((r + size + 1) % size) tag m).current ≥ size) := by
  intro m
  induction m with
  | zero =>
    refine ⟨fun _ => rfl, rfl, ?_⟩
    intro h
    show 1 ≥ size
    omega
  | succ m ih =>
    by_cases hm : m + 2 ≤ size
    · rw [ring_after_succ count offset size tag r hr m hm]
      refine ⟨fun _ => rfl, rfl, ?_⟩
      intro h
      show m + 2 ≥ size
      omega
    · obtain ⟨_, i2, i3⟩ := ih
      have i4 := i3 (by omega)
      have e : AllgatherHandler.after count offset r size ((r + size - 1) % size)
          ((r + size + 1) % size) tag (m + 1) =
          (AllgatherHandler.next count offset
            (AllgatherHandler.after count offset r size ((r + size - 1) % size)
              ((r + size + 1) % size) tag m)).1 := by
        simp only [AllgatherHandler.after]
        rw [Function.iterate_succ_apply']
      rw [e, AllgatherHandler.next, if_pos (by rw [i2]; exact i4)]
      refine ⟨fun h => by omega, i2, fun _ => i4⟩

theorem ring_read_indices_fields (size r left right tag : Nat) (hr : r < size) :
    ∀ x ∈ (AllgatherHandler.fields r size left right tag).read_indices,
      0 ≤ x ∧ x < (size : Int) := by
  have h1 := Nat.mod_lt (r + size + 1) (show 0 < size by omega)
  have h2 := Nat.mod_lt (r + size - 1) (show 0 < size by omega)
  intro x hx
  simp only [AllgatherHandler.read_indices, AllgatherHandler.fields, List.mem_cons,
    List.mem_singleton, List.not_mem_nil, or_false] at hx
  rcases hx with rfl | rfl | rfl | rfl <;> split <;> omega

theorem ring_read_indices_handler (size tag j r : Nat) (hj : j + 2 ≤ size) :
    (ring_handler size tag j r).read_indices =
      [((ring_up size (j + 1) r : Nat) : Int), ((ring_up size (j + 2) r : Nat) : Int),
        ((ring_dn size (j + 1) r : Nat) : Int), ((ring_dn size (j + 2) r : Nat) : Int)] := by
  simp only [AllgatherHandler.read_indices, ring_handler]
  rw [ring_up_step size j r (by omega), ring_up_step size (j + 1) r (by omega),
    ring_dn_step size j r (by omega), ring_dn_step size (j + 1) r (by omega)]

theorem step1_operands (sx sy : Nat) (rm : Nat → Nat) (dir : Dir) (p : Nat) (diff : Int)
    (h1 : -1 ≤ diff) (h2 : diff ≤ (dir.size sx sy : Int)) (hp : p < sx * sy) :
    0 ≤ AllgatherStep1Handler.operand_x (comm_2d sx sy rm p) dir.unit_x diff ∧
    0 ≤ AllgatherStep1Handler.operand_y (comm_2d sx sy rm p) dir.unit_y diff := by
  obtain ⟨hx, hy⟩ := grid_pos hp
  simp only [AllgatherStep1Handler.operand_x, AllgatherStep1Handler.operand_y, comm_2d]
  generalize p / sx = ry
  generalize p % sx = rx
  cases dir <;> simp only [Dir.unit_x, Dir.unit_y, Dir.size] at * <;> constructor <;> omega

theorem step2_operands (sx sy : Nat) (rm : Nat → Nat) (dir : Dir) (p : Nat)
    (step_diff idx : Int) (h1 : -1 ≤ step_diff) (h2 : step_diff ≤ (dir.size sx sy : Int))
    (h3 : 0 ≤ idx) (hp : p < sx * sy) :
    0 ≤ AllgatherStep2Handler.operand_x (comm_2d sx sy rm p) dir.unit_x step_diff idx ∧
    0 ≤ AllgatherStep2Handler.operand_y (comm_2d sx sy rm p) dir.unit_y step_diff idx := by
  obtain ⟨hx, hy⟩ := grid_pos hp
  simp only [AllgatherStep2Handler.operand_x, AllgatherStep2Handler.operand_y, comm_2d]
  generalize p / sx = ry
  generalize p % sx = rx
  cases dir <;>
    simp only [Dir.unit_x, Dir.unit_y, Dir.size, one_ne_zero, if_false, if_true, Int.reduceNeg,
      neg_eq_zero] at * <;>
    constructor <;> omega

theorem map_index_range (comm : COMM_2D) (a b : Int) (ha : 0 ≤ a) (hb : 0 ≤ b)
    (hx : 0 < comm.size_x) (hy : 0 < comm.size_y) :
    0 ≤ Int.tmod a comm.size_x + Int.tmod b comm.size_y * (comm.size_x : Int) ∧
    Int.tmod a comm.size_x + Int.tmod b comm.size_y * (comm.size_x : Int) <
      ((comm.size_x * comm.size_y : Nat) : Int) := by
  obtain ⟨a1, a2⟩ := tmod_range a comm.size_x ha hx
  obtain ⟨b1, b2⟩ := tmod_range b comm.size_y hb hy
  exact grid_index_range _ _ _ _ a1 a2 b1 b2

/-! ## The request pool of `my_allgatherv_2d` is never exhausted -/

theorem filter_length_congr (n : Nat) (P Q : Nat → Bool) (h : ∀ s, s < n → Q s = P s) :
    ((List.range n).filter Q).length = ((List.range n).filter P).length := by
  congr 1
  apply List.filter_congr
  intro s hs
  exact h s (List.mem_range.1 hs)

theorem filter_length_flip (n x : Nat) (P Q : Nat → Bool) (hx : x < n)
    (h : ∀ s, s ≠ x → Q s = P s) (hP : P x = false) (hQ : Q x = true) :
    ((List.range n).filter Q).length = ((List.range n).filter P).length + 1 := by
  induction n with
  | zero => omega
  | succ n ih =>
    rw [List.range_succ, List.filter_append, List.filter_append, List.length_append,
      List.length_append]
    by_cases hxn : x = n
    · subst hxn
      rw [filter_length_congr x P Q (fun s hs => h s (by omega))]
      simp [hP, hQ]
    · rw [ih (by omega)]
      have := h n (fun e => hxn e.symm)
      simp only [List.filter_cons, List.filter_nil, this]
      omega

theorem submit_handler_ok (m : MpiRequestManager) (handler : Nat) (h : m.empty_list ≠ []) :
    m.submit_handler handler =
      Except.ok
        ({ m with
            empty_list := m.empty_list.dropLast
            handlers := upd m.handlers (m.empty_list.getLastD 0) (some handler) },
          m.empty_list.getLastD 0) := by
  have h0 : m.empty_list.length ≠ 0 := fun h0 => h (List.length_eq_zero.1 h0)
  simp only [MpiRequestManager.submit_handler, h0, if_false]

theorem take_slot {H : Nat} (m : MpiRequestManager) (hm : ManInv H m) (j : Nat) (hj : j < H)
    (q : MpiRequest) (hne : m.empty_list ≠ []) :
    ManInv H
      { m with
        empty_list := m.empty_list.dropLast
        handlers := upd m.handlers (m.empty_list.getLastD 0) (some j)
        reqs := upd m.reqs (m.empty_list.getLastD 0) (some q) } ∧
    m.empty_list.dropLast.length + 1 = m.empty_list.length ∧
    held { m with
        empty_list := m.empty_list.dropLast
        handlers := upd m.handlers (m.empty_list.getLastD 0) (some j)
        reqs := upd m.reqs (m.empty_list.getLastD 0) (some q) } j = held m j + 1 ∧
    ∀ k, k ≠ j →
      held { m with
        empty_list := m.empty_list.dropLast
        handlers := upd m.handlers (m.empty_list.getLastD 0) (some j)
        reqs := upd m.reqs (m.empty_list.getLastD 0) (some q) } k = held m k := by
  obtain ⟨⟨hnd, hlt⟩, hfree, hown⟩ := hm
  have hmem := getLastD_mem m.empty_list hne
  have happ := dropLast_append_getLastD m.empty_list hne
  have hnd2 : (m.empty_list.dropLast ++ [m.empty_list.getLastD 0]).Nodup := by
    rw [happ]
    exact hnd
  have hnot : m.empty_list.getLastD 0 ∉ m.empty_list.dropLast := fun hin =>
    (List.nodup_append.1 hnd2).2.2 hin (List.mem_singleton.2 rfl)
  have hslot := hlt _ hmem
  have hnull := hfree _ hmem
  refine ⟨⟨⟨(List.nodup_append.1 hnd2).1, fun s hs => hlt s (List.dropLast_subset _ hs)⟩,
    ?_, ?_⟩, ?_, ?_, ?_⟩
  · intro s hs
    have hne2 : s ≠ m.empty_list.getLastD 0 := fun e => hnot (e ▸ hs)
    show upd m.reqs _ (some q) s = none
    rw [upd_ne _ _ hne2]
    exact hfree s (List.dropLast_subset _ hs)
  · intro s hs
    by_cases e : s = m.empty_list.getLastD 0
    · subst e
      exact ⟨hslot, j, hj, upd_same _ _ _⟩
    · have hs2 : m.reqs s ≠ none := by
        have : upd m.reqs (m.empty_list.getLastD 0) (some q) s ≠ none := hs
        rwa [upd_ne _ _ e] at this
      obtain ⟨h1, k, hk, h2⟩ := hown s hs2
      exact ⟨h1, k, hk, by show upd m.handlers _ (some j) s = some k; rw [upd_ne _ _ e]; exact h2⟩
  · have := congrArg List.length happ
    simp only [List.length_append, List.length_singleton] at this
    exact this
  · apply filter_length_flip _ (m.empty_list.getLastD 0) _ _ hslot
    · intro s hs
      show ((upd m.reqs _ (some q) s).isSome && decide (upd m.handlers _ (some j) s = some j)) = _
      rw [upd_ne _ _ hs, upd_ne _ _ hs]
    · show ((m.reqs (m.empty_list.getLastD 0)).isSome &&
        decide (m.handlers (m.empty_list.getLastD 0) = some j)) = false
      rw [hnull]
      rfl
    · show ((upd m.reqs _ (some q) _).isSome && decide (upd m.handlers _ (some j) _ = some j)) =
        true
      rw [upd_same, upd_same]
      simp
  · intro k hk
    apply filter_length_congr
    intro s _
    show ((upd m.reqs _ (some q) s).isSome && decide (upd m.handlers _ (some j) s = some k)) =
      ((m.reqs s).isSome && decide (m.handlers s = some k))
    by_cases e : s = m.empty_list.getLastD 0
    · subst e
      rw [upd_same, upd_same, hnull]
      have : ¬ j = k := fun e => hk e.symm
      simp [this]
    · rw [upd_ne _ _ e, upd_ne _ _ e]

theorem free_slot {H : Nat} (m : MpiRequestManager) (hm : ManInv H m) (index j : Nat)
    (hq : m.reqs index ≠ none) (hj : m.handlers index = some j) :
    ManInv H { m with
        reqs := upd m.reqs index none
        empty_list := m.empty_list ++ [index] } ∧
    m.empty_list.length ≠ m.MAX_REQUESTS ∧
    held { m with
        reqs := upd m.reqs index none
        empty_list := m.empty_list ++ [index] } j + 1 = held m j ∧
    ∀ k, k ≠ j →
      held { m with
        reqs := upd m.reqs index none
        empty_list := m.empty_list ++ [index] } k = held m k := by
  obtain ⟨⟨hnd, hlt⟩, hfree, hown⟩ := hm
  have hidx := (hown index hq).1
  have hnot : index ∉ m.empty_list := fun hin => hq (hfree index hin)
  refine ⟨⟨⟨?_, ?_⟩, ?_, ?_⟩, ?_, ?_, ?_⟩
  · show (m.empty_list ++ [index]).Nodup
    rw [List.nodup_append]
    refine ⟨hnd, List.nodup_singleton _, ?_⟩
    intro a ha hb
    rw [List.mem_singleton] at hb
    subst hb
    exact hnot ha
  · intro s hs
    rcases List.mem_append.1 hs with hs | hs
    · exact hlt s hs
    · rw [List.mem_singleton.1 hs]
      exact hidx
  · intro s hs
    show upd m.reqs index none s = none
    by_cases e : s = index
    · rw [e, upd_same]
    · rw [upd_ne _ _ e]
      rcases List.mem_append.1 hs with hs | hs
      · exact hfree s hs
      · exact absurd (List.mem_singleton.1 hs) e
  · intro s hs
    have hs1 : upd m.reqs index none s ≠ none := hs
    by_cases e : s = index
    · rw [e, upd_same] at hs1
      exact absurd rfl hs1
    · rw [upd_ne _ _ e] at hs1
      exact hown s hs1
  · intro hlen
    have hall := (all_free_iff m ⟨hnd, hlt⟩).2 hlen
    exact hnot (hall index hidx)
  · symm
    apply filter_length_flip _ index _ _ hidx
    · intro s hs
      show _ = ((upd m.reqs index none s).isSome && decide (m.handlers s = some j))
      rw [upd_ne _ _ hs]
    · show ((upd m.reqs index none index).isSome && decide (m.handlers index = some j)) = false
      rw [upd_same]
      rfl
    · cases hr : m.reqs index with
      | none => exact absurd hr hq
      | some q => simp [hj]
  · intro k hk
    apply filter_length_congr
    intro s _
    show ((upd m.reqs index none s).isSome && decide (m.handlers s = some k)) =
      ((m.reqs s).isSome && decide (m.handlers s = some k))
    by_cases e : s = index
    · subst e
      rw [upd_same, hj]
      have : ¬ j = k := fun e => hk e.symm
      simp [this]
    · rw [upd_ne _ _ e]

theorem post_calls_spec {H : Nat} (j : Nat) (hj : j < H) :
    ∀ (qs : List MpiRequest) (m : MpiRequestManager), ManInv H m →
      qs.length ≤ m.empty_list.length →
      ∃ m2, post_calls j qs m = Except.ok m2 ∧ ManInv H m2 ∧
        m2.empty_list.length + qs.length = m.empty_list.length ∧
        held m2 j = held m j + qs.length ∧ (∀ k, k ≠ j → held m2 k = held m k) ∧
        m2.finish_count = m.finish_count ∧ m2.MAX_REQUESTS = m.MAX_REQUESTS := by
  intro qs
  induction qs with
  | nil =>
    intro m hm _
    exact ⟨m, rfl, hm, rfl, rfl, fun _ _ => rfl, rfl, rfl⟩
  | cons q qs ih =>
    intro m hm hlen
    have hne : m.empty_list ≠ [] := by
      intro h0
      rw [h0] at hlen
      simp at hlen
    obtain ⟨t1, t2, t3, t4⟩ := take_slot m hm j hj q hne
    obtain ⟨m2, e1, e2, e3, e4, e5, e6, e7⟩ := ih _ t1 (by
      show qs.length ≤ m.empty_list.dropLast.length
      simp only [List.length_cons] at hlen
      omega)
    refine ⟨m2, ?_, e2, ?_, ?_, ?_, e6, e7⟩
    · rw [post_calls, submit_handler_ok m j hne]
      exact e1
    · have : m2.empty_list.length + qs.length = m.empty_list.dropLast.length := e3
      simp only [List.length_cons]
      omega
    · rw [e4, t3]
      simp only [List.length_cons]
      omega
    · intro k hk
      rw [e5 k hk, t4 k hk]

theorem sum_map_upd (g : Nat → Nat) (j v H : Nat) (hj : j < H) :
    ((List.range H).map (upd g j v)).sum + g j = ((List.range H).map g).sum + v := by
  induction H with
  | zero => omega
  | succ H ih =>
    rw [List.range_succ, List.map_append, List.map_append, List.sum_append, List.sum_append]
    simp only [List.map_cons, List.map_nil, List.sum_cons, List.sum_nil, Nat.add_zero]
    by_cases hjH : j = H
    · subst hjH
      rw [upd_same]
      have : (List.range j).map (upd g j v) = (List.range j).map g := by
        apply List.map_congr_left
        intro a ha
        exact upd_ne _ _ (by have := List.mem_range.1 ha; omega)
      rw [this]
      omega
    · have := ih (by omega)
      rw [upd_ne _ _ (fun e => hjH e.symm)]
      omega

theorem sum_map_single_le (g : Nat → Nat) (j H : Nat) (hj : j < H) :
    g j ≤ ((List.range H).map g).sum :=
  List.single_le_sum (fun _ _ => Nat.zero_le _) _
    (List.mem_map.2 ⟨j, List.mem_range.2 hj, rfl⟩)

theorem unused_upd (F act : Nat → Nat) (j v H : Nat) (hj : j < H) :
    unused F (upd act j v) H + (F j - act j) = unused F act H + (F j - v) := by
  have e : (fun k => F k - upd act j v k) = upd (fun k => F k - act k) j (F j - v) := by
    funext k
    by_cases hk : k = j
    · subst hk
      rw [upd_same, upd_same]
    · rw [upd_ne _ _ hk, upd_ne _ _ hk]
  unfold unused
  rw [e]
  exact sum_map_upd (fun k => F k - act k) j (F j - v) H hj

theorem sum_ones (f : Nat → Nat) (H : Nat) (h : ∀ k, k < H → f k ≤ 1) :
    ((List.range H).map f).sum ≤ H ∧
    (((List.range H).map f).sum = H → ∀ k, k < H → f k = 1) := by
  induction H with
  | zero => exact ⟨by simp, fun _ k hk => by omega⟩
  | succ H ih =>
    obtain ⟨i1, i2⟩ := ih (fun k hk => h k (by omega))
    have hH := h H (by omega)
    rw [List.range_succ, List.map_append, List.sum_append]
    simp only [List.map_cons, List.map_nil, List.sum_cons, List.sum_nil, Nat.add_zero]
    refine ⟨by omega, ?_⟩
    intro hs k hk
    by_cases hkH : k = H
    · subst hkH
      omega
    · exact i2 (by omega) k (by omega)

theorem upd_upd {β : Type} (a : Nat → β) (i : Nat) (v w : β) :
    upd (upd a i v) i w = upd a i w := by
  funext k
  by_cases hk : k = i
  · subst hk
    rw [upd_same, upd_same]
  · rw [upd_ne _ _ hk, upd_ne _ _ hk, upd_ne _ _ hk]

theorem upd_comp {β γ : Type} (φ : β → γ) (a : Nat → β) (i : Nat) (v : β) :
    (fun k => φ (upd a i v k)) = upd (fun k => φ (a k)) i (φ v) := by
  funext k
  by_cases hk : k = i
  · subst hk
    rw [upd_same, upd_same]
  · rw [upd_ne _ _ hk, upd_ne _ _ hk]

theorem held_finished (m : MpiRequestManager) (j : Nat) : held m.finished j = held m j := rfl

theorem sum_map_succ_upd (g : Nat → Nat) (H v : Nat) :
    ((List.range (H + 1)).map (upd g H v)).sum = ((List.range H).map g).sum + v := by
  rw [List.range_succ, List.map_append, List.sum_append]
  simp only [List.map_cons, List.map_nil, List.sum_cons, List.sum_nil, Nat.add_zero, upd_same]
  have : (List.range H).map (upd g H v) = (List.range H).map g := by
    apply List.map_congr_left
    intro a ha
    exact upd_ne _ _ (by have := List.mem_range.1 ha; omega)
  rw [this]

theorem unused_succ (F act : Nat → Nat) (H v : Nat) :
    unused F (upd act H v) (H + 1) = unused F act H + (F H - v) := by
  have e : (fun k => F k - upd act H v k) = upd (fun k => F k - act k) H (F H - v) := by
    funext k
    by_cases hk : k = H
    · subst hk
      rw [upd_same, upd_same]
    · rw [upd_ne _ _ hk, upd_ne _ _ hk]
  unfold unused
  rw [e]
  exact sum_map_succ_upd (fun k => F k - act k) H (F H - v)

theorem sum_all_ones (f : Nat → Nat) (H : Nat) (h : ∀ k, k < H → f k = 1) :
    ((List.range H).map f).sum = H := by
  induction H with
  | zero => rfl
  | succ H ih =>
    rw [List.range_succ, List.map_append, List.sum_append, ih (fun k hk => h k (by omega))]
    simp only [List.map_cons, List.map_nil, List.sum_cons, List.sum_nil, Nat.add_zero]
    rw [h H (by omega)]

theorem ManInv_mono {H : Nat} {m : MpiRequestManager} (h : ManInv H m) : ManInv (H + 1) m := by
  obtain ⟨h1, h2, h3⟩ := h
  refine ⟨h1, h2, ?_⟩
  intro s hs
  obtain ⟨a, j, hj, b⟩ := h3 s hs
  exact ⟨a, j, by omega, b⟩

theorem held_outside {H : Nat} {m : MpiRequestManager} (h : ManInv H m) (j : Nat)
    (hj : H ≤ j) : held m j = 0 := by
  unfold held
  rw [List.length_eq_zero, List.filter_eq_nil_iff]
  intro s _ hs
  rw [Bool.and_eq_true] at hs
  obtain ⟨hs1, hs2⟩ := hs
  have hne : m.reqs s ≠ none := by
    intro h0
    rw [h0] at hs1
    exact Bool.false_ne_true hs1
  obtain ⟨_, k, hk, hown⟩ := h.2.2 s hne
  have := of_decide_eq_true hs2
  rw [hown] at this
  have := Option.some.inj this
  omega

theorem held_pos_slot (m : MpiRequestManager) (j : Nat) (h : 0 < held m j) :
    ∃ s, m.reqs s ≠ none ∧ m.handlers s = some j := by
  obtain ⟨s, hs⟩ := List.exists_mem_of_length_pos h
  obtain ⟨_, hs⟩ := List.mem_filter.1 hs
  rw [Bool.and_eq_true] at hs
  refine ⟨s, ?_, of_decide_eq_true hs.2⟩
  intro h0
  rw [h0] at hs
  exact Bool.false_ne_true hs.1

section pool

variable {σ : Type} (fanout : σ → Nat) (is_last : σ → Bool) (next : σ → σ × List MpiRequest)
  (cur lim : σ → Nat)

theorem Pool.complete_eq (j : Nat) (m : MpiRequestManager) (hs : Nat → Driven σ)
    (d1 : Driven σ) :
    Pool.complete fanout is_last next j { man := m, hs := upd hs j d1 } =
      if d1.complete_count + 1 = fanout d1.handler then
        if is_last d1.handler then
          Except.ok
            { man := m.finished, hs := upd hs j (Driven.complete fanout is_last next d1) }
        else
          match post_calls j (next d1.handler).2 m with
          | Except.error e => Except.error e
          | Except.ok m2 =>
            Except.ok { man := m2, hs := upd hs j (Driven.complete fanout is_last next d1) }
      else Except.ok { man := m, hs := upd hs j (Driven.complete fanout is_last next d1) } := by
  by_cases h1 : d1.complete_count + 1 = fanout d1.handler
  · by_cases h2 : is_last d1.handler = true
    · simp only [Pool.complete, Pool.next, Driven.complete, upd_same, upd_upd, h1, h2, if_true]
    · simp only [Pool.complete, Pool.next, Driven.complete, upd_same, upd_upd, h1, h2, if_true,
        if_false]
  · simp only [Pool.complete, Driven.complete, upd_same, upd_upd, h1, if_false]

theorem Pool.start_eq (j : Nat) (h0 : σ) (cc : Nat) (p : Pool σ) :
    Pool.start is_last next j h0 cc p =
      if is_last h0 then
        Except.ok { man := p.man.finished, hs := upd p.hs j (Driven.start is_last next h0 cc) }
      else
        match post_calls j (next h0).2 p.man with
        | Except.error e => Except.error e
        | Except.ok m2 =>
          Except.ok { man := m2, hs := upd p.hs j (Driven.start is_last next h0 cc) } := by
  by_cases h2 : is_last h0 = true
  · simp only [Pool.start, Pool.next, Driven.start, upd_same, upd_upd, h2, if_true]
  · simp only [Pool.start, Pool.next, Driven.start, upd_same, upd_upd, h2, if_false]

theorem poolInv_update {F n : Nat → Nat} {H slack : Nat} {c : Int} {p : Pool σ}
    (hp : PoolInv fanout cur lim F n H slack c p) {j : Nat} (hj : j < H)
    (m2 : MpiRequestManager) (d2 : Driven σ) (hm : ManInv H m2)
    (hMAX : m2.MAX_REQUESTS = p.man.MAX_REQUESTS) (hheld : held m2 j = d2.active)
    (hother : ∀ k, k ≠ j → held m2 k = held p.man k)
    (hq : m2.empty_list.length + (F j - (p.hs j).active) =
      p.man.empty_list.length + (F j - d2.active))
    (hst : (∃ q r, Driven.posting fanout cur lim (F j) (n j) q r d2) ∨
      Driven.done (F j) (n j) d2)
    (hf : m2.finish_count + (d2.finish_calls : Int) =
      p.man.finish_count + ((p.hs j).finish_calls : Int)) :
    PoolInv fanout cur lim F n H slack c { man := m2, hs := upd p.hs j d2 } := by
  refine ⟨hm, ?_, ?_, ?_, ?_, ?_⟩
  · intro k hk
    by_cases hkj : k = j
    · subst hkj
      show held m2 k = (upd p.hs k d2 k).active
      rw [upd_same]
      exact hheld
    · show held m2 k = (upd p.hs j d2 k).active
      rw [upd_ne _ _ hkj, hother k hkj]
      exact hp.held k hk
  · show m2.empty_list.length = slack + unused F (fun k => (upd p.hs j d2 k).active) H
    rw [upd_comp (fun d : Driven σ => d.active)]
    have h1 := unused_upd F (fun k => (p.hs k).active) j d2.active H hj
    have h2 := hp.quota
    simp only at h1
    omega
  · intro k hk
    by_cases hkj : k = j
    · subst hkj
      show (∃ q r, Driven.posting fanout cur lim (F k) (n k) q r (upd p.hs k d2 k)) ∨
        Driven.done (F k) (n k) (upd p.hs k d2 k)
      rw [upd_same]
      exact hst
    · show (∃ q r, Driven.posting fanout cur lim (F k) (n k) q r (upd p.hs j d2 k)) ∨
        Driven.done (F k) (n k) (upd p.hs j d2 k)
      rw [upd_ne _ _ hkj]
      exact hp.state k hk
  · show m2.finish_count + (finish_total (upd p.hs j d2) H : Int) = c
    have h1 := sum_map_upd (fun k => (p.hs k).finish_calls) j d2.finish_calls H hj
    have h2 := hp.fin
    have e : finish_total (upd p.hs j d2) H =
        ((List.range H).map (upd (fun k => (p.hs k).finish_calls) j d2.finish_calls)).sum := by
      unfold finish_total
      rw [upd_comp (fun d : Driven σ => d.finish_calls)]
    rw [e]
    unfold finish_total at h2
    simp only at h1
    omega
  · show slack + ((List.range H).map F).sum = m2.MAX_REQUESTS
    rw [hMAX]
    exact hp.total

theorem wait_inv_more
    (hlast : ∀ h, is_last h = decide (cur h ≥ lim h))
    (hnext : ∀ h, is_last h = false → cur (next h).1 = cur h + 1 ∧ lim (next h).1 = lim h ∧
      fanout (next h).1 = fanout h ∧ (next h).2.length = fanout h)
    {F n : Nat → Nat} {H slack : Nat} {c : Int} {p : Pool σ}
    (hp : PoolInv fanout cur lim F n H slack c p) (index j : Nat) (hj : j < H)
    (hq : p.man.reqs index ≠ none) (hown : p.man.handlers index = some j) (q r : Nat)
    (hd : Driven.posting fanout cur lim (F j) (n j) q r (p.hs j)) (hr : r + 1 < F j) :
    PoolInv fanout cur lim F n H slack c
      { man := { p.man with
          reqs := upd p.man.reqs index none
          empty_list := p.man.empty_list ++ [index] }
        hs := upd p.hs j
          (Driven.complete fanout is_last next
            { p.hs j with active := (p.hs j).active - 1 }) } := by
  obtain ⟨f1, f2, f3, f4⟩ := free_slot p.man hp.man index j hq hown
  have hact := hp.held j hj
  have hpost := (Driven.complete_posting fanout is_last next cur lim hlast hnext hd).2.1 hr
  have ha := hpost.2.2.2.2.2.2.2.2.1
  have hfc := hpost.2.2.2.2.2.2.2.2.2
  have h9 := hd.2.2.2.2.2.2.2.2.1
  have h10 := hd.2.2.2.2.2.2.2.2.2
  apply poolInv_update fanout cur lim hp hj _ _ f1 rfl
  · rw [ha]
    omega
  · exact f4
  · rw [ha]
    show (p.man.empty_list ++ [index]).length + _ = _
    rw [List.length_append, List.length_singleton]
    omega
  · exact Or.inl ⟨q, r + 1, hpost⟩
  · rw [hfc, h10]

theorem wait_inv_next
    (hlast : ∀ h, is_last h = decide (cur h ≥ lim h))
    (hnext : ∀ h, is_last h = false → cur (next h).1 = cur h + 1 ∧ lim (next h).1 = lim h ∧
      fanout (next h).1 = fanout h ∧ (next h).2.length = fanout h)
    {F n : Nat → Nat} {H slack : Nat} {c : Int} {p : Pool σ}
    (hp : PoolInv fanout cur lim F n H slack c p) (index j : Nat) (hj : j < H)
    (hq : p.man.reqs index ≠ none) (hown : p.man.handlers index = some j) (q r : Nat)
    (hd : Driven.posting fanout cur lim (F j) (n j) q r (p.hs j)) (hr : r + 1 = F j)
    (hn : q + 2 < n j) :
    ∃ m2, post_calls j (next (p.hs j).handler).2
        { p.man with
          reqs := upd p.man.reqs index none
          empty_list := p.man.empty_list ++ [index] } = Except.ok m2 ∧
      PoolInv fanout cur lim F n H slack c
        { man := m2
          hs := upd p.hs j
            (Driven.complete fanout is_last next
              { p.hs j with active := (p.hs j).active - 1 }) } := by
  obtain ⟨f1, f2, f3, f4⟩ := free_slot p.man hp.man index j hq hown
  have hact := hp.held j hj
  have hpost := (Driven.complete_posting fanout is_last next cur lim hlast hnext hd).2.2.1 hr hn
  have ha := hpost.2.2.2.2.2.2.2.2.1
  have hfc := hpost.2.2.2.2.2.2.2.2.2
  have h1 := hd.1
  have h2 := hd.2.1
  have h3 := hd.2.2.1
  have h9 := hd.2.2.2.2.2.2.2.2.1
  have h10 := hd.2.2.2.2.2.2.2.2.2
  have hquota := hp.quota
  simp only [unused] at hquota
  have hsingle := sum_map_single_le (fun k => F k - (p.hs k).active) j H hj
  simp only at hsingle
  have hl : is_last (p.hs j).handler = false := by
    rw [hlast]
    exact decide_eq_false (by omega)
  have g4 := (hnext _ hl).2.2.2
  have hlen : (p.man.empty_list ++ [index]).length = p.man.empty_list.length + 1 := by
    rw [List.length_append, List.length_singleton]
  obtain ⟨m2, e1, e2, e3, e4, e5, e6, e7⟩ :=
    post_calls_spec j hj (next (p.hs j).handler).2 _ f1 (by
      show _ ≤ (p.man.empty_list ++ [index]).length
      omega)
  have e3b : m2.empty_list.length + (next (p.hs j).handler).2.length =
      (p.man.empty_list ++ [index]).length := e3
  refine ⟨m2, e1, ?_⟩
  apply poolInv_update fanout cur lim hp hj _ _ e2 e7
  · rw [ha, e4, g4]
    omega
  · intro k hk
    rw [e5 k hk]
    exact f4 k hk
  · rw [ha]
    omega
  · exact Or.inl ⟨q + 1, 0, hpost⟩
  · rw [hfc, h10, e6]

theorem wait_inv_last
    (hlast : ∀ h, is_last h = decide (cur h ≥ lim h))
    (hnext : ∀ h, is_last h = false → cur (next h).1 = cur h + 1 ∧ lim (next h).1 = lim h ∧
      fanout (next h).1 = fanout h ∧ (next h).2.length = fanout h)
    {F n : Nat → Nat} {H slack : Nat} {c : Int} {p : Pool σ}
    (hp : PoolInv fanout cur lim F n H slack c p) (index j : Nat) (hj : j < H)
    (hq : p.man.reqs index ≠ none) (hown : p.man.handlers index = some j) (q r : Nat)
    (hd : Driven.posting fanout cur lim (F j) (n j) q r (p.hs j)) (hr : r + 1 = F j)
    (hn : q + 2 = n j) :
    PoolInv fanout cur lim F n H slack c
      { man := MpiRequestManager.finished { p.man with
          reqs := upd p.man.reqs index none
          empty_list := p.man.empty_list ++ [index] }
        hs := upd p.hs j
          (Driven.complete fanout is_last next
            { p.hs j with active := (p.hs j).active - 1 }) } := by
  obtain ⟨f1, f2, f3, f4⟩ := free_slot p.man hp.man index j hq hown
  have hact := hp.held j hj
  have hdone := (Driven.complete_posting fanout is_last next cur lim hlast hnext hd).2.2.2 hr hn
  have ha := hdone.2.2.1
  have hfc := hdone.2.2.2
  have h9 := hd.2.2.2.2.2.2.2.2.1
  have h10 := hd.2.2.2.2.2.2.2.2.2
  refine poolInv_update fanout cur lim hp hj (MpiRequestManager.finished _) _ f1 rfl
    ?_ ?_ ?_ ?_ ?_
  · rw [ha, held_finished]
    have key : ∀ x : Nat, x + 1 = held p.man j → x = 0 := by
      intro x hx
      omega
    exact key _ f3
  · exact f4
  · rw [ha]
    show (p.man.empty_list ++ [index]).length + _ = _
    rw [List.length_append, List.length_singleton]
    omega
  · exact Or.inr hdone
  · rw [hfc, h10]
    show p.man.finish_count - 1 + ((1 : Nat) : Int) = _
    omega

theorem Pool.wait_step_spec
    (hlast : ∀ h, is_last h = decide (cur h ≥ lim h))
    (hnext : ∀ h, is_last h = false → cur (next h).1 = cur h + 1 ∧ lim (next h).1 = lim h ∧
      fanout (next h).1 = fanout h ∧ (next h).2.length = fanout h)
    {F n : Nat → Nat} {H slack : Nat} {c : Int} {p : Pool σ}
    (hp : PoolInv fanout cur lim F n H slack c p) (index : Nat)
    (hq : p.man.reqs index ≠ none) :
    ∃ p2, Pool.wait_step fanout is_last next index p = PoolOutcome.waiting p2 ∧
      PoolInv fanout cur lim F n H slack c p2 := by
  obtain ⟨_, j, hj, hown⟩ := hp.man.2.2 index hq
  have f2 := (free_slot p.man hp.man index j hq hown).2.1
  have f3 := (free_slot p.man hp.man index j hq hown).2.2.1
  have hact := hp.held j hj
  have hsome : (p.man.reqs index).isNone = false := by
    cases hr : p.man.reqs index with
    | none => exact absurd hr hq
    | some _ => rfl
  rcases hp.state j hj with ⟨q, r, hd⟩ | hdone
  · have h1 := hd.1
    have h2 := hd.2.1
    have h3 := hd.2.2.1
    have h4 := hd.2.2.2.1
    have h5 := hd.2.2.2.2.1
    have h6 := hd.2.2.2.2.2.1
    simp only [Pool.wait_step, f2, if_false, hsome, Bool.false_eq_true, hown, Pool.complete_eq]
    by_cases hr : r + 1 < F j
    · have hne : ¬ (p.hs j).complete_count + 1 = fanout (p.hs j).handler := by omega
      rw [if_neg hne]
      exact ⟨_, rfl, wait_inv_more fanout is_last next cur lim hlast hnext hp index j hj hq hown
        q r hd hr⟩
    · have he : (p.hs j).complete_count + 1 = fanout (p.hs j).handler := by omega
      rw [if_pos he]
      by_cases hn : q + 2 < n j
      · have hl : is_last (p.hs j).handler = false := by
          rw [hlast]
          exact decide_eq_false (by omega)
        obtain ⟨m2, e1, e2⟩ := wait_inv_next fanout is_last next cur lim hlast hnext hp index j
          hj hq hown q r hd (by omega) hn
        simp only [hl, Bool.false_eq_true, if_false, e1]
        exact ⟨_, rfl, e2⟩
      · have hl : is_last (p.hs j).handler = true := by
          rw [hlast]
          exact decide_eq_true (by omega)
        simp only [hl, if_true]
        exact ⟨_, rfl, wait_inv_last fanout is_last next cur lim hlast hnext hp index j hj hq
          hown q r hd (by omega) (by omega)⟩
  · have := hdone.2.2.1
    omega

theorem Pool.start_spec
    (hlast : ∀ h, is_last h = decide (cur h ≥ lim h))
    (hnext : ∀ h, is_last h = false → cur (next h).1 = cur h + 1 ∧ lim (next h).1 = lim h ∧
      fanout (next h).1 = fanout h ∧ (next h).2.length = fanout h)
    {F n : Nat → Nat} {H slack : Nat} {c : Int} {p : Pool σ}
    (hp : PoolInv fanout cur lim F n H slack c p) (h0 : σ) (cc : Nat) (hc : cur h0 = 1)
    (hn : lim h0 = n H) (hF : fanout h0 = F H) (hpos : 0 < F H) (hs : F H ≤ slack) :
    ∃ p2, Pool.start is_last next H h0 cc p = Except.ok p2 ∧
      PoolInv fanout cur lim F n (H + 1) (slack - F H) c p2 := by
  have hquota := hp.quota
  have hfin := hp.fin
  have htotal := hp.total
  have hheld0 := held_outside hp.man H (Nat.le_refl H)
  have hstate : ∀ (d2 : Driven σ) (k : Nat), k < H + 1 →
      ((∃ q r, Driven.posting fanout cur lim (F H) (n H) q r d2) ∨
        Driven.done (F H) (n H) d2) →
      (∃ q r, Driven.posting fanout cur lim (F k) (n k) q r (upd p.hs H d2 k)) ∨
        Driven.done (F k) (n k) (upd p.hs H d2 k) := by
    intro d2 k hk hd
    by_cases hkH : k = H
    · subst hkH
      rw [upd_same]
      exact hd
    · rw [upd_ne _ _ hkH]
      exact hp.state k (by omega)
  have hheld : ∀ (m2 : MpiRequestManager) (d2 : Driven σ), held m2 H = d2.active →
      (∀ k, k ≠ H → held m2 k = held p.man k) →
      ∀ k, k < H + 1 → held m2 k = (upd p.hs H d2 k).active := by
    intro m2 d2 h1 h2 k hk
    by_cases hkH : k = H
    · subst hkH
      rw [upd_same]
      exact h1
    · rw [upd_ne _ _ hkH, h2 k hkH]
      exact hp.held k (by omega)
  have hun : ∀ d2 : Driven σ, unused F (fun k => (upd p.hs H d2 k).active) (H + 1) =
      unused F (fun k => (p.hs k).active) H + (F H - d2.active) := by
    intro d2
    rw [upd_comp (fun d : Driven σ => d.active)]
    exact unused_succ F _ H _
  have hft : ∀ d2 : Driven σ, finish_total (upd p.hs H d2) (H + 1) =
      finish_total p.hs H + d2.finish_calls := by
    intro d2
    unfold finish_total
    rw [upd_comp (fun d : Driven σ => d.finish_calls)]
    exact sum_map_succ_upd _ H _
  have htot : ∀ M : Nat, M = p.man.MAX_REQUESTS →
      slack - F H + ((List.range (H + 1)).map F).sum = M := by
    intro M hM
    rw [List.range_succ, List.map_append, List.sum_append]
    simp only [List.map_cons, List.map_nil, List.sum_cons, List.sum_nil, Nat.add_zero]
    omega
  rw [Pool.start_eq]
  by_cases hl : is_last h0 = true
  · rw [if_pos hl]
    have hlim : lim h0 ≤ 1 := by
      rw [hlast] at hl
      have := of_decide_eq_true hl
      omega
    have hd := Driven.start_done is_last next cur lim hlast h0 cc hc hlim (F H)
    rw [hn] at hd
    refine ⟨_, rfl, ManInv_mono hp.man, ?_, ?_, ?_, ?_, ?_⟩
    · exact hheld p.man.finished _ (by rw [held_finished, hheld0, hd.2.2.1])
        (fun k _ => rfl)
    · show p.man.empty_list.length = _
      rw [hun, hd.2.2.1]
      omega
    · intro k hk
      exact hstate _ k hk (Or.inr hd)
    · show p.man.finish_count - 1 + (finish_total _ (H + 1) : Int) = c
      rw [hft, hd.2.2.2]
      push_cast
      omega
    · exact htot _ rfl
  · have hl2 : is_last h0 = false := by
      cases hx : is_last h0 with
      | true => exact absurd hx hl
      | false => rfl
    rw [if_neg hl]
    have hlim : 2 ≤ lim h0 := by
      rw [hlast] at hl2
      have := of_decide_eq_false hl2
      omega
    have hd := Driven.start_posting fanout is_last next cur lim hlast hnext h0 cc hc hlim
      (by omega)
    rw [hn, hF] at hd
    have g4 := (hnext h0 hl2).2.2.2
    obtain ⟨m2, e1, e2, e3, e4, e5, e6, e7⟩ :=
      post_calls_spec H (Nat.lt_succ_self H) (next h0).2 p.man (ManInv_mono hp.man) (by omega)
    rw [e1]
    refine ⟨_, rfl, e2, ?_, ?_, ?_, ?_, ?_⟩
    · exact hheld m2 _ (by rw [e4, hheld0, hd.2.2.2.2.2.2.2.2.1, g4, hF]; omega) e5
    · show m2.empty_list.length = _
      rw [hun, hd.2.2.2.2.2.2.2.2.1]
      omega
    · intro k hk
      exact hstate _ k hk (Or.inl ⟨0, 0, hd⟩)
    · show m2.finish_count + (finish_total _ (H + 1) : Int) = c
      rw [hft, hd.2.2.2.2.2.2.2.2.2, e6]
      push_cast
      omega
    · exact htot _ e7

theorem PoolInv.in_use_le {F n : Nat → Nat} {H slack : Nat} {c : Int} {p : Pool σ}
    (hp : PoolInv fanout cur lim F n H slack c p) :
    in_use p.man ≤ ((List.range H).map F).sum := by
  have h1 := hp.quota
  have h2 := hp.total
  unfold in_use
  omega

theorem PoolInv.not_all_free {F n : Nat → Nat} {H slack : Nat} {p : Pool σ}
    (hp : PoolInv fanout cur lim F n H slack (H : Int) p) (hc : p.man.finish_count > 0) :
    p.man.empty_list.length ≠ p.man.MAX_REQUESTS := by
  have hfin := hp.fin
  have hex : ∃ j, j < H ∧ (p.hs j).finish_calls = 0 := by
    by_contra hno
    have hall : ∀ k, k < H → (p.hs k).finish_calls = 1 := by
      intro k hk
      rcases hp.state k hk with ⟨q, r, hd⟩ | hd
      · exact absurd ⟨k, hk, hd.2.2.2.2.2.2.2.2.2⟩ hno
      · exact hd.2.2.2
    have := sum_all_ones (fun k => (p.hs k).finish_calls) H hall
    unfold finish_total at hfin
    omega
  obtain ⟨j, hj, hz⟩ := hex
  rcases hp.state j hj with ⟨q, r, hd⟩ | hd
  · have h5 := hd.2.2.2.2.1
    have h9 := hd.2.2.2.2.2.2.2.2.1
    have hh := hp.held j hj
    obtain ⟨s, hs1, hs2⟩ := held_pos_slot p.man j (by omega)
    exact (free_slot p.man hp.man s j hs1 hs2).2.1
  · have := hd.2.2.2
    omega

theorem PoolInv.all_free {F n : Nat → Nat} {H slack : Nat} {p : Pool σ}
    (hp : PoolInv fanout cur lim F n H slack (H : Int) p) (hc : p.man.finish_count ≤ 0) :
    p.man.finish_count = 0 ∧ p.man.empty_list.length = p.man.MAX_REQUESTS ∧
      (∀ s, s < p.man.MAX_REQUESTS → s ∈ p.man.empty_list ∧ p.man.reqs s = none) ∧
      ∀ j, j < H → Driven.done (F j) (n j) (p.hs j) := by
  have hfin := hp.fin
  have hle : ∀ k, k < H → (fun k => (p.hs k).finish_calls) k ≤ 1 := by
    intro k hk
    rcases hp.state k hk with ⟨q, r, hd⟩ | hd
    · have := hd.2.2.2.2.2.2.2.2.2
      show (p.hs k).finish_calls ≤ 1
      omega
    · have := hd.2.2.2
      show (p.hs k).finish_calls ≤ 1
      omega
  obtain ⟨s1, s2⟩ := sum_ones _ H hle
  unfold finish_total at hfin
  have hall := s2 (by omega)
  have hdone : ∀ j, j < H → Driven.done (F j) (n j) (p.hs j) := by
    intro j hj
    rcases hp.state j hj with ⟨q, r, hd⟩ | hd
    · have := hd.2.2.2.2.2.2.2.2.2
      have := hall j hj
      simp only at this
      omega
    · exact hd
  have hun : unused F (fun k => (p.hs k).active) H = ((List.range H).map F).sum := by
    unfold unused
    congr 1
    apply List.map_congr_left
    intro k hk
    have := (hdone k (List.mem_range.1 hk)).2.2.1
    simp only [this, Nat.sub_zero]
  have hlen : p.man.empty_list.length = p.man.MAX_REQUESTS := by
    have h1 := hp.quota
    have h2 := hp.total
    omega
  refine ⟨by omega, hlen, ?_, hdone⟩
  intro s hs
  have hin := (all_free_iff p.man hp.man.1).2 hlen s hs
  exact ⟨hin, hp.man.2.1 s hin⟩

theorem Pool.run_events_spec
    (hlast : ∀ h, is_last h = decide (cur h ≥ lim h))
    (hnext : ∀ h, is_last h = false → cur (next h).1 = cur h + 1 ∧ lim (next h).1 = lim h ∧
      fanout (next h).1 = fanout h ∧ (next h).2.length = fanout h)
    {F n : Nat → Nat} {H slack : Nat} (events : List Nat) :
    ∀ p : Pool σ, PoolInv fanout cur lim F n H slack (H : Int) p →
      Pool.run_events fanout is_last next events p = PoolOutcome.no_such_request ∨
      ∃ p2, PoolInv fanout cur lim F n H slack (H : Int) p2 ∧
        ((Pool.run_events fanout is_last next events p = PoolOutcome.waiting p2 ∧
            p2.man.finish_count > 0) ∨
          (Pool.run_events fanout is_last next events p = PoolOutcome.returned p2 ∧
            p2.man.finish_count ≤ 0)) := by
  induction events with
  | nil =>
    intro p hp
    right
    refine ⟨p, hp, ?_⟩
    by_cases hc : p.man.finish_count > 0
    · left
      simp only [Pool.run_events, hc, if_true]
      exact ⟨trivial, trivial⟩
    · right
      simp only [Pool.run_events, hc, if_false]
      exact ⟨trivial, by omega⟩
  | cons index events ih =>
    intro p hp
    by_cases hc : p.man.finish_count > 0
    · have hnf := PoolInv.not_all_free fanout cur lim hp hc
      by_cases hq : p.man.reqs index = none
      · left
        simp only [Pool.run_events, hc, if_true, Pool.wait_step, hnf, if_false, hq,
          Option.isNone_none]
      · obtain ⟨p1, e1, hp1⟩ :=
          Pool.wait_step_spec fanout is_last next cur lim hlast hnext hp index hq
        have := ih p1 hp1
        simp only [Pool.run_events, hc, if_true, e1]
        exact this
    · right
      refine ⟨p, hp, Or.inr ?_⟩
      simp only [Pool.run_events, hc, if_false]
      exact ⟨trivial, by omega⟩

theorem PoolInv.init (F n : Nat → Nat) (m : MpiRequestManager) (hok : free_list_ok m)
    (hnone : ∀ s, m.reqs s = none) (hlen : m.empty_list.length = m.MAX_REQUESTS)
    (hs : Nat → Driven σ) :
    PoolInv fanout cur lim F n 0 m.MAX_REQUESTS m.finish_count { man := m, hs := hs } := by
  refine ⟨⟨hok, fun s _ => hnone s, fun s h => absurd (hnone s) h⟩, ?_, ?_, ?_, ?_, ?_⟩
  · intro j hj
    omega
  · show m.empty_list.length = m.MAX_REQUESTS + 0
    omega
  · intro j hj
    omega
  · show m.finish_count + ((0 : Nat) : Int) = m.finish_count
    omega
  · rfl

theorem PoolInv.run_add {F n : Nat → Nat} {H slack : Nat} {c : Int} {p : Pool σ}
    (hp : PoolInv fanout cur lim F n H slack c p) (k : Int) :
    PoolInv fanout cur lim F n H slack (c + k)
      { man := { p.man with finish_count := p.man.finish_count + k }, hs := p.hs } := by
  refine ⟨hp.man, hp.held, hp.quota, hp.state, ?_, hp.total⟩
  have := hp.fin
  show p.man.finish_count + k + (finish_total p.hs H : Int) = c + k
  omega

theorem Pool.start_all_four
    (hlast : ∀ h, is_last h = decide (cur h ≥ lim h))
    (hnext : ∀ h, is_last h = false → cur (next h).1 = cur h + 1 ∧ lim (next h).1 = lim h ∧
      fanout (next h).1 = fanout h ∧ (next h).2.length = fanout h)
    {F n : Nat → Nat} {slack : Nat} {c : Int} {p : Pool σ}
    (hp : PoolInv fanout cur lim F n 0 slack c p) (ccs : Nat → Nat) (h0s : List σ)
    (hlen : h0s.length = 4)
    (hh : ∀ i h, h0s[i]? = some h → cur h = 1 ∧ lim h = n i ∧ fanout h = F i ∧ 0 < F i)
    (hs : F 0 + F 1 + F 2 + F 3 ≤ slack) :
    ∃ p2, Pool.start_all is_last next ccs h0s 0 p = Except.ok p2 ∧
      PoolInv fanout cur lim F n 4 (slack - F 0 - F 1 - F 2 - F 3) c p2 := by
  match h0s, hlen with
  | [a0, a1, a2, a3], _ =>
    obtain ⟨x1, x2, x3, x4⟩ := hh 0 a0 rfl
    obtain ⟨p1, e1, hp1⟩ :=
      Pool.start_spec fanout is_last next cur lim hlast hnext hp a0 (ccs 0) x1 x2 x3 x4
        (by omega)
    have hp1 : PoolInv fanout cur lim F n 1 (slack - F 0) c p1 := hp1
    obtain ⟨y1, y2, y3, y4⟩ := hh 1 a1 rfl
    obtain ⟨p2, e2, hp2⟩ :=
      Pool.start_spec fanout is_last next cur lim hlast hnext hp1 a1 (ccs 1) y1 y2 y3 y4
        (by omega)
    have hp2 : PoolInv fanout cur lim F n 2 (slack - F 0 - F 1) c p2 := hp2
    obtain ⟨z1, z2, z3, z4⟩ := hh 2 a2 rfl
    obtain ⟨p3, e3, hp3⟩ :=
      Pool.start_spec fanout is_last next cur lim hlast hnext hp2 a2 (ccs 2) z1 z2 z3 z4
        (by omega)
    have hp3 : PoolInv fanout cur lim F n 3 (slack - F 0 - F 1 - F 2) c p3 := hp3
    obtain ⟨w1, w2, w3, w4⟩ := hh 3 a3 rfl
    obtain ⟨p4, e4, hp4⟩ :=
      Pool.start_spec fanout is_last next cur lim hlast hnext hp3 a3 (ccs 3) w1 w2 w3 w4
        (by omega)
    refine ⟨p4, ?_, hp4⟩
    simp only [Pool.start_all, e1, e2, e3, e4]

theorem PoolOutcome.safe {F n : Nat → Nat} {H slack : Nat} {c : Int} (o : PoolOutcome σ)
    (h : o = PoolOutcome.no_such_request ∨
      ∃ p2, PoolInv fanout cur lim F n H slack c p2 ∧
        ((o = PoolOutcome.waiting p2 ∧ p2.man.finish_count > 0) ∨
          (o = PoolOutcome.returned p2 ∧ p2.man.finish_count ≤ 0))) :
    (∀ e, o ≠ PoolOutcome.raised e) ∧ o ≠ PoolOutcome.unset_handler ∧
      (∀ p, o.pool = some p → PoolInv fanout cur lim F n H slack c p) ∧
      ∀ p, o = PoolOutcome.returned p → p.man.finish_count ≤ 0 := by
  rcases h with h | ⟨p2, hp2, ⟨h, hc⟩ | ⟨h, hc⟩⟩
  · subst h
    refine ⟨fun e he => PoolOutcome.noConfusion he, fun he => PoolOutcome.noConfusion he,
      fun p hp => ?_, fun p hp => PoolOutcome.noConfusion hp⟩
    exact Option.noConfusion hp
  · subst h
    refine ⟨fun e he => PoolOutcome.noConfusion he, fun he => PoolOutcome.noConfusion he,
      fun p hp => ?_, fun p hp => PoolOutcome.noConfusion hp⟩
    have : p2 = p := Option.some.inj hp
    rw [← this]
    exact hp2
  · subst h
    refine ⟨fun e he => PoolOutcome.noConfusion he, fun he => PoolOutcome.noConfusion he,
      fun p hp => ?_, fun p hp => ?_⟩
    · have : p2 = p := Option.some.inj hp
      rw [← this]
      exact hp2
    · have : p2 = p := PoolOutcome.returned.inj hp
      rw [← this]
      exact hc

end pool

theorem ring_pool_spec (count offset : Nat → Nat) (rank size complete_count : Nat)
    (events : List Nat) :
    my_allgatherv_2d.ring_pool count offset rank size complete_count events =
        PoolOutcome.no_such_request ∨
      ∃ p2, PoolInv (fun _ => 4) (fun h : AllgatherHandler => h.current) (fun h => h.size)
          (fun _ => 4) (fun _ => size) 1 4 ((1 : Nat) : Int) p2 ∧
        ((my_allgatherv_2d.ring_pool count offset rank size complete_count events =
              PoolOutcome.waiting p2 ∧ p2.man.finish_count > 0) ∨
          (my_allgatherv_2d.ring_pool count offset rank size complete_count events =
              PoolOutcome.returned p2 ∧ p2.man.finish_count ≤ 0)) := by
  have hlast : ∀ h : AllgatherHandler,
      (fun h : AllgatherHandler => decide (h.current ≥ h.size)) h =
        decide ((fun h : AllgatherHandler => h.current) h ≥
          (fun h : AllgatherHandler => h.size) h) := fun _ => rfl
  have hnext := fun h hl => ring_next_step count offset h hl
  have hp0 := PoolInv.init (fun _ : AllgatherHandler => 4)
    (fun h : AllgatherHandler => h.current) (fun h => h.size) (fun _ => 4) (fun _ => size)
    (MpiRequestManager.new 8) (free_list_ok_new 8) (fun _ => rfl) (List.length_range 8)
    (fun _ => ⟨AllgatherHandler.fields rank size ((rank + size - 1) % size)
      ((rank + size + 1) % size) MY_EXPAND_TAG1, complete_count, [], 0, 0⟩)
  obtain ⟨p1, e1, hp1⟩ := Pool.start_spec (fun _ : AllgatherHandler => 4)
    (fun h => decide (h.current ≥ h.size)) (AllgatherHandler.next count offset)
    (fun h => h.current) (fun h => h.size) hlast hnext hp0
    (AllgatherHandler.fields rank size ((rank + size - 1) % size)
      ((rank + size + 1) % size) MY_EXPAND_TAG1) complete_count rfl rfl rfl (by decide)
    (by decide)
  have hp2 := PoolInv.run_add (fun _ : AllgatherHandler => 4)
    (fun h : AllgatherHandler => h.current) (fun h => h.size) hp1 1
  have h := Pool.run_events_spec (fun _ : AllgatherHandler => 4)
    (fun h => decide (h.current ≥ h.size)) (AllgatherHandler.next count offset)
    (fun h => h.current) (fun h => h.size) hlast hnext events _ hp2
  simp only [my_allgatherv_2d.ring_pool, e1, Pool.run]
  exact h

theorem step1_handlers_fields (recv_count recv_offset : Nat → Nat) (comm : COMM_2D) :
    ∀ (i : Nat) (h : AllgatherStep1Handler),
      (my_allgatherv_2d.step1_handlers recv_count recv_offset comm)[i]? = some h →
      h.current = 1 ∧ h.steps = (if i < 2 then comm.size_x else comm.size_y) ∧
        (2 : Nat) = 2 ∧ 0 < 2 := by
  intro i h hi
  match i, hi with
  | 0, hi =>
    have := Option.some.inj hi
    subst this
    exact ⟨rfl, rfl, rfl, by decide⟩
  | 1, hi =>
    have := Option.some.inj hi
    subst this
    exact ⟨rfl, rfl, rfl, by decide⟩
  | 2, hi =>
    have := Option.some.inj hi
    subst this
    exact ⟨rfl, rfl, rfl, by decide⟩
  | 3, hi =>
    have := Option.some.inj hi
    subst this
    exact ⟨rfl, rfl, rfl, by decide⟩
  | k + 4, hi => exact Option.noConfusion hi

theorem step2_handlers_fields (recv_count recv_offset : Nat → Nat) (comm : COMM_2D)
    (hx : 0 < comm.size_x) (hy : 0 < comm.size_y) :
    ∀ (i : Nat) (h : AllgatherStep2Handler),
      (my_allgatherv_2d.step2_handlers recv_count recv_offset comm)[i]? = some h →
      h.current = 1 ∧ h.steps = (if i < 2 then comm.size_y else comm.size_x) ∧
        h.width * 2 = (if i < 2 then comm.size_x * 2 else comm.size_y * 2) ∧
        0 < (if i < 2 then comm.size_x * 2 else comm.size_y * 2) := by
  intro i h hi
  match i, hi with
  | 0, hi =>
    have := Option.some.inj hi
    subst this
    exact ⟨rfl, rfl, rfl, Nat.mul_pos hx (by decide)⟩
  | 1, hi =>
    have := Option.some.inj hi
    subst this
    exact ⟨rfl, rfl, rfl, Nat.mul_pos hx (by decide)⟩
  | 2, hi =>
    have := Option.some.inj hi
    subst this
    exact ⟨rfl, rfl, rfl, Nat.mul_pos hy (by decide)⟩
  | 3, hi =>
    have := Option.some.inj hi
    subst this
    exact ⟨rfl, rfl, rfl, Nat.mul_pos hy (by decide)⟩
  | k + 4, hi => exact Option.noConfusion hi

theorem phase1_pool_spec (recv_count recv_offset : Nat → Nat) (comm : COMM_2D)
    (complete_count : Nat → Nat) (events : List Nat) (hx : 0 < comm.size_x)
    (hy : 0 < comm.size_y) :
    my_allgatherv_2d.phase1_pool recv_count recv_offset comm complete_count events =
        PoolOutcome.no_such_request ∨
      ∃ p2, PoolInv (fun _ => 2) (fun h : AllgatherStep1Handler => h.current)
          (fun h => h.steps) (fun _ => 2)
          (fun i => if i < 2 then comm.size_x else comm.size_y) 4
          ((comm.size_x + comm.size_y) * 4 - 2 - 2 - 2 - 2) ((4 : Nat) : Int) p2 ∧
        ((my_allgatherv_2d.phase1_pool recv_count recv_offset comm complete_count events =
              PoolOutcome.waiting p2 ∧ p2.man.finish_count > 0) ∨
          (my_allgatherv_2d.phase1_pool recv_count recv_offset comm complete_count events =
              PoolOutcome.returned p2 ∧ p2.man.finish_count ≤ 0)) := by
  have hlast : ∀ h : AllgatherStep1Handler,
      (fun h : AllgatherStep1Handler => decide (h.current ≥ h.steps)) h =
        decide ((fun h : AllgatherStep1Handler => h.current) h ≥
          (fun h : AllgatherStep1Handler => h.steps) h) := fun _ => rfl
  have hnext := fun h hl => step1_next_step h hl
  have hp0 := PoolInv.init (fun _ : AllgatherStep1Handler => 2)
    (fun h : AllgatherStep1Handler => h.current) (fun h => h.steps) (fun _ => 2)
    (fun i => if i < 2 then comm.size_x else comm.size_y)
    (MpiRequestManager.new ((comm.size_x + comm.size_y) * 4)) (free_list_ok_new _)
    (fun _ => rfl) (List.length_range _)
    (fun j => ⟨AllgatherStep1Handler.fields recv_count recv_offset comm 0 0 0 0,
      complete_count j, [], 0, 0⟩)
  obtain ⟨p1, e1, hp1⟩ := Pool.start_all_four (fun _ : AllgatherStep1Handler => 2)
    (fun h => decide (h.current ≥ h.steps)) AllgatherStep1Handler.next
    (fun h => h.current) (fun h => h.steps) hlast hnext hp0 complete_count
    (my_allgatherv_2d.step1_handlers recv_count recv_offset comm) rfl
    (step1_handlers_fields recv_count recv_offset comm) (by
      show 2 + 2 + 2 + 2 ≤ (comm.size_x + comm.size_y) * 4
      omega)
  have hp2 := PoolInv.run_add (fun _ : AllgatherStep1Handler => 2)
    (fun h : AllgatherStep1Handler => h.current) (fun h => h.steps) hp1 4
  have h := Pool.run_events_spec (fun _ : AllgatherStep1Handler => 2)
    (fun h => decide (h.current ≥ h.steps)) AllgatherStep1Handler.next
    (fun h => h.current) (fun h => h.steps) hlast hnext events _ hp2
  simp only [my_allgatherv_2d.phase1_pool, e1, Pool.run]
  exact h

theorem phase2_pool_spec (recv_count recv_offset : Nat → Nat) (comm : COMM_2D)
    (complete_count : Nat → Nat) (man : MpiRequestManager) (events : List Nat)
    (hx : 0 < comm.size_x) (hy : 0 < comm.size_y) (hok : free_list_ok man)
    (hnone : ∀ s, man.reqs s = none) (hlen : man.empty_list.length = man.MAX_REQUESTS)
    (hMAX : man.MAX_REQUESTS = (comm.size_x + comm.size_y) * 4)
    (hfc : man.finish_count = 0) :
    my_allgatherv_2d.phase2_pool recv_count recv_offset comm complete_count man events =
        PoolOutcome.no_such_request ∨
      ∃ p2, PoolInv (fun h => h.width * 2) (fun h : AllgatherStep2Handler => h.current)
          (fun h => h.steps) (fun i => if i < 2 then comm.size_x * 2 else comm.size_y * 2)
          (fun i => if i < 2 then comm.size_y else comm.size_x) 4
          (man.MAX_REQUESTS - comm.size_x * 2 - comm.size_x * 2 - comm.size_y * 2 -
            comm.size_y * 2) ((4 : Nat) : Int) p2 ∧
        ((my_allgatherv_2d.phase2_pool recv_count recv_offset comm complete_count man events =
              PoolOutcome.waiting p2 ∧ p2.man.finish_count > 0) ∨
          (my_allgatherv_2d.phase2_pool recv_count recv_offset comm complete_count man events =
              PoolOutcome.returned p2 ∧ p2.man.finish_count ≤ 0)) := by
  have hlast : ∀ h : AllgatherStep2Handler,
      (fun h : AllgatherStep2Handler => decide (h.current ≥ h.steps)) h =
        decide ((fun h : AllgatherStep2Handler => h.current) h ≥
          (fun h : AllgatherStep2Handler => h.steps) h) := fun _ => rfl
  have hnext := fun h hl => step2_next_step h hl
  have hp0 := PoolInv.init (fun h : AllgatherStep2Handler => h.width * 2)
    (fun h : AllgatherStep2Handler => h.current) (fun h => h.steps)
    (fun i => if i < 2 then comm.size_x * 2 else comm.size_y * 2)
    (fun i => if i < 2 then comm.size_y else comm.size_x)
    man hok hnone hlen
    (fun j => ⟨AllgatherStep2Handler.fields recv_count recv_offset comm 0 0 0 0 0,
      complete_count j, [], 0, 0⟩)
  obtain ⟨p1, e1, hp1⟩ := Pool.start_all_four (fun h : AllgatherStep2Handler => h.width * 2)
    (fun h => decide (h.current ≥ h.steps)) AllgatherStep2Handler.next
    (fun h => h.current) (fun h => h.steps) hlast hnext hp0 complete_count
    (my_allgatherv_2d.step2_handlers recv_count recv_offset comm) rfl
    (step2_handlers_fields recv_count recv_offset comm hx hy) (by
      show comm.size_x * 2 + comm.size_x * 2 + comm.size_y * 2 + comm.size_y * 2 ≤
        man.MAX_REQUESTS
      omega)
  have hp2 := PoolInv.run_add (fun h : AllgatherStep2Handler => h.width * 2)
    (fun h : AllgatherStep2Handler => h.current) (fun h => h.steps) hp1 4
  have hc : man.finish_count + 4 = ((4 : Nat) : Int) := by
    rw [hfc]
    rfl
  rw [hc] at hp2
  have h := Pool.run_events_spec (fun h : AllgatherStep2Handler => h.width * 2)
    (fun h => decide (h.current ≥ h.steps)) AllgatherStep2Handler.next
    (fun h => h.current) (fun h => h.steps) hlast hnext events _ hp2
  simp only [my_allgatherv_2d.phase2_pool, e1, Pool.run]
  exact h

/-! ## Ties: the earlier candidate stays -/

theorem wins_of_lt {w t y : Nat} (h1 : f32lt w t = true) (h2 : f32lt y t = false) :
    wins w y = true := by
  unfold wins
  unfold f32lt at h1 h2 ⊢
  cases hw : f32isNaN w <;> cases ht : f32isNaN t <;> cases hy : f32isNaN y <;>
    simp only [hw, ht, hy, Bool.not_true, Bool.not_false, Bool.true_and, Bool.false_and,
      Bool.and_true, Bool.and_false, Bool.or_true, Bool.or_false, decide_eq_true_eq,
      decide_eq_false_iff_not, Bool.false_eq_true] at h1 h2 ⊢
  omega

theorem wins_ne {w y : Nat} (h : wins w y = true) : y ≠ w := by
  intro e
  subst e
  unfold wins at h
  rw [f32lt_irrefl] at h
  cases hy : f32isNaN y <;> simp [hy] at h

theorem wins_not_float_eq {w y : Nat} (h : wins w y = true) :
    ¬ (f32isNaN w = false ∧ f32isNaN y = false ∧ f32val w = f32val y) := by
  rintro ⟨h1, h2, h3⟩
  unfold wins f32lt at h
  simp [h1, h2, h3] at h

theorem tie_core_new {L : Nat} {s : Stream} {vp : VPos} {P : List Nat} {C : List (Nat × Nat)}
    (h : DInv L s vp P C) {v : Nat} (hneg : vp v < 0) : ∀ y ∈ C, y.1 ≠ v := by
  intro y hy e
  obtain ⟨p, _, h1, _⟩ := h.cand y hy
  rw [e] at h1
  omega

theorem tie_core_replace {L : Nat} {s : Stream} {vp : VPos} {P : List Nat}
    {C : List (Nat × Nat)} (h : DInv L s vp P C) {v w : Nat}
    (hlt : f32lt w (s ((vp v).toNat + 1)) = true) :
    ∀ y ∈ C, y.1 = v → wins w y.2 = true := by
  intro y hy e
  obtain ⟨p, _, h1, h2⟩ := h.cand y hy
  rw [e] at h1
  have ht : (vp v).toNat = p := by rw [h1]; simp
  rw [ht] at hlt
  exact wins_of_lt hlt h2

theorem ptr_dedup_put_mono {L : Nat} {st : MergeState} {ks : List Nat} {k : Nat}
    {C : List (Nat × Nat)} (h : EInv L st ks k C) {v : Nat} (w : Nat) (hv : v < L) :
    ∀ p ∈ pairPos 0 ks ++ rowPos (layEnd 0 ks + 3) k,
      (ptr_dedup_put st v w).stream p = st.stream p ∧
      ((ptr_dedup_put st v w).stream (p + 1) = st.stream (p + 1) ∨
        (ptr_dedup_put st v w).stream (p + 1) = get_sentinel) := by
  have hq : ∀ p ∈ pairPos 0 ks ++ rowPos (layEnd 0 ks + 3) k, p + 2 ≤ st.pos := by
    intro p hp
    rw [h.pos]
    exact (open_positions_bound hp).2
  intro p hp
  have hpq := hq p hp
  unfold ptr_dedup_put
  by_cases hneg : st.vertices_pos v < 0
  · rw [if_pos hneg]
    simp only
    rw [upd_ne _ _ (by omega), upd_ne _ _ (by omega), upd_ne _ _ (by omega),
      upd_ne _ _ (by omega)]
    exact ⟨rfl, Or.inl rfl⟩
  · rw [if_neg hneg]
    simp only
    obtain ⟨p0, hp0, h1, _, _⟩ := h.inv.alive v hv hneg
    have ht : (st.vertices_pos v).toNat = p0 := by rw [h1]; simp
    cases hlt : f32lt w (st.stream ((st.vertices_pos v).toNat + 1)) with
    | true =>
      simp only [if_true]
      have hne := sep_ne h.inv.sep hp0 hp
      rw [ht]
      refine ⟨?_, ?_⟩
      · rw [upd_ne _ _ (by omega), upd_ne _ _ (by omega), upd_ne _ _ hne]
      · rw [upd_ne _ _ (by omega), upd_ne _ _ (by omega)]
        by_cases hpp : p = p0
        · right
          rw [hpp, upd_same]
        · left
          rw [upd_ne _ _ (by omega)]
    | false =>
      simp only [Bool.false_eq_true, if_false]
      exact ⟨trivial, Or.inl trivial⟩

theorem ptr_dedup_put_why (st : MergeState) (v w : Nat)
    (h : (ptr_dedup_put st v w).pos ≠ st.pos) :
    st.vertices_pos v < 0 ∨
      f32lt w (st.stream ((st.vertices_pos v).toNat + 1)) = true := by
  unfold ptr_dedup_put at h
  by_cases hneg : st.vertices_pos v < 0
  · exact Or.inl hneg
  · rw [if_neg hneg] at h
    simp only at h
    cases hlt : f32lt w (st.stream ((st.vertices_pos v).toNat + 1)) with
    | true => exact Or.inr rfl
    | false =>
      rw [hlt] at h
      exact absurd rfl h

theorem TieRow_mono {s t : Stream} {prev : List (Nat × Nat)} {row : List Nat}
    {B : List (Nat × Nat)}
    (hm : ∀ p ∈ row, t p = s p ∧ (t (p + 1) = s (p + 1) ∨ t (p + 1) = get_sentinel))
    (h : TieRow s prev row B) : TieRow t prev row B := by
  intro p hp hl
  obtain ⟨h1, h2⟩ := hm p hp
  have h3 : t (p + 1) = s (p + 1) := by
    rcases h2 with h2 | h2
    · exact h2
    · exact absurd h2 hl
  rw [h1, h3]
  exact h p hp (by rw [← h3]; exact hl)

theorem TieRow_extend {s : Stream} {prev : List (Nat × Nat)} {row : List Nat}
    {B : List (Nat × Nat)} (c : Nat × Nat) (h : TieRow s prev row B) :
    TieRow s prev row (B ++ [c]) := by
  intro p hp hl
  obtain ⟨B1, B2, e, hw⟩ := h p hp hl
  refine ⟨B1, B2 ++ [c], ?_, hw⟩
  rw [e]
  simp

theorem TieBlocks_mono {s t : Stream} :
    ∀ (ks : List Nat) (Cs : List (List (Nat × Nat))) (prev : List (Nat × Nat)) (i : Nat),
      (∀ p ∈ pairPos i ks,
        t p = s p ∧ (t (p + 1) = s (p + 1) ∨ t (p + 1) = get_sentinel)) →
      TieBlocks s prev i ks Cs → TieBlocks t prev i ks Cs := by
  intro ks
  induction ks with
  | nil =>
    intro Cs prev i _ h
    cases Cs with
    | nil => trivial
    | cons B Cs => exact h
  | cons k ks ih =>
    intro Cs prev i hm h
    cases Cs with
    | nil => exact h
    | cons B Cs =>
      simp only [TieBlocks] at h ⊢
      simp only [pairPos, List.mem_append] at hm
      exact ⟨TieRow_mono (fun p hp => hm p (Or.inl hp)) h.1,
        ih Cs _ _ (fun p hp => hm p (Or.inr hp)) h.2⟩

theorem TieBlocks_snoc {s : Stream} :
    ∀ (ks : List Nat) (Cs : List (List (Nat × Nat))) (prev : List (Nat × Nat)) (i k : Nat)
      (B : List (Nat × Nat)),
      TieBlocks s prev i ks Cs →
      TieRow s (prev ++ Cs.flatten) (rowPos (layEnd i ks + 3) k) B →
      TieBlocks s prev i (ks ++ [k]) (Cs ++ [B]) := by
  intro ks
  induction ks with
  | nil =>
    intro Cs prev i k B h hr
    cases Cs with
    | nil =>
      simp only [List.flatten_nil, List.append_nil, layEnd] at hr
      simp only [List.nil_append, TieBlocks]
      exact ⟨hr, trivial⟩
    | cons B0 Cs => exact absurd h (by simp [TieBlocks])
  | cons k0 ks ih =>
    intro Cs prev i k B h hr
    cases Cs with
    | nil => exact absurd h (by simp [TieBlocks])
    | cons B0 Cs =>
      simp only [TieBlocks, List.cons_append] at h ⊢
      refine ⟨h.1, ih Cs _ _ k B h.2 ?_⟩
      simp only [List.flatten_cons, layEnd, ← List.append_assoc] at hr
      simpa [List.append_assoc] using hr

theorem tie_put {L : Nat} {st : MergeState} {ks : List Nat} {k : Nat}
    {prev B : List (Nat × Nat)} {Cs : List (List (Nat × Nat))} {v w : Nat}
    (h : EInv L st ks k (prev ++ B)) (hv : v < L) (hw : w ≠ get_sentinel)
    (hr : TieRow st.stream prev (rowPos (layEnd 0 ks + 3) k) B)
    (hb : TieBlocks st.stream [] 0 ks Cs) :
    ∃ k', EInv L (ptr_dedup_put st v w) ks k' (prev ++ (B ++ [(v, w)])) ∧
      TieRow (ptr_dedup_put st v w).stream prev (rowPos (layEnd 0 ks + 3) k')
        (B ++ [(v, w)]) ∧
      TieBlocks (ptr_dedup_put st v w).stream [] 0 ks Cs := by
  obtain ⟨k', h'⟩ := EInv_put h hv hw
  rw [List.append_assoc] at h'
  have hm := ptr_dedup_put_mono h w hv
  refine ⟨k', h', ?_, ?_⟩
  · have hpos := h.pos
    have hpos' := h'.pos
    rcases ptr_dedup_put_emits st v w with he | ⟨e1, e2, e3⟩
    · rw [he] at hpos'
      have hk : k' = k := by omega
      rw [hk, he]
      exact TieRow_extend _ hr
    · have hk : k' = k + 1 := by omega
      have hwhy := ptr_dedup_put_why st v w (by omega)
      rw [hk, rowPos_snoc]
      intro p hp hl
      rcases List.mem_append.1 hp with hp | hp
      · exact TieRow_extend _
          (TieRow_mono (fun p hp => hm p (List.mem_append_right _ hp)) hr) p hp hl
      · simp only [List.mem_singleton] at hp
        have hp2 : p = st.pos := by omega
        rw [hp2, e2, e3]
        refine ⟨B, [], rfl, ?_⟩
        intro y hy hyv
        rcases hwhy with hneg | hlt
        · exact absurd hyv (tie_core_new h.inv hneg y hy)
        · exact tie_core_replace h.inv hlt y hy hyv
  · exact TieBlocks_mono ks Cs [] 0 (fun p hp => hm p (List.mem_append_left _ hp)) hb

theorem tie_edges {L : Nat} (state : SsspState) (graph : Graph2DCSR) (buffer : PointerData)
    (n : Nat) {st : MergeState} {ks : List Nat} {k : Nat} {prev B : List (Nat × Nat)}
    {Cs : List (List (Nat × Nat))}
    (h : EInv L st ks k (prev ++ B))
    (hr : TieRow st.stream prev (rowPos (layEnd 0 ks + 3) k) B)
    (hb : TieBlocks st.stream [] 0 ks Cs)
    (hc : ∀ i, i < n → ptr_passes state graph buffer i = true →
      (ptr_candidate state graph buffer i).1 < L ∧
      (ptr_candidate state graph buffer i).2 ≠ get_sentinel) :
    ∃ k', EInv L ((List.range n).foldl (ptr_edge state graph buffer) st) ks k'
        (prev ++ (B ++ ((List.range n).filter (ptr_passes state graph buffer)).map
          (ptr_candidate state graph buffer))) ∧
      TieRow ((List.range n).foldl (ptr_edge state graph buffer) st).stream prev
        (rowPos (layEnd 0 ks + 3) k')
        (B ++ ((List.range n).filter (ptr_passes state graph buffer)).map
          (ptr_candidate state graph buffer)) ∧
      TieBlocks ((List.range n).foldl (ptr_edge state graph buffer) st).stream [] 0 ks Cs := by
  induction n with
  | zero => exact ⟨k, by simpa using h, by simpa using hr, by simpa using hb⟩
  | succ n ih =>
    obtain ⟨k1, h1, r1, b1⟩ := ih (fun i hi => hc i (by omega))
    rw [List.range_succ, List.foldl_append, List.filter_append, List.map_append,
      ← List.append_assoc]
    simp only [List.foldl_cons, List.foldl_nil]
    rw [ptr_edge_eq]
    cases hp : ptr_passes state graph buffer n with
    | false =>
      refine ⟨k1, ?_, ?_, ?_⟩
      · simpa [hp] using h1
      · simpa [hp] using r1
      · simpa [hp] using b1
    | true =>
      obtain ⟨k2, h2, r2, b2⟩ :=
        tie_put h1 (hc n (by omega) hp).1 (hc n (by omega) hp).2 r1 b1
      refine ⟨k2, ?_, ?_, ?_⟩
      · simpa [hp] using h2
      · simpa [hp] using r2
      · simpa [hp] using b2

theorem tie_block {L : Nat} (state : SsspState) (graph : Graph2DCSR) (buffer : PointerData)
    {st : MergeState} {ks : List Nat} {Cs : List (List (Nat × Nat))}
    (h : BInv L st ks Cs.flatten) (hb : TieBlocks st.stream [] 0 ks Cs)
    (hc : ∀ c ∈ block_candidates state graph buffer, c.1 < L ∧ c.2 ≠ get_sentinel)
    (h0 : buffer.length ≠ 0) :
    ∃ k, BInv L (collect_ptr_block state graph st buffer) (ks ++ [k])
        (Cs ++ [block_candidates state graph buffer]).flatten ∧
      TieBlocks (collect_ptr_block state graph st buffer).stream [] 0 (ks ++ [k])
        (Cs ++ [block_candidates state graph buffer]) := by
  have hcand : ∀ i, i < buffer.length → ptr_passes state graph buffer i = true →
      (ptr_candidate state graph buffer i).1 < L ∧
      (ptr_candidate state graph buffer i).2 ≠ get_sentinel := by
    intro i hi hp
    apply hc
    simp only [block_candidates, List.mem_map, List.mem_filter, List.mem_range]
    exact ⟨i, ⟨hi, hp⟩, rfl⟩
  have hpos := h.pos
  unfold collect_ptr_block
  rw [if_neg h0]
  have hE : EInv L ⟨upd (upd st.stream st.pos ((buffer.header / 2 ^ 32) % 2 ^ 32))
      (st.pos + 1) (buffer.header % 2 ^ 32), st.vertices_pos, st.pos + 3⟩ ks 0
      (Cs.flatten ++ []) := by
    rw [List.append_nil]
    refine ⟨?_, ?_, ?_⟩
    · apply PtrLay_congr _ h.lay
      intro l hl
      have := lenPos_bounds hl
      simp only
      rw [upd_ne _ _ (by omega), upd_ne _ _ (by omega)]
    · simp only
      rw [h.pos]
    · simp only [rowPos, List.append_nil]
      apply DInv_frame h.inv
      intro p hp
      have := pairPos_bounds hp
      rw [upd_ne _ _ (by omega), upd_ne _ _ (by omega), upd_ne _ _ (by omega),
        upd_ne _ _ (by omega)]
      exact ⟨rfl, rfl⟩
  have hb1 : TieBlocks (upd (upd st.stream st.pos ((buffer.header / 2 ^ 32) % 2 ^ 32))
      (st.pos + 1) (buffer.header % 2 ^ 32)) [] 0 ks Cs := by
    apply TieBlocks_mono ks Cs [] 0 _ hb
    intro p hp
    have := pairPos_bounds hp
    rw [upd_ne _ _ (by omega), upd_ne _ _ (by omega), upd_ne _ _ (by omega),
      upd_ne _ _ (by omega)]
    exact ⟨rfl, Or.inl rfl⟩
  have hr1 : TieRow (upd (upd st.stream st.pos ((buffer.header / 2 ^ 32) % 2 ^ 32))
      (st.pos + 1) (buffer.header % 2 ^ 32)) Cs.flatten (rowPos (layEnd 0 ks + 3) 0) [] := by
    intro p hp
    simp [rowPos] at hp
  obtain ⟨k, hk, rk, bk⟩ := tie_edges state graph buffer buffer.length hE hr1 hb1 hcand
  rw [List.nil_append] at hk rk
  refine ⟨k, ⟨?_, ?_, ?_⟩, ?_⟩
  · simp only
    apply PtrLay_snoc
    · apply PtrLay_congr _ hk.lay
      intro l hl
      have := lenPos_bounds hl
      rw [upd_ne _ _ (by omega)]
    · rw [show st.pos + 3 - 1 = layEnd 0 ks + 2 by omega, upd_same, hk.pos, h.pos]
      omega
  · simp only
    rw [layEnd_snoc, hk.pos]
  · simp only
    rw [pairPos_snoc, List.flatten_append, List.flatten_singleton]
    apply DInv_frame hk.inv
    intro p hp
    rcases List.mem_append.1 hp with hp | hp
    · have := pairPos_bounds hp
      rw [upd_ne _ _ (by omega), upd_ne _ _ (by omega)]
      exact ⟨rfl, rfl⟩
    · have := rowPos_bounds hp
      rw [upd_ne _ _ (by omega), upd_ne _ _ (by omega)]
      exact ⟨rfl, rfl⟩
  · simp only
    apply TieBlocks_snoc
    · apply TieBlocks_mono ks Cs [] 0 _ bk
      intro p hp
      have := pairPos_bounds hp
      rw [upd_ne _ _ (by omega), upd_ne _ _ (by omega)]
      exact ⟨rfl, Or.inl rfl⟩
    · rw [List.nil_append]
      apply TieRow_mono _ rk
      intro p hp
      have := rowPos_bounds hp
      rw [upd_ne _ _ (by omega), upd_ne _ _ (by omega)]
      exact ⟨rfl, Or.inl rfl⟩

theorem tie_blocks {L : Nat} (state : SsspState) (graph : Graph2DCSR)
    (bufs : List PointerData) {st : MergeState} {ks : List Nat}
    {Cs : List (List (Nat × Nat))}
    (h : BInv L st ks Cs.flatten) (hb : TieBlocks st.stream [] 0 ks Cs)
    (hc : ∀ b ∈ bufs, ∀ c ∈ block_candidates state graph b, c.1 < L ∧ c.2 ≠ get_sentinel) :
    ∃ ks', BInv L (bufs.foldl (collect_ptr_block state graph) st) ks'
        (Cs ++ (bufs.filter (fun b => decide (b.length ≠ 0))).map
          (block_candidates state graph)).flatten ∧
      TieBlocks (bufs.foldl (collect_ptr_block state graph) st).stream [] 0 ks'
        (Cs ++ (bufs.filter (fun b => decide (b.length ≠ 0))).map
          (block_candidates state graph)) := by
  induction bufs generalizing st ks Cs with
  | nil => exact ⟨ks, by simpa using h, by simpa using hb⟩
  | cons b bs ih =>
    by_cases h0 : b.length = 0
    · have hst : collect_ptr_block state graph st b = st := by
        simp [collect_ptr_block, h0]
      obtain ⟨ks2, h2, b2⟩ := ih h hb (fun b' hb' => hc b' (List.mem_cons_of_mem _ hb'))
      refine ⟨ks2, ?_, ?_⟩
      · simp only [List.foldl_cons, hst, List.filter_cons, h0]
        simpa using h2
      · simp only [List.foldl_cons, hst, List.filter_cons, h0]
        simpa using b2
    · obtain ⟨k, h1, b1⟩ := tie_block state graph b h hb (hc b (List.mem_cons_self _ _)) h0
      obtain ⟨ks2, h2, b2⟩ := ih h1 b1 (fun b' hb' => hc b' (List.mem_cons_of_mem _ hb'))
      have hf : (b :: bs).filter (fun b => decide (b.length ≠ 0)) =
          b :: bs.filter (fun b => decide (b.length ≠ 0)) := by
        rw [List.filter_cons]
        simp [h0]
      refine ⟨ks2, ?_, ?_⟩
      · simp only [List.foldl_cons]
        rw [hf]
        simpa [List.append_assoc] using h2
      · simp only [List.foldl_cons]
        rw [hf]
        simpa [List.append_assoc] using b2

theorem PtrLay_unique {s : Stream} :
    ∀ (ks ks' : List Nat) (i : Nat), PtrLay s i ks → PtrLay s i ks' →
      layEnd i ks = layEnd i ks' → ks = ks' := by
  intro ks
  induction ks with
  | nil =>
    intro ks' i _ _ he
    cases ks' with
    | nil => rfl
    | cons k' ks' =>
      simp only [layEnd] at he
      have := layEnd_ge (i + 3 + 2 * k') ks'
      omega
  | cons k ks ih =>
    intro ks' i h1 h2 he
    cases ks' with
    | nil =>
      simp only [layEnd] at he
      have := layEnd_ge (i + 3 + 2 * k) ks
      omega
    | cons k' ks' =>
      simp only [PtrLay] at h1 h2
      have hk : k = k' := by
        have := h1.1
        have := h2.1
        omega
      subst hk
      simp only [layEnd] at he
      rw [ih ks' _ h1.2 h2.2 he]

theorem TieBlocks_get {s : Stream} :
    ∀ (ks : List Nat) (Cs : List (List (Nat × Nat))) (prev : List (Nat × Nat)) (i : Nat),
      TieBlocks s prev i ks Cs →
      ks.length = Cs.length ∧
      ∀ (j : Nat) (b : PtrBlock) (B : List (Nat × Nat)),
        (readBlocks s i ks)[j]? = some b → Cs[j]? = some B →
        ∀ x ∈ b.2.2, x.2 ≠ get_sentinel →
          ∃ B1 B2, B = B1 ++ x :: B2 ∧
            ∀ y ∈ prev ++ (Cs.take j).flatten ++ B1, y.1 = x.1 → wins x.2 y.2 = true := by
  intro ks
  induction ks with
  | nil =>
    intro Cs prev i h
    cases Cs with
    | nil =>
      refine ⟨rfl, ?_⟩
      intro j b B hb
      simp [readBlocks] at hb
    | cons B Cs => exact absurd h (by simp [TieBlocks])
  | cons k ks ih =>
    intro Cs prev i h
    cases Cs with
    | nil => exact absurd h (by simp [TieBlocks])
    | cons B0 Cs =>
      simp only [TieBlocks] at h
      obtain ⟨hl, hi⟩ := ih Cs _ _ h.2
      refine ⟨by simp [hl], ?_⟩
      intro j b B hb hB x hx hlive
      cases j with
      | zero =>
        simp only [readBlocks, List.getElem?_cons_zero, Option.some.injEq] at hb hB
        subst hb hB
        simp only [readRow_eq_map, List.mem_map] at hx
        obtain ⟨p, hp, rfl⟩ := hx
        obtain ⟨B1, B2, e, hw⟩ := h.1 p hp hlive
        refine ⟨B1, B2, e, ?_⟩
        simpa using hw
      | succ j =>
        simp only [readBlocks, List.getElem?_cons_succ] at hb hB
        obtain ⟨B1, B2, e, hw⟩ := hi j b B hb hB x hx hlive
        refine ⟨B1, B2, e, ?_⟩
        simpa [List.append_assoc] using hw

theorem ptr_candidates_blocks (node : CommTarget) (state : SsspState) (graph : Graph2DCSR) :
    ptr_candidates node state graph =
      ((node.send_ptr.filter (fun b => decide (b.length ≠ 0))).map
        (block_candidates state graph)).flatten := by
  unfold ptr_candidates
  induction node.send_ptr with
  | nil => rfl
  | cons b bs ih =>
    rw [List.flatMap_cons, ih]
    by_cases h0 : b.length = 0
    · have : block_candidates state graph b = [] := by simp [block_candidates, h0]
      rw [this, List.filter_cons]
      simp [h0]
    · rw [List.filter_cons]
      simp [h0]

/-- After `collect_targets_ptr` on a clean scratch slice the blocks of the stream carry the
tie invariant for the candidates of the descriptors of non-zero length. -/
theorem collect_targets_ptr_tie (L : Nat) (node : CommTarget) (state : SsspState)
    (graph : Graph2DCSR) (stream : Stream) (vertices_pos : VPos)
    (hclean : ∀ v, v < L → vertices_pos v = -1)
    (hc : ∀ c ∈ ptr_candidates node state graph, c.1 < L ∧ c.2 ≠ get_sentinel) :
    ∃ ks, BInv L (collect_targets_ptr node state graph stream vertices_pos) ks
        (ptr_candidates node state graph) ∧
      TieBlocks (collect_targets_ptr node state graph stream vertices_pos).stream [] 0 ks
        ((node.send_ptr.filter (fun b => decide (b.length ≠ 0))).map
          (block_candidates state graph)) := by
  have h0 : BInv L ⟨stream, vertices_pos, 0⟩ [] ([] : List (List (Nat × Nat))).flatten :=
    ⟨trivial, rfl, DInv_init L stream vertices_pos hclean⟩
  obtain ⟨ks, hk, hb⟩ := tie_blocks state graph node.send_ptr h0 trivial (by
    intro b hb c hcm
    apply hc
    simp only [ptr_candidates, List.mem_flatMap]
    exact ⟨b, hb, hcm⟩)
  rw [List.nil_append] at hk hb
  rw [← ptr_candidates_blocks] at hk
  exact ⟨ks, hk, hb⟩

theorem ctb_body_tie {L : Nat} (graph : Graph2DCSR) {s : Stream} {vp : VPos} {P : List Nat}
    {C : List (Nat × Nat)} {q : Nat} (h : DInv L s vp P C) (hq : ∀ p ∈ P, p + 2 ≤ q)
    (hv : s q &&& lmask graph < L)
    (hl : (ctb_body graph false q (s, vp)).1 (q + 1) ≠ get_sentinel) :
    ∀ y ∈ C, y.1 = s q &&& lmask graph → wins (s (q + 1)) y.2 = true := by
  unfold ctb_body at hl
  simp only [Bool.false_eq_true, if_false, upd_same] at hl
  have e1 : upd s q (s q &&& lmask graph) (q + 1) = s (q + 1) := upd_ne _ _ (by omega)
  intro y hy hyv
  by_cases hneg : vp (s q &&& lmask graph) < 0
  · exact absurd hyv (tie_core_new h hneg y hy)
  · rw [if_neg hneg] at hl
    obtain ⟨p0, hp0, h1, _, _⟩ := h.alive _ hv hneg
    have ht : (vp (s q &&& lmask graph)).toNat = p0 := by rw [h1]; simp
    have hp0q := hq p0 hp0
    have e2 : upd s q (s q &&& lmask graph) ((vp (s q &&& lmask graph)).toNat + 1) =
        s ((vp (s q &&& lmask graph)).toNat + 1) := upd_ne _ _ (by omega)
    rw [e1, e2] at hl
    cases hlt : f32lt (s (q + 1)) (s ((vp (s q &&& lmask graph)).toNat + 1)) with
    | true => exact tie_core_replace h hlt y hy hyv
    | false =>
      rw [hlt] at hl
      simp only [Bool.false_eq_true, if_false, upd_same] at hl
      exact absurd rfl hl

theorem ctb_loop_tie {L : Nat} (graph : Graph2DCSR) (stream_end : Nat) (hs : List Bool) :
    ∀ (fuel j : Nat) (s : Stream) (vp : VPos) (P : List Nat) (C : List (Nat × Nat)),
      BufLay s j hs → bufEnd j hs = stream_end → hs.length ≤ fuel → DInv L s vp P C →
      (∀ p ∈ P, p + 2 ≤ j) →
      (∀ p ∈ bufPos j hs, s p &&& lmask graph < L ∧ s (p + 1) ≠ get_sentinel) →
      ∀ (i p : Nat), (bufPos j hs)[i]? = some p →
        (ctb_loop graph false stream_end fuel j (s, vp)).1 (p + 1) ≠ get_sentinel →
        (ctb_loop graph false stream_end fuel j (s, vp)).1 p = s p &&& lmask graph ∧
        (ctb_loop graph false stream_end fuel j (s, vp)).1 (p + 1) = s (p + 1) ∧
        ∀ y ∈ C ++ (buf_candidates graph s (bufPos j hs)).take i,
          y.1 = s p &&& lmask graph → wins (s (p + 1)) y.2 = true := by
  induction hs with
  | nil =>
    intro fuel j s vp P C _ _ _ _ _ _ i p hi
    simp [bufPos] at hi
  | cons h hs ih =>
    intro fuel j s vp P C hlay hend hfuel hD hP hpay
    obtain ⟨f, rfl⟩ : ∃ f, fuel = f + 1 := ⟨fuel - 1, by simp at hfuel; omega⟩
    simp only [BufLay] at hlay
    simp only [bufEnd] at hend
    have hge := bufEnd_ge (j + (if h then 4 else 2)) hs
    have hj : j < stream_end := by
      cases h
      · simp only [Bool.false_eq_true, if_false] at hge hend
        omega
      · simp only [if_true] at hge hend
        omega
    have hqe : (if s j &&& 0x80000000 ≠ 0 then j + 2 else j) = (if h then j + 2 else j) := by
      cases h
      · simp only [Bool.false_eq_true, if_false] at hlay ⊢
        rw [if_neg (by simp [hlay.1])]
      · simp only [if_true] at hlay ⊢
        rw [if_pos hlay.1.1]
    have hloop : ctb_loop graph false stream_end (f + 1) j (s, vp) =
        ctb_loop graph false stream_end f ((if h then j + 2 else j) + 2)
          (ctb_body graph false (if h then j + 2 else j) (s, vp)) := by
      simp only [ctb_loop, if_pos hj, hqe]
    rw [hloop]
    simp only [bufPos, buf_candidates, List.map_cons]
    generalize hq : (if h then j + 2 else j) = q at *
    have hqj : j ≤ q ∧ q + 2 = j + (if h then 4 else 2) := by
      cases h <;> simp at hq ⊢ <;> omega
    have hPq : ∀ p ∈ P, p + 2 ≤ q := fun p hp => by
      have := hP p hp
      omega
    simp only [bufPos, hq, List.mem_cons, forall_eq_or_imp] at hpay
    obtain ⟨b1, b2, b3, b4⟩ := ctb_body_spec graph hD hPq hpay.1.1 hpay.1.2
    have bt := ctb_body_tie graph hD hPq hpay.1.1
    have hmark := ctb_loop_mark graph false stream_end f (q + 2)
      (ctb_body graph false q (s, vp)) (q + 1) (by omega)
    generalize hbody : ctb_body graph false q (s, vp) = r0 at b1 b2 b3 b4 bt hmark
    obtain ⟨s', vp'⟩ := r0
    simp only at b1 b2 b3 b4 bt hmark
    rw [← hqj.2] at hend hge hlay hpay ⊢
    have hag : ∀ x, q + 2 ≤ x → s' x = s x := by
      intro x hx
      apply b2 x (by omega) (by omega)
      intro p hp
      have := hP p hp
      omega
    have hlay' : BufLay s' (q + 2) hs := BufLay_congr hag hlay.2
    have hagP : ∀ p ∈ bufPos (q + 2) hs, s' p = s p ∧ s' (p + 1) = s (p + 1) := by
      intro p hp
      have := bufPos_bounds hp
      exact ⟨hag p (by omega), hag (p + 1) (by omega)⟩
    have hP' : ∀ p ∈ P ++ [q], p + 2 ≤ q + 2 := by
      intro p hp
      rcases List.mem_append.1 hp with hp | hp
      · have := hP p hp
        omega
      · simp only [List.mem_singleton] at hp
        omega
    have hpay' : ∀ p ∈ bufPos (q + 2) hs,
        s' p &&& lmask graph < L ∧ s' (p + 1) ≠ get_sentinel := by
      intro p hp
      rw [(hagP p hp).1, (hagP p hp).2]
      exact hpay.2 p hp
    have i0 := ih f (q + 2) s' vp' (P ++ [q]) (C ++ [(s q &&& lmask graph, s (q + 1))]) hlay'
      hend (by simp at hfuel; omega) b1 hP' hpay'
    obtain ⟨_, _, i3, _⟩ := ctb_loop_spec (L := L) graph stream_end hs f (q + 2) s' vp'
      (P ++ [q]) (C ++ [(s q &&& lmask graph, s (q + 1))]) hlay' hend
      (by simp at hfuel; omega) b1 hP' hpay'
    rw [buf_candidates_congr graph hagP] at i0
    generalize hr : ctb_loop graph false stream_end f (q + 2) (s', vp') = r at i0 i3 hmark
    have hfr : ∀ x, x < q + 2 → x ≠ q + 1 → (∀ p ∈ P, x ≠ p + 1) → r.1 x = s' x := by
      intro x hx hx1 hxp
      apply i3 x hx
      intro p hp
      rcases List.mem_append.1 hp with hp | hp
      · exact hxp p hp
      · simp only [List.mem_singleton] at hp
        subst hp
        exact hx1
    have hPj : ∀ x, j ≤ x → ∀ p ∈ P, x ≠ p + 1 := by
      intro x hx p hp
      have := hP p hp
      omega
    intro i p hi hlive
    cases i with
    | zero =>
      simp only [List.getElem?_cons_zero, Option.some.injEq] at hi
      subst hi
      have hk : r.1 (q + 1) = s' (q + 1) := by
        rcases hmark with hm | hm
        · exact hm
        · exact absurd hm hlive
      have hs' : s' (q + 1) = s (q + 1) := by
        rcases b4 with hb | hb
        · exact hb
        · rw [hk, hb] at hlive
          exact absurd rfl hlive
      refine ⟨?_, ?_, ?_⟩
      · rw [hfr q (by omega) (by omega) (hPj q hqj.1), b3]
      · rw [hk, hs']
      · simp only [List.take_zero, List.append_nil]
        exact bt (by rw [← hk]; exact hlive)
    | succ i =>
      simp only [List.getElem?_cons_succ] at hi
      have hmem : p ∈ bufPos (q + 2) hs := List.getElem?_mem hi
      obtain ⟨a1, a2, a3⟩ := i0 i p hi hlive
      rw [(hagP p hmem).1] at a1 a3
      rw [(hagP p hmem).2] at a2 a3
      refine ⟨a1, a2, ?_⟩
      intro y hy hyv
      apply a3 y _ hyv
      simp only [List.take_succ_cons, List.mem_append, List.mem_cons, List.mem_singleton,
        buf_candidates] at hy ⊢
      rcases hy with hy | hy | hy
      · exact Or.inl (Or.inl hy)
      · exact Or.inl (Or.inr (Or.inl hy))
      · exact Or.inr hy

/-- `collect_targets_buffer` with the dedup pass not skipped, token by token: the headers
stay where they are, and a payload pair that is not sentinel-marked is the queued pair at its
place and wins against every candidate for its vertex in front of it. -/
theorem collect_targets_buffer_tie {L : Nat} (SKIP_FILTERING : Bool) (node : CommTarget)
    (graph : Graph2DCSR) (state : SsspState) (off : Nat) (s : Stream) (vp : VPos)
    (P : List Nat) (C : List (Nat × Nat))
    (hskip : (SKIP_FILTERING && state.is_presolving_mode_) = false)
    (hwf : wellFormedBuf (queued_words node) = true) (hD : DInv L s vp P C)
    (hP : ∀ p ∈ P, p + 2 ≤ off) (hbnd : ∀ c ∈ buffer_candidates node graph, c.1 < L) :
    ∃ (hs : List Bool) (toks0 : List Tok),
      toPairs (queued_words node) = toks0.flatMap tokAll ∧
      bufEnd off hs = off + (queued_words node).length ∧
      BufLay (collect_targets_buffer SKIP_FILTERING node graph state off s vp).stream off hs ∧
      List.Forall₂ (TokRel graph) toks0
        (readToks (collect_targets_buffer SKIP_FILTERING node graph state off s vp).stream off
          hs) ∧
      DInv L (collect_targets_buffer SKIP_FILTERING node graph state off s vp).stream
        (collect_targets_buffer SKIP_FILTERING node graph state off s vp).vertices_pos
        (P ++ bufPos off hs) (C ++ buffer_candidates node graph) ∧
      ∀ (i : Nat) (t : Tok),
        (readToks (collect_targets_buffer SKIP_FILTERING node graph state off s vp).stream off
          hs)[i]? = some t →
        t.2.2 ≠ get_sentinel →
        (buffer_candidates node graph)[i]? = some t.2 ∧
        ∀ y ∈ C ++ (buffer_candidates node graph).take i, y.1 = t.2.1 →
          wins t.2.2 y.2 = true := by
  obtain ⟨c1, c2, c3⟩ := ctb_copy_spec node.send_data s off
  change _ = off + (queued_words node).length at c1
  change words _ off (queued_words node).length = queued_words node at c2
  obtain ⟨hs, l1, l2, l3, l4⟩ := wellFormed_layout _ (queued_words node) (Nat.le_refl _) hwf
    (node.send_data.foldl ctb_copy_step (s, off)).1 off c2
  have hD' : DInv L (node.send_data.foldl ctb_copy_step (s, off)).1 vp P C := by
    apply DInv_frame hD
    intro p hp
    have := hP p hp
    exact ⟨c3 p (by omega), c3 (p + 1) (by omega)⟩
  have hcand : buf_candidates graph (node.send_data.foldl ctb_copy_step (s, off)).1
      (bufPos off hs) = buffer_candidates node graph := by
    rw [buf_candidates_eq, l3]
    rfl
  have hlen : hs.length ≤ (queued_words node).length := by
    have := bufEnd_ge off hs
    omega
  have hpay : ∀ p ∈ bufPos off hs,
      (node.send_data.foldl ctb_copy_step (s, off)).1 p &&& lmask graph < L ∧
      (node.send_data.foldl ctb_copy_step (s, off)).1 (p + 1) ≠ get_sentinel := by
    intro p hp
    refine ⟨?_, l4 p hp⟩
    exact hbnd (_, _) (by
      rw [← hcand]
      simp only [buf_candidates, List.mem_map]
      exact ⟨p, hp, rfl⟩)
  obtain ⟨r1, r2, _, _⟩ := ctb_loop_spec (L := L) graph (off + (queued_words node).length) hs
    (queued_words node).length off _ vp P C l1 l2 hlen hD' hP hpay
  rw [hcand] at r2
  have r5 := ctb_loop_toks (L := L) graph (off + (queued_words node).length) hs
    (queued_words node).length off _ vp P C l1 l2 hlen hD' hP hpay
  have rt := ctb_loop_tie (L := L) graph (off + (queued_words node).length) hs
    (queued_words node).length off _ vp P C l1 l2 hlen hD' hP hpay
  rw [hcand] at rt
  have htoks := toPairs_words_readToks (node.send_data.foldl ctb_copy_step (s, off)).1 hs off
  rw [l2, Nat.add_sub_cancel_left, c2] at htoks
  have hstream : (collect_targets_buffer SKIP_FILTERING node graph state off s vp).stream =
      (ctb_loop graph false (off + (queued_words node).length) (queued_words node).length off
        ((node.send_data.foldl ctb_copy_step (s, off)).1, vp)).1 := by
    simp only [collect_targets_buffer, hskip, c1, Nat.add_sub_cancel_left]
  have hvp : (collect_targets_buffer SKIP_FILTERING node graph state off s vp).vertices_pos =
      (ctb_loop graph false (off + (queued_words node).length) (queued_words node).length off
        ((node.send_data.foldl ctb_copy_step (s, off)).1, vp)).2 := by
    simp only [collect_targets_buffer, hskip, c1, Nat.add_sub_cancel_left]
  rw [hstream, hvp]
  refine ⟨hs, _, htoks, l2, r1, r5, r2, ?_⟩
  intro i t hi hlive
  have h1 : ((readToks (ctb_loop graph false (off + (queued_words node).length)
      (queued_words node).length off
      ((node.send_data.foldl ctb_copy_step (s, off)).1, vp)).1 off hs).map Prod.snd)[i]? =
      some t.2 := by
    rw [List.getElem?_map, hi]
    rfl
  rw [readToks_payload, readPairs, List.getElem?_map] at h1
  cases hp : (bufPos off hs)[i]? with
  | none =>
    rw [hp] at h1
    exact Option.noConfusion h1
  | some p =>
    rw [hp] at h1
    have h2 : ((ctb_loop graph false (off + (queued_words node).length)
        (queued_words node).length off
        ((node.send_data.foldl ctb_copy_step (s, off)).1, vp)).1 p,
      (ctb_loop graph false (off + (queued_words node).length)
        (queued_words node).length off
        ((node.send_data.foldl ctb_copy_step (s, off)).1, vp)).1 (p + 1)) = t.2 :=
      Option.some.inj h1
    have hl2 : (ctb_loop graph false (off + (queued_words node).length)
        (queued_words node).length off
        ((node.send_data.foldl ctb_copy_step (s, off)).1, vp)).1 (p + 1) ≠ get_sentinel := by
      have := congrArg Prod.snd h2
      simp only at this
      rw [this]
      exact hlive
    obtain ⟨a1, a2, a3⟩ := rt i p hp hl2
    have e1 : t.2.1 = (node.send_data.foldl ctb_copy_step (s, off)).1 p &&& lmask graph := by
      rw [← h2]
      exact a1
    have e2 : t.2.2 = (node.send_data.foldl ctb_copy_step (s, off)).1 (p + 1) := by
      rw [← h2]
      exact a2
    refine ⟨?_, ?_⟩
    · rw [← hcand, buf_candidates, List.getElem?_map, hp]
      show some (_, _) = some t.2
      rw [← e1, ← e2]
    · rw [e1, e2]
      exact a3

/-- For a stream laid out as buffer-origin tokens from `read_start` on (a header pair is
followed by a pair without flag), the output of `remove_sentinels_buffer` is a list of pairs
in which a header record is never followed by another header record: every header that is not
the last pair of the output is immediately followed by a payload pair. -/
theorem remove_sentinels_buffer_header_chain (graph : Graph2DCSR) (read_start write_start : Nat)
    (hs : List Bool) (s : Stream) (vp : VPos) (hlay : BufLay s read_start hs)
    (hle : write_start ≤ read_start) :
    ∃ out : List (Nat × Nat),
      (remove_sentinels_buffer graph read_start write_start
        (bufEnd read_start hs - read_start) s vp).pos = 2 * out.length ∧
      words (remove_sentinels_buffer graph read_start write_start
          (bufEnd read_start hs - read_start) s vp).stream write_start
        (remove_sentinels_buffer graph read_start write_start
          (bufEnd read_start hs - read_start) s vp).pos = flattenPairs out ∧
      List.Chain' (fun a b => isPayload a = false → isPayload b = true) out ∧
      ∀ k, k + 1 < out.length → isPayload (out.getD k (0, 0)) = false →
        isPayload (out.getD (k + 1) (0, 0)) = true := by
  obtain ⟨out, ho, hpos, hw, _, _, _⟩ :=
    remove_sentinels_buffer_spec graph read_start write_start hs s vp hlay hle
  have hch : List.Chain' (fun a b => isPayload a = false → isPayload b = true) out := by
    rw [ho, List.chain'_reverse]
    exact chain_compactBuf _ List.chain'_nil (fun tok ht => (readToks_flags hlay tok ht).1)
  refine ⟨out, hpos, hw, hch, ?_⟩
  intro k hk hh
  have h1 : k < out.length := by omega
  have := (List.chain'_iff_get.1 hch) k (by omega)
  simp only [List.get_eq_getElem] at this
  rw [List.getD_eq_getElem _ _ h1] at hh
  rw [List.getD_eq_getElem _ _ hk]
  exact this hh

/-! ## Words past the end of the written range are left alone -/

theorem ptr_dedup_put_above {L : Nat} {st : MergeState} {ks : List Nat} {k : Nat}
    {C : List (Nat × Nat)} (h : EInv L st ks k C) {v : Nat} (w : Nat) (hv : v < L) :
    st.pos ≤ (ptr_dedup_put st v w).pos ∧
    ∀ x, (ptr_dedup_put st v w).pos ≤ x → (ptr_dedup_put st v w).stream x = st.stream x := by
  unfold ptr_dedup_put
  by_cases hneg : st.vertices_pos v < 0
  · rw [if_pos hneg]
    simp only
    refine ⟨by omega, fun x hx => ?_⟩
    rw [upd_ne _ _ (by omega), upd_ne _ _ (by omega)]
  · rw [if_neg hneg]
    simp only
    obtain ⟨p0, hp0, h1, _, _⟩ := h.inv.alive v hv hneg
    have ht : (st.vertices_pos v).toNat = p0 := by rw [h1]; simp
    have hb : p0 + 2 ≤ st.pos := by
      rw [h.pos]
      rcases List.mem_append.1 hp0 with hp | hp
      · have := pairPos_bounds hp
        omega
      · have := rowPos_bounds hp
        omega
    cases hlt : f32lt w (st.stream ((st.vertices_pos v).toNat + 1)) with
    | true =>
      simp only [if_true]
      refine ⟨by omega, fun x hx => ?_⟩
      rw [upd_ne _ _ (by omega), upd_ne _ _ (by omega), upd_ne _ _ (by omega)]
    | false => simp

theorem ptr_edges_above {L : Nat} (state : SsspState) (graph : Graph2DCSR)
    (buffer : PointerData) (n : Nat) {st : MergeState} {ks : List Nat} {k : Nat}
    {C : List (Nat × Nat)} (h : EInv L st ks k C)
    (hc : ∀ i, i < n → ptr_passes state graph buffer i = true →
      (ptr_candidate state graph buffer i).1 < L ∧
      (ptr_candidate state graph buffer i).2 ≠ get_sentinel) :
    st.pos ≤ ((List.range n).foldl (ptr_edge state graph buffer) st).pos ∧
    ∀ x, ((List.range n).foldl (ptr_edge state graph buffer) st).pos ≤ x →
      ((List.range n).foldl (ptr_edge state graph buffer) st).stream x = st.stream x := by
  induction n with
  | zero => exact ⟨Nat.le_refl _, fun _ _ => rfl⟩
  | succ n ih =>
    obtain ⟨k1, h1⟩ := EInv_edges state graph buffer n h (fun i hi => hc i (by omega))
    obtain ⟨i1, i2⟩ := ih (fun i hi => hc i (by omega))
    rw [List.range_succ, List.foldl_append]
    simp only [List.foldl_cons, List.foldl_nil]
    rw [ptr_edge_eq]
    cases hp : ptr_passes state graph buffer n with
    | false =>
      simp only [Bool.false_eq_true, if_false]
      exact ⟨i1, i2⟩
    | true =>
      simp only [if_true]
      obtain ⟨j1, j2⟩ := ptr_dedup_put_above h1 (ptr_candidate state graph buffer n).2
        (hc n (by omega) hp).1
      refine ⟨by omega, fun x hx => ?_⟩
      rw [j2 x hx]
      exact i2 x (by omega)

theorem collect_ptr_block_above {L : Nat} (state : SsspState) (graph : Graph2DCSR)
    (buffer : PointerData) {st : MergeState} {ks : List Nat} {C : List (Nat × Nat)}
    (h : BInv L st ks C)
    (hc : ∀ c ∈ block_candidates state graph buffer, c.1 < L ∧ c.2 ≠ get_sentinel) :
    st.pos ≤ (collect_ptr_block state graph st buffer).pos ∧
    ∀ x, (collect_ptr_block state graph st buffer).pos ≤ x →
      (collect_ptr_block state graph st buffer).stream x = st.stream x := by
  unfold collect_ptr_block
  by_cases h0 : buffer.length = 0
  · rw [if_pos h0]
    exact ⟨Nat.le_refl _, fun _ _ => rfl⟩
  · rw [if_neg h0]
    have hE : EInv L ⟨upd (upd st.stream st.pos ((buffer.header / 2 ^ 32) % 2 ^ 32))
        (st.pos + 1) (buffer.header % 2 ^ 32), st.vertices_pos, st.pos + 3⟩ ks 0 C := by
      refine ⟨?_, ?_, ?_⟩
      · apply PtrLay_congr _ h.lay
        intro l hl
        have := lenPos_bounds hl
        have := h.pos
        simp only
        rw [upd_ne _ _ (by omega), upd_ne _ _ (by omega)]
      · simp only
        rw [h.pos]
      · simp only [rowPos, List.append_nil]
        apply DInv_frame h.inv
        intro p hp
        have := pairPos_bounds hp
        have := h.pos
        rw [upd_ne _ _ (by omega), upd_ne _ _ (by omega), upd_ne _ _ (by omega),
          upd_ne _ _ (by omega)]
        exact ⟨rfl, rfl⟩
    obtain ⟨e1, e2⟩ := ptr_edges_above state graph buffer buffer.length hE (by
      intro i hi hp
      apply hc
      simp only [block_candidates, List.mem_map, List.mem_filter, List.mem_range]
      exact ⟨i, ⟨hi, hp⟩, rfl⟩)
    simp only at e1 e2 ⊢
    refine ⟨by omega, fun x hx => ?_⟩
    rw [upd_ne _ _ (by omega), e2 x hx, upd_ne _ _ (by omega), upd_ne _ _ (by omega)]

theorem collect_ptr_blocks_above {L : Nat} (state : SsspState) (graph : Graph2DCSR)
    (bufs : List PointerData) {st : MergeState} {ks : List Nat} {C : List (Nat × Nat)}
    (h : BInv L st ks C)
    (hc : ∀ b ∈ bufs, ∀ c ∈ block_candidates state graph b, c.1 < L ∧ c.2 ≠ get_sentinel) :
    st.pos ≤ (bufs.foldl (collect_ptr_block state graph) st).pos ∧
    ∀ x, (bufs.foldl (collect_ptr_block state graph) st).pos ≤ x →
      (bufs.foldl (collect_ptr_block state graph) st).stream x = st.stream x := by
  induction bufs generalizing st ks C with
  | nil => exact ⟨Nat.le_refl _, fun _ _ => rfl⟩
  | cons b bs ih =>
    obtain ⟨ks1, h1⟩ := BInv_block state graph b h (hc b (List.mem_cons_self _ _))
    obtain ⟨a1, a2⟩ := collect_ptr_block_above state graph b h (hc b (List.mem_cons_self _ _))
    obtain ⟨i1, i2⟩ := ih h1 (fun b' hb' => hc b' (List.mem_cons_of_mem _ hb'))
    simp only [List.foldl_cons]
    refine ⟨by omega, fun x hx => ?_⟩
    rw [i2 x hx]
    exact a2 x (by omega)

/-- `collect_targets_ptr` on a clean scratch slice writes no word at or past the returned
position. -/
theorem collect_targets_ptr_above (L : Nat) (node : CommTarget) (state : SsspState)
    (graph : Graph2DCSR) (stream : Stream) (vertices_pos : VPos)
    (hclean : ∀ v, v < L → vertices_pos v = -1)
    (hc : ∀ c ∈ ptr_candidates node state graph, c.1 < L ∧ c.2 ≠ get_sentinel) :
    ∀ x, (collect_targets_ptr node state graph stream vertices_pos).pos ≤ x →
      (collect_targets_ptr node state graph stream vertices_pos).stream x = stream x := by
  have h0 : BInv L ⟨stream, vertices_pos, 0⟩ [] [] :=
    ⟨trivial, rfl, DInv_init L stream vertices_pos hclean⟩
  exact (collect_ptr_blocks_above state graph node.send_ptr h0 (by
    intro b hb c hcm
    apply hc
    simp only [ptr_candidates, List.mem_flatMap]
    exact ⟨b, hb, hcm⟩)).2

theorem ctb_copy_above (bufs : List Buffer) :
    ∀ (s : Stream) (off : Nat) (x : Nat), (bufs.foldl ctb_copy_step (s, off)).2 ≤ x →
      (bufs.foldl ctb_copy_step (s, off)).1 x = s x := by
  induction bufs with
  | nil =>
    intro s off x _
    rfl
  | cons b bufs ih =>
    intro s off x hx
    simp only [List.foldl_cons] at hx ⊢
    by_cases h0 : b.length = 0
    · simp only [ctb_copy_step, if_pos h0] at hx ⊢
      exact ih s off x hx
    · simp only [ctb_copy_step, if_neg h0] at hx ⊢
      have hge := (ctb_copy_spec bufs (memcpy s off b.ptr b.length) (off + b.length)).1
      rw [ih _ _ x hx]
      simp only [memcpy]
      rw [if_neg (by omega)]

/-- `collect_targets_buffer` on well-formed queued buffers, dedup pass run or skipped, writes no
word at or past the end of the copied words. -/
theorem collect_targets_buffer_above {L : Nat} (SKIP_FILTERING : Bool) (node : CommTarget)
    (graph : Graph2DCSR) (state : SsspState) (off : Nat) (s : Stream) (vp : VPos)
    (P : List Nat) (C : List (Nat × Nat))
    (hwf : wellFormedBuf (queued_words node) = true) (hD : DInv L s vp P C)
    (hP : ∀ p ∈ P, p + 2 ≤ off) (hbnd : ∀ c ∈ buffer_candidates node graph, c.1 < L) :
    ∀ x, off + (queued_words node).length ≤ x →
      (collect_targets_buffer SKIP_FILTERING node graph state off s vp).stream x = s x := by
  obtain ⟨c1, c2, c3⟩ := ctb_copy_spec node.send_data s off
  change _ = off + (queued_words node).length at c1
  change words _ off (queued_words node).length = queued_words node at c2
  obtain ⟨hs, l1, l2, l3, l4⟩ := wellFormed_layout _ (queued_words node) (Nat.le_refl _) hwf
    (node.send_data.foldl ctb_copy_step (s, off)).1 off c2
  have hlen : hs.length ≤ (queued_words node).length := by
    have := bufEnd_ge off hs
    omega
  intro x hx
  have hcopy := ctb_copy_above node.send_data s off x (by rw [c1]; exact hx)
  cases hskip : (SKIP_FILTERING && state.is_presolving_mode_) with
  | false =>
    have hD' : DInv L (node.send_data.foldl ctb_copy_step (s, off)).1 vp P C := by
      apply DInv_frame hD
      intro p hp
      have := hP p hp
      exact ⟨c3 p (by omega), c3 (p + 1) (by omega)⟩
    have hcand : buf_candidates graph (node.send_data.foldl ctb_copy_step (s, off)).1
        (bufPos off hs) = buffer_candidates node graph := by
      rw [buf_candidates_eq, l3]
      rfl
    obtain ⟨_, _, _, r4⟩ := ctb_loop_spec (L := L) graph (off + (queued_words node).length) hs
      (queued_words node).length off _ vp P C l1 l2 hlen hD' hP (by
        intro p hp
        refine ⟨?_, l4 p hp⟩
        exact hbnd (_, _) (by
          rw [← hcand]
          simp only [buf_candidates, List.mem_map]
          exact ⟨p, hp, rfl⟩))
    simp only [collect_targets_buffer, hskip, c1, Nat.add_sub_cancel_left]
    rw [r4 x hx]
    exact hcopy
  | true =>
    obtain ⟨_, _, r3⟩ := ctb_loop_toks_skip graph (off + (queued_words node).length) hs
      (queued_words node).length off _ vp l1 l2 hlen
    simp only [collect_targets_buffer, hskip, c1, Nat.add_sub_cancel_left]
    rw [r3 x hx]
    exact hcopy

/-- `remove_sentinels_buffer` on a laid-out stream writes no word at or past the end of the
words it reads. -/
theorem remove_sentinels_buffer_above (graph : Graph2DCSR) (read_start write_start : Nat)
    (hs : List Bool) (s : Stream) (vp : VPos) (hlay : BufLay s read_start hs)
    (hle : write_start ≤ read_start) :
    ∀ x, bufEnd read_start hs ≤ x → (remove_sentinels_buffer graph read_start write_start
      (bufEnd read_start hs - read_start) s vp).stream x = s x := by
  have hge := bufEnd_ge read_start hs
  have hend : read_start + (bufEnd read_start hs - read_start) = bufEnd read_start hs := by
    omega
  have hA : AccInv write_start ⟨s, vp, write_start⟩ [] :=
    ⟨by simp, by simp [words_zero, flattenPairs]⟩
  obtain ⟨_, r2, _⟩ := rs_buffer_loop_spec graph write_start (bufEnd read_start hs) hs
    (bufEnd read_start hs - read_start) read_start ⟨s, vp, write_start⟩ [] hlay rfl
    (by omega) hle hA
  intro x hx
  simp only [remove_sentinels_buffer, hend]
  exact r2 x (Or.inr hx)

theorem run_with_both_merge_raw (SKIP_FILTERING : Bool) (node : CommTarget)
    (state : SsspState) (graph : Graph2DCSR) (use_ptr use_buffer : Bool) (stream : Stream)
    (vertices_pos : VPos) :
    (run_with_both_merge SKIP_FILTERING node state graph use_ptr use_buffer stream
      vertices_pos).length_ptr =
      (if use_ptr then (collect_targets_ptr node state graph stream vertices_pos).pos else 0) ∧
    (run_with_both_merge SKIP_FILTERING node state graph use_ptr use_buffer stream
      vertices_pos).length_buffer =
      (if use_buffer then (queued_words node).length else 0) := by
  cases use_ptr <;> cases use_buffer <;>
    simp [run_with_both_merge, collect_targets_buffer_pos, queued_words_length]

/-- The merge of one destination writes no word at or past `length_ptr + length_buffer`, the
words `collect_targets_ptr` writes plus the words `collect_targets_buffer` copies. -/
theorem run_with_both_merge_above (L : Nat) (SKIP_FILTERING : Bool) (node : CommTarget)
    (state : SsspState) (graph : Graph2DCSR) (use_ptr use_buffer : Bool) (stream : Stream)
    (vertices_pos : VPos) (hclean : ∀ v, v < L → vertices_pos v = -1)
    (hwf : use_buffer = true → wellFormedBuf (queued_words node) = true)
    (hc : ∀ c ∈ merge_candidates node state graph use_ptr use_buffer, c.1 < L)
    (hsent : use_ptr = true → ∀ c ∈ ptr_candidates node state graph, c.2 ≠ get_sentinel) :
    ∀ x, (run_with_both_merge SKIP_FILTERING node state graph use_ptr use_buffer stream
        vertices_pos).length_ptr +
      (run_with_both_merge SKIP_FILTERING node state graph use_ptr use_buffer stream
        vertices_pos).length_buffer ≤ x →
      (run_with_both_merge SKIP_FILTERING node state graph use_ptr use_buffer stream
        vertices_pos).stream x = stream x := by
  cases use_ptr <;> cases use_buffer
  · -- nothing to merge
    intro x _
    simp [run_with_both_merge]
  · -- buffer data only
    have h0 : DInv L stream vertices_pos [] [] := DInv_init L stream vertices_pos hclean
    have hb : ∀ c ∈ buffer_candidates node graph, c.1 < L := by
      simpa [merge_candidates] using hc
    obtain ⟨hs, b1, b2, b3, _, _⟩ := collect_targets_buffer_lay SKIP_FILTERING node graph
      state 0 stream vertices_pos [] [] (hwf rfl) h0 (by simp) hb
    have ha := collect_targets_buffer_above SKIP_FILTERING node graph state 0 stream
      vertices_pos [] [] (hwf rfl) h0 (by simp) hb
    have hr := remove_sentinels_buffer_above graph 0 0 hs _
      (collect_targets_buffer SKIP_FILTERING node graph state 0 stream
        vertices_pos).vertices_pos b3 (Nat.le_refl _)
    simp only [Nat.zero_add, Nat.sub_zero] at b2 ha hr
    rw [b2, ← b1] at hr
    intro x hx
    simp only [run_with_both_merge, Bool.false_eq_true, if_false, if_true, Nat.zero_add]
      at hx ⊢
    rw [hr x (by rw [b1]; rw [b1] at hx; exact hx)]
    exact ha x (by rw [b1] at hx; exact hx)
  · -- pointer data only
    have hcs : ∀ c ∈ ptr_candidates node state graph, c.1 < L ∧ c.2 ≠ get_sentinel :=
      fun c hcm => ⟨hc c (by simp [merge_candidates, hcm]), hsent rfl c hcm⟩
    obtain ⟨ks, hB⟩ := collect_targets_ptr_inv L node state graph stream vertices_pos hclean hcs
    have ha := collect_targets_ptr_above L node state graph stream vertices_pos hclean hcs
    obtain ⟨_, _, p3, _⟩ := remove_sentinels_ptr_spec graph ks
      (collect_targets_ptr node state graph stream vertices_pos).stream
      (collect_targets_ptr node state graph stream vertices_pos).vertices_pos hB.lay
    rw [← hB.pos] at p3
    intro x hx
    simp only [run_with_both_merge, Bool.false_eq_true, if_false, if_true, Nat.add_zero]
      at hx ⊢
    rw [p3 x hx]
    exact ha x hx
  · -- both
    have hcs : ∀ c ∈ ptr_candidates node state graph, c.1 < L ∧ c.2 ≠ get_sentinel :=
      fun c hcm => ⟨hc c (by simp [merge_candidates, hcm]), hsent rfl c hcm⟩
    have hb : ∀ c ∈ buffer_candidates node graph, c.1 < L :=
      fun c hcm => hc c (by simp [merge_candidates, hcm])
    obtain ⟨ks, hB⟩ := collect_targets_ptr_inv L node state graph stream vertices_pos hclean hcs
    have ha := collect_targets_ptr_above L node state graph stream vertices_pos hclean hcs
    have hP : ∀ p ∈ pairPos 0 ks,
        p + 2 ≤ (collect_targets_ptr node state graph stream vertices_pos).pos := by
      intro p hp
      have := pairPos_bounds hp
      rw [hB.pos]
      omega
    obtain ⟨hs, b1, b2, b3, _, b5⟩ := collect_targets_buffer_lay SKIP_FILTERING node graph
      state (collect_targets_ptr node state graph stream vertices_pos).pos
      (collect_targets_ptr node state graph stream vertices_pos).stream
      (collect_targets_ptr node state graph stream vertices_pos).vertices_pos _ _
      (hwf rfl) hB.inv hP hb
    have hab := collect_targets_buffer_above SKIP_FILTERING node graph state
      (collect_targets_ptr node state graph stream vertices_pos).pos
      (collect_targets_ptr node state graph stream vertices_pos).stream
      (collect_targets_ptr node state graph stream vertices_pos).vertices_pos _ _
      (hwf rfl) hB.inv hP hb
    generalize hbe : collect_targets_buffer SKIP_FILTERING node graph state
      (collect_targets_ptr node state graph stream vertices_pos).pos
      (collect_targets_ptr node state graph stream vertices_pos).stream
      (collect_targets_ptr node state graph stream vertices_pos).vertices_pos = b
      at b1 b2 b3 b5 hab
    rw [hB.pos] at b2 b3 b5
    have hlay := PtrLay_after_buffer b5 hB.lay
    obtain ⟨_, _, p3, _⟩ := remove_sentinels_ptr_spec graph ks b.stream b.vertices_pos hlay
    have hle : (remove_sentinels_ptr graph (layEnd 0 ks) b.stream b.vertices_pos).pos ≤
        layEnd 0 ks := by
      have h1 := (remove_sentinels_ptr_spec graph ks b.stream b.vertices_pos hlay).1
      have := encodePtr_compact_length_le b.stream 0 ks
      omega
    have hbuf : BufLay (remove_sentinels_ptr graph (layEnd 0 ks) b.stream
        b.vertices_pos).stream (layEnd 0 ks) hs := BufLay_congr p3 b3
    have hr := remove_sentinels_buffer_above graph (layEnd 0 ks)
      (remove_sentinels_ptr graph (layEnd 0 ks) b.stream b.vertices_pos).pos hs _
      (remove_sentinels_ptr graph (layEnd 0 ks) b.stream b.vertices_pos).vertices_pos hbuf hle
    rw [b2, Nat.add_sub_cancel_left, ← b1] at hr
    have hge := hB.pos
    intro x hx
    simp only [run_with_both_merge, if_true, hbe] at hx ⊢
    rw [hge] at hx ⊢
    rw [hr x (by omega), p3 x (by omega), hab x (by rw [hge, ← b1]; exact hx)]
    exact ha x (by omega)

/-- The compacted lengths of the merge of one destination are at most the lengths before the
compaction. -/
theorem run_with_both_merge_reduced_le (L : Nat) (SKIP_FILTERING : Bool) (node : CommTarget)
    (state : SsspState) (graph : Graph2DCSR) (use_ptr use_buffer : Bool) (stream : Stream)
    (vertices_pos : VPos) (hclean : ∀ v, v < L → vertices_pos v = -1)
    (hwf : use_buffer = true → wellFormedBuf (queued_words node) = true)
    (hc : ∀ c ∈ merge_candidates node state graph use_ptr use_buffer, c.1 < L)
    (hsent : use_ptr = true → ∀ c ∈ ptr_candidates node state graph, c.2 ≠ get_sentinel) :
    (run_with_both_merge SKIP_FILTERING node state graph use_ptr use_buffer stream
        vertices_pos).length_ptr_reduced ≤
      (run_with_both_merge SKIP_FILTERING node state graph use_ptr use_buffer stream
        vertices_pos).length_ptr ∧
    (run_with_both_merge SKIP_FILTERING node state graph use_ptr use_buffer stream
        vertices_pos).length_buffer_reduced ≤
      (run_with_both_merge SKIP_FILTERING node state graph use_ptr use_buffer stream
        vertices_pos).length_buffer := by
  cases use_ptr <;> cases use_buffer
  · -- nothing to merge
    simp [run_with_both_merge]
  · -- buffer data only
    have h0 : DInv L stream vertices_pos [] [] := DInv_init L stream vertices_pos hclean
    have hb : ∀ c ∈ buffer_candidates node graph, c.1 < L := by
      simpa [merge_candidates] using hc
    obtain ⟨hs, b1, b2, b3, _, _⟩ := collect_targets_buffer_lay SKIP_FILTERING node graph
      state 0 stream vertices_pos [] [] (hwf rfl) h0 (by simp) hb
    have hr := remove_sentinels_buffer_le graph 0 0 hs _
      (collect_targets_buffer SKIP_FILTERING node graph state 0 stream
        vertices_pos).vertices_pos b3 (Nat.le_refl _)
    simp only [Nat.zero_add, Nat.sub_zero] at b2 hr
    rw [b2, ← b1] at hr
    simp only [run_with_both_merge, Bool.false_eq_true, if_false, if_true, Nat.le_refl,
      true_and]
    exact hr
  · -- pointer data only
    have hcs : ∀ c ∈ ptr_candidates node state graph, c.1 < L ∧ c.2 ≠ get_sentinel :=
      fun c hcm => ⟨hc c (by simp [merge_candidates, hcm]), hsent rfl c hcm⟩
    obtain ⟨ks, hB⟩ := collect_targets_ptr_inv L node state graph stream vertices_pos hclean hcs
    obtain ⟨p1, _, _, _⟩ := remove_sentinels_ptr_spec graph ks
      (collect_targets_ptr node state graph stream vertices_pos).stream
      (collect_targets_ptr node state graph stream vertices_pos).vertices_pos hB.lay
    have := encodePtr_compact_length_le
      (collect_targets_ptr node state graph stream vertices_pos).stream 0 ks
    rw [← hB.pos] at p1 this
    simp only [run_with_both_merge, Bool.false_eq_true, if_false, if_true, Nat.le_refl,
      and_true]
    omega
  · -- both
    have hcs : ∀ c ∈ ptr_candidates node state graph, c.1 < L ∧ c.2 ≠ get_sentinel :=
      fun c hcm => ⟨hc c (by simp [merge_candidates, hcm]), hsent rfl c hcm⟩
    have hb : ∀ c ∈ buffer_candidates node graph, c.1 < L :=
      fun c hcm => hc c (by simp [merge_candidates, hcm])
    obtain ⟨ks, hB⟩ := collect_targets_ptr_inv L node state graph stream vertices_pos hclean hcs
    have hP : ∀ p ∈ pairPos 0 ks,
        p + 2 ≤ (collect_targets_ptr node state graph stream vertices_pos).pos := by
      intro p hp
      have := pairPos_bounds hp
      rw [hB.pos]
      omega
    obtain ⟨hs, b1, b2, b3, _, b5⟩ := collect_targets_buffer_lay SKIP_FILTERING node graph
      state (collect_targets_ptr node state graph stream vertices_pos).pos
      (collect_targets_ptr node state graph stream vertices_pos).stream
      (collect_targets_ptr node state graph stream vertices_pos).vertices_pos _ _
      (hwf rfl) hB.inv hP hb
    generalize hbe : collect_targets_buffer SKIP_FILTERING node graph state
      (collect_targets_ptr node state graph stream vertices_pos).pos
      (collect_targets_ptr node state graph stream vertices_pos).stream
      (collect_targets_ptr node state graph stream vertices_pos).vertices_pos = b
      at b1 b2 b3 b5
    rw [hB.pos] at b2 b3 b5
    have hlay := PtrLay_after_buffer b5 hB.lay
    obtain ⟨p1, _, p3, _⟩ := remove_sentinels_ptr_spec graph ks b.stream b.vertices_pos hlay
    have hle : (remove_sentinels_ptr graph (layEnd 0 ks) b.stream b.vertices_pos).pos ≤
        layEnd 0 ks := by
      have := encodePtr_compact_length_le b.stream 0 ks
      omega
    have hbuf : BufLay (remove_sentinels_ptr graph (layEnd 0 ks) b.stream
        b.vertices_pos).stream (layEnd 0 ks) hs := BufLay_congr p3 b3
    have hr := remove_sentinels_buffer_le graph (layEnd 0 ks)
      (remove_sentinels_ptr graph (layEnd 0 ks) b.stream b.vertices_pos).pos hs _
      (remove_sentinels_ptr graph (layEnd 0 ks) b.stream b.vertices_pos).vertices_pos hbuf hle
    rw [b2, Nat.add_sub_cancel_left, ← b1] at hr
    have hge := hB.pos
    simp only [run_with_both_merge, if_true, hbe]
    rw [hge]
    exact ⟨hle, hr⟩

/-! ## The expand pass of `run_with_both`, destination by destination -/

/-- The body of the expand pass for a destination with a non-zero count, in terms of the
result `r` of the merge. -/
theorem expand_step_eq (env : A2AEnv) (graph : Graph2DCSR) (state : SsspState)
    (counts : List Nat) (acc : A2AState × List Nat) (c i : Nat) (node : CommTarget)
    (use_ptr use_buffer : Bool) (r : MergeResult)
    (hi : i = (c + env.comm_rank) % env.comm_size_)
    (hnode : node = acc.1.node_.getD i ⟨0, 0, none, [], []⟩)
    (hub : use_buffer = decide (acc.1.node_send_lengths_buffer.getD i 0 ≠ 0))
    (hup : use_ptr = decide (counts.getD i 0 > acc.1.node_send_lengths_buffer.getD i 0 + 1))
    (hcnt : counts.getD i 0 ≠ 0)
    (hr : run_with_both_merge env.SKIP_FILTERING node state graph use_ptr use_buffer
      (shift (upd acc.1.stream (scatter_offset counts i) 0) (scatter_offset counts i + 1))
      (shift acc.1.vertices_pos (env.thread_of c * graph.num_local_verts_)) = r) :
    expand_step env graph state counts acc c =
      ({ node_ := acc.1.node_.set i
            (if use_buffer then
              { (if use_ptr then { node with send_ptr := [] } else node) with send_data := [] }
            else (if use_ptr then { node with send_ptr := [] } else node))
         node_send_lengths_ptr :=
          if use_ptr then acc.1.node_send_lengths_ptr.set i 0 else acc.1.node_send_lengths_ptr
         node_send_lengths_buffer :=
          if use_buffer then acc.1.node_send_lengths_buffer.set i 0
          else acc.1.node_send_lengths_buffer
         stream :=
          if use_ptr then
            upd (unshift (upd acc.1.stream (scatter_offset counts i) 0)
              (scatter_offset counts i + 1) r.stream) (scatter_offset counts i)
              r.length_ptr_reduced
          else unshift (upd acc.1.stream (scatter_offset counts i) 0)
            (scatter_offset counts i + 1) r.stream
         vertices_pos := unshift acc.1.vertices_pos
          (env.thread_of c * graph.num_local_verts_) r.vertices_pos },
        acc.2.set i
          (if 1 + (if use_ptr then r.length_ptr_reduced else 0) +
              (if use_buffer then r.length_buffer_reduced else 0) = 1 then 0
            else 1 + (if use_ptr then r.length_ptr_reduced else 0) +
              (if use_buffer then r.length_buffer_reduced else 0))) := by
  subst hi hnode hub hup
  unfold expand_step
  simp only []
  rw [if_neg hcnt, hr]

/-- The body of the expand pass for a destination whose count covers the words the merge
writes: the staging buffer changes inside the slab of the destination only, the scratch stays
clean, and the other comm targets are left alone. -/
theorem expand_step_frame (env : A2AEnv) (graph : Graph2DCSR) (state : SsspState)
    (counts : List Nat) (acc : A2AState × List Nat) (c i N : Nat) (node : CommTarget)
    (use_ptr use_buffer : Bool)
    (hi : i = (c + env.comm_rank) % env.comm_size_)
    (hnode : node = acc.1.node_.getD i ⟨0, 0, none, [], []⟩)
    (hub : use_buffer = decide (acc.1.node_send_lengths_buffer.getD i 0 ≠ 0))
    (hup : use_ptr = decide (counts.getD i 0 > acc.1.node_send_lengths_buffer.getD i 0 + 1))
    (hcnt : counts.getD i 0 ≠ 0)
    (hN : (env.thread_of c + 1) * graph.num_local_verts_ ≤ N)
    (hvp : ∀ x, x < N → acc.1.vertices_pos x = -1)
    (hwf : use_buffer = true → wellFormedBuf (queued_words node) = true)
    (hc : ∀ x ∈ merge_candidates node state graph use_ptr use_buffer,
      x.1 < graph.num_local_verts_)
    (hsent : use_ptr = true → ∀ x ∈ ptr_candidates node state graph, x.2 ≠ get_sentinel)
    (hfit : ∀ (s : Stream) (vp : VPos),
      1 + (if use_ptr then (collect_targets_ptr node state graph s vp).pos else 0) +
        (if use_buffer then (queued_words node).length else 0) ≤ counts.getD i 0) :
    (∀ x, x < N → (expand_step env graph state counts acc c).1.vertices_pos x = -1) ∧
    (∀ x, x < scatter_offset counts i ∨ scatter_offset counts i + counts.getD i 0 ≤ x →
      (expand_step env graph state counts acc c).1.stream x = acc.1.stream x) ∧
    (∀ j, j ≠ i → (expand_step env graph state counts acc c).1.node_.getD j
        ⟨0, 0, none, [], []⟩ = acc.1.node_.getD j ⟨0, 0, none, [], []⟩) := by
  have hmul : (env.thread_of c + 1) * graph.num_local_verts_ =
      env.thread_of c * graph.num_local_verts_ + graph.num_local_verts_ := by
    rw [Nat.add_mul, Nat.one_mul]
  have hclean : ∀ v, v < N - env.thread_of c * graph.num_local_verts_ →
      shift acc.1.vertices_pos (env.thread_of c * graph.num_local_verts_) v = -1 := by
    intro v hv
    exact hvp _ (by omega)
  have hc2 : ∀ x ∈ merge_candidates node state graph use_ptr use_buffer,
      x.1 < N - env.thread_of c * graph.num_local_verts_ := by
    intro x hx
    have := hc x hx
    omega
  have hcl := run_with_both_merge_clean (N - env.thread_of c * graph.num_local_verts_)
    env.SKIP_FILTERING node state graph use_ptr use_buffer
    (shift (upd acc.1.stream (scatter_offset counts i) 0) (scatter_offset counts i + 1))
    (shift acc.1.vertices_pos (env.thread_of c * graph.num_local_verts_))
    hclean hwf hc2 hsent
  have hab := run_with_both_merge_above (N - env.thread_of c * graph.num_local_verts_)
    env.SKIP_FILTERING node state graph use_ptr use_buffer
    (shift (upd acc.1.stream (scatter_offset counts i) 0) (scatter_offset counts i + 1))
    (shift acc.1.vertices_pos (env.thread_of c * graph.num_local_verts_))
    hclean hwf hc2 hsent
  obtain ⟨w1, w2⟩ := run_with_both_merge_raw env.SKIP_FILTERING node state graph use_ptr
    use_buffer
    (shift (upd acc.1.stream (scatter_offset counts i) 0) (scatter_offset counts i + 1))
    (shift acc.1.vertices_pos (env.thread_of c * graph.num_local_verts_))
  have hf := hfit
    (shift (upd acc.1.stream (scatter_offset counts i) 0) (scatter_offset counts i + 1))
    (shift acc.1.vertices_pos (env.thread_of c * graph.num_local_verts_))
  rw [← w1, ← w2] at hf
  generalize hr : run_with_both_merge env.SKIP_FILTERING node state graph use_ptr use_buffer
    (shift (upd acc.1.stream (scatter_offset counts i) 0) (scatter_offset counts i + 1))
    (shift acc.1.vertices_pos (env.thread_of c * graph.num_local_verts_)) = r at hcl hab hf
  rw [expand_step_eq env graph state counts acc c i node use_ptr use_buffer r hi hnode hub hup
    hcnt hr]
  refine ⟨?_, ?_, ?_⟩
  · intro x hx
    simp only [unshift]
    split
    · exact hcl _ (by omega)
    · exact hvp x hx
  · intro x hx
    have hun : unshift (upd acc.1.stream (scatter_offset counts i) 0)
        (scatter_offset counts i + 1) r.stream x = acc.1.stream x := by
      simp only [unshift]
      split
      · rename_i hge
        rw [hab _ (by omega)]
        simp only [shift]
        rw [show scatter_offset counts i + 1 + (x - (scatter_offset counts i + 1)) = x by
          omega]
        exact upd_ne _ _ (by omega)
      · exact upd_ne _ _ (by omega)
    simp only
    split
    · rw [upd_ne _ _ (by omega)]
      exact hun
    · exact hun
  · intro j hj
    simp only
    rw [getD_set, if_neg (fun h => hj h.1.symm)]

theorem scatter_offset_succ (counts : List Nat) (i : Nat) :
    scatter_offset counts (i + 1) = scatter_offset counts i + counts.getD i 0 := by
  simp only [scatter_offset]
  induction counts generalizing i with
  | nil => simp
  | cons a l ih =>
    cases i with
    | zero => simp
    | succ i =>
      have := ih i
      simp only [List.take_succ_cons, List.sum_cons, List.getD_cons_succ] at this ⊢
      omega

theorem scatter_offset_mono (counts : List Nat) {i j : Nat} (h : i ≤ j) :
    scatter_offset counts i ≤ scatter_offset counts j := by
  induction j with
  | zero =>
    have : i = 0 := by omega
    subst this
    exact Nat.le_refl _
  | succ j ih =>
    by_cases hij : i = j + 1
    · subst hij
      exact Nat.le_refl _
    · have := ih (by omega)
      rw [scatter_offset_succ]
      omega

/-- The slabs of two different destinations do not overlap. -/
theorem scatter_offset_disjoint (counts : List Nat) {i j : Nat} (h : i ≠ j) (x : Nat)
    (h1 : scatter_offset counts i ≤ x) (h2 : x < scatter_offset counts i + counts.getD i 0) :
    x < scatter_offset counts j ∨ scatter_offset counts j + counts.getD j 0 ≤ x := by
  rcases Nat.lt_or_gt_of_ne h with hlt | hgt
  · left
    have := scatter_offset_mono counts (show i + 1 ≤ j by omega)
    rw [scatter_offset_succ] at this
    omega
  · right
    have := scatter_offset_mono counts (show j + 1 ≤ i by omega)
    rw [scatter_offset_succ] at this
    omega

/-- The body of the expand pass for a destination with a non-zero count that covers the words
the merge writes, on a clean scratch slice: the slab of the destination has the layout
`SlabLayout`. -/
theorem expand_step_slab (env : A2AEnv) (graph : Graph2DCSR) (state : SsspState)
    (counts : List Nat) (acc : A2AState × List Nat) (c i : Nat) (node : CommTarget)
    (use_ptr use_buffer : Bool)
    (hi : i = (c + env.comm_rank) % env.comm_size_)
    (hnode : node = acc.1.node_.getD i ⟨0, 0, none, [], []⟩)
    (hub : use_buffer = decide (acc.1.node_send_lengths_buffer.getD i 0 ≠ 0))
    (hup : use_ptr = decide (counts.getD i 0 > acc.1.node_send_lengths_buffer.getD i 0 + 1))
    (hcnt : counts.getD i 0 ≠ 0) (hlen : i < acc.2.length)
    (hclean : ∀ v, v < graph.num_local_verts_ →
      acc.1.vertices_pos (env.thread_of c * graph.num_local_verts_ + v) = -1)
    (hwf : use_buffer = true → wellFormedBuf (queued_words node) = true)
    (hc : ∀ x ∈ merge_candidates node state graph use_ptr use_buffer,
      x.1 < graph.num_local_verts_)
    (hsent : use_ptr = true → ∀ x ∈ ptr_candidates node state graph, x.2 ≠ get_sentinel)
    (hfit : ∀ (s : Stream) (vp : VPos),
      1 + (if use_ptr then (collect_targets_ptr node state graph s vp).pos else 0) +
        (if use_buffer then (queued_words node).length else 0) ≤ counts.getD i 0) :
    SlabLayout graph state node use_ptr use_buffer
      (expand_step env graph state counts acc c).1.stream (scatter_offset counts i)
      ((expand_step env graph state counts acc c).2.getD i 0) (counts.getD i 0) := by
  obtain ⟨blocks, out, l1, l2, l3, l4, l5, l6, l7⟩ :=
    run_with_both_merge_layout graph.num_local_verts_ env.SKIP_FILTERING node state graph
      use_ptr use_buffer
      (shift (upd acc.1.stream (scatter_offset counts i) 0) (scatter_offset counts i + 1))
      (shift acc.1.vertices_pos (env.thread_of c * graph.num_local_verts_))
      hclean hwf hc hsent
  obtain ⟨z1, z2⟩ := run_with_both_merge_lengths env.SKIP_FILTERING node state graph
    use_ptr use_buffer
    (shift (upd acc.1.stream (scatter_offset counts i) 0) (scatter_offset counts i + 1))
    (shift acc.1.vertices_pos (env.thread_of c * graph.num_local_verts_))
  obtain ⟨y1, y2⟩ := run_with_both_merge_reduced_le graph.num_local_verts_ env.SKIP_FILTERING
    node state graph use_ptr use_buffer
    (shift (upd acc.1.stream (scatter_offset counts i) 0) (scatter_offset counts i + 1))
    (shift acc.1.vertices_pos (env.thread_of c * graph.num_local_verts_))
    hclean hwf hc hsent
  obtain ⟨w1, w2⟩ := run_with_both_merge_raw env.SKIP_FILTERING node state graph use_ptr
    use_buffer
    (shift (upd acc.1.stream (scatter_offset counts i) 0) (scatter_offset counts i + 1))
    (shift acc.1.vertices_pos (env.thread_of c * graph.num_local_verts_))
  have hf := hfit
    (shift (upd acc.1.stream (scatter_offset counts i) 0) (scatter_offset counts i + 1))
    (shift acc.1.vertices_pos (env.thread_of c * graph.num_local_verts_))
  rw [← w1, ← w2] at hf
  generalize hr : run_with_both_merge env.SKIP_FILTERING node state graph use_ptr use_buffer
    (shift (upd acc.1.stream (scatter_offset counts i) 0) (scatter_offset counts i + 1))
    (shift acc.1.vertices_pos (env.thread_of c * graph.num_local_verts_)) = r
    at l1 l2 z1 z2 y1 y2 hf
  have hlp : (encodePtr blocks).length = r.length_ptr_reduced := by
    rw [← l1, words_length]
  have hlb : (flattenPairs out).length = r.length_buffer_reduced := by
    rw [← l2, words_length]
  have hsl : 1 + (if use_ptr then r.length_ptr_reduced else 0) +
      (if use_buffer then r.length_buffer_reduced else 0) =
      1 + r.length_ptr_reduced + r.length_buffer_reduced := by
    cases use_ptr <;> cases use_buffer <;> simp_all
  have hhead : (if use_ptr then r.length_ptr_reduced else 0) = r.length_ptr_reduced := by
    cases use_ptr <;> simp_all
  rw [expand_step_eq env graph state counts acc c i node use_ptr use_buffer r hi hnode hub hup
    hcnt hr]
  refine ⟨blocks, out, l3, l4, l5, l6, l7, ?_, ?_, ?_⟩
  · rw [hlp, hlb]
    simp only
    rw [slab_words, hhead, l1, l2]
  · simp only
    rw [List.getD_eq_getElem?_getD, List.getElem?_set_self (by exact hlen), hsl, hlp, hlb]
    rfl
  · rw [hlp, hlb]
    omega

theorem expand_step_zero (env : A2AEnv) (graph : Graph2DCSR) (state : SsspState)
    (counts : List Nat) (acc : A2AState × List Nat) (c : Nat)
    (h : counts.getD (dest_of env c) 0 = 0) :
    expand_step env graph state counts acc c = acc := by
  have hd : (c + env.comm_rank) % env.comm_size_ = dest_of env c := rfl
  simp only [expand_step, hd, h, if_true]

theorem slabLayout_congr {graph : Graph2DCSR} {state : SsspState} {node : CommTarget}
    {use_ptr use_buffer : Bool} {s t : Stream} {off n m cap : Nat}
    (h : SlabLayout graph state node use_ptr use_buffer s off n cap)
    (hst : ∀ x, off ≤ x → x < off + cap → t x = s x) (hnm : m = n) :
    SlabLayout graph state node use_ptr use_buffer t off m cap := by
  obtain ⟨blocks, out, l1, l2, l3, l4, l5, l6, l7, l8⟩ := h
  refine ⟨blocks, out, l1, l2, l3, l4, l5, ?_, by rw [hnm]; exact l7, l8⟩
  rw [← l6]
  apply words_congr
  intro x h1 h2
  exact hst x h1 (by omega)

/-- The expand pass after `k` iterations, when every destination with a non-zero count is
ready: the scratch is clean, the comm targets of the destinations still to come are those of
the start of the pass, and the slab of every destination expanded so far has the layout
`SlabLayout`, whatever the later iterations wrote. -/
theorem expand_acc_slabs (env : A2AEnv) (graph : Graph2DCSR) (state : SsspState)
    (counts : List Nat) (st : A2AState) (N : Nat)
    (hlenc : counts.length = env.comm_size_)
    (hthr : ∀ c, c < env.comm_size_ → (env.thread_of c + 1) * graph.num_local_verts_ ≤ N)
    (hvp : ∀ x, x < N → st.vertices_pos x = -1)
    (hok : ∀ c, c < env.comm_size_ → counts.getD (dest_of env c) 0 ≠ 0 →
      DestReady graph state (node_at st (dest_of env c))
        (decide (counts.getD (dest_of env c) 0 >
          st.node_send_lengths_buffer.getD (dest_of env c) 0 + 1))
        (decide (st.node_send_lengths_buffer.getD (dest_of env c) 0 ≠ 0))
        (counts.getD (dest_of env c) 0))
    (k : Nat) (hk : k ≤ env.comm_size_) :
    (∀ x, x < N → (expand_acc env graph state counts st k).1.vertices_pos x = -1) ∧
    (∀ c, k ≤ c → c < env.comm_size_ →
      node_at (expand_acc env graph state counts st k).1 (dest_of env c) =
        node_at st (dest_of env c)) ∧
    (∀ c, c < k → counts.getD (dest_of env c) 0 ≠ 0 →
      SlabLayout graph state (node_at st (dest_of env c))
        (decide (counts.getD (dest_of env c) 0 >
          st.node_send_lengths_buffer.getD (dest_of env c) 0 + 1))
        (decide (st.node_send_lengths_buffer.getD (dest_of env c) 0 ≠ 0))
        (expand_acc env graph state counts st k).1.stream
        (scatter_offset counts (dest_of env c))
        ((expand_acc env graph state counts st k).2.getD (dest_of env c) 0)
        (counts.getD (dest_of env c) 0)) := by
  induction k with
  | zero =>
    refine ⟨hvp, fun _ _ _ => rfl, ?_⟩
    intro c hc
    omega
  | succ k ih =>
    obtain ⟨i1, i2, i3⟩ := ih (by omega)
    have hkl : k < env.comm_size_ := by omega
    obtain ⟨e1, e2⟩ := expand_acc_spec env graph state counts st k (by omega)
    rw [expand_acc_succ]
    by_cases h0 : counts.getD (dest_of env k) 0 = 0
    · rw [expand_step_zero env graph state counts _ k h0]
      refine ⟨i1, fun c hc1 hc2 => i2 c (by omega) hc2, ?_⟩
      intro c hc hcn
      by_cases hck : c = k
      · subst hck
        exact absurd h0 hcn
      · exact i3 c (by omega) hcn
    · have hlb := (e2 k hkl).1
      rw [if_neg (by omega)] at hlb
      have hnode := i2 k (Nat.le_refl _) hkl
      obtain ⟨r1, r2, r3, r4⟩ := hok k hkl h0
      have hil : dest_of env k < (expand_acc env graph state counts st k).2.length := by
        rw [e1, hlenc]
        exact dest_of_lt env k (by omega)
      have hN := hthr k hkl
      have hmul : (env.thread_of k + 1) * graph.num_local_verts_ =
          env.thread_of k * graph.num_local_verts_ + graph.num_local_verts_ := by
        rw [Nat.add_mul, Nat.one_mul]
      obtain ⟨f1, f2, f3⟩ := expand_step_frame env graph state counts
        (expand_acc env graph state counts st k) k (dest_of env k) N
        (node_at st (dest_of env k))
        (decide (counts.getD (dest_of env k) 0 >
          st.node_send_lengths_buffer.getD (dest_of env k) 0 + 1))
        (decide (st.node_send_lengths_buffer.getD (dest_of env k) 0 ≠ 0))
        rfl hnode.symm (by rw [hlb]) (by rw [hlb]) h0 hN i1 r1 r2 r3 r4
      have hslab := expand_step_slab env graph state counts
        (expand_acc env graph state counts st k) k (dest_of env k)
        (node_at st (dest_of env k))
        (decide (counts.getD (dest_of env k) 0 >
          st.node_send_lengths_buffer.getD (dest_of env k) 0 + 1))
        (decide (st.node_send_lengths_buffer.getD (dest_of env k) 0 ≠ 0))
        rfl hnode.symm (by rw [hlb]) (by rw [hlb]) h0 hil
        (fun v hv => i1 _ (by omega)) r1 r2 r3 r4
      refine ⟨f1, ?_, ?_⟩
      · intro c hc1 hc2
        have hne : dest_of env c ≠ dest_of env k :=
          fun h => by have := dest_of_inj env hc2 hkl h; omega
        have := f3 (dest_of env c) hne
        simp only [node_at] at this ⊢
        rw [this]
        exact i2 c (by omega) hc2
      · intro c hc hcn
        by_cases hck : c = k
        · subst hck
          exact hslab
        · have hcl : c < env.comm_size_ := by omega
          have hne : dest_of env c ≠ dest_of env k :=
            fun h => hck (dest_of_inj env hcl hkl h)
          apply slabLayout_congr (i3 c (by omega) hcn)
          · intro x h1 h2
            exact f2 x (scatter_offset_disjoint counts hne x h1 h2)
          · exact (expand_step_send_lengths env graph state counts _ k).2 _ hne

theorem expand_step_send_ptr (env : A2AEnv) (graph : Graph2DCSR) (state : SsspState)
    (counts : List Nat) (acc : A2AState × List Nat) (c j : Nat) :
    (node_at (expand_step env graph state counts acc c).1 j).send_ptr =
      if j = dest_of env c ∧ counts.getD (dest_of env c) 0 ≠ 0 ∧
          counts.getD (dest_of env c) 0 >
            acc.1.node_send_lengths_buffer.getD (dest_of env c) 0 + 1 then []
      else (node_at acc.1 j).send_ptr := by
  have hd : (c + env.comm_rank) % env.comm_size_ = dest_of env c := rfl
  by_cases h0 : counts.getD (dest_of env c) 0 = 0
  · simp only [expand_step, hd, h0, if_true, ne_eq, not_true_eq_false, false_and, and_false,
      if_false]
  · simp only [expand_step, hd, h0, if_false, ne_eq, not_false_eq_true, true_and, node_at,
      getD_set]
    simp only [List.getD_eq_getElem?_getD]
    by_cases hj : j = dest_of env c
    · subst hj
      by_cases hl : dest_of env c < acc.1.node_.length
      · by_cases hb : acc.1.node_send_lengths_buffer[dest_of env c]?.getD 0 = 0
        · by_cases hp : 0 + 1 < counts[dest_of env c]?.getD 0 <;> simp [hl, hb, hp]
        · by_cases hp : acc.1.node_send_lengths_buffer[dest_of env c]?.getD 0 + 1 <
            counts[dest_of env c]?.getD 0 <;> simp [hl, hb, hp]
      · have hdef : acc.1.node_[dest_of env c]? = none := by
          rw [List.getElem?_eq_none_iff]
          omega
        simp [hl, hdef]
    · have hj2 : ¬ dest_of env c = j := fun h => hj h.symm
      simp [hj, hj2]

theorem expand_acc_send_ptr (env : A2AEnv) (graph : Graph2DCSR) (state : SsspState)
    (counts : List Nat) (st : A2AState) (k : Nat) (hk : k ≤ env.comm_size_) :
    ∀ c, c < env.comm_size_ →
      (node_at (expand_acc env graph state counts st k).1 (dest_of env c)).send_ptr =
        if c < k ∧ counts.getD (dest_of env c) 0 ≠ 0 ∧ counts.getD (dest_of env c) 0 >
            st.node_send_lengths_buffer.getD (dest_of env c) 0 + 1 then []
        else (node_at st (dest_of env c)).send_ptr := by
  induction k with
  | zero =>
    intro c _
    simp [expand_acc]
  | succ k ih =>
    have hkl : k < env.comm_size_ := by omega
    have hbk := ((expand_acc_spec env graph state counts st k (by omega)).2 k hkl).1
    rw [if_neg (by omega)] at hbk
    intro c hc
    have j3 := ih (by omega) c hc
    rw [expand_acc_succ, expand_step_send_ptr, hbk]
    by_cases hck : c = k
    · subst hck
      by_cases h0 : counts.getD (dest_of env c) 0 ≠ 0 ∧ counts.getD (dest_of env c) 0 >
          st.node_send_lengths_buffer.getD (dest_of env c) 0 + 1
      · rw [if_pos (show dest_of env c = dest_of env c ∧ _ from ⟨rfl, h0⟩),
          if_pos (show c < c + 1 ∧ _ from ⟨by omega, h0⟩)]
      · rw [if_neg (fun h => h0 h.2), if_neg (fun h => h0 h.2), j3, if_neg (by omega)]
    · have hne : dest_of env c ≠ dest_of env k := fun h => hck (dest_of_inj env hc hkl h)
      rw [if_neg (fun h => hne h.1), j3]
      by_cases hlt : c < k
      · simp only [hlt, true_and, show c < k + 1 by omega]
      · rw [if_neg (fun h => hlt h.1), if_neg (fun h => hlt (by omega))]

theorem expand_pass_send_ptr (env : A2AEnv) (graph : Graph2DCSR) (state : SsspState)
    (loop : Nat) (st : A2AState) {c : Nat} (hc : c < env.comm_size_) :
    (node_at (expand_pass env graph state (count_pass env loop st) st).1
        (dest_of env c)).send_ptr =
      if ptr_included env loop st.node_send_lengths_ptr st.node_send_lengths_buffer c = true
      then [] else (node_at st (dest_of env c)).send_ptr := by
  have h := expand_acc_send_ptr env graph state (count_pass env loop st) st env.comm_size_
    (Nat.le_refl _) c hc
  rw [expand_pass, h, count_pass_getD env loop st hc]
  have hg := spec_count_gt_iff env loop st.node_send_lengths_ptr st.node_send_lengths_buffer c
  by_cases hinc : ptr_included env loop st.node_send_lengths_ptr st.node_send_lengths_buffer c
      = true
  · have := hg.2 hinc
    rw [if_pos hinc, if_pos ⟨hc, by omega, this⟩]
  · rw [if_neg hinc, if_neg (fun h => hinc (hg.1 h.2.2))]

theorem send_length_buffer_eq_queued (node : CommTarget) :
    get_node_send_length_buffer node = (queued_words node).length := by
  rw [get_node_send_length_buffer, foldl_add_length, Nat.zero_add, queued_words_length]

/-- At the start of a round that is ready, outside the heavy phase with
`NODE_SEND_COUNT_TYPE == 1`, every destination with a non-zero count is ready for the expand
pass: the count of the count pass covers the words the merge writes. -/
theorem roundReady_destReady (env : A2AEnv) (graph : Graph2DCSR) (state : SsspState)
    (N loop : Nat) (st : A2AState)
    (hcfg : env.NODE_SEND_COUNT_TYPE ≠ 1 ∨ state.is_bellman_ford_ = true ∨
      state.is_light_phase_ = true)
    (h : RoundReady env graph state N st) {c : Nat} (hc : c < env.comm_size_)
    (hcnt : (count_pass env loop st).getD (dest_of env c) 0 ≠ 0) :
    DestReady graph state (node_at st (dest_of env c))
      (decide ((count_pass env loop st).getD (dest_of env c) 0 >
        st.node_send_lengths_buffer.getD (dest_of env c) 0 + 1))
      (decide (st.node_send_lengths_buffer.getD (dest_of env c) 0 ≠ 0))
      ((count_pass env loop st).getD (dest_of env c) 0) := by
  obtain ⟨g1, g2, g3, g4, g5⟩ := h.2 (dest_of env c) (dest_of_lt env c (by omega))
  refine ⟨fun _ => g3, ?_, fun _ => g5, ?_⟩
  · intro x hx
    apply g4
    simp only [merge_candidates] at hx
    rcases List.mem_append.1 hx with hx | hx
    · split at hx
      · exact List.mem_append_left _ hx
      · simp at hx
    · split at hx
      · exact List.mem_append_right _ hx
      · simp at hx
  · intro s vp
    have hcov : (collect_targets_ptr (node_at st (dest_of env c)) state graph s vp).pos ≤
        st.node_send_lengths_ptr.getD (dest_of env c) 0 := by
      rw [g2]
      exact send_length_ptr_covers env.NODE_SEND_COUNT_TYPE state graph hcfg
        (node_at st (dest_of env c)).send_ptr _ 0 (Nat.le_refl _)
    have hq : (queued_words (node_at st (dest_of env c))).length =
        st.node_send_lengths_buffer.getD (dest_of env c) 0 := by
      rw [g1, send_length_buffer_eq_queued]
    rw [count_pass_getD env loop st hc] at hcnt ⊢
    generalize (collect_targets_ptr (node_at st (dest_of env c)) state graph s vp).pos = a
      at hcov
    generalize (queued_words (node_at st (dest_of env c))).length = q at hq
    subst hq
    unfold spec_count at hcnt ⊢
    split at hcnt
    · exact absurd rfl hcnt
    · rename_i hne
      rw [if_neg hne]
      split
      · split <;> split <;> omega
      · rename_i hinc
        rw [if_neg hinc] at hcnt
        split at hcnt
        · exact absurd rfl hcnt
        · rename_i hq
          rw [if_neg hq]
          rw [if_neg (by simp only [decide_eq_true_eq]; omega), if_pos (by simpa using hq)]

/-- The expand pass of a round that is ready: the slab of every destination whose final
`send_lengths[i]` is not zero has the layout `SlabLayout`, relative to the comm target and the
estimates of the start of the round. -/
theorem expand_pass_slab (env : A2AEnv) (graph : Graph2DCSR) (state : SsspState)
    (N loop : Nat) (st : A2AState)
    (hcfg : env.NODE_SEND_COUNT_TYPE ≠ 1 ∨ state.is_bellman_ford_ = true ∨
      state.is_light_phase_ = true)
    (hthr : ∀ c, c < env.comm_size_ → (env.thread_of c + 1) * graph.num_local_verts_ ≤ N)
    (h : RoundReady env graph state N st) {i : Nat} (hi : i < env.comm_size_)
    (hs : (expand_pass env graph state (count_pass env loop st) st).2.getD i 0 ≠ 0) :
    SlabLayout graph state (node_at st i)
      (decide ((count_pass env loop st).getD i 0 > st.node_send_lengths_buffer.getD i 0 + 1))
      (decide (st.node_send_lengths_buffer.getD i 0 ≠ 0))
      (expand_pass env graph state (count_pass env loop st) st).1.stream
      (scatter_offset (count_pass env loop st) i)
      ((expand_pass env graph state (count_pass env loop st) st).2.getD i 0)
      ((count_pass env loop st).getD i 0) := by
  obtain ⟨c, hc, hci⟩ := dest_of_surj env hi
  subst hci
  have hcnt : (count_pass env loop st).getD (dest_of env c) 0 ≠ 0 := by
    intro h0
    apply hs
    rw [expand_pass_send_lengths env graph state _ st hc,
      expand_step_zero env graph state _ _ c h0,
      ((expand_acc_spec env graph state (count_pass env loop st) st c (by omega)).2 c hc).2.2.2
        (Nat.le_refl _)]
    exact h0
  exact (expand_acc_slabs env graph state (count_pass env loop st) st N
    (count_pass_length env loop st) hthr h.1
    (fun c' hc' hcnt' => roundReady_destReady env graph state N loop st hcfg h hc' hcnt')
    env.comm_size_ (Nat.le_refl _)).2.2 c hc hcnt

/-- A round that is ready leaves the manager state ready for the next round. -/
theorem roundReady_expand_pass (env : A2AEnv) (graph : Graph2DCSR) (state : SsspState)
    (N loop : Nat) (st : A2AState)
    (hcfg : env.NODE_SEND_COUNT_TYPE ≠ 1 ∨ state.is_bellman_ford_ = true ∨
      state.is_light_phase_ = true)
    (hthr : ∀ c, c < env.comm_size_ → (env.thread_of c + 1) * graph.num_local_verts_ ≤ N)
    (h : RoundReady env graph state N st) :
    RoundReady env graph state N
      (expand_pass env graph state (count_pass env loop st) st).1 := by
  refine ⟨?_, ?_⟩
  · exact (expand_acc_slabs env graph state (count_pass env loop st) st N
      (count_pass_length env loop st) hthr h.1
      (fun c' hc' hcnt' => roundReady_destReady env graph state N loop st hcfg h hc' hcnt')
      env.comm_size_ (Nat.le_refl _)).1
  · intro i hi
    obtain ⟨g1, g2, g3, g4, g5⟩ := h.2 i hi
    have hlb := expand_pass_lens_buffer env graph state loop st hi
    have hsd := expand_pass_send_data env graph state loop st hi
    obtain ⟨c, hc, hci⟩ := dest_of_surj env hi
    subst hci
    have hlp := expand_pass_lens_ptr env graph state loop st hc
    have hsp := expand_pass_send_ptr env graph state loop st hc
    rw [hlb, hlp]
    generalize node_at (expand_pass env graph state (count_pass env loop st) st).1
      (dest_of env c) = n at hsd hsp
    have hB : n.send_data = [] ∨ n.send_data = (node_at st (dest_of env c)).send_data := by
      rw [hsd]
      split
      · exact Or.inl rfl
      · exact Or.inr rfl
    have hB0 : get_node_send_length_buffer n = 0 := by
      by_cases hz0 : st.node_send_lengths_buffer.getD (dest_of env c) 0 = 0
      · rw [get_node_send_length_buffer, hsd, if_neg (fun hz => hz hz0)]
        exact g1.symm.trans hz0
      · rw [get_node_send_length_buffer, hsd, if_pos hz0]
        rfl
    have hP : n.send_ptr = [] ∨ n.send_ptr = (node_at st (dest_of env c)).send_ptr := by
      rw [hsp]
      split
      · exact Or.inl rfl
      · exact Or.inr rfl
    have hqw : queued_words n = [] ∨
        queued_words n = queued_words (node_at st (dest_of env c)) := by
      rcases hB with hB | hB
      · exact Or.inl (by simp [queued_words, hB])
      · exact Or.inr (by simp [queued_words, hB])
    have hpc : ptr_candidates n state graph = [] ∨
        ptr_candidates n state graph =
          ptr_candidates (node_at st (dest_of env c)) state graph := by
      rcases hP with hP | hP
      · exact Or.inl (by simp [ptr_candidates, hP])
      · exact Or.inr (by simp [ptr_candidates, hP])
    have hbc : buffer_candidates n graph = [] ∨
        buffer_candidates n graph = buffer_candidates (node_at st (dest_of env c)) graph := by
      rcases hqw with hq | hq
      · exact Or.inl (by simp [buffer_candidates, hq, payloadPairs, toPairs])
      · exact Or.inr (by simp [buffer_candidates, hq])
    refine ⟨hB0.symm, ?_, ?_, ?_, ?_⟩
    · rw [get_node_send_length_ptr, hsp]
      split
      · rfl
      · rw [g2]
        rfl
    · rcases hqw with hq | hq
      · rw [hq]
        rfl
      · rw [hq]
        exact g3
    · intro x hx
      apply g4
      rcases List.mem_append.1 hx with hx | hx
      · rcases hpc with hp | hp
        · rw [hp] at hx
          simp at hx
        · rw [hp] at hx
          exact List.mem_append_left _ hx
      · rcases hbc with hp | hp
        · rw [hp] at hx
          simp at hx
        · rw [hp] at hx
          exact List.mem_append_right _ hx
    · intro x hx
      apply g5
      rcases hpc with hp | hp
      · rw [hp] at hx
        simp at hx
      · rw [hp] at hx
        exact hx

theorem getD_map_default {α β : Type} (f : α → β) (l : List α) (i : Nat) (d : α) :
    (l.map f).getD i (f d) = f (l.getD i d) := by
  induction l generalizing i with
  | nil => simp
  | cons a l ih =>
    cases i with
    | zero => simp
    | succ i =>
      simp only [List.map_cons, List.getD_cons_succ]
      exact ih i

/-- The manager state `run_with_both` starts from is ready, when the scratch is clean and
every flushed comm target has well-formed queued buffers, every candidate vertex inside the
scratch slice of a thread and no pointer candidate with the sentinel weight. -/
theorem roundReady_init (env : A2AEnv) (graph : Graph2DCSR) (state : SsspState) (N : Nat)
    (node_ : List CommTarget) (stream : Stream) (vertices_pos : VPos)
    (hvp : ∀ x, x < N → vertices_pos x = -1)
    (hnodes : ∀ n ∈ node_.map flush,
      wellFormedBuf (queued_words n) = true ∧
      (∀ x ∈ ptr_candidates n state graph ++ buffer_candidates n graph,
        x.1 < graph.num_local_verts_) ∧
      ∀ x ∈ ptr_candidates n state graph, x.2 ≠ get_sentinel) :
    RoundReady env graph state N
      (run_with_both_init env graph state node_ stream vertices_pos) := by
  refine ⟨hvp, ?_⟩
  intro i _
  refine ⟨?_, ?_, ?_⟩
  · exact getD_map_default get_node_send_length_buffer (node_.map flush) i
      ⟨0, 0, none, [], []⟩
  · exact getD_map_default
      (fun n => get_node_send_length_ptr env.NODE_SEND_COUNT_TYPE n state graph)
      (node_.map flush) i ⟨0, 0, none, [], []⟩
  · simp only [node_at, run_with_both_init]
    by_cases hl : i < (node_.map flush).length
    · rw [List.getD_eq_getElem _ _ hl]
      exact hnodes _ (List.getElem_mem hl)
    · rw [List.getD_eq_default _ _ (by omega)]
      refine ⟨rfl, ?_, ?_⟩
      · intro x hx
        simp [ptr_candidates, buffer_candidates, queued_words, payloadPairs, toPairs] at hx
      · intro x hx
        simp [ptr_candidates] at hx

/-- Every round of `run_with_both` starts in a manager state that is ready. -/
theorem roundReady_round_start (env : A2AEnv) (graph : Graph2DCSR) (state : SsspState)
    (N : Nat) (st : A2AState)
    (hcfg : env.NODE_SEND_COUNT_TYPE ≠ 1 ∨ state.is_bellman_ford_ = true ∨
      state.is_light_phase_ = true)
    (hthr : ∀ c, c < env.comm_size_ → (env.thread_of c + 1) * graph.num_local_verts_ ≤ N)
    (h : RoundReady env graph state N st) (loop : Nat) :
    RoundReady env graph state N (round_start env graph state st loop) := by
  induction loop with
  | zero => exact h
  | succ loop ih => exact roundReady_expand_pass env graph state N loop _ hcfg hthr ih

/-! ## The claims -/

/-- C1 (min-weight dedup, pointer origin).  On a clean scratch slice, with every candidate
target inside the slice and no candidate distance equal to the sentinel pattern or a NaN, the
stream left by `collect_targets_ptr` followed by `remove_sentinels_ptr` is the encoding of
blocks whose pairs carry pairwise different local vertices (so at most one pair per vertex, in
the whole stream and in each block); every pair is one of the candidates of the queue and its
weight is `≤` every candidate weight for the same vertex, and every candidate's vertex has its
pair. -/
theorem C1_ptr_min_weight_dedup (node : CommTarget) (state : SsspState) (graph : Graph2DCSR)
    (stream : Stream) (vertices_pos : VPos)
    (hclean : ∀ v, v < graph.num_local_verts_ → vertices_pos v = -1)
    (hcand : ∀ c ∈ ptr_candidates node state graph,
      c.1 < graph.num_local_verts_ ∧ c.2 ≠ get_sentinel ∧ f32isNaN c.2 = false) :
    ∃ blocks : List PtrBlock,
      words (remove_sentinels_ptr graph
          (collect_targets_ptr node state graph stream vertices_pos).pos
          (collect_targets_ptr node state graph stream vertices_pos).stream
          (collect_targets_ptr node state graph stream vertices_pos).vertices_pos).stream 0
        (remove_sentinels_ptr graph
          (collect_targets_ptr node state graph stream vertices_pos).pos
          (collect_targets_ptr node state graph stream vertices_pos).stream
          (collect_targets_ptr node state graph stream vertices_pos).vertices_pos).pos
        = encodePtr blocks ∧
      ((blockPairs blocks).map Prod.fst).Nodup ∧
      (∀ b ∈ blocks, (b.2.2.map Prod.fst).Nodup) ∧
      (∀ x ∈ blockPairs blocks, x ∈ ptr_candidates node state graph ∧
        ∀ c ∈ ptr_candidates node state graph, c.1 = x.1 → f32le x.2 c.2 = true) ∧
      (∀ c ∈ ptr_candidates node state graph, ∃ w, (c.1, w) ∈ blockPairs blocks) := by
  obtain ⟨ks, hB, hw, hp, _⟩ := run_ptr_merge_spec graph.num_local_verts_ node state graph
    stream vertices_pos hclean (fun c hc => ⟨(hcand c hc).1, (hcand c hc).2.1⟩)
  refine ⟨_, hw, ?_, ?_, ?_, ?_⟩
  · rw [hp]
    exact DInv_nodup hB.inv
  · intro b hb
    have hnd : ((blockPairs (compactPtr (readBlocks (collect_targets_ptr node state graph
        stream vertices_pos).stream 0 ks))).map Prod.fst).Nodup := by
      rw [hp]
      exact DInv_nodup hB.inv
    obtain ⟨l1, l2, hl⟩ := List.append_of_mem hb
    rw [hl] at hnd
    simp only [blockPairs, List.flatMap_append, List.flatMap_cons, List.map_append] at hnd
    exact (List.nodup_append.1 (List.nodup_append.1 hnd).2.1).1
  · intro x hx
    rw [hp] at hx
    obtain ⟨h1, h2⟩ := DInv_min hB.inv x hx
    refine ⟨h1, fun c hc hcv => ?_⟩
    exact f32le_of_not_lt (hcand c hc).2.2 (hcand x h1).2.2 (h2 c hc hcv)
  · intro c hc
    rw [hp]
    exact DInv_cover hB.inv c hc

/-- Witness for C1 on the descriptor of scenario E1 (all edges pass, `bucket_upper = 0.0`). -/
theorem C1_ptr_min_weight_dedup_witness :
    (∀ v, v < e1_graph.num_local_verts_ → (fun _ => (-1 : Int)) v = -1) ∧
    (∀ c ∈ ptr_candidates e1_node (e1_state 0) e1_graph,
      c.1 < e1_graph.num_local_verts_ ∧ c.2 ≠ get_sentinel ∧ f32isNaN c.2 = false) ∧
    ∃ blocks : List PtrBlock,
      words (remove_sentinels_ptr e1_graph
          (collect_targets_ptr e1_node (e1_state 0) e1_graph (fun _ => 0) (fun _ => -1)).pos
          (collect_targets_ptr e1_node (e1_state 0) e1_graph (fun _ => 0) (fun _ => -1)).stream
          (collect_targets_ptr e1_node (e1_state 0) e1_graph (fun _ => 0)
            (fun _ => -1)).vertices_pos).stream 0
        (remove_sentinels_ptr e1_graph
          (collect_targets_ptr e1_node (e1_state 0) e1_graph (fun _ => 0) (fun _ => -1)).pos
          (collect_targets_ptr e1_node (e1_state 0) e1_graph (fun _ => 0) (fun _ => -1)).stream
          (collect_targets_ptr e1_node (e1_state 0) e1_graph (fun _ => 0)
            (fun _ => -1)).vertices_pos).pos
        = encodePtr blocks ∧
      ((blockPairs blocks).map Prod.fst).Nodup ∧
      (∀ b ∈ blocks, (b.2.2.map Prod.fst).Nodup) ∧
      (∀ x ∈ blockPairs blocks, x ∈ ptr_candidates e1_node (e1_state 0) e1_graph ∧
        ∀ c ∈ ptr_candidates e1_node (e1_state 0) e1_graph, c.1 = x.1 →
          f32le x.2 c.2 = true) ∧
      (∀ c ∈ ptr_candidates e1_node (e1_state 0) e1_graph, ∃ w, (c.1, w) ∈ blockPairs blocks) :=
  ⟨fun _ _ => rfl, by decide,
    C1_ptr_min_weight_dedup e1_node (e1_state 0) e1_graph (fun _ => 0) (fun _ => -1)
      (fun _ _ => rfl) (by decide)⟩

/-- C2, refuted as stated: the two queued buffers `[(5, NaN)]` and `[(5, 1.0)]` are well
formed and their vertex is inside the slice; the dedup pass of `collect_targets_buffer`
registers `(5, NaN)` first, `1.0 < NaN` is false, so the later pair `(5, 1.0)` is marked, and
`remove_sentinels_buffer` leaves exactly `(5, NaN)`, which is not `<=` the queued weight
`1.0`: the surviving weight is not the minimum of the queued weights. -/
theorem C2_nan_first_counterexample :
    wellFormedBuf (queued_words nan_first_node) = true ∧
    (∀ c ∈ buffer_candidates nan_first_node e1_graph, c.1 < e1_graph.num_local_verts_) ∧
    buffer_candidates nan_first_node e1_graph = [(5, 0x7FC00000), (5, 0x3F800000)] ∧
    words (collect_targets_buffer false nan_first_node e1_graph (e1_state 0) 0 (fun _ => 0)
        (fun _ => -1)).stream 0 4 = [5, 0x7FC00000, 5, get_sentinel] ∧
    words (run_buffer_merge false nan_first_node (e1_state 0) e1_graph (fun _ => 0)
        (fun _ => -1)).stream 0
      (run_buffer_merge false nan_first_node (e1_state 0) e1_graph (fun _ => 0)
        (fun _ => -1)).pos = [5, 0x7FC00000] ∧
    f32isNaN 0x7FC00000 = true ∧
    f32le 0x7FC00000 0x3F800000 = false ∧
    f32lt 0x3F800000 0x7FC00000 = false := by
  decide

/-- C2, amended (min-weight dedup, buffer origin).  For queued buffers whose concatenation is
well formed, a clean scratch slice, masked vertices inside the slice and the dedup pass not
skipped: the stream `r` left by `collect_targets_buffer` followed by `remove_sentinels_buffer`
with `read_start = write_start = 0` has payload pairs with pairwise different local vertices;
each is one of the queued pairs (vertex masked), no queued pair for its vertex has a strictly
smaller weight under the float comparison `<`, its weight is `<=` every queued weight for its
vertex when neither of the two is a NaN, and every queued vertex has its pair.  The two puts
`[(5, 1.0)]` and `[(5, 2.0)]` leave exactly `(5, 1.0)`. -/
theorem C2_buffer_min_weight_dedup (SKIP_FILTERING : Bool) (node : CommTarget)
    (state : SsspState) (graph : Graph2DCSR) (stream : Stream) (vertices_pos : VPos)
    (hclean : ∀ v, v < graph.num_local_verts_ → vertices_pos v = -1)
    (hskip : (SKIP_FILTERING && state.is_presolving_mode_) = false)
    (hwf : wellFormedBuf (queued_words node) = true)
    (hbnd : ∀ c ∈ buffer_candidates node graph, c.1 < graph.num_local_verts_)
    (a : MergeState)
    (ha : a = collect_targets_buffer SKIP_FILTERING node graph state 0 stream vertices_pos)
    (r : MergeState)
    (hr : r = remove_sentinels_buffer graph 0 0 a.pos a.stream a.vertices_pos) :
    ((payloadPairs (words r.stream 0 r.pos)).map Prod.fst).Nodup ∧
    (∀ x ∈ payloadPairs (words r.stream 0 r.pos),
      x ∈ buffer_candidates node graph ∧
      ∀ c ∈ buffer_candidates node graph, c.1 = x.1 →
        f32lt c.2 x.2 = false ∧
        (f32isNaN c.2 = false → f32isNaN x.2 = false → f32le x.2 c.2 = true)) ∧
    (∀ c ∈ buffer_candidates node graph,
      ∃ w, (c.1, w) ∈ payloadPairs (words r.stream 0 r.pos)) ∧
    words (remove_sentinels_buffer e1_graph 0 0
        (collect_targets_buffer false e2_node e1_graph (e1_state 0) 0 (fun _ => 0)
          (fun _ => -1)).pos
        (collect_targets_buffer false e2_node e1_graph (e1_state 0) 0 (fun _ => 0)
          (fun _ => -1)).stream
        (collect_targets_buffer false e2_node e1_graph (e1_state 0) 0 (fun _ => 0)
          (fun _ => -1)).vertices_pos).stream 0
      (remove_sentinels_buffer e1_graph 0 0
        (collect_targets_buffer false e2_node e1_graph (e1_state 0) 0 (fun _ => 0)
          (fun _ => -1)).pos
        (collect_targets_buffer false e2_node e1_graph (e1_state 0) 0 (fun _ => 0)
          (fun _ => -1)).stream
        (collect_targets_buffer false e2_node e1_graph (e1_state 0) 0 (fun _ => 0)
          (fun _ => -1)).vertices_pos).pos = [5, 0x3F800000] := by
  subst ha hr
  obtain ⟨out, h1, h2, h3, h4, _⟩ := run_buffer_merge_spec graph.num_local_verts_
    SKIP_FILTERING node state graph stream vertices_pos hclean hskip hwf hbnd
  have hp : payloadPairs (words (remove_sentinels_buffer graph 0 0
      (collect_targets_buffer SKIP_FILTERING node graph state 0 stream vertices_pos).pos
      (collect_targets_buffer SKIP_FILTERING node graph state 0 stream vertices_pos).stream
      (collect_targets_buffer SKIP_FILTERING node graph state 0 stream
        vertices_pos).vertices_pos).stream 0
      (remove_sentinels_buffer graph 0 0
      (collect_targets_buffer SKIP_FILTERING node graph state 0 stream vertices_pos).pos
      (collect_targets_buffer SKIP_FILTERING node graph state 0 stream vertices_pos).stream
      (collect_targets_buffer SKIP_FILTERING node graph state 0 stream
        vertices_pos).vertices_pos).pos) = out.filter isPayload := by
    rw [← payloadPairs_flattenPairs, ← h1]
    rfl
  rw [hp]
  refine ⟨h2, ?_, h4, by decide⟩
  intro x hx
  refine ⟨(h3 x hx).1, fun c hc hcv => ⟨(h3 x hx).2.2 c hc hcv, fun n1 n2 => ?_⟩⟩
  exact f32le_of_not_lt n1 n2 ((h3 x hx).2.2 c hc hcv)

/-- Witness for C2 on the two puts of scenario E2: the surviving payload pairs have pairwise
different vertices, and each is a queued pair that no queued pair of its vertex undercuts. -/
theorem C2_buffer_min_weight_dedup_witness :
    (wellFormedBuf (queued_words e2_node) = true ∧
      ∀ c ∈ buffer_candidates e2_node e1_graph, c.1 < e1_graph.num_local_verts_) ∧
    ((payloadPairs (words (run_buffer_merge false e2_node (e1_state 0) e1_graph (fun _ => 0)
        (fun _ => -1)).stream 0 (run_buffer_merge false e2_node (e1_state 0) e1_graph
        (fun _ => 0) (fun _ => -1)).pos)).map Prod.fst).Nodup ∧
    ∀ x ∈ payloadPairs (words (run_buffer_merge false e2_node (e1_state 0) e1_graph
        (fun _ => 0) (fun _ => -1)).stream 0 (run_buffer_merge false e2_node (e1_state 0)
        e1_graph (fun _ => 0) (fun _ => -1)).pos),
      x ∈ buffer_candidates e2_node e1_graph ∧
      ∀ c ∈ buffer_candidates e2_node e1_graph, c.1 = x.1 →
        f32lt c.2 x.2 = false ∧
        (f32isNaN c.2 = false → f32isNaN x.2 = false → f32le x.2 c.2 = true) :=
  have h := C2_buffer_min_weight_dedup false e2_node (e1_state 0) e1_graph (fun _ => 0)
    (fun _ => -1) (fun _ _ => rfl) rfl (by decide) (by decide) _ rfl _ rfl
  ⟨⟨by decide, by decide⟩, h.1, h.2.1⟩

/-- C3, refuted as stated: the local vertex 1 has one pointer candidate, whose weight
`NaN + 2.0` is a NaN, and the buffer candidate `(1, 1.0)`; the scratch slice is clean, the
queued buffer is well formed and no pointer candidate weight is the sentinel pattern.  The
pointer candidate is registered first, `1.0 < NaN` is false, so the buffer pair is marked:
the slab of `run_with_both_merge` holds one pointer block with the pair of vertex 1, whose
weight is a NaN and not `<=` the buffer weight `1.0`, and no buffer pair. -/
theorem C3_nan_pointer_counterexample :
    wellFormedBuf (queued_words nan_both_node) = true ∧
    (∀ c ∈ ptr_candidates nan_both_node (e1_state 0) e1_graph ++
        buffer_candidates nan_both_node e1_graph, c.1 < e1_graph.num_local_verts_) ∧
    (∀ c ∈ ptr_candidates nan_both_node (e1_state 0) e1_graph, c.2 ≠ get_sentinel) ∧
    (ptr_candidates nan_both_node (e1_state 0) e1_graph).map Prod.fst = [1] ∧
    (∀ c ∈ ptr_candidates nan_both_node (e1_state 0) e1_graph, f32isNaN c.2 = true) ∧
    buffer_candidates nan_both_node e1_graph = [(1, 0x3F800000)] ∧
    (run_with_both_merge false nan_both_node (e1_state 0) e1_graph true true (fun _ => 0)
      (fun _ => -1)).length_ptr_reduced = 5 ∧
    (run_with_both_merge false nan_both_node (e1_state 0) e1_graph true true (fun _ => 0)
      (fun _ => -1)).length_buffer_reduced = 0 ∧
    words (run_with_both_merge false nan_both_node (e1_state 0) e1_graph true true
      (fun _ => 0) (fun _ => -1)).stream 0 4 = [1, 2, 2, 1] ∧
    f32isNaN ((run_with_both_merge false nan_both_node (e1_state 0) e1_graph true true
      (fun _ => 0) (fun _ => -1)).stream 4) = true ∧
    f32le ((run_with_both_merge false nan_both_node (e1_state 0) e1_graph true true
      (fun _ => 0) (fun _ => -1)).stream 4) 0x3F800000 = false := by
  decide

/-- C3, amended (merge of both origins in `run_with_both`).  With a clean scratch slice, the
dedup pass not skipped, well-formed queued buffers, every candidate vertex inside the slice and
no pointer candidate distance equal to the sentinel pattern, the slab `r` built by
`run_with_both_merge` (pointer collection, buffer collection at `stream_offset = length_ptr`,
`remove_sentinels_ptr`, `remove_sentinels_buffer` with `read_start = length_ptr` and
`write_start = length_ptr_reduced`) holds pointer blocks followed by buffer pairs, and a local
vertex `v` with a pointer candidate and a buffer candidate has exactly one pair among the block
pairs and the payload pairs; that pair is a candidate, no candidate of either origin for `v`
has a strictly smaller weight under the float comparison `<`, and its weight is `<=` every
candidate weight for `v` when neither of the two is a NaN. -/
theorem C3_merge_both_origins (SKIP_FILTERING : Bool) (node : CommTarget) (state : SsspState)
    (graph : Graph2DCSR) (stream : Stream) (vertices_pos : VPos)
    (hclean : ∀ v, v < graph.num_local_verts_ → vertices_pos v = -1)
    (hskip : (SKIP_FILTERING && state.is_presolving_mode_) = false)
    (hwf : wellFormedBuf (queued_words node) = true)
    (hbnd : ∀ c ∈ ptr_candidates node state graph ++ buffer_candidates node graph,
      c.1 < graph.num_local_verts_)
    (hsent : ∀ c ∈ ptr_candidates node state graph, c.2 ≠ get_sentinel)
    (r : MergeResult)
    (hr : r = run_with_both_merge SKIP_FILTERING node state graph true true stream
      vertices_pos) :
    ∃ (blocks : List PtrBlock) (out : List (Nat × Nat)),
      words r.stream 0 r.length_ptr_reduced = encodePtr blocks ∧
      words r.stream r.length_ptr_reduced r.length_buffer_reduced = flattenPairs out ∧
      ∀ v wp wb, (v, wp) ∈ ptr_candidates node state graph →
        (v, wb) ∈ buffer_candidates node graph →
        ∃ w, (blockPairs blocks ++ out.filter isPayload).filter (fun x => decide (x.1 = v)) =
            [(v, w)] ∧
          (v, w) ∈ ptr_candidates node state graph ++ buffer_candidates node graph ∧
          ∀ c ∈ ptr_candidates node state graph ++ buffer_candidates node graph, c.1 = v →
            f32lt c.2 w = false ∧
            (f32isNaN c.2 = false → f32isNaN w = false → f32le w c.2 = true) := by
  subst hr
  obtain ⟨blocks, out, m1, m2, _, m4, m5, m6, _⟩ := run_with_both_merge_spec
    graph.num_local_verts_ SKIP_FILTERING node state graph true true stream vertices_pos hclean
    (fun _ => hskip) (fun _ => hwf) (by simpa [merge_candidates] using hbnd) (fun _ => hsent)
  simp only [merge_candidates, if_true] at m5 m6
  refine ⟨blocks, out, m1, m2, ?_⟩
  intro v wp _ hp _
  obtain ⟨w, hw⟩ := m6 (v, wp) (List.mem_append_left _ hp)
  refine ⟨w, filter_key_of_nodup m4 hw, (m5 _ hw).1, fun c hc hcv => ?_⟩
  have := (m5 _ hw).2.2 c hc hcv
  exact ⟨this, fun n1 n2 => f32le_of_not_lt n1 n2 this⟩

/-- Witness for C3: vertex 1 has the pointer candidates `3.0` and `2.5` and the buffer
candidates `2.0` and `3.0`. -/
theorem C3_merge_both_origins_witness :
    (wellFormedBuf (queued_words both_node) = true ∧
      (∀ c ∈ ptr_candidates both_node (e1_state 0) e1_graph ++
          buffer_candidates both_node e1_graph, c.1 < e1_graph.num_local_verts_) ∧
      ∀ c ∈ ptr_candidates both_node (e1_state 0) e1_graph, c.2 ≠ get_sentinel) ∧
    ∃ (blocks : List PtrBlock) (out : List (Nat × Nat)),
      words (run_with_both_merge false both_node (e1_state 0) e1_graph true true (fun _ => 0)
          (fun _ => -1)).stream 0
        (run_with_both_merge false both_node (e1_state 0) e1_graph true true (fun _ => 0)
          (fun _ => -1)).length_ptr_reduced = encodePtr blocks ∧
      words (run_with_both_merge false both_node (e1_state 0) e1_graph true true (fun _ => 0)
          (fun _ => -1)).stream
        (run_with_both_merge false both_node (e1_state 0) e1_graph true true (fun _ => 0)
          (fun _ => -1)).length_ptr_reduced
        (run_with_both_merge false both_node (e1_state 0) e1_graph true true (fun _ => 0)
          (fun _ => -1)).length_buffer_reduced = flattenPairs out ∧
      ∀ v wp wb, (v, wp) ∈ ptr_candidates both_node (e1_state 0) e1_graph →
        (v, wb) ∈ buffer_candidates both_node e1_graph →
        ∃ w, (blockPairs blocks ++ out.filter isPayload).filter (fun x => decide (x.1 = v)) =
            [(v, w)] ∧
          (v, w) ∈ ptr_candidates both_node (e1_state 0) e1_graph ++
            buffer_candidates both_node e1_graph ∧
          ∀ c ∈ ptr_candidates both_node (e1_state 0) e1_graph ++
              buffer_candidates both_node e1_graph, c.1 = v →
            f32lt c.2 w = false ∧
            (f32isNaN c.2 = false → f32isNaN w = false → f32le w c.2 = true) :=
  ⟨⟨by decide, by decide, by decide⟩,
    C3_merge_both_origins false both_node (e1_state 0) e1_graph (fun _ => 0) (fun _ => -1)
      (fun _ _ => rfl) rfl (by decide) (by decide) (by decide) _ rfl⟩

/-- C8 (sentinel hygiene).  For a pointer-origin stream laid out in blocks (`PtrLay`: two
header words, a length word equal to twice the pairs of the block) the first `n` words left by
`remove_sentinels_ptr` (with `n` its return value) encode blocks none of whose pairs has the
sentinel weight; for a buffer-origin stream of tokens (`BufLay`: a flagged header pair is
followed by an unflagged pair) the `n` words `remove_sentinels_buffer` leaves from
`write_start` are pairs none of whose payload pairs has the sentinel weight. -/
theorem C8_sentinel_hygiene (graph : Graph2DCSR) (ks : List Nat) (hs : List Bool)
    (sp sb : Stream) (vp vb : VPos) (length_ptr read_start write_start length_buffer : Nat)
    (hlay : PtrLay sp 0 ks) (hlen : layEnd 0 ks = length_ptr)
    (hbuf : BufLay sb read_start hs) (hblen : bufEnd read_start hs = read_start + length_buffer)
    (hle : write_start ≤ read_start) :
    (∃ blocks : List PtrBlock,
      words (remove_sentinels_ptr graph length_ptr sp vp).stream 0
        (remove_sentinels_ptr graph length_ptr sp vp).pos = encodePtr blocks ∧
      ∀ x ∈ blockPairs blocks, x.2 ≠ get_sentinel) ∧
    (∃ out : List (Nat × Nat),
      words (remove_sentinels_buffer graph read_start write_start length_buffer sb vb).stream
        write_start
        (remove_sentinels_buffer graph read_start write_start length_buffer sb vb).pos =
        flattenPairs out ∧
      ∀ x ∈ out, isPayload x = true → x.2 ≠ get_sentinel) := by
  subst hlen
  have hl : bufEnd read_start hs - read_start = length_buffer := by omega
  constructor
  · obtain ⟨_, h2, _, _⟩ := remove_sentinels_ptr_spec graph ks sp vp hlay
    refine ⟨_, h2, ?_⟩
    intro x hx
    rw [blockPairs_compactPtr] at hx
    have := (List.mem_filter.1 hx).2
    simpa [live] using this
  · obtain ⟨out, _, _, q2, q3, _, _⟩ := remove_sentinels_buffer_spec graph read_start
      write_start hs sb vb hbuf hle
    rw [hl] at q2
    refine ⟨out, q2, ?_⟩
    intro x hx hp
    have hm : x ∈ out.filter isPayload := List.mem_filter.2 ⟨hx, hp⟩
    rw [q3] at hm
    exact livePairs_live hm

/-- Witness for C8: a block with a marked and a live pair, and a header followed by a marked
and a live pair. -/
theorem C8_sentinel_hygiene_witness :
    (PtrLay (fun i => [1, 2, 4, 7, 0xBF800000, 3, 0x40A00000].getD i 0) 0 [2] ∧
      BufLay (fun i => [0x80000007, 9, 5, 0xBF800000, 1, 0x40000000].getD i 0) 0
        [true, false]) ∧
    ((∃ blocks : List PtrBlock,
      words (remove_sentinels_ptr e1_graph 7
          (fun i => [1, 2, 4, 7, 0xBF800000, 3, 0x40A00000].getD i 0) (fun _ => -1)).stream 0
        (remove_sentinels_ptr e1_graph 7
          (fun i => [1, 2, 4, 7, 0xBF800000, 3, 0x40A00000].getD i 0) (fun _ => -1)).pos =
        encodePtr blocks ∧
      ∀ x ∈ blockPairs blocks, x.2 ≠ get_sentinel) ∧
    (∃ out : List (Nat × Nat),
      words (remove_sentinels_buffer e1_graph 0 0 6
          (fun i => [0x80000007, 9, 5, 0xBF800000, 1, 0x40000000].getD i 0)
          (fun _ => -1)).stream 0
        (remove_sentinels_buffer e1_graph 0 0 6
          (fun i => [0x80000007, 9, 5, 0xBF800000, 1, 0x40000000].getD i 0)
          (fun _ => -1)).pos = flattenPairs out ∧
      ∀ x ∈ out, isPayload x = true → x.2 ≠ get_sentinel)) :=
  ⟨⟨⟨rfl, trivial⟩, ⟨⟨by decide, by decide⟩, ⟨by decide, trivial⟩⟩⟩,
    C8_sentinel_hygiene e1_graph [2] [true, false] _ _ (fun _ => -1) (fun _ => -1) 7 0 0 6
      ⟨rfl, trivial⟩ rfl ⟨⟨by decide, by decide⟩, ⟨by decide, trivial⟩⟩ rfl (Nat.le_refl 0)⟩

/-- C9 (scratch idempotence).  If the thread's slice of `vertices_pos` is all `-1`, the queued
buffers are well formed (in particular no weight word is the sentinel), every candidate vertex
lies inside the slice and no pointer candidate distance has the sentinel pattern, then the
slice is all `-1` again after `collect_targets_ptr` + `remove_sentinels_ptr`, after
`collect_targets_buffer` + `remove_sentinels_buffer`, and after the combined sequence of
`run_with_both` for every combination of `use_ptr` and `use_buffer` (with the dedup pass of
the buffer collection run or skipped). -/
theorem C9_scratch_clean (SKIP_FILTERING : Bool) (node : CommTarget) (state : SsspState)
    (graph : Graph2DCSR) (stream : Stream) (vertices_pos : VPos) (use_ptr use_buffer : Bool)
    (hclean : ∀ v, v < graph.num_local_verts_ → vertices_pos v = -1)
    (hwf : wellFormedBuf (queued_words node) = true)
    (hbnd : ∀ c ∈ ptr_candidates node state graph ++ buffer_candidates node graph,
      c.1 < graph.num_local_verts_)
    (hsent : ∀ c ∈ ptr_candidates node state graph, c.2 ≠ get_sentinel) :
    (∀ v, v < graph.num_local_verts_ →
      (remove_sentinels_ptr graph
        (collect_targets_ptr node state graph stream vertices_pos).pos
        (collect_targets_ptr node state graph stream vertices_pos).stream
        (collect_targets_ptr node state graph stream vertices_pos).vertices_pos).vertices_pos v
        = -1) ∧
    (∀ v, v < graph.num_local_verts_ →
      (remove_sentinels_buffer graph 0 0
        (collect_targets_buffer SKIP_FILTERING node graph state 0 stream vertices_pos).pos
        (collect_targets_buffer SKIP_FILTERING node graph state 0 stream vertices_pos).stream
        (collect_targets_buffer SKIP_FILTERING node graph state 0 stream
          vertices_pos).vertices_pos).vertices_pos v = -1) ∧
    (∀ v, v < graph.num_local_verts_ →
      (run_with_both_merge SKIP_FILTERING node state graph use_ptr use_buffer stream
        vertices_pos).vertices_pos v = -1) := by
  refine ⟨?_, ?_, ?_⟩
  · obtain ⟨_, _, _, _, h⟩ := run_ptr_merge_spec graph.num_local_verts_ node state graph stream
      vertices_pos hclean
      (fun c hc => ⟨hbnd c (List.mem_append_left _ hc), hsent c hc⟩)
    exact h
  · rw [run_buffer_merge_eq]
    exact run_with_both_merge_clean graph.num_local_verts_ SKIP_FILTERING node state graph
      false true stream vertices_pos hclean (fun _ => hwf)
      (fun c hc => hbnd c (by
        simp only [merge_candidates, Bool.false_eq_true, if_false, if_true,
          List.nil_append] at hc
        exact List.mem_append_right _ hc))
      (fun _ => hsent)
  · apply run_with_both_merge_clean graph.num_local_verts_ SKIP_FILTERING node state graph
      use_ptr use_buffer stream vertices_pos hclean (fun _ => hwf) _ (fun _ => hsent)
    intro c hc
    apply hbnd
    simp only [merge_candidates] at hc
    rcases List.mem_append.1 hc with h | h
    · cases use_ptr
      · simp at h
      · exact List.mem_append_left _ h
    · cases use_buffer
      · simp at h
      · exact List.mem_append_right _ h

/-- Witness for C9 on the destination `both_node`, with the dedup pass skipped. -/
theorem C9_scratch_clean_witness :
    (wellFormedBuf (queued_words both_node) = true ∧
      (∀ c ∈ ptr_candidates both_node (e1_state 0) e1_graph ++
          buffer_candidates both_node e1_graph, c.1 < e1_graph.num_local_verts_) ∧
      ∀ c ∈ ptr_candidates both_node (e1_state 0) e1_graph, c.2 ≠ get_sentinel) ∧
    ∀ v, v < e1_graph.num_local_verts_ →
      (run_with_both_merge true both_node (e1_state 0) e1_graph true true (fun _ => 0)
        (fun _ => -1)).vertices_pos v = -1 :=
  ⟨⟨by decide, by decide, by decide⟩,
    (C9_scratch_clean true both_node (e1_state 0) e1_graph (fun _ => 0) (fun _ => -1) true true
      (fun _ _ => rfl) (by decide) (by decide) (by decide)).2.2⟩

/-- C5, refuted as stated: for the pointer block of scenario E1 outside Bellman-Ford
(`is_light_phase = false`, `with_settled = false`) there is no `bucket_upper` for which the
compacted pointer-origin stream is the header words `1, 2`, the length word and exactly the
pairs `(1, 2.5)` and `(3, 5.0)`: whenever `(1, 2.5)` is delivered, so is a pair for vertex 2. -/
theorem C5_e1_counterexample :
    ¬ ∃ bucket_upper : Nat,
      words (remove_sentinels_ptr e1_graph
          (collect_targets_ptr e1_node (e1_state bucket_upper) e1_graph (fun _ => 0)
            (fun _ => -1)).pos
          (collect_targets_ptr e1_node (e1_state bucket_upper) e1_graph (fun _ => 0)
            (fun _ => -1)).stream
          (collect_targets_ptr e1_node (e1_state bucket_upper) e1_graph (fun _ => 0)
            (fun _ => -1)).vertices_pos).stream 0
        (remove_sentinels_ptr e1_graph
          (collect_targets_ptr e1_node (e1_state bucket_upper) e1_graph (fun _ => 0)
            (fun _ => -1)).pos
          (collect_targets_ptr e1_node (e1_state bucket_upper) e1_graph (fun _ => 0)
            (fun _ => -1)).stream
          (collect_targets_ptr e1_node (e1_state bucket_upper) e1_graph (fun _ => 0)
            (fun _ => -1)).vertices_pos).pos =
        [1, 2, 4, 1, 0x40200000, 3, 0x40A00000] := by
  rintro ⟨bu, h⟩
  obtain ⟨ks, hB, hw, hp, _⟩ := run_ptr_merge_spec 16 e1_node (e1_state bu) e1_graph
    (fun _ => 0) (fun _ => -1) (fun _ _ => rfl) (e1_candidates_ok bu)
  have hw' : encodePtr (compactPtr (readBlocks (collect_targets_ptr e1_node (e1_state bu)
      e1_graph (fun _ => 0) (fun _ => -1)).stream 0 ks)) =
      [1, 2, 4, 1, 0x40200000, 3, 0x40A00000] := by
    rw [← hw]
    exact h
  have hpairs := encodePtr_two_pairs hw'
  rw [hp] at hpairs
  -- the pair `(1, 2.5)` is the candidate of edge 2, which therefore passed the filter
  have h25 : (1, 0x40200000) ∈ ptr_candidates e1_node (e1_state bu) e1_graph := by
    apply (DInv_min hB.inv _ _).1
    rw [hpairs]
    simp
  obtain ⟨b, hb, i, hi, hpass, hc⟩ := mem_ptr_candidates.1 h25
  simp only [e1_node, List.mem_singleton] at hb
  subst hb
  rw [e1_candidate] at hc
  rw [e1_passes] at hpass
  simp only at hi
  have hlt25 : isLT 0x40200000 bu = false := by
    interval_cases i
    · exact absurd hc (by decide)
    · exact absurd hc (by decide)
    · have e : f32add (e1_graph.edge_weight_array_ 2) 0x3F800000 = 0x40200000 := by decide
      rw [e] at hpass
      simpa using hpass
    · exact absurd hc (by decide)
  -- hence edge 1, with candidate `(2, 4.0)`, passed as well
  have hlt40 : isLT 0x40800000 bu = false := by
    cases hx : isLT 0x40800000 bu with
    | false => rfl
    | true =>
      have h1 : f32lt 0x40200000 0x40800000 = true := by decide
      have := f32lt_trans h1 hx
      rw [isLT, this] at hlt25
      exact absurd hlt25 (by decide)
  have h40 : (2, 0x40800000) ∈ ptr_candidates e1_node (e1_state bu) e1_graph := by
    apply mem_ptr_candidates.2
    refine ⟨⟨0, 0x0000000100000002, 0x3F800000, 4⟩, by simp [e1_node], 1, by decide, ?_, ?_⟩
    · rw [e1_passes]
      have e : f32add (e1_graph.edge_weight_array_ 1) 0x3F800000 = 0x40800000 := by decide
      rw [e, hlt40]
      rfl
    · rw [e1_candidate]
      decide
  obtain ⟨w, hw2⟩ := DInv_cover hB.inv _ h40
  rw [hpairs] at hw2
  simp at hw2

/-- C5, amended: for the pointer block of scenario E1 outside Bellman-Ford
(`is_light_phase = false`, `with_settled = false`, header bit 63 clear) and every
`bucket_upper` that the candidate `2.5` does not undercut, the compacted pointer-origin stream
is the header words `1, 2`, the length word `6` and exactly the pairs `(2, 4.0)`, `(1, 2.5)`,
`(3, 5.0)`: the `(1, 3.0)` candidate is dominated, the `(2, 4.0)` candidate is delivered. -/
theorem C5_e1_stream (bucket_upper : Nat) (h : isLT 0x40200000 bucket_upper = false) :
    words (remove_sentinels_ptr e1_graph
        (collect_targets_ptr e1_node (e1_state bucket_upper) e1_graph (fun _ => 0)
          (fun _ => -1)).pos
        (collect_targets_ptr e1_node (e1_state bucket_upper) e1_graph (fun _ => 0)
          (fun _ => -1)).stream
        (collect_targets_ptr e1_node (e1_state bucket_upper) e1_graph (fun _ => 0)
          (fun _ => -1)).vertices_pos).stream 0
      (remove_sentinels_ptr e1_graph
        (collect_targets_ptr e1_node (e1_state bucket_upper) e1_graph (fun _ => 0)
          (fun _ => -1)).pos
        (collect_targets_ptr e1_node (e1_state bucket_upper) e1_graph (fun _ => 0)
          (fun _ => -1)).stream
        (collect_targets_ptr e1_node (e1_state bucket_upper) e1_graph (fun _ => 0)
          (fun _ => -1)).vertices_pos).pos =
      [1, 2, 6, 2, 0x40800000, 1, 0x40200000, 3, 0x40A00000] := by
  have hlt : ∀ d, f32lt 0x40200000 d = true → isLT d bucket_upper = false := by
    intro d hd
    cases hx : isLT d bucket_upper with
    | false => rfl
    | true =>
      have := f32lt_trans hd hx
      rw [isLT, this] at h
      exact absurd h (by decide)
  have hcongr : collect_targets_ptr e1_node (e1_state bucket_upper) e1_graph (fun _ => 0)
      (fun _ => -1) =
      collect_targets_ptr e1_node (e1_state 0) e1_graph (fun _ => 0) (fun _ => -1) := by
    apply collect_targets_ptr_congr
    intro b hb i hi
    simp only [e1_node, List.mem_singleton] at hb
    subst hb
    refine ⟨?_, rfl⟩
    rw [e1_passes, e1_passes]
    simp only at hi
    interval_cases i
    · have e : f32add (e1_graph.edge_weight_array_ 0) 0x3F800000 = 0x40400000 := by decide
      rw [e, hlt _ (by decide)]
      decide
    · have e : f32add (e1_graph.edge_weight_array_ 1) 0x3F800000 = 0x40800000 := by decide
      rw [e, hlt _ (by decide)]
      decide
    · have e : f32add (e1_graph.edge_weight_array_ 2) 0x3F800000 = 0x40200000 := by decide
      rw [e, h]
      decide
    · have e : f32add (e1_graph.edge_weight_array_ 3) 0x3F800000 = 0x40A00000 := by decide
      rw [e, hlt _ (by decide)]
      decide
  rw [hcongr]
  decide

/-- Witness for the amended C5 at `bucket_upper = 0.0`. -/
theorem C5_e1_stream_witness :
    isLT 0x40200000 0 = false ∧
    words (remove_sentinels_ptr e1_graph
        (collect_targets_ptr e1_node (e1_state 0) e1_graph (fun _ => 0) (fun _ => -1)).pos
        (collect_targets_ptr e1_node (e1_state 0) e1_graph (fun _ => 0) (fun _ => -1)).stream
        (collect_targets_ptr e1_node (e1_state 0) e1_graph (fun _ => 0)
          (fun _ => -1)).vertices_pos).stream 0
      (remove_sentinels_ptr e1_graph
        (collect_targets_ptr e1_node (e1_state 0) e1_graph (fun _ => 0) (fun _ => -1)).pos
        (collect_targets_ptr e1_node (e1_state 0) e1_graph (fun _ => 0) (fun _ => -1)).stream
        (collect_targets_ptr e1_node (e1_state 0) e1_graph (fun _ => 0)
          (fun _ => -1)).vertices_pos).pos =
      [1, 2, 6, 2, 0x40800000, 1, 0x40200000, 3, 0x40A00000] :=
  ⟨by decide, C5_e1_stream 0 (by decide)⟩

/-- C4, refuted as stated: with `with_settled = false`, `is_presolving_mode = true` and
`bucket_upper = +∞` (light phase) the descriptor of scenario E1 queues the edge `(v=1, w=2.0)`,
whose pair would be `(1, 3.0)`; the compacted pointer-origin stream is one block with the
pairs `(2, 4.0)`, `(1, 2.5)`, `(3, 5.0)`, which do not include `(1, 3.0)`: the edge is dropped
as a dominated duplicate. -/
theorem C4_conservation_counterexample :
    (conservation_state.with_settled_ = false ∧ conservation_state.is_presolving_mode_ = true ∧
      conservation_state.bucket_upper = 0x7F800000) ∧
    ptr_candidate conservation_state e1_graph ⟨0, 0x0000000100000002, 0x3F800000, 4⟩ 0 =
      (1, 0x40400000) ∧
    words (remove_sentinels_ptr e1_graph
        (collect_targets_ptr e1_node conservation_state e1_graph (fun _ => 0) (fun _ => -1)).pos
        (collect_targets_ptr e1_node conservation_state e1_graph (fun _ => 0)
          (fun _ => -1)).stream
        (collect_targets_ptr e1_node conservation_state e1_graph (fun _ => 0)
          (fun _ => -1)).vertices_pos).stream 0
      (remove_sentinels_ptr e1_graph
        (collect_targets_ptr e1_node conservation_state e1_graph (fun _ => 0) (fun _ => -1)).pos
        (collect_targets_ptr e1_node conservation_state e1_graph (fun _ => 0)
          (fun _ => -1)).stream
        (collect_targets_ptr e1_node conservation_state e1_graph (fun _ => 0)
          (fun _ => -1)).vertices_pos).pos =
      encodePtr [(1, 2, [(2, 0x40800000), (1, 0x40200000), (3, 0x40A00000)])] ∧
    (1, 0x40400000) ∉ [(2, 0x40800000), (1, 0x40200000), (3, 0x40A00000)] := by
  refine ⟨⟨rfl, rfl, rfl⟩, by decide, by decide, by decide⟩

/-- C4, amended (conservation up to dedup).  In the light phase with `with_settled = false` and
`bucket_upper = +∞`, on a clean scratch slice and with every queued edge's candidate
`(edge target & lmask, source_dist + edge_weight)` inside the slice, not a NaN, below `+∞` and
not the sentinel pattern: no queued edge is filtered, and for every queued edge the compacted
pointer-origin stream holds exactly one pair for its target vertex; that pair is the candidate
of a queued edge with this target and its weight is `≤` the edge's own candidate distance, so
it is the edge's own pair `(target, dist_new)` whenever all queued edges with this target have
the same candidate distance. -/
theorem C4_conservation_up_to_dedup (node : CommTarget) (state : SsspState)
    (graph : Graph2DCSR) (stream : Stream) (vertices_pos : VPos)
    (hbf : state.is_bellman_ford_ = false) (hlp : state.is_light_phase_ = true)
    (hws : state.with_settled_ = false) (hbu : state.bucket_upper = 0x7F800000)
    (hclean : ∀ v, v < graph.num_local_verts_ → vertices_pos v = -1)
    (hedge : ∀ b ∈ node.send_ptr, ∀ i, i < b.length →
      (ptr_candidate state graph b i).1 < graph.num_local_verts_ ∧
      (ptr_candidate state graph b i).2 ≠ get_sentinel ∧
      f32isNaN (ptr_candidate state graph b i).2 = false ∧
      f32ge (ptr_candidate state graph b i).2 0x7F800000 = false) :
    ∃ blocks : List PtrBlock,
      words (remove_sentinels_ptr graph
          (collect_targets_ptr node state graph stream vertices_pos).pos
          (collect_targets_ptr node state graph stream vertices_pos).stream
          (collect_targets_ptr node state graph stream vertices_pos).vertices_pos).stream 0
        (remove_sentinels_ptr graph
          (collect_targets_ptr node state graph stream vertices_pos).pos
          (collect_targets_ptr node state graph stream vertices_pos).stream
          (collect_targets_ptr node state graph stream vertices_pos).vertices_pos).pos =
        encodePtr blocks ∧
      ∀ b ∈ node.send_ptr, ∀ i, i < b.length →
        ptr_passes state graph b i = true ∧
        ∃ w, (blockPairs blocks).filter
              (fun x => decide (x.1 = (ptr_candidate state graph b i).1)) =
            [((ptr_candidate state graph b i).1, w)] ∧
          f32le w (ptr_candidate state graph b i).2 = true ∧
          (∃ b' ∈ node.send_ptr, ∃ i', i' < b'.length ∧
            ptr_candidate state graph b' i' = ((ptr_candidate state graph b i).1, w)) ∧
          ((∀ b' ∈ node.send_ptr, ∀ i', i' < b'.length →
              (ptr_candidate state graph b' i').1 = (ptr_candidate state graph b i).1 →
              (ptr_candidate state graph b' i').2 = (ptr_candidate state graph b i).2) →
            w = (ptr_candidate state graph b i).2) := by
  have hpass : ∀ b ∈ node.send_ptr, ∀ i, i < b.length → ptr_passes state graph b i = true := by
    intro b hb i hi
    rw [ptr_passes_light graph b i hbf hlp, hws, hbu, (hedge b hb i hi).2.2.2]
    rfl
  have hC : ∀ c ∈ ptr_candidates node state graph,
      c.1 < graph.num_local_verts_ ∧ c.2 ≠ get_sentinel ∧ f32isNaN c.2 = false := by
    intro c hc
    obtain ⟨b, hb, i, hi, _, rfl⟩ := mem_ptr_candidates.1 hc
    exact ⟨(hedge b hb i hi).1, (hedge b hb i hi).2.1, (hedge b hb i hi).2.2.1⟩
  obtain ⟨ks, hB, hw, hp, _⟩ := run_ptr_merge_spec graph.num_local_verts_ node state graph
    stream vertices_pos hclean (fun c hc => ⟨(hC c hc).1, (hC c hc).2.1⟩)
  refine ⟨_, hw, ?_⟩
  intro b hb i hi
  refine ⟨hpass b hb i hi, ?_⟩
  have hmem : ptr_candidate state graph b i ∈ ptr_candidates node state graph :=
    mem_ptr_candidates.2 ⟨b, hb, i, hi, hpass b hb i hi, rfl⟩
  obtain ⟨w, hw1⟩ := DInv_cover hB.inv _ hmem
  have hmin := DInv_min hB.inv _ hw1
  have hnd : ((blockPairs (compactPtr (readBlocks (collect_targets_ptr node state graph
      stream vertices_pos).stream 0 ks))).map Prod.fst).Nodup := by
    rw [hp]
    exact DInv_nodup hB.inv
  obtain ⟨b', hb', i', hi', _, hc'⟩ := mem_ptr_candidates.1 hmin.1
  refine ⟨w, filter_key_of_nodup hnd (by rw [hp]; exact hw1), ?_, ⟨b', hb', i', hi', hc'.symm⟩,
    ?_⟩
  · exact f32le_of_not_lt (hC _ hmem).2.2 (hC _ hmin.1).2.2 (hmin.2 _ hmem rfl)
  · intro hall
    have := hall b' hb' i' hi' (by rw [← hc'])
    rw [← hc'] at this
    exact this

/-- Witness for the amended C4 on the descriptor of scenario E1. -/
theorem C4_conservation_up_to_dedup_witness :
    (∀ b ∈ e1_node.send_ptr, ∀ i, i < b.length →
      (ptr_candidate conservation_state e1_graph b i).1 < e1_graph.num_local_verts_ ∧
      (ptr_candidate conservation_state e1_graph b i).2 ≠ get_sentinel ∧
      f32isNaN (ptr_candidate conservation_state e1_graph b i).2 = false ∧
      f32ge (ptr_candidate conservation_state e1_graph b i).2 0x7F800000 = false) ∧
    ∃ blocks : List PtrBlock,
      words (remove_sentinels_ptr e1_graph
          (collect_targets_ptr e1_node conservation_state e1_graph (fun _ => 0)
            (fun _ => -1)).pos
          (collect_targets_ptr e1_node conservation_state e1_graph (fun _ => 0)
            (fun _ => -1)).stream
          (collect_targets_ptr e1_node conservation_state e1_graph (fun _ => 0)
            (fun _ => -1)).vertices_pos).stream 0
        (remove_sentinels_ptr e1_graph
          (collect_targets_ptr e1_node conservation_state e1_graph (fun _ => 0)
            (fun _ => -1)).pos
          (collect_targets_ptr e1_node conservation_state e1_graph (fun _ => 0)
            (fun _ => -1)).stream
          (collect_targets_ptr e1_node conservation_state e1_graph (fun _ => 0)
            (fun _ => -1)).vertices_pos).pos =
        encodePtr blocks ∧
      ∀ b ∈ e1_node.send_ptr, ∀ i, i < b.length →
        ptr_passes conservation_state e1_graph b i = true ∧
        ∃ w, (blockPairs blocks).filter
              (fun x => decide (x.1 = (ptr_candidate conservation_state e1_graph b i).1)) =
            [((ptr_candidate conservation_state e1_graph b i).1, w)] ∧
          f32le w (ptr_candidate conservation_state e1_graph b i).2 = true ∧
          (∃ b' ∈ e1_node.send_ptr, ∃ i', i' < b'.length ∧
            ptr_candidate conservation_state e1_graph b' i' =
              ((ptr_candidate conservation_state e1_graph b i).1, w)) ∧
          ((∀ b' ∈ e1_node.send_ptr, ∀ i', i' < b'.length →
              (ptr_candidate conservation_state e1_graph b' i').1 =
                (ptr_candidate conservation_state e1_graph b i).1 →
              (ptr_candidate conservation_state e1_graph b' i').2 =
                (ptr_candidate conservation_state e1_graph b i).2) →
            w = (ptr_candidate conservation_state e1_graph b i).2) :=
  ⟨by decide,
    C4_conservation_up_to_dedup e1_node conservation_state e1_graph (fun _ => 0) (fun _ => -1)
      rfl rfl rfl rfl (fun _ _ => rfl) (by decide)⟩

/-- C6, refuted as stated: in the light phase of scenario E3 (`bucket_upper = 10.0`), a
descriptor whose `source_dist` is a NaN has the candidate weight `NaN + 1.0`, a NaN;
`NaN >= 10.0` is false, so the edge passes the filter: `collect_targets_ptr` emits the pair
of vertex 1, `remove_sentinels_ptr` keeps it, and its weight `w` does not satisfy
`w < bucket_upper`. -/
theorem C6_nan_weight_counterexample :
    e3_state.is_bellman_ford_ = false ∧ e3_state.is_light_phase_ = true ∧
    ptr_passes e3_state e3_graph ⟨0, 0x0000000100000002, 0x7FC00000, 1⟩ 0 = true ∧
    (collect_targets_ptr nan_dist_node e3_state e3_graph (fun _ => 0) (fun _ => -1)).pos = 5 ∧
    words (collect_targets_ptr nan_dist_node e3_state e3_graph (fun _ => 0)
      (fun _ => -1)).stream 0 4 = [1, 2, 2, 1] ∧
    f32isNaN ((collect_targets_ptr nan_dist_node e3_state e3_graph (fun _ => 0)
      (fun _ => -1)).stream 4) = true ∧
    f32lt ((collect_targets_ptr nan_dist_node e3_state e3_graph (fun _ => 0)
      (fun _ => -1)).stream 4) e3_state.bucket_upper = false ∧
    (run_ptr_merge nan_dist_node e3_state e3_graph (fun _ => 0) (fun _ => -1)).pos = 5 ∧
    words (run_ptr_merge nan_dist_node e3_state e3_graph (fun _ => 0)
      (fun _ => -1)).stream 0 4 = [1, 2, 2, 1] ∧
    f32lt ((run_ptr_merge nan_dist_node e3_state e3_graph (fun _ => 0)
      (fun _ => -1)).stream 4) e3_state.bucket_upper = false := by
  decide

/-- C6, amended (bucket filter law, light phase).  With `is_bellman_ford = false` and
`is_light_phase = true`: an edge whose `source_dist + edge_weight >= bucket_upper` does not
pass the filter; whenever an edge step of `collect_targets_ptr` emits a pair, its weight `w`
is not `>= bucket_upper`; on a clean scratch slice every pair left after
`remove_sentinels_ptr` has a weight that is not `>= bucket_upper`, and `w < bucket_upper`
when neither `w` nor `bucket_upper` is a NaN.  Scenario E3 (`bucket_upper = 10.0`,
`source_dist = 8.0`, weights `1.0` and `3.0`) leaves the first edge only, as `(1, 9.0)`. -/
theorem C6_light_bucket_filter (node : CommTarget) (state : SsspState) (graph : Graph2DCSR)
    (stream : Stream) (vertices_pos : VPos)
    (hbf : state.is_bellman_ford_ = false) (hlp : state.is_light_phase_ = true)
    (hclean : ∀ v, v < graph.num_local_verts_ → vertices_pos v = -1)
    (hcand : ∀ c ∈ ptr_candidates node state graph,
      c.1 < graph.num_local_verts_ ∧ c.2 ≠ get_sentinel) :
    (∀ (b : PointerData) (i : Nat),
      f32ge (f32add (graph.edge_weight_array_ (b.ptr + i)) b.dist) state.bucket_upper = true →
      ptr_passes state graph b i = false) ∧
    (∀ (b : PointerData) (st : MergeState) (i : Nat),
      (ptr_edge state graph b st i).pos ≠ st.pos →
      (ptr_edge state graph b st i).stream (st.pos + 1) =
        f32add (graph.edge_weight_array_ (b.ptr + i)) b.dist ∧
      f32ge ((ptr_edge state graph b st i).stream (st.pos + 1)) state.bucket_upper = false) ∧
    (∃ blocks : List PtrBlock,
      words (remove_sentinels_ptr graph
          (collect_targets_ptr node state graph stream vertices_pos).pos
          (collect_targets_ptr node state graph stream vertices_pos).stream
          (collect_targets_ptr node state graph stream vertices_pos).vertices_pos).stream 0
        (remove_sentinels_ptr graph
          (collect_targets_ptr node state graph stream vertices_pos).pos
          (collect_targets_ptr node state graph stream vertices_pos).stream
          (collect_targets_ptr node state graph stream vertices_pos).vertices_pos).pos =
        encodePtr blocks ∧
      ∀ x ∈ blockPairs blocks,
        f32ge x.2 state.bucket_upper = false ∧
        (f32isNaN x.2 = false → f32isNaN state.bucket_upper = false →
          f32lt x.2 state.bucket_upper = true)) ∧
    words (remove_sentinels_ptr e3_graph
        (collect_targets_ptr e3_node e3_state e3_graph (fun _ => 0) (fun _ => -1)).pos
        (collect_targets_ptr e3_node e3_state e3_graph (fun _ => 0) (fun _ => -1)).stream
        (collect_targets_ptr e3_node e3_state e3_graph (fun _ => 0)
          (fun _ => -1)).vertices_pos).stream 0
      (remove_sentinels_ptr e3_graph
        (collect_targets_ptr e3_node e3_state e3_graph (fun _ => 0) (fun _ => -1)).pos
        (collect_targets_ptr e3_node e3_state e3_graph (fun _ => 0) (fun _ => -1)).stream
        (collect_targets_ptr e3_node e3_state e3_graph (fun _ => 0)
          (fun _ => -1)).vertices_pos).pos = [1, 2, 2, 1, 0x41100000] := by
  have hcd : ∀ (b : PointerData) (i : Nat), (ptr_candidate state graph b i).2 =
      f32add (graph.edge_weight_array_ (b.ptr + i)) b.dist := by
    intro b i
    simp [ptr_candidate, hbf]
  have hpc : ∀ (b : PointerData) (i : Nat), ptr_passes state graph b i = true →
      f32ge (ptr_candidate state graph b i).2 state.bucket_upper = false := by
    intro b i hp
    rw [ptr_passes_light graph b i hbf hlp] at hp
    simp only [Bool.and_eq_true, Bool.not_eq_true'] at hp
    exact hp.2
  refine ⟨?_, ?_, ?_, by decide⟩
  · intro b i hge
    cases hp : ptr_passes state graph b i with
    | false => rfl
    | true =>
      have := hpc b i hp
      rw [hcd, hge] at this
      exact absurd this (by decide)
  · intro b st i hne
    obtain ⟨e1, _, _, e4⟩ := ptr_edge_emits state graph b st i hne
    rw [e4]
    exact ⟨hcd b i, hpc b i e1⟩
  · obtain ⟨ks, hB, hw, hp, _⟩ := run_ptr_merge_spec graph.num_local_verts_ node state graph
      stream vertices_pos hclean hcand
    refine ⟨_, hw, ?_⟩
    intro x hx
    rw [hp] at hx
    obtain ⟨b, _, i, _, hpass, rfl⟩ := mem_ptr_candidates.1 (DInv_min hB.inv x hx).1
    exact ⟨hpc b i hpass, fun n1 n2 => f32lt_of_not_ge n1 n2 (hpc b i hpass)⟩

/-- Witness for C6 on scenario E3. -/
theorem C6_light_bucket_filter_witness :
    (∀ c ∈ ptr_candidates e3_node e3_state e3_graph,
      c.1 < e3_graph.num_local_verts_ ∧ c.2 ≠ get_sentinel) ∧
    ∃ blocks : List PtrBlock,
      words (remove_sentinels_ptr e3_graph
          (collect_targets_ptr e3_node e3_state e3_graph (fun _ => 0) (fun _ => -1)).pos
          (collect_targets_ptr e3_node e3_state e3_graph (fun _ => 0) (fun _ => -1)).stream
          (collect_targets_ptr e3_node e3_state e3_graph (fun _ => 0)
            (fun _ => -1)).vertices_pos).stream 0
        (remove_sentinels_ptr e3_graph
          (collect_targets_ptr e3_node e3_state e3_graph (fun _ => 0) (fun _ => -1)).pos
          (collect_targets_ptr e3_node e3_state e3_graph (fun _ => 0) (fun _ => -1)).stream
          (collect_targets_ptr e3_node e3_state e3_graph (fun _ => 0)
            (fun _ => -1)).vertices_pos).pos =
        encodePtr blocks ∧
      ∀ x ∈ blockPairs blocks,
        f32ge x.2 e3_state.bucket_upper = false ∧
        (f32isNaN x.2 = false → f32isNaN e3_state.bucket_upper = false →
          f32lt x.2 e3_state.bucket_upper = true) :=
  ⟨by decide,
    (C6_light_bucket_filter e3_node e3_state e3_graph (fun _ => 0) (fun _ => -1) rfl rfl
      (fun _ _ => rfl) (by decide)).2.2.1⟩

/-- C7 (settled filter).  In the Bellman-Ford phase, and in the light and heavy phases when
`with_settled` is set: an edge for which `target_is_settled` holds does not pass the filter;
whenever an edge step of `collect_targets_ptr` emits a pair, it is the candidate of an edge
whose target is not settled; on a clean scratch slice every pair left after
`remove_sentinels_ptr` is the candidate of a queued edge whose target is not settled, so a
local vertex all of whose queued edges are settled has no pair; and in the Bellman-Ford phase
every queued edge that is not settled is a dedup candidate: its vertex has a pair that the
edge's distance does not undercut.  Scenario E4 (vertex 7 settled) drops both edges to
vertex 7 and leaves `(2, 4.0)`. -/
theorem C7_settled_filter (node : CommTarget) (state : SsspState) (graph : Graph2DCSR)
    (stream : Stream) (vertices_pos : VPos)
    (hphase : state.is_bellman_ford_ = true ∨ state.with_settled_ = true)
    (hclean : ∀ v, v < graph.num_local_verts_ → vertices_pos v = -1)
    (hcand : ∀ c ∈ ptr_candidates node state graph,
      c.1 < graph.num_local_verts_ ∧ c.2 ≠ get_sentinel) :
    (∀ (b : PointerData) (i : Nat),
      state.target_is_settled (graph.edge_array_ (b.ptr + i)) = true →
      ptr_passes state graph b i = false) ∧
    (∀ (b : PointerData) (st : MergeState) (i : Nat),
      (ptr_edge state graph b st i).pos ≠ st.pos →
      state.target_is_settled (graph.edge_array_ (b.ptr + i)) = false ∧
      ((ptr_edge state graph b st i).stream st.pos,
        (ptr_edge state graph b st i).stream (st.pos + 1)) = ptr_candidate state graph b i) ∧
    (∃ blocks : List PtrBlock,
      words (remove_sentinels_ptr graph
          (collect_targets_ptr node state graph stream vertices_pos).pos
          (collect_targets_ptr node state graph stream vertices_pos).stream
          (collect_targets_ptr node state graph stream vertices_pos).vertices_pos).stream 0
        (remove_sentinels_ptr graph
          (collect_targets_ptr node state graph stream vertices_pos).pos
          (collect_targets_ptr node state graph stream vertices_pos).stream
          (collect_targets_ptr node state graph stream vertices_pos).vertices_pos).pos =
        encodePtr blocks ∧
      (∀ x ∈ blockPairs blocks, ∃ b ∈ node.send_ptr, ∃ i, i < b.length ∧
        state.target_is_settled (graph.edge_array_ (b.ptr + i)) = false ∧
        x = ptr_candidate state graph b i) ∧
      (∀ v, (∀ b ∈ node.send_ptr, ∀ i, i < b.length →
          (ptr_candidate state graph b i).1 = v →
          state.target_is_settled (graph.edge_array_ (b.ptr + i)) = true) →
        ∀ x ∈ blockPairs blocks, x.1 ≠ v) ∧
      (state.is_bellman_ford_ = true → ∀ b ∈ node.send_ptr, ∀ i, i < b.length →
        state.target_is_settled (graph.edge_array_ (b.ptr + i)) = false →
        ptr_candidate state graph b i ∈ ptr_candidates node state graph ∧
        ∃ w, ((ptr_candidate state graph b i).1, w) ∈ blockPairs blocks ∧
          f32lt (ptr_candidate state graph b i).2 w = false)) ∧
    words (remove_sentinels_ptr e4_graph
        (collect_targets_ptr e4_node e4_state e4_graph (fun _ => 0) (fun _ => -1)).pos
        (collect_targets_ptr e4_node e4_state e4_graph (fun _ => 0) (fun _ => -1)).stream
        (collect_targets_ptr e4_node e4_state e4_graph (fun _ => 0)
          (fun _ => -1)).vertices_pos).stream 0
      (remove_sentinels_ptr e4_graph
        (collect_targets_ptr e4_node e4_state e4_graph (fun _ => 0) (fun _ => -1)).pos
        (collect_targets_ptr e4_node e4_state e4_graph (fun _ => 0) (fun _ => -1)).stream
        (collect_targets_ptr e4_node e4_state e4_graph (fun _ => 0)
          (fun _ => -1)).vertices_pos).pos = [1, 2, 2, 2, 0x40800000] := by
  refine ⟨?_, ?_, ?_, by decide⟩
  · intro b i hs
    cases hp : ptr_passes state graph b i with
    | false => rfl
    | true =>
      have := ptr_passes_not_settled graph b i hphase hp
      rw [hs] at this
      exact absurd this (by decide)
  · intro b st i hne
    obtain ⟨e1, _, e3, e4⟩ := ptr_edge_emits state graph b st i hne
    exact ⟨ptr_passes_not_settled graph b i hphase e1, by rw [e3, e4]⟩
  · obtain ⟨ks, hB, hw, hp, _⟩ := run_ptr_merge_spec graph.num_local_verts_ node state graph
      stream vertices_pos hclean hcand
    have hsrc : ∀ x ∈ blockPairs (compactPtr (readBlocks (collect_targets_ptr node state graph
        stream vertices_pos).stream 0 ks)), ∃ b ∈ node.send_ptr, ∃ i, i < b.length ∧
        state.target_is_settled (graph.edge_array_ (b.ptr + i)) = false ∧
        x = ptr_candidate state graph b i := by
      intro x hx
      rw [hp] at hx
      obtain ⟨b, hb, i, hi, hpass, rfl⟩ := mem_ptr_candidates.1 (DInv_min hB.inv x hx).1
      exact ⟨b, hb, i, hi, ptr_passes_not_settled graph b i hphase hpass, rfl⟩
    refine ⟨_, hw, hsrc, ?_, ?_⟩
    · intro v hall x hx hxv
      obtain ⟨b, hb, i, hi, hns, rfl⟩ := hsrc x hx
      have := hall b hb i hi hxv
      rw [hns] at this
      exact absurd this (by decide)
    · intro hbf b hb i hi hns
      have hmem : ptr_candidate state graph b i ∈ ptr_candidates node state graph := by
        apply mem_ptr_candidates.2
        refine ⟨b, hb, i, hi, ?_, rfl⟩
        rw [ptr_passes_bellman_ford graph b i hbf, hns]
        rfl
      refine ⟨hmem, ?_⟩
      obtain ⟨w, hw1⟩ := DInv_cover hB.inv _ hmem
      exact ⟨w, by rw [hp]; exact hw1, (DInv_min hB.inv _ hw1).2 _ hmem rfl⟩

/-- Witness for C7 on scenario E4. -/
theorem C7_settled_filter_witness :
    (e4_state.is_bellman_ford_ = true ∧
      ∀ c ∈ ptr_candidates e4_node e4_state e4_graph,
        c.1 < e4_graph.num_local_verts_ ∧ c.2 ≠ get_sentinel) ∧
    ∀ (b : PointerData) (i : Nat),
      e4_state.target_is_settled (e4_graph.edge_array_ (b.ptr + i)) = true →
      ptr_passes e4_state e4_graph b i = false :=
  ⟨⟨rfl, by decide⟩,
    (C7_settled_filter e4_node e4_state e4_graph (fun _ => 0) (fun _ => -1) (Or.inl rfl)
      (fun _ _ => rfl) (by decide)).1⟩

/-- C10, the code at the failing input: a single rank whose only comm target has one queued
`PointerData` of length 0 and no buffer data.  The estimate `get_node_send_length_ptr` is 0,
so no round schedules the target, the loop exits in round 1, and the descriptor is still in
`send_ptr` (the queue is not empty, as the closing assertion of `run_with_both` requires). -/
theorem C10_zero_length_descriptor_stays_queued :
    get_node_send_length_ptr 0 empty_descriptor_node (e1_state 0) e1_graph = 0 ∧
    count_pass single_rank_env 0
      { node_ := [empty_descriptor_node], node_send_lengths_ptr := [0]
        node_send_lengths_buffer := [0], stream := fun _ => 0, vertices_pos := fun _ => -1 } =
      [0] ∧
    final_queues (run_with_both single_rank_env e1_graph (e1_state 0) [empty_descriptor_node]
      (fun _ => 0) (fun _ => -1) 2) = some [([⟨0, 0, 0, 0⟩], [])] := by
  decide

/-- C15 (`put_ptr`).  A call with `target` inside `node_` appends exactly the descriptor
`PointerData{ptr, header, dist, length}` at the end of `node_[target].send_ptr` and leaves the
target's `send_data`, `cur_buf`, `reserved_size_`, `filled_size_` and every other comm target
as they were; after any sequence of calls the queue of a target is its old queue followed by
the descriptors of the calls for this target, in call order. -/
theorem C15_put_ptr_appends (node_ : List CommTarget) (ptr length header dist target : Nat)
    (h : target < node_.length) :
    (∃ node node',
      node_[target]? = some node ∧
      (put_ptr node_ ptr length header dist target)[target]? = some node' ∧
      node'.send_ptr = node.send_ptr ++ [⟨ptr, header, dist, length⟩] ∧
      node'.send_data = node.send_data ∧ node'.cur_buf = node.cur_buf ∧
      node'.reserved_size_ = node.reserved_size_ ∧ node'.filled_size_ = node.filled_size_) ∧
    (put_ptr node_ ptr length header dist target).length = node_.length ∧
    (∀ j, j ≠ target → (put_ptr node_ ptr length header dist target)[j]? = node_[j]?) ∧
    (∀ (calls : List PtrCall) (t : Nat),
      ((put_ptr_calls node_ calls)[t]?).map (fun n => n.send_ptr) =
        (node_[t]?).map (fun n => n.send_ptr ++
          (calls.filter (fun c => decide (c.target = t))).map
            (fun c => (⟨c.ptr, c.header, c.dist, c.length⟩ : PointerData)))) := by
  refine ⟨?_, by simp [put_ptr], ?_, ?_⟩
  · have hn : node_[target]? = some node_[target] := List.getElem?_eq_getElem h
    refine ⟨node_[target],
      { node_[target] with
        send_ptr := node_[target].send_ptr ++ [⟨ptr, header, dist, length⟩] },
      hn, ?_, rfl, rfl, rfl, rfl, rfl⟩
    rw [put_ptr, List.getElem?_modify, hn]
    simp
  · intro j hj
    rw [put_ptr, List.getElem?_modify]
    cases node_[j]? with
    | none => rfl
    | some n => simp [Ne.symm hj]
  · intro calls t
    rw [(put_ptr_calls_spec calls node_ t).2]
    cases node_[t]? <;> rfl

/-- Witness for C15: a call for target 0 of two comm targets. -/
theorem C15_put_ptr_appends_witness :
    (∃ node node',
      two_targets[0]? = some node ∧
      (put_ptr two_targets 16 3 0x0000000100000002 0x3F800000 0)[0]? = some node' ∧
      node'.send_ptr = node.send_ptr ++ [⟨16, 0x0000000100000002, 0x3F800000, 3⟩] ∧
      node'.send_data = node.send_data ∧ node'.cur_buf = node.cur_buf ∧
      node'.reserved_size_ = node.reserved_size_ ∧ node'.filled_size_ = node.filled_size_) ∧
    (put_ptr two_targets 16 3 0x0000000100000002 0x3F800000 0).length = two_targets.length ∧
    (∀ j, j ≠ 0 → (put_ptr two_targets 16 3 0x0000000100000002 0x3F800000 0)[j]? =
      two_targets[j]?) ∧
    (∀ (calls : List PtrCall) (t : Nat),
      ((put_ptr_calls two_targets calls)[t]?).map (fun n => n.send_ptr) =
        (two_targets[t]?).map (fun n => n.send_ptr ++
          (calls.filter (fun c => decide (c.target = t))).map
            (fun c => (⟨c.ptr, c.header, c.dist, c.length⟩ : PointerData)))) :=
  C15_put_ptr_appends two_targets 16 3 0x0000000100000002 0x3F800000 0 (by decide)

/-- C14 (`put` then `flush`, one producer thread).  From a freshly constructed and prepared
comm target, every sequence of `put` calls with `0 < length ≤ buffer_size_` returns, and after
`flush` the queued buffers, each cut to its recorded length, hold the put payloads in call
order: the calls split into consecutive groups, buffer `k` holds exactly the payloads of group
`k` one after the other (so each payload is contiguous inside one buffer), every recorded
length is `≤ buffer_size_`, and the concatenation of the buffers is the concatenation of the
payloads. -/
theorem C14_put_flush_concat (buffer_size_ : Nat) (get_buffer : Nat → Nat) (calls : List Buffer)
    (h : ∀ c ∈ calls, 0 < c.length ∧ c.length ≤ buffer_size_) :
    ∃ (node : CommTarget) (groups : List (List (List Nat))),
      put_calls buffer_size_ get_buffer (prepare buffer_size_ new_target) calls = some node ∧
      groups.flatten = calls.map buffer_words ∧
      (flush node).send_data.map buffer_words = groups.map List.flatten ∧
      (∀ b ∈ (flush node).send_data, b.length ≤ buffer_size_) ∧
      (flush node).send_data.flatMap buffer_words = (calls.map buffer_words).flatten ∧
      (flush node).cur_buf = none := by
  obtain ⟨node, groups, cur, hp, hinv⟩ :=
    @PutInv_calls buffer_size_ get_buffer calls _ _ _ _ (PutInv_prepare buffer_size_) h
  obtain ⟨⟨_, hfb⟩, hsplit, hq, hbound, hcur⟩ := hinv
  simp only [List.nil_append] at hsplit
  cases hcb : node.cur_buf with
  | none =>
    rw [hcb] at hcur
    have hfl : flush node = node := by simp [flush, hcb]
    have hg : groups.flatten = calls.map buffer_words := by
      rw [← hsplit, hcur.1]; simp
    refine ⟨node, groups, hp, hg, by rw [hfl]; exact hq, by rw [hfl]; exact hbound, ?_,
      by rw [hfl]; exact hcb⟩
    rw [hfl, ← hg, List.flatMap_def, hq]
    simp [List.flatten_flatten]
  | some buf =>
    rw [hcb] at hcur
    have hfl : (flush node).send_data = node.send_data ++ [⟨buf.ptr, node.filled_size_⟩] := by
      simp [flush, hcb]
    have hg : (groups ++ [cur]).flatten = calls.map buffer_words := by
      rw [← hsplit]; simp
    have hq2 : (flush node).send_data.map buffer_words = (groups ++ [cur]).map List.flatten := by
      rw [hfl]; simp [hq, buffer_words, hcur.1]
    refine ⟨node, groups ++ [cur], hp, hg, hq2, ?_, ?_, by simp [flush, hcb]⟩
    · intro b hb
      rw [hfl] at hb
      simp only [List.mem_append, List.mem_singleton] at hb
      rcases hb with hb | hb
      · exact hbound b hb
      · rw [hb]; exact hfb
    · rw [← hg, List.flatMap_def, hq2]
      simp [List.flatten_flatten]

/-- Witness for C14: three calls of 2, 2 and 3 words with `buffer_size_ = 4`. -/
theorem C14_put_flush_concat_witness :
    (∀ c ∈ three_puts, 0 < c.length ∧ c.length ≤ 4) ∧
    ∃ (node : CommTarget) (groups : List (List (List Nat))),
      put_calls 4 (fun _ => 0) (prepare 4 new_target) three_puts = some node ∧
      groups.flatten = three_puts.map buffer_words ∧
      (flush node).send_data.map buffer_words = groups.map List.flatten ∧
      (∀ b ∈ (flush node).send_data, b.length ≤ 4) ∧
      (flush node).send_data.flatMap buffer_words = (three_puts.map buffer_words).flatten ∧
      (flush node).cur_buf = none :=
  ⟨by decide, C14_put_flush_concat 4 (fun _ => 0) three_puts (by decide)⟩

/-- C20, the code at the failing input: in the heavy phase with `NODE_SEND_COUNT_TYPE == 1`
the estimate of `get_node_send_length_ptr` for the descriptor of scenario E1 (no edge below
`bucket_upper = 0.0`) is 3 words, while `collect_targets_ptr` writes 11 words for it.  For
`NODE_SEND_COUNT_TYPE ≠ 1`, and in the Bellman-Ford and light phases for every setting, the
estimate is at least the number of words `collect_targets_ptr` writes. -/
theorem C20_heavy_estimate_too_small :
    get_node_send_length_ptr 1 e1_node (e1_state 0) e1_graph = 3 ∧
    (collect_targets_ptr e1_node (e1_state 0) e1_graph (fun _ => 0) (fun _ => -1)).pos = 11 ∧
    ∀ (T : Nat) (node : CommTarget) (state : SsspState) (graph : Graph2DCSR) (stream : Stream)
      (vertices_pos : VPos),
      T ≠ 1 ∨ state.is_bellman_ford_ = true ∨ state.is_light_phase_ = true →
      (collect_targets_ptr node state graph stream vertices_pos).pos ≤
        get_node_send_length_ptr T node state graph := by
  refine ⟨by decide, by decide, ?_⟩
  intro T node state graph stream vertices_pos h
  exact send_length_ptr_covers T state graph h node.send_ptr _ 0 (Nat.le_refl _)

/-- C18, refuted as stated: in the light phase of scenario E3 the descriptor has non-zero
length and header `0x00000001_00000002`; the first word `collect_targets_ptr` emits for its
block is `1`, the high half of the header as it is: the `0x80000000` bit is not set and the
word is not `hdr_hi | 0x80000000`.  The second word is the low half `2`. -/
theorem C18_flag_counterexample :
    e3_state.is_light_phase_ = true ∧
    e3_node.send_ptr = [⟨0, 0x0000000100000002, 0x41000000, 2⟩] ∧
    (collect_targets_ptr e3_node e3_state e3_graph (fun _ => 0) (fun _ => -1)).stream 0 = 1 ∧
    (collect_targets_ptr e3_node e3_state e3_graph (fun _ => 0) (fun _ => -1)).stream 0 &&&
      0x80000000 = 0 ∧
    (collect_targets_ptr e3_node e3_state e3_graph (fun _ => 0) (fun _ => -1)).stream 0 ≠
      ((0x0000000100000002 / 2 ^ 32) % 2 ^ 32) ||| 0x80000000 ∧
    (collect_targets_ptr e3_node e3_state e3_graph (fun _ => 0) (fun _ => -1)).stream 1 = 2 := by
  decide

/-- C18, amended: on a clean scratch slice, with every candidate target inside the slice and
no candidate distance equal to the sentinel pattern, the stream written by
`collect_targets_ptr` is laid out in blocks, one for each queued descriptor of non-zero length
in queue order, and the first two words of a block are the high 32 bits and the low 32 bits
of the descriptor's 64-bit header, unchanged: the `0x80000000` bit of the first word is set
exactly when bit 63 of the header is set. -/
theorem C18_header_words (node : CommTarget) (state : SsspState) (graph : Graph2DCSR)
    (stream : Stream) (vertices_pos : VPos)
    (hclean : ∀ v, v < graph.num_local_verts_ → vertices_pos v = -1)
    (hcand : ∀ c ∈ ptr_candidates node state graph,
      c.1 < graph.num_local_verts_ ∧ c.2 ≠ get_sentinel) :
    ∃ ks : List Nat,
      PtrLay (collect_targets_ptr node state graph stream vertices_pos).stream 0 ks ∧
      layEnd 0 ks = (collect_targets_ptr node state graph stream vertices_pos).pos ∧
      (readBlocks (collect_targets_ptr node state graph stream vertices_pos).stream 0 ks).map
          (fun b => (b.1, b.2.1)) =
        (node.send_ptr.filter (fun b => decide (b.length ≠ 0))).map
          (fun b => ((b.header / 2 ^ 32) % 2 ^ 32, b.header % 2 ^ 32)) ∧
      ∀ b : PointerData,
        (((b.header / 2 ^ 32) % 2 ^ 32) &&& 0x80000000 ≠ 0 ↔ b.header.testBit 63 = true) := by
  have h0 : BInv graph.num_local_verts_ ⟨stream, vertices_pos, 0⟩ [] [] :=
    ⟨trivial, rfl, DInv_init _ stream vertices_pos hclean⟩
  obtain ⟨ks, hk, he⟩ := BInv_blocks_headers state graph node.send_ptr h0 (by
    intro b hb c hcm
    apply hcand
    simp only [ptr_candidates, List.mem_flatMap]
    exact ⟨b, hb, hcm⟩)
  refine ⟨ks, hk.lay, hk.pos.symm, ?_, fun b => header_flag_iff b.header⟩
  rw [readBlocks_headers]
  simpa [hdrPos, header_words] using he

/-- Witness for the amended C18 on scenario E3. -/
theorem C18_header_words_witness :
    (∀ c ∈ ptr_candidates e3_node e3_state e3_graph,
      c.1 < e3_graph.num_local_verts_ ∧ c.2 ≠ get_sentinel) ∧
    ∃ ks : List Nat,
      PtrLay (collect_targets_ptr e3_node e3_state e3_graph (fun _ => 0)
        (fun _ => -1)).stream 0 ks ∧
      layEnd 0 ks =
        (collect_targets_ptr e3_node e3_state e3_graph (fun _ => 0) (fun _ => -1)).pos ∧
      (readBlocks (collect_targets_ptr e3_node e3_state e3_graph (fun _ => 0)
          (fun _ => -1)).stream 0 ks).map (fun b => (b.1, b.2.1)) =
        (e3_node.send_ptr.filter (fun b => decide (b.length ≠ 0))).map
          (fun b => ((b.header / 2 ^ 32) % 2 ^ 32, b.header % 2 ^ 32)) ∧
      ∀ b : PointerData,
        (((b.header / 2 ^ 32) % 2 ^ 32) &&& 0x80000000 ≠ 0 ↔ b.header.testBit 63 = true) :=
  ⟨by decide,
    C18_header_words e3_node e3_state e3_graph (fun _ => 0) (fun _ => -1) (fun _ _ => rfl)
      (by decide)⟩

/-- C11, the code at the failing input: a single rank with one thread whose only comm target
has the pointer block of scenario E1 queued and no buffer data.  The estimate of `run_ptr` is
taken with `get_node_send_length_buffer`, so it is 0; the count pass leaves `counts[0] = 0`,
the expand pass skips the target, and `run_ptr` returns in round 1 with the descriptor still
in `send_ptr`.  The same happens for every content of the pointer queues: without queued
buffer data `run_ptr` returns in round 1 with all comm targets unchanged. -/
theorem C11_run_ptr_leaves_queue :
    e1_node.send_data = [] ∧
    (run_ptr_count_pass single_rank_env 1
      ⟨[e1_node], [get_node_send_length_buffer e1_node], fun _ => 0, fun _ => -1⟩).counts =
      [0] ∧
    run_ptr_final_queues
        (run_ptr single_rank_env 1 e1_graph (e1_state 0) [e1_node] (fun _ => 0) (fun _ => -1)
          2) =
      some [([⟨0, 0x0000000100000002, 0x3F800000, 4⟩], 0)] ∧
    ∀ (env : A2AEnv) (n_threads : Nat) (graph : Graph2DCSR) (state : SsspState)
      (node_ : List CommTarget) (stream : Stream) (vertices_pos : VPos) (fuel : Nat),
      (∀ node ∈ node_, node.send_data = []) → env.others_have_data 1 = false →
      run_ptr_final_queues
          (run_ptr env n_threads graph state node_ stream vertices_pos (fuel + 2)) =
        some (node_.map (fun n => (n.send_ptr, n.send_data.length))) := by
  refine ⟨rfl, by decide, by decide, ?_⟩
  intro env n_threads graph state node_ stream vertices_pos fuel hd ho
  obtain ⟨lens, h⟩ :=
    run_ptr_no_buffer_data env n_threads graph state node_ stream vertices_pos fuel hd ho
  rw [h]
  rfl

/-- C12, the code at the failing input: two destinations, each with the pointer block of
scenario E1, in the heavy phase with `NODE_SEND_COUNT_TYPE == 1` (clean scratch, every
candidate vertex inside the slice, no sentinel weight).  The estimates are 3 words each, the
counts are `[4, 4]` and the slabs start at the offsets 0 and 4.  The merge of destination 0
writes `length_ptr = 11` words, more than `counts[0] = 4` (the assertion
`length_ptr <= counts[i]` does not hold), and leaves the slab `[9] ++ P` of
`send_lengths[0] = 10` words at offset 0; the iteration of destination 1 then writes its slab
from offset 4 on, so that when the expand pass has ended the 10 words at `offsets[0]` are
`9, 1, 2, 6, 9, 1, 2, 6, 2, 4.0` and not `[9] ++ P`.  With `NODE_SEND_COUNT_TYPE == 0` the
counts of the same destinations are `[12, 12]` and both slabs are `[9] ++ P` when the pass has
ended.

In general, outside the heavy phase with `NODE_SEND_COUNT_TYPE == 1`: let the scratch of `N`
entries hold the slice of every thread and be clean on entry of `run_with_both`, and let every
flushed comm target have well-formed queued buffers, every candidate vertex inside a slice and
no pointer candidate with the sentinel weight.  Then in every round `loop`, for every
destination `i` whose final `send_lengths[i]` is not zero, there are pointer blocks `blocks`
(none empty, their pairs pointer-origin candidates of `node_[i]` at the start of the round) and
pairs `out` (their payload pairs buffer-origin candidates) such that, with
`P = encodePtr blocks` and `B = flattenPairs out`: when the expand pass of the round has ended,
the `send_lengths[i]` words of the staging buffer at `offsets[i]` are `|P|` followed by `P` and
then `B`; `send_lengths[i] = 1 + |P| + |B|` is at most `counts[i]`; `P` is empty without
`use_ptr` and `B` is empty without `use_buffer`; and the receive loop, for a source whose slab
of that length holds these words, calls `received` with exactly `P` and `is_ptr = true`, then
with exactly `B` and `is_ptr = false`. -/
theorem C12_slab_overrun :
    ((∀ n ∈ [e1_node, e1_node].map flush,
        wellFormedBuf (queued_words n) = true ∧
        (∀ x ∈ ptr_candidates n (e1_state 0) e1_graph ++ buffer_candidates n e1_graph,
          x.1 < e1_graph.num_local_verts_) ∧
        ∀ x ∈ ptr_candidates n (e1_state 0) e1_graph, x.2 ≠ get_sentinel) ∧
      (run_with_both_init overrun_env e1_graph (e1_state 0) [e1_node, e1_node] (fun _ => 0)
        (fun _ => -1)).node_send_lengths_ptr = [3, 3] ∧
      count_pass overrun_env 0 (run_with_both_init overrun_env e1_graph (e1_state 0)
        [e1_node, e1_node] (fun _ => 0) (fun _ => -1)) = [4, 4] ∧
      scatter_offset [4, 4] 0 = 0 ∧ scatter_offset [4, 4] 1 = 4 ∧
      (run_with_both_merge false e1_node (e1_state 0) e1_graph true false
        (shift (upd (fun _ => 0) 0 0) 1) (shift (fun _ => -1) 0)).length_ptr = 11 ∧
      (expand_acc overrun_env e1_graph (e1_state 0) [4, 4]
        (run_with_both_init overrun_env e1_graph (e1_state 0) [e1_node, e1_node] (fun _ => 0)
          (fun _ => -1)) 1).2 = [10, 4] ∧
      words (expand_acc overrun_env e1_graph (e1_state 0) [4, 4]
        (run_with_both_init overrun_env e1_graph (e1_state 0) [e1_node, e1_node] (fun _ => 0)
          (fun _ => -1)) 1).1.stream 0 10 =
        [9, 1, 2, 6, 2, 0x40800000, 1, 0x40200000, 3, 0x40A00000] ∧
      (expand_pass overrun_env e1_graph (e1_state 0) [4, 4]
        (run_with_both_init overrun_env e1_graph (e1_state 0) [e1_node, e1_node] (fun _ => 0)
          (fun _ => -1))).2 = [10, 10] ∧
      words (expand_pass overrun_env e1_graph (e1_state 0) [4, 4]
        (run_with_both_init overrun_env e1_graph (e1_state 0) [e1_node, e1_node] (fun _ => 0)
          (fun _ => -1))).1.stream 0 10 =
        [9, 1, 2, 6, 9, 1, 2, 6, 2, 0x40800000]) ∧
    (count_pass two_dest_env 0 (run_with_both_init two_dest_env e1_graph (e1_state 0)
        [e1_node, e1_node] (fun _ => 0) (fun _ => -1)) = [12, 12] ∧
      (expand_pass two_dest_env e1_graph (e1_state 0) [12, 12]
        (run_with_both_init two_dest_env e1_graph (e1_state 0) [e1_node, e1_node]
          (fun _ => 0) (fun _ => -1))).2 = [10, 10] ∧
      words (expand_pass two_dest_env e1_graph (e1_state 0) [12, 12]
        (run_with_both_init two_dest_env e1_graph (e1_state 0) [e1_node, e1_node]
          (fun _ => 0) (fun _ => -1))).1.stream 0 10 =
        [9, 1, 2, 6, 2, 0x40800000, 1, 0x40200000, 3, 0x40A00000] ∧
      words (expand_pass two_dest_env e1_graph (e1_state 0) [12, 12]
        (run_with_both_init two_dest_env e1_graph (e1_state 0) [e1_node, e1_node]
          (fun _ => 0) (fun _ => -1))).1.stream 12 10 =
        [9, 1, 2, 6, 2, 0x40800000, 1, 0x40200000, 3, 0x40A00000]) ∧
    ∀ (env : A2AEnv) (graph : Graph2DCSR) (state : SsspState) (node_ : List CommTarget)
      (stream : Stream) (vertices_pos : VPos) (N loop i : Nat) (st : A2AState)
      (counts : List Nat) (fin : A2AState × List Nat),
      (env.NODE_SEND_COUNT_TYPE ≠ 1 ∨ state.is_bellman_ford_ = true ∨
        state.is_light_phase_ = true) →
      (∀ c, c < env.comm_size_ → (env.thread_of c + 1) * graph.num_local_verts_ ≤ N) →
      (∀ x, x < N → vertices_pos x = -1) →
      (∀ n ∈ node_.map flush,
        wellFormedBuf (queued_words n) = true ∧
        (∀ x ∈ ptr_candidates n state graph ++ buffer_candidates n graph,
          x.1 < graph.num_local_verts_) ∧
        ∀ x ∈ ptr_candidates n state graph, x.2 ≠ get_sentinel) →
      st = round_start env graph state
        (run_with_both_init env graph state node_ stream vertices_pos) loop →
      counts = count_pass env loop st →
      fin = expand_pass env graph state counts st →
      i < env.comm_size_ → fin.2.getD i 0 ≠ 0 →
      ∃ (blocks : List PtrBlock) (out : List (Nat × Nat)),
        (∀ b ∈ blocks, b.2.2 ≠ []) ∧
        (∀ x ∈ blockPairs blocks, x ∈ ptr_candidates (node_at st i) state graph) ∧
        (∀ x ∈ out.filter isPayload, x ∈ buffer_candidates (node_at st i) graph) ∧
        (decide (counts.getD i 0 > st.node_send_lengths_buffer.getD i 0 + 1) = false →
          blocks = []) ∧
        (decide (st.node_send_lengths_buffer.getD i 0 ≠ 0) = false → out = []) ∧
        words fin.1.stream (scatter_offset counts i) (fin.2.getD i 0) =
          (encodePtr blocks).length :: (encodePtr blocks ++ flattenPairs out) ∧
        fin.2.getD i 0 = 1 + (encodePtr blocks).length + (flattenPairs out).length ∧
        fin.2.getD i 0 ≤ counts.getD i 0 ∧
        ∀ (recvbuf : Stream) (recv_offsets : Nat → Nat) (j : Nat),
          words recvbuf (recv_offsets j) (fin.2.getD i 0) =
            (encodePtr blocks).length :: (encodePtr blocks ++ flattenPairs out) →
          recv_offsets (j + 1) = recv_offsets j + fin.2.getD i 0 →
          receive_step recvbuf recv_offsets j =
            [⟨encodePtr blocks, j, true⟩, ⟨flattenPairs out, j, false⟩] := by
  refine ⟨by decide, by decide, ?_⟩
  intro env graph state node_ stream vertices_pos N loop i st counts fin hcfg hthr hvp hnodes
    hst hcounts hfin hi hs
  subst hfin hcounts
  have hready : RoundReady env graph state N st := by
    rw [hst]
    exact roundReady_round_start env graph state N _ hcfg hthr
      (roundReady_init env graph state N node_ stream vertices_pos hvp hnodes) loop
  obtain ⟨blocks, out, l1, l2, l3, l4, l5, l6, l7, l8⟩ :=
    expand_pass_slab env graph state N loop st hcfg hthr hready hi hs
  have hne : ¬ 1 + (encodePtr blocks).length + (flattenPairs out).length = 1 := by
    intro h1
    rw [if_pos h1] at l7
    exact hs l7
  rw [if_neg hne] at l7
  refine ⟨blocks, out, l1, l2, l3, l4, l5, by rw [l7]; exact l6, l7, by rw [l7]; exact l8, ?_⟩
  intro recvbuf recv_offsets j hw hn
  rw [l7] at hw hn
  exact receive_step_split recvbuf recv_offsets j _ _ hw hn

/-- C16: the ring all-gather of `my_allgatherv_2d` (the path taken when the ranks are not
arranged in two dimensions), run on `size ≥ 1` ranks in lockstep with the messages between
two ranks matched in posting order, finishes within `size` rounds for every layout of
disjoint segments; every rank's receive buffer is then the reference all-gather of that
buffer: segment `[offset[j], offset[j] + count[j])` holds the contribution of rank `j`, for
every `j`, and the words outside the segments are untouched. -/
theorem C16_ring_allgather_reference (size : Nat) (sendbuf : Nat → Stream)
    (count offset : Nat → Nat) (recvbuf : Nat → Stream) (hsize : 1 ≤ size)
    (hd : disjoint_segments size count offset) :
    ∃ bufs, my_allgatherv_ring size sendbuf count recvbuf count offset size = some bufs ∧
      ∀ r, r < size →
        bufs r = reference_allgatherv size sendbuf count offset (recvbuf r) ∧
        (∀ j, j < size → ∀ k, k < count j → bufs r (offset j + k) = sendbuf j k) ∧
        (∀ x, ¬ in_segments size count offset x → bufs r x = recvbuf r x) := by
  obtain ⟨bufs, hrun, href⟩ :=
    my_allgatherv_ring_reference size sendbuf count offset recvbuf hsize hd
  refine ⟨bufs, hrun, ?_⟩
  intro r hr
  obtain ⟨h1, h2⟩ := reference_allgatherv_spec sendbuf count offset (recvbuf r) size hd
  refine ⟨href r hr, ?_, ?_⟩
  · intro j hj k hk
    rw [href r hr, h1 j hj (offset j + k) (by omega) (by omega)]
    congr 1
    omega
  · intro x hx
    rw [href r hr, h2 x hx]

/-- C16 at scenario E6: four ranks with the counts `[3, 5, 2, 4]`; the run of the handlers
itself evaluates to the concatenation in rank order on every rank. -/
theorem C16_ring_allgather_reference_witness :
    (1 ≤ 4 ∧ disjoint_segments 4 e6_count e6_offset) ∧
    (∃ bufs, my_allgatherv_ring 4 e6_sendbuf e6_count (fun _ _ => 0) e6_count e6_offset 4 =
        some bufs ∧
      ∀ r, r < 4 →
        bufs r = reference_allgatherv 4 e6_sendbuf e6_count e6_offset (fun _ => 0) ∧
        (∀ j, j < 4 → ∀ k, k < e6_count j → bufs r (e6_offset j + k) = e6_sendbuf j k) ∧
        (∀ x, ¬ in_segments 4 e6_count e6_offset x → bufs r x = 0)) ∧
    (my_allgatherv_ring 4 e6_sendbuf e6_count (fun _ _ => 0) e6_count e6_offset 4).map
        (fun bufs => (List.range 4).map (fun r => words (bufs r) 0 14)) =
      some (List.replicate 4 [0, 1, 2, 100, 101, 102, 103, 104, 200, 201, 300, 301, 302, 303]) := by
  have hd : disjoint_segments 4 e6_count e6_offset := by
    intro i j hi hj _
    interval_cases i <;> interval_cases j <;> simp [e6_count, e6_offset] at *
  exact ⟨⟨by decide, hd⟩,
    C16_ring_allgather_reference 4 e6_sendbuf e6_count e6_offset (fun _ _ => 0) (by decide) hd,
    by decide⟩

/-- C17: the 2-D path of `my_allgatherv_2d`, run on a `size_x × size_y` grid of processes in
lockstep (`rank_map` a bijection from grid positions to ranks, the messages between two ranks
with the same tag matched in posting order), finishes for every `size_x, size_y ≥ 1` and every
layout of disjoint segments: both phases end within `size_x + size_y` rounds, no process
posts more calls than the manager has requests, and every process's receive buffer is then the
reference all-gather of that buffer: the segment of every rank `j` holds the whole contribution
of rank `j`, and the words outside the segments are untouched. -/
theorem C17_grid_allgather_reference (size_x size_y : Nat) (rank_map : Nat → Nat)
    (sendbuf : Nat → Stream) (count offset : Nat → Nat) (recvbuf : Nat → Stream)
    (hx : 1 ≤ size_x) (hy : 1 ≤ size_y)
    (hbij : rank_bijection (size_x * size_y) rank_map)
    (hd : disjoint_segments (size_x * size_y) count offset) :
    ∃ bufs, my_allgatherv_2d size_x size_y rank_map (fun p => sendbuf (rank_map p))
        (fun p => count (rank_map p)) recvbuf count offset (size_x + size_y) = some bufs ∧
      ∀ p, p < size_x * size_y →
        bufs p = reference_allgatherv (size_x * size_y) sendbuf count offset (recvbuf p) ∧
        (∀ j, j < size_x * size_y → ∀ k, k < count j → bufs p (offset j + k) = sendbuf j k) ∧
        (∀ x, ¬ in_segments (size_x * size_y) count offset x → bufs p x = recvbuf p x) := by
  obtain ⟨bufs, hrun, href⟩ :=
    my_allgatherv_2d_reference size_x size_y rank_map sendbuf count offset recvbuf hx hy hbij hd
  refine ⟨bufs, hrun, ?_⟩
  intro p hp
  obtain ⟨h1, h2⟩ :=
    reference_allgatherv_spec sendbuf count offset (recvbuf p) (size_x * size_y) hd
  refine ⟨href p hp, ?_, ?_⟩
  · intro j hj k hk
    rw [href p hp, h1 j hj (offset j + k) (by omega) (by omega)]
    congr 1
    omega
  · intro x hx
    rw [href p hp, h2 x hx]

/-- C17 on a 3 × 2 grid whose ranks are a permutation of the grid positions, with the counts
`[3, 5, 2, 4, 0, 7]`; the run of the handlers itself evaluates to the concatenation in rank
order on every process. -/
theorem C17_grid_allgather_reference_witness :
    (1 ≤ 3 ∧ 1 ≤ 2 ∧ rank_bijection (3 * 2) grid6_rank_map ∧
      disjoint_segments (3 * 2) grid6_count grid6_offset) ∧
    (∃ bufs, my_allgatherv_2d 3 2 grid6_rank_map (fun p => e6_sendbuf (grid6_rank_map p))
        (fun p => grid6_count (grid6_rank_map p)) (fun _ _ => 0) grid6_count grid6_offset
        (3 + 2) = some bufs ∧
      ∀ p, p < 3 * 2 →
        bufs p = reference_allgatherv (3 * 2) e6_sendbuf grid6_count grid6_offset (fun _ => 0) ∧
        (∀ j, j < 3 * 2 → ∀ k, k < grid6_count j →
          bufs p (grid6_offset j + k) = e6_sendbuf j k) ∧
        (∀ x, ¬ in_segments (3 * 2) grid6_count grid6_offset x → bufs p x = 0)) ∧
    (my_allgatherv_2d 3 2 grid6_rank_map (fun p => e6_sendbuf (grid6_rank_map p))
        (fun p => grid6_count (grid6_rank_map p)) (fun _ _ => 0) grid6_count grid6_offset
        (3 + 2)).map (fun bufs => (List.range 6).map (fun p => words (bufs p) 0 21)) =
      some (List.replicate 6 [0, 1, 2, 100, 101, 102, 103, 104, 200, 201, 300, 301, 302, 303,
        500, 501, 502, 503, 504, 505, 506]) := by
  have hbij : rank_bijection (3 * 2) grid6_rank_map := by
    refine ⟨by decide, ?_, by decide⟩
    intro a b ha hb
    interval_cases a <;> interval_cases b <;> simp [grid6_rank_map]
  have hd : disjoint_segments (3 * 2) grid6_count grid6_offset := by
    intro i j hi hj _
    interval_cases i <;> interval_cases j <;> simp [grid6_count, grid6_offset] at *
  exact ⟨⟨by decide, by decide, hbij, hd⟩,
    C17_grid_allgather_reference 3 2 grid6_rank_map e6_sendbuf grid6_count grid6_offset
      (fun _ _ => 0) (by decide) (by decide) hbij hd,
    by decide⟩

/-- C29 (quarters and halves).  For every `recv_count[i]` and `recv_offset[i]` (natural
numbers), the four ranges `(split_offset[s][i], split_count[s][i])` of `my_allgatherv_2d`:
`end ≥ start` for each of them (the count `end - start` is not negative), the first starts at
`recv_offset[i]`, each ends where the next starts and the last ends at
`recv_offset[i] + recv_count[i]`, the counts sum to `recv_count[i]`, each count is at most
`(recv_count[i] + 3) / 4`, the rounded-up quarter, and every word of the segment lies in
exactly one of the ranges.  The two sends `AllgatherHandler::start` posts are `count / 2`
words at `offset` and `count - count / 2` words at `offset + count / 2` of the rank's own
segment: they are contiguous and sum to `count`; the same holds for the halves of every
segment the handler forwards. -/
theorem C29_split_partition (recv_count recv_offset : Nat → Nat) (i : Nat) :
    split_offset recv_count recv_offset 0 i = recv_offset i ∧
    (∀ s, s < 4 →
      recv_offset i + min (recv_count i) ((recv_count i + 3) / 4 * s) ≤
        recv_offset i + min (recv_count i) ((recv_count i + 3) / 4 * (s + 1)) ∧
      split_offset recv_count recv_offset s i + split_count recv_count recv_offset s i =
        split_offset recv_count recv_offset (s + 1) i ∧
      split_count recv_count recv_offset s i ≤ (recv_count i + 3) / 4 ∧
      4 * split_count recv_count recv_offset s i < recv_count i + 4) ∧
    split_offset recv_count recv_offset 4 i = recv_offset i + recv_count i ∧
    split_count recv_count recv_offset 0 i + split_count recv_count recv_offset 1 i +
      split_count recv_count recv_offset 2 i + split_count recv_count recv_offset 3 i =
      recv_count i ∧
    (∀ x, recv_offset i ≤ x → x < recv_offset i + recv_count i →
      ∃ s, s < 4 ∧ (split_offset recv_count recv_offset s i ≤ x ∧
          x < split_offset recv_count recv_offset s i + split_count recv_count recv_offset s i) ∧
        ∀ t, t < 4 → split_offset recv_count recv_offset t i ≤ x →
          x < split_offset recv_count recv_offset t i + split_count recv_count recv_offset t i →
          t = s) ∧
    (∀ (size tag : Nat), 2 ≤ size → i < size →
      (AllgatherHandler.start recv_count recv_offset i size ((i + size - 1) % size)
          ((i + size + 1) % size) tag).2.map (fun q => (q.is_send, q.off, q.count)) =
        [(false, recv_offset (ring_up size 1 i), recv_count (ring_up size 1 i) / 2),
          (false, recv_offset (ring_dn size 1 i) + recv_count (ring_dn size 1 i) / 2,
            recv_count (ring_dn size 1 i) - recv_count (ring_dn size 1 i) / 2),
          (true, recv_offset i, recv_count i / 2),
          (true, recv_offset i + recv_count i / 2, recv_count i - recv_count i / 2)]) ∧
    recv_count i / 2 + (recv_count i - recv_count i / 2) = recv_count i ∧
    (∀ x, recv_offset i ≤ x → x < recv_offset i + recv_count i →
      (x < recv_offset i + recv_count i / 2 ↔
        ¬ (recv_offset i + recv_count i / 2 ≤ x ∧
          x < recv_offset i + recv_count i / 2 + (recv_count i - recv_count i / 2)))) := by
  refine ⟨by simp [split_offset], ?_, ?_, ?_, ?_, ?_, by omega, ?_⟩
  · intro s hs
    simp only [split_offset, split_count]
    have h4 : s = 0 ∨ s = 1 ∨ s = 2 ∨ s = 3 := by omega
    rcases h4 with rfl | rfl | rfl | rfl <;> omega
  · simp only [split_offset]
    omega
  · simp only [split_count]
    omega
  · intro x hx1 hx2
    obtain ⟨s, hs, h1, h2⟩ := segment_in_quarter recv_count recv_offset i x hx1 hx2
    refine ⟨s, hs, ⟨h1, h2⟩, ?_⟩
    intro t ht ht1 ht2
    simp only [split_offset, split_count] at h1 h2 ht1 ht2
    have h4 : s = 0 ∨ s = 1 ∨ s = 2 ∨ s = 3 := by omega
    have t4 : t = 0 ∨ t = 1 ∨ t = 2 ∨ t = 3 := by omega
    rcases h4 with rfl | rfl | rfl | rfl <;> rcases t4 with rfl | rfl | rfl | rfl <;> omega
  · intro size tag hs hi
    rw [ring_start_eq recv_count recv_offset size tag i hs hi]
    simp [ring_posts, ring_rcv, ring_snd, ring_up_zero hi, ring_dn_zero hi]
  · intro x hx1 hx2
    omega

/-- C23 (heavy phase).  With `is_bellman_ford = false` and `is_light_phase = false`, an edge
step of `collect_targets_ptr` hands the edge's candidate to the dedup exactly when the edge
passes the filter, and the filter is: not dropped as settled (`with_settled` and
`target_is_settled`), and, for a descriptor whose header has bit 63 clear, `source_dist +
edge_weight` not less than `bucket_upper`; for a descriptor with bit 63 set every edge not
dropped as settled passes.  Whenever an edge step of a descriptor with bit 63 clear emits a
pair, its weight is `edge_weight + source_dist` and is not less than `bucket_upper`.  On a
clean scratch slice every pair left after `remove_sentinels_ptr` is the candidate of a queued
edge that passes this filter, so with no heavy descriptor queued no pair has a weight below
`bucket_upper`.  On scenario E1 with `bucket_upper = 3.5` the candidates `3.0` and `2.5` are
dropped; with bit 63 of the header set all four edges are candidates. -/
theorem C23_heavy_filter (node : CommTarget) (state : SsspState) (graph : Graph2DCSR)
    (stream : Stream) (vertices_pos : VPos)
    (hbf : state.is_bellman_ford_ = false) (hlp : state.is_light_phase_ = false)
    (hclean : ∀ v, v < graph.num_local_verts_ → vertices_pos v = -1)
    (hcand : ∀ c ∈ ptr_candidates node state graph,
      c.1 < graph.num_local_verts_ ∧ c.2 ≠ get_sentinel) :
    (∀ (b : PointerData) (st : MergeState) (i : Nat),
      ptr_edge state graph b st i =
        if !(state.with_settled_ && state.target_is_settled (graph.edge_array_ (b.ptr + i))) &&
            (b.header.testBit 63 ||
              !isLT (f32add (graph.edge_weight_array_ (b.ptr + i)) b.dist) state.bucket_upper)
        then ptr_dedup_put st (graph.edge_array_ (b.ptr + i) &&& lmask graph)
          (f32add (graph.edge_weight_array_ (b.ptr + i)) b.dist)
        else st) ∧
    (∀ (b : PointerData) (st : MergeState) (i : Nat), b.header.testBit 63 = false →
      (ptr_edge state graph b st i).pos ≠ st.pos →
      (ptr_edge state graph b st i).stream (st.pos + 1) =
        f32add (graph.edge_weight_array_ (b.ptr + i)) b.dist ∧
      isLT ((ptr_edge state graph b st i).stream (st.pos + 1)) state.bucket_upper = false) ∧
    (∃ blocks : List PtrBlock,
      words (remove_sentinels_ptr graph
          (collect_targets_ptr node state graph stream vertices_pos).pos
          (collect_targets_ptr node state graph stream vertices_pos).stream
          (collect_targets_ptr node state graph stream vertices_pos).vertices_pos).stream 0
        (remove_sentinels_ptr graph
          (collect_targets_ptr node state graph stream vertices_pos).pos
          (collect_targets_ptr node state graph stream vertices_pos).stream
          (collect_targets_ptr node state graph stream vertices_pos).vertices_pos).pos =
        encodePtr blocks ∧
      (∀ x ∈ blockPairs blocks, ∃ b ∈ node.send_ptr, ∃ i, i < b.length ∧
        x = (graph.edge_array_ (b.ptr + i) &&& lmask graph,
          f32add (graph.edge_weight_array_ (b.ptr + i)) b.dist) ∧
        (state.with_settled_ && state.target_is_settled (graph.edge_array_ (b.ptr + i))) =
          false ∧
        (b.header.testBit 63 = true ∨ isLT x.2 state.bucket_upper = false)) ∧
      ((∀ b ∈ node.send_ptr, b.header.testBit 63 = false) →
        ∀ x ∈ blockPairs blocks, isLT x.2 state.bucket_upper = false)) ∧
    words (remove_sentinels_ptr e1_graph
        (collect_targets_ptr e1_node (e1_state 0x40600000) e1_graph (fun _ => 0)
          (fun _ => -1)).pos
        (collect_targets_ptr e1_node (e1_state 0x40600000) e1_graph (fun _ => 0)
          (fun _ => -1)).stream
        (collect_targets_ptr e1_node (e1_state 0x40600000) e1_graph (fun _ => 0)
          (fun _ => -1)).vertices_pos).stream 0
      (remove_sentinels_ptr e1_graph
        (collect_targets_ptr e1_node (e1_state 0x40600000) e1_graph (fun _ => 0)
          (fun _ => -1)).pos
        (collect_targets_ptr e1_node (e1_state 0x40600000) e1_graph (fun _ => 0)
          (fun _ => -1)).stream
        (collect_targets_ptr e1_node (e1_state 0x40600000) e1_graph (fun _ => 0)
          (fun _ => -1)).vertices_pos).pos = [1, 2, 4, 2, 0x40800000, 3, 0x40A00000] ∧
    words (collect_targets_ptr e1_heavy_node (e1_state 0x40600000) e1_graph (fun _ => 0)
        (fun _ => -1)).stream 0
      (collect_targets_ptr e1_heavy_node (e1_state 0x40600000) e1_graph (fun _ => 0)
        (fun _ => -1)).pos =
      [0x80000001, 2, 8, 1, get_sentinel, 2, 0x40800000, 1, 0x40200000, 3, 0x40A00000] := by
  have hcd : ∀ (b : PointerData) (i : Nat), ptr_candidate state graph b i =
      (graph.edge_array_ (b.ptr + i) &&& lmask graph,
        f32add (graph.edge_weight_array_ (b.ptr + i)) b.dist) := by
    intro b i
    simp [ptr_candidate, hbf]
  have hpass : ∀ (b : PointerData) (i : Nat), ptr_passes state graph b i =
      (!(state.with_settled_ && state.target_is_settled (graph.edge_array_ (b.ptr + i))) &&
        (b.header.testBit 63 ||
          !isLT (f32add (graph.edge_weight_array_ (b.ptr + i)) b.dist) state.bucket_upper)) := by
    intro b i
    rw [ptr_passes_heavy graph b i hbf hlp, hcd]
  refine ⟨?_, ?_, ?_, by decide, by decide⟩
  · intro b st i
    rw [ptr_edge_eq, hpass, hcd]
  · intro b st i hb hne
    obtain ⟨e1, _, _, e4⟩ := ptr_edge_emits state graph b st i hne
    rw [e4, hcd]
    refine ⟨rfl, ?_⟩
    rw [hpass, hb] at e1
    simp only [Bool.and_eq_true, Bool.not_eq_true', Bool.false_or] at e1
    exact e1.2
  · obtain ⟨ks, hB, hw, hp, _⟩ := run_ptr_merge_spec graph.num_local_verts_ node state graph
      stream vertices_pos hclean hcand
    have hmem : ∀ x ∈ blockPairs (compactPtr (readBlocks
        (collect_targets_ptr node state graph stream vertices_pos).stream 0 ks)),
        ∃ b ∈ node.send_ptr, ∃ i, i < b.length ∧
          x = (graph.edge_array_ (b.ptr + i) &&& lmask graph,
            f32add (graph.edge_weight_array_ (b.ptr + i)) b.dist) ∧
          (state.with_settled_ && state.target_is_settled (graph.edge_array_ (b.ptr + i))) =
            false ∧
          (b.header.testBit 63 = true ∨ isLT x.2 state.bucket_upper = false) := by
      intro x hx
      rw [hp] at hx
      obtain ⟨b, hb, i, hi, hps, rfl⟩ := mem_ptr_candidates.1 (DInv_min hB.inv x hx).1
      rw [hpass] at hps
      simp only [Bool.and_eq_true, Bool.not_eq_true', Bool.or_eq_true] at hps
      refine ⟨b, hb, i, hi, hcd b i, hps.1, ?_⟩
      rw [hcd]
      exact hps.2
    refine ⟨_, hw, hmem, ?_⟩
    intro hall x hx
    obtain ⟨b, hb, i, _, _, _, h⟩ := hmem x hx
    rcases h with h | h
    · rw [hall b hb] at h
      exact absurd h (by decide)
    · exact h

/-- Witness for C23 on scenario E1 with `bucket_upper = 3.5`. -/
theorem C23_heavy_filter_witness :
    (∀ c ∈ ptr_candidates e1_node (e1_state 0x40600000) e1_graph,
      c.1 < e1_graph.num_local_verts_ ∧ c.2 ≠ get_sentinel) ∧
    ∃ blocks : List PtrBlock,
      words (remove_sentinels_ptr e1_graph
          (collect_targets_ptr e1_node (e1_state 0x40600000) e1_graph (fun _ => 0)
            (fun _ => -1)).pos
          (collect_targets_ptr e1_node (e1_state 0x40600000) e1_graph (fun _ => 0)
            (fun _ => -1)).stream
          (collect_targets_ptr e1_node (e1_state 0x40600000) e1_graph (fun _ => 0)
            (fun _ => -1)).vertices_pos).stream 0
        (remove_sentinels_ptr e1_graph
          (collect_targets_ptr e1_node (e1_state 0x40600000) e1_graph (fun _ => 0)
            (fun _ => -1)).pos
          (collect_targets_ptr e1_node (e1_state 0x40600000) e1_graph (fun _ => 0)
            (fun _ => -1)).stream
          (collect_targets_ptr e1_node (e1_state 0x40600000) e1_graph (fun _ => 0)
            (fun _ => -1)).vertices_pos).pos =
        encodePtr blocks ∧
      (∀ x ∈ blockPairs blocks, ∃ b ∈ e1_node.send_ptr, ∃ i, i < b.length ∧
        x = (e1_graph.edge_array_ (b.ptr + i) &&& lmask e1_graph,
          f32add (e1_graph.edge_weight_array_ (b.ptr + i)) b.dist) ∧
        ((e1_state 0x40600000).with_settled_ &&
          (e1_state 0x40600000).target_is_settled (e1_graph.edge_array_ (b.ptr + i))) =
          false ∧
        (b.header.testBit 63 = true ∨ isLT x.2 (e1_state 0x40600000).bucket_upper = false)) ∧
      ((∀ b ∈ e1_node.send_ptr, b.header.testBit 63 = false) →
        ∀ x ∈ blockPairs blocks, isLT x.2 (e1_state 0x40600000).bucket_upper = false) :=
  ⟨by decide,
    (C23_heavy_filter e1_node (e1_state 0x40600000) e1_graph (fun _ => 0) (fun _ => -1) rfl rfl
      (fun _ _ => rfl) (by decide)).2.2.1⟩

/-- C24 (block form of the pointer-origin stream).  On a clean scratch slice, with every
candidate target inside the slice and no candidate distance equal to the sentinel pattern, the
`n` words `collect_targets_ptr` returns are the concatenation of blocks
`[hdr_hi, hdr_lo, k, k payload words]`, one for each queued descriptor of non-zero length in
queue order (`hdr_hi`, `hdr_lo` the two halves of its header), `k` twice the number of pairs
of the block, and the block sizes `3 + k` sum to `n`.  For every stream of this block form
`remove_sentinels_ptr` returns the blocks with the sentinel pairs removed, a block left without
pairs dropped together with its header: the result is again of block form, every block has
`k > 0` with `k` twice the number of its pairs, none of them a sentinel pair, and the length
does not grow. -/
theorem C24_block_form (node : CommTarget) (state : SsspState) (graph : Graph2DCSR)
    (stream : Stream) (vertices_pos : VPos)
    (hclean : ∀ v, v < graph.num_local_verts_ → vertices_pos v = -1)
    (hcand : ∀ c ∈ ptr_candidates node state graph,
      c.1 < graph.num_local_verts_ ∧ c.2 ≠ get_sentinel) :
    (∃ blocks : List PtrBlock,
      words (collect_targets_ptr node state graph stream vertices_pos).stream 0
          (collect_targets_ptr node state graph stream vertices_pos).pos = encodePtr blocks ∧
      blocks.map (fun b => (b.1, b.2.1)) =
        (node.send_ptr.filter (fun b => decide (b.length ≠ 0))).map header_words ∧
      (collect_targets_ptr node state graph stream vertices_pos).pos =
        (blocks.map (fun b => 3 + 2 * b.2.2.length)).sum ∧
      words (remove_sentinels_ptr graph
          (collect_targets_ptr node state graph stream vertices_pos).pos
          (collect_targets_ptr node state graph stream vertices_pos).stream
          (collect_targets_ptr node state graph stream vertices_pos).vertices_pos).stream 0
        (remove_sentinels_ptr graph
          (collect_targets_ptr node state graph stream vertices_pos).pos
          (collect_targets_ptr node state graph stream vertices_pos).stream
          (collect_targets_ptr node state graph stream vertices_pos).vertices_pos).pos =
        encodePtr ((blocks.map (fun b => (b.1, b.2.1, b.2.2.filter live))).filter
          (fun b => b.2.2 ≠ []))) ∧
    (∀ (s : Stream) (vp : VPos) (ks : List Nat), PtrLay s 0 ks →
      words s 0 (layEnd 0 ks) = encodePtr (readBlocks s 0 ks) ∧
      (remove_sentinels_ptr graph (layEnd 0 ks) s vp).pos =
        (encodePtr (compactPtr (readBlocks s 0 ks))).length ∧
      words (remove_sentinels_ptr graph (layEnd 0 ks) s vp).stream 0
          (remove_sentinels_ptr graph (layEnd 0 ks) s vp).pos =
        encodePtr (compactPtr (readBlocks s 0 ks)) ∧
      compactPtr (readBlocks s 0 ks) =
        ((readBlocks s 0 ks).map (fun b => (b.1, b.2.1, b.2.2.filter live))).filter
          (fun b => b.2.2 ≠ []) ∧
      (∀ b ∈ compactPtr (readBlocks s 0 ks), 0 < 2 * b.2.2.length ∧
        ∀ x ∈ b.2.2, x.2 ≠ get_sentinel) ∧
      (remove_sentinels_ptr graph (layEnd 0 ks) s vp).pos ≤ layEnd 0 ks) := by
  refine ⟨?_, ?_⟩
  · have h0 : BInv graph.num_local_verts_ ⟨stream, vertices_pos, 0⟩ [] [] :=
      ⟨trivial, rfl, DInv_init _ stream vertices_pos hclean⟩
    obtain ⟨ks, hk, he⟩ := BInv_blocks_headers state graph node.send_ptr h0 (by
      intro b hb c hcm
      apply hcand
      simp only [ptr_candidates, List.mem_flatMap]
      exact ⟨b, hb, hcm⟩)
    have hpos : (collect_targets_ptr node state graph stream vertices_pos).pos = layEnd 0 ks :=
      hk.pos
    have hlay : PtrLay (collect_targets_ptr node state graph stream vertices_pos).stream 0 ks :=
      hk.lay
    refine ⟨readBlocks (collect_targets_ptr node state graph stream vertices_pos).stream 0 ks,
      ?_, ?_, ?_, ?_⟩
    · rw [hpos]
      exact words_encodePtr _ ks 0 hlay
    · rw [readBlocks_headers]
      simpa [hdrPos, header_words] using he
    · rw [hpos, layEnd_sum, Nat.zero_add]
      have := readBlocks_lengths
        (collect_targets_ptr node state graph stream vertices_pos).stream ks 0
      conv_lhs => rw [← this]
      rw [List.map_map]
      rfl
    · rw [hpos]
      exact (remove_sentinels_ptr_spec graph ks _ _ hlay).2.1
  · intro s vp ks hlay
    obtain ⟨h1, h2, _, _⟩ := remove_sentinels_ptr_spec graph ks s vp hlay
    refine ⟨words_encodePtr s ks 0 hlay, h1, h2, rfl, ?_, ?_⟩
    · intro b hb
      have := compactPtr_nonempty _ b hb
      refine ⟨?_, compactPtr_live _ b hb⟩
      have : b.2.2.length ≠ 0 := fun h => this (List.length_eq_zero.1 h)
      omega
    · rw [h1]
      have := encodePtr_compact_length_le s 0 ks
      omega

/-- Witness for C24 on scenario E1 (heavy phase, `bucket_upper = 0.0`): one block of four
pairs, one of them sentinel-marked. -/
theorem C24_block_form_witness :
    (∀ c ∈ ptr_candidates e1_node (e1_state 0) e1_graph,
      c.1 < e1_graph.num_local_verts_ ∧ c.2 ≠ get_sentinel) ∧
    (∃ blocks : List PtrBlock,
      words (collect_targets_ptr e1_node (e1_state 0) e1_graph (fun _ => 0)
            (fun _ => -1)).stream 0
          (collect_targets_ptr e1_node (e1_state 0) e1_graph (fun _ => 0) (fun _ => -1)).pos =
        encodePtr blocks ∧
      blocks.map (fun b => (b.1, b.2.1)) =
        (e1_node.send_ptr.filter (fun b => decide (b.length ≠ 0))).map header_words ∧
      (collect_targets_ptr e1_node (e1_state 0) e1_graph (fun _ => 0) (fun _ => -1)).pos =
        (blocks.map (fun b => 3 + 2 * b.2.2.length)).sum ∧
      words (remove_sentinels_ptr e1_graph
          (collect_targets_ptr e1_node (e1_state 0) e1_graph (fun _ => 0) (fun _ => -1)).pos
          (collect_targets_ptr e1_node (e1_state 0) e1_graph (fun _ => 0) (fun _ => -1)).stream
          (collect_targets_ptr e1_node (e1_state 0) e1_graph (fun _ => 0)
            (fun _ => -1)).vertices_pos).stream 0
        (remove_sentinels_ptr e1_graph
          (collect_targets_ptr e1_node (e1_state 0) e1_graph (fun _ => 0) (fun _ => -1)).pos
          (collect_targets_ptr e1_node (e1_state 0) e1_graph (fun _ => 0) (fun _ => -1)).stream
          (collect_targets_ptr e1_node (e1_state 0) e1_graph (fun _ => 0)
            (fun _ => -1)).vertices_pos).pos =
        encodePtr ((blocks.map (fun b => (b.1, b.2.1, b.2.2.filter live))).filter
          (fun b => b.2.2 ≠ []))) ∧
    words (collect_targets_ptr e1_node (e1_state 0) e1_graph (fun _ => 0) (fun _ => -1)).stream 0
        (collect_targets_ptr e1_node (e1_state 0) e1_graph (fun _ => 0) (fun _ => -1)).pos =
      [1, 2, 8, 1, get_sentinel, 2, 0x40800000, 1, 0x40200000, 3, 0x40A00000] :=
  ⟨by decide,
    (C24_block_form e1_node (e1_state 0) e1_graph (fun _ => 0) (fun _ => -1)
      (fun _ _ => rfl) (by decide)).1,
    by decide⟩

/-- C25 (lengths never grow).  `get_node_send_length_buffer(node)` is the sum of the queued
buffer lengths and equals the length `collect_targets_buffer` returns for the node, at every
stream offset.  For every well-formed buffer-origin stream `remove_sentinels_buffer` returns a
length that is at most `length`, and for every pointer-origin stream in block form
`remove_sentinels_ptr` returns a length that is at most `length`.  So in `run_buffer`, for a
destination whose queued buffers are well formed (clean scratch slice, payload vertices inside
the slice), the compacted `length_reduced` stored in `send_lengths[i]` is at most the count
the count pass computed for it: the assertion `send_lengths[i] >= length_reduced` holds. -/
theorem C25_lengths_reduce (SKIP_FILTERING : Bool) (node : CommTarget) (state : SsspState)
    (graph : Graph2DCSR) (stream : Stream) (vertices_pos : VPos)
    (hclean : ∀ v, v < graph.num_local_verts_ → vertices_pos v = -1)
    (hwf : wellFormedBuf (queued_words (flush node)) = true)
    (hbnd : ∀ c ∈ buffer_candidates (flush node) graph, c.1 < graph.num_local_verts_) :
    (∀ (n : CommTarget) (off : Nat) (s : Stream) (vp : VPos),
      get_node_send_length_buffer n = (n.send_data.map (fun b => b.length)).sum ∧
      (collect_targets_buffer SKIP_FILTERING n graph state off s vp).pos =
        get_node_send_length_buffer n) ∧
    (∀ (read_start write_start : Nat) (hs : List Bool) (s : Stream) (vp : VPos),
      BufLay s read_start hs → write_start ≤ read_start →
      (remove_sentinels_buffer graph read_start write_start
        (bufEnd read_start hs - read_start) s vp).pos ≤ bufEnd read_start hs - read_start) ∧
    (∀ (ks : List Nat) (s : Stream) (vp : VPos), PtrLay s 0 ks →
      (remove_sentinels_ptr graph (layEnd 0 ks) s vp).pos ≤ layEnd 0 ks) ∧
    run_buffer_count node = get_node_send_length_buffer (flush node) ∧
    (run_buffer_merge SKIP_FILTERING (flush node) state graph stream vertices_pos).pos ≤
      run_buffer_count node := by
  have hlen : ∀ n : CommTarget,
      get_node_send_length_buffer n = (n.send_data.map (fun b => b.length)).sum := by
    intro n
    rw [get_node_send_length_buffer, foldl_add_length, Nat.zero_add]
  refine ⟨?_, ?_, ?_, rfl, ?_⟩
  · intro n off s vp
    exact ⟨hlen n, by rw [collect_targets_buffer_pos, hlen]⟩
  · intro read_start write_start hs s vp hlay hle
    exact remove_sentinels_buffer_le graph read_start write_start hs s vp hlay hle
  · intro ks s vp hlay
    rw [(remove_sentinels_ptr_spec graph ks s vp hlay).1]
    have := encodePtr_compact_length_le s 0 ks
    omega
  · obtain ⟨hs, h1, h2, h3, _⟩ := collect_targets_buffer_lay SKIP_FILTERING (flush node) graph
      state 0 stream vertices_pos [] [] hwf (DInv_init _ stream vertices_pos hclean)
      (by simp) hbnd
    have hcount : run_buffer_count node = (queued_words (flush node)).length := by
      rw [run_buffer_count, foldl_add_length, Nat.zero_add, queued_words_length]
    have := remove_sentinels_buffer_le graph 0 0 hs _
      (collect_targets_buffer SKIP_FILTERING (flush node) graph state 0 stream
        vertices_pos).vertices_pos h3 (Nat.le_refl _)
    rw [h2, Nat.zero_add, Nat.sub_zero, ← h1] at this
    rw [hcount, ← h1]
    exact this

/-- Witness for C25: the destination with two queued buffers and a dominated duplicate. -/
theorem C25_lengths_reduce_witness :
    (wellFormedBuf (queued_words (flush both_node)) = true ∧
      ∀ c ∈ buffer_candidates (flush both_node) e1_graph, c.1 < e1_graph.num_local_verts_) ∧
    ((∀ (n : CommTarget) (off : Nat) (s : Stream) (vp : VPos),
      get_node_send_length_buffer n = (n.send_data.map (fun b => b.length)).sum ∧
      (collect_targets_buffer false n e1_graph (e1_state 0) off s vp).pos =
        get_node_send_length_buffer n) ∧
    (∀ (read_start write_start : Nat) (hs : List Bool) (s : Stream) (vp : VPos),
      BufLay s read_start hs → write_start ≤ read_start →
      (remove_sentinels_buffer e1_graph read_start write_start
        (bufEnd read_start hs - read_start) s vp).pos ≤ bufEnd read_start hs - read_start) ∧
    (∀ (ks : List Nat) (s : Stream) (vp : VPos), PtrLay s 0 ks →
      (remove_sentinels_ptr e1_graph (layEnd 0 ks) s vp).pos ≤ layEnd 0 ks) ∧
    run_buffer_count both_node = get_node_send_length_buffer (flush both_node) ∧
    (run_buffer_merge false (flush both_node) (e1_state 0) e1_graph (fun _ => 0)
      (fun _ => -1)).pos ≤ run_buffer_count both_node) ∧
    run_buffer_count both_node = 14 ∧
    (run_buffer_merge false (flush both_node) (e1_state 0) e1_graph (fun _ => 0)
      (fun _ => -1)).pos = 10 :=
  ⟨⟨by decide, by decide⟩,
    C25_lengths_reduce false both_node (e1_state 0) e1_graph (fun _ => 0) (fun _ => -1)
      (fun _ _ => rfl) (by decide) (by decide),
    by decide, by decide⟩

/-- C22, refuted as stated: the returned value is not `3 × descriptors + 2 × surviving edges`
for either setting of `NODE_SEND_COUNT_TYPE`.  With the setting 0, in the light phase of
scenario E3 (one of the two edges is dropped by the bucket filter) the function returns 7, the
formula gives 5.  With the setting 1, in the heavy phase of scenario E1 (`bucket_upper = 0.0`,
all four edges survive) the function returns 3, the formula gives 11. -/
theorem C22_exact_count_counterexample :
    get_node_send_length_ptr 0 e3_node e3_state e3_graph = 7 ∧
    spec_send_length_ptr e3_node e3_state e3_graph = 5 ∧
    get_node_send_length_ptr 1 e1_node (e1_state 0) e1_graph = 3 ∧
    spec_send_length_ptr e1_node (e1_state 0) e1_graph = 11 := by
  decide

/-- C22, amended: outside the heavy phase with `NODE_SEND_COUNT_TYPE == 1`, for which nothing
is stated, `get_node_send_length_ptr` returns 3 words for every descriptor of non-zero length
plus 2 words for every edge it counts.  In the Bellman-Ford phase, and in the light
phase with `NODE_SEND_COUNT_TYPE == 1`, the counted edges are exactly the edges that survive
the filter of `collect_targets_ptr`, so the value is `3 × descriptors + 2 × surviving edges`.
In the light phase with another setting every edge of a descriptor is counted, and in the
heavy phase with another setting every edge not dropped as settled is counted: the value is
then at least `3 × descriptors + 2 × surviving edges`. -/
theorem C22_send_length_counts (T : Nat) (node : CommTarget) (state : SsspState)
    (graph : Graph2DCSR) :
    (T ≠ 1 ∨ state.is_bellman_ford_ = true ∨ state.is_light_phase_ = true →
      get_node_send_length_ptr T node state graph =
        3 * (node.send_ptr.filter (fun b => decide (b.length ≠ 0))).length +
          2 * counted_edges T node state graph) ∧
    (state.is_bellman_ford_ = true ∨ (state.is_light_phase_ = true ∧ T = 1) →
      get_node_send_length_ptr T node state graph = spec_send_length_ptr node state graph) ∧
    (state.is_bellman_ford_ = false → state.is_light_phase_ = true → T ≠ 1 →
      counted_edges T node state graph = (node.send_ptr.map (fun b => b.length)).sum) ∧
    (state.is_bellman_ford_ = false → state.is_light_phase_ = false → T ≠ 1 →
      counted_edges T node state graph =
        (node.send_ptr.map (fun b => ((List.range b.length).filter (fun i =>
          !(state.with_settled_ &&
            state.target_is_settled (graph.edge_array_ (b.ptr + i))))).length)).sum) ∧
    (T ≠ 1 ∨ state.is_bellman_ford_ = true ∨ state.is_light_phase_ = true →
      spec_send_length_ptr node state graph ≤ get_node_send_length_ptr T node state graph) := by
  have heq : get_node_send_length_ptr T node state graph =
      3 * (node.send_ptr.filter (fun b => decide (b.length ≠ 0))).length +
        2 * counted_edges T node state graph := by
    rw [get_node_send_length_ptr, get_node_send_length_ptr_eq, Nat.zero_add, counted_edges]
  have hsum : ∀ (f g : PointerData → Nat), (∀ b, f b ≤ g b) →
      (node.send_ptr.map f).sum ≤ (node.send_ptr.map g).sum := by
    intro f g hfg
    induction node.send_ptr with
    | nil => simp
    | cons b bs ih =>
      simp only [List.map_cons, List.sum_cons]
      have := hfg b
      omega
  refine ⟨fun _ => heq, ?_, ?_, ?_, ?_⟩
  · intro h
    rw [heq, spec_send_length_ptr, counted_edges, surviving_edges]
    have : ∀ b : PointerData, edge_counted T state graph b = ptr_passes state graph b := by
      intro b
      funext i
      rcases h with h | ⟨h1, h2⟩
      · simp [edge_counted, ptr_passes, h]
      · cases hbf : state.is_bellman_ford_ <;> simp [edge_counted, ptr_passes, hbf, h1, h2]
    simp only [this]
  · intro hbf hlp hT
    have : ∀ b : PointerData, edge_counted T state graph b = fun _ => true := by
      intro b
      funext i
      simp [edge_counted, hbf, hlp, hT]
    simp only [counted_edges, this, List.filter_true, List.length_range]
  · intro hbf hlp hT
    have : ∀ b : PointerData, edge_counted T state graph b = fun i =>
        !(state.with_settled_ && state.target_is_settled (graph.edge_array_ (b.ptr + i))) := by
      intro b
      funext i
      simp [edge_counted, hbf, hlp, hT]
    simp only [counted_edges, this]
  · intro h
    rw [heq, spec_send_length_ptr, counted_edges, surviving_edges]
    have := hsum
      (fun b => ((List.range b.length).filter (ptr_passes state graph b)).length)
      (fun b => ((List.range b.length).filter (edge_counted T state graph b)).length) (by
        intro b
        apply List.Sublist.length_le
        apply List.monotone_filter_right
        intro i hp
        unfold ptr_passes at hp
        unfold edge_counted
        cases hbf : state.is_bellman_ford_ <;> cases hlp : state.is_light_phase_ <;>
          by_cases hT : T = 1 <;> simp_all)
    omega

/-- Witness for C22: the light phase of scenario E3 with `NODE_SEND_COUNT_TYPE == 0`: one
descriptor and both of its edges are counted, one more than survive the filter. -/
theorem C22_send_length_counts_witness :
    ((0 : Nat) ≠ 1 ∨ e3_state.is_bellman_ford_ = true ∨ e3_state.is_light_phase_ = true) ∧
    get_node_send_length_ptr 0 e3_node e3_state e3_graph =
      3 * (e3_node.send_ptr.filter (fun b => decide (b.length ≠ 0))).length +
        2 * counted_edges 0 e3_node e3_state e3_graph ∧
    counted_edges 0 e3_node e3_state e3_graph = 2 ∧
    surviving_edges e3_node e3_state e3_graph = 1 :=
  ⟨by decide, (C22_send_length_counts 0 e3_node e3_state e3_graph).1 (by decide),
    by decide, by decide⟩

/-- C26: the count pass of `run_with_both`.  Every destination `i` is visited by exactly one
iteration `c` (`i = (c + comm_rank) % comm_size_`).  With `ptr_i`, `buf_i` the two estimates of
`i`: `counts[i] = 0` if both are zero; pointer data is included iff `ptr_i > 0` and not
(`buf_i + ptr_i > max_size_per_node` and (an earlier iteration of the same thread included
pointer data in this pass or `loop == 0`)); otherwise `counts[i] = 1 + buf_i + ptr_i` when
included, `0` when excluded with `buf_i = 0`, and `1 + buf_i` when excluded with `buf_i > 0`.
So `counts[i]` is never 1, and the test `counts[i] > buf_i + 1` of the expand pass holds
exactly when pointer data was included. -/
theorem C26_count_pass (env : A2AEnv) (loop : Nat) (st : A2AState) (i : Nat)
    (hi : i < env.comm_size_) :
    (count_pass env loop st).length = env.comm_size_ ∧
    ∃ c, c < env.comm_size_ ∧ (c + env.comm_rank) % env.comm_size_ = i ∧
      (∀ c2, c2 < env.comm_size_ → (c2 + env.comm_rank) % env.comm_size_ = i → c2 = c) ∧
      (st.node_send_lengths_ptr.getD i 0 = 0 ∧ st.node_send_lengths_buffer.getD i 0 = 0 →
        (count_pass env loop st).getD i 0 = 0) ∧
      (ptr_included env loop st.node_send_lengths_ptr st.node_send_lengths_buffer c = true ↔
        0 < st.node_send_lengths_ptr.getD i 0 ∧
          ¬ (st.node_send_lengths_buffer.getD i 0 + st.node_send_lengths_ptr.getD i 0 >
              env.max_size / (env.es * env.comm_size_) ∧
            ((∃ c2, c2 < c ∧ env.thread_of c2 = env.thread_of c ∧
                ptr_included env loop st.node_send_lengths_ptr st.node_send_lengths_buffer
                  c2 = true) ∨ loop = 0))) ∧
      (¬ (st.node_send_lengths_ptr.getD i 0 = 0 ∧ st.node_send_lengths_buffer.getD i 0 = 0) →
        (count_pass env loop st).getD i 0 =
          if ptr_included env loop st.node_send_lengths_ptr st.node_send_lengths_buffer c
              = true then
            1 + st.node_send_lengths_buffer.getD i 0 + st.node_send_lengths_ptr.getD i 0
          else if st.node_send_lengths_buffer.getD i 0 = 0 then 0
          else 1 + st.node_send_lengths_buffer.getD i 0) ∧
      (count_pass env loop st).getD i 0 ≠ 1 ∧
      ((count_pass env loop st).getD i 0 > st.node_send_lengths_buffer.getD i 0 + 1 ↔
        ptr_included env loop st.node_send_lengths_ptr st.node_send_lengths_buffer c
          = true) := by
  refine ⟨count_pass_length env loop st, ?_⟩
  obtain ⟨c, hc, hci⟩ := dest_of_surj env hi
  subst hci
  have hcnt := count_pass_getD env loop st hc
  refine ⟨c, hc, rfl, ?_, ?_, ?_, ?_, ?_, ?_⟩
  · intro c2 hc2 h
    exact dest_of_inj env hc2 hc h
  · intro h0
    rw [hcnt, spec_count, if_pos h0]
  · rw [ptr_included_iff, thread_has_ptr_iff env loop _ _ hc]
  · intro h0
    rw [hcnt, spec_count, if_neg h0]
  · rw [hcnt]
    exact spec_count_ne_one env loop _ _ c
  · rw [hcnt]
    exact spec_count_gt_iff env loop _ _ c

/-- Witness for C26: round 0 on rank 1 of three destinations with `max_size_per_node = 8`.  The
destinations are met in the order 1, 2, 0: destination 1 has buffer data only (count 3),
destination 2 fits (count `1 + 3 + 5`), destination 0 is too large for round 0 and has no
buffer data (count 0).  In round 1, as the thread's first pointer data, destination 0 is
included (count `1 + 9`). -/
theorem C26_count_pass_witness :
    (0 < three_dest_env.comm_size_ ∧
      (count_pass three_dest_env 0 three_dest_state).length = three_dest_env.comm_size_) ∧
    count_pass three_dest_env 0 three_dest_state = [0, 3, 9] ∧
    count_pass three_dest_env 1
      { three_dest_state with
        node_send_lengths_ptr := [9, 0, 0], node_send_lengths_buffer := [0, 0, 0] } =
      [10, 0, 0] :=
  ⟨⟨by decide, (C26_count_pass three_dest_env 0 three_dest_state 0 (by decide)).1⟩,
    by decide, by decide⟩

/-- C27: buffer data is consumed in round 0 of `run_with_both`.  For targets whose queued
buffers are never empty (what `put` and `flush` queue): a destination `i` with queued buffer
data has a non-zero buffer estimate and is included in round 0 (`counts[i] >= 1 + buf_i`); at
the start of every round `loop >= 1` the estimate `node_send_lengths_buffer[i]` is 0 and
`send_data` is empty, so the guard `assert(loop == 0)` is never reached with `loop != 0`; in
such a round `use_buffer` is false in the expand pass and the slab of `i` is empty or is the
length word followed by exactly that many words of pointer origin; and a round loop that is
left is left at a round `l >= 1` in one of these states.  The condition on the targets holds
after `prepare` and is kept by every `put`. -/
theorem C27_buffer_data_round_zero (env : A2AEnv) (graph : Graph2DCSR) (state : SsspState)
    (node_ : List CommTarget) (stream : Stream) (vertices_pos : VPos)
    (hq : ∀ n ∈ node_, queued_nonempty n = true) (i : Nat) (hi : i < env.comm_size_) :
    ((node_at (run_with_both_init env graph state node_ stream vertices_pos) i).send_data
        ≠ [] →
      (run_with_both_init env graph state node_ stream
        vertices_pos).node_send_lengths_buffer.getD i 0 ≠ 0 ∧
      1 + (run_with_both_init env graph state node_ stream
          vertices_pos).node_send_lengths_buffer.getD i 0 ≤
        (count_pass env 0
          (run_with_both_init env graph state node_ stream vertices_pos)).getD i 0) ∧
    (∀ loop, 1 ≤ loop →
      (round_start env graph state
        (run_with_both_init env graph state node_ stream vertices_pos)
        loop).node_send_lengths_buffer.getD i 0 = 0 ∧
      (node_at (round_start env graph state
        (run_with_both_init env graph state node_ stream vertices_pos) loop) i).send_data
        = [] ∧
      ∀ c, c < env.comm_size_ → (c + env.comm_rank) % env.comm_size_ = i →
        (expand_acc env graph state
          (count_pass env loop (round_start env graph state
            (run_with_both_init env graph state node_ stream vertices_pos) loop))
          (round_start env graph state
            (run_with_both_init env graph state node_ stream vertices_pos) loop)
          c).1.node_send_lengths_buffer.getD i 0 = 0 ∧
        ((expand_pass env graph state
            (count_pass env loop (round_start env graph state
              (run_with_both_init env graph state node_ stream vertices_pos) loop))
            (round_start env graph state
              (run_with_both_init env graph state node_ stream vertices_pos)
              loop)).2.getD i 0 = 0 ∨
          (expand_pass env graph state
            (count_pass env loop (round_start env graph state
              (run_with_both_init env graph state node_ stream vertices_pos) loop))
            (round_start env graph state
              (run_with_both_init env graph state node_ stream vertices_pos)
              loop)).2.getD i 0 =
            1 + (expand_acc env graph state
              (count_pass env loop (round_start env graph state
                (run_with_both_init env graph state node_ stream vertices_pos) loop))
              (round_start env graph state
                (run_with_both_init env graph state node_ stream vertices_pos) loop)
              (c + 1)).1.stream
              (scatter_offset (count_pass env loop (round_start env graph state
                (run_with_both_init env graph state node_ stream vertices_pos) loop)) i))) ∧
    (∀ fuel st l, run_with_both env graph state node_ stream vertices_pos fuel =
        RunOutcome.finished st l →
      1 ≤ l ∧
      st = round_start env graph state
        (run_with_both_init env graph state node_ stream vertices_pos) l ∧
      st.node_send_lengths_buffer.getD i 0 = 0 ∧ (node_at st i).send_data = []) ∧
    (∀ (buffer_size_ : Nat), queued_nonempty (prepare buffer_size_ new_target) = true) ∧
    (∀ (buffer_size_ : Nat) (get_buffer ptr : Nat → Nat) (length : Nat) (n n2 : CommTarget),
      queued_nonempty n = true → put buffer_size_ get_buffer n ptr length = some n2 →
      queued_nonempty n2 = true) := by
  have hinit := run_with_both_init_send_data env graph state node_ stream vertices_pos hq i
  obtain ⟨c0, hc0, hci⟩ := dest_of_surj env hi
  refine ⟨?_, ?_, ?_, prepare_queued_nonempty,
    fun bs gb ptr len n n2 h hp => put_queued_nonempty bs gb n ptr len n2 h hp⟩
  · intro hne
    have hb : (run_with_both_init env graph state node_ stream
        vertices_pos).node_send_lengths_buffer.getD i 0 ≠ 0 := fun h => hne (hinit h)
    refine ⟨hb, ?_⟩
    subst hci
    rw [count_pass_getD env 0 _ hc0]
    exact spec_count_ge env 0 _ _ c0 hb
  · intro loop hl
    have hz := round_start_lens_buffer env graph state
      (run_with_both_init env graph state node_ stream vertices_pos) loop hl hi
    refine ⟨hz, round_start_send_data env graph state _ hi hinit loop hl, ?_⟩
    intro c hc hd
    have hd2 : dest_of env c = i := hd
    subst hd2
    have hspec := expand_acc_spec env graph state
      (count_pass env loop (round_start env graph state
        (run_with_both_init env graph state node_ stream vertices_pos) loop))
      (round_start env graph state
        (run_with_both_init env graph state node_ stream vertices_pos) loop) c
      (Nat.le_of_lt hc)
    have hb := (hspec.2 c hc).1
    rw [if_neg (fun h => absurd h.1 (Nat.lt_irrefl c)), hz] at hb
    refine ⟨hb, ?_⟩
    rw [expand_pass_send_lengths env graph state _ _ hc, expand_acc_succ]
    apply expand_step_no_buffer env graph state _ _ c hb
    · rw [hspec.1, count_pass_length]
      exact hi
    · exact (hspec.2 c hc).2.2.2 (Nat.le_refl _)
  · intro fuel st l h
    rw [run_with_both_eq] at h
    obtain ⟨_, h2, h3, _⟩ := run_with_both_loop_finished env graph state
      (run_with_both_init env graph state node_ stream vertices_pos) fuel 0 st l h
    refine ⟨h2, h3, ?_, ?_⟩
    · rw [h3]
      exact round_start_lens_buffer env graph state _ l h2 hi
    · rw [h3]
      exact round_start_send_data env graph state _ hi hinit l h2

/-- Witness for C27: three destinations on rank 1 with `max_size_per_node = 8`.  Destination 0
holds 14 words of buffer data and a pointer block estimated at 11 words: round 0 takes the
buffer data alone (count 15) and clears the estimate. -/
theorem C27_buffer_data_round_zero_witness :
    ((∀ n ∈ mixed_targets, queued_nonempty n = true) ∧ 0 < three_dest_env.comm_size_) ∧
    (∀ loop, 1 ≤ loop →
      (round_start three_dest_env e1_graph (e1_state 0)
        (run_with_both_init three_dest_env e1_graph (e1_state 0) mixed_targets (fun _ => 0)
          (fun _ => -1)) loop).node_send_lengths_buffer.getD 0 0 = 0) ∧
    (run_with_both_init three_dest_env e1_graph (e1_state 0) mixed_targets (fun _ => 0)
      (fun _ => -1)).node_send_lengths_buffer = [14, 0, 0] ∧
    (run_with_both_init three_dest_env e1_graph (e1_state 0) mixed_targets (fun _ => 0)
      (fun _ => -1)).node_send_lengths_ptr = [11, 0, 11] ∧
    count_pass three_dest_env 0
      (run_with_both_init three_dest_env e1_graph (e1_state 0) mixed_targets (fun _ => 0)
        (fun _ => -1)) = [15, 0, 0] ∧
    (round_start three_dest_env e1_graph (e1_state 0)
      (run_with_both_init three_dest_env e1_graph (e1_state 0) mixed_targets (fun _ => 0)
        (fun _ => -1)) 1).node_send_lengths_buffer = [0, 0, 0] :=
  ⟨⟨by decide, by decide⟩,
    fun loop hl =>
      ((C27_buffer_data_round_zero three_dest_env e1_graph (e1_state 0) mixed_targets
        (fun _ => 0) (fun _ => -1) (by decide) 0 (by decide)).2.1 loop hl).1,
    by decide, by decide, by decide, by decide⟩

/-- C28: termination of the round loop of `run_with_both`.  In every round `loop >= 1`, a
thread that meets a destination with a non-zero pointer estimate includes the first such
destination it meets, whatever its size, and the expand pass zeroes that estimate; so while
pointer data is pending the round schedules data and the number of destinations with pending
pointer data strictly decreases.  If no other rank has data from round `K` on, then with enough
fuel the loop aborts or is left at a round `l` with `1 <= l <= max K (comm_size_ + 1)`, the
first round from 1 on in which no rank schedules data; for a single rank (`K = 0`) that is at
most `comm_size_ + 1` rounds past round 0. -/
theorem C28_round_loop_terminates (env : A2AEnv) (graph : Graph2DCSR) (state : SsspState)
    (node_ : List CommTarget) (stream : Stream) (vertices_pos : VPos) (K fuel : Nat)
    (hK : ∀ l, K ≤ l → env.others_have_data l = false)
    (hf : max K (env.comm_size_ + 1) + 1 ≤ fuel) :
    (∀ (loop : Nat) (st : A2AState) (c : Nat), 1 ≤ loop → c < env.comm_size_ →
      st.node_send_lengths_ptr.getD ((c + env.comm_rank) % env.comm_size_) 0 ≠ 0 →
      ∃ c1, c1 ≤ c ∧ env.thread_of c1 = env.thread_of c ∧
        st.node_send_lengths_ptr.getD ((c1 + env.comm_rank) % env.comm_size_) 0 ≠ 0 ∧
        (∀ c2, c2 < c1 → env.thread_of c2 = env.thread_of c →
          st.node_send_lengths_ptr.getD ((c2 + env.comm_rank) % env.comm_size_) 0 = 0) ∧
        (count_pass env loop st).getD ((c1 + env.comm_rank) % env.comm_size_) 0 >
          st.node_send_lengths_buffer.getD ((c1 + env.comm_rank) % env.comm_size_) 0 + 1 ∧
        (expand_pass env graph state (count_pass env loop st) st).1.node_send_lengths_ptr.getD
          ((c1 + env.comm_rank) % env.comm_size_) 0 = 0) ∧
    (∀ (loop : Nat) (st : A2AState), 1 ≤ loop → 0 < pending env st →
      0 < (count_pass env loop st).sum ∧
      pending env (expand_pass env graph state (count_pass env loop st) st).1 <
        pending env st) ∧
    ((∃ l, run_with_both env graph state node_ stream vertices_pos fuel =
        RunOutcome.aborted l) ∨
      (∃ st l, run_with_both env graph state node_ stream vertices_pos fuel =
          RunOutcome.finished st l ∧
        1 ≤ l ∧ l ≤ max K (env.comm_size_ + 1) ∧
        (count_pass env l st).sum = 0 ∧ env.others_have_data l = false ∧
        ∀ j, 1 ≤ j → j < l →
          (count_pass env j (round_start env graph state
            (run_with_both_init env graph state node_ stream vertices_pos) j)).sum > 0 ∨
          env.others_have_data j = true)) := by
  refine ⟨?_, ?_, ?_⟩
  · intro loop st c hl hc hp
    obtain ⟨c1, g1, g2, g3, g4, g5⟩ := thread_includes env loop st.node_send_lengths_ptr
      st.node_send_lengths_buffer (by omega) c hc hp
    have hc1 : c1 < env.comm_size_ := by omega
    refine ⟨c1, g1, g2, g3, g4, ?_, ?_⟩
    · have h := count_pass_getD env loop st hc1
      have hg := (spec_count_gt_iff env loop st.node_send_lengths_ptr
        st.node_send_lengths_buffer c1).2 g5
      rw [← h] at hg
      exact hg
    · have h := expand_pass_lens_ptr env graph state loop st hc1
      rw [if_pos g5] at h
      exact h
  · intro loop st hl hp
    exact ⟨count_pass_sum_pos env loop st (by omega) hp,
      pending_expand_lt env graph state loop st (by omega) hp⟩
  · rw [run_with_both_eq]
    rcases run_with_both_terminates env graph state K hK fuel hf
      (run_with_both_init env graph state node_ stream vertices_pos) with h | ⟨st, l, h, hl⟩
    · exact Or.inl h
    · right
      obtain ⟨_, h2, _, h4, h5, h6⟩ := run_with_both_loop_finished env graph state
        (run_with_both_init env graph state node_ stream vertices_pos) fuel 0 st l h
      exact ⟨st, l, h, h2, hl, h4, h5, fun j hj1 hj2 => h6 j (Nat.zero_le _) hj2 hj1⟩

/-- Witness for C28: a single rank with three destinations, each holding a pointer block
estimated at 11 words, beyond `max_size_per_node = 8`.  Round 0 takes none of them, the rounds
1, 2 and 3 take one each, and the loop is left in round `4 = comm_size_ + 1`. -/
theorem C28_round_loop_terminates_witness :
    ((∀ l, 0 ≤ l → three_dest_env.others_have_data l = false) ∧
      max 0 (three_dest_env.comm_size_ + 1) + 1 ≤ 5) ∧
    ((∃ l, run_with_both three_dest_env e1_graph (e1_state 0) ptr_targets (fun _ => 0)
        (fun _ => -1) 5 = RunOutcome.aborted l) ∨
      (∃ st l, run_with_both three_dest_env e1_graph (e1_state 0) ptr_targets (fun _ => 0)
          (fun _ => -1) 5 = RunOutcome.finished st l ∧
        1 ≤ l ∧ l ≤ max 0 (three_dest_env.comm_size_ + 1) ∧
        (count_pass three_dest_env l st).sum = 0 ∧
        three_dest_env.others_have_data l = false ∧
        ∀ j, 1 ≤ j → j < l →
          (count_pass three_dest_env j (round_start three_dest_env e1_graph (e1_state 0)
            (run_with_both_init three_dest_env e1_graph (e1_state 0) ptr_targets
              (fun _ => 0) (fun _ => -1)) j)).sum > 0 ∨
          three_dest_env.others_have_data j = true)) ∧
    exit_round (run_with_both three_dest_env e1_graph (e1_state 0) ptr_targets (fun _ => 0)
      (fun _ => -1) 5) = some 4 ∧
    (List.range 5).map (fun j => pending three_dest_env
      (round_start three_dest_env e1_graph (e1_state 0)
        (run_with_both_init three_dest_env e1_graph (e1_state 0) ptr_targets (fun _ => 0)
          (fun _ => -1)) j)) = [3, 3, 2, 1, 0] :=
  ⟨⟨fun _ _ => rfl, by decide⟩,
    (C28_round_loop_terminates three_dest_env e1_graph (e1_state 0) ptr_targets (fun _ => 0)
      (fun _ => -1) 0 5 (fun _ _ => rfl) (by decide)).2.2,
    by decide, by decide⟩

/-- C21: error handling of `MpiRequestManager`, for a pool whose free list names each slot once
at most and only slots of the pool (true of a new pool and kept by `submit_handler`).
`submit_handler` throws if and only if the free list is empty.  Otherwise it returns a slot
that was free, the new free list is the old one without exactly that slot, the handler is
recorded for the slot, and every other handler, every request, `finish_count` and
`MAX_REQUESTS` are unchanged.  `run` throws "no active request" whenever `finish_count`,
after the addition of its argument, is positive and every slot is free; so does every later
iteration of its loop that finds `finish_count > 0` and every slot free. -/
theorem C21_submit_and_run (m : MpiRequestManager) (handler : Nat) (h : free_list_ok m) :
    ((∃ e, m.submit_handler handler = Except.error e) ↔ m.empty_list = []) ∧
    (m.empty_list ≠ [] → ∃ m2 slot, m.submit_handler handler = Except.ok (m2, slot)) ∧
    (∀ m2 slot, m.submit_handler handler = Except.ok (m2, slot) →
      slot ∈ m.empty_list ∧ slot < m.MAX_REQUESTS ∧ slot ∉ m2.empty_list ∧
      (∀ s, s ≠ slot → (s ∈ m2.empty_list ↔ s ∈ m.empty_list)) ∧
      m2.empty_list ++ [slot] = m.empty_list ∧
      m2.handlers slot = some handler ∧
      (∀ s, s ≠ slot → m2.handlers s = m.handlers s) ∧
      m2.reqs = m.reqs ∧ m2.finish_count = m.finish_count ∧
      m2.MAX_REQUESTS = m.MAX_REQUESTS ∧ free_list_ok m2) ∧
    (∀ (waitany : (Nat → Option MpiRequest) → Option Nat)
        (complete : Nat → MpiRequestManager → Except MpiError MpiRequestManager)
        (fuel : Nat) (k : Int),
      m.finish_count + k > 0 → (∀ s, s < m.MAX_REQUESTS → s ∈ m.empty_list) →
      MpiRequestManager.run waitany complete (fuel + 1) k m =
        ManagerOutcome.raised MpiError.no_active_request) ∧
    (∀ (waitany : (Nat → Option MpiRequest) → Option Nat)
        (complete : Nat → MpiRequestManager → Except MpiError MpiRequestManager)
        (fuel : Nat),
      m.finish_count > 0 → (∀ s, s < m.MAX_REQUESTS → s ∈ m.empty_list) →
      MpiRequestManager.run_loop waitany complete (fuel + 1) m =
        ManagerOutcome.raised MpiError.no_active_request) := by
  have hfree := all_free_iff m h
  refine ⟨?_, ?_, ?_, ?_, ?_⟩
  · constructor
    · rintro ⟨e, he⟩
      by_cases h0 : m.empty_list.length = 0
      · exact List.length_eq_zero.1 h0
      · simp [MpiRequestManager.submit_handler, h0] at he
    · intro h0
      exact ⟨MpiError.no_empty_request, by simp [MpiRequestManager.submit_handler, h0]⟩
  · intro hne
    have h0 : m.empty_list.length ≠ 0 := fun h0 => hne (List.length_eq_zero.1 h0)
    refine ⟨{ m with
        empty_list := m.empty_list.dropLast
        handlers := upd m.handlers (m.empty_list.getLastD 0) (some handler) },
      m.empty_list.getLastD 0, ?_⟩
    simp only [MpiRequestManager.submit_handler, h0, if_false]
  · intro m2 slot hs
    by_cases h0 : m.empty_list.length = 0
    · simp [MpiRequestManager.submit_handler, h0] at hs
    · have hne : m.empty_list ≠ [] := fun hn => h0 (by rw [hn]; rfl)
      simp only [MpiRequestManager.submit_handler, h0, if_false, Except.ok.injEq,
        Prod.mk.injEq] at hs
      obtain ⟨hm, hslot⟩ := hs
      subst hm
      subst hslot
      have hmem := getLastD_mem m.empty_list hne
      have happ := dropLast_append_getLastD m.empty_list hne
      have hnd : (m.empty_list.dropLast ++ [m.empty_list.getLastD 0]).Nodup := by
        rw [happ]
        exact h.1
      have hnot : m.empty_list.getLastD 0 ∉ m.empty_list.dropLast := by
        intro hin
        have := (List.nodup_append.1 hnd).2.2
        exact this hin (List.mem_singleton.2 rfl)
      refine ⟨hmem, h.2 _ hmem, hnot, ?_, happ, upd_same _ _ _, ?_, rfl, rfl, rfl, ?_, ?_⟩
      · intro s hs
        constructor
        · intro hin
          exact List.dropLast_subset _ hin
        · intro hin
          rw [← happ] at hin
          rcases List.mem_append.1 hin with h1 | h1
          · exact h1
          · exact absurd (List.mem_singleton.1 h1) hs
      · intro s hs
        exact upd_ne _ _ hs
      · exact (List.nodup_append.1 hnd).1
      · intro s hs
        exact h.2 s (List.dropLast_subset _ hs)
  · intro waitany complete fuel k hk hall
    have hlen := hfree.1 hall
    simp only [MpiRequestManager.run, MpiRequestManager.run_loop, hk, if_true, hlen]
  · intro waitany complete fuel hk hall
    have hlen := hfree.1 hall
    simp only [MpiRequestManager.run_loop, hk, if_true, hlen]

/-- Witness for C21: a pool of two slots.  The first `submit_handler` returns slot 1 and leaves
slot 0 free, the third one throws; `run(1)` on the new pool throws "no active request". -/
theorem C21_submit_and_run_witness :
    free_list_ok (MpiRequestManager.new 2) ∧
    ((∃ e, (MpiRequestManager.new 2).submit_handler 7 = Except.error e) ↔
      (MpiRequestManager.new 2).empty_list = []) ∧
    (∃ m2, (MpiRequestManager.new 2).submit_handler 7 = Except.ok (m2, 1) ∧
      m2.empty_list = [0] ∧ m2.handlers 1 = some 7 ∧
      ∃ m3, m2.submit_handler 8 = Except.ok (m3, 0) ∧ m3.empty_list = [] ∧
        m3.submit_handler 9 = Except.error MpiError.no_empty_request) ∧
    MpiRequestManager.run (fun _ => none) (fun _ m => Except.ok m) 1 1
      (MpiRequestManager.new 2) = ManagerOutcome.raised MpiError.no_active_request :=
  ⟨free_list_ok_new 2,
    (C21_submit_and_run (MpiRequestManager.new 2) 7 (free_list_ok_new 2)).1,
    ⟨_, rfl, rfl, rfl, _, rfl, rfl, rfl⟩,
    rfl⟩

/-- C30: the state machine of the three all-gather handlers under `MpiRequestManager::run`,
for `size >= 1` (`steps >= 1`, and `width >= 1` for `AllgatherStep2Handler`).  With the fanout
`F` = 4, 2 or `width*2`: after `q*F + r` completions (`r < F`, `q + 2 <= size`) the handler has
posted `q + 1` steps of exactly `F` requests each, `current = q + 2`, `complete_count = r`
(so `next()` has run at every `F`-th completion only, and the step it posted has reset
`complete_count` to 0), `F - r` requests are outstanding and `finished()` has not been called.
After `(size - 1)*F` completions, which is inside `start` when `size = 1`, exactly `size - 1`
steps have been posted, `finished()` has been called exactly once, and no request is
outstanding, so `complete` is not called again and nothing more is posted. -/
theorem C30_handler_state_machine (count offset : Nat → Nat)
    (rank size left right tag complete_count : Nat) (comm : COMM_2D) (unit_x unit_y : Int)
    (steps width : Nat) (hsize : 1 ≤ size) (hsteps : 1 ≤ steps) (hwidth : 1 ≤ width) :
    ((∀ q r, r < 4 → q + 2 ≤ size →
        ∃ d, AllgatherHandler.completions count offset (q * 4 + r)
            (AllgatherHandler.driven_start count offset rank size left right tag
              complete_count) = some d ∧
          Driven.posting (fun _ => 4) (fun h => h.current) (fun h => h.size) 4 size q r d) ∧
      ∃ d, AllgatherHandler.completions count offset ((size - 1) * 4)
          (AllgatherHandler.driven_start count offset rank size left right tag
            complete_count) = some d ∧
        Driven.done 4 size d ∧
        ∀ k, AllgatherHandler.completions count offset (k + 1) d = none) ∧
    ((∀ q r, r < 2 → q + 2 ≤ steps →
        ∃ d, AllgatherStep1Handler.completions (q * 2 + r)
            (AllgatherStep1Handler.driven_start count offset comm unit_x unit_y steps tag
              complete_count) = some d ∧
          Driven.posting (fun _ => 2) (fun h => h.current) (fun h => h.steps) 2 steps q r d) ∧
      ∃ d, AllgatherStep1Handler.completions ((steps - 1) * 2)
          (AllgatherStep1Handler.driven_start count offset comm unit_x unit_y steps tag
            complete_count) = some d ∧
        Driven.done 2 steps d ∧
        ∀ k, AllgatherStep1Handler.completions (k + 1) d = none) ∧
    ((∀ q r, r < width * 2 → q + 2 ≤ steps →
        ∃ d, AllgatherStep2Handler.completions (q * (width * 2) + r)
            (AllgatherStep2Handler.driven_start count offset comm unit_x unit_y steps width
              tag complete_count) = some d ∧
          Driven.posting (fun h => h.width * 2) (fun h => h.current) (fun h => h.steps)
            (width * 2) steps q r d) ∧
      ∃ d, AllgatherStep2Handler.completions ((steps - 1) * (width * 2))
          (AllgatherStep2Handler.driven_start count offset comm unit_x unit_y steps width
            tag complete_count) = some d ∧
        Driven.done (width * 2) steps d ∧
        ∀ k, AllgatherStep2Handler.completions (k + 1) d = none) := by
  refine ⟨⟨?_, ?_⟩, ⟨?_, ?_⟩, ⟨?_, ?_⟩⟩
  · intro q r hr hq
    exact Driven.completions_posting (fun _ => 4) (fun h => decide (h.current ≥ h.size))
      (AllgatherHandler.next count offset) (fun h => h.current) (fun h => h.size)
      (fun _ => rfl) (ring_next_step count offset)
      (AllgatherHandler.fields rank size left right tag) complete_count rfl (q * 4 + r) q r
      rfl hr hq
  · exact Driven.completions_done (fun _ => 4) (fun h => decide (h.current ≥ h.size))
      (AllgatherHandler.next count offset) (fun h => h.current) (fun h => h.size)
      (fun _ => rfl) (ring_next_step count offset)
      (AllgatherHandler.fields rank size left right tag) complete_count rfl hsize
      (Nat.succ_pos 3)
  · intro q r hr hq
    exact Driven.completions_posting (fun _ => 2) (fun h => decide (h.current ≥ h.steps))
      AllgatherStep1Handler.next (fun h => h.current) (fun h => h.steps)
      (fun _ => rfl) step1_next_step
      (AllgatherStep1Handler.fields count offset comm unit_x unit_y steps tag)
      complete_count rfl (q * 2 + r) q r rfl hr hq
  · exact Driven.completions_done (fun _ => 2) (fun h => decide (h.current ≥ h.steps))
      AllgatherStep1Handler.next (fun h => h.current) (fun h => h.steps)
      (fun _ => rfl) step1_next_step
      (AllgatherStep1Handler.fields count offset comm unit_x unit_y steps tag)
      complete_count rfl hsteps (Nat.succ_pos 1)
  · intro q r hr hq
    exact Driven.completions_posting (fun h => h.width * 2)
      (fun h => decide (h.current ≥ h.steps))
      AllgatherStep2Handler.next (fun h => h.current) (fun h => h.steps)
      (fun _ => rfl) step2_next_step
      (AllgatherStep2Handler.fields count offset comm unit_x unit_y steps width tag)
      complete_count rfl (q * (width * 2) + r) q r rfl hr hq
  · exact Driven.completions_done (fun h => h.width * 2)
      (fun h => decide (h.current ≥ h.steps))
      AllgatherStep2Handler.next (fun h => h.current) (fun h => h.steps)
      (fun _ => rfl) step2_next_step
      (AllgatherStep2Handler.fields count offset comm unit_x unit_y steps width tag)
      complete_count rfl hsteps (Nat.mul_pos hwidth (Nat.succ_pos 1))

/-- Witness for C30: rank 0 of a ring of three ranks.  After five completions two steps are
posted and one call of the second step has completed; after eight completions `finished()`
has been called once, `complete_count` is left at 4 and nothing is outstanding.  With
`size = 1` the call of `finished()` is made by `start`, which posts nothing and leaves
`complete_count` as it was. -/
theorem C30_handler_state_machine_witness :
    ((1 : Nat) ≤ 3 ∧ (1 : Nat) ≤ 3 ∧ (1 : Nat) ≤ 2) ∧
    (∃ d, AllgatherHandler.completions (fun _ => 4) (fun i => 4 * i) ((3 - 1) * 4)
        (AllgatherHandler.driven_start (fun _ => 4) (fun i => 4 * i) 0 3 2 1 1 9) = some d ∧
      Driven.done 4 3 d ∧
      ∀ k, AllgatherHandler.completions (fun _ => 4) (fun i => 4 * i) (k + 1) d = none) ∧
    (AllgatherHandler.completions (fun _ => 4) (fun i => 4 * i) 5
        (AllgatherHandler.driven_start (fun _ => 4) (fun i => 4 * i) 0 3 2 1 1 9)).map
      (fun d => (d.posted.map List.length, d.handler.current, d.complete_count, d.active,
        d.finish_calls)) = some ([4, 4], 3, 1, 3, 0) ∧
    (AllgatherHandler.completions (fun _ => 4) (fun i => 4 * i) 8
        (AllgatherHandler.driven_start (fun _ => 4) (fun i => 4 * i) 0 3 2 1 1 9)).map
      (fun d => (d.posted.map List.length, d.handler.current, d.complete_count, d.active,
        d.finish_calls)) = some ([4, 4], 3, 4, 0, 1) ∧
    (AllgatherHandler.completions (fun _ => 4) (fun i => 4 * i) 9
        (AllgatherHandler.driven_start (fun _ => 4) (fun i => 4 * i) 0 3 2 1 1 9)).map
      (fun d => d.finish_calls) = none ∧
    (fun d : Driven AllgatherHandler => (d.posted.map List.length, d.complete_count,
        d.active, d.finish_calls))
      (AllgatherHandler.driven_start (fun _ => 4) (fun i => 4 * i) 0 1 0 0 1 9) =
      ([], 9, 0, 1) ∧
    (AllgatherStep2Handler.completions 4
        (AllgatherStep2Handler.driven_start (fun _ => 4) (fun i => 4 * i)
          (comm_2d 2 3 (fun r => r) 0) 0 1 3 2 1 9)).map
      (fun d => (d.posted.map List.length, d.handler.current, d.complete_count, d.active,
        d.finish_calls)) = some ([4, 4], 3, 0, 4, 0) :=
  ⟨⟨by decide, by decide, by decide⟩,
    (C30_handler_state_machine (fun _ => 4) (fun i => 4 * i) 0 3 2 1 1 9
      (comm_2d 2 3 (fun r => r) 0) 0 1 3 2 (by decide) (by decide) (by decide)).1.2,
    by decide, by decide, by decide, by decide, by decide⟩

/-- C34, refuted as stated: a single rank with `max_size / es = 4` words and
`max_size_per_node = 4` words whose only destination holds one full buffer of four words (one
`put` of four words after `prepare()` with `buffer_size_ = 4`).  The buffer estimate 4 is not
above `max_size_per_node`, the count of the destination is `1 + 4` with the leading word, the
send count 5 is above `max_size / es = 4`, and the round loop aborts in round 0. -/
theorem C34_round0_abort_counterexample :
    (full_buffer_node.reserved_size_ = 4 ∧ full_buffer_node.filled_size_ = 4 ∧
      full_buffer_node.cur_buf.isSome = true) ∧
    (run_with_both_init tiny_env e1_graph (e1_state 0) [full_buffer_node] (fun _ => 0)
      (fun _ => -1)).node_send_lengths_buffer = [4] ∧
    tiny_env.max_size / (tiny_env.es * tiny_env.comm_size_) = 4 ∧
    tiny_env.max_size / tiny_env.es = 4 ∧
    count_pass tiny_env 0
      (run_with_both_init tiny_env e1_graph (e1_state 0) [full_buffer_node] (fun _ => 0)
        (fun _ => -1)) = [5] ∧
    abort_round (run_with_both tiny_env e1_graph (e1_state 0) [full_buffer_node] (fun _ => 0)
      (fun _ => -1) 1) = some 0 := by
  decide

/-- C34, amended: in round 0 of `run_with_both`, if every destination's buffer estimate is at
most `max_size_per_node = max_size / (es * comm_size_)`, then every count of the count pass is
at most `max_size_per_node + 1`, and the send count is at most `max_size / es` plus one word
for every destination with a non-zero count (at most `comm_size_` of them).  When the number
of destinations with a non-zero count, times `max_size_per_node + 1`, is at most
`max_size / es`, the send count is at most `max_size / es` and the round loop does not abort
in round 0. -/
theorem C34_round0_send_count (env : A2AEnv) (graph : Graph2DCSR) (state : SsspState)
    (st : A2AState)
    (hb : ∀ i, i < env.comm_size_ → st.node_send_lengths_buffer.getD i 0 ≤
      env.max_size / (env.es * env.comm_size_)) :
    (∀ x ∈ count_pass env 0 st, x ≤ env.max_size / (env.es * env.comm_size_) + 1) ∧
    (count_pass env 0 st).sum ≤ env.max_size / env.es +
      ((count_pass env 0 st).filter (fun x => decide (x ≠ 0))).length ∧
    ((count_pass env 0 st).filter (fun x => decide (x ≠ 0))).length ≤ env.comm_size_ ∧
    (((count_pass env 0 st).filter (fun x => decide (x ≠ 0))).length *
        (env.max_size / (env.es * env.comm_size_) + 1) ≤ env.max_size / env.es →
      (count_pass env 0 st).sum ≤ env.max_size / env.es ∧
      ∀ fuel, abort_round (run_with_both_loop env graph state fuel 0 st) ≠ some 0) := by
  have hx := count_pass_round0_le env st hb
  have hsum := sum_le_nonzero_mul (count_pass env 0 st) _ hx
  have hlen : ((count_pass env 0 st).filter (fun x => decide (x ≠ 0))).length ≤
      env.comm_size_ := by
    have := List.length_filter_le (fun x => decide (x ≠ 0)) (count_pass env 0 st)
    rw [count_pass_length] at this
    exact this
  have hM := per_node_mul_le env.max_size env.es env.comm_size_
  refine ⟨fun x h => by have := hx x h; omega, ?_, hlen, ?_⟩
  · have h1 : ((count_pass env 0 st).filter (fun x => decide (x ≠ 0))).length *
        (env.max_size / (env.es * env.comm_size_)) ≤
        env.comm_size_ * (env.max_size / (env.es * env.comm_size_)) :=
      Nat.mul_le_mul_right _ hlen
    rw [Nat.mul_add, Nat.mul_one] at hsum
    omega
  · intro hfit
    have h2 : ((count_pass env 0 st).filter (fun x => decide (x ≠ 0))).length *
        (1 + env.max_size / (env.es * env.comm_size_)) =
        ((count_pass env 0 st).filter (fun x => decide (x ≠ 0))).length *
        (env.max_size / (env.es * env.comm_size_) + 1) := by
      rw [Nat.add_comm]
    have hle : (count_pass env 0 st).sum ≤ env.max_size / env.es := by omega
    refine ⟨hle, ?_⟩
    intro fuel hab
    cases hr : run_with_both_loop env graph state fuel 0 st with
    | finished st2 l =>
      rw [hr] at hab
      simp [abort_round] at hab
    | out_of_fuel =>
      rw [hr] at hab
      simp [abort_round] at hab
    | aborted l =>
      rw [hr] at hab
      simp only [abort_round, Option.some.injEq] at hab
      have := (run_with_both_loop_aborted env graph state fuel 0 st l hr).2 hab
      omega

/-- Witness for C34: three destinations with `max_size_per_node = 8` and `max_size / es = 24`;
the buffer estimates 0, 2, 3 are below 8, the counts of round 0 are 0, 3 and 9, two of them
are non-zero and `2 * (8 + 1) <= 24`, so that the send count 12 is at most 24 and the round loop
does not abort in round 0. -/
theorem C34_round0_send_count_witness :
    (∀ i, i < three_dest_env.comm_size_ →
      three_dest_state.node_send_lengths_buffer.getD i 0 ≤
        three_dest_env.max_size / (three_dest_env.es * three_dest_env.comm_size_)) ∧
    ((count_pass three_dest_env 0 three_dest_state).filter
        (fun x => decide (x ≠ 0))).length *
      (three_dest_env.max_size / (three_dest_env.es * three_dest_env.comm_size_) + 1) ≤
        three_dest_env.max_size / three_dest_env.es ∧
    ((count_pass three_dest_env 0 three_dest_state).sum ≤
        three_dest_env.max_size / three_dest_env.es ∧
      ∀ fuel, abort_round (run_with_both_loop three_dest_env e1_graph (e1_state 0) fuel 0
        three_dest_state) ≠ some 0) ∧
    count_pass three_dest_env 0 three_dest_state = [0, 3, 9] ∧
    three_dest_env.max_size / (three_dest_env.es * three_dest_env.comm_size_) = 8 ∧
    three_dest_env.max_size / three_dest_env.es = 24 :=
  ⟨by decide, by decide,
    (C34_round0_send_count three_dest_env e1_graph (e1_state 0) three_dest_state
      (by decide)).2.2.2 (by decide),
    by decide, by decide, by decide⟩

/-- C32: `put` with one producer thread, from `prepare()`.  For every sequence of calls with
`0 < length <= buffer_size_` and every call `k` of it: the calls before it have returned and
left `reserved_size_ = filled_size_ <= buffer_size_`; call `k` enters neither wait loop with
its condition true, makes its call of `add` with `cur_buf.ptr` non-null, `offset >= 0` and
`offset + length <= buffer_size_`, returns, and leaves `reserved_size_ = filled_size_ <=
buffer_size_` again.  The first call takes the swap branch: it gets a buffer from
`get_send_buffer()` and writes at offset 0 of it. -/
theorem C32_put_single_thread (buffer_size_ : Nat) (get_buffer : Nat → Nat)
    (calls : List Buffer) (h : ∀ c ∈ calls, 0 < c.length ∧ c.length ≤ buffer_size_)
    (k : Nat) (c : Buffer) (hk : calls[k]? = some c) :
    ∃ node node2,
      put_calls buffer_size_ get_buffer (prepare buffer_size_ new_target) (calls.take k) =
        some node ∧
      node.reserved_size_ = node.filled_size_ ∧ node.filled_size_ ≤ buffer_size_ ∧
      put_waits buffer_size_ node c.length = false ∧
      put buffer_size_ get_buffer node c.ptr c.length = some node2 ∧
      put_calls buffer_size_ get_buffer (prepare buffer_size_ new_target)
        (calls.take (k + 1)) = some node2 ∧
      node2.reserved_size_ = node2.filled_size_ ∧ node2.filled_size_ ≤ buffer_size_ ∧
      ∃ a, put_add_call buffer_size_ node c.length = some a ∧ a.non_null = true ∧
        a.length = c.length ∧ 0 ≤ a.offset ∧ a.offset + a.length ≤ buffer_size_ ∧
        (k = 0 → a.swapped = true ∧ a.offset = 0 ∧
          node2.cur_buf = some ⟨provider_add get_buffer c.ptr 0 c.length, 0⟩) := by
  have hcm : c ∈ calls := List.getElem?_mem hk
  have hc := h c hcm
  obtain ⟨node, groups, cur, hp, hinv⟩ :=
    @PutInv_calls buffer_size_ get_buffer (calls.take k) _ _ _ _ (PutInv_prepare buffer_size_)
      (fun c hc => h c (List.mem_of_mem_take hc))
  obtain ⟨hw, a, ha1, ha2, ha3, ha4, ha5, ha6⟩ := put_call_spec get_buffer hinv c hc
  obtain ⟨node2, groups2, cur2, hp2, hinv2⟩ := @PutInv_put _ get_buffer _ _ _ _ hinv c hc
  refine ⟨node, node2, hp, hinv.sizes.1, hinv.sizes.2, hw, hp2, ?_, hinv2.sizes.1,
    hinv2.sizes.2, a, ha1, ha2, ha3, Nat.zero_le _, ha4, ?_⟩
  · rw [take_succ_getElem? calls k c hk, put_calls_append, hp]
    simp only [put_calls, hp2]
  · intro hk0
    subst hk0
    simp only [List.take_zero, put_calls, Option.some.injEq] at hp
    subst hp
    have hsw : a.swapped = true := ha5.2 (by
      show buffer_size_ + c.length > buffer_size_
      omega)
    obtain ⟨h0, n2, hn2, hcur⟩ := ha6 hsw
    rw [hp2] at hn2
    injection hn2 with hn2
    subst hn2
    exact ⟨hsw, h0, hcur⟩

/-- Witness for C32: the second of three calls of 2, 2 and 3 words with `buffer_size_ = 4`
writes at offset 2 of the current buffer; the third does not fit and swaps the buffer. -/
theorem C32_put_single_thread_witness :
    ((∀ c ∈ three_puts, 0 < c.length ∧ c.length ≤ 4) ∧ three_puts[1]?.isSome = true) ∧
    (∀ c, three_puts[1]? = some c →
      ∃ node node2,
        put_calls 4 (fun _ => 0) (prepare 4 new_target) (three_puts.take 1) = some node ∧
        node.reserved_size_ = node.filled_size_ ∧ node.filled_size_ ≤ 4 ∧
        put_waits 4 node c.length = false ∧
        put 4 (fun _ => 0) node c.ptr c.length = some node2 ∧
        put_calls 4 (fun _ => 0) (prepare 4 new_target) (three_puts.take (1 + 1)) =
          some node2 ∧
        node2.reserved_size_ = node2.filled_size_ ∧ node2.filled_size_ ≤ 4 ∧
        ∃ a, put_add_call 4 node c.length = some a ∧ a.non_null = true ∧
          a.length = c.length ∧ 0 ≤ a.offset ∧ a.offset + a.length ≤ 4 ∧
          (1 = 0 → a.swapped = true ∧ a.offset = 0 ∧
            node2.cur_buf = some ⟨provider_add (fun _ => 0) c.ptr 0 c.length, 0⟩)) ∧
    ((put_calls 4 (fun _ => 0) (prepare 4 new_target) (three_puts.take 1)).bind
      (fun n => put_add_call 4 n 2)) = some ⟨true, 2, 2, false⟩ ∧
    ((put_calls 4 (fun _ => 0) (prepare 4 new_target) (three_puts.take 2)).bind
      (fun n => put_add_call 4 n 3)) = some ⟨true, 0, 3, true⟩ ∧
    put_add_call 4 (prepare 4 new_target) 2 = some ⟨true, 0, 2, true⟩ :=
  ⟨⟨by decide, by decide⟩,
    fun c hc => C32_put_single_thread 4 (fun _ => 0) three_puts (by decide) 1 c hc,
    by decide, by decide, by decide⟩

/-- C35: index ranges of the all-gather handlers, as `my_allgatherv_2d` calls them (rank
`r < size` on the ring with its two neighbours as `left` and `right`; a process `p` of the
`size_x × size_y` grid and one of the four directions, with `steps` the grid size along it and
`width` the grid size across it).  `AllgatherHandler::next()` reads `count[]` and `offset[]`
exactly in its calls number `m + 1` with `m + 1 < size`, and the four indices it reads with are
in `[0, size)`.  In `AllgatherStep1Handler::get_rank(diff)` for `-1 <= diff <= steps` and in
`AllgatherStep2Handler::get_rank(step_diff, idx)` for `-1 <= step_diff <= steps` and
`0 <= idx < width`, both operands of `%` are non-negative and the index
`pos_x + pos_y * size_x` into `rank_map` is in `[0, size_x * size_y)`. -/
theorem C35_handler_indices (count offset : Nat → Nat) (size tag r : Nat) (sx sy : Nat)
    (rm : Nat → Nat) (p : Nat) (dir : Dir) (hr : r < size) (hp : p < sx * sy) :
    (∀ m,
      ((AllgatherHandler.after count offset r size ((r + size - 1) % size)
          ((r + size + 1) % size) tag m).current <
        (AllgatherHandler.after count offset r size ((r + size - 1) % size)
          ((r + size + 1) % size) tag m).size ↔ m + 1 < size) ∧
      (m + 1 < size →
        ∀ x ∈ (AllgatherHandler.after count offset r size ((r + size - 1) % size)
          ((r + size + 1) % size) tag m).read_indices, 0 ≤ x ∧ x < (size : Int))) ∧
    (∀ diff : Int, -1 ≤ diff → diff ≤ (dir.size sx sy : Int) →
      0 ≤ AllgatherStep1Handler.operand_x (comm_2d sx sy rm p) dir.unit_x diff ∧
      0 ≤ AllgatherStep1Handler.operand_y (comm_2d sx sy rm p) dir.unit_y diff ∧
      0 ≤ AllgatherStep1Handler.map_index (comm_2d sx sy rm p) dir.unit_x dir.unit_y diff ∧
      AllgatherStep1Handler.map_index (comm_2d sx sy rm p) dir.unit_x dir.unit_y diff <
        ((sx * sy : Nat) : Int) ∧
      AllgatherStep1Handler.get_rank (comm_2d sx sy rm p) dir.unit_x dir.unit_y diff =
        rm (AllgatherStep1Handler.map_index (comm_2d sx sy rm p) dir.unit_x dir.unit_y
          diff).toNat) ∧
    (∀ step_diff idx : Int, -1 ≤ step_diff → step_diff ≤ (dir.size sx sy : Int) → 0 ≤ idx →
      idx < (dir.width sx sy : Int) →
      0 ≤ AllgatherStep2Handler.operand_x (comm_2d sx sy rm p) dir.unit_x step_diff idx ∧
      0 ≤ AllgatherStep2Handler.operand_y (comm_2d sx sy rm p) dir.unit_y step_diff idx ∧
      0 ≤ AllgatherStep2Handler.map_index (comm_2d sx sy rm p) dir.unit_x dir.unit_y
        step_diff idx ∧
      AllgatherStep2Handler.map_index (comm_2d sx sy rm p) dir.unit_x dir.unit_y step_diff
        idx < ((sx * sy : Nat) : Int) ∧
      AllgatherStep2Handler.get_rank (comm_2d sx sy rm p) dir.unit_x dir.unit_y step_diff
        idx =
        rm (AllgatherStep2Handler.map_index (comm_2d sx sy rm p) dir.unit_x dir.unit_y
          step_diff idx).toNat) := by
  obtain ⟨hx, hy⟩ := grid_pos hp
  refine ⟨?_, ?_, ?_⟩
  · intro m
    obtain ⟨c1, c2, c3⟩ := ring_after_current count offset size tag r hr m
    refine ⟨?_, ?_⟩
    · rw [c2]
      constructor
      · intro h
        by_contra hn
        have := c3 (by omega)
        omega
      · intro h
        rw [c1 h]
        exact h
    · intro hm
      cases m with
      | zero => exact ring_read_indices_fields size r _ _ tag hr
      | succ j =>
        rw [ring_after_succ count offset size tag r hr j (by omega),
          ring_read_indices_handler size tag j r (by omega)]
        have h0 : 0 < size := by omega
        have u1 := ring_up_lt size (j + 1) r h0
        have u2 := ring_up_lt size (j + 2) r h0
        have d1 := ring_dn_lt size (j + 1) r h0
        have d2 := ring_dn_lt size (j + 2) r h0
        intro x hx
        simp only [List.mem_cons, List.mem_singleton, List.not_mem_nil, or_false] at hx
        rcases hx with rfl | rfl | rfl | rfl <;> omega
  · intro diff h1 h2
    obtain ⟨o1, o2⟩ := step1_operands sx sy rm dir p diff h1 h2 hp
    obtain ⟨i1, i2⟩ := map_index_range (comm_2d sx sy rm p) _ _ o1 o2 hx hy
    exact ⟨o1, o2, i1, i2, rfl⟩
  · intro step_diff idx h1 h2 h3 _
    obtain ⟨o1, o2⟩ := step2_operands sx sy rm dir p step_diff idx h1 h2 h3 hp
    obtain ⟨i1, i2⟩ := map_index_range (comm_2d sx sy rm p) _ _ o1 o2 hx hy
    exact ⟨o1, o2, i1, i2, rfl⟩

/-- Witness for C35: rank 0 of a ring of three ranks reads with the indices 1, 2, 2, 1 in its
second call of `next()`; on the 3 × 2 grid the process at position 4, going down the x axis,
maps `diff = 3 = steps` to the index 4 and `diff = -1` to the index 5. -/
theorem C35_handler_indices_witness :
    ((0 : Nat) < 3 ∧ (4 : Nat) < 3 * 2) ∧
    (∀ m,
      ((AllgatherHandler.after (fun _ => 4) (fun i => 4 * i) 0 3 ((0 + 3 - 1) % 3)
          ((0 + 3 + 1) % 3) 1 m).current <
        (AllgatherHandler.after (fun _ => 4) (fun i => 4 * i) 0 3 ((0 + 3 - 1) % 3)
          ((0 + 3 + 1) % 3) 1 m).size ↔ m + 1 < 3) ∧
      (m + 1 < 3 →
        ∀ x ∈ (AllgatherHandler.after (fun _ => 4) (fun i => 4 * i) 0 3 ((0 + 3 - 1) % 3)
          ((0 + 3 + 1) % 3) 1 m).read_indices, 0 ≤ x ∧ x < ((3 : Nat) : Int))) ∧
    (AllgatherHandler.after (fun _ => 4) (fun i => 4 * i) 0 3 2 1 1 1).read_indices =
      [1, 2, 2, 1] ∧
    AllgatherStep1Handler.map_index (comm_2d 3 2 grid6_rank_map 4) (-1) 0 3 = 4 ∧
    AllgatherStep1Handler.map_index (comm_2d 3 2 grid6_rank_map 4) (-1) 0 (-1) = 5 ∧
    AllgatherStep1Handler.operand_x (comm_2d 3 2 grid6_rank_map 4) (-1) 3 = 1 :=
  ⟨⟨by decide, by decide⟩,
    (C35_handler_indices (fun _ => 4) (fun i => 4 * i) 3 1 0 3 2 grid6_rank_map 4 Dir.xm
      (by decide) (by decide)).1,
    by decide, by decide, by decide, by decide⟩

/-- C33: the request pool of `my_allgatherv_2d` is never exhausted, whatever the order in
which the requests complete.  On the ring path the manager never throws, its pool has 8 slots
and at most 4 are in use after the start and after every completion.  On the 2-D path of a
grid with `size_x, size_y > 0` the manager never throws in phase 1, the pool has
`(size_x + size_y) * 4` slots and at most 8 are in use; when `run(4)` of phase 1 has returned
every slot is on the free list and holds no request; and phase 2 on that manager never throws
either, with at most `4 * (size_x + size_y)` slots in use. -/
theorem C33_pool_never_exhausted (count offset : Nat → Nat) (rank size complete_count : Nat)
    (comm : COMM_2D) (cc1 cc2 : Nat → Nat) (events events1 events2 : List Nat)
    (hx : 0 < comm.size_x) (hy : 0 < comm.size_y) :
    ((∀ e, my_allgatherv_2d.ring_pool count offset rank size complete_count events ≠
          PoolOutcome.raised e) ∧
      my_allgatherv_2d.ring_pool count offset rank size complete_count events ≠
        PoolOutcome.unset_handler ∧
      ∀ p, (my_allgatherv_2d.ring_pool count offset rank size complete_count events).pool =
          some p →
        p.man.MAX_REQUESTS = 8 ∧ in_use p.man ≤ 4) ∧
    ((∀ e, my_allgatherv_2d.phase1_pool count offset comm cc1 events1 ≠
          PoolOutcome.raised e) ∧
      my_allgatherv_2d.phase1_pool count offset comm cc1 events1 ≠
        PoolOutcome.unset_handler ∧
      ∀ p, (my_allgatherv_2d.phase1_pool count offset comm cc1 events1).pool = some p →
        p.man.MAX_REQUESTS = (comm.size_x + comm.size_y) * 4 ∧ in_use p.man ≤ 8) ∧
    ∀ p1, my_allgatherv_2d.phase1_pool count offset comm cc1 events1 =
        PoolOutcome.returned p1 →
      (∀ s, s < p1.man.MAX_REQUESTS → s ∈ p1.man.empty_list ∧ p1.man.reqs s = none) ∧
      in_use p1.man = 0 ∧
      (∀ e, my_allgatherv_2d.phase2_pool count offset comm cc2 p1.man events2 ≠
          PoolOutcome.raised e) ∧
      my_allgatherv_2d.phase2_pool count offset comm cc2 p1.man events2 ≠
        PoolOutcome.unset_handler ∧
      ∀ p, (my_allgatherv_2d.phase2_pool count offset comm cc2 p1.man events2).pool =
          some p →
        p.man.MAX_REQUESTS = (comm.size_x + comm.size_y) * 4 ∧
          in_use p.man ≤ 4 * (comm.size_x + comm.size_y) := by
  have hsum4 : ∀ F : Nat → Nat, ((List.range 4).map F).sum = F 0 + F 1 + F 2 + F 3 := by
    intro F
    simp [List.range_succ]
    omega
  refine ⟨?_, ?_, ?_⟩
  · obtain ⟨r1, r2, r3, _⟩ := PoolOutcome.safe _ _ _ _
      (ring_pool_spec count offset rank size complete_count events)
    refine ⟨r1, r2, fun p hp => ?_⟩
    have hinv := r3 p hp
    have h1 := PoolInv.in_use_le _ _ _ hinv
    have h2 := hinv.total
    have hs : ((List.range 1).map (fun _ : Nat => 4)).sum = 4 := rfl
    rw [hs] at h1 h2
    exact ⟨by omega, h1⟩
  · obtain ⟨r1, r2, r3, _⟩ := PoolOutcome.safe _ _ _ _
      (phase1_pool_spec count offset comm cc1 events1 hx hy)
    refine ⟨r1, r2, fun p hp => ?_⟩
    have hinv := r3 p hp
    have h1 := PoolInv.in_use_le _ _ _ hinv
    have h2 := hinv.total
    have hs : ((List.range 4).map (fun _ : Nat => 2)).sum = 8 := rfl
    rw [hs] at h1 h2
    exact ⟨by omega, h1⟩
  · intro p1 hp1
    obtain ⟨_, _, r3, r4⟩ := PoolOutcome.safe _ _ _ _
      (phase1_pool_spec count offset comm cc1 events1 hx hy)
    have hinv := r3 p1 (by rw [hp1]; rfl)
    obtain ⟨a1, a2, a3, _⟩ := PoolInv.all_free _ _ _ hinv (r4 p1 hp1)
    have h2 := hinv.total
    have hs : ((List.range 4).map (fun _ : Nat => 2)).sum = 8 := rfl
    rw [hs] at h2
    have hM : p1.man.MAX_REQUESTS = (comm.size_x + comm.size_y) * 4 := by omega
    obtain ⟨q1, q2, q3, _⟩ := PoolOutcome.safe _ _ _ _
      (phase2_pool_spec count offset comm cc2 p1.man events2 hx hy hinv.man.1
        (fun s => by
          by_cases hs : s < p1.man.MAX_REQUESTS
          · exact (a3 s hs).2
          · by_contra hne
            exact hs (hinv.man.2.2 s hne).1)
        a2 hM a1)
    refine ⟨a3, ?_, q1, q2, fun p hp => ?_⟩
    · unfold in_use
      omega
    · have hinv2 := q3 p hp
      have h3 := hinv2.total
      rw [hsum4] at h3
      simp only [Nat.lt_irrefl, if_false, if_true, Nat.zero_lt_succ, Nat.one_lt_two,
        Nat.zero_lt_two] at h3
      have hlt : ¬ (3 < 2) := by decide
      simp only [hlt, if_false] at h3
      refine ⟨by omega, ?_⟩
      unfold in_use
      omega

theorem C33_pool_never_exhausted_witness :
    (0 < grid4_comm.size_x ∧ 0 < grid4_comm.size_y) ∧
    ((my_allgatherv_2d.ring_pool (fun _ => 4) (fun i => 4 * i) 0 3 0 []).slots_in_use = some 4 ∧
      (my_allgatherv_2d.ring_pool (fun _ => 4) (fun i => 4 * i) 0 3 0 [7, 6, 5]).slots_in_use =
        some 1 ∧
      (my_allgatherv_2d.ring_pool (fun _ => 4) (fun i => 4 * i) 0 3 0 [7, 6, 5, 4]).slots_in_use =
        some 4 ∧
      (my_allgatherv_2d.ring_pool (fun _ => 4) (fun i => 4 * i) 0 3 0
        [7, 6, 5, 4, 4, 5, 6, 7]).has_returned = true) ∧
    ((my_allgatherv_2d.phase1_pool (fun _ => 4) (fun i => 4 * i) grid4_comm (fun _ => 0)
        []).slots_in_use = some 8 ∧
      (my_allgatherv_2d.phase1_pool (fun _ => 4) (fun i => 4 * i) grid4_comm (fun _ => 0)
        [15, 14, 13, 12, 11, 10, 9, 8]).has_returned = true ∧
      (my_allgatherv_2d.phase2_pool (fun _ => 4) (fun i => 4 * i) grid4_comm (fun _ => 0)
        (my_allgatherv_2d.phase1_pool (fun _ => 4) (fun i => 4 * i) grid4_comm (fun _ => 0)
          [15, 14, 13, 12, 11, 10, 9, 8]).manager []).slots_in_use = some 16 ∧
      (my_allgatherv_2d.phase2_pool (fun _ => 4) (fun i => 4 * i) grid4_comm (fun _ => 0)
        (my_allgatherv_2d.phase1_pool (fun _ => 4) (fun i => 4 * i) grid4_comm (fun _ => 0)
          [15, 14, 13, 12, 11, 10, 9, 8]).manager
        (List.range 16)).has_returned = true) ∧
    (((∀ e, my_allgatherv_2d.ring_pool (fun _ => 4) (fun i => 4 * i) 0 3 0
            [7, 6, 5, 4, 4, 5, 6, 7] ≠ PoolOutcome.raised e) ∧
        my_allgatherv_2d.ring_pool (fun _ => 4) (fun i => 4 * i) 0 3 0
            [7, 6, 5, 4, 4, 5, 6, 7] ≠ PoolOutcome.unset_handler ∧
        ∀ p, (my_allgatherv_2d.ring_pool (fun _ => 4) (fun i => 4 * i) 0 3 0
            [7, 6, 5, 4, 4, 5, 6, 7]).pool = some p →
          p.man.MAX_REQUESTS = 8 ∧ in_use p.man ≤ 4) ∧
      ((∀ e, my_allgatherv_2d.phase1_pool (fun _ => 4) (fun i => 4 * i) grid4_comm
            (fun _ => 0) [15, 14, 13, 12, 11, 10, 9, 8] ≠ PoolOutcome.raised e) ∧
        my_allgatherv_2d.phase1_pool (fun _ => 4) (fun i => 4 * i) grid4_comm
            (fun _ => 0) [15, 14, 13, 12, 11, 10, 9, 8] ≠ PoolOutcome.unset_handler ∧
        ∀ p, (my_allgatherv_2d.phase1_pool (fun _ => 4) (fun i => 4 * i) grid4_comm
            (fun _ => 0) [15, 14, 13, 12, 11, 10, 9, 8]).pool = some p →
          p.man.MAX_REQUESTS = (grid4_comm.size_x + grid4_comm.size_y) * 4 ∧
            in_use p.man ≤ 8) ∧
      ∀ p1, my_allgatherv_2d.phase1_pool (fun _ => 4) (fun i => 4 * i) grid4_comm
          (fun _ => 0) [15, 14, 13, 12, 11, 10, 9, 8] = PoolOutcome.returned p1 →
        (∀ s, s < p1.man.MAX_REQUESTS → s ∈ p1.man.empty_list ∧ p1.man.reqs s = none) ∧
        in_use p1.man = 0 ∧
        (∀ e, my_allgatherv_2d.phase2_pool (fun _ => 4) (fun i => 4 * i) grid4_comm
            (fun _ => 0) p1.man (List.range 16) ≠ PoolOutcome.raised e) ∧
        my_allgatherv_2d.phase2_pool (fun _ => 4) (fun i => 4 * i) grid4_comm
            (fun _ => 0) p1.man (List.range 16) ≠ PoolOutcome.unset_handler ∧
        ∀ p, (my_allgatherv_2d.phase2_pool (fun _ => 4) (fun i => 4 * i) grid4_comm
            (fun _ => 0) p1.man (List.range 16)).pool = some p →
          p.man.MAX_REQUESTS = (grid4_comm.size_x + grid4_comm.size_y) * 4 ∧
            in_use p.man ≤ 4 * (grid4_comm.size_x + grid4_comm.size_y)) :=
  ⟨⟨by decide, by decide⟩, ⟨by decide, by decide, by decide, by decide⟩,
    ⟨by decide, by decide, by decide, by decide⟩,
    C33_pool_never_exhausted (fun _ => 4) (fun i => 4 * i) 0 3 0 grid4_comm (fun _ => 0)
      (fun _ => 0) [7, 6, 5, 4, 4, 5, 6, 7] [15, 14, 13, 12, 11, 10, 9, 8] (List.range 16)
      (by decide) (by decide)⟩

/-- C31 (ties keep the earlier candidate).  A weight `w` wins against `y` when `w < y` as
floats, or `y` is a NaN and `w` is not; equal weights do not win against each other.
`ptr_dedup_put` leaves the state as it is for a candidate that is not strictly smaller than its
registered twin, and the dedup step of `collect_targets_buffer` then marks the later pair and
leaves the twin registered.  On a clean scratch slice, with the candidate vertices inside the
slice and no candidate weight equal to the sentinel pattern: the stream of
`collect_targets_ptr` has one block for each descriptor of non-zero length, in queue order and
with its header words, and a pair of block `j` that is not sentinel-marked is a candidate of
descriptor `j` that wins against every candidate for its vertex in the descriptors in front and
in front of it in its own descriptor, and is undercut by no candidate.  With well-formed queued
buffers the stream of `collect_targets_buffer` holds the queued tokens in place (headers kept,
vertex masked, weight kept or marked), and a payload pair that is not marked is the candidate
at its place, wins against every candidate for its vertex in front of it and is undercut by
none. -/
theorem C31_ties_keep_earlier (SKIP_FILTERING : Bool) (node : CommTarget) (state : SsspState)
    (graph : Graph2DCSR) (stream : Stream) (vertices_pos : VPos)
    (hclean : ∀ v, v < graph.num_local_verts_ → vertices_pos v = -1)
    (hskip : (SKIP_FILTERING && state.is_presolving_mode_) = false)
    (hcand : ∀ c ∈ ptr_candidates node state graph,
      c.1 < graph.num_local_verts_ ∧ c.2 ≠ get_sentinel)
    (hwf : wellFormedBuf (queued_words node) = true)
    (hbnd : ∀ c ∈ buffer_candidates node graph, c.1 < graph.num_local_verts_) :
    (∀ w y, wins w y = true →
      y ≠ w ∧ ¬ (f32isNaN w = false ∧ f32isNaN y = false ∧ f32val w = f32val y)) ∧
    (∀ (st : MergeState) (v w : Nat), ¬ st.vertices_pos v < 0 →
      f32lt w (st.stream ((st.vertices_pos v).toNat + 1)) = false →
      ptr_dedup_put st v w = st) ∧
    (∀ (j : Nat) (s : Stream) (vp : VPos),
      ¬ vp (s j &&& lmask graph) < 0 →
      f32lt (upd s j (s j &&& lmask graph) (j + 1))
        (upd s j (s j &&& lmask graph) ((vp (s j &&& lmask graph)).toNat + 1)) = false →
      ctb_body graph false j (s, vp) =
        (upd (upd s j (s j &&& lmask graph)) (j + 1) get_sentinel, vp)) ∧
    (∃ ks : List Nat,
      PtrLay (collect_targets_ptr node state graph stream vertices_pos).stream 0 ks ∧
      layEnd 0 ks = (collect_targets_ptr node state graph stream vertices_pos).pos ∧
      (readBlocks (collect_targets_ptr node state graph stream vertices_pos).stream 0 ks).map
          (fun b => (b.1, b.2.1)) =
        (node.send_ptr.filter (fun b => decide (b.length ≠ 0))).map header_words ∧
      ∀ (j : Nat) (b : PtrBlock) (d : PointerData),
        (readBlocks (collect_targets_ptr node state graph stream vertices_pos).stream 0
          ks)[j]? = some b →
        (node.send_ptr.filter (fun b => decide (b.length ≠ 0)))[j]? = some d →
        ∀ x ∈ b.2.2, x.2 ≠ get_sentinel →
          ∃ B1 B2, block_candidates state graph d = B1 ++ x :: B2 ∧
            (∀ y ∈ ((node.send_ptr.filter (fun b => decide (b.length ≠ 0))).take j).flatMap
                (block_candidates state graph) ++ B1,
              y.1 = x.1 → wins x.2 y.2 = true) ∧
            ∀ y ∈ ptr_candidates node state graph, y.1 = x.1 → f32lt y.2 x.2 = false) ∧
    ∃ (hs : List Bool) (toks0 : List Tok),
      toPairs (queued_words node) = toks0.flatMap tokAll ∧
      bufEnd 0 hs =
        (collect_targets_buffer SKIP_FILTERING node graph state 0 stream vertices_pos).pos ∧
      BufLay (collect_targets_buffer SKIP_FILTERING node graph state 0 stream
        vertices_pos).stream 0 hs ∧
      List.Forall₂ (TokRel graph) toks0
        (readToks (collect_targets_buffer SKIP_FILTERING node graph state 0 stream
          vertices_pos).stream 0 hs) ∧
      ∀ (i : Nat) (t : Tok),
        (readToks (collect_targets_buffer SKIP_FILTERING node graph state 0 stream
          vertices_pos).stream 0 hs)[i]? = some t →
        t.2.2 ≠ get_sentinel →
        (buffer_candidates node graph)[i]? = some t.2 ∧
        (∀ y ∈ (buffer_candidates node graph).take i, y.1 = t.2.1 →
          wins t.2.2 y.2 = true) ∧
        ∀ y ∈ buffer_candidates node graph, y.1 = t.2.1 → f32lt y.2 t.2.2 = false := by
  refine ⟨fun w y h => ⟨wins_ne h, wins_not_float_eq h⟩, ?_, ?_, ?_, ?_⟩
  · intro st v w hneg hlt
    unfold ptr_dedup_put
    rw [if_neg hneg]
    simp only [hlt, Bool.false_eq_true, if_false]
  · intro j s vp hneg hlt
    unfold ctb_body
    simp only [Bool.false_eq_true, if_false, upd_same]
    rw [if_neg hneg]
    simp only [hlt, Bool.false_eq_true, if_false]
  · obtain ⟨ks, hk, hb⟩ := collect_targets_ptr_tie graph.num_local_verts_ node state graph
      stream vertices_pos hclean hcand
    have h0 : BInv graph.num_local_verts_ ⟨stream, vertices_pos, 0⟩ [] [] :=
      ⟨trivial, rfl, DInv_init _ stream vertices_pos hclean⟩
    obtain ⟨ks2, hk2, he⟩ := BInv_blocks_headers state graph node.send_ptr h0 (by
      intro b hb c hcm
      apply hcand
      simp only [ptr_candidates, List.mem_flatMap]
      exact ⟨b, hb, hcm⟩)
    have hks : ks2 = ks := by
      apply PtrLay_unique ks2 ks 0 hk2.lay hk.lay
      rw [← hk2.pos, ← hk.pos]
      rfl
    subst hks
    obtain ⟨_, hget⟩ := TieBlocks_get ks2 _ [] 0 hb
    refine ⟨ks2, hk.lay, hk.pos.symm, ?_, ?_⟩
    · rw [readBlocks_headers]
      simpa [hdrPos, header_words] using he
    · intro j b d hjb hjd x hx hlive
      obtain ⟨B1, B2, e, hw⟩ := hget j b (block_candidates state graph d) hjb
        (by rw [List.getElem?_map, hjd]; rfl) x hx hlive
      refine ⟨B1, B2, e, ?_, ?_⟩
      · intro y hy
        apply hw
        simpa [List.map_take, List.flatMap_def] using hy
      · have hmem : x ∈ livePairs (collect_targets_ptr node state graph stream
            vertices_pos).stream (pairPos 0 ks2) := by
          have h1 : x ∈ blockPairs (readBlocks (collect_targets_ptr node state graph stream
              vertices_pos).stream 0 ks2) := by
            simp only [blockPairs, List.mem_flatMap]
            exact ⟨b, List.getElem?_mem hjb, hx⟩
          rw [blockPairs_readBlocks] at h1
          simp only [livePairs, List.mem_filter, live, decide_eq_true_eq]
          exact ⟨h1, hlive⟩
        exact (DInv_min hk.inv x hmem).2
  · obtain ⟨hs, toks0, t1, t2, t3, t4, t5, t6⟩ :=
      collect_targets_buffer_tie (L := graph.num_local_verts_) SKIP_FILTERING node graph state
        0 stream vertices_pos [] [] hskip hwf (DInv_init _ stream vertices_pos hclean)
        (by simp) hbnd
    obtain ⟨_, u1, _⟩ := collect_targets_buffer_spec (L := graph.num_local_verts_)
      SKIP_FILTERING node graph state 0 stream vertices_pos [] [] hskip hwf
      (DInv_init _ stream vertices_pos hclean) (by simp) hbnd
    refine ⟨hs, toks0, t1, ?_, t3, t4, ?_⟩
    · rw [t2, u1, Nat.zero_add]
    · intro i t hi hlive
      obtain ⟨a1, a2⟩ := t6 i t hi hlive
      refine ⟨a1, ?_, ?_⟩
      · intro y hy
        exact a2 y (by simpa using hy)
      · have hmem : t.2 ∈ livePairs (collect_targets_buffer SKIP_FILTERING node graph state 0
            stream vertices_pos).stream (bufPos 0 hs) := by
          have h1 : t.2 ∈ (readToks (collect_targets_buffer SKIP_FILTERING node graph state 0
              stream vertices_pos).stream 0 hs).map Prod.snd :=
            List.mem_map.2 ⟨t, List.getElem?_mem hi, rfl⟩
          rw [readToks_payload] at h1
          simp only [livePairs, List.mem_filter, live, decide_eq_true_eq]
          exact ⟨h1, hlive⟩
        simp only [List.nil_append] at t5
        exact (DInv_min t5 t.2 hmem).2

/-- Witness for C31 on `tie_node`: the candidate `(2, 4.0)` of the second descriptor ties with
the one of the first descriptor and is not written, so the pair stays in the first block; the
pair `(5, 1.0)` behind the header ties with the first queued pair and is marked. -/
theorem C31_ties_keep_earlier_witness :
    ((∀ v, v < e1_graph.num_local_verts_ → (fun _ => (-1 : Int)) v = -1) ∧
      (false && (e1_state 0).is_presolving_mode_) = false ∧
      (∀ c ∈ ptr_candidates tie_node (e1_state 0) e1_graph,
        c.1 < e1_graph.num_local_verts_ ∧ c.2 ≠ get_sentinel) ∧
      wellFormedBuf (queued_words tie_node) = true ∧
      ∀ c ∈ buffer_candidates tie_node e1_graph, c.1 < e1_graph.num_local_verts_) ∧
    (ptr_candidates tie_node (e1_state 0) e1_graph =
        [(1, 0x40400000), (2, 0x40800000), (2, 0x40800000)] ∧
      words (collect_targets_ptr tie_node (e1_state 0) e1_graph (fun _ => 0)
          (fun _ => -1)).stream 0
        (collect_targets_ptr tie_node (e1_state 0) e1_graph (fun _ => 0) (fun _ => -1)).pos =
        [1, 2, 4, 1, 0x40400000, 2, 0x40800000, 3, 4, 0] ∧
      buffer_candidates tie_node e1_graph = [(5, 0x3F800000), (5, 0x3F800000)] ∧
      words (collect_targets_buffer false tie_node e1_graph (e1_state 0) 0 (fun _ => 0)
          (fun _ => -1)).stream 0
        (collect_targets_buffer false tie_node e1_graph (e1_state 0) 0 (fun _ => 0)
          (fun _ => -1)).pos =
        [5, 0x3F800000, 0x80000007, 9, 5, 0xBF800000] ∧
      wins 0x40800000 0x40800000 = false) ∧
    (∃ ks : List Nat,
      PtrLay (collect_targets_ptr tie_node (e1_state 0) e1_graph (fun _ => 0)
        (fun _ => -1)).stream 0 ks ∧
      layEnd 0 ks =
        (collect_targets_ptr tie_node (e1_state 0) e1_graph (fun _ => 0) (fun _ => -1)).pos ∧
      (readBlocks (collect_targets_ptr tie_node (e1_state 0) e1_graph (fun _ => 0)
          (fun _ => -1)).stream 0 ks).map (fun b => (b.1, b.2.1)) =
        (tie_node.send_ptr.filter (fun b => decide (b.length ≠ 0))).map header_words ∧
      ∀ (j : Nat) (b : PtrBlock) (d : PointerData),
        (readBlocks (collect_targets_ptr tie_node (e1_state 0) e1_graph (fun _ => 0)
          (fun _ => -1)).stream 0 ks)[j]? = some b →
        (tie_node.send_ptr.filter (fun b => decide (b.length ≠ 0)))[j]? = some d →
        ∀ x ∈ b.2.2, x.2 ≠ get_sentinel →
          ∃ B1 B2, block_candidates (e1_state 0) e1_graph d = B1 ++ x :: B2 ∧
            (∀ y ∈ ((tie_node.send_ptr.filter (fun b => decide (b.length ≠ 0))).take
                  j).flatMap (block_candidates (e1_state 0) e1_graph) ++ B1,
              y.1 = x.1 → wins x.2 y.2 = true) ∧
            ∀ y ∈ ptr_candidates tie_node (e1_state 0) e1_graph, y.1 = x.1 →
              f32lt y.2 x.2 = false) :=
  ⟨⟨fun _ _ => rfl, rfl, by decide, by decide, by decide⟩,
    ⟨by decide, by decide, by decide, by decide, by decide⟩,
    (C31_ties_keep_earlier false tie_node (e1_state 0) e1_graph (fun _ => 0) (fun _ => -1)
      (fun _ _ => rfl) rfl (by decide) (by decide) (by decide)).2.2.2.1⟩

/-- C19, the code at the failing input: the queued words `(5, 1.0)`, header `(0x80000007, 9)`,
`(5, 2.0)` are well formed; the dedup pass of `collect_targets_buffer` marks the dominated
pair `(5, 2.0)`, the only pair of the header, and `remove_sentinels_buffer` returns the four
words `5, 1.0, 0x80000007, 9`: the header is the last header before end-of-stream, it is kept,
and no payload pair follows it.  When another header follows (a header, a sentinel-marked pair,
a second header and the pair `(5, 1.0)`), the first header is removed, and the sibling
`remove_sentinels_ptr` removes a block without live pair also when it is the last block (a
block whose only pair is sentinel-marked; and the two pointer blocks of
`trailing_block_node`, the only candidate of the second dominated by the first).  For every
stream laid out as buffer-origin tokens, the output of `remove_sentinels_buffer` is a list of
pairs in which every header that is not the last pair is immediately followed by a payload
pair: only the last pair of the output can be a header without payload. -/
theorem C19_trailing_header_kept :
    (wellFormedBuf (queued_words trailing_header_node) = true ∧
      words (collect_targets_buffer false trailing_header_node e1_graph (e1_state 0) 0
          (fun _ => 0) (fun _ => -1)).stream 0 6 =
        [5, 0x3F800000, 0x80000007, 9, 5, get_sentinel] ∧
      words (run_buffer_merge false trailing_header_node (e1_state 0) e1_graph (fun _ => 0)
          (fun _ => -1)).stream 0
        (run_buffer_merge false trailing_header_node (e1_state 0) e1_graph (fun _ => 0)
          (fun _ => -1)).pos = [5, 0x3F800000, 0x80000007, 9]) ∧
    words (remove_sentinels_buffer e1_graph 0 0 8
        (fun i => [0x80000007, 9, 5, get_sentinel, 0x80000008, 3, 5, 0x3F800000].getD i 0)
        (fun _ => -1)).stream 0
      (remove_sentinels_buffer e1_graph 0 0 8
        (fun i => [0x80000007, 9, 5, get_sentinel, 0x80000008, 3, 5, 0x3F800000].getD i 0)
        (fun _ => -1)).pos = [0x80000008, 3, 5, 0x3F800000] ∧
    (words (remove_sentinels_ptr e1_graph 10
          (fun i => [1, 2, 2, 1, 0x40200000, 3, 4, 2, 1, get_sentinel].getD i 0)
          (fun _ => -1)).stream 0
        (remove_sentinels_ptr e1_graph 10
          (fun i => [1, 2, 2, 1, 0x40200000, 3, 4, 2, 1, get_sentinel].getD i 0)
          (fun _ => -1)).pos = [1, 2, 2, 1, 0x40200000] ∧
      words (collect_targets_ptr trailing_block_node (e1_state 0) e1_graph (fun _ => 0)
          (fun _ => -1)).stream 0
        (collect_targets_ptr trailing_block_node (e1_state 0) e1_graph (fun _ => 0)
          (fun _ => -1)).pos = [1, 2, 2, 1, 0x40200000, 3, 4, 0] ∧
      words (run_ptr_merge trailing_block_node (e1_state 0) e1_graph (fun _ => 0)
          (fun _ => -1)).stream 0
        (run_ptr_merge trailing_block_node (e1_state 0) e1_graph (fun _ => 0)
          (fun _ => -1)).pos = [1, 2, 2, 1, 0x40200000]) ∧
    ∀ (graph : Graph2DCSR) (read_start write_start : Nat) (hs : List Bool) (s : Stream)
      (vp : VPos), BufLay s read_start hs → write_start ≤ read_start →
      ∃ out : List (Nat × Nat),
        (remove_sentinels_buffer graph read_start write_start
          (bufEnd read_start hs - read_start) s vp).pos = 2 * out.length ∧
        words (remove_sentinels_buffer graph read_start write_start
            (bufEnd read_start hs - read_start) s vp).stream write_start
          (remove_sentinels_buffer graph read_start write_start
            (bufEnd read_start hs - read_start) s vp).pos = flattenPairs out ∧
        List.Chain' (fun a b => isPayload a = false → isPayload b = true) out ∧
        ∀ k, k + 1 < out.length → isPayload (out.getD k (0, 0)) = false →
          isPayload (out.getD (k + 1) (0, 0)) = true :=
  ⟨by decide, by decide, by decide,
    fun graph read_start write_start hs s vp hlay hle =>
      remove_sentinels_buffer_header_chain graph read_start write_start hs s vp hlay hle⟩

end AbstractComm
